import Mathlib

/-!
# The expression rewriter of the Peloton optimizer

A shallow embedding of `optimizer/rewriter.cpp`, `optimizer/rule_rewrite.cpp`,
`optimizer/absexpr_expression.{h,cpp}` and `optimizer/rule.{h,cpp}`, followed by
the properties proved about them.

Conventions of the embedding:

* a `PELOTON_ASSERT` that fails is the result `none` (the process aborts);
* an output parameter (`std::vector<...> &transformed`) is passed in and returned;
* a `shared_ptr` that may be null is an `Option`;
* loops that are driven by the task stack take a `fuel` argument, one unit per
  executed task.
-/

namespace peloton

/-! ## Type system values (`type::Value`) -/

/-- Modelled from the spec: the type identifiers of `type::TypeId`
(`type/type_id.h` is not part of the sources at hand).  Only `BOOLEAN` and
`INTEGER` are named by the rewriter and its tests; every other identifier is
`OTHER n`. -/
inductive TypeId where
  | INVALID
  | BOOLEAN
  | INTEGER
  | OTHER (id : Nat)
  deriving DecidableEq, Repr

/-- Modelled from the spec: the three-valued comparison result `CmpBool`
(`{TRUE, FALSE, NULL}` in the specification, section 6). -/
inductive CmpBool where
  | CmpFalse
  | CmpTrue
  | NULL_
  deriving DecidableEq, Repr

/-- Modelled from the spec: a `type::Value` is a type identifier together with a
payload, where the payload of SQL NULL is `none` (`NullValue(type-id)`), the
payload of `IntegerValue(i)` is `i` and the payload of `BooleanValue` is `1`
for TRUE and `0` for FALSE. -/
structure Value where
  type_id : TypeId
  data : Option Int
  deriving DecidableEq, Repr

namespace Value

/-- Modelled from the spec: `Value::IsNull`. -/
def IsNull (v : Value) : Bool := v.data.isNone

/-- Modelled from the spec: the common shape of the `Compare...` family of
`type::Value`: NULL when either operand is NULL, otherwise the truth value of
the relation on the two payloads. -/
def compareWith (rel : Int → Int → Bool) (l r : Value) : CmpBool :=
  match l.data, r.data with
  | some a, some b => if rel a b then CmpBool.CmpTrue else CmpBool.CmpFalse
  | _, _ => CmpBool.NULL_

/-- Modelled from the spec: `Value::CompareEquals`. -/
def CompareEquals (l r : Value) : CmpBool := compareWith (fun a b => decide (a = b)) l r

/-- Modelled from the spec: `Value::CompareNotEquals`. -/
def CompareNotEquals (l r : Value) : CmpBool := compareWith (fun a b => decide (a ≠ b)) l r

/-- Modelled from the spec: `Value::CompareLessThan`. -/
def CompareLessThan (l r : Value) : CmpBool := compareWith (fun a b => decide (a < b)) l r

/-- Modelled from the spec: `Value::CompareGreaterThan`. -/
def CompareGreaterThan (l r : Value) : CmpBool := compareWith (fun a b => decide (a > b)) l r

/-- Modelled from the spec: `Value::CompareGreaterThanEquals`. -/
def CompareGreaterThanEquals (l r : Value) : CmpBool :=
  compareWith (fun a b => decide (a ≥ b)) l r

end Value

namespace ValueFactory

/-- Modelled from the spec: `ValueFactory::GetIntegerValue`. -/
def GetIntegerValue (i : Int) : Value := ⟨TypeId.INTEGER, some i⟩

/-- Modelled from the spec: `ValueFactory::GetNullValueByType`. -/
def GetNullValueByType (t : TypeId) : Value := ⟨t, none⟩

/-- Modelled from the spec: `ValueFactory::GetBooleanValue(CmpBool)`, the
constructor `BooleanValue(bool|NULL)` of the specification. -/
def GetBooleanValue (c : CmpBool) : Value :=
  match c with
  | CmpBool.CmpTrue => ⟨TypeId.BOOLEAN, some 1⟩
  | CmpBool.CmpFalse => ⟨TypeId.BOOLEAN, some 0⟩
  | CmpBool.NULL_ => ⟨TypeId.BOOLEAN, none⟩

/-- Modelled from the spec: `ValueFactory::GetBooleanValue(bool)`. -/
def GetBooleanValueOfBool (b : Bool) : Value :=
  ⟨TypeId.BOOLEAN, some (if b then 1 else 0)⟩

end ValueFactory

/-- The comparability test `Value::CheckComparable` belongs to the type system,
which is not part of the sources at hand; the rules take it as an argument. -/
abbrev Comparability := Value → Value → Bool

/-! ## Expressions (`expression::AbstractExpression`) -/

/-- Group identifiers (`using GroupID = int32_t`). -/
abbrev GroupID := Nat

/-- The expression type tags that the rewriter names. -/
inductive ExpressionType where
  | INVALID
  | OPERATOR_PLUS
  | OPERATOR_MINUS
  | OPERATOR_MULTIPLY
  | OPERATOR_DIVIDE
  | OPERATOR_CONCAT
  | OPERATOR_MOD
  | OPERATOR_CAST
  | OPERATOR_NOT
  | OPERATOR_IS_NULL
  | OPERATOR_IS_NOT_NULL
  | OPERATOR_EXISTS
  | OPERATOR_UNARY_MINUS
  | COMPARE_EQUAL
  | COMPARE_NOTEQUAL
  | COMPARE_LESSTHAN
  | COMPARE_GREATERTHAN
  | COMPARE_LESSTHANOREQUALTO
  | COMPARE_GREATERTHANOREQUALTO
  | COMPARE_LIKE
  | COMPARE_NOTLIKE
  | COMPARE_IN
  | COMPARE_DISTINCT_FROM
  | CONJUNCTION_AND
  | CONJUNCTION_OR
  | VALUE_CONSTANT
  | VALUE_PARAMETER
  | VALUE_TUPLE
  | VALUE_TUPLE_ADDRESS
  | VALUE_NULL
  | VALUE_VECTOR
  | VALUE_SCALAR
  | AGGREGATE_COUNT
  | AGGREGATE_COUNT_STAR
  | AGGREGATE_SUM
  | AGGREGATE_MIN
  | AGGREGATE_MAX
  | AGGREGATE_AVG
  | FUNCTION
  | HASH_RANGE
  | OPERATOR_CASE_EXPR
  | STAR
  | PLACEHOLDER
  | COLUMN_REF
  | FUNCTION_REF
  | TABLE_REF
  | ROW_SUBQUERY
  | SELECT_SUBQUERY
  | GROUP_MARKER
  deriving DecidableEq, Repr

/-- Modelled from the spec: the class of an expression node with the state that
the class adds to the base class (section 3, "Expression node"): the value of a
constant, the table, column and resolved id of a column reference, the result
type of an arithmetic operator, the distinct flag of an aggregate, the name of
a function, the group of a group marker. -/
inductive ExprClass where
  | ConstantValueExpression (value : Value)
  | TupleValueExpression (table_name col_name : String) (bound_oid : Option Nat)
  | ComparisonExpression
  | ConjunctionExpression
  | OperatorExpression (return_value_type : TypeId)
  | OperatorUnaryMinusExpression
  | StarExpression
  | ParameterValueExpression (value_idx : Nat)
  | AggregateExpression (distinct : Bool)
  | FunctionExpression (func_name : String)
  | CaseExpression
  | SubqueryExpression
  | GroupMarkerExpression (group_id : GroupID)
  deriving DecidableEq, Repr

/-- Modelled from the spec: an expression node is a tag, the state of its class
and an ordered list of child expressions. -/
inductive AbstractExpression where
  | mk (exp_type : ExpressionType) (cls : ExprClass) (children : List AbstractExpression)
  deriving Repr

namespace AbstractExpression

/-- The tag of the node: `GetExpressionType()`. -/
def GetExpressionType : AbstractExpression → ExpressionType
  | mk t _ _ => t

/-- The class state of the node. -/
def GetClass : AbstractExpression → ExprClass
  | mk _ c _ => c

/-- The children of the node. -/
def GetChildren : AbstractExpression → List AbstractExpression
  | mk _ _ cs => cs

/-- The number of children: `GetChildrenSize()`. -/
def GetChildrenSize (e : AbstractExpression) : Nat := e.GetChildren.length

/-- The node with its children removed: the effect of `ClearChildren()`. -/
def ClearChildren : AbstractExpression → AbstractExpression
  | mk t c _ => mk t c []

mutual
/-- Modelled from the spec: exact equality of two expressions compares the tag,
the class state and, recursively, the children (section 4.1). -/
def ExactlyEquals : AbstractExpression → AbstractExpression → Bool
  | mk t c cs, mk t2 c2 cs2 => decide (t = t2) && decide (c = c2) && ExactlyEqualsList cs cs2
/-- Exact equality of two child lists, position by position. -/
def ExactlyEqualsList : List AbstractExpression → List AbstractExpression → Bool
  | [], [] => true
  | a :: as, b :: bs => ExactlyEquals a b && ExactlyEqualsList as bs
  | _, _ => false
end

end AbstractExpression

namespace expression

/-- Modelled from the spec: the constructor `ConstantValueExpression(value)`. -/
def ConstantValueExpression (value : Value) : AbstractExpression :=
  AbstractExpression.mk ExpressionType.VALUE_CONSTANT (ExprClass.ConstantValueExpression value) []

/-- Modelled from the spec: the constructor `TupleValueExpression(col_name, table_name)`
of an unresolved column reference. -/
def TupleValueExpression (col_name table_name : String) : AbstractExpression :=
  AbstractExpression.mk ExpressionType.VALUE_TUPLE
    (ExprClass.TupleValueExpression table_name col_name none) []

/-- Modelled from the spec: the constructor `ComparisonExpression(type, left, right)`;
a null child is not stored. -/
def ComparisonExpression (type : ExpressionType) (left right : Option AbstractExpression) :
    AbstractExpression :=
  AbstractExpression.mk type ExprClass.ComparisonExpression (left.toList ++ right.toList)

/-- Modelled from the spec: the constructor `ConjunctionExpression(type, left, right)`;
a null child is not stored. -/
def ConjunctionExpression (type : ExpressionType) (left right : Option AbstractExpression) :
    AbstractExpression :=
  AbstractExpression.mk type ExprClass.ConjunctionExpression (left.toList ++ right.toList)

/-- Modelled from the spec: the constructor `ConjunctionExpression(type)` without children. -/
def ConjunctionExpressionOfType (type : ExpressionType) : AbstractExpression :=
  AbstractExpression.mk type ExprClass.ConjunctionExpression []

/-- Modelled from the spec: the constructor `OperatorExpression(type, ret, left, right)`;
a null child is not stored. -/
def OperatorExpression (type : ExpressionType) (ret : TypeId)
    (left right : Option AbstractExpression) : AbstractExpression :=
  AbstractExpression.mk type (ExprClass.OperatorExpression ret) (left.toList ++ right.toList)

/-- Modelled from the spec: the constructor `OperatorUnaryMinusExpression(left)`. -/
def OperatorUnaryMinusExpression (left : Option AbstractExpression) : AbstractExpression :=
  AbstractExpression.mk ExpressionType.OPERATOR_UNARY_MINUS ExprClass.OperatorUnaryMinusExpression
    left.toList

/-- The constructor of `group_marker_expression.h`: tag `GROUP_MARKER`, no children. -/
def GroupMarkerExpression (group_id : GroupID) : AbstractExpression :=
  AbstractExpression.mk ExpressionType.GROUP_MARKER (ExprClass.GroupMarkerExpression group_id) []

/-- The value of a node of class `ConstantValueExpression`:
`dynamic_pointer_cast<ConstantValueExpression>` followed by `GetValue()`;
`none` when the pointer is null or the cast fails. -/
def asConstantValue : Option AbstractExpression → Option Value
  | some (AbstractExpression.mk _ (ExprClass.ConstantValueExpression v) _) => some v
  | _ => none

/-- Modelled from the spec: `GetValueType()`, the result type carried by the
node: the type of a constant, the result type of an arithmetic operator; the
other variants of the specification carry none. -/
def GetValueType : AbstractExpression → TypeId
  | AbstractExpression.mk _ (ExprClass.ConstantValueExpression v) _ => v.type_id
  | AbstractExpression.mk _ (ExprClass.OperatorExpression ret) _ => ret
  | _ => TypeId.INVALID

/-- Modelled from the spec: `SetChild(index, expr)` replaces the child at a
position that exists. -/
def SetChild (e : AbstractExpression) (index : Nat) (child : AbstractExpression) :
    AbstractExpression :=
  match e with
  | AbstractExpression.mk t c cs => AbstractExpression.mk t c (cs.set index child)

end expression

/-! ## Containers (`optimizer/absexpr_expression.h`) -/

/-- The class `AbsExpr_Container`: a shared pointer to one expression node. -/
structure AbsExpr_Container where
  node : Option AbstractExpression
  deriving Repr

namespace AbsExpr_Container

/-- The member `IsDefined`. -/
def IsDefined (c : AbsExpr_Container) : Bool := c.node.isSome

/-- The member `GetType`. -/
def GetType (c : AbsExpr_Container) : ExpressionType :=
  match c.node with
  | some n => n.GetExpressionType
  | none => ExpressionType.INVALID

/-- The member `GetExpr`. -/
def GetExpr (c : AbsExpr_Container) : Option AbstractExpression := c.node

/-- The member `operator==`. -/
def operator_eq (l r : AbsExpr_Container) : Bool :=
  if l.IsDefined && r.IsDefined then
    false
  else if !l.IsDefined && !r.IsDefined then
    true
  else
    false

/-- The member `CopyWithChildren` of `absexpr_expression.cpp`. -/
def CopyWithChildren (c : AbsExpr_Container) (children : List AbstractExpression) :
    Option AbstractExpression :=
  let left := children[0]?
  let right := children[1]?
  let type := c.GetType
  match type with
  | ExpressionType.COMPARE_EQUAL
  | ExpressionType.COMPARE_NOTEQUAL
  | ExpressionType.COMPARE_LESSTHAN
  | ExpressionType.COMPARE_GREATERTHAN
  | ExpressionType.COMPARE_LESSTHANOREQUALTO
  | ExpressionType.COMPARE_GREATERTHANOREQUALTO
  | ExpressionType.COMPARE_LIKE
  | ExpressionType.COMPARE_NOTLIKE
  | ExpressionType.COMPARE_IN
  | ExpressionType.COMPARE_DISTINCT_FROM =>
    some (expression.ComparisonExpression type left right)
  | ExpressionType.CONJUNCTION_AND
  | ExpressionType.CONJUNCTION_OR =>
    some (expression.ConjunctionExpression type left right)
  | ExpressionType.OPERATOR_PLUS
  | ExpressionType.OPERATOR_MINUS
  | ExpressionType.OPERATOR_MULTIPLY
  | ExpressionType.OPERATOR_DIVIDE
  | ExpressionType.OPERATOR_CONCAT
  | ExpressionType.OPERATOR_MOD
  | ExpressionType.OPERATOR_NOT
  | ExpressionType.OPERATOR_IS_NULL
  | ExpressionType.OPERATOR_IS_NOT_NULL
  | ExpressionType.OPERATOR_EXISTS =>
    c.node.map fun node =>
      expression.OperatorExpression type (expression.GetValueType node) left right
  | ExpressionType.OPERATOR_UNARY_MINUS =>
    if children.length = 1 then some (expression.OperatorUnaryMinusExpression left) else none
  | ExpressionType.STAR
  | ExpressionType.VALUE_CONSTANT
  | ExpressionType.VALUE_PARAMETER
  | ExpressionType.VALUE_TUPLE =>
    if children.length = 0 then c.node else none
  | ExpressionType.AGGREGATE_COUNT
  | ExpressionType.AGGREGATE_COUNT_STAR
  | ExpressionType.AGGREGATE_SUM
  | ExpressionType.AGGREGATE_MIN
  | ExpressionType.AGGREGATE_MAX
  | ExpressionType.AGGREGATE_AVG =>
    match c.node with
    | some node =>
      if node.GetChildrenSize = children.length then
        match children with
        | [child] => some (expression.SetChild node 0 child)
        | _ => some node
      else none
    | none => none
  | ExpressionType.FUNCTION =>
    match c.node with
    | some node =>
      if children.length = node.GetChildrenSize then
        some ((List.range children.length).foldl
          (fun copy i => match children[i]? with
            | some child => expression.SetChild copy i child
            | none => copy) node)
      else none
    | none => none
  | ExpressionType.ROW_SUBQUERY
  | ExpressionType.OPERATOR_CASE_EXPR =>
    if children.length = 0 then c.node else none
  | _ => c.node

end AbsExpr_Container

/-- The class `AbsExpr_Expression`: a container with the children of the node. -/
inductive AbsExpr_Expression where
  | mk (op : AbsExpr_Container) (children : List AbsExpr_Expression)
  deriving Repr

namespace AbsExpr_Expression

/-- The member `Op`. -/
def Op : AbsExpr_Expression → AbsExpr_Container
  | mk op _ => op

/-- The member `Children`. -/
def Children : AbsExpr_Expression → List AbsExpr_Expression
  | mk _ cs => cs

/-- The member `PushChild`. -/
def PushChild (e child : AbsExpr_Expression) : AbsExpr_Expression :=
  match e with
  | mk op cs => mk op (cs ++ [child])

/-- A container expression without children, as built by
`std::make_shared<AbsExpr_Expression>(container)`. -/
def ofContainer (op : AbsExpr_Container) : AbsExpr_Expression := mk op []

end AbsExpr_Expression

/-! ## Patterns and rules (`optimizer/rule.h`, `optimizer/rule_rewrite.{h,cpp}`) -/

/-- Modelled from the spec: a pattern is a tag with ordered child patterns
(section 3, "Pattern"); the tag `GROUP_MARKER` is the leaf that matches a whole
group. -/
inductive Pattern where
  | mk (type : ExpressionType) (children : List Pattern)
  deriving Repr

namespace Pattern

/-- The member `Type()`. -/
def type : Pattern → ExpressionType
  | mk t _ => t

/-- The member `Children`. -/
def Children : Pattern → List Pattern
  | mk _ cs => cs

/-- A pattern without children, `Pattern<ExpressionType>(type)`. -/
def leaf (type : ExpressionType) : Pattern := mk type []

end Pattern

/-- The rule identifiers of the expression rewrite rules, in the order in which
`rule.cpp` registers the rules (the enumeration itself is declared in
`common/internal_types.h`). -/
inductive RuleType where
  | CONSTANT_COMPARE_EQUAL
  | CONSTANT_COMPARE_NOTEQUAL
  | CONSTANT_COMPARE_LESSTHAN
  | CONSTANT_COMPARE_GREATERTHAN
  | CONSTANT_COMPARE_LESSTHANOREQUALTO
  | CONSTANT_COMPARE_GREATERTHANOREQUALTO
  | EQUIV_AND
  | EQUIV_OR
  | EQUIV_COMPARE_EQUAL
  | TV_EQUALITY_WITH_TWO_CV
  | TRANSITIVE_CLOSURE_CONSTANT
  | AND_SHORT_CIRCUIT
  | OR_SHORT_CIRCUIT
  deriving DecidableEq, Repr

/-- The integer value of a rule identifier, `static_cast<uint32_t>(type_)`, counted
from the first expression rewrite rule. -/
def RuleType.toIdx : RuleType → Nat
  | RuleType.CONSTANT_COMPARE_EQUAL => 0
  | RuleType.CONSTANT_COMPARE_NOTEQUAL => 1
  | RuleType.CONSTANT_COMPARE_LESSTHAN => 2
  | RuleType.CONSTANT_COMPARE_GREATERTHAN => 3
  | RuleType.CONSTANT_COMPARE_LESSTHANOREQUALTO => 4
  | RuleType.CONSTANT_COMPARE_GREATERTHANOREQUALTO => 5
  | RuleType.EQUIV_AND => 6
  | RuleType.EQUIV_OR => 7
  | RuleType.EQUIV_COMPARE_EQUAL => 8
  | RuleType.TV_EQUALITY_WITH_TWO_CV => 9
  | RuleType.TRANSITIVE_CLOSURE_CONSTANT => 10
  | RuleType.AND_SHORT_CIRCUIT => 11
  | RuleType.OR_SHORT_CIRCUIT => 12

/-- The enumeration `RulePriority` of `rule_rewrite.h`, as its integer value. -/
inductive RulePriority where
  | HIGH
  | MEDIUM
  | LOW
  deriving DecidableEq, Repr

/-- The integer value of a priority: `static_cast<int>(RulePriority::...)`. -/
def RulePriority.toInt : RulePriority → Int
  | RulePriority.HIGH => 3
  | RulePriority.MEDIUM => 2
  | RulePriority.LOW => 1

/-- A constant container expression holding a Boolean value: the replacement
built by `ComparatorElimination::Transform` and `TVEqualityWithTwoCVTransform::Transform`. -/
def constantExpr (val : Value) : AbsExpr_Expression :=
  AbsExpr_Expression.ofContainer ⟨some (expression.ConstantValueExpression val)⟩

namespace ComparatorElimination

/-- The pattern built by the constructor `ComparatorElimination(rule, root)`. -/
def match_pattern (root : ExpressionType) : Pattern :=
  Pattern.mk root [Pattern.leaf ExpressionType.VALUE_CONSTANT,
    Pattern.leaf ExpressionType.VALUE_CONSTANT]

/-- The member `ComparatorElimination::Promise`. -/
def Promise : Int := RulePriority.MEDIUM.toInt

/-- The member `ComparatorElimination::Check`. -/
def Check (_plan : AbsExpr_Expression) : Bool := true

/-- The comparison selected by the `switch (type_)` of
`ComparatorElimination::Transform`; `none` is the default branch, which asserts. -/
def compare (type_ : RuleType) (lvalue rvalue : Value) : Option CmpBool :=
  match type_ with
  | RuleType.CONSTANT_COMPARE_EQUAL => some (lvalue.CompareEquals rvalue)
  | RuleType.CONSTANT_COMPARE_NOTEQUAL => some (lvalue.CompareNotEquals rvalue)
  | RuleType.CONSTANT_COMPARE_LESSTHAN => some (lvalue.CompareLessThan rvalue)
  | RuleType.CONSTANT_COMPARE_GREATERTHAN => some (lvalue.CompareGreaterThan rvalue)
  | RuleType.CONSTANT_COMPARE_LESSTHANOREQUALTO =>
    let cmp := lvalue.CompareGreaterThan rvalue
    if cmp ≠ CmpBool.NULL_ then
      some (if cmp = CmpBool.CmpFalse then CmpBool.CmpTrue else CmpBool.CmpFalse)
    else
      some cmp
  | RuleType.CONSTANT_COMPARE_GREATERTHANOREQUALTO => some (lvalue.CompareGreaterThanEquals rvalue)
  | _ => none

/-- The member `ComparatorElimination::Transform`. -/
def Transform (cc : Comparability) (type_ : RuleType) (input : AbsExpr_Expression)
    (transformed : List AbsExpr_Expression) : Option (List AbsExpr_Expression) :=
  match input.Children with
  | [l, r] =>
    match expression.asConstantValue l.Op.GetExpr, expression.asConstantValue r.Op.GetExpr with
    | some lvalue, some rvalue =>
      if cc lvalue rvalue then
        match compare type_ lvalue rvalue with
        | some cmp => some (transformed ++ [constantExpr (ValueFactory.GetBooleanValue cmp)])
        | none => none
      else
        some transformed
    | _, _ => none
  | _ => none

end ComparatorElimination

namespace EquivalentTransform

/-- The pattern built by the constructor `EquivalentTransform(rule, root)`. -/
def match_pattern (root : ExpressionType) : Pattern :=
  Pattern.mk root [Pattern.leaf ExpressionType.GROUP_MARKER,
    Pattern.leaf ExpressionType.GROUP_MARKER]

/-- The member `EquivalentTransform::Promise`. -/
def Promise : Int := RulePriority.HIGH.toInt

/-- The member `EquivalentTransform::Check`. -/
def Check (_plan : AbsExpr_Expression) : Bool := true

/-- The member `EquivalentTransform::Transform`; `root` is `match_pattern->Type()`. -/
def Transform (root : ExpressionType) (input : AbsExpr_Expression)
    (transformed : List AbsExpr_Expression) : Option (List AbsExpr_Expression) :=
  match input.Children with
  | [left, right] =>
    let expr := expression.ConjunctionExpressionOfType root
    let shared := AbsExpr_Expression.ofContainer ⟨some expr⟩
    some (transformed ++ [(shared.PushChild right).PushChild left])
  | _ => none

end EquivalentTransform

/-- The pattern `AND(Equal(l_left, l_right), Equal(r_left, r_right))` shared by the
two transitive rules. -/
def andOfEqualsPattern (l_left l_right r_left r_right : ExpressionType) : Pattern :=
  Pattern.mk ExpressionType.CONJUNCTION_AND
    [Pattern.mk ExpressionType.COMPARE_EQUAL [Pattern.leaf l_left, Pattern.leaf l_right],
     Pattern.mk ExpressionType.COMPARE_EQUAL [Pattern.leaf r_left, Pattern.leaf r_right]]

/-- The assertions that `Transform` of the two transitive rules makes on a
bound leaf: no children and the expected tag. -/
def isLeafOfType (e : AbsExpr_Expression) (type : ExpressionType) : Bool :=
  e.Children.length == 0 && e.Op.GetType == type

namespace TVEqualityWithTwoCVTransform

/-- The pattern built by the constructor: `(A.B = x) AND (A.B = y)`. -/
def match_pattern : Pattern :=
  andOfEqualsPattern ExpressionType.VALUE_TUPLE ExpressionType.VALUE_CONSTANT
    ExpressionType.VALUE_TUPLE ExpressionType.VALUE_CONSTANT

/-- The member `TVEqualityWithTwoCVTransform::Promise`. -/
def Promise : Int := RulePriority.LOW.toInt

/-- The member `TVEqualityWithTwoCVTransform::Check`. -/
def Check (_plan : AbsExpr_Expression) : Bool := true

/-- The member `TVEqualityWithTwoCVTransform::Transform`. -/
def Transform (cc : Comparability) (input : AbsExpr_Expression)
    (transformed : List AbsExpr_Expression) : Option (List AbsExpr_Expression) :=
  if input.Op.GetType ≠ ExpressionType.CONJUNCTION_AND then none else
  match input.Children with
  | [l_eq, r_eq] =>
    if l_eq.Op.GetType ≠ ExpressionType.COMPARE_EQUAL then none else
    if r_eq.Op.GetType ≠ ExpressionType.COMPARE_EQUAL then none else
    match l_eq.Children, r_eq.Children with
    | [l_tv, l_cv], [r_tv, r_cv] =>
      if !(isLeafOfType l_tv ExpressionType.VALUE_TUPLE) then none else
      if !(isLeafOfType l_cv ExpressionType.VALUE_CONSTANT) then none else
      if !(isLeafOfType r_tv ExpressionType.VALUE_TUPLE) then none else
      if !(isLeafOfType r_cv ExpressionType.VALUE_CONSTANT) then none else
      match l_tv.Op.GetExpr, r_tv.Op.GetExpr with
      | some l_tv_expr, some r_tv_expr =>
        if l_tv_expr.ExactlyEquals r_tv_expr then
          match expression.asConstantValue l_cv.Op.GetExpr,
              expression.asConstantValue r_cv.Op.GetExpr with
          | some l_cv_val, some r_cv_val =>
            if cc l_cv_val r_cv_val then
              let is_eq : Bool := l_cv_val.CompareEquals r_cv_val = CmpBool.CmpTrue
              if is_eq then
                let tv_copy := AbsExpr_Expression.ofContainer l_tv.Op
                let cv_copy := AbsExpr_Expression.ofContainer l_cv.Op
                let conj_expr :=
                  expression.ComparisonExpression ExpressionType.COMPARE_EQUAL none none
                let abs_expr := AbsExpr_Expression.ofContainer ⟨some conj_expr⟩
                some (transformed ++ [(abs_expr.PushChild tv_copy).PushChild cv_copy])
              else
                let val := ValueFactory.GetBooleanValueOfBool false
                some (transformed ++ [constantExpr val])
            else
              some transformed
          | _, _ => none
        else
          some transformed
      | _, _ => none
    | _, _ => none
  | _ => none

end TVEqualityWithTwoCVTransform

namespace TransitiveClosureConstantTransform

/-- The pattern built by the constructor: `(A.B = x) AND (A.B = C.D)`. -/
def match_pattern : Pattern :=
  andOfEqualsPattern ExpressionType.VALUE_TUPLE ExpressionType.VALUE_CONSTANT
    ExpressionType.VALUE_TUPLE ExpressionType.VALUE_TUPLE

/-- The member `TransitiveClosureConstantTransform::Promise`. -/
def Promise : Int := RulePriority.LOW.toInt

/-- The member `TransitiveClosureConstantTransform::Check`. -/
def Check (_plan : AbsExpr_Expression) : Bool := true

/-- The member `TransitiveClosureConstantTransform::Transform`. -/
def Transform (input : AbsExpr_Expression)
    (transformed : List AbsExpr_Expression) : Option (List AbsExpr_Expression) :=
  if input.Op.GetType ≠ ExpressionType.CONJUNCTION_AND then none else
  match input.Children with
  | [l_eq, r_eq] =>
    if l_eq.Op.GetType ≠ ExpressionType.COMPARE_EQUAL then none else
    if r_eq.Op.GetType ≠ ExpressionType.COMPARE_EQUAL then none else
    match l_eq.Children, r_eq.Children with
    | [l_tv, l_cv], [r_tv_l, r_tv_r] =>
      if !(isLeafOfType l_tv ExpressionType.VALUE_TUPLE) then none else
      if !(isLeafOfType l_cv ExpressionType.VALUE_CONSTANT) then none else
      if !(isLeafOfType r_tv_l ExpressionType.VALUE_TUPLE) then none else
      if !(isLeafOfType r_tv_r ExpressionType.VALUE_TUPLE) then none else
      match l_tv.Op.GetExpr, r_tv_l.Op.GetExpr, r_tv_r.Op.GetExpr with
      | some l_tv_expr, some r_tv_l_expr, some r_tv_r_expr =>
        if r_tv_l_expr.ExactlyEquals r_tv_r_expr then
          some (transformed ++ [l_eq])
        else if !(l_tv_expr.ExactlyEquals r_tv_l_expr) && !(l_tv_expr.ExactlyEquals r_tv_r_expr)
        then
          some transformed
        else
          let left_val_copy := AbsExpr_Expression.ofContainer l_cv.Op
          let new_left_eq :=
            ((AbsExpr_Expression.ofContainer l_eq.Op).PushChild l_tv).PushChild l_cv
          let right_val_copy := left_val_copy
          let new_right_eq := AbsExpr_Expression.ofContainer r_eq.Op
          let new_right_eq :=
            if l_tv_expr.ExactlyEquals r_tv_l_expr then
              (new_right_eq.PushChild right_val_copy).PushChild r_tv_r
            else
              (new_right_eq.PushChild r_tv_l).PushChild right_val_copy
          let abs_expr := AbsExpr_Expression.ofContainer input.Op
          some (transformed ++ [(abs_expr.PushChild new_left_eq).PushChild new_right_eq])
      | _, _, _ => none
    | _, _ => none
  | _ => none

end TransitiveClosureConstantTransform

namespace AndShortCircuit

/-- Modelled from the spec: the rule `AndShortCircuit` is referenced by `rule.cpp`
but defined nowhere in the sources at hand.  Its pattern is an `AND` with a
constant child and any second child (section 4.8); the commuted form is
supplied by `EquivalentTransform`. -/
def match_pattern : Pattern :=
  Pattern.mk ExpressionType.CONJUNCTION_AND
    [Pattern.leaf ExpressionType.VALUE_CONSTANT, Pattern.leaf ExpressionType.GROUP_MARKER]

/-- Modelled from the spec: the promise of `AndShortCircuit`, which the
specification leaves open; the value of `ComparatorElimination` is used. -/
def Promise : Int := RulePriority.MEDIUM.toInt

/-- Modelled from the spec: `AndShortCircuit::Transform` (section 4.8): with a
Boolean constant `c`, `TRUE AND x` is rewritten to `x` and `FALSE AND x` to the
constant FALSE. -/
def Transform (input : AbsExpr_Expression)
    (transformed : List AbsExpr_Expression) : Option (List AbsExpr_Expression) :=
  match input.Children with
  | [l, r] =>
    match expression.asConstantValue l.Op.GetExpr with
    | some c =>
      if c = ValueFactory.GetBooleanValueOfBool true then
        some (transformed ++ [r])
      else if c = ValueFactory.GetBooleanValueOfBool false then
        some (transformed ++ [constantExpr (ValueFactory.GetBooleanValueOfBool false)])
      else
        some transformed
    | none => none
  | _ => none

end AndShortCircuit

namespace OrShortCircuit

/-- Modelled from the spec: the rule `OrShortCircuit` is referenced by `rule.cpp`
but defined nowhere in the sources at hand.  Its pattern is an `OR` with a
constant child and any second child (section 4.8). -/
def match_pattern : Pattern :=
  Pattern.mk ExpressionType.CONJUNCTION_OR
    [Pattern.leaf ExpressionType.VALUE_CONSTANT, Pattern.leaf ExpressionType.GROUP_MARKER]

/-- Modelled from the spec: the promise of `OrShortCircuit`, which the
specification leaves open; the value of `ComparatorElimination` is used. -/
def Promise : Int := RulePriority.MEDIUM.toInt

/-- Modelled from the spec: `OrShortCircuit::Transform` (section 4.8): with a
Boolean constant `c`, `TRUE OR x` is rewritten to the constant TRUE and
`FALSE OR x` to `x`. -/
def Transform (input : AbsExpr_Expression)
    (transformed : List AbsExpr_Expression) : Option (List AbsExpr_Expression) :=
  match input.Children with
  | [l, r] =>
    match expression.asConstantValue l.Op.GetExpr with
    | some c =>
      if c = ValueFactory.GetBooleanValueOfBool true then
        some (transformed ++ [constantExpr (ValueFactory.GetBooleanValueOfBool true)])
      else if c = ValueFactory.GetBooleanValueOfBool false then
        some (transformed ++ [r])
      else
        some transformed
    | none => none
  | _ => none

end OrShortCircuit

/-- The rewrite rules over expressions: the subclasses of
`Rule<AbsExpr_Container,ExpressionType,AbsExpr_Expression>` with the arguments of
their constructors. -/
inductive Rule where
  | ComparatorElimination (rule : RuleType) (root : ExpressionType)
  | EquivalentTransform (rule : RuleType) (root : ExpressionType)
  | TVEqualityWithTwoCVTransform
  | TransitiveClosureConstantTransform
  | AndShortCircuit
  | OrShortCircuit
  deriving DecidableEq, Repr

namespace Rule

/-- The member `GetType`: the field `type_` set by the constructor. -/
def GetType : Rule → RuleType
  | ComparatorElimination rule _ => rule
  | EquivalentTransform rule _ => rule
  | TVEqualityWithTwoCVTransform => RuleType.TV_EQUALITY_WITH_TWO_CV
  | TransitiveClosureConstantTransform => RuleType.TRANSITIVE_CLOSURE_CONSTANT
  | AndShortCircuit => RuleType.AND_SHORT_CIRCUIT
  | OrShortCircuit => RuleType.OR_SHORT_CIRCUIT

/-- The member `GetRuleIdx`: `static_cast<uint32_t>(type_)`. -/
def GetRuleIdx (r : Rule) : Nat := r.GetType.toIdx

/-- The member `GetMatchPattern`: the field `match_pattern` set by the constructor. -/
def GetMatchPattern : Rule → Pattern
  | ComparatorElimination _ root => peloton.ComparatorElimination.match_pattern root
  | EquivalentTransform _ root => peloton.EquivalentTransform.match_pattern root
  | TVEqualityWithTwoCVTransform => peloton.TVEqualityWithTwoCVTransform.match_pattern
  | TransitiveClosureConstantTransform => peloton.TransitiveClosureConstantTransform.match_pattern
  | AndShortCircuit => peloton.AndShortCircuit.match_pattern
  | OrShortCircuit => peloton.OrShortCircuit.match_pattern

/-- The virtual member `Promise`; every override ignores its arguments. -/
def Promise : Rule → Int
  | ComparatorElimination _ _ => peloton.ComparatorElimination.Promise
  | EquivalentTransform _ _ => peloton.EquivalentTransform.Promise
  | TVEqualityWithTwoCVTransform => peloton.TVEqualityWithTwoCVTransform.Promise
  | TransitiveClosureConstantTransform => peloton.TransitiveClosureConstantTransform.Promise
  | AndShortCircuit => peloton.AndShortCircuit.Promise
  | OrShortCircuit => peloton.OrShortCircuit.Promise

/-- The virtual member `Check`; every override returns true. -/
def Check (_r : Rule) (_plan : AbsExpr_Expression) : Bool := true

/-- The virtual member `Transform`. -/
def Transform (cc : Comparability) (r : Rule) (input : AbsExpr_Expression)
    (transformed : List AbsExpr_Expression) : Option (List AbsExpr_Expression) :=
  match r with
  | ComparatorElimination rule _ =>
    peloton.ComparatorElimination.Transform cc rule input transformed
  | EquivalentTransform _ root => peloton.EquivalentTransform.Transform root input transformed
  | TVEqualityWithTwoCVTransform =>
    peloton.TVEqualityWithTwoCVTransform.Transform cc input transformed
  | TransitiveClosureConstantTransform =>
    peloton.TransitiveClosureConstantTransform.Transform input transformed
  | AndShortCircuit => peloton.AndShortCircuit.Transform input transformed
  | OrShortCircuit => peloton.OrShortCircuit.Transform input transformed

end Rule

/-- The struct `RuleWithPromise` of `rule.h`. -/
structure RuleWithPromise where
  rule : Rule
  promise : Int
  deriving DecidableEq, Repr

/-- The member `RuleWithPromise::operator<`. -/
def RuleWithPromise.lt (l r : RuleWithPromise) : Bool := decide (l.promise < r.promise)

/-- The member `RuleWithPromise::operator>`. -/
def RuleWithPromise.gt (l r : RuleWithPromise) : Bool := decide (l.promise > r.promise)

/-- The enumeration `RewriteRuleSetName` of `rule.h`. -/
inductive RewriteRuleSetName where
  | PREDICATE_PUSH_DOWN
  | UNNEST_SUBQUERY
  | COMPARATOR_ELIMINATION
  | EQUIVALENT_TRANSFORM
  | TRANSITIVE_TRANSFORM
  | BOOLEAN_SHORT_CIRCUIT
  | NULL_LOOKUP
  deriving DecidableEq, Repr

/-- The class `RuleSet` of `rule.h` over rules of type `R`; the map from a
rule-set name to its rules is a function, an absent key being the empty list
that `operator[]` creates. -/
structure RuleSet (R : Type) where
  transformation_rules_ : List R
  implementation_rules_ : List R
  rewrite_rules_map_ : RewriteRuleSetName → List R
  predicate_push_down_rules_ : List R

namespace RuleSet

/-- A rule set before any rule is added. -/
def empty (R : Type) : RuleSet R :=
  { transformation_rules_ := [], implementation_rules_ := [],
    rewrite_rules_map_ := fun _ => [], predicate_push_down_rules_ := [] }

/-- The member `AddTransformationRule`. -/
def AddTransformationRule {R : Type} (s : RuleSet R) (rule : R) : RuleSet R :=
  { s with transformation_rules_ := s.transformation_rules_ ++ [rule] }

/-- The member `AddImplementationRule`, which appends to `transformation_rules_`. -/
def AddImplementationRule {R : Type} (s : RuleSet R) (rule : R) : RuleSet R :=
  { s with transformation_rules_ := s.transformation_rules_ ++ [rule] }

/-- The member `AddRewriteRule`. -/
def AddRewriteRule {R : Type} (s : RuleSet R) (set : RewriteRuleSetName) (rule : R) : RuleSet R :=
  { s with rewrite_rules_map_ := fun name =>
      if name = set then s.rewrite_rules_map_ name ++ [rule] else s.rewrite_rules_map_ name }

/-- The member `GetTransformationRules`. -/
def GetTransformationRules {R : Type} (s : RuleSet R) : List R := s.transformation_rules_

/-- The member `GetImplementationRules`. -/
def GetImplementationRules {R : Type} (s : RuleSet R) : List R := s.implementation_rules_

/-- The member `GetRewriteRulesByName`. -/
def GetRewriteRulesByName {R : Type} (s : RuleSet R) (set : RewriteRuleSetName) : List R :=
  s.rewrite_rules_map_ set

/-- The constructor `RuleSet<AbsExpr_Container,ExpressionType,AbsExpr_Expression>::RuleSet()`
of `rule.cpp`. -/
def forExpressions : RuleSet Rule :=
  let comp_elim_pairs : List (RuleType × ExpressionType) :=
    [(RuleType.CONSTANT_COMPARE_EQUAL, ExpressionType.COMPARE_EQUAL),
     (RuleType.CONSTANT_COMPARE_NOTEQUAL, ExpressionType.COMPARE_NOTEQUAL),
     (RuleType.CONSTANT_COMPARE_LESSTHAN, ExpressionType.COMPARE_LESSTHAN),
     (RuleType.CONSTANT_COMPARE_GREATERTHAN, ExpressionType.COMPARE_GREATERTHAN),
     (RuleType.CONSTANT_COMPARE_LESSTHANOREQUALTO, ExpressionType.COMPARE_LESSTHANOREQUALTO),
     (RuleType.CONSTANT_COMPARE_GREATERTHANOREQUALTO,
       ExpressionType.COMPARE_GREATERTHANOREQUALTO)]
  let s := comp_elim_pairs.foldl
    (fun s pair => s.AddRewriteRule RewriteRuleSetName.COMPARATOR_ELIMINATION
      (Rule.ComparatorElimination pair.1 pair.2)) (empty Rule)
  let equiv_pairs : List (RuleType × ExpressionType) :=
    [(RuleType.EQUIV_AND, ExpressionType.CONJUNCTION_AND),
     (RuleType.EQUIV_OR, ExpressionType.CONJUNCTION_OR),
     (RuleType.EQUIV_COMPARE_EQUAL, ExpressionType.COMPARE_EQUAL)]
  let s := equiv_pairs.foldl
    (fun s pair => s.AddRewriteRule RewriteRuleSetName.EQUIVALENT_TRANSFORM
      (Rule.EquivalentTransform pair.1 pair.2)) s
  let s := s.AddRewriteRule RewriteRuleSetName.TRANSITIVE_TRANSFORM
    Rule.TVEqualityWithTwoCVTransform
  let s := s.AddRewriteRule RewriteRuleSetName.TRANSITIVE_TRANSFORM
    Rule.TransitiveClosureConstantTransform
  let s := s.AddRewriteRule RewriteRuleSetName.BOOLEAN_SHORT_CIRCUIT Rule.AndShortCircuit
  s.AddRewriteRule RewriteRuleSetName.BOOLEAN_SHORT_CIRCUIT Rule.OrShortCircuit

end RuleSet

/-! ## The memo (specification, sections 3 and 4.3) -/

/-- Modelled from the spec: a group-expression is the pair of an operator and
the ordered list of its child group identifiers (`optimizer/group_expression.h`
is not part of the sources at hand). -/
structure GroupExpression where
  op : AbsExpr_Container
  child_groups : List GroupID
  deriving Repr

namespace GroupExpression

/-- Modelled from the spec: two group-expressions are duplicates when their
operators are equal, by `AbsExpr_Container::operator==`, and their child
identifier sequences are equal. -/
def operator_eq (l r : GroupExpression) : Bool :=
  l.op.operator_eq r.op && l.child_groups == r.child_groups

end GroupExpression

/-- Modelled from the spec: a group is the ordered collection of its logical
group-expressions, first inserted first (the flags `explored` and
`implemented` are not read by the rewrite passes and are left out). -/
structure Group where
  logical_expressions : List GroupExpression
  deriving Repr

/-- Modelled from the spec: the memo is the list of groups ordered by identifier;
the identifier of a group is its position (`optimizer/memo.h` is not part of
the sources at hand). -/
structure Memo where
  groups : List Group
  deriving Repr

namespace Memo

/-- The memo without groups. -/
def empty : Memo := ⟨[]⟩

/-- Modelled from the spec: `GetGroup(id)`; the group of an identifier that was
never assigned has no expressions. -/
def GetGroupByID (memo : Memo) (id : GroupID) : Group :=
  (memo.groups[id]?).getD ⟨[]⟩

/-- The identifier of the first group that holds a duplicate of `gexpr`. -/
def findDuplicate (memo : Memo) (gexpr : GroupExpression) : Option GroupID :=
  memo.groups.findIdx? (fun g => g.logical_expressions.any (fun e => e.operator_eq gexpr))

/-- Modelled from the spec: insertion of a group-expression (section 4.3).  A
duplicate of an existing group-expression returns the existing group; otherwise
the group-expression goes to the target group when there is one and to a new
group, with the next identifier, when there is none. -/
def InsertExpression (memo : Memo) (gexpr : GroupExpression) (target : Option GroupID) :
    Memo × GroupID :=
  match memo.findDuplicate gexpr with
  | some existing => (memo, existing)
  | none =>
    match target with
    | none => (⟨memo.groups ++ [⟨[gexpr]⟩]⟩, memo.groups.length)
    | some id =>
      (⟨memo.groups.modify (fun g => ⟨g.logical_expressions ++ [gexpr]⟩) id⟩, id)

/-- The group that a group-marker leaf stands for. -/
def markedGroup (e : AbsExpr_Expression) : Option GroupID :=
  match e.Op.GetExpr with
  | some (AbstractExpression.mk _ (ExprClass.GroupMarkerExpression id) _) => some id
  | _ => none

mutual
/-- Modelled from the spec: `RecordExpression` (section 4.3) records the children
first, in order, and then inserts the group-expression of the root, into the
target group when one is given. -/
def RecordExpression (memo : Memo) : AbsExpr_Expression → Option GroupID → Memo × GroupID
  | AbsExpr_Expression.mk op children, target =>
    let recorded := RecordChildren memo children
    recorded.1.InsertExpression ⟨op, recorded.2⟩ target
/-- Records the children of an expression from left to right; a group-marker
child keeps the identifier of the group it marks (section 4.9). -/
def RecordChildren (memo : Memo) : List AbsExpr_Expression → Memo × List GroupID
  | [] => (memo, [])
  | child :: rest =>
    let first : Memo × GroupID :=
      match markedGroup child with
      | some id => (memo, id)
      | none => RecordExpression memo child none
    let others := RecordChildren first.1 rest
    (others.1, first.2 :: others.2)
end

/-- Modelled from the spec: `AddEquivalentGroupExpression` (section 4.3) appends
the recorded expression to the group without clearing it. -/
def AddEquivalentGroupExpression (memo : Memo) (group_id : GroupID)
    (new_expr : AbsExpr_Expression) : Memo :=
  (memo.RecordExpression new_expr (some group_id)).1

/-- The memo with the expressions of one group replaced. -/
def setGroup (memo : Memo) (group_id : GroupID) (exprs : List GroupExpression) : Memo :=
  ⟨memo.groups.modify (fun _ => ⟨exprs⟩) group_id⟩

/-- Modelled from the spec: `ReplaceGroupExpression` (section 4.3) clears the
group and inserts the one new group-expression.  When the new expression is a
group marker (a rule rewrote the expression to one of its children) the group
takes over the first logical expression of the marked group. -/
def ReplaceGroupExpression (memo : Memo) (group_id : GroupID)
    (new_expr : AbsExpr_Expression) : Memo :=
  match markedGroup new_expr with
  | some id => memo.setGroup group_id ((memo.GetGroupByID id).logical_expressions.take 1)
  | none => ((memo.setGroup group_id []).RecordExpression new_expr (some group_id)).1

end Memo

/-! ## Bindings (specification, section 4.2) -/

/-- The leaf that a binding holds at a `GROUP_MARKER` position. -/
def groupMarkerLeaf (id : GroupID) : AbsExpr_Expression :=
  AbsExpr_Expression.ofContainer ⟨some (expression.GroupMarkerExpression id)⟩

mutual
/-- Modelled from the spec: the bindings of a pattern rooted at a
group-expression (section 4.2): the tag of the root equals the tag of the
pattern, the arities agree, and the children are bound position by position. -/
def bindGroupExpression (memo : Memo) : Pattern → GroupExpression → List AbsExpr_Expression
  | Pattern.mk type child_patterns, gexpr =>
    if gexpr.op.GetType = type ∧ child_patterns.length = gexpr.child_groups.length then
      (bindChildren memo child_patterns gexpr.child_groups).map
        (fun children => AbsExpr_Expression.mk gexpr.op children)
    else
      []
/-- The bindings of the child patterns against the child groups: the Cartesian
product over the positions, left to right; at a `GROUP_MARKER` position the
group identifier is kept, at any other position every logical expression of the
child group is tried in insertion order. -/
def bindChildren (memo : Memo) : List Pattern → List GroupID → List (List AbsExpr_Expression)
  | [], [] => [[]]
  | pattern :: patterns, id :: ids =>
    let first : List AbsExpr_Expression :=
      if pattern.type = ExpressionType.GROUP_MARKER then
        [groupMarkerLeaf id]
      else
        (memo.GetGroupByID id).logical_expressions.flatMap
          (fun gexpr => bindGroupExpression memo pattern gexpr)
    let others := bindChildren memo patterns ids
    first.flatMap (fun child => others.map (fun children => child :: children))
  | _, _ => []
end

/-! ## Tasks (`optimizer/optimizer_task.h`; specification, section 4.4) -/

/-- The state that the tasks work on: `OptimizerMetadata` holds the memo and the
rule set built by the `RuleSet` constructor. -/
structure OptimizerMetadata where
  memo : Memo
  rule_set : RuleSet Rule

/-- The metadata that `OptimizerMetadataTemplate(nullptr)` constructs: an empty
memo and the rule set of the expression rules. -/
def OptimizerMetadata.fresh : OptimizerMetadata := ⟨Memo.empty, RuleSet.forExpressions⟩

/-- The rewrite tasks declared in `optimizer_task.h` with the fields that their
constructors set. -/
inductive OptimizerTask where
  | TopDownRewrite (group_id : GroupID) (rule_set_name : RewriteRuleSetName)
      (replace_on_transform : Bool)
  | BottomUpRewrite (group_id : GroupID) (rule_set_name : RewriteRuleSetName)
      (has_optimized_child : Bool)
  deriving DecidableEq, Repr

/-- The constructor `TopDownRewrite(group_id, context, rule_set_name)`, which sets
`replace_on_transform_` to true. -/
def OptimizerTask.newTopDownRewrite (group_id : GroupID) (rule_set_name : RewriteRuleSetName) :
    OptimizerTask :=
  OptimizerTask.TopDownRewrite group_id rule_set_name true

/-- The member `TopDownRewrite::SetReplaceOnTransform`. -/
def OptimizerTask.SetReplaceOnTransform (task : OptimizerTask) (replace : Bool) : OptimizerTask :=
  match task with
  | OptimizerTask.TopDownRewrite group_id rule_set_name _ =>
    OptimizerTask.TopDownRewrite group_id rule_set_name replace
  | other => other

/-- The task stack `OptimizerTaskStack`: the head of the list is the top. -/
abbrev OptimizerTaskStack := List OptimizerTask

/-- The member `OptimizerTaskStack::Push`. -/
def OptimizerTaskStack.Push (stack : OptimizerTaskStack) (task : OptimizerTask) :
    OptimizerTaskStack :=
  task :: stack

/-- Insertion into a `std::set<GroupID>`, kept in ascending order. -/
def insertGroupID (id : GroupID) : List GroupID → List GroupID
  | [] => [id]
  | x :: xs =>
    if id < x then id :: x :: xs
    else if id = x then x :: xs
    else x :: insertGroupID id xs

/-- Modelled from the spec: `RewriteTask::GetUniqueChildGroupIDs`, the distinct
child group identifiers of the chosen (first) group-expression of the group,
as the `std::set<GroupID>` that the header declares. -/
def GetUniqueChildGroupIDs (memo : Memo) (group_id : GroupID) : List GroupID :=
  match (memo.GetGroupByID group_id).logical_expressions with
  | [] => []
  | gexpr :: _ => gexpr.child_groups.foldl (fun set id => insertGroupID id set) []

/-- Modelled from the spec: the order in which the rules of one task fire: by
promise descending, ties broken by rule identifier ascending. -/
def firesBefore (l r : RuleWithPromise) : Bool :=
  l.gt r || (decide (l.promise = r.promise) && decide (l.rule.GetRuleIdx ≤ r.rule.GetRuleIdx))

/-- Insertion of a rule into a list ordered by `firesBefore`. -/
def insertRule (r : RuleWithPromise) : List RuleWithPromise → List RuleWithPromise
  | [] => [r]
  | x :: xs => if firesBefore r x then r :: x :: xs else x :: insertRule r xs

/-- Modelled from the spec: `OptimizerTask::ConstructValidRules` followed by the
sort: the rules with a positive promise, in firing order. -/
def ConstructValidRules (rules : List Rule) : List RuleWithPromise :=
  ((rules.map (fun r => RuleWithPromise.mk r r.Promise)).filter
    (fun r => decide (r.promise > 0))).foldr insertRule []

/-- The memo after the expressions produced by one `Transform` call have been
recorded for the group: each replaces the contents of the group, or is added
as an equivalent alternative. -/
def recordTransformed (replace_on_match : Bool) (group_id : GroupID) (memo : Memo)
    (after : List AbsExpr_Expression) : Memo :=
  after.foldl (fun memo new_expr =>
    if replace_on_match then memo.ReplaceGroupExpression group_id new_expr
    else memo.AddEquivalentGroupExpression group_id new_expr) memo

/-- One rule applied to one binding: `Check`, then `Transform`, then the
recording of the result; `none` when `Transform` aborts.  The state is the memo
and a flag telling that the contents of the group were replaced, after which
the bindings that remain, which are bindings of the replaced contents, are
dropped. -/
def applyRuleToBinding (cc : Comparability) (rule : Rule) (replace_on_match : Bool)
    (group_id : GroupID) (state : Memo × Bool) (before : AbsExpr_Expression) :
    Option (Memo × Bool) :=
  if state.2 then
    some state
  else if rule.Check before then
    match rule.Transform cc before [] with
    | some after =>
      some (recordTransformed replace_on_match group_id state.1 after,
        replace_on_match && !after.isEmpty)
    | none => none
  else
    some state

/-- A fold over a list whose step may abort: once a step has aborted, the
result is `none`. -/
def foldlAbort {σ α : Type} (step : σ → α → Option σ) (init : σ) (list : List α) : Option σ :=
  list.foldl (fun state a => state.bind (fun state => step state a)) (some init)

/-- One rule applied at every logical expression that the group holds when the
rule fires, at every binding of the pattern of the rule. -/
def applyRuleToGroup (cc : Comparability) (replace_on_match : Bool) (group_id : GroupID)
    (memo : Memo) (rule : Rule) : Option Memo :=
  match foldlAbort
    (fun state gexpr =>
      foldlAbort (applyRuleToBinding cc rule replace_on_match group_id) state
        (bindGroupExpression state.1 rule.GetMatchPattern gexpr))
    (memo, false) (memo.GetGroupByID group_id).logical_expressions with
  | some state => some state.1
  | none => none

/-- Modelled from the spec: `RewriteTask::OptimizeCurrentGroup` (section 4.4): for
the given group, every rule of the named set, in firing order, is bound at
every logical expression currently in the group, checked and transformed, and
each produced expression is recorded. -/
def OptimizeCurrentGroup (cc : Comparability) (metadata : OptimizerMetadata)
    (group_id : GroupID) (rule_set_name : RewriteRuleSetName) (replace_on_match : Bool) :
    Option OptimizerMetadata :=
  let valid_rules := ConstructValidRules (metadata.rule_set.GetRewriteRulesByName rule_set_name)
  match foldlAbort (fun memo r => applyRuleToGroup cc replace_on_match group_id memo r.rule)
      metadata.memo valid_rules with
  | some memo => some { metadata with memo := memo }
  | none => none

/-- Modelled from the spec: `execute()` of the two rewrite tasks (section 4.4).
`TopDownRewrite` optimizes the group and then pushes a `TopDownRewrite` for each
distinct child group.  `BottomUpRewrite` first pushes itself with
`has_optimized_child` set and then one `BottomUpRewrite` per distinct child
group; on its second execution it applies the rules as `TopDownRewrite` does,
replacing on transform, without descending. -/
def OptimizerTask.execute (cc : Comparability) (task : OptimizerTask)
    (metadata : OptimizerMetadata) (stack : OptimizerTaskStack) :
    Option (OptimizerMetadata × OptimizerTaskStack) :=
  match task with
  | OptimizerTask.TopDownRewrite group_id rule_set_name replace_on_transform =>
    match OptimizeCurrentGroup cc metadata group_id rule_set_name replace_on_transform with
    | some metadata =>
      some (metadata, (GetUniqueChildGroupIDs metadata.memo group_id).foldl
        (fun stack child =>
          stack.Push (OptimizerTask.TopDownRewrite child rule_set_name replace_on_transform))
        stack)
    | none => none
  | OptimizerTask.BottomUpRewrite group_id rule_set_name false =>
    some (metadata, (GetUniqueChildGroupIDs metadata.memo group_id).foldl
      (fun stack child =>
        stack.Push (OptimizerTask.BottomUpRewrite child rule_set_name false))
      (stack.Push (OptimizerTask.BottomUpRewrite group_id rule_set_name true)))
  | OptimizerTask.BottomUpRewrite group_id rule_set_name true =>
    match OptimizeCurrentGroup cc metadata group_id rule_set_name true with
    | some metadata => some (metadata, stack)
    | none => none

/-- The result of a computation that may abort on a failed assertion or run out
of fuel. -/
inductive Outcome (α : Type) where
  | done (result : α)
  | aborted
  | outOfFuel
  deriving Repr

/-- A list mapped through a step that may fail; the first failure is the result. -/
def Outcome.mapList {α β : Type} (f : α → Outcome β) : List α → Outcome (List β)
  | [] => Outcome.done []
  | a :: rest =>
    match f a with
    | Outcome.done b =>
      match Outcome.mapList f rest with
      | Outcome.done bs => Outcome.done (b :: bs)
      | Outcome.aborted => Outcome.aborted
      | Outcome.outOfFuel => Outcome.outOfFuel
    | Outcome.aborted => Outcome.aborted
    | Outcome.outOfFuel => Outcome.outOfFuel

/-- The task loop of `Rewriter::RewriteLoop`: `while (!task_stack->Empty())` pop
the top task and execute it; one unit of fuel per executed task. -/
def drainTaskStack (cc : Comparability) :
    Nat → OptimizerMetadata → OptimizerTaskStack → Outcome OptimizerMetadata
  | _, metadata, [] => Outcome.done metadata
  | 0, _, _ :: _ => Outcome.outOfFuel
  | fuel + 1, metadata, task :: stack =>
    match task.execute cc metadata stack with
    | some next => drainTaskStack cc fuel next.1 next.2
    | none => Outcome.aborted

/-! ## The rewriter (`optimizer/rewriter.cpp`) -/

/-- The class `Rewriter`: its only field is `metadata_`. -/
structure Rewriter where
  metadata_ : OptimizerMetadata

namespace Rewriter

/-- The constructor `Rewriter::Rewriter`. -/
def new : Rewriter := ⟨OptimizerMetadata.fresh⟩

/-- The member `Rewriter::Reset`. -/
def Reset (_rewriter : Rewriter) : Rewriter := ⟨OptimizerMetadata.fresh⟩

/-- The tasks that `Rewriter::RewriteLoop` pushes, in the order of the pushes. -/
def initialTasks (root_group_id : GroupID) : List OptimizerTask :=
  [OptimizerTask.newTopDownRewrite root_group_id RewriteRuleSetName.BOOLEAN_SHORT_CIRCUIT,
   OptimizerTask.BottomUpRewrite root_group_id RewriteRuleSetName.TRANSITIVE_TRANSFORM false,
   OptimizerTask.BottomUpRewrite root_group_id RewriteRuleSetName.COMPARATOR_ELIMINATION false,
   OptimizerTask.BottomUpRewrite root_group_id RewriteRuleSetName.NULL_LOOKUP false,
   (OptimizerTask.newTopDownRewrite root_group_id
     RewriteRuleSetName.EQUIVALENT_TRANSFORM).SetReplaceOnTransform false]

/-- The task stack of `Rewriter::RewriteLoop` after the five pushes. -/
def seedTaskStack (root_group_id : GroupID) : OptimizerTaskStack :=
  (initialTasks root_group_id).foldl OptimizerTaskStack.Push []

/-- The member `Rewriter::RewriteLoop`. -/
def RewriteLoop (cc : Comparability) (fuel : Nat) (rewriter : Rewriter)
    (root_group_id : GroupID) : Outcome Rewriter :=
  match drainTaskStack cc fuel rewriter.metadata_ (seedTaskStack root_group_id) with
  | Outcome.done metadata => Outcome.done ⟨metadata⟩
  | Outcome.aborted => Outcome.aborted
  | Outcome.outOfFuel => Outcome.outOfFuel

/-- The member `Rewriter::RebuildExpression`; the fuel bounds the depth of the
recursion through the groups. -/
def RebuildExpression (rewriter : Rewriter) : Nat → GroupID → Outcome AbstractExpression
  | 0, _ => Outcome.outOfFuel
  | fuel + 1, root =>
    match rewriter.metadata_.memo.groups[root]? with
    | none => Outcome.aborted
    | some cur_group =>
      match cur_group.logical_expressions with
      | [] => Outcome.aborted
      | expr :: _ =>
        match Outcome.mapList (fun group => RebuildExpression rewriter fuel group)
            expr.child_groups with
        | Outcome.done child_exprs =>
          match expr.op.CopyWithChildren child_exprs with
          | some tree => Outcome.done tree
          | none => Outcome.aborted
        | Outcome.aborted => Outcome.aborted
        | Outcome.outOfFuel => Outcome.outOfFuel

mutual
/-- The member `Rewriter::ConvertToAbsExpr`: the container holds a copy of the
node whose children are cleared, the children are converted in order. -/
def ConvertToAbsExpr : AbstractExpression → AbsExpr_Expression
  | AbstractExpression.mk exp_type cls children =>
    AbsExpr_Expression.mk ⟨some (AbstractExpression.mk exp_type cls [])⟩
      (ConvertChildren children)
/-- The loop of `ConvertToAbsExpr` over the children. -/
def ConvertChildren : List AbstractExpression → List AbsExpr_Expression
  | [] => []
  | child :: rest => ConvertToAbsExpr child :: ConvertChildren rest
end

/-- The member `Rewriter::RecordTreeGroups`: the converted tree is recorded in
the memo; the result is the rewriter and the group of the root. -/
def RecordTreeGroups (rewriter : Rewriter) (expr : AbstractExpression) : Rewriter × GroupID :=
  let exp := ConvertToAbsExpr expr
  let recorded := rewriter.metadata_.memo.RecordExpression exp none
  (⟨{ rewriter.metadata_ with memo := recorded.1 }⟩, recorded.2)

/-- The member `Rewriter::RewriteExpression`: the rewritten tree together with
the rewriter after the call. -/
def RewriteExpression (cc : Comparability) (fuel : Nat) (rewriter : Rewriter)
    (expr : Option AbstractExpression) : Outcome (Option AbstractExpression × Rewriter) :=
  match expr with
  | none => Outcome.done (none, rewriter)
  | some expr =>
    let recorded := rewriter.RecordTreeGroups expr
    let root_id := recorded.2
    match RewriteLoop cc fuel recorded.1 root_id with
    | Outcome.done rewriter =>
      match rewriter.RebuildExpression fuel root_id with
      | Outcome.done expr_tree => Outcome.done (some expr_tree, rewriter.Reset)
      | Outcome.aborted => Outcome.aborted
      | Outcome.outOfFuel => Outcome.outOfFuel
    | Outcome.aborted => Outcome.aborted
    | Outcome.outOfFuel => Outcome.outOfFuel

end Rewriter

/-! ## Inputs used by the tests and by the statements below -/

/-- The helper `GetConstantExpression` of `rule_rewrite_test.cpp`: the constant
expression of an integer value. -/
def GetConstantExpression (val : Int) : AbstractExpression :=
  expression.ConstantValueExpression (ValueFactory.GetIntegerValue val)

/-- The helper `CreateTransitiveExpression` of `rule_rewrite_test.cpp`:
`(a = x) AND (b = y)`. -/
def CreateTransitiveExpression (a x b y : AbstractExpression) : AbstractExpression :=
  expression.ConjunctionExpression ExpressionType.CONJUNCTION_AND
    (some (expression.ComparisonExpression ExpressionType.COMPARE_EQUAL (some a) (some x)))
    (some (expression.ComparisonExpression ExpressionType.COMPARE_EQUAL (some b) (some y)))

/-- A column reference node: tag `VALUE_TUPLE`, class `TupleValueExpression`, no children. -/
def columnRef (table_name col_name : String) (bound_oid : Option Nat) : AbstractExpression :=
  AbstractExpression.mk ExpressionType.VALUE_TUPLE
    (ExprClass.TupleValueExpression table_name col_name bound_oid) []

/-- An expression bound to a pattern `AND(Equal(_, _), Equal(_, _))`: the three
operators are containers, the four leaves are containers of the given nodes
and have no children. -/
def andOfEquals (and_op l_op r_op : AbsExpr_Container)
    (l_left l_right r_left r_right : AbstractExpression) : AbsExpr_Expression :=
  AbsExpr_Expression.mk and_op
    [AbsExpr_Expression.mk l_op
      [AbsExpr_Expression.mk ⟨some l_left⟩ [], AbsExpr_Expression.mk ⟨some l_right⟩ []],
     AbsExpr_Expression.mk r_op
      [AbsExpr_Expression.mk ⟨some r_left⟩ [], AbsExpr_Expression.mk ⟨some r_right⟩ []]]

/-- The container of an `AND` node, as `ConvertToAbsExpr` builds it: the children
of the node are held by the enclosing `AbsExpr_Expression`. -/
def andOp : AbsExpr_Container :=
  ⟨some (expression.ConjunctionExpression ExpressionType.CONJUNCTION_AND none none)⟩

/-- The container of an `Equal` node, as `ConvertToAbsExpr` builds it. -/
def equalOp : AbsExpr_Container :=
  ⟨some (expression.ComparisonExpression ExpressionType.COMPARE_EQUAL none none)⟩

/-- A comparability test used to instantiate the statements: two values are
comparable when their type identifiers agree. -/
def sameTypeComparable : Comparability := fun l r => decide (l.type_id = r.type_id)

/-! ## Evaluation under SQL three-valued logic (specification, section 8) -/

/-- Modelled from the spec: a row of column values assigns a value, which may be
NULL, to every column, named by its table and its column name. -/
abbrev Row := String → String → Value

namespace CmpBool

/-- Modelled from the spec: the conjunction of SQL three-valued logic. -/
def and3 : CmpBool → CmpBool → CmpBool
  | CmpFalse, _ => CmpFalse
  | _, CmpFalse => CmpFalse
  | CmpTrue, CmpTrue => CmpTrue
  | _, _ => NULL_

/-- Modelled from the spec: the disjunction of SQL three-valued logic. -/
def or3 : CmpBool → CmpBool → CmpBool
  | CmpTrue, _ => CmpTrue
  | _, CmpTrue => CmpTrue
  | CmpFalse, CmpFalse => CmpFalse
  | _, _ => NULL_

end CmpBool

/-- Modelled from the spec: the truth value that a Boolean value stands for; a
value of another type, or a Boolean payload other than 0 and 1, stands for none. -/
def Value.truth (v : Value) : Option CmpBool :=
  if v.type_id = TypeId.BOOLEAN then
    match v.data with
    | none => some CmpBool.NULL_
    | some payload =>
      if payload = 1 then some CmpBool.CmpTrue
      else if payload = 0 then some CmpBool.CmpFalse
      else none
  else
    none

/-- Modelled from the spec: the relation on integers that a comparison tag
denotes (section 4.7: `=`, `≠`, `<`, `>`, `≤`, `≥`). -/
def comparisonRelation : ExpressionType → Option (Int → Int → Bool)
  | ExpressionType.COMPARE_EQUAL => some (fun a b => decide (a = b))
  | ExpressionType.COMPARE_NOTEQUAL => some (fun a b => decide (a ≠ b))
  | ExpressionType.COMPARE_LESSTHAN => some (fun a b => decide (a < b))
  | ExpressionType.COMPARE_GREATERTHAN => some (fun a b => decide (a > b))
  | ExpressionType.COMPARE_LESSTHANOREQUALTO => some (fun a b => decide (a ≤ b))
  | ExpressionType.COMPARE_GREATERTHANOREQUALTO => some (fun a b => decide (a ≥ b))
  | _ => none

/-- Modelled from the spec: the value of one operator applied to the values of
its children under SQL three-valued logic (section 8, "Semantic preservation").
The operator is identified by its tag, as `CopyWithChildren` identifies it.  A
constant evaluates to its value and a column reference to the value of the
column in the row; a comparison of two values is NULL when either is NULL and
the truth value of the relation otherwise; `AND` and `OR` combine two truth
values.  Any other operator or arity is outside the fragment and has no value. -/
def evalOperator (row : Row) (op : AbsExpr_Container) (args : List Value) : Option Value :=
  match op.GetExpr, args with
  | some (AbstractExpression.mk ExpressionType.VALUE_CONSTANT
      (ExprClass.ConstantValueExpression value) _), [] => some value
  | some (AbstractExpression.mk ExpressionType.VALUE_TUPLE
      (ExprClass.TupleValueExpression table_name col_name _) _), [] =>
    some (row table_name col_name)
  | some (AbstractExpression.mk ExpressionType.CONJUNCTION_AND _ _), [l, r] =>
    match l.truth, r.truth with
    | some a, some b => some (ValueFactory.GetBooleanValue (a.and3 b))
    | _, _ => none
  | some (AbstractExpression.mk ExpressionType.CONJUNCTION_OR _ _), [l, r] =>
    match l.truth, r.truth with
    | some a, some b => some (ValueFactory.GetBooleanValue (a.or3 b))
    | _, _ => none
  | some (AbstractExpression.mk type _ _), [l, r] =>
    match comparisonRelation type with
    | some rel => some (ValueFactory.GetBooleanValue (Value.compareWith rel l r))
    | none => none
  | _, _ => none

mutual
/-- Modelled from the spec: `eval`, the value of an expression in a row under SQL
three-valued logic: the children are evaluated first, then the operator. -/
def eval (row : Row) : AbsExpr_Expression → Option Value
  | AbsExpr_Expression.mk op children =>
    match evalChildren row children with
    | some args => evalOperator row op args
    | none => none
/-- The values of the children of an expression, in order; none when a child
has no value. -/
def evalChildren (row : Row) : List AbsExpr_Expression → Option (List Value)
  | [] => some []
  | child :: rest =>
    match eval row child, evalChildren row rest with
    | some value, some values => some (value :: values)
    | _, _ => none
end

/-- The row in which every column is NULL except those listed, which hold the
given integers. -/
def rowOfIntegers (columns : List (String × String × Int)) : Row :=
  fun table_name col_name =>
    match columns.find? (fun c => c.1 = table_name ∧ c.2.1 = col_name) with
    | some c => ValueFactory.GetIntegerValue c.2.2
    | none => ValueFactory.GetNullValueByType TypeId.INTEGER

/-- The test that a call of `RewriteExpression` ran to completion and returned a
tree that is exactly equal to the expected one. -/
def returnsTree (outcome : Outcome (Option AbstractExpression × Rewriter))
    (expected : AbstractExpression) : Bool :=
  match outcome with
  | Outcome.done (some tree, _) => tree.ExactlyEquals expected
  | _ => false

/-! ## Promise of the operator rules (`optimizer/rule.h`, `optimizer/rule.cpp`) -/

/-- The macro `PHYS_PROMISE` of `rule.h`. -/
def PHYS_PROMISE : Int := 3

/-- The macro `LOG_PROMISE` of `rule.h`. -/
def LOG_PROMISE : Int := 1

/-- The specialization `Rule<Operator,OpType,OperatorExpression>::Promise` of
`rule.cpp`.  The enumeration `OpType` is declared outside the sources at hand and
is a parameter, together with its member `Leaf`; `root_type` is
`match_pattern->Type()`, `group_type` is `group_expr->Op().GetType()` and
`is_physical` is the value of `IsPhysical()`. -/
def operatorRulePromise {OpType : Type} [DecidableEq OpType] (Leaf root_type group_type : OpType)
    (is_physical : Bool) : Int :=
  if root_type ≠ Leaf ∧ root_type ≠ group_type then 0
  else if is_physical then PHYS_PROMISE
  else LOG_PROMISE

/-- The virtual member `Promise` of an expression rewrite rule applied to a group
expression: each override in `rule_rewrite.cpp` discards the group expression
(`(void)group_expr`) and returns the priority of the rule. -/
def Rule.PromiseFor (r : Rule) (_group_expr : GroupExpression) : Int := r.Promise

/-- The order of the pushes that the specification gives for `RewriteLoop`
(section 4.5, step 3). -/
def specifiedTasks (root_group_id : GroupID) : List OptimizerTask :=
  [OptimizerTask.TopDownRewrite root_group_id RewriteRuleSetName.EQUIVALENT_TRANSFORM false,
   OptimizerTask.BottomUpRewrite root_group_id RewriteRuleSetName.NULL_LOOKUP false,
   OptimizerTask.BottomUpRewrite root_group_id RewriteRuleSetName.COMPARATOR_ELIMINATION false,
   OptimizerTask.BottomUpRewrite root_group_id RewriteRuleSetName.TRANSITIVE_TRANSFORM false,
   OptimizerTask.TopDownRewrite root_group_id RewriteRuleSetName.BOOLEAN_SHORT_CIRCUIT true]

/-- The comparison tags of the first case group of `CopyWithChildren`. -/
def comparisonTags : List ExpressionType :=
  [ExpressionType.COMPARE_EQUAL, ExpressionType.COMPARE_NOTEQUAL,
   ExpressionType.COMPARE_LESSTHAN, ExpressionType.COMPARE_GREATERTHAN,
   ExpressionType.COMPARE_LESSTHANOREQUALTO, ExpressionType.COMPARE_GREATERTHANOREQUALTO,
   ExpressionType.COMPARE_LIKE, ExpressionType.COMPARE_NOTLIKE, ExpressionType.COMPARE_IN,
   ExpressionType.COMPARE_DISTINCT_FROM]

/-- The tags that reach the last case group of `CopyWithChildren`: the tags that
the group lists and those that fall to `default`. -/
def unimplementedTags : List ExpressionType :=
  [ExpressionType.PLACEHOLDER, ExpressionType.COLUMN_REF, ExpressionType.FUNCTION_REF,
   ExpressionType.TABLE_REF, ExpressionType.SELECT_SUBQUERY, ExpressionType.VALUE_TUPLE_ADDRESS,
   ExpressionType.VALUE_NULL, ExpressionType.VALUE_VECTOR, ExpressionType.VALUE_SCALAR,
   ExpressionType.HASH_RANGE, ExpressionType.OPERATOR_CAST, ExpressionType.INVALID,
   ExpressionType.GROUP_MARKER]

/-! ## Ranks of groups: the measure under which the task loop terminates -/

/-- The rank of a group in a list of ranks ordered by group identifier. -/
def rankOf (ranks : List Nat) (id : GroupID) : Nat := ranks.getD id 0

/-- The group that the node of a container marks, when the node is a group
marker: `Memo.markedGroup` reads nothing but the container. -/
def markerOf (op : AbsExpr_Container) : Option GroupID :=
  Memo.markedGroup (AbsExpr_Expression.ofContainer op)

/-- A group-expression lies below the rank `bound`: its operator is defined, it
has at most `arity` children, every child group exists and has a rank below
`bound`, and so has the group that its operator marks when the operator is a
group marker. -/
def GroupExpression.rankedBelow (arity : Nat) (ranks : List Nat) (bound : Nat)
    (e : GroupExpression) : Prop :=
  e.op.IsDefined = true ∧ e.child_groups.length ≤ arity ∧
  (∀ c ∈ e.child_groups, c < ranks.length ∧ rankOf ranks c < bound) ∧
  (∀ id, markerOf e.op = some id → id < ranks.length ∧ rankOf ranks id < bound)

/-- A memo is ranked by a list of ranks, one for each group: every
group-expression of a group lies below the rank of the group, so that the
groups form no cycle. -/
def Memo.ranked (arity : Nat) (ranks : List Nat) (memo : Memo) : Prop :=
  ranks.length = memo.groups.length ∧
  ∀ (g : GroupID) (G : Group), memo.groups[g]? = some G →
    ∀ e ∈ G.logical_expressions, e.rankedBelow arity ranks (rankOf ranks g)

/-- An expression fits below the rank `bound`: recorded as a child, it yields a
group of a rank below `bound`.  A group marker marks a group of a rank below
`bound`; any other node has a defined operator and at most `arity` children,
which fit below `bound - 1`. -/
inductive Fits (arity : Nat) (ranks : List Nat) : Nat → AbsExpr_Expression → Prop where
  | node (bound : Nat) (op : AbsExpr_Container) (children : List AbsExpr_Expression)
      (hdefined : op.IsDefined = true)
      (hmarker : ∀ id, markerOf op = some id → id < ranks.length ∧ rankOf ranks id < bound)
      (hplain : markerOf op = none → 0 < bound)
      (harity : children.length ≤ arity)
      (hchildren : ∀ child, child ∈ children → Fits arity ranks (bound - 1) child) :
      Fits arity ranks bound (AbsExpr_Expression.mk op children)

/-- An expression fits a group of the rank `bound` as one of its logical
expressions: its children fit below `bound`. -/
def RootFits (arity : Nat) (ranks : List Nat) (bound : Nat) (e : AbsExpr_Expression) : Prop :=
  e.Op.IsDefined = true ∧
  (∀ id, markerOf e.Op = some id → id < ranks.length ∧ rankOf ranks id < bound) ∧
  e.Children.length ≤ arity ∧ ∀ child, child ∈ e.Children → Fits arity ranks bound child

/-- The weight of a task on a group of the given rank: a bound on the number of
task executions that the task causes when no group-expression has more than
`arity` children. -/
def taskWeight (arity : Nat) : Nat → Nat
  | 0 => 2
  | rank + 1 => 2 + arity * taskWeight arity rank

/-- The group that a task works on. -/
def OptimizerTask.group : OptimizerTask → GroupID
  | OptimizerTask.TopDownRewrite group_id _ _ => group_id
  | OptimizerTask.BottomUpRewrite group_id _ _ => group_id

/-- The weight of a task: a `BottomUpRewrite` whose children are optimized
pushes nothing and weighs 1. -/
def OptimizerTask.weight (arity : Nat) (ranks : List Nat) : OptimizerTask → Nat
  | OptimizerTask.TopDownRewrite group_id _ _ => taskWeight arity (rankOf ranks group_id)
  | OptimizerTask.BottomUpRewrite group_id _ false => taskWeight arity (rankOf ranks group_id)
  | OptimizerTask.BottomUpRewrite _ _ true => 1

/-- The weight of a task stack: the sum of the weights of its tasks. -/
def stackWeight (arity : Nat) (ranks : List Nat) (stack : OptimizerTaskStack) : Nat :=
  (stack.map (OptimizerTask.weight arity ranks)).sum

/-- The test that a node is of the class `GroupMarkerExpression`, the node that
stands for a group of the memo. -/
def ExprClass.isGroupMarker : ExprClass → Bool
  | ExprClass.GroupMarkerExpression _ => true
  | _ => false

mutual
/-- The test that an expression contains a node of the class
`GroupMarkerExpression`. -/
def AbstractExpression.hasGroupMarker : AbstractExpression → Bool
  | AbstractExpression.mk _ cls children =>
    cls.isGroupMarker || AbstractExpression.hasGroupMarkerList children
/-- The test `hasGroupMarker` on a list of children. -/
def AbstractExpression.hasGroupMarkerList : List AbstractExpression → Bool
  | [] => false
  | child :: rest =>
    AbstractExpression.hasGroupMarker child || AbstractExpression.hasGroupMarkerList rest
end

/-! ## The rule set of the operator rules (`optimizer/rule.cpp`) -/

/-- The rules that the constructor `RuleSet<Operator,OpType,OperatorExpression>::RuleSet()`
registers, by the names of their classes; the classes are declared in
`optimizer/rule_impls.h`, outside the sources at hand, and nothing but their
identity is used. -/
inductive OperatorRule where
  | InnerJoinCommutativity
  | InnerJoinAssociativity
  | LogicalDeleteToPhysical
  | LogicalUpdateToPhysical
  | LogicalInsertToPhysical
  | LogicalInsertSelectToPhysical
  | LogicalGroupByToHashGroupBy
  | LogicalAggregateToPhysical
  | GetToDummyScan
  | GetToSeqScan
  | GetToIndexScan
  | LogicalExternalFileGetToPhysical
  | LogicalQueryDerivedGetToPhysical
  | InnerJoinToInnerNLJoin
  | InnerJoinToInnerHashJoin
  | ImplementDistinct
  | ImplementLimit
  | LogicalExportToPhysicalExport
  | PushFilterThroughJoin
  | PushFilterThroughAggregation
  | CombineConsecutiveFilter
  | EmbedFilterIntoGet
  | PullFilterThroughMarkJoin
  | MarkJoinToInnerJoin
  | PullFilterThroughAggregation
  deriving DecidableEq, Repr

/-- The constructor `RuleSet<Operator,OpType,OperatorExpression>::RuleSet()` of
`rule.cpp`. -/
def RuleSet.forOperators : RuleSet OperatorRule :=
  let s := (RuleSet.empty OperatorRule).AddTransformationRule OperatorRule.InnerJoinCommutativity
  let s := s.AddTransformationRule OperatorRule.InnerJoinAssociativity
  let s := s.AddImplementationRule OperatorRule.LogicalDeleteToPhysical
  let s := s.AddImplementationRule OperatorRule.LogicalUpdateToPhysical
  let s := s.AddImplementationRule OperatorRule.LogicalInsertToPhysical
  let s := s.AddImplementationRule OperatorRule.LogicalInsertSelectToPhysical
  let s := s.AddImplementationRule OperatorRule.LogicalGroupByToHashGroupBy
  let s := s.AddImplementationRule OperatorRule.LogicalAggregateToPhysical
  let s := s.AddImplementationRule OperatorRule.GetToDummyScan
  let s := s.AddImplementationRule OperatorRule.GetToSeqScan
  let s := s.AddImplementationRule OperatorRule.GetToIndexScan
  let s := s.AddImplementationRule OperatorRule.LogicalExternalFileGetToPhysical
  let s := s.AddImplementationRule OperatorRule.LogicalQueryDerivedGetToPhysical
  let s := s.AddImplementationRule OperatorRule.InnerJoinToInnerNLJoin
  let s := s.AddImplementationRule OperatorRule.InnerJoinToInnerHashJoin
  let s := s.AddImplementationRule OperatorRule.ImplementDistinct
  let s := s.AddImplementationRule OperatorRule.ImplementLimit
  let s := s.AddImplementationRule OperatorRule.LogicalExportToPhysicalExport
  let s := s.AddRewriteRule RewriteRuleSetName.PREDICATE_PUSH_DOWN
    OperatorRule.PushFilterThroughJoin
  let s := s.AddRewriteRule RewriteRuleSetName.PREDICATE_PUSH_DOWN
    OperatorRule.PushFilterThroughAggregation
  let s := s.AddRewriteRule RewriteRuleSetName.PREDICATE_PUSH_DOWN
    OperatorRule.CombineConsecutiveFilter
  let s := s.AddRewriteRule RewriteRuleSetName.PREDICATE_PUSH_DOWN OperatorRule.EmbedFilterIntoGet
  let s := s.AddRewriteRule RewriteRuleSetName.UNNEST_SUBQUERY
    OperatorRule.PullFilterThroughMarkJoin
  let s := s.AddRewriteRule RewriteRuleSetName.UNNEST_SUBQUERY OperatorRule.MarkJoinToInnerJoin
  s.AddRewriteRule RewriteRuleSetName.UNNEST_SUBQUERY OperatorRule.PullFilterThroughAggregation

/-- The test that a task is a `BottomUpRewrite` over the rule set `NULL_LOOKUP`. -/
def OptimizerTask.isNullLookupPass : OptimizerTask → Bool
  | OptimizerTask.BottomUpRewrite _ RewriteRuleSetName.NULL_LOOKUP _ => true
  | _ => false

/-! ## `SetUtil::isDisjoint` (`util/set_util.h`) -/

namespace SetUtil

/-- The loop of `SetUtil::isDisjoint`: `while (setA_it != setA.end() && setB_it !=
setB.end() && disjoint)`.  Each iterator of a `std::set` is the list of the
elements from its position to the end, in ascending order; the result is the
value of `disjoint` at the exit of the loop. -/
def isDisjointLoop {T : Type} [LinearOrder T] : List T → List T → Bool → Bool
  | a :: setA_it, b :: setB_it, true =>
    if a = b then isDisjointLoop (a :: setA_it) (b :: setB_it) false
    else if a < b then isDisjointLoop setA_it (b :: setB_it) true
    else isDisjointLoop (a :: setA_it) setB_it true
  | _, _, disjoint => disjoint
termination_by setA_it setB_it disjoint =>
  2 * (setA_it.length + setB_it.length) + (if disjoint then 1 else 0)

/-- The function `SetUtil::isDisjoint`; a `std::set<T>` is the list of its elements
in ascending order. -/
def isDisjoint {T : Type} [LinearOrder T] (setA setB : List T) : Bool :=
  let disjoint := true
  if setA.isEmpty || setB.isEmpty then disjoint
  else isDisjointLoop setA setB disjoint

end SetUtil

/-! ## `DecentralizedEpochManager` (`concurrency/decentralized_epoch_manager.cpp`) -/

/-- The fields of `DecentralizedEpochManager` that `GetExpiredEpochId` reads and
writes; the epoch identifiers are of the type `eid_t`, 64-bit unsigned
integers.  The class of the thread-local epoch contexts is declared outside
the sources at hand and is the parameter `LocalEpoch`. -/
structure DecentralizedEpochManager (LocalEpoch : Type) where
  local_epochs_ : List (Nat × LocalEpoch)
  current_global_epoch_ : Nat
  snapshot_global_epoch_ : Nat

namespace DecentralizedEpochManager

/-- The loop of `GetExpiredEpochId` over the thread-local epoch contexts: the
state is the minimum found so far and the contexts already visited, as their
calls of `GetExpiredEpochId` left them.  The member
`LocalEpoch::GetExpiredEpochId(current_global_epoch)` is the parameter
`localExpired`, which gives the reported epoch identifier and the context
after the call. -/
def scanLocalEpochs {LocalEpoch : Type} (localExpired : LocalEpoch → Nat → Nat × LocalEpoch)
    (current_global_epoch : Nat) :
    List (Nat × LocalEpoch) → Nat × List (Nat × LocalEpoch) → Nat × List (Nat × LocalEpoch)
  | [], state => state
  | local_epoch_itr :: rest, (global_expired_eid, visited) =>
    let reported := localExpired local_epoch_itr.2 current_global_epoch
    let local_expired_eid := reported.1
    let global_expired_eid :=
      if local_expired_eid < global_expired_eid then local_expired_eid else global_expired_eid
    scanLocalEpochs localExpired current_global_epoch rest
      (global_expired_eid, visited ++ [(local_epoch_itr.1, reported.2)])

/-- The member `DecentralizedEpochManager::GetExpiredEpochId`: the returned epoch
identifier and the manager after the call.  The constant `MAX_EID` is declared
outside the sources at hand and is a parameter; `global_expired_eid + 1` is
computed in 64-bit unsigned arithmetic. -/
def GetExpiredEpochId {LocalEpoch : Type} (MAX_EID : Nat)
    (localExpired : LocalEpoch → Nat → Nat × LocalEpoch)
    (manager : DecentralizedEpochManager LocalEpoch) :
    Nat × DecentralizedEpochManager LocalEpoch :=
  let scanned := scanLocalEpochs localExpired manager.current_global_epoch_
    manager.local_epochs_ (MAX_EID, [])
  let global_expired_eid := scanned.1
  let snapshot_global_epoch :=
    if global_expired_eid ≠ MAX_EID ∧ global_expired_eid ≥ manager.snapshot_global_epoch_ then
      (global_expired_eid + 1) % 2 ^ 64
    else manager.snapshot_global_epoch_
  (global_expired_eid,
    { manager with local_epochs_ := scanned.2, snapshot_global_epoch_ := snapshot_global_epoch })

/-- The epoch identifiers that the thread-local epoch contexts report to
`GetExpiredEpochId`, in the order of the contexts. -/
def reportedEpochIds {LocalEpoch : Type} (localExpired : LocalEpoch → Nat → Nat × LocalEpoch)
    (manager : DecentralizedEpochManager LocalEpoch) : List Nat :=
  manager.local_epochs_.map
    (fun local_epoch => (localExpired local_epoch.2 manager.current_global_epoch_).1)

end DecentralizedEpochManager

/-- The tags whose branch of `CopyWithChildren` asserts that the wrapped node has
as many children as are passed in (`absexpr_expression.cpp`, the cases of the
aggregates and of `FUNCTION`). -/
def childCountAssertedTags : List ExpressionType :=
  [ExpressionType.AGGREGATE_COUNT, ExpressionType.AGGREGATE_COUNT_STAR,
   ExpressionType.AGGREGATE_SUM, ExpressionType.AGGREGATE_MIN,
   ExpressionType.AGGREGATE_MAX, ExpressionType.AGGREGATE_AVG,
   ExpressionType.FUNCTION]

/-- The tags of the conjunction case group of `CopyWithChildren`. -/
def conjunctionTags : List ExpressionType :=
  [ExpressionType.CONJUNCTION_AND, ExpressionType.CONJUNCTION_OR]

/-- The tags of the operator case group of `CopyWithChildren`; the arithmetic
operators `+`, `-`, `*`, `/` and `%` are among them. -/
def operatorTags : List ExpressionType :=
  [ExpressionType.OPERATOR_PLUS, ExpressionType.OPERATOR_MINUS,
   ExpressionType.OPERATOR_MULTIPLY, ExpressionType.OPERATOR_DIVIDE,
   ExpressionType.OPERATOR_CONCAT, ExpressionType.OPERATOR_MOD,
   ExpressionType.OPERATOR_NOT, ExpressionType.OPERATOR_IS_NULL,
   ExpressionType.OPERATOR_IS_NOT_NULL, ExpressionType.OPERATOR_EXISTS]

/-- The trees of the round trip of ingest and rebuild: constants, column
references, and comparisons, conjunctions and operators over two such trees. -/
inductive PlainTree : AbstractExpression → Prop
  | constant (value : Value) : PlainTree (expression.ConstantValueExpression value)
  | column (table_name col_name : String) (bound_oid : Option Nat) :
    PlainTree (columnRef table_name col_name bound_oid)
  | comparison (type : ExpressionType) (left right : AbstractExpression)
    (htype : type ∈ comparisonTags) (hleft : PlainTree left) (hright : PlainTree right) :
    PlainTree (expression.ComparisonExpression type (some left) (some right))
  | conjunction (type : ExpressionType) (left right : AbstractExpression)
    (htype : type ∈ conjunctionTags) (hleft : PlainTree left) (hright : PlainTree right) :
    PlainTree (expression.ConjunctionExpression type (some left) (some right))
  | operator (type : ExpressionType) (ret : TypeId) (left right : AbstractExpression)
    (htype : type ∈ operatorTags) (hleft : PlainTree left) (hright : PlainTree right) :
    PlainTree (expression.OperatorExpression type ret (some left) (some right))

/-- The round trip of one tree through every memo: recording the converted tree
only appends groups, the converted root is no group marker, and the group of
the root is rebuilt to the tree itself, with enough fuel, in every memo that
extends the recorded one. -/
def RoundTrips (e : AbstractExpression) : Prop :=
  ∀ memo : Memo,
    (∃ ext, (memo.RecordExpression (Rewriter.ConvertToAbsExpr e) none).1.groups =
      memo.groups ++ ext) ∧
    Memo.markedGroup (Rewriter.ConvertToAbsExpr e) = none ∧
    ∃ n, ∀ (rewriter : Rewriter) (later : List Group) (fuel : Nat),
      rewriter.metadata_.memo.groups =
        (memo.RecordExpression (Rewriter.ConvertToAbsExpr e) none).1.groups ++ later →
      n ≤ fuel →
      rewriter.RebuildExpression fuel
        (memo.RecordExpression (Rewriter.ConvertToAbsExpr e) none).2 = Outcome.done e

/-- The tree `(A.B = 1) AND (2 + 3 < C.D)`. -/
def plainTreeExample : AbstractExpression :=
  expression.ConjunctionExpression ExpressionType.CONJUNCTION_AND
    (some (expression.ComparisonExpression ExpressionType.COMPARE_EQUAL
      (some (columnRef "A" "B" none))
      (some (expression.ConstantValueExpression (ValueFactory.GetIntegerValue 1)))))
    (some (expression.ComparisonExpression ExpressionType.COMPARE_LESSTHAN
      (some (expression.OperatorExpression ExpressionType.OPERATOR_PLUS TypeId.INTEGER
        (some (expression.ConstantValueExpression (ValueFactory.GetIntegerValue 2)))
        (some (expression.ConstantValueExpression (ValueFactory.GetIntegerValue 3)))))
      (some (columnRef "C" "D" none))))

/-! ## Expressions that the rules leave unchanged -/

/-- The tags for which `rule.cpp` registers a `ComparatorElimination` rule. -/
def comparatorTags : List ExpressionType :=
  [ExpressionType.COMPARE_EQUAL, ExpressionType.COMPARE_NOTEQUAL,
   ExpressionType.COMPARE_LESSTHAN, ExpressionType.COMPARE_GREATERTHAN,
   ExpressionType.COMPARE_LESSTHANOREQUALTO, ExpressionType.COMPARE_GREATERTHANOREQUALTO]

/-- The tags for which `rule.cpp` registers an `EquivalentTransform` rule. -/
def equivalentTags : List ExpressionType :=
  [ExpressionType.CONJUNCTION_AND, ExpressionType.CONJUNCTION_OR, ExpressionType.COMPARE_EQUAL]

namespace AbstractExpression

/-- A node without children that carries the given tag: what a pattern leaf of
that tag binds. -/
def isLeafOfTag (tag : ExpressionType) : AbstractExpression → Bool
  | mk type _ children => decide (type = tag) && children.isEmpty

/-- A constant that holds the Boolean TRUE or the Boolean FALSE: the constants on
which the two short-circuit rules act. -/
def isTruthConstant (e : AbstractExpression) : Bool :=
  e.isLeafOfTag ExpressionType.VALUE_CONSTANT &&
  (decide (expression.asConstantValue (some e) =
      some (ValueFactory.GetBooleanValueOfBool true)) ||
    decide (expression.asConstantValue (some e) =
      some (ValueFactory.GetBooleanValueOfBool false)))

/-- The column of an equality between a column reference and a constant, written
in either order. -/
def equatedColumn : AbstractExpression → Option AbstractExpression
  | mk type _ children =>
    if type = ExpressionType.COMPARE_EQUAL then
      match children with
      | [l, r] =>
        if l.isLeafOfTag ExpressionType.VALUE_TUPLE &&
            r.isLeafOfTag ExpressionType.VALUE_CONSTANT then some l
        else if l.isLeafOfTag ExpressionType.VALUE_CONSTANT &&
            r.isLeafOfTag ExpressionType.VALUE_TUPLE then some r
        else none
      | _ => none
    else none

/-- The two columns of an equality between two column references. -/
def equatedColumns : AbstractExpression → Option (AbstractExpression × AbstractExpression)
  | mk type _ children =>
    if type = ExpressionType.COMPARE_EQUAL then
      match children with
      | [l, r] =>
        if l.isLeafOfTag ExpressionType.VALUE_TUPLE &&
            r.isLeafOfTag ExpressionType.VALUE_TUPLE then some (l, r)
        else none
      | _ => none
    else none

/-- The test that a comparison elimination rule applies to the node: a
comparison `=`, `!=`, `<`, `>`, `<=` or `>=` of two constants. -/
def comparatorRedex : AbstractExpression → Bool
  | mk type _ children =>
    decide (type ∈ comparatorTags) &&
    match children with
    | [l, r] =>
      l.isLeafOfTag ExpressionType.VALUE_CONSTANT && r.isLeafOfTag ExpressionType.VALUE_CONSTANT
    | _ => false

/-- The test that one of the two transitive rules applies to the conjunction of
`first` and `second`, taken in this order: both equate one and the same column
with a constant, or `first` equates a column `K` with a constant and `second`
equates two columns that are equal or of which one is `K`. -/
def transitiveRedexOf (first second : AbstractExpression) : Bool :=
  (match first.equatedColumn, second.equatedColumn with
    | some t1, some t2 => t1.ExactlyEquals t2
    | _, _ => false) ||
  (match first.equatedColumn, second.equatedColumns with
    | some k, some (l, r) => l.ExactlyEquals r || k.ExactlyEquals l || k.ExactlyEquals r
    | _, _ => false)

/-- The test that one of the two transitive rules applies to the node, in one of
the two orders of its operands. -/
def transitiveRedex : AbstractExpression → Bool
  | mk type _ children =>
    decide (type = ExpressionType.CONJUNCTION_AND) &&
    match children with
    | [l, r] => transitiveRedexOf l r || transitiveRedexOf r l
    | _ => false

/-- The test that a short-circuit rule applies to the node: an `AND` or an `OR`
one of whose operands is the constant TRUE or the constant FALSE. -/
def shortCircuitRedex : AbstractExpression → Bool
  | mk type _ children =>
    (decide (type = ExpressionType.CONJUNCTION_AND) ||
      decide (type = ExpressionType.CONJUNCTION_OR)) &&
    match children with
    | [l, r] => l.isTruthConstant || r.isTruthConstant
    | _ => false

/-- The test that a rule of the comparator, transitive or short-circuit pass
applies at the root of the expression. -/
def isRedex (e : AbstractExpression) : Bool :=
  e.comparatorRedex || e.transitiveRedex || e.shortCircuitRedex

mutual
/-- The test that some node of the expression passes the given test. -/
def anyNode (test : AbstractExpression → Bool) : AbstractExpression → Bool
  | mk type cls children => test (mk type cls children) || anyNodeList test children
/-- The test `anyNode` on a list of children. -/
def anyNodeList (test : AbstractExpression → Bool) : List AbstractExpression → Bool
  | [] => false
  | child :: rest => anyNode test child || anyNodeList test rest
end

/-- The test that a rule of the comparator, transitive or short-circuit pass
applies somewhere in the expression. -/
def hasRedex (e : AbstractExpression) : Bool := e.anyNode isRedex

/-- The Boolean that a constant TRUE or FALSE holds. -/
def truthValue (e : AbstractExpression) : Option Bool :=
  if e.isLeafOfTag ExpressionType.VALUE_CONSTANT then
    match expression.asConstantValue (some e) with
    | some v =>
      if v = ValueFactory.GetBooleanValueOfBool true then some true
      else if v = ValueFactory.GetBooleanValueOfBool false then some false
      else none
    | none => none
  else none

end AbstractExpression

/-- The test for the nodes that a rule of the named rule set applies to. -/
def redexOf : RewriteRuleSetName → AbstractExpression → Bool
  | RewriteRuleSetName.COMPARATOR_ELIMINATION => AbstractExpression.comparatorRedex
  | RewriteRuleSetName.TRANSITIVE_TRANSFORM => AbstractExpression.transitiveRedex
  | RewriteRuleSetName.BOOLEAN_SHORT_CIRCUIT => AbstractExpression.shortCircuitRedex
  | _ => fun _ => false

/-- The rule set that a task applies. -/
def OptimizerTask.rule_set_name : OptimizerTask → RewriteRuleSetName
  | OptimizerTask.TopDownRewrite _ name _ => name
  | OptimizerTask.BottomUpRewrite _ name _ => name

/-- A blueprint lists, by group identifier, the first group-expression of each
group.  The group `g` of a blueprint represents a tree when it holds the root of
the tree: a childless node as it is, or an operator of the tag of the root that
`CopyWithChildren` copies to the root, over two groups that represent the
children. -/
inductive Represents (blueprint : List GroupExpression) : GroupID → AbstractExpression → Prop
  | leaf (g : GroupID) (type : ExpressionType) (cls : ExprClass)
    (hgroup : blueprint[g]? = some ⟨⟨some (AbstractExpression.mk type cls [])⟩, []⟩) :
    Represents blueprint g (AbstractExpression.mk type cls [])
  | binary (g left_id right_id : GroupID) (op : AbsExpr_Container) (type : ExpressionType)
    (cls : ExprClass) (left right : AbstractExpression)
    (hgroup : blueprint[g]? = some ⟨op, [left_id, right_id]⟩)
    (htype : op.GetType = type)
    (hcopy : op.CopyWithChildren [left, right] =
      some (AbstractExpression.mk type cls [left, right]))
    (hleft : Represents blueprint left_id left) (hright : Represents blueprint right_id right) :
    Represents blueprint g (AbstractExpression.mk type cls [left, right])

/-- The group-expressions that the pass of the equivalent rules adds to the group
of `original`: for a tag `AND`, `OR` or `=` and two child groups, the
conjunction node of that tag over the two child groups in reverse order. -/
def GroupExpression.flips (original : GroupExpression) : List GroupExpression :=
  match original.child_groups with
  | [c1, c2] =>
    if original.op.GetType ∈ equivalentTags then
      [⟨⟨some (expression.ConjunctionExpressionOfType original.op.GetType)⟩, [c2, c1]⟩]
    else []
  | _ => []

/-- A memo decorates a blueprint: every group holds the group-expression of the
blueprint first, followed by expressions that the pass of the equivalent rules
adds to it. -/
def Memo.decorates (blueprint : List GroupExpression) (memo : Memo) : Prop :=
  memo.groups.length = blueprint.length ∧
  ∀ (g : GroupID) (original : GroupExpression), blueprint[g]? = some original →
    ∃ extras : List GroupExpression,
      memo.groups[g]? = some ⟨original :: extras⟩ ∧ ∀ x ∈ extras, x ∈ original.flips

/-- The groups that hold the one group-expression of the blueprint each. -/
def singleGroups (blueprint : List GroupExpression) : List Group :=
  blueprint.map fun original => ⟨[original]⟩

/-- The groups after the pass of the equivalent rules: every group holds the
group-expression of the blueprint and its flip. -/
def flippedGroups (blueprint : List GroupExpression) : List Group :=
  blueprint.map fun original => ⟨original :: original.flips⟩

/-- The bindings of one child pattern against one child group, as `bindChildren`
takes them. -/
def childBindings (memo : Memo) (pattern : Pattern) (id : GroupID) : List AbsExpr_Expression :=
  if pattern.type = ExpressionType.GROUP_MARKER then
    [groupMarkerLeaf id]
  else
    (memo.GetGroupByID id).logical_expressions.flatMap
      (fun gexpr => bindGroupExpression memo pattern gexpr)

/-- The tasks of the four passes that replace: the bottom-up passes of the null,
comparator and transitive rules, and the top-down pass of the short-circuit
rules with replacement. -/
def OptimizerTask.isReplacing : OptimizerTask → Bool
  | OptimizerTask.TopDownRewrite _ RewriteRuleSetName.BOOLEAN_SHORT_CIRCUIT true => true
  | OptimizerTask.BottomUpRewrite _ RewriteRuleSetName.NULL_LOOKUP _ => true
  | OptimizerTask.BottomUpRewrite _ RewriteRuleSetName.COMPARATOR_ELIMINATION _ => true
  | OptimizerTask.BottomUpRewrite _ RewriteRuleSetName.TRANSITIVE_TRANSFORM _ => true
  | _ => false

/-- A task is settled in a blueprint: it is a task of a replacing pass, and its
group represents a plain tree no node of which a rule of its rule set applies
to. -/
def OptimizerTask.settledIn (blueprint : List GroupExpression) (task : OptimizerTask) : Prop :=
  task.isReplacing = true ∧
  ∃ tree : AbstractExpression, Represents blueprint task.group tree ∧ PlainTree tree ∧
    tree.anyNode (redexOf task.rule_set_name) = false

mutual
/-- The group-expressions that recording an expression without group markers
appends to a memo of `offset` groups: those of the children, from left to
right, and then the operator over the groups of the children. -/
def layout (offset : Nat) : AbsExpr_Expression → List GroupExpression
  | AbsExpr_Expression.mk op children =>
    let kids := layoutList offset children
    kids.1 ++ [⟨op, kids.2⟩]
/-- The group-expressions that recording a list of children appends, and the
groups of the children. -/
def layoutList (offset : Nat) : List AbsExpr_Expression → List GroupExpression × List GroupID
  | [] => ([], [])
  | child :: rest =>
    let first := layout offset child
    let others := layoutList (offset + first.length) rest
    (first ++ others.1, (offset + first.length - 1) :: others.2)
end

/-- A container expression denotes a tree: a childless node that is no group
marker denotes itself; an operator over two expressions denotes the tree that
`CopyWithChildren` builds over the trees of the two. -/
inductive Denotes : AbsExpr_Expression → AbstractExpression → Prop
  | leaf (type : ExpressionType) (cls : ExprClass)
    (hmarker : markerOf ⟨some (AbstractExpression.mk type cls [])⟩ = none) :
    Denotes (AbsExpr_Expression.mk ⟨some (AbstractExpression.mk type cls [])⟩ [])
      (AbstractExpression.mk type cls [])
  | binary (op : AbsExpr_Container) (left right : AbsExpr_Expression) (type : ExpressionType)
    (cls : ExprClass) (l r : AbstractExpression)
    (hdefined : op.IsDefined = true) (hmarker : markerOf op = none)
    (htype : op.GetType = type)
    (hcopy : op.CopyWithChildren [l, r] = some (AbstractExpression.mk type cls [l, r]))
    (hleft : Denotes left l) (hright : Denotes right r) :
    Denotes (AbsExpr_Expression.mk op [left, right]) (AbstractExpression.mk type cls [l, r])

/-- The task loop leads from one memo and stack to another: with any fuel, it
runs out of fuel or continues, after some executions, from the other memo and
stack. -/
def Leads (cc : Comparability) (memo : Memo) (stack : OptimizerTaskStack) (after : Memo)
    (rest : OptimizerTaskStack) : Prop :=
  ∀ fuel : Nat,
    drainTaskStack cc fuel ⟨memo, RuleSet.forExpressions⟩ stack = Outcome.outOfFuel ∨
    ∃ k : Nat, drainTaskStack cc fuel ⟨memo, RuleSet.forExpressions⟩ stack =
      drainTaskStack cc (fuel - k) ⟨after, RuleSet.forExpressions⟩ rest

/-- The first expression that the rule produces over a list of bindings. -/
def firstOutput (cc : Comparability) (rule : Rule) :
    List AbsExpr_Expression → Option AbsExpr_Expression
  | [] => none
  | binding :: rest =>
    match rule.Transform cc binding [] with
    | some (out :: _) => some out
    | _ => firstOutput cc rule rest

/-- The bindings of the pattern `Equal(first, second)` of two leaves in the group
of a tree after the pass of the equivalent rules: the equality as it is written
and its flip, where the tags of the leaves fit. -/
def equalityBindings (first second : ExpressionType) :
    AbstractExpression → List AbsExpr_Expression
  | AbstractExpression.mk type cls [p, q] =>
    if type = ExpressionType.COMPARE_EQUAL then
      (if p.isLeafOfTag first && q.isLeafOfTag second then
        [AbsExpr_Expression.mk ⟨some (AbstractExpression.mk type cls [])⟩
          [AbsExpr_Expression.mk ⟨some p⟩ [], AbsExpr_Expression.mk ⟨some q⟩ []]]
      else []) ++
      (if q.isLeafOfTag first && p.isLeafOfTag second then
        [AbsExpr_Expression.mk ⟨some (expression.ConjunctionExpressionOfType type)⟩
          [AbsExpr_Expression.mk ⟨some q⟩ [], AbsExpr_Expression.mk ⟨some p⟩ []]]
      else [])
    else []
  | _ => []

/-- The bindings of the pattern `AND(Equal(t1, t2), Equal(t3, t4))` at a
conjunction of `first` and `second`, taken in this order. -/
def conjunctionBindings (t1 t2 t3 t4 : ExpressionType) (first second : AbstractExpression) :
    List AbsExpr_Expression :=
  (equalityBindings t1 t2 first).flatMap fun l =>
    (equalityBindings t3 t4 second).map fun r => AbsExpr_Expression.mk andOp [l, r]

/-- The bindings of the pattern of `TVEqualityWithTwoCVTransform` at the group of
`AND(a, b)` after the pass of the equivalent rules: those of the conjunction as
it is written, then those of its flip. -/
def tvBindings (a b : AbstractExpression) : List AbsExpr_Expression :=
  conjunctionBindings ExpressionType.VALUE_TUPLE ExpressionType.VALUE_CONSTANT
      ExpressionType.VALUE_TUPLE ExpressionType.VALUE_CONSTANT a b ++
    conjunctionBindings ExpressionType.VALUE_TUPLE ExpressionType.VALUE_CONSTANT
      ExpressionType.VALUE_TUPLE ExpressionType.VALUE_CONSTANT b a

/-- The bindings of the pattern of `TransitiveClosureConstantTransform` at the
group of `AND(a, b)` after the pass of the equivalent rules. -/
def tcBindings (a b : AbstractExpression) : List AbsExpr_Expression :=
  conjunctionBindings ExpressionType.VALUE_TUPLE ExpressionType.VALUE_CONSTANT
      ExpressionType.VALUE_TUPLE ExpressionType.VALUE_TUPLE a b ++
    conjunctionBindings ExpressionType.VALUE_TUPLE ExpressionType.VALUE_CONSTANT
      ExpressionType.VALUE_TUPLE ExpressionType.VALUE_TUPLE b a

/-- The expression by which the pass of the transitive rules replaces `AND(a, b)`:
the first output of `TVEqualityWithTwoCVTransform`, or else the first output of
`TransitiveClosureConstantTransform`. -/
def transitiveOutput (cc : Comparability) (a b : AbstractExpression) :
    Option AbsExpr_Expression :=
  match firstOutput cc Rule.TVEqualityWithTwoCVTransform (tvBindings a b) with
  | some out => some out
  | none => firstOutput cc Rule.TransitiveClosureConstantTransform (tcBindings a b)

/-- The tree by which the pass of the short-circuit rules replaces `AND(a, b)`:
the other operand next to a constant TRUE, the constant FALSE next to a
constant FALSE; the first operand is tried first. -/
def shortCircuitResult (a b : AbstractExpression) : Option AbstractExpression :=
  match a.truthValue with
  | some true => some b
  | some false =>
    some (expression.ConstantValueExpression (ValueFactory.GetBooleanValueOfBool false))
  | none =>
    match b.truthValue with
    | some true => some a
    | some false =>
      some (expression.ConstantValueExpression (ValueFactory.GetBooleanValueOfBool false))
    | none => none

/-- The tree that `AND(a, b)` is rewritten to when no rule applies inside `a` and
`b`: the tree of the output of the transitive pass, or else the tree that the
short-circuit pass leaves, or else the conjunction as it is. -/
def ConjunctionResult (cc : Comparability) (a b result : AbstractExpression) : Prop :=
  (∃ out : AbsExpr_Expression, transitiveOutput cc a b = some out ∧ Denotes out result) ∨
  (transitiveOutput cc a b = none ∧
    result = (shortCircuitResult a b).getD
      (expression.ConjunctionExpression ExpressionType.CONJUNCTION_AND (some a) (some b)))

/-- A group that represents the tree is rebuilt to the tree, with enough fuel, in
every memo that decorates the blueprint. -/
def RebuildsFrom (tree : AbstractExpression) : Prop :=
  ∀ (blueprint : List GroupExpression) (rewriter : Rewriter) (g : GroupID),
    Represents blueprint g tree → rewriter.metadata_.memo.decorates blueprint →
    ∃ n, ∀ fuel, n ≤ fuel → rewriter.RebuildExpression fuel g = Outcome.done tree

/-- The groups that `RecordTreeGroups` makes of `AND(a, b)`: the groups of `a`,
those of `b`, and the group of the conjunction. -/
def conjunctionGroups (a b : AbstractExpression) : List GroupExpression :=
  layout 0 (Rewriter.ConvertToAbsExpr
    (expression.ConjunctionExpression ExpressionType.CONJUNCTION_AND (some a) (some b)))

/-- The result of a `Transform` that appends nothing, or one expression that
denotes a plain tree to no node of which a short-circuit rule applies. -/
def SettledOutput (result : Option (List AbsExpr_Expression)) : Prop :=
  result = some [] ∨
  ∃ (out : AbsExpr_Expression) (tree : AbstractExpression),
    result = some [out] ∧ Denotes out tree ∧ PlainTree tree ∧
      tree.anyNode AbstractExpression.shortCircuitRedex = false

/-- The blueprint after the group `root` was replaced by an expression: the group
takes the operator of the expression over the groups of its children, which are
appended. -/
def replacedBlueprint (blueprint : List GroupExpression) (root : GroupID) :
    AbsExpr_Expression → List GroupExpression
  | AbsExpr_Expression.mk op children =>
    blueprint.set root ⟨op, (layoutList blueprint.length children).2⟩ ++
      (layoutList blueprint.length children).1

/-- The groups of a memo after `ReplaceGroupExpression` of the group `root` by an
expression without group markers. -/
def replacedGroups (groups : List Group) (root : GroupID) : AbsExpr_Expression → List Group
  | AbsExpr_Expression.mk op children =>
    groups.set root ⟨[⟨op, (layoutList groups.length children).2⟩]⟩ ++
      singleGroups (layoutList groups.length children).1

/-- The group of `a` among the groups of `AND(a, b)`. -/
def leftGroup (a : AbstractExpression) : GroupID :=
  (layout 0 (Rewriter.ConvertToAbsExpr a)).length - 1

/-- The group of `b` among the groups of `AND(a, b)`. -/
def rightGroup (a b : AbstractExpression) : GroupID :=
  (layout 0 (Rewriter.ConvertToAbsExpr a)).length +
    (layout (layout 0 (Rewriter.ConvertToAbsExpr a)).length
      (Rewriter.ConvertToAbsExpr b)).length - 1

/-- The group of the conjunction among the groups of `AND(a, b)`. -/
def rootGroup (a b : AbstractExpression) : GroupID :=
  (layout 0 (Rewriter.ConvertToAbsExpr a)).length +
    (layout (layout 0 (Rewriter.ConvertToAbsExpr a)).length
      (Rewriter.ConvertToAbsExpr b)).length

/-- The bindings of the pattern of `AndShortCircuit` at the group of `AND(a, b)`
after the pass of the equivalent rules: a constant `a` next to the marker of
the group of `b`, then a constant `b` next to the marker of the group of `a`. -/
def shortCircuitBindings (a b : AbstractExpression) : List AbsExpr_Expression :=
  (if a.isLeafOfTag ExpressionType.VALUE_CONSTANT then
    [AbsExpr_Expression.mk andOp
      [AbsExpr_Expression.mk ⟨some a⟩ [], groupMarkerLeaf (rightGroup a b)]]
  else []) ++
  (if b.isLeafOfTag ExpressionType.VALUE_CONSTANT then
    [AbsExpr_Expression.mk andOp
      [AbsExpr_Expression.mk ⟨some b⟩ [], groupMarkerLeaf (leftGroup a)]]
  else [])

/-- The expression that `AndShortCircuit` produces first over the bindings at the
group of `AND(a, b)`: next to a constant TRUE the marker of the group of the
other operand, next to a constant FALSE the constant FALSE. -/
def shortCircuitOutput (a b : AbstractExpression) : Option AbsExpr_Expression :=
  match a.truthValue with
  | some true => some (groupMarkerLeaf (rightGroup a b))
  | some false => some (constantExpr (ValueFactory.GetBooleanValueOfBool false))
  | none =>
    match b.truthValue with
    | some true => some (groupMarkerLeaf (leftGroup a))
    | some false => some (constantExpr (ValueFactory.GetBooleanValueOfBool false))
    | none => none

/-- The memo after the pass of the transitive rules over `AND(a, b)`. -/
def transitiveMemo (cc : Comparability) (a b : AbstractExpression) : Memo :=
  match transitiveOutput cc a b with
  | some out => ⟨replacedGroups (flippedGroups (conjunctionGroups a b)) (rootGroup a b) out⟩
  | none => ⟨flippedGroups (conjunctionGroups a b)⟩

/-- The two ways to write the equality of a column reference and a constant:
`column = value` and `value = column`. -/
def equalityForms (column : AbstractExpression) (value : Value) : List AbstractExpression :=
  [expression.ComparisonExpression ExpressionType.COMPARE_EQUAL (some column)
    (some (expression.ConstantValueExpression value)),
   expression.ComparisonExpression ExpressionType.COMPARE_EQUAL
    (some (expression.ConstantValueExpression value)) (some column)]

/-- The part of a memo that is reached from a group, as a tree: a group that
holds one childless group-expression is a leaf; a group whose first
group-expression is an operator over two child groups is a node, which is
flipped when the group also holds the group-expressions that the pass of the
equivalent rules adds to it. -/
inductive Shape where
  | leaf (op : AbsExpr_Container)
  | node (flipped : Bool) (op : AbsExpr_Container) (left right : Shape)
  deriving Repr

mutual
/-- The shape of the groups that recording an expression makes; `flipped` tells
whether the pass of the equivalent rules has run over them. -/
def shapeOf (flipped : Bool) : AbsExpr_Expression → Shape
  | AbsExpr_Expression.mk op children =>
    match shapesOf flipped children with
    | [l, r] => Shape.node flipped op l r
    | _ => Shape.leaf op
/-- The shapes of the children of an expression. -/
def shapesOf (flipped : Bool) : List AbsExpr_Expression → List Shape
  | [] => []
  | child :: rest => shapeOf flipped child :: shapesOf flipped rest
end

namespace Shape

/-- The group-expressions of the group of a node over the child groups `c1` and
`c2`. -/
def entries (flipped : Bool) (op : AbsExpr_Container) (c1 c2 : GroupID) : List GroupExpression :=
  ⟨op, [c1, c2]⟩ :: (if flipped then GroupExpression.flips ⟨op, [c1, c2]⟩ else [])

/-- The tree that `RebuildExpression` builds from a group of the shape. -/
def tree : Shape → Option AbstractExpression
  | leaf op => op.CopyWithChildren []
  | node _ op l r =>
    match l.tree, r.tree with
    | some x, some y => op.CopyWithChildren [x, y]
    | _, _ => none

/-- The bindings of a pattern leaf of the given tag at a group of the shape. -/
def leafBindings (tag : ExpressionType) : Shape → List AbsExpr_Expression
  | leaf op => if op.GetType = tag then [AbsExpr_Expression.mk op []] else []
  | node _ _ _ _ => []

/-- The group-expressions of a group of the shape, in order, each as its operator
and the shapes of its two child groups. -/
def alternatives : Shape → List (AbsExpr_Container × Shape × Shape)
  | leaf _ => []
  | node flipped op l r =>
    (op, l, r) ::
      (if flipped = true ∧ op.GetType ∈ equivalentTags then
        [(⟨some (expression.ConjunctionExpressionOfType op.GetType)⟩, r, l)]
      else [])

/-- The bindings of the pattern `tag(first, second)` of two leaves at a group of
the shape. -/
def pairBindings (tag first second : ExpressionType) (s : Shape) : List AbsExpr_Expression :=
  s.alternatives.flatMap fun x =>
    if x.1.GetType = tag then
      (x.2.1.leafBindings first).flatMap fun p =>
        (x.2.2.leafBindings second).map fun q => AbsExpr_Expression.mk x.1 [p, q]
    else []

/-- The bindings of the pattern `AND(Equal(t1, t2), Equal(t3, t4))` at a group of
the shape. -/
def andBindings (t1 t2 t3 t4 : ExpressionType) (s : Shape) : List AbsExpr_Expression :=
  s.alternatives.flatMap fun x =>
    if x.1.GetType = ExpressionType.CONJUNCTION_AND then
      (x.2.1.pairBindings ExpressionType.COMPARE_EQUAL t1 t2).flatMap fun p =>
        (x.2.2.pairBindings ExpressionType.COMPARE_EQUAL t3 t4).map fun q =>
          AbsExpr_Expression.mk x.1 [p, q]
    else []

/-- The shape of a group after a rule set was applied to it with replacement:
the shape of the first expression produced, or the shape as it was. -/
def replacedBy (s : Shape) : Option AbsExpr_Expression → Shape
  | some out => shapeOf false out
  | none => s

/-- The shape of a group after the comparison elimination rules were applied to
it, one after the other in firing order: each replaces the group by the first
expression that it produces. -/
@[irreducible]
def comparatorStep (cc : Comparability) (s : Shape) : Shape :=
  (ConstructValidRules (RuleSet.forExpressions.GetRewriteRulesByName
      RewriteRuleSetName.COMPARATOR_ELIMINATION)).foldl
    (fun s r => s.replacedBy (firstOutput cc r.rule
      (s.pairBindings r.rule.GetMatchPattern.type ExpressionType.VALUE_CONSTANT
        ExpressionType.VALUE_CONSTANT))) s

/-- The shape of a group after `TVEqualityWithTwoCVTransform` and then
`TransitiveClosureConstantTransform` were applied to it. -/
def transitiveStep (cc : Comparability) (s : Shape) : Shape :=
  let first := s.replacedBy (firstOutput cc Rule.TVEqualityWithTwoCVTransform
    (s.andBindings ExpressionType.VALUE_TUPLE ExpressionType.VALUE_CONSTANT
      ExpressionType.VALUE_TUPLE ExpressionType.VALUE_CONSTANT))
  first.replacedBy (firstOutput cc Rule.TransitiveClosureConstantTransform
    (first.andBindings ExpressionType.VALUE_TUPLE ExpressionType.VALUE_CONSTANT
      ExpressionType.VALUE_TUPLE ExpressionType.VALUE_TUPLE))

/-- A bottom-up pass over the shape: the children first, then the step at the
node. -/
def bottomUp (step : Shape → Shape) : Shape → Shape
  | leaf op => step (leaf op)
  | node flipped op l r => step (node flipped op (bottomUp step l) (bottomUp step r))

/-- The value of a constant leaf. -/
def constant : Shape → Option Value
  | leaf op =>
    if op.GetType = ExpressionType.VALUE_CONSTANT then expression.asConstantValue op.GetExpr
    else none
  | node _ _ _ _ => none

/-- The shape of a group that took over the first group-expression of a group of
the shape. -/
def copied : Shape → Shape
  | leaf op => leaf op
  | node _ op l r => node false op l r

/-- What a short-circuit rule makes of one group-expression `tag(x, y)`: next
to the neutral constant the other operand, next to the other Boolean constant
that constant. -/
def shortCircuitAt (neutral : Bool) (x y : Shape) : Option Shape :=
  match x.constant with
  | some v =>
    if v = ValueFactory.GetBooleanValueOfBool neutral then some y.copied
    else if v = ValueFactory.GetBooleanValueOfBool (!neutral) then
      some (leaf ⟨some (expression.ConstantValueExpression
        (ValueFactory.GetBooleanValueOfBool (!neutral)))⟩)
    else none
  | none => none

/-- What a short-circuit rule of the given tag makes of a group of the shape:
the first result over the group-expressions of the group. -/
def shortCircuit (tag : ExpressionType) (neutral : Bool) (s : Shape) : Option Shape :=
  (s.alternatives.filterMap fun x =>
    if x.1.GetType = tag then shortCircuitAt neutral x.2.1 x.2.2 else none).head?

/-- The shape of a group after `AndShortCircuit` and then `OrShortCircuit` were
applied to it. -/
def shortCircuited (s : Shape) : Shape :=
  let first := (s.shortCircuit ExpressionType.CONJUNCTION_AND true).getD s
  (first.shortCircuit ExpressionType.CONJUNCTION_OR false).getD first

/-- The number of nodes on the longest path of the shape. -/
def height : Shape → Nat
  | leaf _ => 1
  | node _ _ l r => max l.height r.height + 1

/-- The top-down pass of the short-circuit rules over the shape: the rules at
the node first, then the pass over the children that the node has then. -/
def topDown : Nat → Shape → Shape
  | 0, s => s
  | fuel + 1, s =>
    match s.shortCircuited with
    | leaf op => leaf op
    | node flipped op l r => node flipped op (topDown fuel l) (topDown fuel r)

/-- The shape of the memo after the five passes over the groups of a recorded
expression. -/
def rewritten (cc : Comparability) (e : AbsExpr_Expression) : Shape :=
  let s3 := bottomUp (comparatorStep cc) (shapeOf true e)
  let s4 := bottomUp (transitiveStep cc) s3
  topDown s4.height s4

/-- The shapes that the passes meet when they start from a plain tree: a leaf is
a constant or a column reference; the operator of a node is defined, is no
group marker and carries the tag of a comparison, a conjunction or an
operator. -/
def plain : Shape → Prop
  | leaf op =>
    (∃ v : Value, op = ⟨some (expression.ConstantValueExpression v)⟩) ∨
      ∃ (t c : String) (o : Option Nat), op = ⟨some (columnRef t c o)⟩
  | node _ op l r =>
    op.IsDefined = true ∧ markerOf op = none ∧
      op.GetType ∈ comparisonTags ++ conjunctionTags ++ operatorTags ∧ l.plain ∧ r.plain

end Shape

/-- The group `g` of the memo holds a shape on the groups `S`: a leaf is a group
with one childless group-expression; a node is a group with the
group-expressions of the node over two child groups that hold the shapes of the
children on two sets of groups that are disjoint and do not contain `g`. -/
inductive Holds (memo : Memo) : Nat → Shape → List Nat → Prop
  | leaf (g : Nat) (op : AbsExpr_Container) (hmemo : memo.groups[g]? = some ⟨[⟨op, []⟩]⟩) :
    Holds memo g (Shape.leaf op) [g]
  | node (g c1 c2 : Nat) (flipped : Bool) (op : AbsExpr_Container) (l r : Shape)
    (S1 S2 : List Nat)
    (hmemo : memo.groups[g]? = some ⟨Shape.entries flipped op c1 c2⟩)
    (hl : Holds memo c1 l S1) (hr : Holds memo c2 r S2)
    (hapart : ∀ i, i ∈ S1 → i ∉ S2) (hg1 : g ∉ S1) (hg2 : g ∉ S2) :
    Holds memo g (Shape.node flipped op l r) (g :: (S1 ++ S2))

/-- What a stretch of the task loop may change when it works on the groups `S`:
the memo does not shrink, the groups outside `S` stay as they are, and the
groups `S2` that the shape then occupies are groups of `S` or new groups. -/
def Frame (memo after : Memo) (S S2 : List Nat) : Prop :=
  memo.groups.length ≤ after.groups.length ∧
  (∀ i : Nat, i < memo.groups.length → i ∉ S → after.groups[i]? = memo.groups[i]?) ∧
  (∀ i : Nat, i ∈ S2 → i ∈ S ∨ memo.groups.length ≤ i)

/-- The task that `task` makes for a group turns a group of shape `s` into a group
of shape `s2`, in every memo and before every stack. -/
def Processes (cc : Comparability) (task : GroupID → OptimizerTask) (s s2 : Shape) : Prop :=
  ∀ (memo : Memo) (g : Nat) (S : List Nat) (rest : OptimizerTaskStack),
    Holds memo g s S →
    ∃ (after : Memo) (S2 : List Nat),
      Leads cc memo (task g :: rest) after rest ∧ Holds after g s2 S2 ∧ Frame memo after S S2

/-- The rules of the named rule set, applied with replacement, turn a group of
shape `s` into a group of shape `s2`, in every memo. -/
def Optimizes (cc : Comparability) (name : RewriteRuleSetName) (s s2 : Shape) : Prop :=
  ∀ (memo : Memo) (g : Nat) (S : List Nat),
    Holds memo g s S →
    ∃ (after : Memo) (S2 : List Nat),
      OptimizeCurrentGroup cc ⟨memo, RuleSet.forExpressions⟩ g name true =
        some ⟨after, RuleSet.forExpressions⟩ ∧
      Holds after g s2 S2 ∧ Frame memo after S S2

/-- One rule, applied with replacement, turns a group of shape `s` into a group of
shape `s2`, in every memo. -/
def Applies (cc : Comparability) (rule : Rule) (s s2 : Shape) : Prop :=
  ∀ (memo : Memo) (g : Nat) (S : List Nat),
    Holds memo g s S →
    ∃ (after : Memo) (S2 : List Nat),
      applyRuleToGroup cc true g memo rule = some after ∧
      Holds after g s2 S2 ∧ Frame memo after S S2

/-- The groups of a layout, each with its flips when the pass of the equivalent
rules has run over them. -/
def statusGroups (flipped : Bool) (blueprint : List GroupExpression) : List Group :=
  blueprint.map fun original => ⟨original :: (if flipped then original.flips else [])⟩

/-- The bindings of the pattern of a short-circuit rule at one group-expression:
a constant first operand `x` next to the marker of the group `cy` of the second
operand. -/
def Shape.markerBindings (x : Shape) (op : AbsExpr_Container) (cy : GroupID) :
    List AbsExpr_Expression :=
  (x.leafBindings ExpressionType.VALUE_CONSTANT).flatMap fun p =>
    [groupMarkerLeaf cy].map fun r => AbsExpr_Expression.mk op [p, r]

end peloton

/-! # Properties -/

namespace peloton

/-! ## The rules registered by the rule set, in firing order -/

theorem validRules_equivalent :
    ConstructValidRules
      (RuleSet.forExpressions.GetRewriteRulesByName RewriteRuleSetName.EQUIVALENT_TRANSFORM) =
    [⟨Rule.EquivalentTransform RuleType.EQUIV_AND ExpressionType.CONJUNCTION_AND, 3⟩,
     ⟨Rule.EquivalentTransform RuleType.EQUIV_OR ExpressionType.CONJUNCTION_OR, 3⟩,
     ⟨Rule.EquivalentTransform RuleType.EQUIV_COMPARE_EQUAL ExpressionType.COMPARE_EQUAL, 3⟩] := by
  decide

theorem validRules_null_lookup :
    ConstructValidRules
      (RuleSet.forExpressions.GetRewriteRulesByName RewriteRuleSetName.NULL_LOOKUP) = [] := by
  decide

theorem validRules_comparator :
    ConstructValidRules
      (RuleSet.forExpressions.GetRewriteRulesByName RewriteRuleSetName.COMPARATOR_ELIMINATION) =
    [⟨Rule.ComparatorElimination RuleType.CONSTANT_COMPARE_EQUAL ExpressionType.COMPARE_EQUAL, 2⟩,
     ⟨Rule.ComparatorElimination RuleType.CONSTANT_COMPARE_NOTEQUAL
        ExpressionType.COMPARE_NOTEQUAL, 2⟩,
     ⟨Rule.ComparatorElimination RuleType.CONSTANT_COMPARE_LESSTHAN
        ExpressionType.COMPARE_LESSTHAN, 2⟩,
     ⟨Rule.ComparatorElimination RuleType.CONSTANT_COMPARE_GREATERTHAN
        ExpressionType.COMPARE_GREATERTHAN, 2⟩,
     ⟨Rule.ComparatorElimination RuleType.CONSTANT_COMPARE_LESSTHANOREQUALTO
        ExpressionType.COMPARE_LESSTHANOREQUALTO, 2⟩,
     ⟨Rule.ComparatorElimination RuleType.CONSTANT_COMPARE_GREATERTHANOREQUALTO
        ExpressionType.COMPARE_GREATERTHANOREQUALTO, 2⟩] := by
  decide

theorem validRules_transitive :
    ConstructValidRules
      (RuleSet.forExpressions.GetRewriteRulesByName RewriteRuleSetName.TRANSITIVE_TRANSFORM) =
    [⟨Rule.TVEqualityWithTwoCVTransform, 1⟩, ⟨Rule.TransitiveClosureConstantTransform, 1⟩] := by
  decide

theorem validRules_short_circuit :
    ConstructValidRules
      (RuleSet.forExpressions.GetRewriteRulesByName RewriteRuleSetName.BOOLEAN_SHORT_CIRCUIT) =
    [⟨Rule.AndShortCircuit, 2⟩, ⟨Rule.OrShortCircuit, 2⟩] := by
  decide

theorem comparator_rules_mem (rule : RuleType) (root : ExpressionType) :
    Rule.ComparatorElimination rule root ∈
      RuleSet.forExpressions.GetRewriteRulesByName RewriteRuleSetName.COMPARATOR_ELIMINATION ↔
    (rule = RuleType.CONSTANT_COMPARE_EQUAL ∧ root = ExpressionType.COMPARE_EQUAL) ∨
    (rule = RuleType.CONSTANT_COMPARE_NOTEQUAL ∧ root = ExpressionType.COMPARE_NOTEQUAL) ∨
    (rule = RuleType.CONSTANT_COMPARE_LESSTHAN ∧ root = ExpressionType.COMPARE_LESSTHAN) ∨
    (rule = RuleType.CONSTANT_COMPARE_GREATERTHAN ∧ root = ExpressionType.COMPARE_GREATERTHAN) ∨
    (rule = RuleType.CONSTANT_COMPARE_LESSTHANOREQUALTO ∧
      root = ExpressionType.COMPARE_LESSTHANOREQUALTO) ∨
    (rule = RuleType.CONSTANT_COMPARE_GREATERTHANOREQUALTO ∧
      root = ExpressionType.COMPARE_GREATERTHANOREQUALTO) := by
  simp [RuleSet.forExpressions, RuleSet.GetRewriteRulesByName, RuleSet.AddRewriteRule,
    RuleSet.empty]

/-! ## Unfolding lemmas that fire on evaluated arguments only -/

theorem applyRuleToGroup_mk (cc : Comparability) (replace_on_match : Bool) (group_id : GroupID)
    (groups : List Group) (rule : Rule) :
    applyRuleToGroup cc replace_on_match group_id ⟨groups⟩ rule =
      match foldlAbort
        (fun state gexpr =>
          foldlAbort (applyRuleToBinding cc rule replace_on_match group_id) state
            (bindGroupExpression state.1 rule.GetMatchPattern gexpr))
        ((⟨groups⟩ : Memo), false)
        ((⟨groups⟩ : Memo).GetGroupByID group_id).logical_expressions with
      | some state => some state.1
      | none => none := rfl

theorem applyRuleToBinding_mk (cc : Comparability) (rule : Rule) (replace_on_match : Bool)
    (group_id : GroupID) (memo : Memo) (flag : Bool) (op : AbsExpr_Container)
    (children : List AbsExpr_Expression) :
    applyRuleToBinding cc rule replace_on_match group_id (memo, flag)
        (AbsExpr_Expression.mk op children) =
      if flag then some (memo, flag)
      else
        match rule.Transform cc (AbsExpr_Expression.mk op children) [] with
        | some after =>
          some (recordTransformed replace_on_match group_id memo after,
            replace_on_match && !after.isEmpty)
        | none => none := by
  cases flag <;> simp [applyRuleToBinding, Rule.Check]

theorem recordTransformed_nil (replace_on_match : Bool) (group_id : GroupID) (memo : Memo) :
    recordTransformed replace_on_match group_id memo [] = memo := rfl

theorem recordTransformed_cons (replace_on_match : Bool) (group_id : GroupID) (memo : Memo)
    (op : AbsExpr_Container) (children rest : List AbsExpr_Expression) :
    recordTransformed replace_on_match group_id memo (AbsExpr_Expression.mk op children :: rest) =
      recordTransformed replace_on_match group_id
        (if replace_on_match then
          memo.ReplaceGroupExpression group_id (AbsExpr_Expression.mk op children)
        else memo.AddEquivalentGroupExpression group_id (AbsExpr_Expression.mk op children))
        rest := rfl

/-! ## The stages of `RewriteExpression` -/

theorem drain_step {cc : Comparability} {fuel : Nat} {metadata next : OptimizerMetadata}
    {task : OptimizerTask} {stack rest : OptimizerTaskStack}
    {result : Outcome OptimizerMetadata}
    (hstep : task.execute cc metadata stack = some (next, rest))
    (hrest : drainTaskStack cc fuel next rest = result) :
    drainTaskStack cc (fuel + 1) metadata (task :: stack) = result := by
  rw [drainTaskStack.eq_3, hstep]
  exact hrest

theorem drain_nil (cc : Comparability) (fuel : Nat) (metadata : OptimizerMetadata) :
    drainTaskStack cc fuel metadata [] = Outcome.done metadata := by
  cases fuel <;> rfl

theorem rebuild_leaf {rewriter : Rewriter} {fuel : Nat} {root : GroupID} {cur_group : Group}
    {expr : GroupExpression} {tail : List GroupExpression} {tree : AbstractExpression}
    (hgroup : rewriter.metadata_.memo.groups[root]? = some cur_group)
    (hexprs : cur_group.logical_expressions = expr :: tail)
    (hchildren : expr.child_groups = [])
    (hcopy : expr.op.CopyWithChildren [] = some tree) :
    rewriter.RebuildExpression (fuel + 1) root = Outcome.done tree := by
  rw [Rewriter.RebuildExpression.eq_2]
  simp only [hgroup, hexprs, hchildren, Outcome.mapList, hcopy]

theorem rewrite_stages {cc : Comparability} {fuel : Nat} {rewriter recorded : Rewriter}
    {expr tree : AbstractExpression} {root : GroupID} {metadata : OptimizerMetadata}
    (hrecord : rewriter.RecordTreeGroups expr = (recorded, root))
    (hloop : drainTaskStack cc fuel recorded.metadata_ (Rewriter.seedTaskStack root) =
      Outcome.done metadata)
    (hrebuild : Rewriter.RebuildExpression ⟨metadata⟩ fuel root = Outcome.done tree) :
    Rewriter.RewriteExpression cc fuel rewriter (some expr) =
      Outcome.done (some tree, Rewriter.new) := by
  simp only [Rewriter.RewriteExpression, hrecord, Rewriter.RewriteLoop, hloop, hrebuild]
  rfl

/-! ## Constant folding of comparisons -/

theorem compareWith_null (rel : Int → Int → Bool) (l r : Value)
    (h : l.IsNull = true ∨ r.IsNull = true) : Value.compareWith rel l r = CmpBool.NULL_ := by
  unfold Value.compareWith Value.IsNull at *
  cases hl : l.data <;> cases hr : r.data <;> simp_all

theorem compare_null (rule : RuleType) (root : ExpressionType)
    (hrule : Rule.ComparatorElimination rule root ∈
      RuleSet.forExpressions.GetRewriteRulesByName RewriteRuleSetName.COMPARATOR_ELIMINATION)
    (l r : Value) (h : l.IsNull = true ∨ r.IsNull = true) :
    ComparatorElimination.compare rule l r = some CmpBool.NULL_ := by
  rw [comparator_rules_mem] at hrule
  rcases hrule with ⟨rfl, _⟩ | ⟨rfl, _⟩ | ⟨rfl, _⟩ | ⟨rfl, _⟩ | ⟨rfl, _⟩ | ⟨rfl, _⟩ <;>
    simp [ComparatorElimination.compare, Value.CompareEquals, Value.CompareNotEquals,
      Value.CompareLessThan, Value.CompareGreaterThan, Value.CompareGreaterThanEquals,
      compareWith_null _ l r h]

theorem transform_comparable (cc : Comparability) (rule : RuleType)
    (input l r : AbsExpr_Expression) (lv rv : Value) (transformed : List AbsExpr_Expression)
    (hchildren : input.Children = [l, r])
    (hl : expression.asConstantValue l.Op.GetExpr = some lv)
    (hr : expression.asConstantValue r.Op.GetExpr = some rv)
    (hcc : cc lv rv = true) :
    ComparatorElimination.Transform cc rule input transformed =
      (ComparatorElimination.compare rule lv rv).map
        (fun cmp => transformed ++ [constantExpr (ValueFactory.GetBooleanValue cmp)]) := by
  unfold ComparatorElimination.Transform
  rw [hchildren]
  simp only [hl, hr, hcc, if_true]
  cases ComparatorElimination.compare rule lv rv <;> rfl

set_option maxHeartbeats 1000000 in
set_option maxRecDepth 100000 in
theorem rewrite_constant_comparison (cc : Comparability) (rule : RuleType)
    (root : ExpressionType)
    (hrule : Rule.ComparatorElimination rule root ∈
      RuleSet.forExpressions.GetRewriteRulesByName RewriteRuleSetName.COMPARATOR_ELIMINATION)
    (lv rv : Value) (hcc : cc lv rv = true) (cmp : CmpBool)
    (hcmp : ComparatorElimination.compare rule lv rv = some cmp)
    (fuel : Nat) (hfuel : 18 ≤ fuel) :
    Rewriter.RewriteExpression cc fuel Rewriter.new
        (some (expression.ComparisonExpression root
          (some (expression.ConstantValueExpression lv))
          (some (expression.ConstantValueExpression rv)))) =
      Outcome.done (some (expression.ConstantValueExpression
        (ValueFactory.GetBooleanValue cmp)), Rewriter.new) := by
  obtain ⟨n, rfl⟩ := Nat.exists_eq_add_of_le' hfuel
  rw [comparator_rules_mem] at hrule
  rcases hrule with ⟨rfl, rfl⟩ | ⟨rfl, rfl⟩ | ⟨rfl, rfl⟩ | ⟨rfl, rfl⟩ | ⟨rfl, rfl⟩ | ⟨rfl, rfl⟩
  all_goals
    apply rewrite_stages
    · simp [Rewriter.RecordTreeGroups, Rewriter.ConvertToAbsExpr.eq_1,
        Rewriter.ConvertChildren.eq_1, Rewriter.ConvertChildren.eq_2,
        expression.ComparisonExpression, expression.ConjunctionExpression,
        expression.ConstantValueExpression, GetConstantExpression, CreateTransitiveExpression,
        columnRef, Rewriter.new, OptimizerMetadata.fresh, Memo.RecordExpression.eq_1,
        Memo.RecordChildren.eq_1, Memo.RecordChildren.eq_2, Memo.markedGroup,
        Memo.InsertExpression, Memo.findDuplicate, Memo.empty, AbsExpr_Expression.Op,
        AbsExpr_Container.GetExpr, GroupExpression.operator_eq, AbsExpr_Container.operator_eq,
        AbsExpr_Container.IsDefined]
      exact ⟨rfl, rfl⟩
    · simp only [Rewriter.seedTaskStack, Rewriter.initialTasks, OptimizerTaskStack.Push,
        OptimizerTask.newTopDownRewrite, OptimizerTask.SetReplaceOnTransform, List.foldl]
      repeat
        apply drain_step
        · simp [OptimizerTaskStack.Push, OptimizerTask.execute, OptimizeCurrentGroup,
          validRules_equivalent, validRules_null_lookup, validRules_comparator,
          validRules_transitive, validRules_short_circuit, foldlAbort, applyRuleToGroup_mk,
          applyRuleToBinding_mk, recordTransformed_nil, recordTransformed_cons,
          Memo.GetGroupByID, bindGroupExpression.eq_1, bindChildren.eq_1, bindChildren.eq_2,
          Rule.GetMatchPattern, ComparatorElimination.match_pattern,
          EquivalentTransform.match_pattern, TVEqualityWithTwoCVTransform.match_pattern,
          TransitiveClosureConstantTransform.match_pattern, AndShortCircuit.match_pattern,
          OrShortCircuit.match_pattern, andOfEqualsPattern, Pattern.leaf, Pattern.type,
          AbsExpr_Container.GetType, AbstractExpression.GetExpressionType,
          GetUniqueChildGroupIDs, insertGroupID.eq_1, insertGroupID.eq_2, Rule.Transform,
          ComparatorElimination.Transform, EquivalentTransform.Transform,
          TVEqualityWithTwoCVTransform.Transform, TransitiveClosureConstantTransform.Transform,
          AndShortCircuit.Transform, OrShortCircuit.Transform, isLeafOfType,
          AbsExpr_Expression.Children, AbsExpr_Expression.Op, AbsExpr_Expression.PushChild,
          AbsExpr_Expression.ofContainer, AbsExpr_Container.GetExpr, expression.asConstantValue,
          expression.ConstantValueExpression, expression.ComparisonExpression,
          expression.ConjunctionExpressionOfType, expression.GroupMarkerExpression,
          constantExpr, groupMarkerLeaf, Memo.ReplaceGroupExpression, Memo.setGroup,
          Memo.AddEquivalentGroupExpression, Memo.RecordExpression.eq_1,
          Memo.RecordChildren.eq_1, Memo.RecordChildren.eq_2, Memo.markedGroup,
          Memo.InsertExpression, Memo.findDuplicate, GroupExpression.operator_eq,
          AbsExpr_Container.operator_eq, AbsExpr_Container.IsDefined,
          AbstractExpression.ExactlyEquals.eq_1, AbstractExpression.ExactlyEqualsList.eq_1,
          AbstractExpression.ExactlyEqualsList.eq_2, hcc, hcmp]
          exact ⟨rfl, rfl⟩
      exact drain_nil _ _ _
    · apply rebuild_leaf
      · rfl
      · rfl
      · rfl
      · simp [AbsExpr_Container.CopyWithChildren, AbsExpr_Container.GetType,
          AbstractExpression.GetExpressionType, expression.ConstantValueExpression]

theorem compare_integers (a b : Int) :
    ComparatorElimination.compare RuleType.CONSTANT_COMPARE_EQUAL
        (ValueFactory.GetIntegerValue a) (ValueFactory.GetIntegerValue b) =
      some (if a = b then CmpBool.CmpTrue else CmpBool.CmpFalse) ∧
    ComparatorElimination.compare RuleType.CONSTANT_COMPARE_NOTEQUAL
        (ValueFactory.GetIntegerValue a) (ValueFactory.GetIntegerValue b) =
      some (if a ≠ b then CmpBool.CmpTrue else CmpBool.CmpFalse) ∧
    ComparatorElimination.compare RuleType.CONSTANT_COMPARE_LESSTHAN
        (ValueFactory.GetIntegerValue a) (ValueFactory.GetIntegerValue b) =
      some (if a < b then CmpBool.CmpTrue else CmpBool.CmpFalse) ∧
    ComparatorElimination.compare RuleType.CONSTANT_COMPARE_GREATERTHAN
        (ValueFactory.GetIntegerValue a) (ValueFactory.GetIntegerValue b) =
      some (if a > b then CmpBool.CmpTrue else CmpBool.CmpFalse) ∧
    ComparatorElimination.compare RuleType.CONSTANT_COMPARE_LESSTHANOREQUALTO
        (ValueFactory.GetIntegerValue a) (ValueFactory.GetIntegerValue b) =
      some (if a ≤ b then CmpBool.CmpTrue else CmpBool.CmpFalse) ∧
    ComparatorElimination.compare RuleType.CONSTANT_COMPARE_GREATERTHANOREQUALTO
        (ValueFactory.GetIntegerValue a) (ValueFactory.GetIntegerValue b) =
      some (if a ≥ b then CmpBool.CmpTrue else CmpBool.CmpFalse) := by
  refine ⟨?_, ?_, ?_, ?_, ?_, ?_⟩
  · simp [ComparatorElimination.compare, Value.CompareEquals, Value.compareWith,
      ValueFactory.GetIntegerValue]
  · simp [ComparatorElimination.compare, Value.CompareNotEquals, Value.compareWith,
      ValueFactory.GetIntegerValue]
  · simp [ComparatorElimination.compare, Value.CompareLessThan, Value.compareWith,
      ValueFactory.GetIntegerValue]
  · simp [ComparatorElimination.compare, Value.CompareGreaterThan, Value.compareWith,
      ValueFactory.GetIntegerValue]
  · by_cases h : a ≤ b
    · simp [ComparatorElimination.compare, Value.CompareGreaterThan, Value.compareWith,
        ValueFactory.GetIntegerValue, h, not_lt.mpr h]
    · simp [ComparatorElimination.compare, Value.CompareGreaterThan, Value.compareWith,
        ValueFactory.GetIntegerValue, h, not_le.mp h]
  · simp [ComparatorElimination.compare, Value.CompareGreaterThanEquals, Value.compareWith,
      ValueFactory.GetIntegerValue]

theorem booleanValue_of_decide (p : Prop) [Decidable p] :
    ValueFactory.GetBooleanValue (if p then CmpBool.CmpTrue else CmpBool.CmpFalse) =
      ValueFactory.GetBooleanValueOfBool (decide p) := by
  by_cases h : p <;> simp [h, ValueFactory.GetBooleanValue, ValueFactory.GetBooleanValueOfBool]

theorem rewrite_integer_comparison (cc : Comparability) (rule : RuleType)
    (root : ExpressionType)
    (hrule : Rule.ComparatorElimination rule root ∈
      RuleSet.forExpressions.GetRewriteRulesByName RewriteRuleSetName.COMPARATOR_ELIMINATION)
    (a b : Int) (p : Prop) [Decidable p]
    (hcc : cc (ValueFactory.GetIntegerValue a) (ValueFactory.GetIntegerValue b) = true)
    (hcmp : ComparatorElimination.compare rule (ValueFactory.GetIntegerValue a)
      (ValueFactory.GetIntegerValue b) = some (if p then CmpBool.CmpTrue else CmpBool.CmpFalse))
    (fuel : Nat) (hfuel : 18 ≤ fuel) :
    Rewriter.RewriteExpression cc fuel Rewriter.new
        (some (expression.ComparisonExpression root (some (GetConstantExpression a))
          (some (GetConstantExpression b)))) =
      Outcome.done (some (expression.ConstantValueExpression
        (ValueFactory.GetBooleanValueOfBool (decide p))), Rewriter.new) := by
  rw [← booleanValue_of_decide]
  exact rewrite_constant_comparison cc rule root hrule _ _ hcc _ hcmp fuel hfuel

/-! ## Properties of the rewriter -/

/-- C1: `Rewriter::RewriteExpression` applied to a null expression returns null and
leaves the rewriter, hence its memo, as it was; this holds for every amount of
fuel, zero included, so no task is executed. -/
theorem rewriteExpression_null (cc : Comparability) (fuel : Nat) (rewriter : Rewriter) :
    Rewriter.RewriteExpression cc fuel rewriter none = Outcome.done (none, rewriter) ∧
    Rewriter.RewriteExpression cc 0 rewriter none = Outcome.done (none, rewriter) :=
  ⟨rfl, rfl⟩

/-- C2: for all integers `a` and `b` that the type system accepts as comparable,
`RewriteExpression` applied to `a = b` (to `a != b`) returns, for every fuel
of at least 18 tasks, a constant expression without children whose Boolean
value is true exactly when `a = b` (when `a ≠ b`). -/
theorem rewrite_integer_equal_notEqual (cc : Comparability) (a b : Int)
    (hcc : cc (ValueFactory.GetIntegerValue a) (ValueFactory.GetIntegerValue b) = true)
    (fuel : Nat) (hfuel : 18 ≤ fuel) :
    Rewriter.RewriteExpression cc fuel Rewriter.new
        (some (expression.ComparisonExpression ExpressionType.COMPARE_EQUAL
          (some (GetConstantExpression a)) (some (GetConstantExpression b)))) =
      Outcome.done (some (expression.ConstantValueExpression
        (ValueFactory.GetBooleanValueOfBool (decide (a = b)))), Rewriter.new) ∧
    Rewriter.RewriteExpression cc fuel Rewriter.new
        (some (expression.ComparisonExpression ExpressionType.COMPARE_NOTEQUAL
          (some (GetConstantExpression a)) (some (GetConstantExpression b)))) =
      Outcome.done (some (expression.ConstantValueExpression
        (ValueFactory.GetBooleanValueOfBool (decide (a ≠ b)))), Rewriter.new) ∧
    ∀ value : Value, (expression.ConstantValueExpression value).GetChildrenSize = 0 := by
  refine ⟨?_, ?_, fun _ => rfl⟩
  · exact rewrite_integer_comparison cc RuleType.CONSTANT_COMPARE_EQUAL
      ExpressionType.COMPARE_EQUAL (by decide) a b (a = b) hcc
      (compare_integers a b).1 fuel hfuel
  · exact rewrite_integer_comparison cc RuleType.CONSTANT_COMPARE_NOTEQUAL
      ExpressionType.COMPARE_NOTEQUAL (by decide) a b (a ≠ b) hcc
      (compare_integers a b).2.1 fuel hfuel

/-- Witness of C2 at `1 = 2` and `1 != 2` with eighteen units of fuel. -/
theorem rewrite_integer_equal_notEqual_witness :
    sameTypeComparable (ValueFactory.GetIntegerValue 1) (ValueFactory.GetIntegerValue 2) = true ∧
    18 ≤ 18 ∧
    Rewriter.RewriteExpression sameTypeComparable 18 Rewriter.new
        (some (expression.ComparisonExpression ExpressionType.COMPARE_EQUAL
          (some (GetConstantExpression 1)) (some (GetConstantExpression 2)))) =
      Outcome.done (some (expression.ConstantValueExpression
        (ValueFactory.GetBooleanValueOfBool false)), Rewriter.new) :=
  ⟨by decide, by decide,
    (rewrite_integer_equal_notEqual sameTypeComparable 1 2 (by decide) 18 (by decide)).1⟩

/-- C3: for all integers `a` and `b` that the type system accepts as comparable,
`RewriteExpression` applied to `a < b` (to `a > b`) returns, for every fuel of
at least 18 tasks, a constant expression whose Boolean value is true exactly
when `a < b` (when `a > b`); in particular the value is false when `a = b`. -/
theorem rewrite_integer_less_greater (cc : Comparability) (a b : Int)
    (hcc : cc (ValueFactory.GetIntegerValue a) (ValueFactory.GetIntegerValue b) = true)
    (fuel : Nat) (hfuel : 18 ≤ fuel) :
    Rewriter.RewriteExpression cc fuel Rewriter.new
        (some (expression.ComparisonExpression ExpressionType.COMPARE_LESSTHAN
          (some (GetConstantExpression a)) (some (GetConstantExpression b)))) =
      Outcome.done (some (expression.ConstantValueExpression
        (ValueFactory.GetBooleanValueOfBool (decide (a < b)))), Rewriter.new) ∧
    Rewriter.RewriteExpression cc fuel Rewriter.new
        (some (expression.ComparisonExpression ExpressionType.COMPARE_GREATERTHAN
          (some (GetConstantExpression a)) (some (GetConstantExpression b)))) =
      Outcome.done (some (expression.ConstantValueExpression
        (ValueFactory.GetBooleanValueOfBool (decide (a > b)))), Rewriter.new) ∧
    (a = b →
      Rewriter.RewriteExpression cc fuel Rewriter.new
          (some (expression.ComparisonExpression ExpressionType.COMPARE_LESSTHAN
            (some (GetConstantExpression a)) (some (GetConstantExpression b)))) =
        Outcome.done (some (expression.ConstantValueExpression
          (ValueFactory.GetBooleanValueOfBool false)), Rewriter.new) ∧
      Rewriter.RewriteExpression cc fuel Rewriter.new
          (some (expression.ComparisonExpression ExpressionType.COMPARE_GREATERTHAN
            (some (GetConstantExpression a)) (some (GetConstantExpression b)))) =
        Outcome.done (some (expression.ConstantValueExpression
          (ValueFactory.GetBooleanValueOfBool false)), Rewriter.new)) := by
  have hless := rewrite_integer_comparison cc RuleType.CONSTANT_COMPARE_LESSTHAN
    ExpressionType.COMPARE_LESSTHAN (by decide) a b (a < b) hcc
    (compare_integers a b).2.2.1 fuel hfuel
  have hgreater := rewrite_integer_comparison cc RuleType.CONSTANT_COMPARE_GREATERTHAN
    ExpressionType.COMPARE_GREATERTHAN (by decide) a b (a > b) hcc
    (compare_integers a b).2.2.2.1 fuel hfuel
  refine ⟨hless, hgreater, ?_⟩
  intro hab
  have hlt : decide (a < b) = false := by simp [hab]
  have hgt : decide (a > b) = false := by simp [hab]
  rw [hlt] at hless
  rw [hgt] at hgreater
  exact ⟨hless, hgreater⟩

/-- Witness of C3 at `0 < 1` with eighteen units of fuel. -/
theorem rewrite_integer_less_greater_witness :
    sameTypeComparable (ValueFactory.GetIntegerValue 0) (ValueFactory.GetIntegerValue 1) = true ∧
    18 ≤ 18 ∧
    Rewriter.RewriteExpression sameTypeComparable 18 Rewriter.new
        (some (expression.ComparisonExpression ExpressionType.COMPARE_LESSTHAN
          (some (GetConstantExpression 0)) (some (GetConstantExpression 1)))) =
      Outcome.done (some (expression.ConstantValueExpression
        (ValueFactory.GetBooleanValueOfBool true)), Rewriter.new) :=
  ⟨by decide, by decide,
    (rewrite_integer_less_greater sameTypeComparable 0 1 (by decide) 18 (by decide)).1⟩

/-- C4: for all integers `a` and `b` that the type system accepts as comparable,
`RewriteExpression` applied to `a <= b` (to `a >= b`) returns, for every fuel of
at least 18 tasks, a constant expression whose Boolean value is true exactly
when `a ≤ b` (when `a ≥ b`); in particular the value is true when `a = b`. -/
theorem rewrite_integer_lessEq_greaterEq (cc : Comparability) (a b : Int)
    (hcc : cc (ValueFactory.GetIntegerValue a) (ValueFactory.GetIntegerValue b) = true)
    (fuel : Nat) (hfuel : 18 ≤ fuel) :
    Rewriter.RewriteExpression cc fuel Rewriter.new
        (some (expression.ComparisonExpression ExpressionType.COMPARE_LESSTHANOREQUALTO
          (some (GetConstantExpression a)) (some (GetConstantExpression b)))) =
      Outcome.done (some (expression.ConstantValueExpression
        (ValueFactory.GetBooleanValueOfBool (decide (a ≤ b)))), Rewriter.new) ∧
    Rewriter.RewriteExpression cc fuel Rewriter.new
        (some (expression.ComparisonExpression ExpressionType.COMPARE_GREATERTHANOREQUALTO
          (some (GetConstantExpression a)) (some (GetConstantExpression b)))) =
      Outcome.done (some (expression.ConstantValueExpression
        (ValueFactory.GetBooleanValueOfBool (decide (a ≥ b)))), Rewriter.new) ∧
    (a = b →
      Rewriter.RewriteExpression cc fuel Rewriter.new
          (some (expression.ComparisonExpression ExpressionType.COMPARE_LESSTHANOREQUALTO
            (some (GetConstantExpression a)) (some (GetConstantExpression b)))) =
        Outcome.done (some (expression.ConstantValueExpression
          (ValueFactory.GetBooleanValueOfBool true)), Rewriter.new) ∧
      Rewriter.RewriteExpression cc fuel Rewriter.new
          (some (expression.ComparisonExpression ExpressionType.COMPARE_GREATERTHANOREQUALTO
            (some (GetConstantExpression a)) (some (GetConstantExpression b)))) =
        Outcome.done (some (expression.ConstantValueExpression
          (ValueFactory.GetBooleanValueOfBool true)), Rewriter.new)) := by
  have hless := rewrite_integer_comparison cc RuleType.CONSTANT_COMPARE_LESSTHANOREQUALTO
    ExpressionType.COMPARE_LESSTHANOREQUALTO (by decide) a b (a ≤ b) hcc
    (compare_integers a b).2.2.2.2.1 fuel hfuel
  have hgreater := rewrite_integer_comparison cc RuleType.CONSTANT_COMPARE_GREATERTHANOREQUALTO
    ExpressionType.COMPARE_GREATERTHANOREQUALTO (by decide) a b (a ≥ b) hcc
    (compare_integers a b).2.2.2.2.2 fuel hfuel
  refine ⟨hless, hgreater, ?_⟩
  intro hab
  have hle : decide (a ≤ b) = true := by simp [hab]
  have hge : decide (a ≥ b) = true := by simp [hab]
  rw [hle] at hless
  rw [hge] at hgreater
  exact ⟨hless, hgreater⟩

/-- Witness of C4 at `2 <= 1` with eighteen units of fuel. -/
theorem rewrite_integer_lessEq_greaterEq_witness :
    sameTypeComparable (ValueFactory.GetIntegerValue 2) (ValueFactory.GetIntegerValue 1) = true ∧
    18 ≤ 18 ∧
    Rewriter.RewriteExpression sameTypeComparable 18 Rewriter.new
        (some (expression.ComparisonExpression ExpressionType.COMPARE_LESSTHANOREQUALTO
          (some (GetConstantExpression 2)) (some (GetConstantExpression 1)))) =
      Outcome.done (some (expression.ConstantValueExpression
        (ValueFactory.GetBooleanValueOfBool false)), Rewriter.new) :=
  ⟨by decide, by decide,
    (rewrite_integer_lessEq_greaterEq sameTypeComparable 2 1 (by decide) 18 (by decide)).1⟩

/-- C5: for each rule registered under `COMPARATOR_ELIMINATION` and every pair of
comparable constants of which at least one is NULL,
`ComparatorElimination::Transform` appends exactly one expression, the constant
holding the Boolean NULL; and `2 <= NULL`, the input of the test, is rewritten
to the Boolean NULL constant for every fuel of at least 18 tasks. -/
theorem comparatorElimination_null_operand (cc : Comparability) (rule : RuleType)
    (root : ExpressionType)
    (hrule : Rule.ComparatorElimination rule root ∈
      RuleSet.forExpressions.GetRewriteRulesByName RewriteRuleSetName.COMPARATOR_ELIMINATION)
    (input l r : AbsExpr_Expression) (lv rv : Value) (transformed : List AbsExpr_Expression)
    (hchildren : input.Children = [l, r])
    (hl : expression.asConstantValue l.Op.GetExpr = some lv)
    (hr : expression.asConstantValue r.Op.GetExpr = some rv)
    (hcc : cc lv rv = true)
    (hnull : lv.IsNull = true ∨ rv.IsNull = true) :
    ComparatorElimination.Transform cc rule input transformed =
      some (transformed ++ [constantExpr (ValueFactory.GetNullValueByType TypeId.BOOLEAN)]) ∧
    (cc (ValueFactory.GetIntegerValue 2) (ValueFactory.GetNullValueByType TypeId.INTEGER) = true →
      ∀ fuel : Nat, 18 ≤ fuel →
      Rewriter.RewriteExpression cc fuel Rewriter.new
          (some (expression.ComparisonExpression ExpressionType.COMPARE_LESSTHANOREQUALTO
            (some (GetConstantExpression 2))
            (some (expression.ConstantValueExpression
              (ValueFactory.GetNullValueByType TypeId.INTEGER))))) =
        Outcome.done (some (expression.ConstantValueExpression
          (ValueFactory.GetNullValueByType TypeId.BOOLEAN)), Rewriter.new)) := by
  constructor
  · rw [transform_comparable cc rule input l r lv rv transformed hchildren hl hr hcc,
      compare_null rule root hrule lv rv hnull]
    rfl
  · intro hcc2 fuel hfuel
    exact rewrite_constant_comparison cc RuleType.CONSTANT_COMPARE_LESSTHANOREQUALTO
      ExpressionType.COMPARE_LESSTHANOREQUALTO (by decide) _ _ hcc2 CmpBool.NULL_
      (compare_null RuleType.CONSTANT_COMPARE_LESSTHANOREQUALTO
        ExpressionType.COMPARE_LESSTHANOREQUALTO (by decide) _ _ (Or.inr rfl)) fuel hfuel

/-- Witness of C5: the rule for `<=` at the binding of `2 <= NULL`. -/
theorem comparatorElimination_null_operand_witness :
    Rule.ComparatorElimination RuleType.CONSTANT_COMPARE_LESSTHANOREQUALTO
        ExpressionType.COMPARE_LESSTHANOREQUALTO ∈
      RuleSet.forExpressions.GetRewriteRulesByName RewriteRuleSetName.COMPARATOR_ELIMINATION ∧
    sameTypeComparable (ValueFactory.GetIntegerValue 2)
      (ValueFactory.GetNullValueByType TypeId.INTEGER) = true ∧
    ((ValueFactory.GetIntegerValue 2).IsNull = true ∨
      (ValueFactory.GetNullValueByType TypeId.INTEGER).IsNull = true) ∧
    ComparatorElimination.Transform sameTypeComparable
        RuleType.CONSTANT_COMPARE_LESSTHANOREQUALTO
        (AbsExpr_Expression.mk
          ⟨some (expression.ComparisonExpression ExpressionType.COMPARE_LESSTHANOREQUALTO
            none none)⟩
          [constantExpr (ValueFactory.GetIntegerValue 2),
           constantExpr (ValueFactory.GetNullValueByType TypeId.INTEGER)]) [] =
      some ([] ++ [constantExpr (ValueFactory.GetNullValueByType TypeId.BOOLEAN)]) :=
  ⟨by decide, by decide, Or.inr rfl,
    (comparatorElimination_null_operand sameTypeComparable
      RuleType.CONSTANT_COMPARE_LESSTHANOREQUALTO ExpressionType.COMPARE_LESSTHANOREQUALTO
      (by decide)
      (AbsExpr_Expression.mk
        ⟨some (expression.ComparisonExpression ExpressionType.COMPARE_LESSTHANOREQUALTO
          none none)⟩
        [constantExpr (ValueFactory.GetIntegerValue 2),
         constantExpr (ValueFactory.GetNullValueByType TypeId.INTEGER)])
      (constantExpr (ValueFactory.GetIntegerValue 2))
      (constantExpr (ValueFactory.GetNullValueByType TypeId.INTEGER))
      (ValueFactory.GetIntegerValue 2) (ValueFactory.GetNullValueByType TypeId.INTEGER)
      [] rfl rfl rfl (by decide) (Or.inr rfl)).1⟩

/-- C6: for every pair of comparable constants `l` and `r`, the expression
appended by the rule `CONSTANT_COMPARE_LESSTHANOREQUALTO` is the Boolean
constant NULL when `l > r` evaluates to NULL, TRUE when `l > r` evaluates to
FALSE, and FALSE when `l > r` evaluates to TRUE. -/
theorem comparatorElimination_lessEq_negates_greater (cc : Comparability)
    (input l r : AbsExpr_Expression) (lv rv : Value) (transformed : List AbsExpr_Expression)
    (hchildren : input.Children = [l, r])
    (hl : expression.asConstantValue l.Op.GetExpr = some lv)
    (hr : expression.asConstantValue r.Op.GetExpr = some rv)
    (hcc : cc lv rv = true) :
    (lv.CompareGreaterThan rv = CmpBool.NULL_ →
      ComparatorElimination.Transform cc RuleType.CONSTANT_COMPARE_LESSTHANOREQUALTO input
          transformed =
        some (transformed ++ [constantExpr (ValueFactory.GetBooleanValue CmpBool.NULL_)])) ∧
    (lv.CompareGreaterThan rv = CmpBool.CmpFalse →
      ComparatorElimination.Transform cc RuleType.CONSTANT_COMPARE_LESSTHANOREQUALTO input
          transformed =
        some (transformed ++ [constantExpr (ValueFactory.GetBooleanValue CmpBool.CmpTrue)])) ∧
    (lv.CompareGreaterThan rv = CmpBool.CmpTrue →
      ComparatorElimination.Transform cc RuleType.CONSTANT_COMPARE_LESSTHANOREQUALTO input
          transformed =
        some (transformed ++ [constantExpr (ValueFactory.GetBooleanValue CmpBool.CmpFalse)])) := by
  rw [transform_comparable cc _ input l r lv rv transformed hchildren hl hr hcc]
  refine ⟨?_, ?_, ?_⟩ <;> intro h <;> simp [ComparatorElimination.compare, h]

/-- Witness of C6 at the binding of `2 <= 1`, where `2 > 1` is TRUE. -/
theorem comparatorElimination_lessEq_negates_greater_witness :
    sameTypeComparable (ValueFactory.GetIntegerValue 2) (ValueFactory.GetIntegerValue 1) = true ∧
    (ValueFactory.GetIntegerValue 2).CompareGreaterThan (ValueFactory.GetIntegerValue 1) =
      CmpBool.CmpTrue ∧
    ComparatorElimination.Transform sameTypeComparable
        RuleType.CONSTANT_COMPARE_LESSTHANOREQUALTO
        (AbsExpr_Expression.mk
          ⟨some (expression.ComparisonExpression ExpressionType.COMPARE_LESSTHANOREQUALTO
            none none)⟩
          [constantExpr (ValueFactory.GetIntegerValue 2),
           constantExpr (ValueFactory.GetIntegerValue 1)]) [] =
      some ([] ++ [constantExpr (ValueFactory.GetBooleanValue CmpBool.CmpFalse)]) :=
  ⟨by decide, by decide,
    (comparatorElimination_lessEq_negates_greater sameTypeComparable
      (AbsExpr_Expression.mk
        ⟨some (expression.ComparisonExpression ExpressionType.COMPARE_LESSTHANOREQUALTO
          none none)⟩
        [constantExpr (ValueFactory.GetIntegerValue 2),
         constantExpr (ValueFactory.GetIntegerValue 1)])
      (constantExpr (ValueFactory.GetIntegerValue 2))
      (constantExpr (ValueFactory.GetIntegerValue 1))
      (ValueFactory.GetIntegerValue 2) (ValueFactory.GetIntegerValue 1)
      [] rfl rfl rfl (by decide)).2.2 (by decide)⟩

/-- C7: for every pair of constants for which `CheckComparable` is false,
`ComparatorElimination::Transform` returns normally with the output list
exactly as it was, for every rule type, the six comparison rules included. -/
theorem comparatorElimination_not_comparable (cc : Comparability) (rule : RuleType)
    (input l r : AbsExpr_Expression) (lv rv : Value) (transformed : List AbsExpr_Expression)
    (hchildren : input.Children = [l, r])
    (hl : expression.asConstantValue l.Op.GetExpr = some lv)
    (hr : expression.asConstantValue r.Op.GetExpr = some rv)
    (hcc : cc lv rv = false) :
    ComparatorElimination.Transform cc rule input transformed = some transformed := by
  unfold ComparatorElimination.Transform
  rw [hchildren]
  simp [hl, hr, hcc]

/-- Witness of C7: an integer compared with a Boolean under a type system that
compares equal types only. -/
theorem comparatorElimination_not_comparable_witness :
    sameTypeComparable (ValueFactory.GetIntegerValue 1)
      (ValueFactory.GetBooleanValueOfBool true) = false ∧
    ComparatorElimination.Transform sameTypeComparable RuleType.CONSTANT_COMPARE_EQUAL
        (AbsExpr_Expression.mk
          ⟨some (expression.ComparisonExpression ExpressionType.COMPARE_EQUAL none none)⟩
          [constantExpr (ValueFactory.GetIntegerValue 1),
           constantExpr (ValueFactory.GetBooleanValueOfBool true)]) [] = some [] :=
  ⟨by decide,
    comparatorElimination_not_comparable sameTypeComparable RuleType.CONSTANT_COMPARE_EQUAL
      (AbsExpr_Expression.mk
        ⟨some (expression.ComparisonExpression ExpressionType.COMPARE_EQUAL none none)⟩
        [constantExpr (ValueFactory.GetIntegerValue 1),
         constantExpr (ValueFactory.GetBooleanValueOfBool true)])
      (constantExpr (ValueFactory.GetIntegerValue 1))
      (constantExpr (ValueFactory.GetBooleanValueOfBool true))
      (ValueFactory.GetIntegerValue 1) (ValueFactory.GetBooleanValueOfBool true)
      [] rfl rfl rfl (by decide)⟩

set_option maxHeartbeats 1000000 in
set_option maxRecDepth 100000 in
/-- C8: for all integers `x ≠ y` that the type system accepts as comparable and
every column reference, `RewriteExpression` applied to
`(A.B = x) AND (A.B = y)` returns, for every fuel of at least 50 tasks, the
constant expression without children whose Boolean value is false. -/
theorem rewrite_contradictory_equalities (cc : Comparability) (table_name col_name : String)
    (bound_oid : Option Nat) (x y : Int) (hxy : x ≠ y)
    (hcc : cc (ValueFactory.GetIntegerValue x) (ValueFactory.GetIntegerValue y) = true)
    (fuel : Nat) (hfuel : 50 ≤ fuel) :
    Rewriter.RewriteExpression cc fuel Rewriter.new
        (some (CreateTransitiveExpression (columnRef table_name col_name bound_oid)
          (GetConstantExpression x) (columnRef table_name col_name bound_oid)
          (GetConstantExpression y))) =
      Outcome.done (some (expression.ConstantValueExpression
        (ValueFactory.GetBooleanValueOfBool false)), Rewriter.new) ∧
    (expression.ConstantValueExpression
      (ValueFactory.GetBooleanValueOfBool false)).GetChildrenSize = 0 := by
  refine ⟨?_, rfl⟩
  obtain ⟨n, rfl⟩ := Nat.exists_eq_add_of_le' hfuel
  simp only [ValueFactory.GetIntegerValue] at hcc
  apply rewrite_stages
  · simp [Rewriter.RecordTreeGroups, Rewriter.ConvertToAbsExpr.eq_1,
      Rewriter.ConvertChildren.eq_1, Rewriter.ConvertChildren.eq_2,
      expression.ComparisonExpression, expression.ConjunctionExpression,
      expression.ConstantValueExpression, GetConstantExpression, CreateTransitiveExpression,
      columnRef, Rewriter.new, OptimizerMetadata.fresh, Memo.RecordExpression.eq_1,
      Memo.RecordChildren.eq_1, Memo.RecordChildren.eq_2, Memo.markedGroup,
      Memo.InsertExpression, Memo.findDuplicate, Memo.empty, AbsExpr_Expression.Op,
      AbsExpr_Container.GetExpr, GroupExpression.operator_eq, AbsExpr_Container.operator_eq,
      AbsExpr_Container.IsDefined]
    exact ⟨rfl, rfl⟩
  · simp only [Rewriter.seedTaskStack, Rewriter.initialTasks, OptimizerTaskStack.Push,
      OptimizerTask.newTopDownRewrite, OptimizerTask.SetReplaceOnTransform, List.foldl]
    repeat
      apply drain_step
      · simp [OptimizerTaskStack.Push, OptimizerTask.execute, OptimizeCurrentGroup,
        validRules_equivalent, validRules_null_lookup, validRules_comparator,
        validRules_transitive, validRules_short_circuit, foldlAbort, applyRuleToGroup_mk,
        applyRuleToBinding_mk, recordTransformed_nil, recordTransformed_cons,
        Memo.GetGroupByID, bindGroupExpression.eq_1, bindChildren.eq_1, bindChildren.eq_2,
        Rule.GetMatchPattern, ComparatorElimination.match_pattern,
        EquivalentTransform.match_pattern, TVEqualityWithTwoCVTransform.match_pattern,
        TransitiveClosureConstantTransform.match_pattern, AndShortCircuit.match_pattern,
        OrShortCircuit.match_pattern, andOfEqualsPattern, Pattern.leaf, Pattern.type,
        AbsExpr_Container.GetType, AbstractExpression.GetExpressionType,
        GetUniqueChildGroupIDs, insertGroupID.eq_1, insertGroupID.eq_2, Rule.Transform,
        ComparatorElimination.Transform, EquivalentTransform.Transform,
        TVEqualityWithTwoCVTransform.Transform, TransitiveClosureConstantTransform.Transform,
        AndShortCircuit.Transform, OrShortCircuit.Transform, isLeafOfType,
        AbsExpr_Expression.Children, AbsExpr_Expression.Op, AbsExpr_Expression.PushChild,
        AbsExpr_Expression.ofContainer, AbsExpr_Container.GetExpr, expression.asConstantValue,
        expression.ConstantValueExpression, expression.ComparisonExpression,
        expression.ConjunctionExpressionOfType, expression.GroupMarkerExpression,
        constantExpr, groupMarkerLeaf, Memo.ReplaceGroupExpression, Memo.setGroup,
        Memo.AddEquivalentGroupExpression, Memo.RecordExpression.eq_1,
        Memo.RecordChildren.eq_1, Memo.RecordChildren.eq_2, Memo.markedGroup,
        Memo.InsertExpression, Memo.findDuplicate, GroupExpression.operator_eq,
        AbsExpr_Container.operator_eq, AbsExpr_Container.IsDefined,
        AbstractExpression.ExactlyEquals.eq_1, AbstractExpression.ExactlyEqualsList.eq_1,
        AbstractExpression.ExactlyEqualsList.eq_2, hcc, hxy, Value.CompareEquals, Value.compareWith,
        ValueFactory.GetIntegerValue, ValueFactory.GetBooleanValueOfBool]
        exact ⟨rfl, rfl⟩
    exact drain_nil _ _ _
  · apply rebuild_leaf
    · rfl
    · rfl
    · rfl
    · simp [AbsExpr_Container.CopyWithChildren, AbsExpr_Container.GetType,
        AbstractExpression.GetExpressionType, expression.ConstantValueExpression,
        ValueFactory.GetBooleanValueOfBool]

/-- Witness of C8 at `(A.B = 1) AND (A.B = 2)`, the input of the test, with fifty
units of fuel. -/
theorem rewrite_contradictory_equalities_witness :
    (1 : Int) ≠ 2 ∧
    sameTypeComparable (ValueFactory.GetIntegerValue 1) (ValueFactory.GetIntegerValue 2) = true ∧
    50 ≤ 50 ∧
    Rewriter.RewriteExpression sameTypeComparable 50 Rewriter.new
        (some (CreateTransitiveExpression (columnRef "A" "B" none) (GetConstantExpression 1)
          (columnRef "A" "B" none) (GetConstantExpression 2))) =
      Outcome.done (some (expression.ConstantValueExpression
        (ValueFactory.GetBooleanValueOfBool false)), Rewriter.new) :=
  ⟨by decide, by decide, by decide,
    (rewrite_contradictory_equalities sameTypeComparable "A" "B" none 1 2 (by decide)
      (by decide) 50 (by decide)).1⟩

/-- C9: for every input `AND(Equal(T1, x), Equal(T2, y))` in which the column
references `T1` and `T2` are exactly equal and the constants `x` and `y` are
comparable and compare equal, `TVEqualityWithTwoCVTransform::Transform` appends
exactly one expression: a new `Equal` node whose children are the column
reference and the constant of the left conjunct. -/
theorem tvEquality_equal_constants (cc : Comparability) (and_op l_op r_op : AbsExpr_Container)
    (T1 T2 cx cy : AbstractExpression) (x y : Value) (transformed : List AbsExpr_Expression)
    (hand : and_op.GetType = ExpressionType.CONJUNCTION_AND)
    (hleft : l_op.GetType = ExpressionType.COMPARE_EQUAL)
    (hright : r_op.GetType = ExpressionType.COMPARE_EQUAL)
    (hT1 : T1.GetExpressionType = ExpressionType.VALUE_TUPLE)
    (hT2 : T2.GetExpressionType = ExpressionType.VALUE_TUPLE)
    (hcx : cx.GetExpressionType = ExpressionType.VALUE_CONSTANT)
    (hcy : cy.GetExpressionType = ExpressionType.VALUE_CONSTANT)
    (hx : expression.asConstantValue (some cx) = some x)
    (hy : expression.asConstantValue (some cy) = some y)
    (hsame : T1.ExactlyEquals T2 = true)
    (hcc : cc x y = true)
    (hequal : x.CompareEquals y = CmpBool.CmpTrue) :
    TVEqualityWithTwoCVTransform.Transform cc (andOfEquals and_op l_op r_op T1 cx T2 cy)
        transformed =
      some (transformed ++
        [AbsExpr_Expression.mk
          ⟨some (expression.ComparisonExpression ExpressionType.COMPARE_EQUAL none none)⟩
          [AbsExpr_Expression.mk ⟨some T1⟩ [], AbsExpr_Expression.mk ⟨some cx⟩ []]]) := by
  have hT1c : (AbsExpr_Container.mk (some T1)).GetType = ExpressionType.VALUE_TUPLE := hT1
  have hT2c : (AbsExpr_Container.mk (some T2)).GetType = ExpressionType.VALUE_TUPLE := hT2
  have hcxc : (AbsExpr_Container.mk (some cx)).GetType = ExpressionType.VALUE_CONSTANT := hcx
  have hcyc : (AbsExpr_Container.mk (some cy)).GetType = ExpressionType.VALUE_CONSTANT := hcy
  simp [TVEqualityWithTwoCVTransform.Transform, andOfEquals, AbsExpr_Expression.Op,
    AbsExpr_Expression.Children, hand, hleft, hright, isLeafOfType, AbsExpr_Container.GetExpr,
    hT1c, hT2c, hcxc, hcyc, hx, hy, hsame, hcc, hequal, AbsExpr_Expression.ofContainer,
    AbsExpr_Expression.PushChild]

/-- Witness of C9 at the binding of `(A.B = 1) AND (A.B = 1)`. -/
theorem tvEquality_equal_constants_witness :
    (columnRef "A" "B" none).ExactlyEquals (columnRef "A" "B" none) = true ∧
    sameTypeComparable (ValueFactory.GetIntegerValue 1) (ValueFactory.GetIntegerValue 1) = true ∧
    (ValueFactory.GetIntegerValue 1).CompareEquals (ValueFactory.GetIntegerValue 1) =
      CmpBool.CmpTrue ∧
    TVEqualityWithTwoCVTransform.Transform sameTypeComparable
        (andOfEquals
          ⟨some (expression.ConjunctionExpression ExpressionType.CONJUNCTION_AND none none)⟩
          ⟨some (expression.ComparisonExpression ExpressionType.COMPARE_EQUAL none none)⟩
          ⟨some (expression.ComparisonExpression ExpressionType.COMPARE_EQUAL none none)⟩
          (columnRef "A" "B" none) (GetConstantExpression 1)
          (columnRef "A" "B" none) (GetConstantExpression 1)) [] =
      some ([] ++
        [AbsExpr_Expression.mk
          ⟨some (expression.ComparisonExpression ExpressionType.COMPARE_EQUAL none none)⟩
          [AbsExpr_Expression.mk ⟨some (columnRef "A" "B" none)⟩ [],
           AbsExpr_Expression.mk ⟨some (GetConstantExpression 1)⟩ []]]) :=
  ⟨by decide, by decide, by decide,
    tvEquality_equal_constants sameTypeComparable
      ⟨some (expression.ConjunctionExpression ExpressionType.CONJUNCTION_AND none none)⟩
      ⟨some (expression.ComparisonExpression ExpressionType.COMPARE_EQUAL none none)⟩
      ⟨some (expression.ComparisonExpression ExpressionType.COMPARE_EQUAL none none)⟩
      (columnRef "A" "B" none) (columnRef "A" "B" none)
      (GetConstantExpression 1) (GetConstantExpression 1)
      (ValueFactory.GetIntegerValue 1) (ValueFactory.GetIntegerValue 1) [] rfl rfl rfl rfl rfl
      rfl rfl rfl rfl (by decide) (by decide) (by decide)⟩

/-- C10: for every input `AND(Equal(T1, x), Equal(T2, y))` in which the column
references `T1` and `T2` are not exactly equal, `TVEqualityWithTwoCVTransform::Transform`
returns the output list as it was, whatever the two constants are. -/
theorem tvEquality_different_columns (cc : Comparability) (and_op l_op r_op : AbsExpr_Container)
    (T1 T2 cx cy : AbstractExpression) (transformed : List AbsExpr_Expression)
    (hand : and_op.GetType = ExpressionType.CONJUNCTION_AND)
    (hleft : l_op.GetType = ExpressionType.COMPARE_EQUAL)
    (hright : r_op.GetType = ExpressionType.COMPARE_EQUAL)
    (hT1 : T1.GetExpressionType = ExpressionType.VALUE_TUPLE)
    (hT2 : T2.GetExpressionType = ExpressionType.VALUE_TUPLE)
    (hcx : cx.GetExpressionType = ExpressionType.VALUE_CONSTANT)
    (hcy : cy.GetExpressionType = ExpressionType.VALUE_CONSTANT)
    (hdiff : T1.ExactlyEquals T2 = false) :
    TVEqualityWithTwoCVTransform.Transform cc (andOfEquals and_op l_op r_op T1 cx T2 cy)
        transformed = some transformed := by
  have hT1c : (AbsExpr_Container.mk (some T1)).GetType = ExpressionType.VALUE_TUPLE := hT1
  have hT2c : (AbsExpr_Container.mk (some T2)).GetType = ExpressionType.VALUE_TUPLE := hT2
  have hcxc : (AbsExpr_Container.mk (some cx)).GetType = ExpressionType.VALUE_CONSTANT := hcx
  have hcyc : (AbsExpr_Container.mk (some cy)).GetType = ExpressionType.VALUE_CONSTANT := hcy
  simp [TVEqualityWithTwoCVTransform.Transform, andOfEquals, AbsExpr_Expression.Op,
    AbsExpr_Expression.Children, hand, hleft, hright, isLeafOfType, AbsExpr_Container.GetExpr,
    hT1c, hT2c, hcxc, hcyc, hdiff]

/-- Witness of C10 at the binding of `(A.B = 1) AND (C.D = 1)`. -/
theorem tvEquality_different_columns_witness :
    (columnRef "A" "B" none).ExactlyEquals (columnRef "C" "D" none) = false ∧
    TVEqualityWithTwoCVTransform.Transform sameTypeComparable
        (andOfEquals
          ⟨some (expression.ConjunctionExpression ExpressionType.CONJUNCTION_AND none none)⟩
          ⟨some (expression.ComparisonExpression ExpressionType.COMPARE_EQUAL none none)⟩
          ⟨some (expression.ComparisonExpression ExpressionType.COMPARE_EQUAL none none)⟩
          (columnRef "A" "B" none) (GetConstantExpression 1)
          (columnRef "C" "D" none) (GetConstantExpression 1)) [] = some [] :=
  ⟨by decide,
    tvEquality_different_columns sameTypeComparable
      ⟨some (expression.ConjunctionExpression ExpressionType.CONJUNCTION_AND none none)⟩
      ⟨some (expression.ComparisonExpression ExpressionType.COMPARE_EQUAL none none)⟩
      ⟨some (expression.ComparisonExpression ExpressionType.COMPARE_EQUAL none none)⟩
      (columnRef "A" "B" none) (columnRef "C" "D" none)
      (GetConstantExpression 1) (GetConstantExpression 1) [] rfl rfl rfl rfl rfl rfl rfl
      (by decide)⟩

/-! ## The transitive-closure rule and the commutative flip -/

/-- The part of `TransitiveClosureConstantTransform::Transform` that follows the
assertions, for an input bound to `AND(Equal(K, c), Equal(L, R))`. -/
theorem transitiveClosure_unfold (and_op l_op r_op : AbsExpr_Container)
    (K c L R : AbstractExpression) (transformed : List AbsExpr_Expression)
    (hand : and_op.GetType = ExpressionType.CONJUNCTION_AND)
    (hleft : l_op.GetType = ExpressionType.COMPARE_EQUAL)
    (hright : r_op.GetType = ExpressionType.COMPARE_EQUAL)
    (hK : K.GetExpressionType = ExpressionType.VALUE_TUPLE)
    (hc : c.GetExpressionType = ExpressionType.VALUE_CONSTANT)
    (hL : L.GetExpressionType = ExpressionType.VALUE_TUPLE)
    (hR : R.GetExpressionType = ExpressionType.VALUE_TUPLE) :
    TransitiveClosureConstantTransform.Transform (andOfEquals and_op l_op r_op K c L R)
        transformed =
      if L.ExactlyEquals R then
        some (transformed ++
          [AbsExpr_Expression.mk l_op
            [AbsExpr_Expression.mk ⟨some K⟩ [], AbsExpr_Expression.mk ⟨some c⟩ []]])
      else if !(K.ExactlyEquals L) && !(K.ExactlyEquals R) then
        some transformed
      else
        some (transformed ++
          [AbsExpr_Expression.mk and_op
            [AbsExpr_Expression.mk l_op
              [AbsExpr_Expression.mk ⟨some K⟩ [], AbsExpr_Expression.mk ⟨some c⟩ []],
             AbsExpr_Expression.mk r_op
              (if K.ExactlyEquals L then
                [AbsExpr_Expression.mk ⟨some c⟩ [], AbsExpr_Expression.mk ⟨some R⟩ []]
              else
                [AbsExpr_Expression.mk ⟨some L⟩ [], AbsExpr_Expression.mk ⟨some c⟩ []])]]) := by
  have hKc : (AbsExpr_Container.mk (some K)).GetType = ExpressionType.VALUE_TUPLE := hK
  have hcc : (AbsExpr_Container.mk (some c)).GetType = ExpressionType.VALUE_CONSTANT := hc
  have hLc : (AbsExpr_Container.mk (some L)).GetType = ExpressionType.VALUE_TUPLE := hL
  have hRc : (AbsExpr_Container.mk (some R)).GetType = ExpressionType.VALUE_TUPLE := hR
  simp only [TransitiveClosureConstantTransform.Transform, andOfEquals, AbsExpr_Expression.Op,
    AbsExpr_Expression.Children, hand, hleft, hright, isLeafOfType, AbsExpr_Container.GetExpr,
    hKc, hcc, hLc, hRc, AbsExpr_Expression.ofContainer, AbsExpr_Expression.PushChild]
  by_cases h1 : L.ExactlyEquals R = true
  · simp [h1]
  · by_cases h2 : K.ExactlyEquals L = true
    · simp [h1, h2]
    · by_cases h3 : K.ExactlyEquals R = true
      · simp [h1, h2, h3]
      · simp [h1, h2, h3]

/-- The rules that the `RuleSet` constructor registers under `EQUIVALENT_TRANSFORM`. -/
theorem equivalent_rules :
    RuleSet.forExpressions.GetRewriteRulesByName RewriteRuleSetName.EQUIVALENT_TRANSFORM =
      [Rule.EquivalentTransform RuleType.EQUIV_AND ExpressionType.CONJUNCTION_AND,
       Rule.EquivalentTransform RuleType.EQUIV_OR ExpressionType.CONJUNCTION_OR,
       Rule.EquivalentTransform RuleType.EQUIV_COMPARE_EQUAL ExpressionType.COMPARE_EQUAL] := by
  decide

/-- The expression that `EquivalentTransform::Transform` appends for an input with
the two children `[l, r]`. -/
theorem equivalentTransform_unfold (root : ExpressionType) (input l r : AbsExpr_Expression)
    (transformed : List AbsExpr_Expression) (hchildren : input.Children = [l, r]) :
    EquivalentTransform.Transform root input transformed =
      some (transformed ++
        [AbsExpr_Expression.mk ⟨some (expression.ConjunctionExpressionOfType root)⟩ [r, l]]) := by
  unfold EquivalentTransform.Transform
  rw [hchildren]
  rfl

/-- C11: for every input `AND(Equal(K, c), Equal(L, R))` with column references
`K`, `L`, `R` and constant `c`, if `K` exactly equals `L` and `L` does not exactly
equal `R`, `TransitiveClosureConstantTransform::Transform` appends exactly one
expression, `AND(Equal(K, c), Equal(c, R))`: the constant takes the place of the
left operand of the second equality. -/
theorem transitiveClosure_left_match (and_op l_op r_op : AbsExpr_Container)
    (K c L R : AbstractExpression) (transformed : List AbsExpr_Expression)
    (hand : and_op.GetType = ExpressionType.CONJUNCTION_AND)
    (hleft : l_op.GetType = ExpressionType.COMPARE_EQUAL)
    (hright : r_op.GetType = ExpressionType.COMPARE_EQUAL)
    (hK : K.GetExpressionType = ExpressionType.VALUE_TUPLE)
    (hc : c.GetExpressionType = ExpressionType.VALUE_CONSTANT)
    (hL : L.GetExpressionType = ExpressionType.VALUE_TUPLE)
    (hR : R.GetExpressionType = ExpressionType.VALUE_TUPLE)
    (hKL : K.ExactlyEquals L = true) (hLR : L.ExactlyEquals R = false) :
    TransitiveClosureConstantTransform.Transform (andOfEquals and_op l_op r_op K c L R)
        transformed =
      some (transformed ++
        [AbsExpr_Expression.mk and_op
          [AbsExpr_Expression.mk l_op
            [AbsExpr_Expression.mk ⟨some K⟩ [], AbsExpr_Expression.mk ⟨some c⟩ []],
           AbsExpr_Expression.mk r_op
            [AbsExpr_Expression.mk ⟨some c⟩ [], AbsExpr_Expression.mk ⟨some R⟩ []]]]) := by
  rw [transitiveClosure_unfold and_op l_op r_op K c L R transformed hand hleft hright hK hc hL hR]
  simp [hKL, hLR]

/-- Witness of C11 at the binding of `(A.B = 5) AND (A.B = C.D)`. -/
theorem transitiveClosure_left_match_witness :
    (columnRef "A" "B" none).ExactlyEquals (columnRef "A" "B" none) = true ∧
    (columnRef "A" "B" none).ExactlyEquals (columnRef "C" "D" none) = false ∧
    TransitiveClosureConstantTransform.Transform
        (andOfEquals
          ⟨some (expression.ConjunctionExpression ExpressionType.CONJUNCTION_AND none none)⟩
          ⟨some (expression.ComparisonExpression ExpressionType.COMPARE_EQUAL none none)⟩
          ⟨some (expression.ComparisonExpression ExpressionType.COMPARE_EQUAL none none)⟩
          (columnRef "A" "B" none) (GetConstantExpression 5)
          (columnRef "A" "B" none) (columnRef "C" "D" none)) [] =
      some ([] ++
        [AbsExpr_Expression.mk
          ⟨some (expression.ConjunctionExpression ExpressionType.CONJUNCTION_AND none none)⟩
          [AbsExpr_Expression.mk
            ⟨some (expression.ComparisonExpression ExpressionType.COMPARE_EQUAL none none)⟩
            [AbsExpr_Expression.mk ⟨some (columnRef "A" "B" none)⟩ [],
             AbsExpr_Expression.mk ⟨some (GetConstantExpression 5)⟩ []],
           AbsExpr_Expression.mk
            ⟨some (expression.ComparisonExpression ExpressionType.COMPARE_EQUAL none none)⟩
            [AbsExpr_Expression.mk ⟨some (GetConstantExpression 5)⟩ [],
             AbsExpr_Expression.mk ⟨some (columnRef "C" "D" none)⟩ []]]]) :=
  ⟨by decide, by decide,
    transitiveClosure_left_match
      ⟨some (expression.ConjunctionExpression ExpressionType.CONJUNCTION_AND none none)⟩
      ⟨some (expression.ComparisonExpression ExpressionType.COMPARE_EQUAL none none)⟩
      ⟨some (expression.ComparisonExpression ExpressionType.COMPARE_EQUAL none none)⟩
      (columnRef "A" "B" none) (GetConstantExpression 5)
      (columnRef "A" "B" none) (columnRef "C" "D" none) [] rfl rfl rfl rfl rfl rfl rfl
      (by decide) (by decide)⟩

/-- C12: for every input `AND(Equal(K, c), Equal(L, R))` with column references
`K`, `L`, `R` and constant `c`, if `K` exactly equals `R`, `K` does not exactly
equal `L` and `L` does not exactly equal `R`,
`TransitiveClosureConstantTransform::Transform` appends exactly one expression,
`AND(Equal(K, c), Equal(L, c))`. -/
theorem transitiveClosure_right_match (and_op l_op r_op : AbsExpr_Container)
    (K c L R : AbstractExpression) (transformed : List AbsExpr_Expression)
    (hand : and_op.GetType = ExpressionType.CONJUNCTION_AND)
    (hleft : l_op.GetType = ExpressionType.COMPARE_EQUAL)
    (hright : r_op.GetType = ExpressionType.COMPARE_EQUAL)
    (hK : K.GetExpressionType = ExpressionType.VALUE_TUPLE)
    (hc : c.GetExpressionType = ExpressionType.VALUE_CONSTANT)
    (hL : L.GetExpressionType = ExpressionType.VALUE_TUPLE)
    (hR : R.GetExpressionType = ExpressionType.VALUE_TUPLE)
    (hKR : K.ExactlyEquals R = true) (hKL : K.ExactlyEquals L = false)
    (hLR : L.ExactlyEquals R = false) :
    TransitiveClosureConstantTransform.Transform (andOfEquals and_op l_op r_op K c L R)
        transformed =
      some (transformed ++
        [AbsExpr_Expression.mk and_op
          [AbsExpr_Expression.mk l_op
            [AbsExpr_Expression.mk ⟨some K⟩ [], AbsExpr_Expression.mk ⟨some c⟩ []],
           AbsExpr_Expression.mk r_op
            [AbsExpr_Expression.mk ⟨some L⟩ [], AbsExpr_Expression.mk ⟨some c⟩ []]]]) := by
  rw [transitiveClosure_unfold and_op l_op r_op K c L R transformed hand hleft hright hK hc hL hR]
  simp [hKR, hKL, hLR]

/-- Witness of C12 at the binding of `(A.B = 5) AND (C.D = A.B)`. -/
theorem transitiveClosure_right_match_witness :
    (columnRef "A" "B" none).ExactlyEquals (columnRef "A" "B" none) = true ∧
    (columnRef "A" "B" none).ExactlyEquals (columnRef "C" "D" none) = false ∧
    (columnRef "C" "D" none).ExactlyEquals (columnRef "A" "B" none) = false ∧
    TransitiveClosureConstantTransform.Transform
        (andOfEquals
          ⟨some (expression.ConjunctionExpression ExpressionType.CONJUNCTION_AND none none)⟩
          ⟨some (expression.ComparisonExpression ExpressionType.COMPARE_EQUAL none none)⟩
          ⟨some (expression.ComparisonExpression ExpressionType.COMPARE_EQUAL none none)⟩
          (columnRef "A" "B" none) (GetConstantExpression 5)
          (columnRef "C" "D" none) (columnRef "A" "B" none)) [] =
      some ([] ++
        [AbsExpr_Expression.mk
          ⟨some (expression.ConjunctionExpression ExpressionType.CONJUNCTION_AND none none)⟩
          [AbsExpr_Expression.mk
            ⟨some (expression.ComparisonExpression ExpressionType.COMPARE_EQUAL none none)⟩
            [AbsExpr_Expression.mk ⟨some (columnRef "A" "B" none)⟩ [],
             AbsExpr_Expression.mk ⟨some (GetConstantExpression 5)⟩ []],
           AbsExpr_Expression.mk
            ⟨some (expression.ComparisonExpression ExpressionType.COMPARE_EQUAL none none)⟩
            [AbsExpr_Expression.mk ⟨some (columnRef "C" "D" none)⟩ [],
             AbsExpr_Expression.mk ⟨some (GetConstantExpression 5)⟩ []]]]) :=
  ⟨by decide, by decide, by decide,
    transitiveClosure_right_match
      ⟨some (expression.ConjunctionExpression ExpressionType.CONJUNCTION_AND none none)⟩
      ⟨some (expression.ComparisonExpression ExpressionType.COMPARE_EQUAL none none)⟩
      ⟨some (expression.ComparisonExpression ExpressionType.COMPARE_EQUAL none none)⟩
      (columnRef "A" "B" none) (GetConstantExpression 5)
      (columnRef "C" "D" none) (columnRef "A" "B" none) [] rfl rfl rfl rfl rfl rfl rfl
      (by decide) (by decide) (by decide)⟩

/-- C13: for every input `AND(Equal(K, c), Equal(L, R))` in which `L` exactly
equals `R`, `TransitiveClosureConstantTransform::Transform` appends exactly one
expression, the first conjunct `Equal(K, c)` of the input, whether or not `K`
exactly equals `L`. -/
theorem transitiveClosure_same_columns (and_op l_op r_op : AbsExpr_Container)
    (K c L R : AbstractExpression) (transformed : List AbsExpr_Expression)
    (hand : and_op.GetType = ExpressionType.CONJUNCTION_AND)
    (hleft : l_op.GetType = ExpressionType.COMPARE_EQUAL)
    (hright : r_op.GetType = ExpressionType.COMPARE_EQUAL)
    (hK : K.GetExpressionType = ExpressionType.VALUE_TUPLE)
    (hc : c.GetExpressionType = ExpressionType.VALUE_CONSTANT)
    (hL : L.GetExpressionType = ExpressionType.VALUE_TUPLE)
    (hR : R.GetExpressionType = ExpressionType.VALUE_TUPLE)
    (hLR : L.ExactlyEquals R = true) :
    TransitiveClosureConstantTransform.Transform (andOfEquals and_op l_op r_op K c L R)
        transformed =
      some (transformed ++
        [AbsExpr_Expression.mk l_op
          [AbsExpr_Expression.mk ⟨some K⟩ [], AbsExpr_Expression.mk ⟨some c⟩ []]]) ∧
    (andOfEquals and_op l_op r_op K c L R).Children[0]? =
      some (AbsExpr_Expression.mk l_op
        [AbsExpr_Expression.mk ⟨some K⟩ [], AbsExpr_Expression.mk ⟨some c⟩ []]) := by
  rw [transitiveClosure_unfold and_op l_op r_op K c L R transformed hand hleft hright hK hc hL hR]
  simp [hLR, andOfEquals, AbsExpr_Expression.Children]

/-- Witness of C13 at the binding of `(A.B = 5) AND (C.D = C.D)`, where `K` differs
from `L`. -/
theorem transitiveClosure_same_columns_witness :
    (columnRef "C" "D" none).ExactlyEquals (columnRef "C" "D" none) = true ∧
    (columnRef "A" "B" none).ExactlyEquals (columnRef "C" "D" none) = false ∧
    TransitiveClosureConstantTransform.Transform
        (andOfEquals
          ⟨some (expression.ConjunctionExpression ExpressionType.CONJUNCTION_AND none none)⟩
          ⟨some (expression.ComparisonExpression ExpressionType.COMPARE_EQUAL none none)⟩
          ⟨some (expression.ComparisonExpression ExpressionType.COMPARE_EQUAL none none)⟩
          (columnRef "A" "B" none) (GetConstantExpression 5)
          (columnRef "C" "D" none) (columnRef "C" "D" none)) [] =
      some ([] ++
        [AbsExpr_Expression.mk
          ⟨some (expression.ComparisonExpression ExpressionType.COMPARE_EQUAL none none)⟩
          [AbsExpr_Expression.mk ⟨some (columnRef "A" "B" none)⟩ [],
           AbsExpr_Expression.mk ⟨some (GetConstantExpression 5)⟩ []]]) :=
  ⟨by decide, by decide,
    (transitiveClosure_same_columns
      ⟨some (expression.ConjunctionExpression ExpressionType.CONJUNCTION_AND none none)⟩
      ⟨some (expression.ComparisonExpression ExpressionType.COMPARE_EQUAL none none)⟩
      ⟨some (expression.ComparisonExpression ExpressionType.COMPARE_EQUAL none none)⟩
      (columnRef "A" "B" none) (GetConstantExpression 5)
      (columnRef "C" "D" none) (columnRef "C" "D" none) [] rfl rfl rfl rfl rfl rfl rfl
      (by decide)).1⟩

/-- C14: for every input `AND(Equal(K, c), Equal(L, R))` in which `L` does not
exactly equal `R`, `K` does not exactly equal `L` and `K` does not exactly equal
`R`, `TransitiveClosureConstantTransform::Transform` returns the output list as
it was. -/
theorem transitiveClosure_no_match (and_op l_op r_op : AbsExpr_Container)
    (K c L R : AbstractExpression) (transformed : List AbsExpr_Expression)
    (hand : and_op.GetType = ExpressionType.CONJUNCTION_AND)
    (hleft : l_op.GetType = ExpressionType.COMPARE_EQUAL)
    (hright : r_op.GetType = ExpressionType.COMPARE_EQUAL)
    (hK : K.GetExpressionType = ExpressionType.VALUE_TUPLE)
    (hc : c.GetExpressionType = ExpressionType.VALUE_CONSTANT)
    (hL : L.GetExpressionType = ExpressionType.VALUE_TUPLE)
    (hR : R.GetExpressionType = ExpressionType.VALUE_TUPLE)
    (hLR : L.ExactlyEquals R = false) (hKL : K.ExactlyEquals L = false)
    (hKR : K.ExactlyEquals R = false) :
    TransitiveClosureConstantTransform.Transform (andOfEquals and_op l_op r_op K c L R)
        transformed = some transformed := by
  rw [transitiveClosure_unfold and_op l_op r_op K c L R transformed hand hleft hright hK hc hL hR]
  simp [hLR, hKL, hKR]

/-- Witness of C14 at the binding of `(A.B = 5) AND (C.D = E.F)`. -/
theorem transitiveClosure_no_match_witness :
    (columnRef "C" "D" none).ExactlyEquals (columnRef "E" "F" none) = false ∧
    (columnRef "A" "B" none).ExactlyEquals (columnRef "C" "D" none) = false ∧
    (columnRef "A" "B" none).ExactlyEquals (columnRef "E" "F" none) = false ∧
    TransitiveClosureConstantTransform.Transform
        (andOfEquals
          ⟨some (expression.ConjunctionExpression ExpressionType.CONJUNCTION_AND none none)⟩
          ⟨some (expression.ComparisonExpression ExpressionType.COMPARE_EQUAL none none)⟩
          ⟨some (expression.ComparisonExpression ExpressionType.COMPARE_EQUAL none none)⟩
          (columnRef "A" "B" none) (GetConstantExpression 5)
          (columnRef "C" "D" none) (columnRef "E" "F" none)) [] = some [] :=
  ⟨by decide, by decide, by decide,
    transitiveClosure_no_match
      ⟨some (expression.ConjunctionExpression ExpressionType.CONJUNCTION_AND none none)⟩
      ⟨some (expression.ComparisonExpression ExpressionType.COMPARE_EQUAL none none)⟩
      ⟨some (expression.ComparisonExpression ExpressionType.COMPARE_EQUAL none none)⟩
      (columnRef "A" "B" none) (GetConstantExpression 5)
      (columnRef "C" "D" none) (columnRef "E" "F" none) [] rfl rfl rfl rfl rfl rfl rfl
      (by decide) (by decide) (by decide)⟩

/-- C15: for each of the three rules registered under `EQUIVALENT_TRANSFORM`,
whose roots are `AND`, `OR` and `Equal`, and every input with exactly two
children `[l, r]`, `Transform` appends exactly one expression; its operator tag
is the root tag of the pattern of the rule, which is the tag of an input that
the pattern matches, and its children are `[r, l]`. -/
theorem equivalentTransform_flips (cc : Comparability) (rule : Rule)
    (hrule : rule ∈
      RuleSet.forExpressions.GetRewriteRulesByName RewriteRuleSetName.EQUIVALENT_TRANSFORM)
    (input l r : AbsExpr_Expression) (transformed : List AbsExpr_Expression)
    (hchildren : input.Children = [l, r]) :
    rule.GetMatchPattern.type ∈ [ExpressionType.CONJUNCTION_AND, ExpressionType.CONJUNCTION_OR,
      ExpressionType.COMPARE_EQUAL] ∧
    ∃ out : AbsExpr_Expression,
      rule.Transform cc input transformed = some (transformed ++ [out]) ∧
      out.Op.GetType = rule.GetMatchPattern.type ∧
      (input.Op.GetType = rule.GetMatchPattern.type → out.Op.GetType = input.Op.GetType) ∧
      out.Children = [r, l] := by
  rw [equivalent_rules] at hrule
  simp only [List.mem_cons, List.mem_singleton, List.not_mem_nil, or_false] at hrule
  rcases hrule with h | h | h <;> subst h
  · exact ⟨by decide, _, equivalentTransform_unfold _ input l r transformed hchildren, rfl,
      fun h => h.symm, rfl⟩
  · exact ⟨by decide, _, equivalentTransform_unfold _ input l r transformed hchildren, rfl,
      fun h => h.symm, rfl⟩
  · exact ⟨by decide, _, equivalentTransform_unfold _ input l r transformed hchildren, rfl,
      fun h => h.symm, rfl⟩

/-- Witness of C15: the rule for `Equal` at an expression over two group markers. -/
theorem equivalentTransform_flips_witness :
    Rule.EquivalentTransform RuleType.EQUIV_COMPARE_EQUAL ExpressionType.COMPARE_EQUAL ∈
      RuleSet.forExpressions.GetRewriteRulesByName RewriteRuleSetName.EQUIVALENT_TRANSFORM ∧
    ∃ out : AbsExpr_Expression,
      (Rule.EquivalentTransform RuleType.EQUIV_COMPARE_EQUAL ExpressionType.COMPARE_EQUAL).Transform
          sameTypeComparable
          (AbsExpr_Expression.mk
            ⟨some (expression.ComparisonExpression ExpressionType.COMPARE_EQUAL none none)⟩
            [groupMarkerLeaf 0, groupMarkerLeaf 1]) [] = some ([] ++ [out]) ∧
      out.Children = [groupMarkerLeaf 1, groupMarkerLeaf 0] :=
  ⟨by decide,
    match (equivalentTransform_flips sameTypeComparable
      (Rule.EquivalentTransform RuleType.EQUIV_COMPARE_EQUAL ExpressionType.COMPARE_EQUAL)
      (by decide)
      (AbsExpr_Expression.mk
        ⟨some (expression.ComparisonExpression ExpressionType.COMPARE_EQUAL none none)⟩
        [groupMarkerLeaf 0, groupMarkerLeaf 1])
      (groupMarkerLeaf 0) (groupMarkerLeaf 1) [] rfl).2 with
    | ⟨out, hout, _, _, hflip⟩ => ⟨out, hout, hflip⟩⟩

/-! ## Evaluation lemmas -/

theorem eval_leaf (row : Row) (op : AbsExpr_Container) :
    eval row (AbsExpr_Expression.mk op []) = evalOperator row op [] := by
  simp [eval.eq_1, evalChildren.eq_1]

theorem eval_binary (row : Row) (op : AbsExpr_Container) (l r : AbsExpr_Expression) :
    eval row (AbsExpr_Expression.mk op [l, r]) =
      match eval row l, eval row r with
      | some a, some b => evalOperator row op [a, b]
      | _, _ => none := by
  rw [eval.eq_1, evalChildren.eq_2, evalChildren.eq_2, evalChildren.eq_1]
  cases eval row l <;> cases eval row r <;> rfl

theorem eval_column (row : Row) (table_name col_name : String) (bound_oid : Option Nat) :
    eval row (AbsExpr_Expression.mk ⟨some (columnRef table_name col_name bound_oid)⟩ []) =
      some (row table_name col_name) := by
  rw [eval_leaf]
  rfl

theorem eval_constant (row : Row) (value : Value) :
    eval row (AbsExpr_Expression.mk ⟨some (expression.ConstantValueExpression value)⟩ []) =
      some value := by
  rw [eval_leaf]
  rfl

theorem evalOperator_and (row : Row) (op : AbsExpr_Container) (l r : Value)
    (hop : op.GetType = ExpressionType.CONJUNCTION_AND) :
    evalOperator row op [l, r] =
      match l.truth, r.truth with
      | some a, some b => some (ValueFactory.GetBooleanValue (a.and3 b))
      | _, _ => none := by
  obtain ⟨node⟩ := op
  cases node with
  | none => simp [AbsExpr_Container.GetType] at hop
  | some n =>
    obtain ⟨t, cls, cs⟩ := n
    simp only [AbsExpr_Container.GetType, AbstractExpression.GetExpressionType] at hop
    subst hop
    rfl

theorem evalOperator_or (row : Row) (op : AbsExpr_Container) (l r : Value)
    (hop : op.GetType = ExpressionType.CONJUNCTION_OR) :
    evalOperator row op [l, r] =
      match l.truth, r.truth with
      | some a, some b => some (ValueFactory.GetBooleanValue (a.or3 b))
      | _, _ => none := by
  obtain ⟨node⟩ := op
  cases node with
  | none => simp [AbsExpr_Container.GetType] at hop
  | some n =>
    obtain ⟨t, cls, cs⟩ := n
    simp only [AbsExpr_Container.GetType, AbstractExpression.GetExpressionType] at hop
    subst hop
    rfl

theorem evalOperator_compare (row : Row) (op : AbsExpr_Container) (l r : Value)
    (rel : Int → Int → Bool) (hrel : comparisonRelation op.GetType = some rel) :
    evalOperator row op [l, r] =
      some (ValueFactory.GetBooleanValue (Value.compareWith rel l r)) := by
  obtain ⟨node⟩ := op
  cases node with
  | none => simp [AbsExpr_Container.GetType, comparisonRelation] at hrel
  | some n =>
    obtain ⟨t, cls, cs⟩ := n
    simp only [AbsExpr_Container.GetType, AbstractExpression.GetExpressionType] at hrel
    cases t <;> simp only [comparisonRelation, reduceCtorEq] at hrel <;>
      simp only [evalOperator, AbsExpr_Container.GetExpr, comparisonRelation, hrel]

theorem truth_booleanValue (c : CmpBool) : (ValueFactory.GetBooleanValue c).truth = some c := by
  cases c <;> simp [ValueFactory.GetBooleanValue, Value.truth]

theorem and3_comm (a b : CmpBool) : a.and3 b = b.and3 a := by
  cases a <;> cases b <;> rfl

theorem or3_comm (a b : CmpBool) : a.or3 b = b.or3 a := by
  cases a <;> cases b <;> rfl

theorem compareWith_equal_comm (l r : Value) :
    Value.compareWith (fun a b => decide (a = b)) l r =
      Value.compareWith (fun a b => decide (a = b)) r l := by
  unfold Value.compareWith
  cases l.data <;> cases r.data <;> simp [eq_comm]

/-! ## Semantic preservation of the rules -/

/-- The part of `TVEqualityWithTwoCVTransform::Transform` that follows the
assertions, for an input bound to `AND(Equal(T1, x), Equal(T2, y))`. -/
theorem tvEquality_unfold (cc : Comparability) (and_op l_op r_op : AbsExpr_Container)
    (T1 T2 : AbstractExpression) (x y : Value) (transformed : List AbsExpr_Expression)
    (hand : and_op.GetType = ExpressionType.CONJUNCTION_AND)
    (hleft : l_op.GetType = ExpressionType.COMPARE_EQUAL)
    (hright : r_op.GetType = ExpressionType.COMPARE_EQUAL)
    (hT1 : T1.GetExpressionType = ExpressionType.VALUE_TUPLE)
    (hT2 : T2.GetExpressionType = ExpressionType.VALUE_TUPLE) :
    TVEqualityWithTwoCVTransform.Transform cc
        (andOfEquals and_op l_op r_op T1 (expression.ConstantValueExpression x)
          T2 (expression.ConstantValueExpression y)) transformed =
      if T1.ExactlyEquals T2 = true ∧ cc x y = true then
        if x.CompareEquals y = CmpBool.CmpTrue then
          some (transformed ++
            [AbsExpr_Expression.mk
              ⟨some (expression.ComparisonExpression ExpressionType.COMPARE_EQUAL none none)⟩
              [AbsExpr_Expression.mk ⟨some T1⟩ [],
               AbsExpr_Expression.mk ⟨some (expression.ConstantValueExpression x)⟩ []]])
        else
          some (transformed ++ [constantExpr (ValueFactory.GetBooleanValueOfBool false)])
      else
        some transformed := by
  have hT1c : (AbsExpr_Container.mk (some T1)).GetType = ExpressionType.VALUE_TUPLE := hT1
  have hT2c : (AbsExpr_Container.mk (some T2)).GetType = ExpressionType.VALUE_TUPLE := hT2
  have hxc : (AbsExpr_Container.mk (some (expression.ConstantValueExpression x))).GetType =
      ExpressionType.VALUE_CONSTANT := rfl
  have hyc : (AbsExpr_Container.mk (some (expression.ConstantValueExpression y))).GetType =
      ExpressionType.VALUE_CONSTANT := rfl
  have hx : expression.asConstantValue (some (expression.ConstantValueExpression x)) = some x :=
    rfl
  have hy : expression.asConstantValue (some (expression.ConstantValueExpression y)) = some y :=
    rfl
  simp only [TVEqualityWithTwoCVTransform.Transform, andOfEquals, AbsExpr_Expression.Op,
    AbsExpr_Expression.Children, hand, hleft, hright, isLeafOfType, AbsExpr_Container.GetExpr,
    hT1c, hT2c, hxc, hyc, hx, hy, AbsExpr_Expression.ofContainer, AbsExpr_Expression.PushChild]
  by_cases h1 : T1.ExactlyEquals T2 = true
  · by_cases h2 : cc x y = true
    · by_cases h3 : x.CompareEquals y = CmpBool.CmpTrue
      · simp [h1, h2, h3]
      · simp [h1, h2, h3]
    · simp [h1, h2]
  · simp [h1]

/-- The truth values of `T = x` and `T = y` in a row where `T` holds `v`: when `x`
and `y` compare equal the conjunction has the truth value of `T = x`; when they
do not, the conjunction is not TRUE. -/
theorem tvEquality_truth (v x y : Value) :
    (x.CompareEquals y = CmpBool.CmpTrue →
      (Value.compareWith (fun a b => decide (a = b)) v x).and3
        (Value.compareWith (fun a b => decide (a = b)) v y) =
      Value.compareWith (fun a b => decide (a = b)) v x) ∧
    (x.CompareEquals y ≠ CmpBool.CmpTrue →
      (Value.compareWith (fun a b => decide (a = b)) v x).and3
        (Value.compareWith (fun a b => decide (a = b)) v y) ≠ CmpBool.CmpTrue) := by
  obtain ⟨tv, dv⟩ := v
  obtain ⟨tx, dx⟩ := x
  obtain ⟨ty, dy⟩ := y
  rcases dv with _ | a <;> rcases dx with _ | b <;> rcases dy with _ | c <;>
    simp only [Value.CompareEquals, Value.compareWith, decide_eq_true_eq] <;>
    refine ⟨fun h => ?_, fun h => ?_⟩ <;>
    (try split_ifs at h ⊢) <;> simp_all [CmpBool.and3]

/-- The value of the input `(T = x) AND (T = y)` in a row. -/
theorem eval_tvEquality_input (row : Row) (and_op l_op r_op : AbsExpr_Container)
    (table_name col_name : String) (bound_oid : Option Nat) (x y : Value)
    (hand : and_op.GetType = ExpressionType.CONJUNCTION_AND)
    (hleft : l_op.GetType = ExpressionType.COMPARE_EQUAL)
    (hright : r_op.GetType = ExpressionType.COMPARE_EQUAL) :
    eval row (andOfEquals and_op l_op r_op (columnRef table_name col_name bound_oid)
        (expression.ConstantValueExpression x) (columnRef table_name col_name bound_oid)
        (expression.ConstantValueExpression y)) =
      some (ValueFactory.GetBooleanValue
        ((Value.compareWith (fun a b => decide (a = b)) (row table_name col_name) x).and3
          (Value.compareWith (fun a b => decide (a = b)) (row table_name col_name) y))) := by
  simp only [andOfEquals, eval_binary, eval_column, eval_constant]
  rw [evalOperator_compare row l_op _ _ (fun a b => decide (a = b)) (by rw [hleft]; rfl),
    evalOperator_compare row r_op _ _ (fun a b => decide (a = b)) (by rw [hright]; rfl)]
  simp only [evalOperator_and row and_op _ _ hand, truth_booleanValue]

theorem columnRef_exactlyEquals (t1 c1 : String) (o1 : Option Nat) (t2 c2 : String)
    (o2 : Option Nat) :
    (columnRef t1 c1 o1).ExactlyEquals (columnRef t2 c2 o2) = true ↔
      t1 = t2 ∧ c1 = c2 ∧ o1 = o2 := by
  simp [columnRef, AbstractExpression.ExactlyEquals.eq_1, AbstractExpression.ExactlyEqualsList.eq_1]

theorem booleanValue_false :
    ValueFactory.GetBooleanValueOfBool false = ValueFactory.GetBooleanValue CmpBool.CmpFalse :=
  rfl

/-- Refutation of C16 as stated: for `(A.B = 1) AND (A.B = 2)` the rule produces the
constant FALSE, while in the row where `A.B` is NULL the input evaluates to
NULL, so the output does not have the truth value of the input. -/
theorem tvEquality_null_row_differs :
    TVEqualityWithTwoCVTransform.Transform sameTypeComparable
        (andOfEquals andOp equalOp equalOp (columnRef "A" "B" none) (GetConstantExpression 1)
          (columnRef "A" "B" none) (GetConstantExpression 2)) [] =
      some [constantExpr (ValueFactory.GetBooleanValueOfBool false)] ∧
    eval (rowOfIntegers []) (constantExpr (ValueFactory.GetBooleanValueOfBool false)) =
      some (ValueFactory.GetBooleanValue CmpBool.CmpFalse) ∧
    eval (rowOfIntegers [])
        (andOfEquals andOp equalOp equalOp (columnRef "A" "B" none) (GetConstantExpression 1)
          (columnRef "A" "B" none) (GetConstantExpression 2)) =
      some (ValueFactory.GetBooleanValue CmpBool.NULL_) ∧
    eval (rowOfIntegers []) (constantExpr (ValueFactory.GetBooleanValueOfBool false)) ≠
      eval (rowOfIntegers [])
        (andOfEquals andOp equalOp equalOp (columnRef "A" "B" none) (GetConstantExpression 1)
          (columnRef "A" "B" none) (GetConstantExpression 2)) := by
  refine ⟨?_, ?_, ?_, ?_⟩
  · rw [GetConstantExpression, GetConstantExpression,
      tvEquality_unfold sameTypeComparable andOp equalOp equalOp (columnRef "A" "B" none)
        (columnRef "A" "B" none) (ValueFactory.GetIntegerValue 1) (ValueFactory.GetIntegerValue 2)
        [] rfl rfl rfl rfl rfl]
    rfl
  · decide
  · decide
  · decide

/-- C16, amended: for every input `(T = x) AND (T = y)` on which
`TVEqualityWithTwoCVTransform::Transform` produces an output and for every row,
the output evaluates under SQL three-valued logic to the truth value of the
input, except where the input evaluates to NULL and `x` and `y` do not compare
equal: there the output evaluates to FALSE. -/
theorem tvEquality_preserves_truth (cc : Comparability) (and_op l_op r_op : AbsExpr_Container)
    (table_name col_name : String) (bound_oid : Option Nat) (x y : Value) (row : Row)
    (out : AbsExpr_Expression)
    (hand : and_op.GetType = ExpressionType.CONJUNCTION_AND)
    (hleft : l_op.GetType = ExpressionType.COMPARE_EQUAL)
    (hright : r_op.GetType = ExpressionType.COMPARE_EQUAL)
    (hout : TVEqualityWithTwoCVTransform.Transform cc
      (andOfEquals and_op l_op r_op (columnRef table_name col_name bound_oid)
        (expression.ConstantValueExpression x) (columnRef table_name col_name bound_oid)
        (expression.ConstantValueExpression y)) [] = some [out]) :
    eval row out =
      if eval row (andOfEquals and_op l_op r_op (columnRef table_name col_name bound_oid)
            (expression.ConstantValueExpression x) (columnRef table_name col_name bound_oid)
            (expression.ConstantValueExpression y)) =
          some (ValueFactory.GetBooleanValue CmpBool.NULL_) ∧
          x.CompareEquals y ≠ CmpBool.CmpTrue then
        some (ValueFactory.GetBooleanValue CmpBool.CmpFalse)
      else
        eval row (andOfEquals and_op l_op r_op (columnRef table_name col_name bound_oid)
          (expression.ConstantValueExpression x) (columnRef table_name col_name bound_oid)
          (expression.ConstantValueExpression y)) := by
  rw [tvEquality_unfold cc and_op l_op r_op (columnRef table_name col_name bound_oid)
    (columnRef table_name col_name bound_oid) x y [] hand hleft hright rfl rfl] at hout
  rw [eval_tvEquality_input row and_op l_op r_op table_name col_name bound_oid x y hand hleft
    hright]
  have htruth := tvEquality_truth (row table_name col_name) x y
  by_cases hcc : cc x y = true
  · by_cases heq : x.CompareEquals y = CmpBool.CmpTrue
    · simp only [(columnRef_exactlyEquals _ _ _ _ _ _).mpr ⟨rfl, rfl, rfl⟩, hcc, heq, and_self,
        if_true, List.nil_append, Option.some.injEq, List.cons.injEq, and_true] at hout
      subst hout
      rw [eval_binary, eval_column, eval_constant]
      simp only [evalOperator_compare row
        ⟨some (expression.ComparisonExpression ExpressionType.COMPARE_EQUAL none none)⟩ _ _
        (fun a b => decide (a = b)) rfl, htruth.1 heq, heq, ne_eq, not_true_eq_false, and_false,
        if_false]
    · simp only [(columnRef_exactlyEquals _ _ _ _ _ _).mpr ⟨rfl, rfl, rfl⟩, hcc, heq, and_self,
        if_true, if_false, List.nil_append, Option.some.injEq, List.cons.injEq, and_true] at hout
      subst hout
      have hnot := htruth.2 heq
      rw [constantExpr, AbsExpr_Expression.ofContainer, eval_constant, booleanValue_false]
      generalize (Value.compareWith (fun a b => decide (a = b)) (row table_name col_name) x).and3
        (Value.compareWith (fun a b => decide (a = b)) (row table_name col_name) y) = c at hnot ⊢
      cases c <;> simp [heq, ValueFactory.GetBooleanValue] at hnot ⊢
  · simp [hcc] at hout

/-- Witness of C16, amended, at `(A.B = 1) AND (A.B = 2)` and the row in which
`A.B` holds 1. -/
theorem tvEquality_preserves_truth_witness :
    TVEqualityWithTwoCVTransform.Transform sameTypeComparable
        (andOfEquals andOp equalOp equalOp (columnRef "A" "B" none)
          (expression.ConstantValueExpression (ValueFactory.GetIntegerValue 1))
          (columnRef "A" "B" none)
          (expression.ConstantValueExpression (ValueFactory.GetIntegerValue 2))) [] =
      some [constantExpr (ValueFactory.GetBooleanValueOfBool false)] ∧
    eval (rowOfIntegers [("A", "B", 1)])
        (constantExpr (ValueFactory.GetBooleanValueOfBool false)) =
      some (ValueFactory.GetBooleanValue CmpBool.CmpFalse) :=
  have hout : TVEqualityWithTwoCVTransform.Transform sameTypeComparable
        (andOfEquals andOp equalOp equalOp (columnRef "A" "B" none)
          (expression.ConstantValueExpression (ValueFactory.GetIntegerValue 1))
          (columnRef "A" "B" none)
          (expression.ConstantValueExpression (ValueFactory.GetIntegerValue 2))) [] =
      some [constantExpr (ValueFactory.GetBooleanValueOfBool false)] := by
    rw [tvEquality_unfold sameTypeComparable andOp equalOp equalOp (columnRef "A" "B" none)
      (columnRef "A" "B" none) (ValueFactory.GetIntegerValue 1) (ValueFactory.GetIntegerValue 2)
      [] rfl rfl rfl rfl rfl]
    rfl
  ⟨hout,
    (tvEquality_preserves_truth sameTypeComparable andOp equalOp equalOp "A" "B" none
      (ValueFactory.GetIntegerValue 1) (ValueFactory.GetIntegerValue 2)
      (rowOfIntegers [("A", "B", 1)])
      (constantExpr (ValueFactory.GetBooleanValueOfBool false)) rfl rfl rfl hout).trans
      (by decide)⟩

/-- A conjunction with `L = L` has the truth value of its first conjunct when `L`
is not NULL, and also when the first conjunct is not TRUE. -/
theorem and3_equal_self (a : CmpBool) (v : Value)
    (h : v.IsNull = false ∨ a ≠ CmpBool.CmpTrue) :
    a.and3 (Value.compareWith (fun a b => decide (a = b)) v v) = a := by
  obtain ⟨t, d⟩ := v
  cases d with
  | none =>
    rcases h with h | h
    · simp [Value.IsNull] at h
    · cases a <;> simp [Value.compareWith, CmpBool.and3] at h ⊢
  | some n => cases a <;> simp [Value.compareWith, CmpBool.and3]

/-- Where `k = c` is not NULL, `k` may be replaced by `c` in a second equality,
on either side. -/
theorem and3_substitute (k c other : Value) (hk : k.IsNull = false) (hc : c.IsNull = false) :
    (Value.compareWith (fun a b => decide (a = b)) k c).and3
        (Value.compareWith (fun a b => decide (a = b)) k other) =
      (Value.compareWith (fun a b => decide (a = b)) k c).and3
        (Value.compareWith (fun a b => decide (a = b)) c other) ∧
    (Value.compareWith (fun a b => decide (a = b)) k c).and3
        (Value.compareWith (fun a b => decide (a = b)) other k) =
      (Value.compareWith (fun a b => decide (a = b)) k c).and3
        (Value.compareWith (fun a b => decide (a = b)) other c) := by
  obtain ⟨tk, dk⟩ := k
  obtain ⟨tc, dc⟩ := c
  obtain ⟨tother, d⟩ := other
  rcases dk with _ | a
  · simp [Value.IsNull] at hk
  · rcases dc with _ | b
    · simp [Value.IsNull] at hc
    · rcases d with _ | n
      · simp [Value.compareWith]
      · by_cases hab : a = b
        · subst hab
          simp [Value.compareWith]
        · simp [Value.compareWith, hab, CmpBool.and3]

/-- Whatever is NULL, replacing `k` by `c` in a second equality keeps a
conjunction with `k = c` TRUE when it was TRUE, and only then. -/
theorem and3_substitute_true (k c other : Value) :
    ((Value.compareWith (fun a b => decide (a = b)) k c).and3
        (Value.compareWith (fun a b => decide (a = b)) c other) = CmpBool.CmpTrue ↔
      (Value.compareWith (fun a b => decide (a = b)) k c).and3
        (Value.compareWith (fun a b => decide (a = b)) k other) = CmpBool.CmpTrue) ∧
    ((Value.compareWith (fun a b => decide (a = b)) k c).and3
        (Value.compareWith (fun a b => decide (a = b)) other c) = CmpBool.CmpTrue ↔
      (Value.compareWith (fun a b => decide (a = b)) k c).and3
        (Value.compareWith (fun a b => decide (a = b)) other k) = CmpBool.CmpTrue) := by
  obtain ⟨tk, dk⟩ := k
  obtain ⟨tc, dc⟩ := c
  obtain ⟨tother, d⟩ := other
  rcases dk with _ | a <;> rcases dc with _ | b <;> rcases d with _ | n <;>
    simp only [Value.compareWith, decide_eq_true_eq] <;>
    (try split_ifs) <;> first | decide | (exfalso; omega)

theorem booleanValue_injective (a b : CmpBool) :
    ValueFactory.GetBooleanValue a = ValueFactory.GetBooleanValue b ↔ a = b := by
  cases a <;> cases b <;> simp [ValueFactory.GetBooleanValue]

/-- The value of a rewritten input `(K = c) AND (x = y)` whose second equality
holds the constant on one side. -/
theorem eval_andOfEquals (row : Row) (and_op l_op r_op : AbsExpr_Container)
    (l_left l_right r_left r_right : AbstractExpression) (a b c d : Value)
    (hand : and_op.GetType = ExpressionType.CONJUNCTION_AND)
    (hleft : l_op.GetType = ExpressionType.COMPARE_EQUAL)
    (hright : r_op.GetType = ExpressionType.COMPARE_EQUAL)
    (ha : eval row (AbsExpr_Expression.mk ⟨some l_left⟩ []) = some a)
    (hb : eval row (AbsExpr_Expression.mk ⟨some l_right⟩ []) = some b)
    (hc : eval row (AbsExpr_Expression.mk ⟨some r_left⟩ []) = some c)
    (hd : eval row (AbsExpr_Expression.mk ⟨some r_right⟩ []) = some d) :
    eval row (andOfEquals and_op l_op r_op l_left l_right r_left r_right) =
      some (ValueFactory.GetBooleanValue
        ((Value.compareWith (fun a b => decide (a = b)) a b).and3
          (Value.compareWith (fun a b => decide (a = b)) c d))) := by
  simp only [andOfEquals, eval_binary, ha, hb, hc, hd]
  rw [evalOperator_compare row l_op _ _ (fun a b => decide (a = b)) (by rw [hleft]; rfl),
    evalOperator_compare row r_op _ _ (fun a b => decide (a = b)) (by rw [hright]; rfl)]
  simp only [evalOperator_and row and_op _ _ hand, truth_booleanValue]

/-- Refutation of C17 as stated, at three inputs.  For `(A.B = 5) AND (C.D = C.D)`
and the row in which `A.B` is 5 and `C.D` is NULL the output `A.B = 5` is TRUE
while the input is NULL.  For `(A.B = 5) AND (A.B = C.D)` and the row in which
`A.B` is NULL and `C.D` is 7 the output `(A.B = 5) AND (5 = C.D)` is FALSE while
the input is NULL.  For `(A.B = NULL) AND (A.B = C.D)` and the row in which `A.B`
is 1 and `C.D` is 2 the output `(A.B = NULL) AND (NULL = C.D)` is NULL while the
input is FALSE. -/
theorem transitiveClosure_null_differs :
    (TransitiveClosureConstantTransform.Transform
        (andOfEquals andOp equalOp equalOp (columnRef "A" "B" none) (GetConstantExpression 5)
          (columnRef "C" "D" none) (columnRef "C" "D" none)) [] =
      some [AbsExpr_Expression.mk equalOp
        [AbsExpr_Expression.mk ⟨some (columnRef "A" "B" none)⟩ [],
         AbsExpr_Expression.mk ⟨some (GetConstantExpression 5)⟩ []]] ∧
     eval (rowOfIntegers [("A", "B", 5)])
        (AbsExpr_Expression.mk equalOp
          [AbsExpr_Expression.mk ⟨some (columnRef "A" "B" none)⟩ [],
           AbsExpr_Expression.mk ⟨some (GetConstantExpression 5)⟩ []]) =
      some (ValueFactory.GetBooleanValue CmpBool.CmpTrue) ∧
     eval (rowOfIntegers [("A", "B", 5)])
        (andOfEquals andOp equalOp equalOp (columnRef "A" "B" none) (GetConstantExpression 5)
          (columnRef "C" "D" none) (columnRef "C" "D" none)) =
      some (ValueFactory.GetBooleanValue CmpBool.NULL_)) ∧
    (TransitiveClosureConstantTransform.Transform
        (andOfEquals andOp equalOp equalOp (columnRef "A" "B" none) (GetConstantExpression 5)
          (columnRef "A" "B" none) (columnRef "C" "D" none)) [] =
      some [andOfEquals andOp equalOp equalOp (columnRef "A" "B" none) (GetConstantExpression 5)
        (GetConstantExpression 5) (columnRef "C" "D" none)] ∧
     eval (rowOfIntegers [("C", "D", 7)])
        (andOfEquals andOp equalOp equalOp (columnRef "A" "B" none) (GetConstantExpression 5)
          (GetConstantExpression 5) (columnRef "C" "D" none)) =
      some (ValueFactory.GetBooleanValue CmpBool.CmpFalse) ∧
     eval (rowOfIntegers [("C", "D", 7)])
        (andOfEquals andOp equalOp equalOp (columnRef "A" "B" none) (GetConstantExpression 5)
          (columnRef "A" "B" none) (columnRef "C" "D" none)) =
      some (ValueFactory.GetBooleanValue CmpBool.NULL_)) ∧
    (TransitiveClosureConstantTransform.Transform
        (andOfEquals andOp equalOp equalOp (columnRef "A" "B" none)
          (expression.ConstantValueExpression (ValueFactory.GetNullValueByType TypeId.INTEGER))
          (columnRef "A" "B" none) (columnRef "C" "D" none)) [] =
      some [andOfEquals andOp equalOp equalOp (columnRef "A" "B" none)
        (expression.ConstantValueExpression (ValueFactory.GetNullValueByType TypeId.INTEGER))
        (expression.ConstantValueExpression (ValueFactory.GetNullValueByType TypeId.INTEGER))
        (columnRef "C" "D" none)] ∧
     eval (rowOfIntegers [("A", "B", 1), ("C", "D", 2)])
        (andOfEquals andOp equalOp equalOp (columnRef "A" "B" none)
          (expression.ConstantValueExpression (ValueFactory.GetNullValueByType TypeId.INTEGER))
          (expression.ConstantValueExpression (ValueFactory.GetNullValueByType TypeId.INTEGER))
          (columnRef "C" "D" none)) =
      some (ValueFactory.GetBooleanValue CmpBool.NULL_) ∧
     eval (rowOfIntegers [("A", "B", 1), ("C", "D", 2)])
        (andOfEquals andOp equalOp equalOp (columnRef "A" "B" none)
          (expression.ConstantValueExpression (ValueFactory.GetNullValueByType TypeId.INTEGER))
          (columnRef "A" "B" none) (columnRef "C" "D" none)) =
      some (ValueFactory.GetBooleanValue CmpBool.CmpFalse)) := by
  refine ⟨⟨?_, by decide, by decide⟩, ⟨?_, by decide, by decide⟩, ⟨?_, by decide, by decide⟩⟩
  · rw [transitiveClosure_unfold andOp equalOp equalOp (columnRef "A" "B" none)
      (GetConstantExpression 5) (columnRef "C" "D" none) (columnRef "C" "D" none) [] rfl rfl rfl
      rfl rfl rfl rfl]
    rfl
  · rw [transitiveClosure_unfold andOp equalOp equalOp (columnRef "A" "B" none)
      (GetConstantExpression 5) (columnRef "A" "B" none) (columnRef "C" "D" none) [] rfl rfl rfl
      rfl rfl rfl rfl]
    rfl
  · rw [transitiveClosure_unfold andOp equalOp equalOp (columnRef "A" "B" none)
      (expression.ConstantValueExpression (ValueFactory.GetNullValueByType TypeId.INTEGER))
      (columnRef "A" "B" none) (columnRef "C" "D" none) [] rfl rfl rfl rfl rfl rfl rfl]
    rfl

/-- C17, amended: for every input `(K = c) AND (L = R)` on which
`TransitiveClosureConstantTransform::Transform` produces an output and for every
row.  When `L` exactly equals `R`, the output evaluates under SQL three-valued
logic to the truth value of the input provided that `L` is not NULL in the row
or `K = c` is not TRUE.  When `L` does not exactly equal `R`, the output is TRUE
exactly when the input is TRUE, and it evaluates to the truth value of the
input provided that `K` is not NULL in the row and the constant `c` is not
NULL. -/
theorem transitiveClosure_preserves_truth (and_op l_op r_op : AbsExpr_Container)
    (tK cK : String) (oK : Option Nat) (tL cL : String) (oL : Option Nat)
    (tR cR : String) (oR : Option Nat) (c : Value) (row : Row) (out : AbsExpr_Expression)
    (hand : and_op.GetType = ExpressionType.CONJUNCTION_AND)
    (hleft : l_op.GetType = ExpressionType.COMPARE_EQUAL)
    (hright : r_op.GetType = ExpressionType.COMPARE_EQUAL)
    (hout : TransitiveClosureConstantTransform.Transform
      (andOfEquals and_op l_op r_op (columnRef tK cK oK) (expression.ConstantValueExpression c)
        (columnRef tL cL oL) (columnRef tR cR oR)) [] = some [out]) :
    ((columnRef tL cL oL).ExactlyEquals (columnRef tR cR oR) = true →
      (row tL cL).IsNull = false ∨ (row tK cK).CompareEquals c ≠ CmpBool.CmpTrue →
      eval row out =
        eval row (andOfEquals and_op l_op r_op (columnRef tK cK oK)
          (expression.ConstantValueExpression c) (columnRef tL cL oL) (columnRef tR cR oR))) ∧
    ((columnRef tL cL oL).ExactlyEquals (columnRef tR cR oR) = false →
      (eval row out = some (ValueFactory.GetBooleanValue CmpBool.CmpTrue) ↔
        eval row (andOfEquals and_op l_op r_op (columnRef tK cK oK)
          (expression.ConstantValueExpression c) (columnRef tL cL oL) (columnRef tR cR oR)) =
        some (ValueFactory.GetBooleanValue CmpBool.CmpTrue)) ∧
      ((row tK cK).IsNull = false → c.IsNull = false →
        eval row out =
          eval row (andOfEquals and_op l_op r_op (columnRef tK cK oK)
            (expression.ConstantValueExpression c) (columnRef tL cL oL)
            (columnRef tR cR oR)))) := by
  rw [transitiveClosure_unfold and_op l_op r_op (columnRef tK cK oK)
    (expression.ConstantValueExpression c) (columnRef tL cL oL) (columnRef tR cR oR) [] hand
    hleft hright rfl rfl rfl rfl] at hout
  rw [eval_andOfEquals row and_op l_op r_op _ _ _ _ (row tK cK) c (row tL cL) (row tR cR) hand
    hleft hright (eval_column row tK cK oK) (eval_constant row c) (eval_column row tL cL oL)
    (eval_column row tR cR oR)]
  constructor
  · intro hLR hrow
    simp only [hLR, if_true, List.nil_append, Option.some.injEq, List.cons.injEq,
      and_true] at hout
    subst hout
    obtain ⟨ht, hc, _⟩ := (columnRef_exactlyEquals _ _ _ _ _ _).mp hLR
    subst ht
    subst hc
    rw [eval_binary, eval_column, eval_constant]
    simp only [evalOperator_compare row l_op _ _ (fun a b => decide (a = b))
      (by rw [hleft]; rfl),
      and3_equal_self (Value.compareWith (fun a b => decide (a = b)) (row tK cK) c) (row tL cL)
        hrow]
  · intro hLR
    by_cases hKL : (columnRef tK cK oK).ExactlyEquals (columnRef tL cL oL) = true
    · simp only [hLR, hKL, if_true, Bool.not_true, Bool.false_and, Bool.false_eq_true, if_false,
        List.nil_append, Option.some.injEq, List.cons.injEq, and_true] at hout
      subst hout
      obtain ⟨ht, hcol, _⟩ := (columnRef_exactlyEquals _ _ _ _ _ _).mp hKL
      subst ht
      subst hcol
      have hvalue := eval_andOfEquals row and_op l_op r_op (columnRef tK cK oK)
        (expression.ConstantValueExpression c) (expression.ConstantValueExpression c)
        (columnRef tR cR oR) (row tK cK) c c (row tR cR) hand hleft hright
        (eval_column row tK cK oK) (eval_constant row c) (eval_constant row c)
        (eval_column row tR cR oR)
      rw [andOfEquals] at hvalue
      rw [hvalue]
      refine ⟨?_, fun hk hc => ?_⟩
      · simp only [Option.some.injEq, booleanValue_injective]
        exact (and3_substitute_true (row tK cK) c (row tR cR)).1
      · rw [(and3_substitute (row tK cK) c (row tR cR) hk hc).1]
    · by_cases hKR : (columnRef tK cK oK).ExactlyEquals (columnRef tR cR oR) = true
      · simp only [hLR, hKL, hKR, Bool.not_true, Bool.and_false, Bool.false_eq_true, if_false,
          List.nil_append, Option.some.injEq, List.cons.injEq, and_true] at hout
        subst hout
        obtain ⟨ht, hcol, _⟩ := (columnRef_exactlyEquals _ _ _ _ _ _).mp hKR
        subst ht
        subst hcol
        have hvalue := eval_andOfEquals row and_op l_op r_op (columnRef tK cK oK)
          (expression.ConstantValueExpression c) (columnRef tL cL oL)
          (expression.ConstantValueExpression c) (row tK cK) c (row tL cL) c hand hleft hright
          (eval_column row tK cK oK) (eval_constant row c) (eval_column row tL cL oL)
          (eval_constant row c)
        rw [andOfEquals] at hvalue
        rw [hvalue]
        refine ⟨?_, fun hk hc => ?_⟩
        · simp only [Option.some.injEq, booleanValue_injective]
          exact (and3_substitute_true (row tK cK) c (row tL cL)).2
        · rw [(and3_substitute (row tK cK) c (row tL cL) hk hc).2]
      · simp [hLR, hKL, hKR] at hout

/-- Witness of C17, amended, at `(A.B = 5) AND (A.B = C.D)` and the row in which
`A.B` is 5 and `C.D` is 7. -/
theorem transitiveClosure_preserves_truth_witness :
    TransitiveClosureConstantTransform.Transform
        (andOfEquals andOp equalOp equalOp (columnRef "A" "B" none)
          (expression.ConstantValueExpression (ValueFactory.GetIntegerValue 5))
          (columnRef "A" "B" none) (columnRef "C" "D" none)) [] =
      some [andOfEquals andOp equalOp equalOp (columnRef "A" "B" none)
        (expression.ConstantValueExpression (ValueFactory.GetIntegerValue 5))
        (expression.ConstantValueExpression (ValueFactory.GetIntegerValue 5))
        (columnRef "C" "D" none)] ∧
    eval (rowOfIntegers [("A", "B", 5), ("C", "D", 7)])
        (andOfEquals andOp equalOp equalOp (columnRef "A" "B" none)
          (expression.ConstantValueExpression (ValueFactory.GetIntegerValue 5))
          (expression.ConstantValueExpression (ValueFactory.GetIntegerValue 5))
          (columnRef "C" "D" none)) =
      some (ValueFactory.GetBooleanValue CmpBool.CmpFalse) :=
  have hout : TransitiveClosureConstantTransform.Transform
        (andOfEquals andOp equalOp equalOp (columnRef "A" "B" none)
          (expression.ConstantValueExpression (ValueFactory.GetIntegerValue 5))
          (columnRef "A" "B" none) (columnRef "C" "D" none)) [] =
      some [andOfEquals andOp equalOp equalOp (columnRef "A" "B" none)
        (expression.ConstantValueExpression (ValueFactory.GetIntegerValue 5))
        (expression.ConstantValueExpression (ValueFactory.GetIntegerValue 5))
        (columnRef "C" "D" none)] := by
    rw [transitiveClosure_unfold andOp equalOp equalOp (columnRef "A" "B" none)
      (expression.ConstantValueExpression (ValueFactory.GetIntegerValue 5))
      (columnRef "A" "B" none) (columnRef "C" "D" none) [] rfl rfl rfl rfl rfl rfl rfl]
    rfl
  ⟨hout,
    (((transitiveClosure_preserves_truth andOp equalOp equalOp "A" "B" none "A" "B" none
      "C" "D" none (ValueFactory.GetIntegerValue 5)
      (rowOfIntegers [("A", "B", 5), ("C", "D", 7)]) _ rfl rfl rfl hout).2 (by decide)).2
      (by decide) (by decide)).trans (by decide)⟩

/-- The operators `AND`, `OR` and `Equal` are commutative on values. -/
theorem evalOperator_flip (row : Row) (op flipped : AbsExpr_Container)
    (root : ExpressionType)
    (hroot : root = ExpressionType.CONJUNCTION_AND ∨ root = ExpressionType.CONJUNCTION_OR ∨
      root = ExpressionType.COMPARE_EQUAL)
    (hop : op.GetType = root) (hflipped : flipped.GetType = root) (a b : Value) :
    evalOperator row flipped [b, a] = evalOperator row op [a, b] := by
  rcases hroot with h | h | h <;> subst h
  · rw [evalOperator_and row op a b hop, evalOperator_and row flipped b a hflipped]
    cases a.truth <;> cases b.truth <;> simp [and3_comm]
  · rw [evalOperator_or row op a b hop, evalOperator_or row flipped b a hflipped]
    cases a.truth <;> cases b.truth <;> simp [or3_comm]
  · rw [evalOperator_compare row op a b (fun a b => decide (a = b)) (by rw [hop]; rfl),
      evalOperator_compare row flipped b a (fun a b => decide (a = b)) (by rw [hflipped]; rfl),
      compareWith_equal_comm]

/-- C18: for each of the rules registered under `EQUIVALENT_TRANSFORM`, every
expression with two children whose operator is the root of the rule (`AND`, `OR`
or `Equal`) and every row, `Transform` produces an expression that evaluates
under SQL three-valued logic to the value of its input. -/
theorem equivalentTransform_preserves_truth (cc : Comparability) (rule : Rule)
    (hrule : rule ∈
      RuleSet.forExpressions.GetRewriteRulesByName RewriteRuleSetName.EQUIVALENT_TRANSFORM)
    (op : AbsExpr_Container) (l r : AbsExpr_Expression)
    (hop : op.GetType = rule.GetMatchPattern.type) (row : Row) :
    ∃ out : AbsExpr_Expression,
      rule.Transform cc (AbsExpr_Expression.mk op [l, r]) [] = some [out] ∧
      eval row out = eval row (AbsExpr_Expression.mk op [l, r]) := by
  rw [equivalent_rules] at hrule
  simp only [List.mem_cons, List.mem_singleton, List.not_mem_nil, or_false] at hrule
  have key : ∀ root : ExpressionType,
      (root = ExpressionType.CONJUNCTION_AND ∨ root = ExpressionType.CONJUNCTION_OR ∨
        root = ExpressionType.COMPARE_EQUAL) → op.GetType = root →
      eval row (AbsExpr_Expression.mk ⟨some (expression.ConjunctionExpressionOfType root)⟩
        [r, l]) = eval row (AbsExpr_Expression.mk op [l, r]) := by
    intro root hroot hopr
    rw [eval_binary, eval_binary]
    cases eval row l <;> cases eval row r <;> try rfl
    exact evalOperator_flip row op ⟨some (expression.ConjunctionExpressionOfType root)⟩ root
      hroot hopr rfl _ _
  rcases hrule with h | h | h <;> subst h
  · exact ⟨_, equivalentTransform_unfold _ (AbsExpr_Expression.mk op [l, r]) l r [] rfl,
      key _ (Or.inl rfl) hop⟩
  · exact ⟨_, equivalentTransform_unfold _ (AbsExpr_Expression.mk op [l, r]) l r [] rfl,
      key _ (Or.inr (Or.inl rfl)) hop⟩
  · exact ⟨_, equivalentTransform_unfold _ (AbsExpr_Expression.mk op [l, r]) l r [] rfl,
      key _ (Or.inr (Or.inr rfl)) hop⟩

/-- Witness of C18: the rule for `Equal` at `A.B = 5` and the row in which `A.B`
is 5. -/
theorem equivalentTransform_preserves_truth_witness :
    Rule.EquivalentTransform RuleType.EQUIV_COMPARE_EQUAL ExpressionType.COMPARE_EQUAL ∈
      RuleSet.forExpressions.GetRewriteRulesByName RewriteRuleSetName.EQUIVALENT_TRANSFORM ∧
    ∃ out : AbsExpr_Expression,
      (Rule.EquivalentTransform RuleType.EQUIV_COMPARE_EQUAL ExpressionType.COMPARE_EQUAL).Transform
          sameTypeComparable
          (AbsExpr_Expression.mk equalOp
            [AbsExpr_Expression.mk ⟨some (columnRef "A" "B" none)⟩ [],
             AbsExpr_Expression.mk ⟨some (GetConstantExpression 5)⟩ []]) [] = some [out] ∧
      eval (rowOfIntegers [("A", "B", 5)]) out =
        eval (rowOfIntegers [("A", "B", 5)])
          (AbsExpr_Expression.mk equalOp
            [AbsExpr_Expression.mk ⟨some (columnRef "A" "B" none)⟩ [],
             AbsExpr_Expression.mk ⟨some (GetConstantExpression 5)⟩ []]) :=
  ⟨by decide,
    equivalentTransform_preserves_truth sameTypeComparable
      (Rule.EquivalentTransform RuleType.EQUIV_COMPARE_EQUAL ExpressionType.COMPARE_EQUAL)
      (by decide) equalOp
      (AbsExpr_Expression.mk ⟨some (columnRef "A" "B" none)⟩ [])
      (AbsExpr_Expression.mk ⟨some (GetConstantExpression 5)⟩ []) rfl
      (rowOfIntegers [("A", "B", 5)])⟩

/-- The comparison that each rule of `ComparatorElimination` selects is the
comparison that its root tag denotes. -/
theorem compare_relation (rule : RuleType) (root : ExpressionType)
    (hrule : Rule.ComparatorElimination rule root ∈
      RuleSet.forExpressions.GetRewriteRulesByName RewriteRuleSetName.COMPARATOR_ELIMINATION)
    (l r : Value) :
    ∃ rel : Int → Int → Bool, comparisonRelation root = some rel ∧
      ComparatorElimination.compare rule l r = some (Value.compareWith rel l r) := by
  rw [comparator_rules_mem] at hrule
  rcases hrule with ⟨rfl, rfl⟩ | ⟨rfl, rfl⟩ | ⟨rfl, rfl⟩ | ⟨rfl, rfl⟩ | ⟨rfl, rfl⟩ | ⟨rfl, rfl⟩
  · exact ⟨_, rfl, rfl⟩
  · exact ⟨_, rfl, rfl⟩
  · exact ⟨_, rfl, rfl⟩
  · exact ⟨_, rfl, rfl⟩
  · refine ⟨_, rfl, ?_⟩
    obtain ⟨tl, dl⟩ := l
    obtain ⟨tr, dr⟩ := r
    rcases dl with _ | a <;> rcases dr with _ | b <;>
      simp [ComparatorElimination.compare, Value.CompareGreaterThan, Value.compareWith]
    by_cases h : a ≤ b
    · simp [h, not_lt.mpr h]
    · simp [h, not_le.mp h]
  · exact ⟨_, rfl, rfl⟩

/-- C19: for each of the six rules registered under `COMPARATOR_ELIMINATION` and
every pair of comparable integer constants, either of which may be NULL,
`ComparatorElimination::Transform` produces one constant, and its value is the
value to which the comparison evaluates under SQL three-valued logic. -/
theorem comparatorElimination_preserves_value (cc : Comparability) (rule : RuleType)
    (root : ExpressionType)
    (hrule : Rule.ComparatorElimination rule root ∈
      RuleSet.forExpressions.GetRewriteRulesByName RewriteRuleSetName.COMPARATOR_ELIMINATION)
    (op : AbsExpr_Container) (hop : op.GetType = root) (a b : Option Int)
    (hcc : cc ⟨TypeId.INTEGER, a⟩ ⟨TypeId.INTEGER, b⟩ = true) (row : Row) :
    ∃ value : Value,
      ComparatorElimination.Transform cc rule
          (AbsExpr_Expression.mk op
            [constantExpr ⟨TypeId.INTEGER, a⟩, constantExpr ⟨TypeId.INTEGER, b⟩]) [] =
        some [constantExpr value] ∧
      eval row (constantExpr value) = some value ∧
      eval row (AbsExpr_Expression.mk op
        [constantExpr ⟨TypeId.INTEGER, a⟩, constantExpr ⟨TypeId.INTEGER, b⟩]) = some value := by
  obtain ⟨rel, hrel, hcompare⟩ := compare_relation rule root hrule ⟨TypeId.INTEGER, a⟩
    ⟨TypeId.INTEGER, b⟩
  refine ⟨ValueFactory.GetBooleanValue
    (Value.compareWith rel ⟨TypeId.INTEGER, a⟩ ⟨TypeId.INTEGER, b⟩), ?_, ?_, ?_⟩
  · rw [transform_comparable cc rule
      (AbsExpr_Expression.mk op
        [constantExpr ⟨TypeId.INTEGER, a⟩, constantExpr ⟨TypeId.INTEGER, b⟩])
      (constantExpr ⟨TypeId.INTEGER, a⟩)
      (constantExpr ⟨TypeId.INTEGER, b⟩) ⟨TypeId.INTEGER, a⟩ ⟨TypeId.INTEGER, b⟩ [] rfl rfl rfl
      hcc, hcompare]
    rfl
  · exact eval_constant row _
  · rw [eval_binary]
    simp only [constantExpr, AbsExpr_Expression.ofContainer, eval_constant]
    exact evalOperator_compare row op _ _ rel (by rw [hop]; exact hrel)

/-- Witness of C19: the rule for `<=` at `2 <= NULL`. -/
theorem comparatorElimination_preserves_value_witness :
    Rule.ComparatorElimination RuleType.CONSTANT_COMPARE_LESSTHANOREQUALTO
        ExpressionType.COMPARE_LESSTHANOREQUALTO ∈
      RuleSet.forExpressions.GetRewriteRulesByName RewriteRuleSetName.COMPARATOR_ELIMINATION ∧
    sameTypeComparable ⟨TypeId.INTEGER, some 2⟩ ⟨TypeId.INTEGER, none⟩ = true ∧
    ∃ value : Value,
      ComparatorElimination.Transform sameTypeComparable
          RuleType.CONSTANT_COMPARE_LESSTHANOREQUALTO
          (AbsExpr_Expression.mk
            ⟨some (expression.ComparisonExpression ExpressionType.COMPARE_LESSTHANOREQUALTO
              none none)⟩
            [constantExpr ⟨TypeId.INTEGER, some 2⟩, constantExpr ⟨TypeId.INTEGER, none⟩]) [] =
        some [constantExpr value] ∧
      eval (rowOfIntegers []) (constantExpr value) = some value ∧
      eval (rowOfIntegers []) (AbsExpr_Expression.mk
        ⟨some (expression.ComparisonExpression ExpressionType.COMPARE_LESSTHANOREQUALTO
          none none)⟩
        [constantExpr ⟨TypeId.INTEGER, some 2⟩, constantExpr ⟨TypeId.INTEGER, none⟩]) =
        some value :=
  ⟨by decide, by decide,
    comparatorElimination_preserves_value sameTypeComparable
      RuleType.CONSTANT_COMPARE_LESSTHANOREQUALTO ExpressionType.COMPARE_LESSTHANOREQUALTO
      (by decide)
      ⟨some (expression.ComparisonExpression ExpressionType.COMPARE_LESSTHANOREQUALTO
        none none)⟩
      rfl (some 2) none (by decide) (rowOfIntegers [])⟩

mutual
theorem exactlyEquals_eq : ∀ a b : AbstractExpression, a.ExactlyEquals b = true → a = b
  | AbstractExpression.mk t c cs, AbstractExpression.mk t2 c2 cs2, h => by
    rw [AbstractExpression.ExactlyEquals.eq_1] at h
    simp only [Bool.and_eq_true, decide_eq_true_eq] at h
    obtain ⟨⟨ht, hc⟩, hcs⟩ := h
    rw [ht, hc, exactlyEqualsList_eq cs cs2 hcs]
theorem exactlyEqualsList_eq :
    ∀ as bs : List AbstractExpression, AbstractExpression.ExactlyEqualsList as bs = true → as = bs
  | [], [], _ => rfl
  | a :: as, b :: bs, h => by
    rw [AbstractExpression.ExactlyEqualsList.eq_2] at h
    simp only [Bool.and_eq_true] at h
    rw [exactlyEquals_eq a b h.1, exactlyEqualsList_eq as bs h.2]
  | [], _ :: _, h => by simp [AbstractExpression.ExactlyEqualsList] at h
  | _ :: _, [], h => by simp [AbstractExpression.ExactlyEqualsList] at h
end

/-- A call of `RewriteExpression` that passes the test `returnsTree` returned the
expected tree and left a rewriter that was reset. -/
theorem rewriteExpression_of_returnsTree (cc : Comparability) (fuel : Nat) (rewriter : Rewriter)
    (expr expected : AbstractExpression)
    (h : returnsTree (Rewriter.RewriteExpression cc fuel rewriter (some expr)) expected = true) :
    Rewriter.RewriteExpression cc fuel rewriter (some expr) =
      Outcome.done (some expected, Rewriter.new) := by
  unfold Rewriter.RewriteExpression at h ⊢
  simp only at h ⊢
  cases hloop : Rewriter.RewriteLoop cc fuel (rewriter.RecordTreeGroups expr).1
      (rewriter.RecordTreeGroups expr).2 with
  | done rewritten =>
    rw [hloop] at h
    simp only at h ⊢
    cases hbuild : rewritten.RebuildExpression fuel (rewriter.RecordTreeGroups expr).2 with
    | done tree =>
      rw [hbuild] at h
      simp only [returnsTree] at h
      rw [exactlyEquals_eq tree expected h]
      rfl
    | aborted => rw [hbuild] at h; simp [returnsTree] at h
    | outOfFuel => rw [hbuild] at h; simp [returnsTree] at h
  | aborted => rw [hloop] at h; simp [returnsTree] at h
  | outOfFuel => rw [hloop] at h; simp [returnsTree] at h

/-! ## Fuel -/

/-- A task loop that ran to completion runs to the same result with more fuel. -/
theorem drainTaskStack_mono (cc : Comparability) (k : Nat) :
    ∀ (fuel : Nat) (metadata : OptimizerMetadata) (stack : OptimizerTaskStack)
      (result : OptimizerMetadata),
      drainTaskStack cc fuel metadata stack = Outcome.done result →
      drainTaskStack cc (fuel + k) metadata stack = Outcome.done result := by
  intro fuel
  induction fuel with
  | zero =>
    intro metadata stack result h
    cases stack with
    | nil =>
      rw [drainTaskStack.eq_1] at h
      rw [drain_nil]
      exact h
    | cons task rest => simp [drainTaskStack] at h
  | succ fuel ih =>
    intro metadata stack result h
    cases stack with
    | nil =>
      rw [drainTaskStack.eq_1] at h
      rw [drain_nil]
      exact h
    | cons task rest =>
      rw [drainTaskStack.eq_3] at h
      rw [Nat.add_right_comm, drainTaskStack.eq_3]
      cases hstep : task.execute cc metadata rest with
      | none => rw [hstep] at h; simp at h
      | some next =>
        rw [hstep] at h
        exact ih _ _ _ h

theorem mapList_mono {α β : Type} (f g : α → Outcome β)
    (hfg : ∀ a b, f a = Outcome.done b → g a = Outcome.done b) :
    ∀ (list : List α) (result : List β),
      Outcome.mapList f list = Outcome.done result →
      Outcome.mapList g list = Outcome.done result := by
  intro list
  induction list with
  | nil => intro result h; exact h
  | cons a rest ih =>
    intro result h
    rw [Outcome.mapList] at h ⊢
    cases hfa : f a with
    | done b =>
      rw [hfa] at h
      rw [hfg a b hfa]
      cases hrest : Outcome.mapList f rest with
      | done bs =>
        rw [hrest] at h
        rw [ih bs hrest]
        exact h
      | aborted => rw [hrest] at h; simp at h
      | outOfFuel => rw [hrest] at h; simp at h
    | aborted => rw [hfa] at h; simp at h
    | outOfFuel => rw [hfa] at h; simp at h

/-- A rebuild that ran to completion gives the same tree with more fuel. -/
theorem rebuildExpression_mono (rewriter : Rewriter) (k : Nat) :
    ∀ (fuel : Nat) (root : GroupID) (tree : AbstractExpression),
      rewriter.RebuildExpression fuel root = Outcome.done tree →
      rewriter.RebuildExpression (fuel + k) root = Outcome.done tree := by
  intro fuel
  induction fuel with
  | zero => intro root tree h; simp [Rewriter.RebuildExpression] at h
  | succ fuel ih =>
    intro root tree h
    rw [Nat.add_right_comm]
    rw [Rewriter.RebuildExpression.eq_2] at h ⊢
    cases hgroup : rewriter.metadata_.memo.groups[root]? with
    | none => rw [hgroup] at h; simp at h
    | some cur_group =>
      rw [hgroup] at h
      simp only at h ⊢
      cases hexprs : cur_group.logical_expressions with
      | nil => rw [hexprs] at h; simp at h
      | cons expr tail =>
        rw [hexprs] at h
        simp only at h ⊢
        cases hchildren : Outcome.mapList (fun group => rewriter.RebuildExpression fuel group)
            expr.child_groups with
        | done child_exprs =>
          rw [hchildren] at h
          rw [mapList_mono _ (fun group => rewriter.RebuildExpression (fuel + k) group)
            (fun a b hab => ih a b hab) _ _ hchildren]
          exact h
        | aborted => rw [hchildren] at h; simp at h
        | outOfFuel => rw [hchildren] at h; simp at h

/-- A call of `RewriteExpression` that ran to completion returns the same result
with more fuel. -/
theorem rewriteExpression_mono (cc : Comparability) (fuel k : Nat) (rewriter : Rewriter)
    (expr : Option AbstractExpression) (result : Option AbstractExpression × Rewriter)
    (h : Rewriter.RewriteExpression cc fuel rewriter expr = Outcome.done result) :
    Rewriter.RewriteExpression cc (fuel + k) rewriter expr = Outcome.done result := by
  cases expr with
  | none => exact h
  | some e =>
    unfold Rewriter.RewriteExpression Rewriter.RewriteLoop at h ⊢
    simp only at h ⊢
    cases hloop : drainTaskStack cc fuel (rewriter.RecordTreeGroups e).1.metadata_
        (Rewriter.seedTaskStack (rewriter.RecordTreeGroups e).2) with
    | done metadata =>
      rw [hloop] at h
      rw [drainTaskStack_mono cc k fuel _ _ metadata hloop]
      simp only at h ⊢
      cases hbuild : Rewriter.RebuildExpression ⟨metadata⟩ fuel (rewriter.RecordTreeGroups e).2 with
      | done tree =>
        rw [hbuild] at h
        rw [rebuildExpression_mono ⟨metadata⟩ k fuel _ tree hbuild]
        exact h
      | aborted => rw [hbuild] at h; simp at h
      | outOfFuel => rw [hbuild] at h; simp at h
    | aborted => rw [hloop] at h; simp at h
    | outOfFuel => rw [hloop] at h; simp at h

/-- The rewriter that a completed call of `RewriteExpression` on an expression
leaves behind is the rewriter after `Reset`. -/
theorem rewriteExpression_resets (cc : Comparability) (fuel : Nat) (rewriter after : Rewriter)
    (expr : AbstractExpression) (tree : Option AbstractExpression)
    (h : Rewriter.RewriteExpression cc fuel rewriter (some expr) = Outcome.done (tree, after)) :
    after = Rewriter.new := by
  unfold Rewriter.RewriteExpression at h
  simp only at h
  cases hloop : Rewriter.RewriteLoop cc fuel (rewriter.RecordTreeGroups expr).1
      (rewriter.RecordTreeGroups expr).2 with
  | done rewritten =>
    rw [hloop] at h
    simp only at h
    cases hbuild : rewritten.RebuildExpression fuel (rewriter.RecordTreeGroups expr).2 with
    | done built =>
      rw [hbuild] at h
      simp only [Outcome.done.injEq, Prod.mk.injEq] at h
      exact h.2.symm
    | aborted => rw [hbuild] at h; simp at h
    | outOfFuel => rw [hbuild] at h; simp at h
  | aborted => rw [hloop] at h; simp at h
  | outOfFuel => rw [hloop] at h; simp at h

/-! ## Idempotence -/

set_option maxRecDepth 1000000 in
/-- Refutation of C20 as stated, with the type system that compares values of
equal types: `((A.B = 1) AND (A.B = 2)) = FALSE` is rewritten to `FALSE = FALSE`,
because the comparison of constants is folded before the conjunction is
rewritten to FALSE; and `FALSE = FALSE` is rewritten to `TRUE`, which is not
exactly equal to `FALSE = FALSE`. -/
theorem rewriteExpression_not_idempotent :
    (∀ fuel : Nat, 66 ≤ fuel →
      Rewriter.RewriteExpression sameTypeComparable fuel Rewriter.new
          (some (expression.ComparisonExpression ExpressionType.COMPARE_EQUAL
            (some (CreateTransitiveExpression (columnRef "A" "B" none) (GetConstantExpression 1)
              (columnRef "A" "B" none) (GetConstantExpression 2)))
            (some (expression.ConstantValueExpression
              (ValueFactory.GetBooleanValueOfBool false))))) =
        Outcome.done (some (expression.ComparisonExpression ExpressionType.COMPARE_EQUAL
          (some (expression.ConstantValueExpression (ValueFactory.GetBooleanValueOfBool false)))
          (some (expression.ConstantValueExpression
            (ValueFactory.GetBooleanValueOfBool false)))), Rewriter.new)) ∧
    (∀ fuel : Nat, 18 ≤ fuel →
      Rewriter.RewriteExpression sameTypeComparable fuel Rewriter.new
          (some (expression.ComparisonExpression ExpressionType.COMPARE_EQUAL
            (some (expression.ConstantValueExpression (ValueFactory.GetBooleanValueOfBool false)))
            (some (expression.ConstantValueExpression
              (ValueFactory.GetBooleanValueOfBool false))))) =
        Outcome.done (some (expression.ConstantValueExpression
          (ValueFactory.GetBooleanValueOfBool true)), Rewriter.new)) ∧
    (expression.ConstantValueExpression (ValueFactory.GetBooleanValueOfBool true)).ExactlyEquals
      (expression.ComparisonExpression ExpressionType.COMPARE_EQUAL
        (some (expression.ConstantValueExpression (ValueFactory.GetBooleanValueOfBool false)))
        (some (expression.ConstantValueExpression
          (ValueFactory.GetBooleanValueOfBool false)))) = false := by
  refine ⟨?_, ?_, by decide⟩
  · intro fuel hfuel
    obtain ⟨k, rfl⟩ := Nat.exists_eq_add_of_le hfuel
    exact rewriteExpression_mono sameTypeComparable 66 k Rewriter.new _ _
      (rewriteExpression_of_returnsTree sameTypeComparable 66 Rewriter.new _ _ (by decide!))
  · intro fuel hfuel
    obtain ⟨k, rfl⟩ := Nat.exists_eq_add_of_le hfuel
    exact rewriteExpression_mono sameTypeComparable 18 k Rewriter.new _ _
      (rewriteExpression_of_returnsTree sameTypeComparable 18 Rewriter.new _ _ (by decide!))

/-! ## The rewriter facade -/

/-- C23: after `RewriteExpression` returns for a non-null input, the rewriter is the
freshly constructed one, its memo being empty; hence a later call on it, with
any fuel and any input, gives what the call gives on a new `Rewriter`. -/
theorem rewriteExpression_keeps_no_state (cc : Comparability) (fuel : Nat)
    (rewriter after : Rewriter) (expr : AbstractExpression) (tree : Option AbstractExpression)
    (h : Rewriter.RewriteExpression cc fuel rewriter (some expr) = Outcome.done (tree, after)) :
    after = Rewriter.new ∧ after.metadata_.memo = Memo.empty ∧
    ∀ (later_fuel : Nat) (later : Option AbstractExpression),
      Rewriter.RewriteExpression cc later_fuel after later =
        Rewriter.RewriteExpression cc later_fuel Rewriter.new later := by
  have hafter := rewriteExpression_resets cc fuel rewriter after expr tree h
  subst hafter
  exact ⟨rfl, rfl, fun _ _ => rfl⟩

set_option maxRecDepth 1000000 in
/-- Witness of C23: a rewriter whose memo already holds a group rewrites `1 = 2` to
FALSE and is left with the empty memo. -/
theorem rewriteExpression_keeps_no_state_witness :
    Rewriter.RewriteExpression sameTypeComparable 30
        ⟨⟨⟨[⟨[⟨andOp, []⟩]⟩]⟩, RuleSet.forExpressions⟩⟩
        (some (expression.ComparisonExpression ExpressionType.COMPARE_EQUAL
          (some (GetConstantExpression 1)) (some (GetConstantExpression 2)))) =
      Outcome.done (some (expression.ConstantValueExpression
        (ValueFactory.GetBooleanValueOfBool false)), Rewriter.new) ∧
    Rewriter.new.metadata_.memo = Memo.empty :=
  have hfirst := rewriteExpression_of_returnsTree sameTypeComparable 30
    ⟨⟨⟨[⟨[⟨andOp, []⟩]⟩]⟩, RuleSet.forExpressions⟩⟩
    (expression.ComparisonExpression ExpressionType.COMPARE_EQUAL
      (some (GetConstantExpression 1)) (some (GetConstantExpression 2)))
    (expression.ConstantValueExpression (ValueFactory.GetBooleanValueOfBool false)) (by decide!)
  ⟨hfirst,
    (rewriteExpression_keeps_no_state sameTypeComparable 30
      ⟨⟨⟨[⟨[⟨andOp, []⟩]⟩]⟩, RuleSet.forExpressions⟩⟩ Rewriter.new
      (expression.ComparisonExpression ExpressionType.COMPARE_EQUAL
        (some (GetConstantExpression 1)) (some (GetConstantExpression 2)))
      (some (expression.ConstantValueExpression (ValueFactory.GetBooleanValueOfBool false)))
      hfirst).2.1⟩

/-- Refutation of C24 as stated: the tasks that `RewriteLoop` pushes for the root
group 0 are not in the order that the claim gives; the first task pushed is the
`TopDownRewrite` of `BOOLEAN_SHORT_CIRCUIT`, and the first task popped is the
`TopDownRewrite` of `EQUIVALENT_TRANSFORM`. -/
theorem rewriteLoop_order_differs :
    Rewriter.initialTasks 0 ≠ specifiedTasks 0 ∧
    (Rewriter.initialTasks 0).head? =
      some (OptimizerTask.TopDownRewrite 0 RewriteRuleSetName.BOOLEAN_SHORT_CIRCUIT true) ∧
    (specifiedTasks 0).head? =
      some (OptimizerTask.TopDownRewrite 0 RewriteRuleSetName.EQUIVALENT_TRANSFORM false) ∧
    (Rewriter.seedTaskStack 0).head? =
      some (OptimizerTask.TopDownRewrite 0 RewriteRuleSetName.EQUIVALENT_TRANSFORM false) := by
  decide

/-- C24, amended: `RewriteLoop` pushes exactly five tasks in this order:
`TopDownRewrite(root, BOOLEAN_SHORT_CIRCUIT, replace=true)`,
`BottomUpRewrite(root, TRANSITIVE_TRANSFORM)`,
`BottomUpRewrite(root, COMPARATOR_ELIMINATION)`, `BottomUpRewrite(root, NULL_LOOKUP)`,
`TopDownRewrite(root, EQUIVALENT_TRANSFORM, replace=false)`; the stack pops them
in the reverse of that order, which is the order that the claim gives for the
pushes. -/
theorem rewriteLoop_pushes (root : GroupID) :
    Rewriter.initialTasks root =
      [OptimizerTask.TopDownRewrite root RewriteRuleSetName.BOOLEAN_SHORT_CIRCUIT true,
       OptimizerTask.BottomUpRewrite root RewriteRuleSetName.TRANSITIVE_TRANSFORM false,
       OptimizerTask.BottomUpRewrite root RewriteRuleSetName.COMPARATOR_ELIMINATION false,
       OptimizerTask.BottomUpRewrite root RewriteRuleSetName.NULL_LOOKUP false,
       OptimizerTask.TopDownRewrite root RewriteRuleSetName.EQUIVALENT_TRANSFORM false] ∧
    (Rewriter.initialTasks root).length = 5 ∧
    Rewriter.seedTaskStack root = (Rewriter.initialTasks root).reverse ∧
    Rewriter.seedTaskStack root = specifiedTasks root :=
  ⟨rfl, rfl, rfl, rfl⟩

/-! ## `CopyWithChildren` and `operator==` -/

set_option maxHeartbeats 4000000 in
set_option maxRecDepth 100000 in
/-- A comparison whose only child is a column reference passes through the five
passes unchanged: no rule matches it, and `RebuildExpression` builds it again. -/
theorem rewrite_one_child_comparison (cc : Comparability) (type : ExpressionType)
    (htype : type ∈ comparisonTags.take 6) (table_name col_name : String)
    (bound_oid : Option Nat) (fuel : Nat) (hfuel : 16 ≤ fuel) :
    Rewriter.RewriteExpression cc fuel Rewriter.new
        (some (expression.ComparisonExpression type
          (some (columnRef table_name col_name bound_oid)) none)) =
      Outcome.done (some (AbstractExpression.mk type ExprClass.ComparisonExpression
        [columnRef table_name col_name bound_oid]), Rewriter.new) := by
  obtain ⟨n, rfl⟩ := Nat.exists_eq_add_of_le' hfuel
  simp only [comparisonTags, List.take, List.mem_cons, List.mem_singleton, List.not_mem_nil,
    or_false] at htype
  rcases htype with rfl | rfl | rfl | rfl | rfl | rfl
  all_goals
    apply rewrite_stages
    · simp [Rewriter.RecordTreeGroups, Rewriter.ConvertToAbsExpr.eq_1,
        Rewriter.ConvertChildren.eq_1, Rewriter.ConvertChildren.eq_2,
        expression.ComparisonExpression, columnRef, Rewriter.new, OptimizerMetadata.fresh,
        Memo.RecordExpression.eq_1, Memo.RecordChildren.eq_1, Memo.RecordChildren.eq_2,
        Memo.markedGroup, Memo.InsertExpression, Memo.findDuplicate, Memo.empty,
        AbsExpr_Expression.Op, AbsExpr_Container.GetExpr, GroupExpression.operator_eq,
        AbsExpr_Container.operator_eq, AbsExpr_Container.IsDefined]
      exact ⟨rfl, rfl⟩
    · simp only [Rewriter.seedTaskStack, Rewriter.initialTasks, OptimizerTaskStack.Push,
        OptimizerTask.newTopDownRewrite, OptimizerTask.SetReplaceOnTransform, List.foldl]
      repeat
        apply drain_step
        · simp [OptimizerTaskStack.Push, OptimizerTask.execute, OptimizeCurrentGroup,
          validRules_equivalent, validRules_null_lookup, validRules_comparator,
          validRules_transitive, validRules_short_circuit, foldlAbort, applyRuleToGroup_mk,
          Memo.GetGroupByID, bindGroupExpression.eq_1, Rule.GetMatchPattern,
          ComparatorElimination.match_pattern, EquivalentTransform.match_pattern,
          TVEqualityWithTwoCVTransform.match_pattern,
          TransitiveClosureConstantTransform.match_pattern, AndShortCircuit.match_pattern,
          OrShortCircuit.match_pattern, andOfEqualsPattern, Pattern.leaf, Pattern.type,
          AbsExpr_Container.GetType, AbstractExpression.GetExpressionType,
          GetUniqueChildGroupIDs, insertGroupID.eq_1, insertGroupID.eq_2]
          exact ⟨rfl, rfl⟩
      exact drain_nil _ _ _
    · rw [Rewriter.RebuildExpression.eq_2]
      simp [Rewriter.RebuildExpression.eq_2, Outcome.mapList, AbsExpr_Container.CopyWithChildren,
        AbsExpr_Container.GetType, AbstractExpression.GetExpressionType,
        expression.ComparisonExpression, columnRef]

set_option maxRecDepth 1000000 in
/-- Refutation of C25 as stated: for the tag `COMPARE_EQUAL` and the single child
`A.B`, `CopyWithChildren` returns a comparison with that one child, and
`RewriteExpression` on the comparison whose only child is `A.B` returns that
comparison; neither aborts. -/
theorem copyWithChildren_one_child_returns :
    equalOp.CopyWithChildren [columnRef "A" "B" none] =
      some (AbstractExpression.mk ExpressionType.COMPARE_EQUAL ExprClass.ComparisonExpression
        [columnRef "A" "B" none]) ∧
    (∀ fuel : Nat, 16 ≤ fuel →
      Rewriter.RewriteExpression sameTypeComparable fuel Rewriter.new
          (some (expression.ComparisonExpression ExpressionType.COMPARE_EQUAL
            (some (columnRef "A" "B" none)) none)) =
        Outcome.done (some (AbstractExpression.mk ExpressionType.COMPARE_EQUAL
          ExprClass.ComparisonExpression [columnRef "A" "B" none]), Rewriter.new)) := by
  refine ⟨rfl, ?_⟩
  intro fuel hfuel
  obtain ⟨k, rfl⟩ := Nat.exists_eq_add_of_le hfuel
  exact rewriteExpression_mono sameTypeComparable 16 k Rewriter.new _ _
    (rewriteExpression_of_returnsTree sameTypeComparable 16 Rewriter.new _ _ (by decide!))

/-- C25, amended: a comparison node with a single child is not rejected.  For each
of the comparison tags, `CopyWithChildren` given one child returns the
comparison node of that tag whose only child is the given one, and given no
child the comparison without children: the branch asserts nothing.  For each
of the six tags `=`, `!=`, `<`, `>`, `<=`, `>=`, `RewriteExpression` on the
comparison whose only child is a column reference returns that comparison, for
every fuel of at least 16 tasks. -/
theorem copyWithChildren_comparison (c : AbsExpr_Container) (child : AbstractExpression) :
    (c.GetType ∈ comparisonTags →
      c.CopyWithChildren [child] =
        some (AbstractExpression.mk c.GetType ExprClass.ComparisonExpression [child]) ∧
      c.CopyWithChildren [] =
        some (AbstractExpression.mk c.GetType ExprClass.ComparisonExpression [])) ∧
    ∀ type : ExpressionType, type ∈ comparisonTags.take 6 →
      ∀ (cc : Comparability) (table_name col_name : String) (bound_oid : Option Nat)
        (fuel : Nat), 16 ≤ fuel →
      Rewriter.RewriteExpression cc fuel Rewriter.new
          (some (expression.ComparisonExpression type
            (some (columnRef table_name col_name bound_oid)) none)) =
        Outcome.done (some (AbstractExpression.mk type ExprClass.ComparisonExpression
          [columnRef table_name col_name bound_oid]), Rewriter.new) := by
  constructor
  · intro htag
    simp only [comparisonTags, List.mem_cons, List.mem_singleton, List.not_mem_nil,
      or_false] at htag
    rcases htag with h | h | h | h | h | h | h | h | h | h <;>
      simp [AbsExpr_Container.CopyWithChildren, h, expression.ComparisonExpression]
  · intro type htype cc table_name col_name bound_oid fuel hfuel
    exact rewrite_one_child_comparison cc type htype table_name col_name bound_oid fuel hfuel

/-- C26: the member `AbsExpr_Container::operator==` answers false for two defined
containers, also for a container compared with itself: the container of the
constant 1 is not equal to itself, and two group-expressions with this operator
and the same children are not duplicates of each other. -/
theorem operator_eq_defined_is_false :
    (AbsExpr_Container.mk (some (GetConstantExpression 1))).operator_eq
      (AbsExpr_Container.mk (some (GetConstantExpression 1))) = false ∧
    (GroupExpression.mk ⟨some (GetConstantExpression 1)⟩ []).operator_eq
      (GroupExpression.mk ⟨some (GetConstantExpression 1)⟩ []) = false ∧
    (∀ l r : AbsExpr_Container, l.IsDefined = true → r.IsDefined = true →
      l.operator_eq r = false) ∧
    (∀ l r : AbsExpr_Container, l.IsDefined = false → r.IsDefined = false →
      l.operator_eq r = true) := by
  refine ⟨rfl, rfl, ?_, ?_⟩
  · intro l r hl hr
    simp [AbsExpr_Container.operator_eq, hl, hr]
  · intro l r hl hr
    simp [AbsExpr_Container.operator_eq, hl, hr]

/-- C27: for a container whose node carries a tag that `CopyWithChildren` does not
implement (`OPERATOR_CAST`, `COLUMN_REF` and the other tags of the last case
group, and the tags that fall to `default`), `CopyWithChildren` returns the
wrapped node, whatever the list of children. -/
theorem copyWithChildren_unimplemented (c : AbsExpr_Container) (node : AbstractExpression)
    (children : List AbstractExpression) (hnode : c.GetExpr = some node)
    (htag : node.GetExpressionType ∈ unimplementedTags) :
    c.CopyWithChildren children = some node := by
  obtain ⟨n⟩ := c
  simp only [AbsExpr_Container.GetExpr] at hnode
  subst hnode
  simp only [unimplementedTags, List.mem_cons, List.mem_singleton, List.not_mem_nil,
    or_false] at htag
  rcases htag with h | h | h | h | h | h | h | h | h | h | h | h | h <;>
    simp [AbsExpr_Container.CopyWithChildren, AbsExpr_Container.GetType, h]

/-- Witness of C27: a node tagged `OPERATOR_CAST` and two supplied children. -/
theorem copyWithChildren_unimplemented_witness :
    (AbstractExpression.mk ExpressionType.OPERATOR_CAST (ExprClass.OperatorExpression
      TypeId.INTEGER) []).GetExpressionType ∈ unimplementedTags ∧
    (AbsExpr_Container.mk (some (AbstractExpression.mk ExpressionType.OPERATOR_CAST
        (ExprClass.OperatorExpression TypeId.INTEGER) []))).CopyWithChildren
        [GetConstantExpression 1, GetConstantExpression 2] =
      some (AbstractExpression.mk ExpressionType.OPERATOR_CAST
        (ExprClass.OperatorExpression TypeId.INTEGER) []) :=
  ⟨by decide,
    copyWithChildren_unimplemented
      ⟨some (AbstractExpression.mk ExpressionType.OPERATOR_CAST
        (ExprClass.OperatorExpression TypeId.INTEGER) [])⟩
      (AbstractExpression.mk ExpressionType.OPERATOR_CAST
        (ExprClass.OperatorExpression TypeId.INTEGER) [])
      [GetConstantExpression 1, GetConstantExpression 2] rfl (by decide)⟩

/-! ## Promises and the registered rules -/

/-- Refutation of C28 as stated: the two rules of `TRANSITIVE_TRANSFORM` have the
promise 1 and the rule ids 9 and 10, and neither `operator>` nor `operator<` of
`RuleWithPromise` places the one with the smaller rule id before the other. -/
theorem ruleWithPromise_ties_unordered :
    (RuleWithPromise.mk Rule.TVEqualityWithTwoCVTransform 1).promise =
      (RuleWithPromise.mk Rule.TransitiveClosureConstantTransform 1).promise ∧
    Rule.TVEqualityWithTwoCVTransform.GetRuleIdx <
      Rule.TransitiveClosureConstantTransform.GetRuleIdx ∧
    (RuleWithPromise.mk Rule.TVEqualityWithTwoCVTransform 1).gt
      (RuleWithPromise.mk Rule.TransitiveClosureConstantTransform 1) = false ∧
    (RuleWithPromise.mk Rule.TVEqualityWithTwoCVTransform 1).lt
      (RuleWithPromise.mk Rule.TransitiveClosureConstantTransform 1) = false ∧
    (RuleWithPromise.mk Rule.TransitiveClosureConstantTransform 1).gt
      (RuleWithPromise.mk Rule.TVEqualityWithTwoCVTransform 1) = false ∧
    (RuleWithPromise.mk Rule.TransitiveClosureConstantTransform 1).lt
      (RuleWithPromise.mk Rule.TVEqualityWithTwoCVTransform 1) = false := by
  decide

/-- C28, amended: the comparison operators of `RuleWithPromise` order two values by
promise alone: `operator>` holds exactly when the promise of the left value is
the greater and `operator<` exactly when it is the smaller, so that a rule of
higher promise is placed first under the descending order; for two values of
equal promise neither operator holds in either direction, whatever the rule
ids. -/
theorem ruleWithPromise_orders_by_promise (l r : RuleWithPromise) :
    (l.gt r = true ↔ l.promise > r.promise) ∧
    (l.lt r = true ↔ l.promise < r.promise) ∧
    (l.promise = r.promise →
      l.gt r = false ∧ r.gt l = false ∧ l.lt r = false ∧ r.lt l = false) := by
  refine ⟨by simp [RuleWithPromise.gt], by simp [RuleWithPromise.lt], ?_⟩
  intro h
  simp [RuleWithPromise.gt, RuleWithPromise.lt, h]

/-- Refutation of C29 as stated: for the rule `ComparatorElimination` of `=`, whose
pattern has the root `COMPARE_EQUAL`, and a group expression whose operator is
an `AND`, `Promise` returns 2, not 0; likewise the flip of `=` returns 3 and
the two transitive rules, whose patterns have the root `CONJUNCTION_AND`,
return 1 for a group expression whose operator is an `Equal`. -/
theorem rewrite_rule_promise_not_zero :
    (Rule.ComparatorElimination RuleType.CONSTANT_COMPARE_EQUAL
      ExpressionType.COMPARE_EQUAL).GetMatchPattern.type ≠ andOp.GetType ∧
    (Rule.ComparatorElimination RuleType.CONSTANT_COMPARE_EQUAL
      ExpressionType.COMPARE_EQUAL).PromiseFor ⟨andOp, [0, 1]⟩ = 2 ∧
    (Rule.EquivalentTransform RuleType.EQUIV_COMPARE_EQUAL
      ExpressionType.COMPARE_EQUAL).PromiseFor ⟨andOp, [0, 1]⟩ = 3 ∧
    Rule.TVEqualityWithTwoCVTransform.GetMatchPattern.type ≠ equalOp.GetType ∧
    Rule.TVEqualityWithTwoCVTransform.PromiseFor ⟨equalOp, [0, 1]⟩ = 1 ∧
    Rule.TransitiveClosureConstantTransform.PromiseFor ⟨equalOp, [0, 1]⟩ = 1 := by
  decide

/-- C29, amended: for an operator rule, `Promise` returns 0 for every group
expression whose operator tag differs from the root tag of the match pattern
of the rule, the root not being the wildcard `Leaf`, and otherwise
`PHYS_PROMISE` for a physical rule and `LOG_PROMISE` for any other.  The
rewrite rules over expressions override `Promise`: for every group expression,
whatever its operator tag, `ComparatorElimination` returns 2 (MEDIUM),
`EquivalentTransform` returns 3 (HIGH) and the two transitive rules return 1
(LOW). -/
theorem promise_by_rule_kind {OpType : Type} [DecidableEq OpType]
    (Leaf root_type group_type : OpType) (is_physical : Bool) (group_expr : GroupExpression)
    (rule : RuleType) (root : ExpressionType) :
    (root_type ≠ Leaf → root_type ≠ group_type →
      operatorRulePromise Leaf root_type group_type is_physical = 0) ∧
    (root_type = Leaf ∨ root_type = group_type →
      operatorRulePromise Leaf root_type group_type is_physical =
        if is_physical then PHYS_PROMISE else LOG_PROMISE) ∧
    (Rule.ComparatorElimination rule root).PromiseFor group_expr = 2 ∧
    (Rule.EquivalentTransform rule root).PromiseFor group_expr = 3 ∧
    Rule.TVEqualityWithTwoCVTransform.PromiseFor group_expr = 1 ∧
    Rule.TransitiveClosureConstantTransform.PromiseFor group_expr = 1 := by
  refine ⟨?_, ?_, rfl, rfl, rfl, rfl⟩
  · intro h1 h2
    simp [operatorRulePromise, h1, h2]
  · intro h
    rcases h with h | h <;> simp [operatorRulePromise, h]

/-- C30: the rule set of the expression rules registers exactly six rules under
`COMPARATOR_ELIMINATION`, one for each of `=`, `!=`, `<`, `>`, `<=`, `>=`, in this
order; in each, the root of the match pattern is the comparison tag paired with
the rule type, and the comparison that the rule type selects in `Transform` is
the comparison that this tag denotes. -/
theorem comparator_rules_registered :
    RuleSet.forExpressions.GetRewriteRulesByName RewriteRuleSetName.COMPARATOR_ELIMINATION =
      [Rule.ComparatorElimination RuleType.CONSTANT_COMPARE_EQUAL ExpressionType.COMPARE_EQUAL,
       Rule.ComparatorElimination RuleType.CONSTANT_COMPARE_NOTEQUAL
         ExpressionType.COMPARE_NOTEQUAL,
       Rule.ComparatorElimination RuleType.CONSTANT_COMPARE_LESSTHAN
         ExpressionType.COMPARE_LESSTHAN,
       Rule.ComparatorElimination RuleType.CONSTANT_COMPARE_GREATERTHAN
         ExpressionType.COMPARE_GREATERTHAN,
       Rule.ComparatorElimination RuleType.CONSTANT_COMPARE_LESSTHANOREQUALTO
         ExpressionType.COMPARE_LESSTHANOREQUALTO,
       Rule.ComparatorElimination RuleType.CONSTANT_COMPARE_GREATERTHANOREQUALTO
         ExpressionType.COMPARE_GREATERTHANOREQUALTO] ∧
    (RuleSet.forExpressions.GetRewriteRulesByName
      RewriteRuleSetName.COMPARATOR_ELIMINATION).length = 6 ∧
    ∀ r : Rule, r ∈ RuleSet.forExpressions.GetRewriteRulesByName
        RewriteRuleSetName.COMPARATOR_ELIMINATION →
      ∃ (rule : RuleType) (root : ExpressionType) (rel : Int → Int → Bool),
        r = Rule.ComparatorElimination rule root ∧ r.GetType = rule ∧
        r.GetMatchPattern.type = root ∧ comparisonRelation root = some rel ∧
        ∀ lvalue rvalue : Value,
          ComparatorElimination.compare rule lvalue rvalue =
            some (Value.compareWith rel lvalue rvalue) := by
  have hrules : RuleSet.forExpressions.GetRewriteRulesByName
      RewriteRuleSetName.COMPARATOR_ELIMINATION =
      [Rule.ComparatorElimination RuleType.CONSTANT_COMPARE_EQUAL ExpressionType.COMPARE_EQUAL,
       Rule.ComparatorElimination RuleType.CONSTANT_COMPARE_NOTEQUAL
         ExpressionType.COMPARE_NOTEQUAL,
       Rule.ComparatorElimination RuleType.CONSTANT_COMPARE_LESSTHAN
         ExpressionType.COMPARE_LESSTHAN,
       Rule.ComparatorElimination RuleType.CONSTANT_COMPARE_GREATERTHAN
         ExpressionType.COMPARE_GREATERTHAN,
       Rule.ComparatorElimination RuleType.CONSTANT_COMPARE_LESSTHANOREQUALTO
         ExpressionType.COMPARE_LESSTHANOREQUALTO,
       Rule.ComparatorElimination RuleType.CONSTANT_COMPARE_GREATERTHANOREQUALTO
         ExpressionType.COMPARE_GREATERTHANOREQUALTO] := by
    decide
  refine ⟨hrules, by rw [hrules]; rfl, ?_⟩
  intro r hr
  have hmem := hr
  rw [hrules] at hr
  simp only [List.mem_cons, List.mem_singleton, List.not_mem_nil, or_false] at hr
  have key : ∀ (rule : RuleType) (root : ExpressionType) (rel : Int → Int → Bool),
      Rule.ComparatorElimination rule root ∈ RuleSet.forExpressions.GetRewriteRulesByName
        RewriteRuleSetName.COMPARATOR_ELIMINATION →
      comparisonRelation root = some rel →
      ∀ lvalue rvalue : Value,
        ComparatorElimination.compare rule lvalue rvalue =
          some (Value.compareWith rel lvalue rvalue) := by
    intro rule root rel hin hrel lvalue rvalue
    obtain ⟨rel2, hrel2, hcompare⟩ := compare_relation rule root hin lvalue rvalue
    rw [hrel] at hrel2
    simp only [Option.some.injEq] at hrel2
    rw [hcompare, hrel2]
  rcases hr with rfl | rfl | rfl | rfl | rfl | rfl
  · exact ⟨RuleType.CONSTANT_COMPARE_EQUAL, ExpressionType.COMPARE_EQUAL,
      fun a b => decide (a = b), rfl, rfl, rfl, rfl, key _ _ _ hmem rfl⟩
  · exact ⟨RuleType.CONSTANT_COMPARE_NOTEQUAL, ExpressionType.COMPARE_NOTEQUAL,
      fun a b => decide (a ≠ b), rfl, rfl, rfl, rfl, key _ _ _ hmem rfl⟩
  · exact ⟨RuleType.CONSTANT_COMPARE_LESSTHAN, ExpressionType.COMPARE_LESSTHAN,
      fun a b => decide (a < b), rfl, rfl, rfl, rfl, key _ _ _ hmem rfl⟩
  · exact ⟨RuleType.CONSTANT_COMPARE_GREATERTHAN, ExpressionType.COMPARE_GREATERTHAN,
      fun a b => decide (a > b), rfl, rfl, rfl, rfl, key _ _ _ hmem rfl⟩
  · exact ⟨RuleType.CONSTANT_COMPARE_LESSTHANOREQUALTO, ExpressionType.COMPARE_LESSTHANOREQUALTO,
      fun a b => decide (a ≤ b), rfl, rfl, rfl, rfl, key _ _ _ hmem rfl⟩
  · exact ⟨RuleType.CONSTANT_COMPARE_GREATERTHANOREQUALTO,
      ExpressionType.COMPARE_GREATERTHANOREQUALTO,
      fun a b => decide (a ≥ b), rfl, rfl, rfl, rfl, key _ _ _ hmem rfl⟩

/-! ## Termination -/

theorem rankOf_append (ranks ext : List Nat) (id : GroupID) (h : id < ranks.length) :
    rankOf (ranks ++ ext) id = rankOf ranks id := by
  unfold rankOf
  exact List.getD_append ranks ext 0 id h

theorem rankOf_extend {ranks later : List Nat} (hext : ranks <+: later) (id : GroupID)
    (h : id < ranks.length) : rankOf later id = rankOf ranks id := by
  obtain ⟨ext, rfl⟩ := hext
  exact rankOf_append ranks ext id h

theorem markedGroup_mk (op : AbsExpr_Container) (children : List AbsExpr_Expression) :
    Memo.markedGroup (AbsExpr_Expression.mk op children) = markerOf op := rfl

theorem rankedBelow_mono {arity : Nat} {ranks : List Nat} {bound later : Nat}
    {e : GroupExpression} (h : e.rankedBelow arity ranks bound) (hle : bound ≤ later) :
    e.rankedBelow arity ranks later := by
  obtain ⟨hdefined, harity, hchildren, hmarker⟩ := h
  refine ⟨hdefined, harity, ?_, ?_⟩
  · intro c hc
    exact ⟨(hchildren c hc).1, Nat.lt_of_lt_of_le (hchildren c hc).2 hle⟩
  · intro id hid
    exact ⟨(hmarker id hid).1, Nat.lt_of_lt_of_le (hmarker id hid).2 hle⟩

theorem rankedBelow_extend {arity : Nat} {ranks later : List Nat} {bound : Nat}
    {e : GroupExpression} (h : e.rankedBelow arity ranks bound) (hext : ranks <+: later) :
    e.rankedBelow arity later bound := by
  obtain ⟨hdefined, harity, hchildren, hmarker⟩ := h
  have hlen := hext.length_le
  refine ⟨hdefined, harity, ?_, ?_⟩
  · intro c hc
    obtain ⟨h1, h2⟩ := hchildren c hc
    exact ⟨Nat.lt_of_lt_of_le h1 hlen, by rw [rankOf_extend hext c h1]; exact h2⟩
  · intro id hid
    obtain ⟨h1, h2⟩ := hmarker id hid
    exact ⟨Nat.lt_of_lt_of_le h1 hlen, by rw [rankOf_extend hext id h1]; exact h2⟩

theorem fits_mono {arity : Nat} {ranks : List Nat} {bound : Nat} {e : AbsExpr_Expression}
    (h : Fits arity ranks bound e) : ∀ later : Nat, bound ≤ later → Fits arity ranks later e := by
  induction h with
  | node bound op children hdefined hmarker hplain harity _ ih =>
    intro later hle
    refine Fits.node later op children hdefined ?_ ?_ harity ?_
    · intro id hid
      exact ⟨(hmarker id hid).1, Nat.lt_of_lt_of_le (hmarker id hid).2 hle⟩
    · intro hnone
      exact Nat.lt_of_lt_of_le (hplain hnone) hle
    · intro child hchild
      exact ih child hchild (later - 1) (Nat.sub_le_sub_right hle 1)

theorem fits_arity_mono {arity : Nat} {ranks : List Nat} {bound : Nat} {e : AbsExpr_Expression}
    (h : Fits arity ranks bound e) : ∀ wider : Nat, arity ≤ wider → Fits wider ranks bound e := by
  induction h with
  | node bound op children hdefined hmarker hplain harity _ ih =>
    intro wider hle
    exact Fits.node bound op children hdefined hmarker hplain (Nat.le_trans harity hle)
      (fun child hchild => ih child hchild wider hle)

/-- An expression that fits below a rank fits a group of that rank. -/
theorem rootFits_of_fits {arity : Nat} {ranks : List Nat} {bound : Nat} {e : AbsExpr_Expression}
    (h : Fits arity ranks bound e) : RootFits arity ranks bound e := by
  cases h with
  | node _ op children hdefined hmarker hplain harity hchildren =>
    exact ⟨hdefined, hmarker, harity,
      fun child hchild => fits_mono (hchildren child hchild) bound (Nat.sub_le bound 1)⟩

/-- An expression that fits a group fits below every greater rank. -/
theorem fits_of_rootFits {arity : Nat} {ranks : List Nat} {bound later : Nat}
    {e : AbsExpr_Expression} (h : RootFits arity ranks bound e) (hlt : bound < later) :
    Fits arity ranks later e := by
  obtain ⟨op, children⟩ := e
  obtain ⟨hdefined, hmarker, harity, hchildren⟩ := h
  refine Fits.node later op children hdefined ?_ (fun _ => Nat.lt_of_le_of_lt (Nat.zero_le _) hlt)
    harity (fun child hchild => fits_mono (hchildren child hchild) (later - 1) (by omega))
  intro id hid
  exact ⟨(hmarker id hid).1, Nat.lt_trans (hmarker id hid).2 hlt⟩

/-- The copy of the container of an expression, without children, fits where the
expression fits. -/
theorem fits_ofContainer {arity : Nat} {ranks : List Nat} {bound : Nat} {e : AbsExpr_Expression}
    (h : Fits arity ranks bound e) : Fits arity ranks bound (AbsExpr_Expression.ofContainer e.Op) := by
  cases h with
  | node _ op children hdefined hmarker hplain harity hchildren =>
    exact Fits.node bound op [] hdefined hmarker hplain (Nat.zero_le _)
      (fun child hchild => absurd hchild (List.not_mem_nil child))

/-- No group-expression of a ranked memo is a duplicate of another: the operators
of a ranked memo are defined, and `operator==` is false on defined operators. -/
theorem findDuplicate_ranked {arity : Nat} {ranks : List Nat} {memo : Memo}
    (h : memo.ranked arity ranks) (gexpr : GroupExpression) : memo.findDuplicate gexpr = none := by
  unfold Memo.findDuplicate
  rw [List.findIdx?_eq_none_iff]
  intro G hG
  obtain ⟨g, hg⟩ := List.mem_iff_getElem?.1 hG
  rw [Bool.eq_false_iff]
  intro hany
  rw [List.any_eq_true] at hany
  obtain ⟨e, he, heq⟩ := hany
  have hdefined := (h.2 g G hg e he).1
  simp [GroupExpression.operator_eq, AbsExpr_Container.operator_eq, hdefined] at heq

/-- A group-expression that lies below a rank, inserted with a new group of that
rank, keeps the memo ranked. -/
theorem insertExpression_none_ranked {arity : Nat} {ranks : List Nat} {memo : Memo}
    (h : memo.ranked arity ranks) (gexpr : GroupExpression) (rank : Nat)
    (hgexpr : gexpr.rankedBelow arity ranks rank) :
    (memo.InsertExpression gexpr none).2 = ranks.length ∧
    (memo.InsertExpression gexpr none).1.ranked arity (ranks ++ [rank]) := by
  unfold Memo.InsertExpression
  rw [findDuplicate_ranked h gexpr]
  refine ⟨h.1.symm, ?_, ?_⟩
  · simp [h.1]
  · intro g G hg e he
    simp only at hg
    by_cases hlt : g < memo.groups.length
    · rw [List.getElem?_append_left hlt] at hg
      have hold := h.2 g G hg e he
      rw [rankOf_append ranks [rank] g (by rw [h.1]; exact hlt)]
      exact rankedBelow_extend hold (List.prefix_append ranks [rank])
    · have hge : memo.groups.length ≤ g := Nat.le_of_not_lt hlt
      rw [List.getElem?_append_right hge] at hg
      have hzero : g - memo.groups.length = 0 := by
        by_contra hne
        have : 1 ≤ g - memo.groups.length := Nat.one_le_iff_ne_zero.2 hne
        rw [List.getElem?_eq_none (by simpa using this)] at hg
        exact Option.noConfusion hg
      rw [hzero] at hg
      simp only [List.getElem?_cons_zero, Option.some.injEq] at hg
      subst hg
      simp only [List.mem_singleton] at he
      subst he
      have hlen := h.1
      have hg_eq : g = ranks.length := by
        rw [hlen]; exact Nat.le_antisymm (Nat.le_of_sub_eq_zero hzero) hge
      have hrank : rankOf (ranks ++ [rank]) g = rank := by
        unfold rankOf
        rw [List.getD_append_right ranks [rank] 0 g (by rw [hg_eq]), hg_eq]
        simp
      rw [hrank]
      exact rankedBelow_extend hgexpr (List.prefix_append ranks [rank])

/-- A group-expression that lies below the rank of a group, inserted into that
group, keeps the memo ranked. -/
theorem insertExpression_target_ranked {arity : Nat} {ranks : List Nat} {memo : Memo}
    (h : memo.ranked arity ranks) (gexpr : GroupExpression) (g : GroupID)
    (hgexpr : gexpr.rankedBelow arity ranks (rankOf ranks g)) :
    (memo.InsertExpression gexpr (some g)).1.ranked arity ranks := by
  unfold Memo.InsertExpression
  rw [findDuplicate_ranked h gexpr]
  refine ⟨?_, ?_⟩
  · simp [h.1]
  · intro m G hm e he
    simp only [List.getElem?_modify] at hm
    cases hold : memo.groups[m]? with
    | none => rw [hold] at hm; simp at hm
    | some G0 =>
      rw [hold] at hm
      simp only [Option.map_eq_map, Option.map_some', Option.some.injEq] at hm
      by_cases hgm : g = m
      · subst hgm
        simp only [if_true] at hm
        subst hm
        simp only [List.mem_append, List.mem_singleton] at he
        rcases he with he | he
        · exact h.2 g G0 hold e he
        · subst he; exact hgexpr
      · simp only [hgm, if_false] at hm
        subst hm
        exact h.2 m G0 hold e he

/-- The contents of a group replaced by group-expressions that lie below the rank
of the group: the memo stays ranked. -/
theorem setGroup_ranked {arity : Nat} {ranks : List Nat} {memo : Memo}
    (h : memo.ranked arity ranks) (g : GroupID) (exprs : List GroupExpression)
    (hexprs : ∀ e ∈ exprs, e.rankedBelow arity ranks (rankOf ranks g)) :
    (memo.setGroup g exprs).ranked arity ranks := by
  unfold Memo.setGroup
  refine ⟨?_, ?_⟩
  · simp [h.1]
  · intro m G hm e he
    simp only [List.getElem?_modify] at hm
    cases hold : memo.groups[m]? with
    | none => rw [hold] at hm; simp at hm
    | some G0 =>
      rw [hold] at hm
      simp only [Option.map_eq_map, Option.map_some', Option.some.injEq] at hm
      by_cases hgm : g = m
      · subst hgm
        simp only [if_true] at hm
        subst hm
        exact hexprs e he
      · simp only [hgm, if_false] at hm
        subst hm
        exact h.2 m G0 hold e he

/-- The children of an expression recorded one after the other: when each child
fits below `bound` and each child that is no group marker is recorded into a
group of a rank below `bound`, the memo stays ranked and every child group has
a rank below `bound`. -/
theorem recordChildren_ranked (arity : Nat) (ranks₀ : List Nat) (bound : Nat) :
    ∀ (children : List AbsExpr_Expression),
      (∀ child, child ∈ children → Fits arity ranks₀ bound child) →
      (∀ child, child ∈ children → ∀ (memo : Memo) (ranks : List Nat),
        memo.ranked arity ranks → ranks₀ <+: ranks → Memo.markedGroup child = none →
        ∃ later : List Nat, ranks <+: later ∧
          (memo.RecordExpression child none).1.ranked arity later ∧
          (memo.RecordExpression child none).2 < later.length ∧
          rankOf later (memo.RecordExpression child none).2 < bound) →
      ∀ (memo : Memo) (ranks : List Nat), memo.ranked arity ranks → ranks₀ <+: ranks →
        ∃ later : List Nat, ranks <+: later ∧
          (memo.RecordChildren children).1.ranked arity later ∧
          (memo.RecordChildren children).2.length = children.length ∧
          ∀ id, id ∈ (memo.RecordChildren children).2 → id < later.length ∧ rankOf later id < bound := by
  intro children
  induction children with
  | nil =>
    intro _ _ memo ranks hranked _
    refine ⟨ranks, List.prefix_refl ranks, ?_, ?_, ?_⟩
    · rw [Memo.RecordChildren.eq_1]; exact hranked
    · rw [Memo.RecordChildren.eq_1]; rfl
    · rw [Memo.RecordChildren.eq_1]; intro id hid; exact absurd hid (List.not_mem_nil id)
  | cons child rest ih =>
    intro hfits hrec memo ranks hranked hext
    have hfits_rest : ∀ c, c ∈ rest → Fits arity ranks₀ bound c :=
      fun c hc => hfits c (List.mem_cons_of_mem child hc)
    have hrec_rest := fun c (hc : c ∈ rest) => hrec c (List.mem_cons_of_mem child hc)
    rw [Memo.RecordChildren.eq_2]
    cases hm : Memo.markedGroup child with
    | some id =>
      simp only
      obtain ⟨later, hlater, hranked2, hlen, hids⟩ := ih hfits_rest hrec_rest memo ranks hranked hext
      refine ⟨later, hlater, hranked2, by simp [hlen], ?_⟩
      intro x hx
      simp only [List.mem_cons] at hx
      rcases hx with hx | hx
      · subst hx
        have hchild := hfits child (List.mem_cons_self child rest)
        cases hchild with
        | node _ op cs hdefined hmarker hplain harity hchildren =>
          rw [markedGroup_mk] at hm
          obtain ⟨h1, h2⟩ := hmarker x hm
          have hp := hext.trans hlater
          exact ⟨Nat.lt_of_lt_of_le h1 hp.length_le, by rw [rankOf_extend hp x h1]; exact h2⟩
      · exact hids x hx
    | none =>
      simp only
      obtain ⟨later₁, hlater₁, hranked₁, hid₁, hrank₁⟩ :=
        hrec child (List.mem_cons_self child rest) memo ranks hranked hext hm
      obtain ⟨later, hlater, hranked2, hlen, hids⟩ :=
        ih hfits_rest hrec_rest (memo.RecordExpression child none).1 later₁ hranked₁
          (hext.trans hlater₁)
      refine ⟨later, hlater₁.trans hlater, hranked2, by simp [hlen], ?_⟩
      intro x hx
      simp only [List.mem_cons] at hx
      rcases hx with hx | hx
      · subst hx
        exact ⟨Nat.lt_of_lt_of_le hid₁ hlater.length_le, by rw [rankOf_extend hlater _ hid₁]; exact hrank₁⟩
      · exact hids x hx

/-- An expression that fits below `bound` and is no group marker is recorded into
a new group of a rank below `bound`, and the memo stays ranked. -/
theorem recordExpression_ranked {arity : Nat} {ranks₀ : List Nat} {bound : Nat}
    {e : AbsExpr_Expression} (h : Fits arity ranks₀ bound e) :
    ∀ (memo : Memo) (ranks : List Nat),
      memo.ranked arity ranks → ranks₀ <+: ranks → Memo.markedGroup e = none →
      ∃ later : List Nat, ranks <+: later ∧
        (memo.RecordExpression e none).1.ranked arity later ∧
        (memo.RecordExpression e none).2 < later.length ∧
        rankOf later (memo.RecordExpression e none).2 < bound := by
  induction h with
  | node bound op children hdefined hmarker hplain harity hchildren ih =>
    intro memo ranks hranked hext hnone
    rw [markedGroup_mk] at hnone
    have hpos := hplain hnone
    obtain ⟨later₁, hlater₁, hranked₁, hlen, hids⟩ :=
      recordChildren_ranked arity ranks₀ (bound - 1) children hchildren ih memo ranks hranked hext
    rw [Memo.RecordExpression.eq_1]
    have hgexpr : GroupExpression.rankedBelow arity later₁ (bound - 1)
        ⟨op, (memo.RecordChildren children).2⟩ := by
      refine ⟨hdefined, by simp only [hlen]; exact harity, hids, ?_⟩
      intro id hid
      simp only at hid
      rw [hnone] at hid
      exact Option.noConfusion hid
    obtain ⟨hid, hranked2⟩ := insertExpression_none_ranked hranked₁ _ (bound - 1) hgexpr
    refine ⟨later₁ ++ [bound - 1], hlater₁.trans (List.prefix_append later₁ _), hranked2, ?_, ?_⟩
    · rw [hid, List.length_append, List.length_singleton]
      exact Nat.lt_succ_self _
    · rw [hid]
      unfold rankOf
      rw [List.getD_append_right later₁ [bound - 1] 0 later₁.length (Nat.le_refl _)]
      simp only [Nat.sub_self, List.getD_cons_zero]
      exact Nat.sub_lt hpos Nat.one_pos

/-- An expression that fits a group, recorded into that group, keeps the memo
ranked. -/
theorem recordExpression_target_ranked {arity : Nat} {ranks₀ ranks : List Nat} {memo : Memo}
    (hranked : memo.ranked arity ranks) (hext : ranks₀ <+: ranks) (g : GroupID)
    (hg : g < ranks₀.length) (e : AbsExpr_Expression)
    (he : RootFits arity ranks₀ (rankOf ranks₀ g) e) :
    ∃ later : List Nat, ranks <+: later ∧ (memo.RecordExpression e (some g)).1.ranked arity later := by
  obtain ⟨op, children⟩ := e
  obtain ⟨hdefined, hmarker, harity, hchildren⟩ := he
  simp only [AbsExpr_Expression.Op, AbsExpr_Expression.Children] at hdefined hmarker harity hchildren
  obtain ⟨later₁, hlater₁, hranked₁, hlen, hids⟩ :=
    recordChildren_ranked arity ranks₀ (rankOf ranks₀ g) children hchildren
      (fun child hchild => recordExpression_ranked (hchildren child hchild)) memo ranks hranked hext
  rw [Memo.RecordExpression.eq_1]
  have hp := hext.trans hlater₁
  have hrank : rankOf later₁ g = rankOf ranks₀ g := rankOf_extend hp g hg
  refine ⟨later₁, hlater₁, insertExpression_target_ranked hranked₁ _ g ?_⟩
  rw [hrank]
  refine ⟨hdefined, by simp only [hlen]; exact harity, hids, ?_⟩
  intro id hid
  obtain ⟨h1, h2⟩ := hmarker id hid
  exact ⟨Nat.lt_of_lt_of_le h1 hp.length_le, by rw [rankOf_extend hp id h1]; exact h2⟩


theorem getGroupByID_ranked {arity : Nat} {ranks : List Nat} {memo : Memo}
    (h : memo.ranked arity ranks) (g : GroupID) :
    ∀ e ∈ (memo.GetGroupByID g).logical_expressions, e.rankedBelow arity ranks (rankOf ranks g) := by
  intro e he
  unfold Memo.GetGroupByID at he
  cases hg : memo.groups[g]? with
  | none => rw [hg] at he; simp at he
  | some G => rw [hg] at he; exact h.2 g G hg e he

/-- The contents of a group replaced by an expression that fits the group: the
memo stays ranked. -/
theorem replaceGroupExpression_ranked {arity : Nat} {ranks₀ ranks : List Nat} {memo : Memo}
    (hranked : memo.ranked arity ranks) (hext : ranks₀ <+: ranks) (g : GroupID)
    (hg : g < ranks₀.length) (e : AbsExpr_Expression)
    (he : RootFits arity ranks₀ (rankOf ranks₀ g) e) :
    ∃ later : List Nat, ranks <+: later ∧ (memo.ReplaceGroupExpression g e).ranked arity later := by
  unfold Memo.ReplaceGroupExpression
  cases hm : Memo.markedGroup e with
  | some id =>
    simp only
    refine ⟨ranks, List.prefix_refl ranks, setGroup_ranked hranked g _ ?_⟩
    intro x hx
    have hx2 := getGroupByID_ranked hranked id x (List.mem_of_mem_take hx)
    obtain ⟨op, children⟩ := e
    rw [markedGroup_mk] at hm
    obtain ⟨h1, h2⟩ := he.2.1 id hm
    refine rankedBelow_mono hx2 ?_
    rw [rankOf_extend hext id h1, rankOf_extend hext g hg]
    exact Nat.le_of_lt h2
  | none =>
    simp only
    exact recordExpression_target_ranked
      (setGroup_ranked hranked g [] (fun x hx => absurd hx (List.not_mem_nil x))) hext g hg e he

/-- The outputs of a rule recorded for a group that they fit: the memo stays
ranked. -/
theorem recordTransformed_ranked {arity : Nat} {ranks₀ : List Nat} (replace_on_match : Bool)
    (g : GroupID) (hg : g < ranks₀.length) :
    ∀ (after : List AbsExpr_Expression),
      (∀ out, out ∈ after → RootFits arity ranks₀ (rankOf ranks₀ g) out) →
      ∀ (memo : Memo) (ranks : List Nat), memo.ranked arity ranks → ranks₀ <+: ranks →
        ∃ later : List Nat, ranks <+: later ∧
          (recordTransformed replace_on_match g memo after).ranked arity later := by
  intro after
  induction after with
  | nil =>
    intro _ memo ranks hranked _
    exact ⟨ranks, List.prefix_refl ranks, hranked⟩
  | cons out rest ih =>
    intro hfits memo ranks hranked hext
    have hout := hfits out (List.mem_cons_self out rest)
    have hrest : ∀ o, o ∈ rest → RootFits arity ranks₀ (rankOf ranks₀ g) o :=
      fun o ho => hfits o (List.mem_cons_of_mem out ho)
    unfold recordTransformed
    rw [List.foldl_cons]
    cases replace_on_match with
    | true =>
      obtain ⟨later₁, hlater₁, hranked₁⟩ :=
        replaceGroupExpression_ranked hranked hext g hg out hout
      obtain ⟨later, hlater, hranked2⟩ := ih hrest _ later₁ hranked₁ (hext.trans hlater₁)
      exact ⟨later, hlater₁.trans hlater, hranked2⟩
    | false =>
      obtain ⟨later₁, hlater₁, hranked₁⟩ :=
        recordExpression_target_ranked hranked hext g hg out hout
      obtain ⟨later, hlater, hranked2⟩ := ih hrest _ later₁ hranked₁ (hext.trans hlater₁)
      exact ⟨later, hlater₁.trans hlater, hranked2⟩

theorem rootFits_constantExpr (arity : Nat) (ranks : List Nat) (bound : Nat) (val : Value) :
    RootFits arity ranks bound (constantExpr val) := by
  refine ⟨rfl, ?_, Nat.zero_le _, fun child hchild => absurd hchild (List.not_mem_nil child)⟩
  intro id hid
  exact Option.noConfusion hid

theorem comparatorElimination_rootFits (cc : Comparability) (type_ : RuleType)
    (arity : Nat) (ranks : List Nat) (bound : Nat) (before : AbsExpr_Expression)
    (after : List AbsExpr_Expression)
    (ht : ComparatorElimination.Transform cc type_ before [] = some after) :
    ∀ out, out ∈ after → RootFits arity ranks bound out := by
  unfold ComparatorElimination.Transform at ht
  split at ht
  · split at ht
    · split at ht
      · split at ht
        · simp only [List.nil_append, Option.some.injEq] at ht
          subst ht
          intro out hout
          rw [List.mem_singleton] at hout
          subst hout
          exact rootFits_constantExpr arity ranks bound _
        · exact Option.noConfusion ht
      · simp only [Option.some.injEq] at ht
        subst ht
        intro out hout
        exact absurd hout (List.not_mem_nil out)
    · exact Option.noConfusion ht
  · exact Option.noConfusion ht

theorem equivalentTransform_rootFits (root : ExpressionType)
    (arity : Nat) (harity : 2 ≤ arity) (ranks : List Nat) (bound : Nat)
    (before : AbsExpr_Expression) (after : List AbsExpr_Expression)
    (hbefore : RootFits arity ranks bound before)
    (ht : EquivalentTransform.Transform root before [] = some after) :
    ∀ out, out ∈ after → RootFits arity ranks bound out := by
  unfold EquivalentTransform.Transform at ht
  split at ht
  · rename_i left right hchildren
    simp only [List.nil_append, Option.some.injEq] at ht
    subst ht
    intro out hout
    rw [List.mem_singleton] at hout
    subst hout
    refine ⟨rfl, ?_, harity, ?_⟩
    · intro id hid
      exact Option.noConfusion hid
    · intro child hchild
      simp only [AbsExpr_Expression.PushChild, AbsExpr_Expression.ofContainer,
        AbsExpr_Expression.Children, List.nil_append, List.cons_append, List.mem_cons,
        List.mem_singleton, List.not_mem_nil, or_false] at hchild
      have hfits := hbefore.2.2.2
      rw [hchildren] at hfits
      rcases hchild with rfl | rfl
      · exact hfits _ (by simp)
      · exact hfits _ (by simp)
  · exact Option.noConfusion ht

theorem shortCircuit_rootFits (arity : Nat) (ranks : List Nat) (bound : Nat)
    (before : AbsExpr_Expression) (after : List AbsExpr_Expression)
    (hbefore : RootFits arity ranks bound before)
    (ht : AndShortCircuit.Transform before [] = some after ∨
      OrShortCircuit.Transform before [] = some after) :
    ∀ out, out ∈ after → RootFits arity ranks bound out := by
  have hfits := hbefore.2.2.2
  rcases ht with ht | ht
  · unfold AndShortCircuit.Transform at ht
    split at ht
    · rename_i l r hchildren
      rw [hchildren] at hfits
      split at ht
      · split at ht
        · simp only [List.nil_append, Option.some.injEq] at ht
          subst ht
          intro out hout
          rw [List.mem_singleton] at hout
          subst hout
          exact rootFits_of_fits (hfits _ (by simp))
        · split at ht
          · simp only [List.nil_append, Option.some.injEq] at ht
            subst ht
            intro out hout
            rw [List.mem_singleton] at hout
            subst hout
            exact rootFits_constantExpr arity ranks bound _
          · simp only [Option.some.injEq] at ht
            subst ht
            intro out hout
            exact absurd hout (List.not_mem_nil out)
      · exact Option.noConfusion ht
    · exact Option.noConfusion ht
  · unfold OrShortCircuit.Transform at ht
    split at ht
    · rename_i l r hchildren
      rw [hchildren] at hfits
      split at ht
      · split at ht
        · simp only [List.nil_append, Option.some.injEq] at ht
          subst ht
          intro out hout
          rw [List.mem_singleton] at hout
          subst hout
          exact rootFits_constantExpr arity ranks bound _
        · split at ht
          · simp only [List.nil_append, Option.some.injEq] at ht
            subst ht
            intro out hout
            rw [List.mem_singleton] at hout
            subst hout
            exact rootFits_of_fits (hfits _ (by simp))
          · simp only [Option.some.injEq] at ht
            subst ht
            intro out hout
            exact absurd hout (List.not_mem_nil out)
      · exact Option.noConfusion ht
    · exact Option.noConfusion ht


theorem tvEquality_outputs (cc : Comparability) (before : AbsExpr_Expression)
    (after : List AbsExpr_Expression)
    (ht : TVEqualityWithTwoCVTransform.Transform cc before [] = some after) :
    after = [] ∨ (∃ val, after = [constantExpr val]) ∨
    ∃ l_eq r_eq l_tv l_cv, before.Children = [l_eq, r_eq] ∧ l_eq.Children = [l_tv, l_cv] ∧
      after = [AbsExpr_Expression.mk
        ⟨some (expression.ComparisonExpression ExpressionType.COMPARE_EQUAL none none)⟩
        [AbsExpr_Expression.ofContainer l_tv.Op, AbsExpr_Expression.ofContainer l_cv.Op]] := by
  obtain ⟨op, children⟩ := before
  unfold TVEqualityWithTwoCVTransform.Transform at ht
  simp only [AbsExpr_Expression.Children, AbsExpr_Expression.Op] at ht
  by_cases h1 : op.GetType ≠ ExpressionType.CONJUNCTION_AND
  · rw [if_pos h1] at ht; exact Option.noConfusion ht
  rw [if_neg h1] at ht
  rcases children with _ | ⟨⟨l_op, lcs⟩, _ | ⟨⟨r_op, rcs⟩, _ | ⟨x, rest⟩⟩⟩
  · exact Option.noConfusion ht
  · exact Option.noConfusion ht
  · simp only [AbsExpr_Expression.Children, AbsExpr_Expression.Op] at ht
    by_cases h2 : l_op.GetType ≠ ExpressionType.COMPARE_EQUAL
    · rw [if_pos h2] at ht; exact Option.noConfusion ht
    rw [if_neg h2] at ht
    by_cases h3 : r_op.GetType ≠ ExpressionType.COMPARE_EQUAL
    · rw [if_pos h3] at ht; exact Option.noConfusion ht
    rw [if_neg h3] at ht
    rcases lcs with _ | ⟨⟨l_tv_op, l_tv_cs⟩, _ | ⟨⟨l_cv_op, l_cv_cs⟩, _ | ⟨y, lrest⟩⟩⟩
    · exact Option.noConfusion ht
    · exact Option.noConfusion ht
    · rcases rcs with _ | ⟨⟨r_tv_op, r_tv_cs⟩, _ | ⟨⟨r_cv_op, r_cv_cs⟩, _ | ⟨z, rrest⟩⟩⟩
      · exact Option.noConfusion ht
      · exact Option.noConfusion ht
      · simp only at ht
        by_cases h4 : (!(isLeafOfType (AbsExpr_Expression.mk l_tv_op l_tv_cs) ExpressionType.VALUE_TUPLE)) = true
        · rw [if_pos h4] at ht; exact Option.noConfusion ht
        rw [if_neg h4] at ht
        by_cases h5 : (!(isLeafOfType (AbsExpr_Expression.mk l_cv_op l_cv_cs) ExpressionType.VALUE_CONSTANT)) = true
        · rw [if_pos h5] at ht; exact Option.noConfusion ht
        rw [if_neg h5] at ht
        by_cases h6 : (!(isLeafOfType (AbsExpr_Expression.mk r_tv_op r_tv_cs) ExpressionType.VALUE_TUPLE)) = true
        · rw [if_pos h6] at ht; exact Option.noConfusion ht
        rw [if_neg h6] at ht
        by_cases h7 : (!(isLeafOfType (AbsExpr_Expression.mk r_cv_op r_cv_cs) ExpressionType.VALUE_CONSTANT)) = true
        · rw [if_pos h7] at ht; exact Option.noConfusion ht
        rw [if_neg h7] at ht
        cases h8 : l_tv_op.GetExpr with
        | none => rw [h8] at ht; exact Option.noConfusion ht
        | some l_tv_expr =>
          cases h9 : r_tv_op.GetExpr with
          | none => rw [h8, h9] at ht; exact Option.noConfusion ht
          | some r_tv_expr =>
            rw [h8, h9] at ht
            simp only at ht
            by_cases h10 : l_tv_expr.ExactlyEquals r_tv_expr = true
            · rw [if_pos h10] at ht
              cases h11 : expression.asConstantValue l_cv_op.GetExpr with
              | none => rw [h11] at ht; exact Option.noConfusion ht
              | some l_cv_val =>
                cases h12 : expression.asConstantValue r_cv_op.GetExpr with
                | none => rw [h11, h12] at ht; exact Option.noConfusion ht
                | some r_cv_val =>
                  rw [h11, h12] at ht
                  simp only at ht
                  by_cases h13 : cc l_cv_val r_cv_val = true
                  · rw [if_pos h13] at ht
                    by_cases h14 : decide (l_cv_val.CompareEquals r_cv_val = CmpBool.CmpTrue) = true
                    · rw [if_pos h14] at ht
                      simp only [List.nil_append, Option.some.injEq, AbsExpr_Expression.PushChild,
                        AbsExpr_Expression.ofContainer, List.cons_append] at ht
                      exact Or.inr (Or.inr ⟨_, _, AbsExpr_Expression.mk l_tv_op l_tv_cs,
                        AbsExpr_Expression.mk l_cv_op l_cv_cs, rfl, rfl, ht.symm⟩)
                    · rw [if_neg h14] at ht
                      simp only [List.nil_append, Option.some.injEq] at ht
                      exact Or.inr (Or.inl ⟨_, ht.symm⟩)
                  · rw [if_neg h13] at ht
                    simp only [Option.some.injEq] at ht
                    exact Or.inl ht.symm
            · rw [if_neg h10] at ht
              simp only [Option.some.injEq] at ht
              exact Or.inl ht.symm
      · exact Option.noConfusion ht
    · exact Option.noConfusion ht
  · exact Option.noConfusion ht


theorem transitiveClosure_outputs (before : AbsExpr_Expression)
    (after : List AbsExpr_Expression)
    (ht : TransitiveClosureConstantTransform.Transform before [] = some after) :
    ∃ l_eq r_eq l_tv l_cv r_tv_l r_tv_r, before.Children = [l_eq, r_eq] ∧
      l_eq.Children = [l_tv, l_cv] ∧ r_eq.Children = [r_tv_l, r_tv_r] ∧
      (after = [] ∨ after = [l_eq] ∨
        after = [AbsExpr_Expression.mk before.Op
          [AbsExpr_Expression.mk l_eq.Op [l_tv, l_cv],
           AbsExpr_Expression.mk r_eq.Op [AbsExpr_Expression.ofContainer l_cv.Op, r_tv_r]]] ∨
        after = [AbsExpr_Expression.mk before.Op
          [AbsExpr_Expression.mk l_eq.Op [l_tv, l_cv],
           AbsExpr_Expression.mk r_eq.Op [r_tv_l, AbsExpr_Expression.ofContainer l_cv.Op]]]) := by
  obtain ⟨op, children⟩ := before
  unfold TransitiveClosureConstantTransform.Transform at ht
  simp only [AbsExpr_Expression.Children, AbsExpr_Expression.Op] at ht
  by_cases h1 : op.GetType ≠ ExpressionType.CONJUNCTION_AND
  · rw [if_pos h1] at ht; exact Option.noConfusion ht
  rw [if_neg h1] at ht
  rcases children with _ | ⟨⟨l_op, lcs⟩, _ | ⟨⟨r_op, rcs⟩, _ | ⟨x, rest⟩⟩⟩
  · exact Option.noConfusion ht
  · exact Option.noConfusion ht
  · simp only [AbsExpr_Expression.Children, AbsExpr_Expression.Op] at ht
    by_cases h2 : l_op.GetType ≠ ExpressionType.COMPARE_EQUAL
    · rw [if_pos h2] at ht; exact Option.noConfusion ht
    rw [if_neg h2] at ht
    by_cases h3 : r_op.GetType ≠ ExpressionType.COMPARE_EQUAL
    · rw [if_pos h3] at ht; exact Option.noConfusion ht
    rw [if_neg h3] at ht
    rcases lcs with _ | ⟨⟨l_tv_op, l_tv_cs⟩, _ | ⟨⟨l_cv_op, l_cv_cs⟩, _ | ⟨y, lrest⟩⟩⟩
    · exact Option.noConfusion ht
    · exact Option.noConfusion ht
    · rcases rcs with _ | ⟨⟨r_l_op, r_l_cs⟩, _ | ⟨⟨r_r_op, r_r_cs⟩, _ | ⟨z, rrest⟩⟩⟩
      · exact Option.noConfusion ht
      · exact Option.noConfusion ht
      · simp only at ht
        by_cases h4 : (!(isLeafOfType (AbsExpr_Expression.mk l_tv_op l_tv_cs)
            ExpressionType.VALUE_TUPLE)) = true
        · rw [if_pos h4] at ht; exact Option.noConfusion ht
        rw [if_neg h4] at ht
        by_cases h5 : (!(isLeafOfType (AbsExpr_Expression.mk l_cv_op l_cv_cs)
            ExpressionType.VALUE_CONSTANT)) = true
        · rw [if_pos h5] at ht; exact Option.noConfusion ht
        rw [if_neg h5] at ht
        by_cases h6 : (!(isLeafOfType (AbsExpr_Expression.mk r_l_op r_l_cs)
            ExpressionType.VALUE_TUPLE)) = true
        · rw [if_pos h6] at ht; exact Option.noConfusion ht
        rw [if_neg h6] at ht
        by_cases h7 : (!(isLeafOfType (AbsExpr_Expression.mk r_r_op r_r_cs)
            ExpressionType.VALUE_TUPLE)) = true
        · rw [if_pos h7] at ht; exact Option.noConfusion ht
        rw [if_neg h7] at ht
        refine ⟨_, _, _, _, _, _, rfl, rfl, rfl, ?_⟩
        cases h8 : l_tv_op.GetExpr with
        | none => rw [h8] at ht; exact Option.noConfusion ht
        | some l_tv_expr =>
          cases h9 : r_l_op.GetExpr with
          | none => rw [h8, h9] at ht; exact Option.noConfusion ht
          | some r_l_expr =>
            cases h10 : r_r_op.GetExpr with
            | none => rw [h8, h9, h10] at ht; exact Option.noConfusion ht
            | some r_r_expr =>
              rw [h8, h9, h10] at ht
              simp only at ht
              by_cases h11 : r_l_expr.ExactlyEquals r_r_expr = true
              · rw [if_pos h11] at ht
                simp only [List.nil_append, Option.some.injEq] at ht
                exact Or.inr (Or.inl ht.symm)
              · rw [if_neg h11] at ht
                by_cases h12 : (!(l_tv_expr.ExactlyEquals r_l_expr) &&
                    !(l_tv_expr.ExactlyEquals r_r_expr)) = true
                · rw [if_pos h12] at ht
                  simp only [Option.some.injEq] at ht
                  exact Or.inl ht.symm
                · rw [if_neg h12] at ht
                  by_cases h13 : l_tv_expr.ExactlyEquals r_l_expr = true
                  · rw [if_pos h13] at ht
                    simp only [List.nil_append, Option.some.injEq, AbsExpr_Expression.PushChild,
                      AbsExpr_Expression.ofContainer, List.cons_append] at ht
                    exact Or.inr (Or.inr (Or.inl ht.symm))
                  · rw [if_neg h13] at ht
                    simp only [List.nil_append, Option.some.injEq, AbsExpr_Expression.PushChild,
                      AbsExpr_Expression.ofContainer, List.cons_append] at ht
                    exact Or.inr (Or.inr (Or.inr ht.symm))
      · exact Option.noConfusion ht
    · exact Option.noConfusion ht
  · exact Option.noConfusion ht

theorem fits_children {arity : Nat} {ranks : List Nat} {bound : Nat}
    {e : AbsExpr_Expression} (h : Fits arity ranks bound e) :
    ∀ child, child ∈ e.Children → Fits arity ranks (bound - 1) child := by
  cases h with
  | node _ op children _ _ _ _ hchildren => exact hchildren

/-- An expression that fits below a rank, with its children replaced by as many
expressions that fit below the children's rank, fits below the rank. -/
theorem fits_replace_children {arity : Nat} {ranks : List Nat} {bound : Nat}
    {e : AbsExpr_Expression} (h : Fits arity ranks bound e) (children : List AbsExpr_Expression)
    (hlen : children.length ≤ arity)
    (hchildren : ∀ child, child ∈ children → Fits arity ranks (bound - 1) child) :
    Fits arity ranks bound (AbsExpr_Expression.mk e.Op children) := by
  cases h with
  | node _ op old hdefined hmarker hplain _ _ =>
    exact Fits.node bound op children hdefined hmarker hplain hlen hchildren

theorem tvEquality_rootFits (cc : Comparability)
    (arity : Nat) (harity : 2 ≤ arity) (ranks : List Nat) (bound : Nat)
    (before : AbsExpr_Expression) (after : List AbsExpr_Expression)
    (hbefore : RootFits arity ranks bound before)
    (ht : TVEqualityWithTwoCVTransform.Transform cc before [] = some after) :
    ∀ out, out ∈ after → RootFits arity ranks bound out := by
  intro out hout
  rcases tvEquality_outputs cc before after ht with h | ⟨val, h⟩ |
    ⟨l_eq, r_eq, l_tv, l_cv, hchildren, hleft, h⟩
  · rw [h] at hout; exact absurd hout (List.not_mem_nil out)
  · rw [h, List.mem_singleton] at hout
    rw [hout]
    exact rootFits_constantExpr arity ranks bound val
  · rw [h, List.mem_singleton] at hout
    rw [hout]
    have hl : Fits arity ranks bound l_eq := hbefore.2.2.2 l_eq (by rw [hchildren]; simp)
    have hgrand := fits_children hl
    rw [hleft] at hgrand
    refine ⟨rfl, ?_, harity, ?_⟩
    · intro id hid
      exact Option.noConfusion hid
    · intro child hchild
      simp only [AbsExpr_Expression.Children, List.mem_cons, List.mem_singleton,
        List.not_mem_nil, or_false] at hchild
      rcases hchild with hchild | hchild
      · rw [hchild]
        exact fits_mono (fits_ofContainer (hgrand l_tv (by simp))) bound (Nat.sub_le _ _)
      · rw [hchild]
        exact fits_mono (fits_ofContainer (hgrand l_cv (by simp))) bound (Nat.sub_le _ _)

theorem transitiveClosure_rootFits
    (arity : Nat) (harity : 2 ≤ arity) (ranks : List Nat) (bound : Nat)
    (before : AbsExpr_Expression) (after : List AbsExpr_Expression)
    (hbefore : RootFits arity ranks bound before)
    (ht : TransitiveClosureConstantTransform.Transform before [] = some after) :
    ∀ out, out ∈ after → RootFits arity ranks bound out := by
  intro out hout
  obtain ⟨l_eq, r_eq, l_tv, l_cv, r_tv_l, r_tv_r, hchildren, hleft, hright, h⟩ :=
    transitiveClosure_outputs before after ht
  have hl : Fits arity ranks bound l_eq := hbefore.2.2.2 l_eq (by rw [hchildren]; simp)
  have hr : Fits arity ranks bound r_eq := hbefore.2.2.2 r_eq (by rw [hchildren]; simp)
  have hlc := fits_children hl
  have hrc := fits_children hr
  rw [hleft] at hlc
  rw [hright] at hrc
  have hleft_fits : Fits arity ranks bound (AbsExpr_Expression.mk l_eq.Op [l_tv, l_cv]) :=
    fits_replace_children hl [l_tv, l_cv] harity hlc
  rcases h with h | h | h | h
  · rw [h] at hout; exact absurd hout (List.not_mem_nil out)
  · rw [h, List.mem_singleton] at hout
    rw [hout]
    exact rootFits_of_fits hl
  · rw [h, List.mem_singleton] at hout
    rw [hout]
    refine ⟨hbefore.1, hbefore.2.1, harity, ?_⟩
    intro child hchild
    simp only [AbsExpr_Expression.Children, List.mem_cons, List.mem_singleton,
      List.not_mem_nil, or_false] at hchild
    rcases hchild with hchild | hchild
    · rw [hchild]; exact hleft_fits
    · rw [hchild]
      refine fits_replace_children hr _ harity ?_
      intro c hc
      simp only [List.mem_cons, List.mem_singleton, List.not_mem_nil, or_false] at hc
      rcases hc with hc | hc
      · rw [hc]; exact fits_ofContainer (hlc l_cv (by simp))
      · rw [hc]; exact hrc r_tv_r (by simp)
  · rw [h, List.mem_singleton] at hout
    rw [hout]
    refine ⟨hbefore.1, hbefore.2.1, harity, ?_⟩
    intro child hchild
    simp only [AbsExpr_Expression.Children, List.mem_cons, List.mem_singleton,
      List.not_mem_nil, or_false] at hchild
    rcases hchild with hchild | hchild
    · rw [hchild]; exact hleft_fits
    · rw [hchild]
      refine fits_replace_children hr _ harity ?_
      intro c hc
      simp only [List.mem_cons, List.mem_singleton, List.not_mem_nil, or_false] at hc
      rcases hc with hc | hc
      · rw [hc]; exact hrc r_tv_l (by simp)
      · rw [hc]; exact fits_ofContainer (hlc l_cv (by simp))

/-- The outputs of a rule fit the group whose binding they were produced from. -/
theorem transform_rootFits (cc : Comparability) (rule : Rule)
    (arity : Nat) (harity : 2 ≤ arity) (ranks : List Nat) (bound : Nat)
    (before : AbsExpr_Expression) (after : List AbsExpr_Expression)
    (hbefore : RootFits arity ranks bound before)
    (ht : rule.Transform cc before [] = some after) :
    ∀ out, out ∈ after → RootFits arity ranks bound out := by
  cases rule with
  | ComparatorElimination type_ root =>
    exact comparatorElimination_rootFits cc type_ arity ranks bound before after ht
  | EquivalentTransform type_ root =>
    exact equivalentTransform_rootFits root arity harity ranks bound before after hbefore ht
  | TVEqualityWithTwoCVTransform =>
    exact tvEquality_rootFits cc arity harity ranks bound before after hbefore ht
  | TransitiveClosureConstantTransform =>
    exact transitiveClosure_rootFits arity harity ranks bound before after hbefore ht
  | AndShortCircuit =>
    exact shortCircuit_rootFits arity ranks bound before after hbefore (Or.inl ht)
  | OrShortCircuit =>
    exact shortCircuit_rootFits arity ranks bound before after hbefore (Or.inr ht)

theorem fits_groupMarkerLeaf (arity : Nat) (ranks : List Nat) (bound : Nat) (id : GroupID)
    (hid : id < ranks.length ∧ rankOf ranks id < bound) :
    Fits arity ranks bound (groupMarkerLeaf id) := by
  refine Fits.node bound _ [] rfl ?_ ?_ (Nat.zero_le _)
    (fun child hchild => absurd hchild (List.not_mem_nil child))
  · intro id2 h
    have h2 : some id = some id2 := h
    rw [Option.some.injEq] at h2
    rw [← h2]
    exact hid
  · intro h
    have h2 : some id = none := h
    exact Option.noConfusion h2

mutual
/-- Every binding of a pattern at a group-expression of a ranked memo fits the
group of the group-expression. -/
theorem bindGroupExpression_fits {arity : Nat} {ranks : List Nat} {memo : Memo}
    (hranked : memo.ranked arity ranks) :
    ∀ (pattern : Pattern) (gexpr : GroupExpression) (bound : Nat),
      gexpr.rankedBelow arity ranks bound →
      ∀ b, b ∈ bindGroupExpression memo pattern gexpr → RootFits arity ranks bound b
  | Pattern.mk type child_patterns, gexpr, bound, hgexpr, b, hb => by
    rw [bindGroupExpression.eq_1] at hb
    by_cases hcond : gexpr.op.GetType = type ∧ child_patterns.length = gexpr.child_groups.length
    · rw [if_pos hcond, List.mem_map] at hb
      obtain ⟨children, hchildren, hbeq⟩ := hb
      have hfits := bindChildren_fits hranked child_patterns gexpr.child_groups bound
        hgexpr.2.2.1 children hchildren
      rw [← hbeq]
      refine ⟨hgexpr.1, hgexpr.2.2.2, ?_, hfits.2⟩
      simp only [AbsExpr_Expression.Children, hfits.1]
      exact hgexpr.2.1
    · rw [if_neg hcond] at hb
      exact absurd hb (List.not_mem_nil b)
/-- The children of a binding fit below the rank of the group. -/
theorem bindChildren_fits {arity : Nat} {ranks : List Nat} {memo : Memo}
    (hranked : memo.ranked arity ranks) :
    ∀ (patterns : List Pattern) (ids : List GroupID) (bound : Nat),
      (∀ c ∈ ids, c < ranks.length ∧ rankOf ranks c < bound) →
      ∀ children, children ∈ bindChildren memo patterns ids →
        children.length = ids.length ∧ ∀ child, child ∈ children → Fits arity ranks bound child
  | [], [], _, _, children, h => by
    rw [bindChildren.eq_1, List.mem_singleton] at h
    rw [h]
    exact ⟨rfl, fun child hchild => absurd hchild (List.not_mem_nil child)⟩
  | pattern :: patterns, id :: ids, bound, hids, children, h => by
    rw [bindChildren.eq_2] at h
    simp only [List.mem_flatMap, List.mem_map] at h
    obtain ⟨child, hchild, others, hothers, heq⟩ := h
    have hrest := bindChildren_fits hranked patterns ids bound
      (fun c hc => hids c (List.mem_cons_of_mem id hc)) others hothers
    have hid := hids id (List.mem_cons_self id ids)
    have hfirst : Fits arity ranks bound child := by
      by_cases hmarker : pattern.type = ExpressionType.GROUP_MARKER
      · rw [if_pos hmarker, List.mem_singleton] at hchild
        rw [hchild]
        exact fits_groupMarkerLeaf arity ranks bound id hid
      · rw [if_neg hmarker, List.mem_flatMap] at hchild
        obtain ⟨cexpr, hcexpr, hbound⟩ := hchild
        exact fits_of_rootFits
          (bindGroupExpression_fits hranked pattern cexpr (rankOf ranks id)
            (getGroupByID_ranked hranked id cexpr hcexpr) child hbound) hid.2
    rw [← heq]
    refine ⟨by simp [hrest.1], ?_⟩
    intro c hc
    rw [List.mem_cons] at hc
    rcases hc with hc | hc
    · rw [hc]; exact hfirst
    · exact hrest.2 c hc
  | [], _ :: _, _, _, children, h => by
    simp [bindChildren] at h
  | _ :: _, [], _, _, children, h => by
    simp [bindChildren] at h
end

theorem foldl_bind_none {σ α : Type} (step : σ → α → Option σ) (list : List α) :
    list.foldl (fun state a => state.bind (fun state => step state a)) none = none := by
  induction list with
  | nil => rfl
  | cons a rest ih => rw [List.foldl_cons]; exact ih

theorem foldlAbort_cons {σ α : Type} (step : σ → α → Option σ) (init : σ) (a : α)
    (rest : List α) :
    foldlAbort step init (a :: rest) = (step init a).bind (fun s => foldlAbort step s rest) := by
  unfold foldlAbort
  rw [List.foldl_cons]
  cases h : step init a with
  | none => simp only [Option.bind, h]; exact foldl_bind_none step rest
  | some s => simp only [Option.bind, h]

/-- A property of the state that every step keeps holds after a fold that did
not abort. -/
theorem foldlAbort_invariant {σ α : Type} (P : σ → Prop) (step : σ → α → Option σ) :
    ∀ (list : List α),
      (∀ s a s', a ∈ list → P s → step s a = some s' → P s') →
      ∀ init result, P init → foldlAbort step init list = some result → P result := by
  intro list
  induction list with
  | nil =>
    intro _ init result hinit h
    unfold foldlAbort at h
    simp only [List.foldl_nil, Option.some.injEq] at h
    rw [← h]; exact hinit
  | cons a rest ih =>
    intro hstep init result hinit h
    rw [foldlAbort_cons] at h
    cases hfirst : step init a with
    | none => rw [hfirst] at h; exact Option.noConfusion h
    | some s =>
      rw [hfirst] at h
      exact ih (fun s a s' ha => hstep s a s' (List.mem_cons_of_mem _ ha)) s result
        (hstep init a s (List.mem_cons_self a rest) hinit hfirst) h

/-- One rule applied to one binding that fits the group keeps the memo ranked. -/
theorem applyRuleToBinding_ranked (cc : Comparability) (rule : Rule) (replace_on_match : Bool)
    (arity : Nat) (harity : 2 ≤ arity) (ranks₀ : List Nat) (g : GroupID) (hg : g < ranks₀.length)
    (before : AbsExpr_Expression) (hbefore : RootFits arity ranks₀ (rankOf ranks₀ g) before)
    (state result : Memo × Bool)
    (hstate : ∃ later : List Nat, ranks₀ <+: later ∧ state.1.ranked arity later)
    (h : applyRuleToBinding cc rule replace_on_match g state before = some result) :
    ∃ later : List Nat, ranks₀ <+: later ∧ result.1.ranked arity later := by
  unfold applyRuleToBinding at h
  by_cases hflag : state.2 = true
  · rw [if_pos hflag, Option.some.injEq] at h
    rw [← h]; exact hstate
  · rw [if_neg hflag] at h
    by_cases hcheck : rule.Check before = true
    · rw [if_pos hcheck] at h
      cases ht : rule.Transform cc before [] with
      | none => rw [ht] at h; exact Option.noConfusion h
      | some after =>
        rw [ht] at h
        simp only [Option.some.injEq] at h
        rw [← h]
        obtain ⟨later, hlater, hranked⟩ := hstate
        obtain ⟨later2, hlater2, hranked2⟩ :=
          recordTransformed_ranked replace_on_match g hg after
            (transform_rootFits cc rule arity harity ranks₀ (rankOf ranks₀ g) before after hbefore ht)
            state.1 later hranked hlater
        exact ⟨later2, hlater.trans hlater2, hranked2⟩
    · rw [if_neg hcheck, Option.some.injEq] at h
      rw [← h]; exact hstate

/-- One rule applied to a group keeps the memo ranked. -/
theorem applyRuleToGroup_ranked (cc : Comparability) (rule : Rule) (replace_on_match : Bool)
    (arity : Nat) (harity : 2 ≤ arity) (ranks : List Nat) (g : GroupID) (hg : g < ranks.length)
    (memo result : Memo) (hranked : memo.ranked arity ranks)
    (h : applyRuleToGroup cc replace_on_match g memo rule = some result) :
    ∃ later : List Nat, ranks <+: later ∧ result.ranked arity later := by
  unfold applyRuleToGroup at h
  cases hfold : foldlAbort
      (fun state gexpr =>
        foldlAbort (applyRuleToBinding cc rule replace_on_match g) state
          (bindGroupExpression state.1 rule.GetMatchPattern gexpr))
      (memo, false) (memo.GetGroupByID g).logical_expressions with
  | none => rw [hfold] at h; exact Option.noConfusion h
  | some state =>
    rw [hfold] at h
    simp only [Option.some.injEq] at h
    rw [← h]
    refine foldlAbort_invariant
      (fun state : Memo × Bool => ∃ later : List Nat, ranks <+: later ∧ state.1.ranked arity later)
      _ (memo.GetGroupByID g).logical_expressions ?_ (memo, false) state
      ⟨ranks, List.prefix_refl ranks, hranked⟩ hfold
    intro s gexpr s' hgexpr hs hstep
    obtain ⟨later, hlater, hs_ranked⟩ := hs
    have hg2 : g < later.length := Nat.lt_of_lt_of_le hg hlater.length_le
    have hgexpr2 : gexpr.rankedBelow arity later (rankOf later g) := by
      rw [rankOf_extend hlater g hg]
      exact rankedBelow_extend (getGroupByID_ranked hranked g gexpr hgexpr) hlater
    obtain ⟨later2, hlater2, hranked2⟩ := foldlAbort_invariant
      (fun state : Memo × Bool => ∃ later2 : List Nat, later <+: later2 ∧ state.1.ranked arity later2)
      (applyRuleToBinding cc rule replace_on_match g)
      (bindGroupExpression s.1 rule.GetMatchPattern gexpr)
      (fun t before t' hbefore ht hstep2 =>
        applyRuleToBinding_ranked cc rule replace_on_match arity harity later g hg2 before
          (bindGroupExpression_fits hs_ranked rule.GetMatchPattern gexpr (rankOf later g) hgexpr2
            before hbefore) t t' ht hstep2)
      s s' ⟨later, List.prefix_refl later, hs_ranked⟩ hstep
    exact ⟨later2, hlater.trans hlater2, hranked2⟩

/-- The rules of a set applied to a group keep the memo ranked. -/
theorem optimizeCurrentGroup_ranked (cc : Comparability) (metadata result : OptimizerMetadata)
    (g : GroupID) (rule_set_name : RewriteRuleSetName) (replace_on_match : Bool)
    (arity : Nat) (harity : 2 ≤ arity) (ranks : List Nat) (hg : g < ranks.length)
    (hranked : metadata.memo.ranked arity ranks)
    (h : OptimizeCurrentGroup cc metadata g rule_set_name replace_on_match = some result) :
    ∃ later : List Nat, ranks <+: later ∧ result.memo.ranked arity later := by
  unfold OptimizeCurrentGroup at h
  simp only at h
  cases hfold : foldlAbort
      (fun memo (r : RuleWithPromise) => applyRuleToGroup cc replace_on_match g memo r.rule)
      metadata.memo
      (ConstructValidRules (metadata.rule_set.GetRewriteRulesByName rule_set_name)) with
  | none => rw [hfold] at h; exact Option.noConfusion h
  | some memo =>
    rw [hfold] at h
    simp only [Option.some.injEq] at h
    rw [← h]
    refine foldlAbort_invariant
      (fun memo : Memo => ∃ later : List Nat, ranks <+: later ∧ memo.ranked arity later)
      _ _ ?_ metadata.memo memo ⟨ranks, List.prefix_refl ranks, hranked⟩ hfold
    intro s r s' _ hs hstep
    obtain ⟨later, hlater, hs_ranked⟩ := hs
    obtain ⟨later2, hlater2, hranked2⟩ :=
      applyRuleToGroup_ranked cc r.rule replace_on_match arity harity later g
        (Nat.lt_of_lt_of_le hg hlater.length_le) s s' hs_ranked hstep
    exact ⟨later2, hlater.trans hlater2, hranked2⟩

theorem insertGroupID_mem (id x : GroupID) :
    ∀ set : List GroupID, x ∈ insertGroupID id set → x = id ∨ x ∈ set := by
  intro set
  induction set with
  | nil =>
    intro h
    rw [insertGroupID.eq_1, List.mem_singleton] at h
    exact Or.inl h
  | cons y ys ih =>
    intro h
    rw [insertGroupID.eq_2] at h
    by_cases h1 : id < y
    · rw [if_pos h1, List.mem_cons] at h
      exact h
    · rw [if_neg h1] at h
      by_cases h2 : id = y
      · rw [if_pos h2] at h
        exact Or.inr h
      · rw [if_neg h2, List.mem_cons] at h
        rcases h with h | h
        · exact Or.inr (by rw [h]; exact List.mem_cons_self y ys)
        · rcases ih h with h | h
          · exact Or.inl h
          · exact Or.inr (List.mem_cons_of_mem y h)

theorem insertGroupID_length (id : GroupID) :
    ∀ set : List GroupID, (insertGroupID id set).length ≤ set.length + 1 := by
  intro set
  induction set with
  | nil => rw [insertGroupID.eq_1]; exact Nat.le_refl _
  | cons y ys ih =>
    rw [insertGroupID.eq_2]
    by_cases h1 : id < y
    · rw [if_pos h1]; exact Nat.le_refl _
    · rw [if_neg h1]
      by_cases h2 : id = y
      · rw [if_pos h2]; exact Nat.le_succ _
      · rw [if_neg h2]
        simp only [List.length_cons]
        exact Nat.succ_le_succ ih

theorem insertGroupIDs_spec (ids : List GroupID) :
    ∀ set : List GroupID,
      (∀ x, x ∈ ids.foldl (fun set id => insertGroupID id set) set → x ∈ ids ∨ x ∈ set) ∧
      (ids.foldl (fun set id => insertGroupID id set) set).length ≤ set.length + ids.length := by
  induction ids with
  | nil =>
    intro set
    exact ⟨fun x hx => Or.inr hx, Nat.le_refl _⟩
  | cons id rest ih =>
    intro set
    rw [List.foldl_cons]
    obtain ⟨hmem, hlen⟩ := ih (insertGroupID id set)
    constructor
    · intro x hx
      rcases hmem x hx with h | h
      · exact Or.inl (List.mem_cons_of_mem id h)
      · rcases insertGroupID_mem id x set h with h | h
        · exact Or.inl (by rw [h]; exact List.mem_cons_self id rest)
        · exact Or.inr h
    · have := insertGroupID_length id set
      simp only [List.length_cons]
      omega

/-- The child groups that a task descends to exist, have a rank below the rank of
the group, and are no more than `arity`. -/
theorem getUniqueChildGroupIDs_ranked {arity : Nat} {ranks : List Nat} {memo : Memo}
    (hranked : memo.ranked arity ranks) (g : GroupID) :
    (∀ c, c ∈ GetUniqueChildGroupIDs memo g →
      c < ranks.length ∧ rankOf ranks c < rankOf ranks g) ∧
    (GetUniqueChildGroupIDs memo g).length ≤ arity := by
  unfold GetUniqueChildGroupIDs
  cases hexprs : (memo.GetGroupByID g).logical_expressions with
  | nil =>
    exact ⟨fun c hc => absurd hc (List.not_mem_nil c), Nat.zero_le _⟩
  | cons gexpr rest =>
    have hgexpr := getGroupByID_ranked hranked g gexpr (by rw [hexprs]; exact List.mem_cons_self _ _)
    obtain ⟨hmem, hlen⟩ := insertGroupIDs_spec gexpr.child_groups []
    constructor
    · intro c hc
      rcases hmem c hc with h | h
      · exact hgexpr.2.2.1 c h
      · exact absurd h (List.not_mem_nil c)
    · simp only [List.length_nil, Nat.zero_add] at hlen
      exact Nat.le_trans hlen hgexpr.2.1

theorem taskWeight_two_le (arity rank : Nat) : 2 ≤ taskWeight arity rank := by
  cases rank with
  | zero => exact Nat.le_refl 2
  | succ r => rw [taskWeight]; exact Nat.le_add_right 2 _

theorem taskWeight_mono (arity : Nat) (harity : 1 ≤ arity) :
    ∀ r later : Nat, r ≤ later → taskWeight arity r ≤ taskWeight arity later := by
  intro r later hle
  induction later with
  | zero =>
    rw [Nat.le_zero.1 hle]
  | succ n ih =>
    rcases Nat.eq_or_lt_of_le hle with h | h
    · rw [h]
    · have h1 := ih (Nat.le_of_lt_succ h)
      have h2 : taskWeight arity n ≤ arity * taskWeight arity n :=
        Nat.le_mul_of_pos_left _ harity
      rw [taskWeight]
      omega

theorem weight_positive (arity : Nat) (ranks : List Nat) (task : OptimizerTask) :
    1 ≤ task.weight arity ranks := by
  cases task with
  | TopDownRewrite g name replace =>
    exact Nat.le_trans (by decide) (taskWeight_two_le arity (rankOf ranks g))
  | BottomUpRewrite g name optimized =>
    cases optimized with
    | false => exact Nat.le_trans (by decide) (taskWeight_two_le arity (rankOf ranks g))
    | true => exact Nat.le_refl 1

theorem weight_extend {arity : Nat} {ranks later : List Nat} (hext : ranks <+: later)
    (task : OptimizerTask) (htask : task.group < ranks.length) :
    task.weight arity later = task.weight arity ranks := by
  cases task with
  | TopDownRewrite g name replace =>
    simp only [OptimizerTask.weight]
    rw [rankOf_extend hext g htask]
  | BottomUpRewrite g name optimized =>
    cases optimized with
    | false =>
      simp only [OptimizerTask.weight]
      rw [rankOf_extend hext g htask]
    | true => rfl

theorem stackWeight_cons (arity : Nat) (ranks : List Nat) (task : OptimizerTask)
    (stack : OptimizerTaskStack) :
    stackWeight arity ranks (task :: stack) =
      task.weight arity ranks + stackWeight arity ranks stack := by
  unfold stackWeight
  rw [List.map_cons, List.sum_cons]

theorem stackWeight_extend {arity : Nat} {ranks later : List Nat} (hext : ranks <+: later) :
    ∀ (stack : OptimizerTaskStack), (∀ t, t ∈ stack → t.group < ranks.length) →
      stackWeight arity later stack = stackWeight arity ranks stack := by
  intro stack
  induction stack with
  | nil => intro _; rfl
  | cons task rest ih =>
    intro h
    rw [stackWeight_cons, stackWeight_cons,
      weight_extend hext task (h task (List.mem_cons_self task rest)),
      ih (fun t ht => h t (List.mem_cons_of_mem task ht))]

/-- The stack after one task per child group was pushed: its tasks and its
weight. -/
theorem pushChildren_spec (arity : Nat) (ranks : List Nat) (bound : Nat)
    (task : GroupID → OptimizerTask)
    (hgroup : ∀ c, (task c).group = c)
    (hweight : ∀ c, (task c).weight arity ranks = taskWeight arity (rankOf ranks c))
    (harity : 1 ≤ arity) :
    ∀ (ids : List GroupID) (stack : OptimizerTaskStack),
      (∀ c, c ∈ ids → c < ranks.length ∧ rankOf ranks c < bound) →
      (∀ t, t ∈ stack → t.group < ranks.length) →
      (∀ t, t ∈ ids.foldl (fun stack child => OptimizerTaskStack.Push stack (task child)) stack →
        t.group < ranks.length) ∧
      stackWeight arity ranks
          (ids.foldl (fun stack child => OptimizerTaskStack.Push stack (task child)) stack) ≤
        ids.length * taskWeight arity (bound - 1) + stackWeight arity ranks stack := by
  intro ids
  induction ids with
  | nil =>
    intro stack _ hstack
    refine ⟨hstack, ?_⟩
    simp only [List.foldl_nil, List.length_nil, Nat.zero_mul, Nat.zero_add]
    exact Nat.le_refl _
  | cons id rest ih =>
    intro stack hids hstack
    rw [List.foldl_cons]
    have hid := hids id (List.mem_cons_self id rest)
    have hpushed : ∀ t, t ∈ OptimizerTaskStack.Push stack (task id) → t.group < ranks.length := by
      intro t ht
      unfold OptimizerTaskStack.Push at ht
      rw [List.mem_cons] at ht
      rcases ht with ht | ht
      · rw [ht, hgroup]; exact hid.1
      · exact hstack t ht
    obtain ⟨hmem, hsum⟩ := ih (OptimizerTaskStack.Push stack (task id))
      (fun c hc => hids c (List.mem_cons_of_mem id hc)) hpushed
    refine ⟨hmem, Nat.le_trans hsum ?_⟩
    have hone : taskWeight arity (rankOf ranks id) ≤ taskWeight arity (bound - 1) :=
      taskWeight_mono arity harity _ _ (Nat.le_sub_one_of_lt hid.2)
    have hpush : stackWeight arity ranks (OptimizerTaskStack.Push stack (task id)) =
        taskWeight arity (rankOf ranks id) + stackWeight arity ranks stack := by
      unfold OptimizerTaskStack.Push
      rw [stackWeight_cons, hweight]
    rw [hpush, List.length_cons, Nat.succ_mul]
    omega

/-- The tasks for the child groups of a group weigh less than the task for the
group, by two at least. -/
theorem children_weight (arity : Nat) (rank count : Nat) (hcount : count ≤ arity)
    (hzero : rank = 0 → count = 0) :
    count * taskWeight arity (rank - 1) + 2 ≤ taskWeight arity rank := by
  cases rank with
  | zero =>
    rw [hzero rfl]
    simp [taskWeight]
  | succ r =>
    rw [taskWeight, Nat.add_sub_cancel]
    have := Nat.mul_le_mul_right (taskWeight arity r) hcount
    omega

/-- The stack after the tasks for the child groups of `g` were pushed on a stack:
its tasks work on groups of the memo and it weighs less than a task for `g`
and the stack, by two at least. -/
theorem pushChildren_weight {arity : Nat} (harity : 2 ≤ arity) {ranks : List Nat} {memo : Memo}
    (hranked : memo.ranked arity ranks) (g : GroupID) (task : GroupID → OptimizerTask)
    (hgroup : ∀ c, (task c).group = c)
    (hweight : ∀ c, (task c).weight arity ranks = taskWeight arity (rankOf ranks c))
    (stack : OptimizerTaskStack) (hstack : ∀ t, t ∈ stack → t.group < ranks.length) :
    (∀ t, t ∈ (GetUniqueChildGroupIDs memo g).foldl
        (fun stack child => OptimizerTaskStack.Push stack (task child)) stack →
      t.group < ranks.length) ∧
    stackWeight arity ranks ((GetUniqueChildGroupIDs memo g).foldl
        (fun stack child => OptimizerTaskStack.Push stack (task child)) stack) + 2 ≤
      taskWeight arity (rankOf ranks g) + stackWeight arity ranks stack := by
  obtain ⟨hids, hlen⟩ := getUniqueChildGroupIDs_ranked hranked g
  obtain ⟨hmem, hsum⟩ := pushChildren_spec arity ranks (rankOf ranks g) task hgroup hweight
    (Nat.le_trans (by decide) harity) (GetUniqueChildGroupIDs memo g) stack hids hstack
  refine ⟨hmem, ?_⟩
  have hzero : rankOf ranks g = 0 → (GetUniqueChildGroupIDs memo g).length = 0 := by
    intro h0
    cases hc : GetUniqueChildGroupIDs memo g with
    | nil => rfl
    | cons c rest =>
      have := (hids c (by rw [hc]; exact List.mem_cons_self c rest)).2
      rw [h0] at this
      exact absurd this (Nat.not_lt_zero _)
  have := children_weight arity (rankOf ranks g) (GetUniqueChildGroupIDs memo g).length hlen hzero
  omega

/-- One executed task keeps the memo ranked and strictly lowers the weight of the
task stack. -/
theorem execute_decreases (cc : Comparability) (arity : Nat) (harity : 2 ≤ arity)
    (ranks : List Nat) (task : OptimizerTask) (metadata next : OptimizerMetadata)
    (stack rest : OptimizerTaskStack) (hranked : metadata.memo.ranked arity ranks)
    (htask : task.group < ranks.length) (hstack : ∀ t, t ∈ stack → t.group < ranks.length)
    (h : task.execute cc metadata stack = some (next, rest)) :
    ∃ later : List Nat, ranks <+: later ∧ next.memo.ranked arity later ∧
      (∀ t, t ∈ rest → t.group < later.length) ∧
      stackWeight arity later rest < stackWeight arity ranks (task :: stack) := by
  rw [stackWeight_cons]
  cases task with
  | TopDownRewrite g name replace =>
    simp only [OptimizerTask.group] at htask
    simp only [OptimizerTask.execute] at h
    cases hopt : OptimizeCurrentGroup cc metadata g name replace with
    | none => rw [hopt] at h; exact Option.noConfusion h
    | some optimized =>
      rw [hopt] at h
      simp only [Option.some.injEq, Prod.mk.injEq] at h
      obtain ⟨hnext, hrest⟩ := h
      obtain ⟨later, hlater, hranked2⟩ :=
        optimizeCurrentGroup_ranked cc metadata optimized g name replace arity harity ranks htask
          hranked hopt
      have hstack2 : ∀ t, t ∈ stack → t.group < later.length :=
        fun t ht => Nat.lt_of_lt_of_le (hstack t ht) hlater.length_le
      obtain ⟨hmem, hsum⟩ := pushChildren_weight harity hranked2 g
        (fun child => OptimizerTask.TopDownRewrite child name replace) (fun _ => rfl)
        (fun _ => rfl) stack hstack2
      rw [← hnext, ← hrest]
      refine ⟨later, hlater, hranked2, hmem, ?_⟩
      rw [stackWeight_extend hlater stack hstack, rankOf_extend hlater g htask] at hsum
      simp only [OptimizerTask.weight]
      omega
  | BottomUpRewrite g name optimized =>
    simp only [OptimizerTask.group] at htask
    cases optimized with
    | false =>
      simp only [OptimizerTask.execute, Option.some.injEq, Prod.mk.injEq] at h
      obtain ⟨hnext, hrest⟩ := h
      have hpushed : ∀ t, t ∈ OptimizerTaskStack.Push stack
          (OptimizerTask.BottomUpRewrite g name true) → t.group < ranks.length := by
        intro t ht
        unfold OptimizerTaskStack.Push at ht
        rw [List.mem_cons] at ht
        rcases ht with ht | ht
        · rw [ht]; exact htask
        · exact hstack t ht
      obtain ⟨hmem, hsum⟩ := pushChildren_weight harity hranked g
        (fun child => OptimizerTask.BottomUpRewrite child name false) (fun _ => rfl)
        (fun _ => rfl) _ hpushed
      rw [← hnext, ← hrest]
      refine ⟨ranks, List.prefix_refl ranks, hranked, hmem, ?_⟩
      have hpush : stackWeight arity ranks (OptimizerTaskStack.Push stack
          (OptimizerTask.BottomUpRewrite g name true)) = 1 + stackWeight arity ranks stack := by
        unfold OptimizerTaskStack.Push
        rw [stackWeight_cons]
        rfl
      rw [hpush] at hsum
      simp only [OptimizerTask.weight]
      omega
    | true =>
      simp only [OptimizerTask.execute] at h
      cases hopt : OptimizeCurrentGroup cc metadata g name true with
      | none => rw [hopt] at h; exact Option.noConfusion h
      | some optimized =>
        rw [hopt] at h
        simp only [Option.some.injEq, Prod.mk.injEq] at h
        obtain ⟨hnext, hrest⟩ := h
        obtain ⟨later, hlater, hranked2⟩ :=
          optimizeCurrentGroup_ranked cc metadata optimized g name true arity harity ranks htask
            hranked hopt
        rw [← hnext, ← hrest]
        refine ⟨later, hlater, hranked2,
          fun t ht => Nat.lt_of_lt_of_le (hstack t ht) hlater.length_le, ?_⟩
        rw [stackWeight_extend hlater stack hstack]
        simp only [OptimizerTask.weight]
        omega

/-- The task loop on a ranked memo does not run out of fuel when the fuel is at
least the weight of the task stack; when it is done, the memo is ranked by an
extension of the ranks. -/
theorem drainTaskStack_terminates (cc : Comparability) (arity : Nat) (harity : 2 ≤ arity) :
    ∀ (fuel : Nat) (ranks : List Nat) (metadata : OptimizerMetadata) (stack : OptimizerTaskStack),
      metadata.memo.ranked arity ranks → (∀ t, t ∈ stack → t.group < ranks.length) →
      stackWeight arity ranks stack ≤ fuel →
      drainTaskStack cc fuel metadata stack = Outcome.aborted ∨
      ∃ (result : OptimizerMetadata) (later : List Nat),
        drainTaskStack cc fuel metadata stack = Outcome.done result ∧ ranks <+: later ∧
        result.memo.ranked arity later := by
  intro fuel
  induction fuel with
  | zero =>
    intro ranks metadata stack hranked _ hweight
    cases stack with
    | nil => exact Or.inr ⟨metadata, ranks, rfl, List.prefix_refl ranks, hranked⟩
    | cons task rest =>
      rw [stackWeight_cons] at hweight
      have := weight_positive arity ranks task
      omega
  | succ fuel ih =>
    intro ranks metadata stack hranked hstack hweight
    cases stack with
    | nil => exact Or.inr ⟨metadata, ranks, rfl, List.prefix_refl ranks, hranked⟩
    | cons task rest =>
      rw [drainTaskStack.eq_3]
      cases hexec : task.execute cc metadata rest with
      | none => exact Or.inl rfl
      | some next =>
        obtain ⟨next_metadata, next_stack⟩ := next
        obtain ⟨later, hlater, hranked2, hstack2, hless⟩ :=
          execute_decreases cc arity harity ranks task metadata next_metadata rest next_stack
            hranked (hstack task (List.mem_cons_self task rest))
            (fun t ht => hstack t (List.mem_cons_of_mem task ht)) hexec
        rcases ih later next_metadata next_stack hranked2 hstack2 (by omega) with h | h
        · exact Or.inl h
        · obtain ⟨result, later2, hdone, hlater2, hranked3⟩ := h
          exact Or.inr ⟨result, later2, hdone, hlater.trans hlater2, hranked3⟩

theorem markerOf_plain (t : ExpressionType) (cls : ExprClass)
    (children : List AbstractExpression)
    (hcls : cls.isGroupMarker = false) :
    markerOf ⟨some (AbstractExpression.mk t cls children)⟩ = none := by
  cases cls <;> first | rfl | exact Bool.noConfusion hcls

mutual
/-- The converted form of an expression without group markers fits below some
rank, for some bound on the number of children. -/
theorem convertToAbsExpr_fits :
    ∀ e : AbstractExpression, e.hasGroupMarker = false →
      ∃ arity bound : Nat, Fits arity [] bound (Rewriter.ConvertToAbsExpr e)
  | AbstractExpression.mk t cls children, h => by
    rw [AbstractExpression.hasGroupMarker.eq_1, Bool.or_eq_false_iff] at h
    obtain ⟨arity, bound, hchildren⟩ := convertChildren_fits children h.2
    rw [Rewriter.ConvertToAbsExpr.eq_1]
    refine ⟨max arity (Rewriter.ConvertChildren children).length, bound + 1, ?_⟩
    refine Fits.node (bound + 1) _ _ rfl ?_ (fun _ => Nat.succ_pos bound)
      (Nat.le_max_right _ _) ?_
    · intro id hid
      rw [markerOf_plain t cls [] h.1] at hid
      exact Option.noConfusion hid
    · intro child hchild
      exact fits_arity_mono (hchildren child hchild) _ (Nat.le_max_left _ _)
/-- The converted children of an expression without group markers fit below a
common rank. -/
theorem convertChildren_fits :
    ∀ es : List AbstractExpression, AbstractExpression.hasGroupMarkerList es = false →
      ∃ arity bound : Nat, ∀ child, child ∈ Rewriter.ConvertChildren es →
        Fits arity [] bound child
  | [], _ => ⟨0, 0, fun child hchild => by
      rw [Rewriter.ConvertChildren.eq_1] at hchild
      exact absurd hchild (List.not_mem_nil child)⟩
  | e :: rest, h => by
    rw [AbstractExpression.hasGroupMarkerList.eq_2, Bool.or_eq_false_iff] at h
    obtain ⟨arity₁, bound₁, hfirst⟩ := convertToAbsExpr_fits e h.1
    obtain ⟨arity₂, bound₂, hrest⟩ := convertChildren_fits rest h.2
    refine ⟨max arity₁ arity₂, max bound₁ bound₂, ?_⟩
    intro child hchild
    rw [Rewriter.ConvertChildren.eq_2, List.mem_cons] at hchild
    rcases hchild with hchild | hchild
    · rw [hchild]
      exact fits_mono (fits_arity_mono hfirst _ (Nat.le_max_left _ _)) _ (Nat.le_max_left _ _)
    · exact fits_mono (fits_arity_mono (hrest child hchild) _ (Nat.le_max_right _ _)) _
        (Nat.le_max_right _ _)
end

theorem empty_ranked (arity : Nat) : Memo.empty.ranked arity [] := by
  refine ⟨rfl, ?_⟩
  intro g G hg
  simp [Memo.empty] at hg

/-- The memo that `RecordTreeGroups` builds from a new rewriter and an expression
without group markers is ranked, and the root group is one of its groups. -/
theorem recordTreeGroups_ranked (expr : AbstractExpression) (hplain : expr.hasGroupMarker = false) :
    ∃ (arity : Nat) (ranks : List Nat), 2 ≤ arity ∧
      (Rewriter.new.RecordTreeGroups expr).1.metadata_.memo.ranked arity ranks ∧
      (Rewriter.new.RecordTreeGroups expr).2 < ranks.length := by
  obtain ⟨arity, bound, hfits⟩ := convertToAbsExpr_fits expr hplain
  have hwide := fits_arity_mono hfits (max arity 2) (Nat.le_max_left _ _)
  have hnone : Memo.markedGroup (Rewriter.ConvertToAbsExpr expr) = none := by
    obtain ⟨t, cls, children⟩ := expr
    rw [AbstractExpression.hasGroupMarker.eq_1, Bool.or_eq_false_iff] at hplain
    rw [Rewriter.ConvertToAbsExpr.eq_1, markedGroup_mk]
    exact markerOf_plain t cls [] hplain.1
  obtain ⟨ranks, _, hranked, hroot, _⟩ :=
    recordExpression_ranked hwide Memo.empty [] (empty_ranked _) (List.prefix_refl _) hnone
  exact ⟨max arity 2, ranks, Nat.le_max_right _ _, hranked, hroot⟩

theorem foldlAbort_nil {σ α : Type} (step : σ → α → Option σ) (init : σ) :
    foldlAbort step init [] = some init := rfl

/-- `OptimizeCurrentGroup` over `NULL_LOOKUP` returns the metadata that it was
given: the rule set holds no rule under that name. -/
theorem optimizeCurrentGroup_null_lookup (cc : Comparability) (memo : Memo) (g : GroupID)
    (replace_on_match : Bool) :
    OptimizeCurrentGroup cc ⟨memo, RuleSet.forExpressions⟩ g RewriteRuleSetName.NULL_LOOKUP
      replace_on_match = some ⟨memo, RuleSet.forExpressions⟩ := by
  unfold OptimizeCurrentGroup
  simp only [validRules_null_lookup, foldlAbort_nil]

theorem pushNullLookup_isNullLookupPass (ids : List GroupID) :
    ∀ stack : OptimizerTaskStack, (∀ t, t ∈ stack → t.isNullLookupPass = true) →
      ∀ t, t ∈ ids.foldl (fun stack child => OptimizerTaskStack.Push stack
          (OptimizerTask.BottomUpRewrite child RewriteRuleSetName.NULL_LOOKUP false)) stack →
        t.isNullLookupPass = true := by
  induction ids with
  | nil => intro stack h; exact h
  | cons id rest ih =>
    intro stack h
    rw [List.foldl_cons]
    apply ih
    intro t ht
    unfold OptimizerTaskStack.Push at ht
    rw [List.mem_cons] at ht
    rcases ht with ht | ht
    · rw [ht]; rfl
    · exact h t ht

/-- A task stack that holds nothing but `BottomUpRewrite` tasks over `NULL_LOOKUP`
is drained without a change of the metadata and without an abort. -/
theorem drain_null_lookup (cc : Comparability) (memo : Memo) :
    ∀ (fuel : Nat) (stack : OptimizerTaskStack),
      (∀ t, t ∈ stack → t.isNullLookupPass = true) →
      drainTaskStack cc fuel ⟨memo, RuleSet.forExpressions⟩ stack =
        Outcome.done ⟨memo, RuleSet.forExpressions⟩ ∨
      drainTaskStack cc fuel ⟨memo, RuleSet.forExpressions⟩ stack = Outcome.outOfFuel := by
  intro fuel
  induction fuel with
  | zero =>
    intro stack _
    cases stack with
    | nil => exact Or.inl rfl
    | cons task rest => exact Or.inr rfl
  | succ fuel ih =>
    intro stack hstack
    cases stack with
    | nil => exact Or.inl rfl
    | cons task rest =>
      have htask := hstack task (List.mem_cons_self task rest)
      have hrest : ∀ t, t ∈ rest → t.isNullLookupPass = true :=
        fun t ht => hstack t (List.mem_cons_of_mem task ht)
      rw [drainTaskStack.eq_3]
      cases task with
      | TopDownRewrite g name replace => exact Bool.noConfusion htask
      | BottomUpRewrite g name optimized =>
        cases name <;> first | exact Bool.noConfusion htask | skip
        cases optimized with
        | false =>
          simp only [OptimizerTask.execute]
          apply ih
          apply pushNullLookup_isNullLookupPass
          intro t ht
          unfold OptimizerTaskStack.Push at ht
          rw [List.mem_cons] at ht
          rcases ht with ht | ht
          · rw [ht]; rfl
          · exact hrest t ht
        | true =>
          simp only [OptimizerTask.execute, optimizeCurrentGroup_null_lookup]
          exact ih rest hrest

/-- C31: the rule set of the expression rules holds no rule under `NULL_LOOKUP`,
three rules under `EQUIVALENT_TRANSFORM` and two rules each under
`TRANSITIVE_TRANSFORM` and `BOOLEAN_SHORT_CIRCUIT`.  Hence `OptimizeCurrentGroup`
over `NULL_LOOKUP` returns the memo that it was given, for every group, and the
`BottomUpRewrite` pass over `NULL_LOOKUP`, started at any group of any memo,
ends with that memo unchanged unless the fuel runs out; no task of the pass
aborts. -/
theorem null_lookup_never_rewrites :
    RuleSet.forExpressions.GetRewriteRulesByName RewriteRuleSetName.NULL_LOOKUP = [] ∧
    (RuleSet.forExpressions.GetRewriteRulesByName
      RewriteRuleSetName.EQUIVALENT_TRANSFORM).length = 3 ∧
    (RuleSet.forExpressions.GetRewriteRulesByName
      RewriteRuleSetName.TRANSITIVE_TRANSFORM).length = 2 ∧
    (RuleSet.forExpressions.GetRewriteRulesByName
      RewriteRuleSetName.BOOLEAN_SHORT_CIRCUIT).length = 2 ∧
    (∀ (cc : Comparability) (memo : Memo) (g : GroupID) (replace_on_match : Bool),
      OptimizeCurrentGroup cc ⟨memo, RuleSet.forExpressions⟩ g RewriteRuleSetName.NULL_LOOKUP
        replace_on_match = some ⟨memo, RuleSet.forExpressions⟩) ∧
    ∀ (cc : Comparability) (memo : Memo) (root : GroupID) (fuel : Nat),
      drainTaskStack cc fuel ⟨memo, RuleSet.forExpressions⟩
          [OptimizerTask.BottomUpRewrite root RewriteRuleSetName.NULL_LOOKUP false] =
        Outcome.done ⟨memo, RuleSet.forExpressions⟩ ∨
      drainTaskStack cc fuel ⟨memo, RuleSet.forExpressions⟩
          [OptimizerTask.BottomUpRewrite root RewriteRuleSetName.NULL_LOOKUP false] =
        Outcome.outOfFuel := by
  refine ⟨by decide, by decide, by decide, by decide, optimizeCurrentGroup_null_lookup, ?_⟩
  intro cc memo root fuel
  apply drain_null_lookup
  intro t ht
  rw [List.mem_singleton] at ht
  rw [ht]
  rfl

/-- C32: `AddImplementationRule` appends the rule to the list of transformation
rules and leaves the list of implementation rules, the rewrite rules and the
predicate push-down rules as they were; after the construction of the rule set
of the operator rules the list of implementation rules is empty and the list
of transformation rules holds the 18 rules registered through
`AddTransformationRule` and `AddImplementationRule`, in the order of the calls. -/
theorem addImplementationRule_appends_to_transformation :
    (∀ (R : Type) (s : RuleSet R) (rule : R),
      (s.AddImplementationRule rule).GetTransformationRules = s.GetTransformationRules ++ [rule] ∧
      (s.AddImplementationRule rule).GetImplementationRules = s.GetImplementationRules ∧
      (s.AddImplementationRule rule).rewrite_rules_map_ = s.rewrite_rules_map_ ∧
      (s.AddImplementationRule rule).predicate_push_down_rules_ =
        s.predicate_push_down_rules_) ∧
    RuleSet.forOperators.GetImplementationRules = [] ∧
    RuleSet.forOperators.GetTransformationRules.length = 18 ∧
    RuleSet.forOperators.GetTransformationRules =
      [OperatorRule.InnerJoinCommutativity, OperatorRule.InnerJoinAssociativity,
       OperatorRule.LogicalDeleteToPhysical, OperatorRule.LogicalUpdateToPhysical,
       OperatorRule.LogicalInsertToPhysical, OperatorRule.LogicalInsertSelectToPhysical,
       OperatorRule.LogicalGroupByToHashGroupBy, OperatorRule.LogicalAggregateToPhysical,
       OperatorRule.GetToDummyScan, OperatorRule.GetToSeqScan, OperatorRule.GetToIndexScan,
       OperatorRule.LogicalExternalFileGetToPhysical,
       OperatorRule.LogicalQueryDerivedGetToPhysical, OperatorRule.InnerJoinToInnerNLJoin,
       OperatorRule.InnerJoinToInnerHashJoin, OperatorRule.ImplementDistinct,
       OperatorRule.ImplementLimit, OperatorRule.LogicalExportToPhysicalExport] :=
  ⟨fun _ _ _ => ⟨rfl, rfl, rfl, rfl⟩, rfl, rfl, rfl⟩

/-! ## The output list of `Transform` -/

theorem tvEquality_appends (cc : Comparability) (before : AbsExpr_Expression)
    (transformed after : List AbsExpr_Expression)
    (ht : TVEqualityWithTwoCVTransform.Transform cc before transformed = some after) :
    ∃ suffix : List AbsExpr_Expression, after = transformed ++ suffix ∧ suffix.length ≤ 1 := by
  obtain ⟨op, children⟩ := before
  unfold TVEqualityWithTwoCVTransform.Transform at ht
  simp only [AbsExpr_Expression.Children, AbsExpr_Expression.Op] at ht
  by_cases h1 : op.GetType ≠ ExpressionType.CONJUNCTION_AND
  · rw [if_pos h1] at ht; exact Option.noConfusion ht
  rw [if_neg h1] at ht
  rcases children with _ | ⟨⟨l_op, lcs⟩, _ | ⟨⟨r_op, rcs⟩, _ | ⟨x, rest⟩⟩⟩
  · exact Option.noConfusion ht
  · exact Option.noConfusion ht
  · simp only [AbsExpr_Expression.Children, AbsExpr_Expression.Op] at ht
    by_cases h2 : l_op.GetType ≠ ExpressionType.COMPARE_EQUAL
    · rw [if_pos h2] at ht; exact Option.noConfusion ht
    rw [if_neg h2] at ht
    by_cases h3 : r_op.GetType ≠ ExpressionType.COMPARE_EQUAL
    · rw [if_pos h3] at ht; exact Option.noConfusion ht
    rw [if_neg h3] at ht
    rcases lcs with _ | ⟨⟨l_tv_op, l_tv_cs⟩, _ | ⟨⟨l_cv_op, l_cv_cs⟩, _ | ⟨y, lrest⟩⟩⟩
    · exact Option.noConfusion ht
    · exact Option.noConfusion ht
    · rcases rcs with _ | ⟨⟨r_tv_op, r_tv_cs⟩, _ | ⟨⟨r_cv_op, r_cv_cs⟩, _ | ⟨z, rrest⟩⟩⟩
      · exact Option.noConfusion ht
      · exact Option.noConfusion ht
      · simp only at ht
        by_cases h4 : (!(isLeafOfType (AbsExpr_Expression.mk l_tv_op l_tv_cs) ExpressionType.VALUE_TUPLE)) = true
        · rw [if_pos h4] at ht; exact Option.noConfusion ht
        rw [if_neg h4] at ht
        by_cases h5 : (!(isLeafOfType (AbsExpr_Expression.mk l_cv_op l_cv_cs) ExpressionType.VALUE_CONSTANT)) = true
        · rw [if_pos h5] at ht; exact Option.noConfusion ht
        rw [if_neg h5] at ht
        by_cases h6 : (!(isLeafOfType (AbsExpr_Expression.mk r_tv_op r_tv_cs) ExpressionType.VALUE_TUPLE)) = true
        · rw [if_pos h6] at ht; exact Option.noConfusion ht
        rw [if_neg h6] at ht
        by_cases h7 : (!(isLeafOfType (AbsExpr_Expression.mk r_cv_op r_cv_cs) ExpressionType.VALUE_CONSTANT)) = true
        · rw [if_pos h7] at ht; exact Option.noConfusion ht
        rw [if_neg h7] at ht
        cases h8 : l_tv_op.GetExpr with
        | none => rw [h8] at ht; exact Option.noConfusion ht
        | some l_tv_expr =>
          cases h9 : r_tv_op.GetExpr with
          | none => rw [h8, h9] at ht; exact Option.noConfusion ht
          | some r_tv_expr =>
            rw [h8, h9] at ht
            simp only at ht
            by_cases h10 : l_tv_expr.ExactlyEquals r_tv_expr = true
            · rw [if_pos h10] at ht
              cases h11 : expression.asConstantValue l_cv_op.GetExpr with
              | none => rw [h11] at ht; exact Option.noConfusion ht
              | some l_cv_val =>
                cases h12 : expression.asConstantValue r_cv_op.GetExpr with
                | none => rw [h11, h12] at ht; exact Option.noConfusion ht
                | some r_cv_val =>
                  rw [h11, h12] at ht
                  simp only at ht
                  by_cases h13 : cc l_cv_val r_cv_val = true
                  · rw [if_pos h13] at ht
                    by_cases h14 : decide (l_cv_val.CompareEquals r_cv_val = CmpBool.CmpTrue) = true
                    · rw [if_pos h14] at ht
                      simp only [Option.some.injEq, AbsExpr_Expression.PushChild,
                        AbsExpr_Expression.ofContainer, List.cons_append] at ht
                      exact ⟨[_], ht.symm, Nat.le_refl 1⟩
                    · rw [if_neg h14] at ht
                      simp only [Option.some.injEq] at ht
                      exact ⟨[_], ht.symm, Nat.le_refl 1⟩
                  · rw [if_neg h13] at ht
                    simp only [Option.some.injEq] at ht
                    exact ⟨[], by rw [List.append_nil]; exact ht.symm, Nat.zero_le 1⟩
            · rw [if_neg h10] at ht
              simp only [Option.some.injEq] at ht
              exact ⟨[], by rw [List.append_nil]; exact ht.symm, Nat.zero_le 1⟩
      · exact Option.noConfusion ht
    · exact Option.noConfusion ht
  · exact Option.noConfusion ht

theorem transitiveClosure_appends (before : AbsExpr_Expression)
    (transformed after : List AbsExpr_Expression)
    (ht : TransitiveClosureConstantTransform.Transform before transformed = some after) :
    ∃ suffix : List AbsExpr_Expression, after = transformed ++ suffix ∧ suffix.length ≤ 1 := by
  obtain ⟨op, children⟩ := before
  unfold TransitiveClosureConstantTransform.Transform at ht
  simp only [AbsExpr_Expression.Children, AbsExpr_Expression.Op] at ht
  by_cases h1 : op.GetType ≠ ExpressionType.CONJUNCTION_AND
  · rw [if_pos h1] at ht; exact Option.noConfusion ht
  rw [if_neg h1] at ht
  rcases children with _ | ⟨⟨l_op, lcs⟩, _ | ⟨⟨r_op, rcs⟩, _ | ⟨x, rest⟩⟩⟩
  · exact Option.noConfusion ht
  · exact Option.noConfusion ht
  · simp only [AbsExpr_Expression.Children, AbsExpr_Expression.Op] at ht
    by_cases h2 : l_op.GetType ≠ ExpressionType.COMPARE_EQUAL
    · rw [if_pos h2] at ht; exact Option.noConfusion ht
    rw [if_neg h2] at ht
    by_cases h3 : r_op.GetType ≠ ExpressionType.COMPARE_EQUAL
    · rw [if_pos h3] at ht; exact Option.noConfusion ht
    rw [if_neg h3] at ht
    rcases lcs with _ | ⟨⟨l_tv_op, l_tv_cs⟩, _ | ⟨⟨l_cv_op, l_cv_cs⟩, _ | ⟨y, lrest⟩⟩⟩
    · exact Option.noConfusion ht
    · exact Option.noConfusion ht
    · rcases rcs with _ | ⟨⟨r_l_op, r_l_cs⟩, _ | ⟨⟨r_r_op, r_r_cs⟩, _ | ⟨z, rrest⟩⟩⟩
      · exact Option.noConfusion ht
      · exact Option.noConfusion ht
      · simp only at ht
        by_cases h4 : (!(isLeafOfType (AbsExpr_Expression.mk l_tv_op l_tv_cs)
            ExpressionType.VALUE_TUPLE)) = true
        · rw [if_pos h4] at ht; exact Option.noConfusion ht
        rw [if_neg h4] at ht
        by_cases h5 : (!(isLeafOfType (AbsExpr_Expression.mk l_cv_op l_cv_cs)
            ExpressionType.VALUE_CONSTANT)) = true
        · rw [if_pos h5] at ht; exact Option.noConfusion ht
        rw [if_neg h5] at ht
        by_cases h6 : (!(isLeafOfType (AbsExpr_Expression.mk r_l_op r_l_cs)
            ExpressionType.VALUE_TUPLE)) = true
        · rw [if_pos h6] at ht; exact Option.noConfusion ht
        rw [if_neg h6] at ht
        by_cases h7 : (!(isLeafOfType (AbsExpr_Expression.mk r_r_op r_r_cs)
            ExpressionType.VALUE_TUPLE)) = true
        · rw [if_pos h7] at ht; exact Option.noConfusion ht
        rw [if_neg h7] at ht
        cases h8 : l_tv_op.GetExpr with
        | none => rw [h8] at ht; exact Option.noConfusion ht
        | some l_tv_expr =>
          cases h9 : r_l_op.GetExpr with
          | none => rw [h8, h9] at ht; exact Option.noConfusion ht
          | some r_l_expr =>
            cases h10 : r_r_op.GetExpr with
            | none => rw [h8, h9, h10] at ht; exact Option.noConfusion ht
            | some r_r_expr =>
              rw [h8, h9, h10] at ht
              simp only at ht
              by_cases h11 : r_l_expr.ExactlyEquals r_r_expr = true
              · rw [if_pos h11] at ht
                simp only [Option.some.injEq] at ht
                exact ⟨[_], ht.symm, Nat.le_refl 1⟩
              · rw [if_neg h11] at ht
                by_cases h12 : (!(l_tv_expr.ExactlyEquals r_l_expr) &&
                    !(l_tv_expr.ExactlyEquals r_r_expr)) = true
                · rw [if_pos h12] at ht
                  simp only [Option.some.injEq] at ht
                  exact ⟨[], by rw [List.append_nil]; exact ht.symm, Nat.zero_le 1⟩
                · rw [if_neg h12] at ht
                  by_cases h13 : l_tv_expr.ExactlyEquals r_l_expr = true
                  · rw [if_pos h13] at ht
                    simp only [Option.some.injEq, AbsExpr_Expression.PushChild,
                      AbsExpr_Expression.ofContainer, List.cons_append] at ht
                    exact ⟨[_], ht.symm, Nat.le_refl 1⟩
                  · rw [if_neg h13] at ht
                    simp only [Option.some.injEq, AbsExpr_Expression.PushChild,
                      AbsExpr_Expression.ofContainer, List.cons_append] at ht
                    exact ⟨[_], ht.symm, Nat.le_refl 1⟩
      · exact Option.noConfusion ht
    · exact Option.noConfusion ht
  · exact Option.noConfusion ht


theorem comparatorElimination_appends (cc : Comparability) (type_ : RuleType)
    (before : AbsExpr_Expression) (transformed after : List AbsExpr_Expression)
    (ht : ComparatorElimination.Transform cc type_ before transformed = some after) :
    ∃ suffix : List AbsExpr_Expression, after = transformed ++ suffix ∧ suffix.length ≤ 1 := by
  unfold ComparatorElimination.Transform at ht
  split at ht
  · split at ht
    · split at ht
      · split at ht
        · simp only [Option.some.injEq] at ht
          exact ⟨[_], ht.symm, Nat.le_refl 1⟩
        · exact Option.noConfusion ht
      · simp only [Option.some.injEq] at ht
        exact ⟨[], by rw [List.append_nil]; exact ht.symm, Nat.zero_le 1⟩
    · exact Option.noConfusion ht
  · exact Option.noConfusion ht

theorem equivalentTransform_appends (root : ExpressionType)
    (before : AbsExpr_Expression) (transformed after : List AbsExpr_Expression)
    (ht : EquivalentTransform.Transform root before transformed = some after) :
    ∃ suffix : List AbsExpr_Expression, after = transformed ++ suffix ∧ suffix.length ≤ 1 := by
  unfold EquivalentTransform.Transform at ht
  split at ht
  · simp only [Option.some.injEq] at ht
    exact ⟨[_], ht.symm, Nat.le_refl 1⟩
  · exact Option.noConfusion ht

theorem shortCircuit_appends (before : AbsExpr_Expression)
    (transformed after : List AbsExpr_Expression)
    (ht : AndShortCircuit.Transform before transformed = some after ∨
      OrShortCircuit.Transform before transformed = some after) :
    ∃ suffix : List AbsExpr_Expression, after = transformed ++ suffix ∧ suffix.length ≤ 1 := by
  rcases ht with ht | ht
  · unfold AndShortCircuit.Transform at ht
    split at ht
    · split at ht
      · split at ht
        · simp only [Option.some.injEq] at ht
          exact ⟨[_], ht.symm, Nat.le_refl 1⟩
        · split at ht
          · simp only [Option.some.injEq] at ht
            exact ⟨[_], ht.symm, Nat.le_refl 1⟩
          · simp only [Option.some.injEq] at ht
            exact ⟨[], by rw [List.append_nil]; exact ht.symm, Nat.zero_le 1⟩
      · exact Option.noConfusion ht
    · exact Option.noConfusion ht
  · unfold OrShortCircuit.Transform at ht
    split at ht
    · split at ht
      · split at ht
        · simp only [Option.some.injEq] at ht
          exact ⟨[_], ht.symm, Nat.le_refl 1⟩
        · split at ht
          · simp only [Option.some.injEq] at ht
            exact ⟨[_], ht.symm, Nat.le_refl 1⟩
          · simp only [Option.some.injEq] at ht
            exact ⟨[], by rw [List.append_nil]; exact ht.symm, Nat.zero_le 1⟩
      · exact Option.noConfusion ht
    · exact Option.noConfusion ht

/-- Whatever the input and the list that it is given, a `Transform` that returns
has appended at most one expression to the list. -/
theorem transform_appends (cc : Comparability) (rule : Rule) (before : AbsExpr_Expression)
    (transformed after : List AbsExpr_Expression)
    (ht : rule.Transform cc before transformed = some after) :
    ∃ suffix : List AbsExpr_Expression, after = transformed ++ suffix ∧ suffix.length ≤ 1 := by
  cases rule with
  | ComparatorElimination type_ root =>
    exact comparatorElimination_appends cc type_ before transformed after ht
  | EquivalentTransform type_ root =>
    exact equivalentTransform_appends root before transformed after ht
  | TVEqualityWithTwoCVTransform => exact tvEquality_appends cc before transformed after ht
  | TransitiveClosureConstantTransform =>
    exact transitiveClosure_appends before transformed after ht
  | AndShortCircuit => exact shortCircuit_appends before transformed after (Or.inl ht)
  | OrShortCircuit => exact shortCircuit_appends before transformed after (Or.inr ht)

/-- C36: for each of the rules `ComparatorElimination`, `EquivalentTransform`,
`TVEqualityWithTwoCVTransform` and `TransitiveClosureConstantTransform`, whenever
`Transform` returns, the output list is the list that it was given followed by
at most one expression; and on an input that matches the pattern of the rule
`Transform` does return: a comparison of two constants for a registered
`ComparatorElimination`, an input with two children for `EquivalentTransform`,
`AND(Equal(T1, x), Equal(T2, y))` with column references and constants for
`TVEqualityWithTwoCVTransform`, `AND(Equal(K, c), Equal(L, R))` with column
references and a constant for `TransitiveClosureConstantTransform`. -/
theorem transform_appends_at_most_one (cc : Comparability)
    (transformed : List AbsExpr_Expression) :
    (∀ (rule : Rule) (input : AbsExpr_Expression) (out : List AbsExpr_Expression),
      rule.Transform cc input transformed = some out →
      ∃ suffix : List AbsExpr_Expression, out = transformed ++ suffix ∧ suffix.length ≤ 1) ∧
    (∀ (rule : RuleType) (root : ExpressionType) (input l r : AbsExpr_Expression)
        (lv rv : Value),
      Rule.ComparatorElimination rule root ∈ RuleSet.forExpressions.GetRewriteRulesByName
        RewriteRuleSetName.COMPARATOR_ELIMINATION →
      input.Children = [l, r] →
      expression.asConstantValue l.Op.GetExpr = some lv →
      expression.asConstantValue r.Op.GetExpr = some rv →
      ∃ suffix : List AbsExpr_Expression,
        (Rule.ComparatorElimination rule root).Transform cc input transformed =
          some (transformed ++ suffix) ∧ suffix.length ≤ 1) ∧
    (∀ (rule : RuleType) (root : ExpressionType) (input l r : AbsExpr_Expression),
      input.Children = [l, r] →
      ∃ suffix : List AbsExpr_Expression,
        (Rule.EquivalentTransform rule root).Transform cc input transformed =
          some (transformed ++ suffix) ∧ suffix.length ≤ 1) ∧
    (∀ (and_op l_op r_op : AbsExpr_Container) (T1 T2 : AbstractExpression) (x y : Value),
      and_op.GetType = ExpressionType.CONJUNCTION_AND →
      l_op.GetType = ExpressionType.COMPARE_EQUAL →
      r_op.GetType = ExpressionType.COMPARE_EQUAL →
      T1.GetExpressionType = ExpressionType.VALUE_TUPLE →
      T2.GetExpressionType = ExpressionType.VALUE_TUPLE →
      ∃ suffix : List AbsExpr_Expression,
        Rule.TVEqualityWithTwoCVTransform.Transform cc
            (andOfEquals and_op l_op r_op T1 (expression.ConstantValueExpression x)
              T2 (expression.ConstantValueExpression y)) transformed =
          some (transformed ++ suffix) ∧ suffix.length ≤ 1) ∧
    ∀ (and_op l_op r_op : AbsExpr_Container) (K c L R : AbstractExpression),
      and_op.GetType = ExpressionType.CONJUNCTION_AND →
      l_op.GetType = ExpressionType.COMPARE_EQUAL →
      r_op.GetType = ExpressionType.COMPARE_EQUAL →
      K.GetExpressionType = ExpressionType.VALUE_TUPLE →
      c.GetExpressionType = ExpressionType.VALUE_CONSTANT →
      L.GetExpressionType = ExpressionType.VALUE_TUPLE →
      R.GetExpressionType = ExpressionType.VALUE_TUPLE →
      ∃ suffix : List AbsExpr_Expression,
        Rule.TransitiveClosureConstantTransform.Transform cc
            (andOfEquals and_op l_op r_op K c L R) transformed =
          some (transformed ++ suffix) ∧ suffix.length ≤ 1 := by
  refine ⟨fun rule input out h => transform_appends cc rule input transformed out h,
    ?_, ?_, ?_, ?_⟩
  · intro rule root input l r lv rv hrule hchildren hl hr
    simp only [Rule.Transform]
    by_cases hcc : cc lv rv = true
    · rw [transform_comparable cc rule input l r lv rv transformed hchildren hl hr hcc]
      obtain ⟨rel, _, hcompare⟩ := compare_relation rule root hrule lv rv
      rw [hcompare]
      exact ⟨[_], rfl, Nat.le_refl 1⟩
    · refine ⟨[], ?_, Nat.zero_le 1⟩
      unfold ComparatorElimination.Transform
      rw [hchildren]
      simp only [hl, hr, hcc, List.append_nil]
      rfl
  · intro rule root input l r hchildren
    simp only [Rule.Transform]
    rw [equivalentTransform_unfold root input l r transformed hchildren]
    exact ⟨[_], rfl, Nat.le_refl 1⟩
  · intro and_op l_op r_op T1 T2 x y hand hleft hright hT1 hT2
    simp only [Rule.Transform]
    rw [tvEquality_unfold cc and_op l_op r_op T1 T2 x y transformed hand hleft hright hT1 hT2]
    by_cases h1 : T1.ExactlyEquals T2 = true ∧ cc x y = true
    · rw [if_pos h1]
      by_cases h2 : x.CompareEquals y = CmpBool.CmpTrue
      · rw [if_pos h2]; exact ⟨[_], rfl, Nat.le_refl 1⟩
      · rw [if_neg h2]; exact ⟨[_], rfl, Nat.le_refl 1⟩
    · rw [if_neg h1]
      exact ⟨[], by rw [List.append_nil], Nat.zero_le 1⟩
  · intro and_op l_op r_op K c L R hand hleft hright hK hc hL hR
    simp only [Rule.Transform]
    rw [transitiveClosure_unfold and_op l_op r_op K c L R transformed hand hleft hright hK hc
      hL hR]
    by_cases h1 : L.ExactlyEquals R = true
    · rw [if_pos h1]; exact ⟨[_], rfl, Nat.le_refl 1⟩
    · rw [if_neg h1]
      by_cases h2 : (!(K.ExactlyEquals L) && !(K.ExactlyEquals R)) = true
      · rw [if_pos h2]
        exact ⟨[], by rw [List.append_nil], Nat.zero_le 1⟩
      · rw [if_neg h2]; exact ⟨[_], rfl, Nat.le_refl 1⟩

/-- C33: for every input `AND(Equal(T1, x), Equal(T2, y))` in which the column
references are exactly equal, the constants are comparable and `x` or `y` is
NULL, the comparison of `x` with `y` for equality yields NULL and
`TVEqualityWithTwoCVTransform::Transform` appends exactly one expression, the
Boolean constant FALSE. -/
theorem tvEquality_null_constant (cc : Comparability) (and_op l_op r_op : AbsExpr_Container)
    (T1 T2 : AbstractExpression) (x y : Value) (transformed : List AbsExpr_Expression)
    (hand : and_op.GetType = ExpressionType.CONJUNCTION_AND)
    (hleft : l_op.GetType = ExpressionType.COMPARE_EQUAL)
    (hright : r_op.GetType = ExpressionType.COMPARE_EQUAL)
    (hT1 : T1.GetExpressionType = ExpressionType.VALUE_TUPLE)
    (hT2 : T2.GetExpressionType = ExpressionType.VALUE_TUPLE)
    (hsame : T1.ExactlyEquals T2 = true)
    (hcc : cc x y = true)
    (hnull : x.IsNull = true ∨ y.IsNull = true) :
    x.CompareEquals y = CmpBool.NULL_ ∧
    TVEqualityWithTwoCVTransform.Transform cc
        (andOfEquals and_op l_op r_op T1 (expression.ConstantValueExpression x)
          T2 (expression.ConstantValueExpression y)) transformed =
      some (transformed ++ [constantExpr (ValueFactory.GetBooleanValueOfBool false)]) ∧
    constantExpr (ValueFactory.GetBooleanValueOfBool false) =
      AbsExpr_Expression.mk ⟨some (expression.ConstantValueExpression
        ⟨TypeId.BOOLEAN, some 0⟩)⟩ [] := by
  have hcompare : x.CompareEquals y = CmpBool.NULL_ := compareWith_null _ x y hnull
  refine ⟨hcompare, ?_, rfl⟩
  rw [tvEquality_unfold cc and_op l_op r_op T1 T2 x y transformed hand hleft hright hT1 hT2,
    if_pos ⟨hsame, hcc⟩, hcompare]
  rfl

/-- Witness of C33 at the binding of `(A.B = NULL) AND (A.B = NULL)`, both
constants being the NULL of the integers. -/
theorem tvEquality_null_constant_witness :
    (ValueFactory.GetNullValueByType TypeId.INTEGER).IsNull = true ∧
    TVEqualityWithTwoCVTransform.Transform sameTypeComparable
        (andOfEquals andOp equalOp equalOp (columnRef "A" "B" none)
          (expression.ConstantValueExpression (ValueFactory.GetNullValueByType TypeId.INTEGER))
          (columnRef "A" "B" none)
          (expression.ConstantValueExpression (ValueFactory.GetNullValueByType TypeId.INTEGER)))
        [] =
      some ([] ++ [constantExpr (ValueFactory.GetBooleanValueOfBool false)]) :=
  ⟨rfl,
    (tvEquality_null_constant sameTypeComparable andOp equalOp equalOp (columnRef "A" "B" none)
      (columnRef "A" "B" none) (ValueFactory.GetNullValueByType TypeId.INTEGER)
      (ValueFactory.GetNullValueByType TypeId.INTEGER) [] rfl rfl rfl rfl rfl (by decide)
      (by decide) (Or.inl rfl)).2.1⟩

/-- C37: for each of the three rules registered under `EQUIVALENT_TRANSFORM` and
every input with the two children `[l, r]` whose operator tag is the root tag
of the pattern of the rule, `Transform` produces one expression with the
children `[r, l]`, and `Transform` applied to that expression produces one
expression whose operator tag is the tag of the input and whose children are
`[l, r]`, in the original order; a third application gives the flipped
expression again. -/
theorem equivalentTransform_involution (cc : Comparability) (rule : Rule)
    (hrule : rule ∈
      RuleSet.forExpressions.GetRewriteRulesByName RewriteRuleSetName.EQUIVALENT_TRANSFORM)
    (input l r : AbsExpr_Expression) (hchildren : input.Children = [l, r])
    (hroot : input.Op.GetType = rule.GetMatchPattern.type) :
    input.Op.GetType ∈ [ExpressionType.CONJUNCTION_AND, ExpressionType.CONJUNCTION_OR,
      ExpressionType.COMPARE_EQUAL] ∧
    ∃ flipped back : AbsExpr_Expression,
      rule.Transform cc input [] = some [flipped] ∧ flipped.Children = [r, l] ∧
      rule.Transform cc flipped [] = some [back] ∧
      back.Op.GetType = input.Op.GetType ∧ back.Children = [l, r] ∧
      rule.Transform cc back [] = some [flipped] := by
  have key : ∀ root : ExpressionType, input.Op.GetType = root →
      ∃ flipped back : AbsExpr_Expression,
        EquivalentTransform.Transform root input [] = some [flipped] ∧
        flipped.Children = [r, l] ∧
        EquivalentTransform.Transform root flipped [] = some [back] ∧
        back.Op.GetType = input.Op.GetType ∧ back.Children = [l, r] ∧
        EquivalentTransform.Transform root back [] = some [flipped] := by
    intro root h
    exact ⟨AbsExpr_Expression.mk ⟨some (expression.ConjunctionExpressionOfType root)⟩ [r, l],
      AbsExpr_Expression.mk ⟨some (expression.ConjunctionExpressionOfType root)⟩ [l, r],
      equivalentTransform_unfold root input l r [] hchildren, rfl,
      equivalentTransform_unfold root
        (AbsExpr_Expression.mk ⟨some (expression.ConjunctionExpressionOfType root)⟩ [r, l])
        r l [] rfl,
      h.symm, rfl,
      equivalentTransform_unfold root
        (AbsExpr_Expression.mk ⟨some (expression.ConjunctionExpressionOfType root)⟩ [l, r])
        l r [] rfl⟩
  rw [equivalent_rules] at hrule
  simp only [List.mem_cons, List.mem_singleton, List.not_mem_nil, or_false] at hrule
  rcases hrule with h | h | h <;> subst h
  · exact ⟨by rw [hroot]; decide, key _ hroot⟩
  · exact ⟨by rw [hroot]; decide, key _ hroot⟩
  · exact ⟨by rw [hroot]; decide, key _ hroot⟩

/-- Witness of C37: the rule for `AND` at the conjunction of the groups 0 and 1. -/
theorem equivalentTransform_involution_witness :
    Rule.EquivalentTransform RuleType.EQUIV_AND ExpressionType.CONJUNCTION_AND ∈
      RuleSet.forExpressions.GetRewriteRulesByName RewriteRuleSetName.EQUIVALENT_TRANSFORM ∧
    ∃ flipped back : AbsExpr_Expression,
      (Rule.EquivalentTransform RuleType.EQUIV_AND ExpressionType.CONJUNCTION_AND).Transform
          sameTypeComparable (AbsExpr_Expression.mk andOp [groupMarkerLeaf 0, groupMarkerLeaf 1])
          [] = some [flipped] ∧
      flipped.Children = [groupMarkerLeaf 1, groupMarkerLeaf 0] ∧
      (Rule.EquivalentTransform RuleType.EQUIV_AND ExpressionType.CONJUNCTION_AND).Transform
          sameTypeComparable flipped [] = some [back] ∧
      back.Op.GetType = (AbsExpr_Expression.mk andOp
        [groupMarkerLeaf 0, groupMarkerLeaf 1]).Op.GetType ∧
      back.Children = [groupMarkerLeaf 0, groupMarkerLeaf 1] ∧
      (Rule.EquivalentTransform RuleType.EQUIV_AND ExpressionType.CONJUNCTION_AND).Transform
          sameTypeComparable back [] = some [flipped] :=
  ⟨by decide,
    (equivalentTransform_involution sameTypeComparable
      (Rule.EquivalentTransform RuleType.EQUIV_AND ExpressionType.CONJUNCTION_AND) (by decide)
      (AbsExpr_Expression.mk andOp [groupMarkerLeaf 0, groupMarkerLeaf 1])
      (groupMarkerLeaf 0) (groupMarkerLeaf 1) rfl rfl).2⟩

/-! ## `SetUtil::isDisjoint` -/

theorem isDisjointLoop_false {T : Type} [LinearOrder T] (setA setB : List T) :
    SetUtil.isDisjointLoop setA setB false = false := by
  unfold SetUtil.isDisjointLoop
  cases setA <;> cases setB <;> rfl

theorem isDisjointLoop_nil_left {T : Type} [LinearOrder T] (setB : List T) (disjoint : Bool) :
    SetUtil.isDisjointLoop ([] : List T) setB disjoint = disjoint := by
  unfold SetUtil.isDisjointLoop
  rfl

theorem isDisjointLoop_nil_right {T : Type} [LinearOrder T] (setA : List T) (disjoint : Bool) :
    SetUtil.isDisjointLoop setA ([] : List T) disjoint = disjoint := by
  cases setA <;> (unfold SetUtil.isDisjointLoop; rfl)

theorem isDisjointLoop_cons {T : Type} [LinearOrder T] (a b : T) (as bs : List T) :
    SetUtil.isDisjointLoop (a :: as) (b :: bs) true =
      if a = b then false
      else if a < b then SetUtil.isDisjointLoop as (b :: bs) true
      else SetUtil.isDisjointLoop (a :: as) bs true := by
  rw [SetUtil.isDisjointLoop, isDisjointLoop_false]

/-- The loop answers true exactly when the two ascending lists share no element. -/
theorem isDisjointLoop_iff {T : Type} [LinearOrder T] :
    ∀ (n : Nat) (setA setB : List T), setA.length + setB.length ≤ n →
      setA.Sorted (· < ·) → setB.Sorted (· < ·) →
      (SetUtil.isDisjointLoop setA setB true = true ↔ ∀ x, x ∈ setA → x ∉ setB) := by
  intro n
  induction n with
  | zero =>
    intro setA setB hlen _ _
    have hA : setA = [] := List.eq_nil_of_length_eq_zero (by omega)
    subst hA
    rw [isDisjointLoop_nil_left]
    simp
  | succ n ih =>
    intro setA setB hlen hA hB
    cases setA with
    | nil => rw [isDisjointLoop_nil_left]; simp
    | cons a as =>
      cases setB with
      | nil => rw [isDisjointLoop_nil_right]; simp
      | cons b bs =>
        rw [isDisjointLoop_cons]
        have hA2 := List.sorted_cons.1 hA
        have hB2 := List.sorted_cons.1 hB
        simp only [List.length_cons] at hlen
        by_cases hab : a = b
        · rw [if_pos hab]
          constructor
          · intro h; exact Bool.noConfusion h
          · intro h
            exact absurd (by rw [hab]; exact List.mem_cons_self b bs)
              (h a (List.mem_cons_self a as))
        · rw [if_neg hab]
          by_cases hlt : a < b
          · rw [if_pos hlt, ih as (b :: bs) (by simp only [List.length_cons]; omega) hA2.2 hB]
            have ha_out : a ∉ b :: bs := by
              intro hmem
              rw [List.mem_cons] at hmem
              rcases hmem with h | h
              · exact hab h
              · exact absurd (hB2.1 a h) (not_lt.2 (le_of_lt hlt))
            constructor
            · intro h x hx
              rw [List.mem_cons] at hx
              rcases hx with hx | hx
              · rw [hx]; exact ha_out
              · exact h x hx
            · intro h x hx
              exact h x (List.mem_cons_of_mem a hx)
          · rw [if_neg hlt, ih (a :: as) bs (by simp only [List.length_cons]; omega) hA hB2.2]
            have hgt : b < a := lt_of_le_of_ne (not_lt.1 hlt) (fun h => hab h.symm)
            have hb_out : b ∉ a :: as := by
              intro hmem
              rw [List.mem_cons] at hmem
              rcases hmem with h | h
              · exact hab h.symm
              · exact absurd (hA2.1 b h) (not_lt.2 (le_of_lt hgt))
            constructor
            · intro h x hx hxb
              rw [List.mem_cons] at hxb
              rcases hxb with hxb | hxb
              · rw [hxb] at hx; exact hb_out hx
              · exact h x hx hxb
            · intro h x hx hxb
              exact h x hx (List.mem_cons_of_mem b hxb)

/-- C38: for all sets `A` and `B`, given as the ascending lists of their elements,
`SetUtil::isDisjoint(A, B)` returns true if and only if no element of `A` is
an element of `B`; it returns true whenever `A` or `B` is empty, and
`isDisjoint(A, B) = isDisjoint(B, A)`.  The function is total: its loop ends
after at most as many steps as the two sets have elements. -/
theorem isDisjoint_iff_no_common_element {T : Type} [LinearOrder T] (setA setB : List T)
    (hA : setA.Sorted (· < ·)) (hB : setB.Sorted (· < ·)) :
    (SetUtil.isDisjoint setA setB = true ↔ ∀ x, x ∈ setA → x ∉ setB) ∧
    SetUtil.isDisjoint ([] : List T) setB = true ∧
    SetUtil.isDisjoint setA ([] : List T) = true ∧
    SetUtil.isDisjoint setA setB = SetUtil.isDisjoint setB setA := by
  have key : ∀ (A B : List T), A.Sorted (· < ·) → B.Sorted (· < ·) →
      (SetUtil.isDisjoint A B = true ↔ ∀ x, x ∈ A → x ∉ B) := by
    intro A B hsA hsB
    unfold SetUtil.isDisjoint
    by_cases hempty : (A.isEmpty || B.isEmpty) = true
    · rw [if_pos hempty]
      rw [Bool.or_eq_true, List.isEmpty_iff, List.isEmpty_iff] at hempty
      rcases hempty with h | h <;> subst h <;> simp
    · rw [if_neg hempty]
      exact isDisjointLoop_iff (A.length + B.length) A B (Nat.le_refl _) hsA hsB
  refine ⟨key setA setB hA hB, rfl, ?_, ?_⟩
  · unfold SetUtil.isDisjoint
    simp
  · have h1 := key setA setB hA hB
    have h2 := key setB setA hB hA
    have hsymm : (∀ x, x ∈ setA → x ∉ setB) ↔ (∀ x, x ∈ setB → x ∉ setA) :=
      ⟨fun h x hb ha => h x ha hb, fun h x ha hb => h x hb ha⟩
    cases hd : SetUtil.isDisjoint setA setB with
    | true =>
      exact (h2.2 (hsymm.1 (h1.1 hd))).symm
    | false =>
      cases hd2 : SetUtil.isDisjoint setB setA with
      | false => rfl
      | true =>
        rw [h1.2 (hsymm.2 (h2.1 hd2))] at hd
        exact Bool.noConfusion hd

/-- Witness of C38: the sets `{1, 3, 5}` and `{2, 4}` of natural numbers are
disjoint, and `isDisjoint` says so. -/
theorem isDisjoint_iff_no_common_element_witness :
    List.Sorted (· < ·) [1, 3, 5] ∧ List.Sorted (· < ·) [2, 4] ∧
    SetUtil.isDisjoint [1, 3, 5] [2, 4] = true ∧
    SetUtil.isDisjoint [1, 3, 5] [2, 3] = false :=
  ⟨by decide, by decide,
    (isDisjoint_iff_no_common_element [1, 3, 5] [2, 4] (by decide) (by decide)).1.2 (by decide),
    by
      cases h : SetUtil.isDisjoint [1, 3, 5] [2, 3] with
      | false => rfl
      | true =>
        exact absurd ((isDisjoint_iff_no_common_element [1, 3, 5] [2, 3] (by decide)
          (by decide)).1.1 h 3 (by decide)) (by decide)⟩

/-! ## `DecentralizedEpochManager::GetExpiredEpochId` -/

/-- The loop over the thread-local epoch contexts ends with the minimum of the
value that it started from and the reported epoch identifiers. -/
theorem scanLocalEpochs_min {LocalEpoch : Type}
    (localExpired : LocalEpoch → Nat → Nat × LocalEpoch) (current : Nat) :
    ∀ (locals : List (Nat × LocalEpoch)) (start : Nat) (visited : List (Nat × LocalEpoch)),
      (DecentralizedEpochManager.scanLocalEpochs localExpired current locals
          (start, visited)).1 ≤ start ∧
      (∀ r, r ∈ locals.map (fun local_epoch => (localExpired local_epoch.2 current).1) →
        (DecentralizedEpochManager.scanLocalEpochs localExpired current locals
          (start, visited)).1 ≤ r) ∧
      ((DecentralizedEpochManager.scanLocalEpochs localExpired current locals
          (start, visited)).1 = start ∨
        (DecentralizedEpochManager.scanLocalEpochs localExpired current locals
          (start, visited)).1 ∈
            locals.map (fun local_epoch => (localExpired local_epoch.2 current).1)) ∧
      (DecentralizedEpochManager.scanLocalEpochs localExpired current locals
          (start, visited)).1 =
        (locals.map (fun local_epoch => (localExpired local_epoch.2 current).1)).foldl
          min start := by
  intro locals
  induction locals with
  | nil =>
    intro start visited
    exact ⟨Nat.le_refl _, fun r hr => absurd hr (List.not_mem_nil r), Or.inl rfl, rfl⟩
  | cons entry rest ih =>
    intro start visited
    rw [DecentralizedEpochManager.scanLocalEpochs]
    simp only [List.map_cons, List.foldl_cons, List.mem_cons]
    by_cases hlt : (localExpired entry.2 current).1 < start
    · rw [if_pos hlt]
      obtain ⟨h1, h2, h3, h4⟩ := ih (localExpired entry.2 current).1
        (visited ++ [(entry.1, (localExpired entry.2 current).2)])
      refine ⟨Nat.le_trans h1 (Nat.le_of_lt hlt), ?_, ?_, ?_⟩
      · intro r hr
        rcases hr with hr | hr
        · rw [hr]; exact h1
        · exact h2 r hr
      · rcases h3 with h3 | h3
        · exact Or.inr (Or.inl h3)
        · exact Or.inr (Or.inr h3)
      · rw [h4, Nat.min_eq_right (Nat.le_of_lt hlt)]
    · rw [if_neg hlt]
      obtain ⟨h1, h2, h3, h4⟩ := ih start
        (visited ++ [(entry.1, (localExpired entry.2 current).2)])
      refine ⟨h1, ?_, ?_, ?_⟩
      · intro r hr
        rcases hr with hr | hr
        · rw [hr]; exact Nat.le_trans h1 (Nat.le_of_not_lt hlt)
        · exact h2 r hr
      · rcases h3 with h3 | h3
        · exact Or.inl h3
        · exact Or.inr (Or.inr h3)
      · rw [h4, Nat.min_eq_left (Nat.le_of_not_lt hlt)]

/-- C39: `GetExpiredEpochId` returns the minimum of `MAX_EID` and the epoch
identifiers that the thread-local epoch contexts report, which is `MAX_EID` when
there is no context and, `MAX_EID` being the greatest epoch identifier, the
least reported identifier when there is one; when the returned value is not
`MAX_EID`, the snapshot global epoch after the call is greater than the returned
value and not smaller than it was before the call, and when it is `MAX_EID` the
snapshot global epoch is unchanged.  The current global epoch is not written. -/
theorem getExpiredEpochId_minimum {LocalEpoch : Type} (MAX_EID : Nat)
    (localExpired : LocalEpoch → Nat → Nat × LocalEpoch)
    (manager : DecentralizedEpochManager LocalEpoch)
    (hword : MAX_EID < 2 ^ 64)
    (hmax : ∀ r, r ∈ DecentralizedEpochManager.reportedEpochIds localExpired manager →
      r ≤ MAX_EID) :
    (DecentralizedEpochManager.GetExpiredEpochId MAX_EID localExpired manager).1 =
      (DecentralizedEpochManager.reportedEpochIds localExpired manager).foldl min MAX_EID ∧
    (manager.local_epochs_ = [] →
      (DecentralizedEpochManager.GetExpiredEpochId MAX_EID localExpired manager).1 = MAX_EID) ∧
    (∀ r, r ∈ DecentralizedEpochManager.reportedEpochIds localExpired manager →
      (DecentralizedEpochManager.GetExpiredEpochId MAX_EID localExpired manager).1 ≤ r) ∧
    (manager.local_epochs_ ≠ [] →
      (DecentralizedEpochManager.GetExpiredEpochId MAX_EID localExpired manager).1 ∈
        DecentralizedEpochManager.reportedEpochIds localExpired manager) ∧
    ((DecentralizedEpochManager.GetExpiredEpochId MAX_EID localExpired manager).1 ≠ MAX_EID →
      (DecentralizedEpochManager.GetExpiredEpochId MAX_EID localExpired manager).1 <
        (DecentralizedEpochManager.GetExpiredEpochId MAX_EID localExpired
          manager).2.snapshot_global_epoch_ ∧
      manager.snapshot_global_epoch_ ≤
        (DecentralizedEpochManager.GetExpiredEpochId MAX_EID localExpired
          manager).2.snapshot_global_epoch_) ∧
    ((DecentralizedEpochManager.GetExpiredEpochId MAX_EID localExpired manager).1 = MAX_EID →
      (DecentralizedEpochManager.GetExpiredEpochId MAX_EID localExpired
        manager).2.snapshot_global_epoch_ = manager.snapshot_global_epoch_) ∧
    (DecentralizedEpochManager.GetExpiredEpochId MAX_EID localExpired
      manager).2.current_global_epoch_ = manager.current_global_epoch_ := by
  obtain ⟨h1, h2, h3, h4⟩ := scanLocalEpochs_min localExpired manager.current_global_epoch_
    manager.local_epochs_ MAX_EID []
  have hresult : (DecentralizedEpochManager.GetExpiredEpochId MAX_EID localExpired manager).1 =
      (DecentralizedEpochManager.scanLocalEpochs localExpired manager.current_global_epoch_
        manager.local_epochs_ (MAX_EID, [])).1 := rfl
  have hsnapshot : (DecentralizedEpochManager.GetExpiredEpochId MAX_EID localExpired
      manager).2.snapshot_global_epoch_ =
      if (DecentralizedEpochManager.scanLocalEpochs localExpired manager.current_global_epoch_
          manager.local_epochs_ (MAX_EID, [])).1 ≠ MAX_EID ∧
        (DecentralizedEpochManager.scanLocalEpochs localExpired manager.current_global_epoch_
          manager.local_epochs_ (MAX_EID, [])).1 ≥ manager.snapshot_global_epoch_ then
        ((DecentralizedEpochManager.scanLocalEpochs localExpired manager.current_global_epoch_
          manager.local_epochs_ (MAX_EID, [])).1 + 1) % 2 ^ 64
      else manager.snapshot_global_epoch_ := rfl
  rw [hresult, hsnapshot]
  unfold DecentralizedEpochManager.reportedEpochIds at hmax ⊢
  generalize (DecentralizedEpochManager.scanLocalEpochs localExpired
    manager.current_global_epoch_ manager.local_epochs_ (MAX_EID, [])).1 = result at *
  refine ⟨h4, ?_, h2, ?_, ?_, ?_, rfl⟩
  · intro hempty
    rw [hempty] at h4
    exact h4
  · intro hne
    rcases h3 with h3 | h3
    · obtain ⟨entry, rest⟩ := List.exists_cons_of_ne_nil hne
      obtain ⟨rest, hrest⟩ := rest
      have hfirst : (localExpired entry.2 manager.current_global_epoch_).1 ∈
          manager.local_epochs_.map
            (fun local_epoch => (localExpired local_epoch.2 manager.current_global_epoch_).1) := by
        rw [hrest]; simp
      have hle := h2 _ hfirst
      have hge := hmax _ hfirst
      rw [h3] at hle
      have heq : (localExpired entry.2 manager.current_global_epoch_).1 = MAX_EID :=
        Nat.le_antisymm hge hle
      rw [h3, ← heq]
      exact hfirst
    · exact h3
  · intro hne
    have hlt : result < MAX_EID := Nat.lt_of_le_of_ne h1 hne
    by_cases hge : result ≥ manager.snapshot_global_epoch_
    · rw [if_pos ⟨hne, hge⟩, Nat.mod_eq_of_lt (by omega)]
      exact ⟨Nat.lt_succ_self _, Nat.le_succ_of_le hge⟩
    · rw [if_neg (fun h => hge h.2)]
      exact ⟨Nat.lt_of_not_le hge, Nat.le_refl _⟩
  · intro heq
    rw [if_neg (fun h => h.1 heq)]

/-- Witness of C39: two contexts that report 7 and 5, with `MAX_EID` the greatest
64-bit value and the snapshot global epoch 3: the result is 5 and the snapshot
global epoch becomes 6. -/
theorem getExpiredEpochId_minimum_witness :
    (DecentralizedEpochManager.GetExpiredEpochId (2 ^ 64 - 1) (fun (e : Nat) _ => (e, e))
      ⟨[(0, 7), (1, 5)], 9, 3⟩).1 = 5 ∧
    (DecentralizedEpochManager.GetExpiredEpochId (2 ^ 64 - 1) (fun (e : Nat) _ => (e, e))
      ⟨[(0, 7), (1, 5)], 9, 3⟩).2.snapshot_global_epoch_ = 6 ∧
    (5 : Nat) < 6 ∧ (3 : Nat) ≤ 6 ∧
    ((DecentralizedEpochManager.GetExpiredEpochId (2 ^ 64 - 1) (fun (e : Nat) _ => (e, e))
        ⟨[(0, 7), (1, 5)], 9, 3⟩).1 ≠ 2 ^ 64 - 1 →
      (DecentralizedEpochManager.GetExpiredEpochId (2 ^ 64 - 1) (fun (e : Nat) _ => (e, e))
        ⟨[(0, 7), (1, 5)], 9, 3⟩).1 <
        (DecentralizedEpochManager.GetExpiredEpochId (2 ^ 64 - 1) (fun (e : Nat) _ => (e, e))
          ⟨[(0, 7), (1, 5)], 9, 3⟩).2.snapshot_global_epoch_ ∧
      (DecentralizedEpochManager.mk [(0, 7), (1, 5)] 9 3).snapshot_global_epoch_ ≤
        (DecentralizedEpochManager.GetExpiredEpochId (2 ^ 64 - 1) (fun (e : Nat) _ => (e, e))
          ⟨[(0, 7), (1, 5)], 9, 3⟩).2.snapshot_global_epoch_) :=
  ⟨by decide, by decide, by decide, by decide,
    (getExpiredEpochId_minimum (2 ^ 64 - 1) (fun (e : Nat) _ => (e, e))
      ⟨[(0, 7), (1, 5)], 9, 3⟩ (by decide) (by decide)).2.2.2.2.1⟩

/-! ## Ingest and rebuild -/

/-- A group-expression with a defined operator has no duplicate in any memo. -/
theorem findDuplicate_defined (memo : Memo) (gexpr : GroupExpression)
    (h : gexpr.op.IsDefined = true) : memo.findDuplicate gexpr = none := by
  unfold Memo.findDuplicate
  rw [List.findIdx?_eq_none_iff]
  intro G _
  rw [Bool.eq_false_iff]
  intro hany
  rw [List.any_eq_true] at hany
  obtain ⟨e, _, heq⟩ := hany
  cases hd : e.op.IsDefined <;>
    simp [GroupExpression.operator_eq, AbsExpr_Container.operator_eq, h, hd] at heq

/-- Recording an expression with a defined operator appends one group, which
holds the operator over the groups of the children. -/
theorem recordExpression_defined (memo : Memo) (op : AbsExpr_Container)
    (children : List AbsExpr_Expression) (h : op.IsDefined = true) :
    memo.RecordExpression (AbsExpr_Expression.mk op children) none =
      (⟨(memo.RecordChildren children).1.groups ++
          [⟨[⟨op, (memo.RecordChildren children).2⟩]⟩]⟩,
        (memo.RecordChildren children).1.groups.length) := by
  rw [Memo.RecordExpression.eq_1]
  simp only [Memo.InsertExpression]
  rw [findDuplicate_defined _ _ h]

theorem recordChildren_length (children : List AbsExpr_Expression) :
    ∀ memo : Memo, (memo.RecordChildren children).2.length = children.length := by
  induction children with
  | nil => intro memo; rfl
  | cons child rest ih =>
    intro memo
    rw [Memo.RecordChildren.eq_2]
    simp only [List.length_cons, ih]

theorem convertChildren_length (children : List AbstractExpression) :
    (Rewriter.ConvertChildren children).length = children.length := by
  induction children with
  | nil => rfl
  | cons child rest ih =>
    rw [Rewriter.ConvertChildren.eq_2]
    simp only [List.length_cons, ih]

theorem mapList_length {α β : Type} (f : α → Outcome β) :
    ∀ (xs : List α) (ys : List β), Outcome.mapList f xs = Outcome.done ys →
      ys.length = xs.length := by
  intro xs
  induction xs with
  | nil =>
    intro ys h
    simp only [Outcome.mapList, Outcome.done.injEq] at h
    subst h
    rfl
  | cons a rest ih =>
    intro ys h
    simp only [Outcome.mapList] at h
    cases hf : f a with
    | done b =>
      rw [hf] at h
      cases hr : Outcome.mapList f rest with
      | done bs =>
        rw [hr] at h
        simp only [Outcome.done.injEq] at h
        rw [← h, List.length_cons, List.length_cons, ih bs hr]
      | aborted => rw [hr] at h; exact Outcome.noConfusion h
      | outOfFuel => rw [hr] at h; exact Outcome.noConfusion h
    | aborted => rw [hf] at h; exact Outcome.noConfusion h
    | outOfFuel => rw [hf] at h; exact Outcome.noConfusion h

/-- The child-count assertion of `CopyWithChildren` fails on a node without
children that is given at least one child. -/
theorem copyWithChildren_cleared (type : ExpressionType) (htype : type ∈ childCountAssertedTags)
    (cls : ExprClass) (rebuilt : List AbstractExpression) (h : rebuilt ≠ []) :
    AbsExpr_Container.CopyWithChildren ⟨some (AbstractExpression.mk type cls [])⟩ rebuilt =
      none := by
  have hlen : rebuilt.length ≠ 0 := fun h0 => h (List.length_eq_zero.1 h0)
  have hlen2 : ¬ (0 = rebuilt.length) := fun h0 => hlen h0.symm
  simp only [childCountAssertedTags, List.mem_cons, List.mem_singleton, List.not_mem_nil,
    or_false] at htype
  rcases htype with rfl | rfl | rfl | rfl | rfl | rfl | rfl <;>
    simp [AbsExpr_Container.CopyWithChildren, AbsExpr_Container.GetType,
      AbstractExpression.GetExpressionType, AbstractExpression.GetChildrenSize,
      AbstractExpression.GetChildren, hlen, hlen2]

theorem rewrite_stages_aborted {cc : Comparability} {fuel : Nat} {rewriter recorded : Rewriter}
    {expr : AbstractExpression} {root : GroupID} {metadata : OptimizerMetadata}
    (hrecord : rewriter.RecordTreeGroups expr = (recorded, root))
    (hloop : drainTaskStack cc fuel recorded.metadata_ (Rewriter.seedTaskStack root) =
      Outcome.done metadata)
    (hrebuild : Rewriter.RebuildExpression ⟨metadata⟩ fuel root = Outcome.aborted) :
    Rewriter.RewriteExpression cc fuel rewriter (some expr) = Outcome.aborted := by
  simp only [Rewriter.RewriteExpression, hrecord, Rewriter.RewriteLoop, hloop, hrebuild]

/-- Rebuilding the group of a freshly ingested node of an asserted tag that has
at least one child never returns a tree. -/
theorem rebuild_asserted_not_done (rewriter : Rewriter) (type : ExpressionType)
    (htype : type ∈ childCountAssertedTags) (cls : ExprClass) (child : AbstractExpression)
    (rest : List AbstractExpression) (fuel : Nat) (tree : AbstractExpression) :
    (rewriter.RecordTreeGroups (AbstractExpression.mk type cls (child :: rest))).1.RebuildExpression
        fuel (rewriter.RecordTreeGroups (AbstractExpression.mk type cls (child :: rest))).2 ≠
      Outcome.done tree := by
  cases fuel with
  | zero => intro h; exact Outcome.noConfusion h
  | succ fuel =>
    simp only [Rewriter.RecordTreeGroups, Rewriter.ConvertToAbsExpr.eq_1]
    rw [recordExpression_defined rewriter.metadata_.memo
      ⟨some (AbstractExpression.mk type cls [])⟩ _ rfl, Rewriter.RebuildExpression.eq_2]
    simp only [List.getElem?_concat_length]
    intro h
    cases hm : Outcome.mapList (fun group => Rewriter.RebuildExpression
        ⟨{ rewriter.metadata_ with memo := ⟨(rewriter.metadata_.memo.RecordChildren
            (Rewriter.ConvertChildren (child :: rest))).1.groups ++
          [⟨[⟨⟨some (AbstractExpression.mk type cls [])⟩,
            (rewriter.metadata_.memo.RecordChildren
              (Rewriter.ConvertChildren (child :: rest))).2⟩]⟩]⟩ }⟩ fuel group)
        (rewriter.metadata_.memo.RecordChildren
          (Rewriter.ConvertChildren (child :: rest))).2 with
    | done child_exprs =>
      have hlen := mapList_length _ _ _ hm
      rw [recordChildren_length, convertChildren_length] at hlen
      have hne : child_exprs ≠ [] := by
        intro hnil
        rw [hnil] at hlen
        exact Nat.succ_ne_zero _ hlen.symm
      rw [hm] at h
      simp only [copyWithChildren_cleared type htype cls child_exprs hne] at h
      exact Outcome.noConfusion h
    | aborted => rw [hm] at h; exact Outcome.noConfusion h
    | outOfFuel => rw [hm] at h; exact Outcome.noConfusion h

set_option maxHeartbeats 4000000 in
set_option maxRecDepth 100000 in
/-- A node of an asserted tag over one column reference passes the five passes
unchanged, since no rule matches it, and the rebuild aborts on the assertion. -/
theorem rewrite_asserted_aborts (cc : Comparability) (type : ExpressionType)
    (htype : type ∈ childCountAssertedTags) (cls : ExprClass) (table_name col_name : String)
    (bound_oid : Option Nat) (fuel : Nat) (hfuel : 16 ≤ fuel) :
    Rewriter.RewriteExpression cc fuel Rewriter.new
        (some (AbstractExpression.mk type cls [columnRef table_name col_name bound_oid])) =
      Outcome.aborted := by
  obtain ⟨n, rfl⟩ := Nat.exists_eq_add_of_le' hfuel
  simp only [childCountAssertedTags, List.mem_cons, List.mem_singleton, List.not_mem_nil,
    or_false] at htype
  rcases htype with rfl | rfl | rfl | rfl | rfl | rfl | rfl
  all_goals
    apply rewrite_stages_aborted
    · simp [Rewriter.RecordTreeGroups, Rewriter.ConvertToAbsExpr.eq_1,
        Rewriter.ConvertChildren.eq_1, Rewriter.ConvertChildren.eq_2,
        columnRef, Rewriter.new, OptimizerMetadata.fresh,
        Memo.RecordExpression.eq_1, Memo.RecordChildren.eq_1, Memo.RecordChildren.eq_2,
        Memo.markedGroup, Memo.InsertExpression, Memo.findDuplicate, Memo.empty,
        AbsExpr_Expression.Op, AbsExpr_Container.GetExpr, GroupExpression.operator_eq,
        AbsExpr_Container.operator_eq, AbsExpr_Container.IsDefined]
      exact ⟨rfl, rfl⟩
    · simp only [Rewriter.seedTaskStack, Rewriter.initialTasks, OptimizerTaskStack.Push,
        OptimizerTask.newTopDownRewrite, OptimizerTask.SetReplaceOnTransform, List.foldl]
      repeat
        apply drain_step
        · simp [OptimizerTaskStack.Push, OptimizerTask.execute, OptimizeCurrentGroup,
          validRules_equivalent, validRules_null_lookup, validRules_comparator,
          validRules_transitive, validRules_short_circuit, foldlAbort, applyRuleToGroup_mk,
          Memo.GetGroupByID, bindGroupExpression.eq_1, Rule.GetMatchPattern,
          ComparatorElimination.match_pattern, EquivalentTransform.match_pattern,
          TVEqualityWithTwoCVTransform.match_pattern,
          TransitiveClosureConstantTransform.match_pattern, AndShortCircuit.match_pattern,
          OrShortCircuit.match_pattern, andOfEqualsPattern, Pattern.leaf, Pattern.type,
          AbsExpr_Container.GetType, AbstractExpression.GetExpressionType,
          GetUniqueChildGroupIDs, insertGroupID.eq_1, insertGroupID.eq_2]
          exact ⟨rfl, rfl⟩
      exact drain_nil _ _ _
    · rw [Rewriter.RebuildExpression.eq_2]
      simp [Rewriter.RebuildExpression.eq_2, Outcome.mapList, AbsExpr_Container.CopyWithChildren,
        AbsExpr_Container.GetType, AbstractExpression.GetExpressionType,
        AbstractExpression.GetChildrenSize, AbstractExpression.GetChildren, columnRef]

/-- C35, a defect of the code: `ConvertToAbsExpr` clears the children of the node
that it wraps (`copy->ClearChildren()`), so for an aggregate or a function with
at least one child the wrapped node has no child when the tree is rebuilt; the
assertion `node->GetChildrenSize() == children.size()` of `CopyWithChildren`
fails for every list of at least one rebuilt child, rebuilding the ingested
expression never returns a tree, and `RewriteExpression` on such a node over a
column reference, `SUM(A.B)` among them, aborts.  The assertion holds only for
a node ingested without children. -/
theorem rebuild_asserted_child_count_fails (cc : Comparability) (rewriter : Rewriter)
    (cls : ExprClass) (child : AbstractExpression) (rest : List AbstractExpression) :
    (∀ type ∈ childCountAssertedTags,
      (Rewriter.ConvertToAbsExpr (AbstractExpression.mk type cls (child :: rest))).Op.GetExpr =
          some (AbstractExpression.mk type cls []) ∧
      (Rewriter.ConvertToAbsExpr (AbstractExpression.mk type cls (child :: rest))).Children.length
          = rest.length + 1 ∧
      (∀ rebuilt : List AbstractExpression, rebuilt ≠ [] →
        (Rewriter.ConvertToAbsExpr
          (AbstractExpression.mk type cls (child :: rest))).Op.CopyWithChildren rebuilt = none) ∧
      (∀ (fuel : Nat) (tree : AbstractExpression),
        (rewriter.RecordTreeGroups
            (AbstractExpression.mk type cls (child :: rest))).1.RebuildExpression fuel
          (rewriter.RecordTreeGroups (AbstractExpression.mk type cls (child :: rest))).2 ≠
          Outcome.done tree) ∧
      (∀ (table_name col_name : String) (bound_oid : Option Nat) (fuel : Nat), 16 ≤ fuel →
        Rewriter.RewriteExpression cc fuel Rewriter.new
          (some (AbstractExpression.mk type cls [columnRef table_name col_name bound_oid])) =
          Outcome.aborted) ∧
      (Rewriter.ConvertToAbsExpr (AbstractExpression.mk type cls [])).Op.CopyWithChildren [] =
        some (AbstractExpression.mk type cls [])) ∧
    Rewriter.RewriteExpression cc 16 Rewriter.new
        (some (AbstractExpression.mk ExpressionType.AGGREGATE_SUM
          (ExprClass.AggregateExpression false) [columnRef "A" "B" none])) =
      Outcome.aborted := by
  refine ⟨fun type htype => ⟨?_, ?_, ?_, ?_, ?_, ?_⟩, ?_⟩
  · rw [Rewriter.ConvertToAbsExpr.eq_1]
    rfl
  · rw [Rewriter.ConvertToAbsExpr.eq_1]
    simp only [AbsExpr_Expression.Children, convertChildren_length, List.length_cons]
  · intro rebuilt hne
    rw [Rewriter.ConvertToAbsExpr.eq_1]
    exact copyWithChildren_cleared type htype cls rebuilt hne
  · intro fuel tree
    exact rebuild_asserted_not_done rewriter type htype cls child rest fuel tree
  · intro table_name col_name bound_oid fuel hfuel
    exact rewrite_asserted_aborts cc type htype cls table_name col_name bound_oid fuel hfuel
  · rw [Rewriter.ConvertToAbsExpr.eq_1]
    simp only [childCountAssertedTags, List.mem_cons, List.mem_singleton, List.not_mem_nil,
      or_false] at htype
    rcases htype with h | h | h | h | h | h | h <;> rw [h] <;> rfl
  · exact rewrite_asserted_aborts cc _
      (List.Mem.tail _ (List.Mem.tail _ (List.Mem.head _))) _ _ _ _ 16 (Nat.le_refl _)

/-- Two children that are no group markers are recorded one after the other. -/
theorem recordChildren_pair (memo : Memo) (a b : AbsExpr_Expression)
    (ha : Memo.markedGroup a = none) (hb : Memo.markedGroup b = none) :
    memo.RecordChildren [a, b] =
      (((memo.RecordExpression a none).1.RecordExpression b none).1,
        [(memo.RecordExpression a none).2,
          ((memo.RecordExpression a none).1.RecordExpression b none).2]) := by
  rw [Memo.RecordChildren.eq_2, Memo.RecordChildren.eq_2, Memo.RecordChildren.eq_1]
  simp only [ha, hb]

theorem getElem?_append_concat {α : Type} (xs : List α) (g : α) (later : List α) :
    (xs ++ [g] ++ later)[xs.length]? = some g := by
  rw [List.append_assoc, List.getElem?_append_right (Nat.le_refl _), Nat.sub_self]
  simp

/-- A node without children that `CopyWithChildren` copies round-trips. -/
theorem roundTrips_leaf (type : ExpressionType) (cls : ExprClass)
    (hmark : Memo.markedGroup
      (AbsExpr_Expression.mk ⟨some (AbstractExpression.mk type cls [])⟩ []) = none)
    (hcopy : AbsExpr_Container.CopyWithChildren ⟨some (AbstractExpression.mk type cls [])⟩ [] =
      some (AbstractExpression.mk type cls [])) :
    RoundTrips (AbstractExpression.mk type cls []) := by
  intro memo
  rw [Rewriter.ConvertToAbsExpr.eq_1, Rewriter.ConvertChildren.eq_1,
    recordExpression_defined memo ⟨some (AbstractExpression.mk type cls [])⟩ [] rfl,
    Memo.RecordChildren.eq_1]
  refine ⟨⟨_, rfl⟩, hmark, 1, ?_⟩
  intro rewriter later fuel hgroups hfuel
  obtain ⟨k, rfl⟩ := Nat.exists_eq_add_of_le' hfuel
  have hgroup : rewriter.metadata_.memo.groups[memo.groups.length]? =
      some (⟨[⟨⟨some (AbstractExpression.mk type cls [])⟩, []⟩]⟩ : Group) := by
    rw [hgroups]
    exact getElem?_append_concat _ _ _
  exact rebuild_leaf hgroup rfl rfl hcopy

/-- A node over two round-tripping children, of a tag whose branch of
`CopyWithChildren` builds the node of its class over the two rebuilt children,
round-trips. -/
theorem roundTrips_binary (type : ExpressionType) (cls : ExprClass)
    (left right : AbstractExpression)
    (hmark : Memo.markedGroup (AbsExpr_Expression.mk
      ⟨some (AbstractExpression.mk type cls [])⟩
      [Rewriter.ConvertToAbsExpr left, Rewriter.ConvertToAbsExpr right]) = none)
    (hcopy : AbsExpr_Container.CopyWithChildren ⟨some (AbstractExpression.mk type cls [])⟩
      [left, right] = some (AbstractExpression.mk type cls [left, right]))
    (hleft : RoundTrips left) (hright : RoundTrips right) :
    RoundTrips (AbstractExpression.mk type cls [left, right]) := by
  intro memo
  obtain ⟨⟨ext1, h1⟩, hm1, nl, hnl⟩ := hleft memo
  obtain ⟨⟨ext2, h2⟩, hm2, nr, hnr⟩ :=
    hright (memo.RecordExpression (Rewriter.ConvertToAbsExpr left) none).1
  rw [Rewriter.ConvertToAbsExpr.eq_1, Rewriter.ConvertChildren.eq_2,
    Rewriter.ConvertChildren.eq_2, Rewriter.ConvertChildren.eq_1,
    recordExpression_defined memo ⟨some (AbstractExpression.mk type cls [])⟩ _ rfl,
    recordChildren_pair memo _ _ hm1 hm2]
  generalize memo.RecordExpression (Rewriter.ConvertToAbsExpr left) none = rl at *
  generalize rl.1.RecordExpression (Rewriter.ConvertToAbsExpr right) none = rr at *
  refine ⟨⟨ext1 ++ ext2 ++ [⟨[⟨⟨some (AbstractExpression.mk type cls [])⟩, [rl.2, rr.2]⟩]⟩],
    ?_⟩, hmark, max nl nr + 1, ?_⟩
  · simp only [h2, h1, List.append_assoc]
  · intro rewriter later fuel hgroups hfuel
    obtain ⟨k, rfl⟩ := Nat.exists_eq_add_of_le' hfuel
    simp only at hgroups
    have hl := hnl rewriter
      (ext2 ++ [⟨[⟨⟨some (AbstractExpression.mk type cls [])⟩, [rl.2, rr.2]⟩]⟩] ++ later)
      (max nl nr + k) (by rw [hgroups, h2]; simp only [List.append_assoc])
      (Nat.le_trans (Nat.le_max_left nl nr) (Nat.le_add_right _ _))
    have hr := hnr rewriter
      ([⟨[⟨⟨some (AbstractExpression.mk type cls [])⟩, [rl.2, rr.2]⟩]⟩] ++ later)
      (max nl nr + k) (by rw [hgroups]; simp only [List.append_assoc])
      (Nat.le_trans (Nat.le_max_right nl nr) (Nat.le_add_right _ _))
    have hfuel2 : k + (max nl nr + 1) = (max nl nr + k) + 1 := by omega
    rw [hfuel2, Rewriter.RebuildExpression.eq_2]
    dsimp only
    have hgroup : rewriter.metadata_.memo.groups[rr.1.groups.length]? =
        some ⟨[⟨⟨some (AbstractExpression.mk type cls [])⟩, [rl.2, rr.2]⟩]⟩ := by
      rw [hgroups]
      exact getElem?_append_concat _ _ _
    simp only [hgroup, Outcome.mapList, hl, hr, hcopy]

/-- Every tree of constants, column references and two-child comparisons,
conjunctions and operators round-trips. -/
theorem plainTree_roundTrips {e : AbstractExpression} (h : PlainTree e) : RoundTrips e := by
  induction h with
  | constant value => exact roundTrips_leaf _ _ rfl rfl
  | column table_name col_name bound_oid => exact roundTrips_leaf _ _ rfl rfl
  | comparison type left right htype _ _ ihl ihr =>
    refine roundTrips_binary _ _ left right rfl ?_ ihl ihr
    simp only [comparisonTags, List.mem_cons, List.mem_singleton, List.not_mem_nil,
      or_false] at htype
    rcases htype with h | h | h | h | h | h | h | h | h | h <;> rw [h] <;> rfl
  | conjunction type left right htype _ _ ihl ihr =>
    refine roundTrips_binary _ _ left right rfl ?_ ihl ihr
    simp only [conjunctionTags, List.mem_cons, List.mem_singleton, List.not_mem_nil,
      or_false] at htype
    rcases htype with h | h <;> rw [h] <;> rfl
  | operator type ret left right htype _ _ ihl ihr =>
    refine roundTrips_binary _ _ left right rfl ?_ ihl ihr
    simp only [operatorTags, List.mem_cons, List.mem_singleton, List.not_mem_nil,
      or_false] at htype
    rcases htype with h | h | h | h | h | h | h | h | h | h <;> rw [h] <;> rfl

/-- A plain tree is exactly equal to itself. -/
theorem plainTree_exactlyEquals {e : AbstractExpression} (h : PlainTree e) :
    e.ExactlyEquals e = true := by
  induction h with
  | constant value =>
    simp [expression.ConstantValueExpression, AbstractExpression.ExactlyEquals.eq_1,
      AbstractExpression.ExactlyEqualsList.eq_1]
  | column table_name col_name bound_oid =>
    simp [columnRef, AbstractExpression.ExactlyEquals.eq_1,
      AbstractExpression.ExactlyEqualsList.eq_1]
  | comparison type left right htype _ _ ihl ihr =>
    simp [expression.ComparisonExpression, AbstractExpression.ExactlyEquals.eq_1,
      AbstractExpression.ExactlyEqualsList.eq_1, AbstractExpression.ExactlyEqualsList.eq_2,
      ihl, ihr]
  | conjunction type left right htype _ _ ihl ihr =>
    simp [expression.ConjunctionExpression, AbstractExpression.ExactlyEquals.eq_1,
      AbstractExpression.ExactlyEqualsList.eq_1, AbstractExpression.ExactlyEqualsList.eq_2,
      ihl, ihr]
  | operator type ret left right htype _ _ ihl ihr =>
    simp [expression.OperatorExpression, AbstractExpression.ExactlyEquals.eq_1,
      AbstractExpression.ExactlyEqualsList.eq_1, AbstractExpression.ExactlyEqualsList.eq_2,
      ihl, ihr]

theorem plainTreeExample_plain : PlainTree plainTreeExample :=
  PlainTree.conjunction _ _ _ (List.Mem.head _)
    (PlainTree.comparison _ _ _ (List.Mem.head _) (PlainTree.column _ _ _)
      (PlainTree.constant _))
    (PlainTree.comparison _ _ _ (List.Mem.tail _ (List.Mem.tail _ (List.Mem.head _)))
      (PlainTree.operator _ _ _ _ (List.Mem.head _) (PlainTree.constant _)
        (PlainTree.constant _))
      (PlainTree.column _ _ _))

/-- C34: for every tree built only from constants, column references and
two-child comparisons, conjunctions and operators of the operator case group
(the arithmetic operators among them), and for every rewriter, recording the
tree converted by `ConvertToAbsExpr` and rebuilding the group of its root with
`RebuildExpression`, before any task has run, returns, with enough fuel, the
input tree itself: the same tags, payloads and children in the same order. -/
theorem ingest_rebuild_round_trip (rewriter : Rewriter) (expr : AbstractExpression)
    (hplain : PlainTree expr) :
    ∃ n, ∀ fuel, n ≤ fuel →
      ∃ tree, (rewriter.RecordTreeGroups expr).1.RebuildExpression fuel
          (rewriter.RecordTreeGroups expr).2 = Outcome.done tree ∧
        tree = expr ∧ tree.ExactlyEquals expr = true := by
  obtain ⟨_, _, n, hn⟩ := plainTree_roundTrips hplain rewriter.metadata_.memo
  refine ⟨n, fun fuel hfuel => ⟨expr, ?_, rfl, plainTree_exactlyEquals hplain⟩⟩
  exact hn (rewriter.RecordTreeGroups expr).1 [] fuel (by simp [Rewriter.RecordTreeGroups]) hfuel

/-- The round trip of `(A.B = 1) AND (2 + 3 < C.D)` through the rewriter without
groups. -/
theorem ingest_rebuild_round_trip_witness :
    PlainTree plainTreeExample ∧
    ∃ n, ∀ fuel, n ≤ fuel →
      ∃ tree, (Rewriter.new.RecordTreeGroups plainTreeExample).1.RebuildExpression fuel
          (Rewriter.new.RecordTreeGroups plainTreeExample).2 = Outcome.done tree ∧
        tree = plainTreeExample ∧ tree.ExactlyEquals plainTreeExample = true :=
  ⟨plainTreeExample_plain, ingest_rebuild_round_trip Rewriter.new plainTreeExample
    plainTreeExample_plain⟩

/-! ## Bindings in a decorated memo -/

/-- A fold whose every step succeeds and keeps an invariant succeeds and keeps it. -/
theorem foldlAbort_total {σ α : Type} (P : σ → Prop) (step : σ → α → Option σ) :
    ∀ (list : List α),
      (∀ s a, a ∈ list → P s → ∃ s', step s a = some s' ∧ P s') →
      ∀ init, P init → ∃ result, foldlAbort step init list = some result ∧ P result := by
  intro list
  induction list with
  | nil =>
    intro _ init hinit
    exact ⟨init, rfl, hinit⟩
  | cons a rest ih =>
    intro hstep init hinit
    obtain ⟨s', hs', hP⟩ := hstep init a (List.mem_cons_self _ _) hinit
    rw [foldlAbort_cons, hs']
    exact ih (fun s b hb hs => hstep s b (List.mem_cons_of_mem _ hb) hs) s' hP

/-- A fold whose every step returns the state it was given returns the initial
state. -/
theorem foldlAbort_noop {σ α : Type} (step : σ → α → Option σ) (init : σ) (list : List α)
    (h : ∀ a, a ∈ list → step init a = some init) : foldlAbort step init list = some init := by
  obtain ⟨result, hresult, heq⟩ := foldlAbort_total (fun s => s = init) step list
    (fun s a ha hs => ⟨init, by rw [hs]; exact h a ha, rfl⟩) init rfl
  rw [hresult, heq]

theorem bindGroupExpression_leaf (memo : Memo) (tag : ExpressionType) (x : GroupExpression)
    (b : AbsExpr_Expression) (h : b ∈ bindGroupExpression memo (Pattern.leaf tag) x) :
    x.op.GetType = tag ∧ x.child_groups = [] ∧ b = AbsExpr_Expression.mk x.op [] := by
  unfold Pattern.leaf at h
  rw [bindGroupExpression.eq_1] at h
  by_cases hc : x.op.GetType = tag ∧ ([] : List Pattern).length = x.child_groups.length
  · rw [if_pos hc] at h
    have hnil : x.child_groups = [] := List.length_eq_zero.1 hc.2.symm
    rw [hnil, bindChildren.eq_1] at h
    simp only [List.map_cons, List.map_nil, List.mem_singleton] at h
    exact ⟨hc.1, hnil, h⟩
  · rw [if_neg hc] at h
    exact absurd h (List.not_mem_nil _)

theorem bindGroupExpression_pair (memo : Memo) (tag : ExpressionType) (p1 p2 : Pattern)
    (x : GroupExpression) (b : AbsExpr_Expression)
    (h : b ∈ bindGroupExpression memo (Pattern.mk tag [p1, p2]) x) :
    x.op.GetType = tag ∧ ∃ (c1 c2 : GroupID) (b1 b2 : AbsExpr_Expression),
      x.child_groups = [c1, c2] ∧ b = AbsExpr_Expression.mk x.op [b1, b2] ∧
      b1 ∈ childBindings memo p1 c1 ∧ b2 ∈ childBindings memo p2 c2 := by
  rw [bindGroupExpression.eq_1] at h
  by_cases hc : x.op.GetType = tag ∧ [p1, p2].length = x.child_groups.length
  · rw [if_pos hc] at h
    refine ⟨hc.1, ?_⟩
    obtain ⟨hop, hlen⟩ := hc
    rcases hx : x.child_groups with _ | ⟨c1, _ | ⟨c2, _ | ⟨c3, rest⟩⟩⟩
    · rw [hx] at hlen; simp at hlen
    · rw [hx] at hlen; simp at hlen
    · rw [hx] at h
      rw [bindChildren.eq_2, bindChildren.eq_2, bindChildren.eq_1] at h
      simp only [List.mem_map, List.mem_flatMap, List.mem_singleton] at h
      obtain ⟨children, ⟨b1, hb1, rest1, ⟨b2, hb2, tl, hnil, hrest1⟩, hchildren⟩, hb⟩ := h
      refine ⟨c1, c2, b1, b2, rfl, ?_, hb1, hb2⟩
      rw [← hb, ← hchildren, ← hrest1, hnil]
    · rw [hx] at hlen; simp at hlen
  · rw [if_neg hc] at h
    exact absurd h (List.not_mem_nil _)

theorem flatMap_unit {α β : Type} (l : List α) (f : α → β) :
    (l.flatMap fun x => [f x]) = l.map f := by
  induction l with
  | nil => rfl
  | cons a t ih => simp [List.flatMap_cons, ih]

/-- The bindings of a pattern of two children at a group-expression of two
children, as a list. -/
theorem bindGroupExpression_two (memo : Memo) (tag : ExpressionType) (p1 p2 : Pattern)
    (op : AbsExpr_Container) (c1 c2 : GroupID) (htag : op.GetType = tag) :
    bindGroupExpression memo (Pattern.mk tag [p1, p2]) ⟨op, [c1, c2]⟩ =
      (childBindings memo p1 c1).flatMap fun l =>
        (childBindings memo p2 c2).map fun r => AbsExpr_Expression.mk op [l, r] := by
  rw [bindGroupExpression.eq_1, if_pos ⟨htag, rfl⟩]
  simp only [bindChildren.eq_2, bindChildren.eq_1, List.map_flatMap, List.map_map,
    List.map_cons, List.map_nil, Function.comp, flatMap_unit]
  rfl

/-- A pattern binds nothing at a group-expression of another tag. -/
theorem bindGroupExpression_other (memo : Memo) (tag : ExpressionType) (ps : List Pattern)
    (x : GroupExpression) (htag : x.op.GetType ≠ tag) :
    bindGroupExpression memo (Pattern.mk tag ps) x = [] := by
  rw [bindGroupExpression.eq_1, if_neg (fun h => htag h.1)]

/-- A pattern binds nothing at a group-expression of another number of children. -/
theorem bindGroupExpression_arity (memo : Memo) (tag : ExpressionType) (ps : List Pattern)
    (x : GroupExpression) (hlen : ps.length ≠ x.child_groups.length) :
    bindGroupExpression memo (Pattern.mk tag ps) x = [] := by
  rw [bindGroupExpression.eq_1, if_neg (fun h => hlen h.2)]

theorem mem_flips {x original : GroupExpression} (h : x ∈ original.flips) :
    original.op.GetType ∈ equivalentTags ∧
    x.op = ⟨some (expression.ConjunctionExpressionOfType original.op.GetType)⟩ ∧
    ∃ c1 c2 : GroupID, original.child_groups = [c1, c2] ∧ x.child_groups = [c2, c1] := by
  unfold GroupExpression.flips at h
  rcases hkids : original.child_groups with _ | ⟨c1, _ | ⟨c2, _ | ⟨c3, rest⟩⟩⟩
  · rw [hkids] at h; exact absurd h (List.not_mem_nil _)
  · rw [hkids] at h; exact absurd h (List.not_mem_nil _)
  · rw [hkids] at h
    simp only at h
    by_cases htag : original.op.GetType ∈ equivalentTags
    · rw [if_pos htag, List.mem_singleton] at h
      rw [h]
      exact ⟨htag, rfl, c1, c2, rfl, rfl⟩
    · rw [if_neg htag] at h
      exact absurd h (List.not_mem_nil _)
  · rw [hkids] at h; exact absurd h (List.not_mem_nil _)

/-- The logical expressions of a group of a decorated memo: the group-expression
of the blueprint and flips of it. -/
theorem decorates_mem {blueprint : List GroupExpression} {memo : Memo}
    (hdec : memo.decorates blueprint) {g : GroupID} {original x : GroupExpression}
    (hg : blueprint[g]? = some original)
    (hx : x ∈ (memo.GetGroupByID g).logical_expressions) :
    x = original ∨ x ∈ original.flips := by
  obtain ⟨extras, hgroup, hextras⟩ := hdec.2 g original hg
  unfold Memo.GetGroupByID at hx
  rw [hgroup] at hx
  simp only [Option.getD_some, List.mem_cons] at hx
  rcases hx with h | h
  · exact Or.inl h
  · exact Or.inr (hextras x h)

theorem getType_conjunctionOfType (type : ExpressionType) :
    (⟨some (expression.ConjunctionExpressionOfType type)⟩ : AbsExpr_Container).GetType = type :=
  rfl

theorem flips_type {x original : GroupExpression} (h : x ∈ original.flips) :
    x.op.GetType = original.op.GetType ∧ x.op.GetType ∈ equivalentTags := by
  obtain ⟨htag, hop, _⟩ := mem_flips h
  rw [hop, getType_conjunctionOfType]
  exact ⟨rfl, htag⟩

theorem represents_lookup {blueprint : List GroupExpression} {g : GroupID}
    {tree : AbstractExpression} (h : Represents blueprint g tree) :
    ∃ original, blueprint[g]? = some original ∧
      original.op.GetType = tree.GetExpressionType ∧
      original.child_groups.length = tree.GetChildren.length := by
  cases h with
  | leaf _ type cls hgroup => exact ⟨_, hgroup, rfl, rfl⟩
  | binary _ left_id right_id op type cls left right hgroup htype _ _ _ =>
    exact ⟨_, hgroup, htype, rfl⟩

theorem represents_lt {blueprint : List GroupExpression} {g : GroupID}
    {tree : AbstractExpression} (h : Represents blueprint g tree) : g < blueprint.length := by
  obtain ⟨original, hlookup, _⟩ := represents_lookup h
  exact (List.getElem?_eq_some_iff.1 hlookup).1

/-- A group represents the same tree in every blueprint that agrees on the groups
of the tree. -/
theorem represents_agree {blueprint other : List GroupExpression} {g : GroupID}
    {tree : AbstractExpression} (h : Represents blueprint g tree)
    (hagree : ∀ c original, blueprint[c]? = some original → c ≤ g → other[c]? = some original)
    (hbelow : ∀ c original (k : GroupID), blueprint[c]? = some original →
      k ∈ original.child_groups → k < c) :
    Represents other g tree := by
  induction h with
  | leaf g type cls hgroup =>
    exact Represents.leaf g type cls (hagree g _ hgroup (Nat.le_refl _))
  | binary g left_id right_id op type cls left right hgroup htype hcopy _ _ ihl ihr =>
    have hl : left_id < g := hbelow g _ left_id hgroup (by simp)
    have hr : right_id < g := hbelow g _ right_id hgroup (by simp)
    refine Represents.binary g left_id right_id op type cls left right
      (hagree g _ hgroup (Nat.le_refl _)) htype hcopy
      (ihl (fun c o hc hle => hagree c o hc (Nat.le_trans hle (Nat.le_of_lt hl))))
      (ihr (fun c o hc hle => hagree c o hc (Nat.le_trans hle (Nat.le_of_lt hr))))

theorem represents_append {blueprint : List GroupExpression} (ext : List GroupExpression)
    {g : GroupID} {tree : AbstractExpression} (h : Represents blueprint g tree) :
    Represents (blueprint ++ ext) g tree := by
  induction h with
  | leaf g type cls hgroup =>
    refine Represents.leaf g type cls ?_
    rw [List.getElem?_append_left (List.getElem?_eq_some_iff.1 hgroup).1]
    exact hgroup
  | binary g left_id right_id op type cls left right hgroup htype hcopy _ _ ihl ihr =>
    refine Represents.binary g left_id right_id op type cls left right ?_ htype hcopy ihl ihr
    rw [List.getElem?_append_left (List.getElem?_eq_some_iff.1 hgroup).1]
    exact hgroup

/-- The shapes of a plain tree. -/
theorem plainTree_cases {e : AbstractExpression} (h : PlainTree e) :
    (∃ value, e = AbstractExpression.mk ExpressionType.VALUE_CONSTANT
      (ExprClass.ConstantValueExpression value) []) ∨
    (∃ table_name col_name bound_oid, e = AbstractExpression.mk ExpressionType.VALUE_TUPLE
      (ExprClass.TupleValueExpression table_name col_name bound_oid) []) ∨
    ∃ type cls left right, e = AbstractExpression.mk type cls [left, right] ∧
      PlainTree left ∧ PlainTree right ∧
      (type ∈ comparisonTags ∨ type ∈ conjunctionTags ∨ type ∈ operatorTags) := by
  cases h with
  | constant value => exact Or.inl ⟨value, rfl⟩
  | column table_name col_name bound_oid => exact Or.inr (Or.inl ⟨_, _, _, rfl⟩)
  | comparison type left right htype hl hr =>
    exact Or.inr (Or.inr ⟨type, _, left, right, rfl, hl, hr, Or.inl htype⟩)
  | conjunction type left right htype hl hr =>
    exact Or.inr (Or.inr ⟨type, _, left, right, rfl, hl, hr, Or.inr (Or.inl htype)⟩)
  | operator type ret left right htype hl hr =>
    exact Or.inr (Or.inr ⟨type, _, left, right, rfl, hl, hr, Or.inr (Or.inr htype)⟩)

theorem plainTree_children {type : ExpressionType} {cls : ExprClass}
    {left right : AbstractExpression}
    (h : PlainTree (AbstractExpression.mk type cls [left, right])) :
    PlainTree left ∧ PlainTree right := by
  rcases plainTree_cases h with ⟨_, he⟩ | ⟨_, _, _, he⟩ | ⟨t, c, l, r, he, hl, hr, _⟩
  · simp at he
  · simp at he
  · simp only [AbstractExpression.mk.injEq, List.cons.injEq, and_true] at he
    obtain ⟨_, _, h1, h2⟩ := he
    rw [h1, h2]
    exact ⟨hl, hr⟩

/-- A plain tree with the tag of a constant is a constant. -/
theorem plainTree_constant {e : AbstractExpression} (h : PlainTree e)
    (htag : e.GetExpressionType = ExpressionType.VALUE_CONSTANT) :
    ∃ value, e = expression.ConstantValueExpression value := by
  rcases plainTree_cases h with ⟨v, he⟩ | ⟨_, _, _, he⟩ | ⟨t, c, l, r, he, _, _, ht⟩
  · exact ⟨v, he⟩
  · rw [he] at htag
    simp [AbstractExpression.GetExpressionType] at htag
  · rw [he] at htag
    simp only [AbstractExpression.GetExpressionType] at htag
    rw [htag] at ht
    exact absurd ht (by decide)

/-- A plain tree with the tag of a column reference is a column reference. -/
theorem plainTree_column {e : AbstractExpression} (h : PlainTree e)
    (htag : e.GetExpressionType = ExpressionType.VALUE_TUPLE) :
    ∃ table_name col_name bound_oid, e = columnRef table_name col_name bound_oid := by
  rcases plainTree_cases h with ⟨v, he⟩ | ⟨t, n, o, he⟩ | ⟨t, c, l, r, he, _, _, ht⟩
  · rw [he] at htag
    simp [AbstractExpression.GetExpressionType] at htag
  · exact ⟨t, n, o, he⟩
  · rw [he] at htag
    simp only [AbstractExpression.GetExpressionType] at htag
    rw [htag] at ht
    exact absurd ht (by decide)

/-- What a leaf pattern of a tag without an equivalent rule binds in the group
that represents a tree: the root of the tree, which is a leaf of that tag. -/
theorem childBindings_leaf {blueprint : List GroupExpression} {memo : Memo}
    (hdec : memo.decorates blueprint) {c : GroupID} {tree : AbstractExpression}
    (hrep : Represents blueprint c tree) (tag : ExpressionType) (htag : tag ∉ equivalentTags)
    (hmarker : tag ≠ ExpressionType.GROUP_MARKER) {b : AbsExpr_Expression}
    (hb : b ∈ childBindings memo (Pattern.leaf tag) c) :
    b = AbsExpr_Expression.mk ⟨some tree⟩ [] ∧ tree.isLeafOfTag tag = true := by
  unfold childBindings at hb
  rw [if_neg (by exact hmarker)] at hb
  rw [List.mem_flatMap] at hb
  obtain ⟨y, hy, hby⟩ := hb
  obtain ⟨hytag, hykids, hbeq⟩ := bindGroupExpression_leaf memo tag y b hby
  obtain ⟨original, hlookup, _, _⟩ := represents_lookup hrep
  rcases decorates_mem hdec hlookup hy with h | h
  · cases hrep with
    | leaf _ type cls hgroup =>
      rw [hgroup] at hlookup
      simp only [Option.some.injEq] at hlookup
      rw [h, ← hlookup] at hbeq hytag
      refine ⟨hbeq, ?_⟩
      simp only [AbsExpr_Container.GetType, AbstractExpression.GetExpressionType] at hytag
      simp [AbstractExpression.isLeafOfTag, hytag]
    | binary _ left_id right_id op type cls left right hgroup _ _ _ _ =>
      rw [hgroup] at hlookup
      simp only [Option.some.injEq] at hlookup
      rw [h, ← hlookup] at hykids
      simp at hykids
  · have htype := (flips_type h).2
    rw [hytag] at htype
    exact absurd htype htag

/-- A logical expression with two children in the group that represents a tree:
the tree is a node of the tag of the expression over two subtrees, which the
two child groups represent in one of the two orders. -/
theorem decorates_binary {blueprint : List GroupExpression} {memo : Memo}
    (hdec : memo.decorates blueprint) {c : GroupID} {tree : AbstractExpression}
    (hrep : Represents blueprint c tree) {y : GroupExpression}
    (hy : y ∈ (memo.GetGroupByID c).logical_expressions) {d1 d2 : GroupID}
    (hkids : y.child_groups = [d1, d2]) :
    ∃ cls left right, tree = AbstractExpression.mk y.op.GetType cls [left, right] ∧
      ((Represents blueprint d1 left ∧ Represents blueprint d2 right) ∨
        (Represents blueprint d1 right ∧ Represents blueprint d2 left)) := by
  obtain ⟨original, hlookup, _, _⟩ := represents_lookup hrep
  have hmem := decorates_mem hdec hlookup hy
  cases hrep with
  | leaf _ type cls hgroup =>
    rw [hgroup] at hlookup
    simp only [Option.some.injEq] at hlookup
    rcases hmem with h | h
    · rw [h, ← hlookup] at hkids
      simp at hkids
    · obtain ⟨_, _, c1, c2, horig, _⟩ := mem_flips h
      rw [← hlookup] at horig
      simp at horig
  | binary _ left_id right_id op type cls left right hgroup htype hcopy hl hr =>
    rw [hgroup] at hlookup
    simp only [Option.some.injEq] at hlookup
    rcases hmem with h | h
    · rw [h, ← hlookup] at hkids ⊢
      simp only [List.cons.injEq, and_true] at hkids
      obtain ⟨h1, h2⟩ := hkids
      rw [← h1, ← h2]
      simp only
      rw [htype]
      exact ⟨cls, left, right, rfl, Or.inl ⟨hl, hr⟩⟩
    · have hytype := (flips_type h).1
      obtain ⟨_, _, c1, c2, horig, hflip⟩ := mem_flips h
      rw [← hlookup] at horig hytype
      simp only [List.cons.injEq, and_true] at horig
      obtain ⟨h1, h2⟩ := horig
      simp only at hytype
      rw [hytype, htype]
      refine ⟨cls, left, right, rfl, ?_⟩
      rw [hflip] at hkids
      simp only [List.cons.injEq, and_true] at hkids
      obtain ⟨h3, h4⟩ := hkids
      rw [← h3, ← h4, ← h1, ← h2]
      exact Or.inr ⟨hr, hl⟩

/-- What the pattern of an equality of two leaves binds in the group that
represents a tree: the tree is an equality of two leaves of the two tags, bound
in the order of the pattern. -/
theorem childBindings_equality {blueprint : List GroupExpression} {memo : Memo}
    (hdec : memo.decorates blueprint) {c : GroupID} {tree : AbstractExpression}
    (hrep : Represents blueprint c tree) (a1 a2 : ExpressionType)
    (ha1 : a1 ∉ equivalentTags) (hm1 : a1 ≠ ExpressionType.GROUP_MARKER)
    (ha2 : a2 ∉ equivalentTags) (hm2 : a2 ≠ ExpressionType.GROUP_MARKER)
    {b : AbsExpr_Expression}
    (hb : b ∈ childBindings memo
      (Pattern.mk ExpressionType.COMPARE_EQUAL [Pattern.leaf a1, Pattern.leaf a2]) c) :
    ∃ (op : AbsExpr_Container) (cls : ExprClass) (p q w1 w2 : AbstractExpression),
      b = AbsExpr_Expression.mk op
        [AbsExpr_Expression.mk ⟨some w1⟩ [], AbsExpr_Expression.mk ⟨some w2⟩ []] ∧
      op.GetType = ExpressionType.COMPARE_EQUAL ∧
      tree = AbstractExpression.mk ExpressionType.COMPARE_EQUAL cls [p, q] ∧
      ((w1 = p ∧ w2 = q) ∨ (w1 = q ∧ w2 = p)) ∧
      w1.isLeafOfTag a1 = true ∧ w2.isLeafOfTag a2 = true := by
  unfold childBindings at hb
  rw [if_neg (by simp [Pattern.type])] at hb
  rw [List.mem_flatMap] at hb
  obtain ⟨y, hy, hby⟩ := hb
  obtain ⟨hytag, d1, d2, b1, b2, hkids, hbeq, hb1, hb2⟩ :=
    bindGroupExpression_pair memo _ _ _ y b hby
  obtain ⟨cls, left, right, htree, horient⟩ := decorates_binary hdec hrep hy hkids
  rw [hytag] at htree
  rcases horient with ⟨h1, h2⟩ | ⟨h1, h2⟩
  · obtain ⟨e1, l1⟩ := childBindings_leaf hdec h1 a1 ha1 hm1 hb1
    obtain ⟨e2, l2⟩ := childBindings_leaf hdec h2 a2 ha2 hm2 hb2
    refine ⟨y.op, cls, left, right, left, right, ?_, hytag, htree, Or.inl ⟨rfl, rfl⟩, l1, l2⟩
    rw [hbeq, e1, e2]
  · obtain ⟨e1, l1⟩ := childBindings_leaf hdec h1 a1 ha1 hm1 hb1
    obtain ⟨e2, l2⟩ := childBindings_leaf hdec h2 a2 ha2 hm2 hb2
    refine ⟨y.op, cls, left, right, right, left, ?_, hytag, htree, Or.inr ⟨rfl, rfl⟩, l1, l2⟩
    rw [hbeq, e1, e2]

theorem isLeafOfTag_type {tag : ExpressionType} {e : AbstractExpression}
    (h : e.isLeafOfTag tag = true) : e.GetExpressionType = tag := by
  obtain ⟨type, cls, children⟩ := e
  simp only [AbstractExpression.isLeafOfTag, Bool.and_eq_true, decide_eq_true_eq] at h
  exact h.1

theorem isLeafOfTag_unique {a b : ExpressionType} {e : AbstractExpression}
    (ha : e.isLeafOfTag a = true) (hne : a ≠ b) : e.isLeafOfTag b = false := by
  obtain ⟨type, cls, children⟩ := e
  simp only [AbstractExpression.isLeafOfTag, Bool.and_eq_true, decide_eq_true_eq] at ha
  simp only [AbstractExpression.isLeafOfTag, Bool.and_eq_false_imp, decide_eq_true_eq]
  intro hb
  exact absurd (ha.1.symm.trans hb) hne

/-- The column of an equality of a column and a constant, read in either order. -/
theorem equatedColumn_of (cls : ExprClass) (p q w1 w2 : AbstractExpression)
    (horient : (w1 = p ∧ w2 = q) ∨ (w1 = q ∧ w2 = p))
    (h1 : w1.isLeafOfTag ExpressionType.VALUE_TUPLE = true)
    (h2 : w2.isLeafOfTag ExpressionType.VALUE_CONSTANT = true) :
    (AbstractExpression.mk ExpressionType.COMPARE_EQUAL cls [p, q]).equatedColumn = some w1 := by
  unfold AbstractExpression.equatedColumn
  rcases horient with ⟨e1, e2⟩ | ⟨e1, e2⟩
  · rw [← e1, ← e2]
    simp [h1, h2]
  · rw [← e1, ← e2]
    simp [h1, h2, isLeafOfTag_unique h2 (by decide : ExpressionType.VALUE_CONSTANT ≠
      ExpressionType.VALUE_TUPLE)]

/-- The columns of an equality of two columns. -/
theorem equatedColumns_of (cls : ExprClass) (p q : AbstractExpression)
    (h1 : p.isLeafOfTag ExpressionType.VALUE_TUPLE = true)
    (h2 : q.isLeafOfTag ExpressionType.VALUE_TUPLE = true) :
    (AbstractExpression.mk ExpressionType.COMPARE_EQUAL cls [p, q]).equatedColumns =
      some (p, q) := by
  unfold AbstractExpression.equatedColumns
  simp [h1, h2]

/-! ## The rules that replace produce nothing where no rule applies -/

theorem anyNode_root {test : AbstractExpression → Bool} {type : ExpressionType}
    {cls : ExprClass} {children : List AbstractExpression}
    (h : (AbstractExpression.mk type cls children).anyNode test = false) :
    test (AbstractExpression.mk type cls children) = false ∧
      AbstractExpression.anyNodeList test children = false := by
  rw [AbstractExpression.anyNode.eq_1, Bool.or_eq_false_iff] at h
  exact h

theorem anyNode_pair {test : AbstractExpression → Bool} {type : ExpressionType}
    {cls : ExprClass} {left right : AbstractExpression}
    (h : (AbstractExpression.mk type cls [left, right]).anyNode test = false) :
    test (AbstractExpression.mk type cls [left, right]) = false ∧
      left.anyNode test = false ∧ right.anyNode test = false := by
  obtain ⟨hroot, hkids⟩ := anyNode_root h
  rw [AbstractExpression.anyNodeList.eq_2, AbstractExpression.anyNodeList.eq_2,
    AbstractExpression.anyNodeList.eq_1, Bool.or_false, Bool.or_eq_false_iff] at hkids
  exact ⟨hroot, hkids⟩

theorem anyNode_test {test : AbstractExpression → Bool} {e : AbstractExpression}
    (h : e.anyNode test = false) : test e = false := by
  obtain ⟨type, cls, children⟩ := e
  exact (anyNode_root h).1

/-- No comparison elimination rule binds in a group that represents a tree
without a comparison of two constants at its root. -/
theorem comparator_no_binding {blueprint : List GroupExpression} {memo : Memo}
    (hdec : memo.decorates blueprint) {g : GroupID} {tree : AbstractExpression}
    (hrep : Represents blueprint g tree) (hredex : tree.comparatorRedex = false)
    {x : GroupExpression}
    (hx : x ∈ (memo.GetGroupByID g).logical_expressions) (root : ExpressionType)
    (hroot : root ∈ comparatorTags) (b : AbsExpr_Expression) :
    b ∉ bindGroupExpression memo (ComparatorElimination.match_pattern root) x := by
  intro hb
  obtain ⟨hxtag, c1, c2, b1, b2, hkids, _, hb1, hb2⟩ :=
    bindGroupExpression_pair memo _ _ _ x b hb
  obtain ⟨cls, left, right, htree, horient⟩ := decorates_binary hdec hrep hx hkids
  have hleaves : left.isLeafOfTag ExpressionType.VALUE_CONSTANT = true ∧
      right.isLeafOfTag ExpressionType.VALUE_CONSTANT = true := by
    rcases horient with ⟨h1, h2⟩ | ⟨h1, h2⟩
    · exact ⟨(childBindings_leaf hdec h1 _ (by decide) (by decide) hb1).2,
        (childBindings_leaf hdec h2 _ (by decide) (by decide) hb2).2⟩
    · exact ⟨(childBindings_leaf hdec h2 _ (by decide) (by decide) hb2).2,
        (childBindings_leaf hdec h1 _ (by decide) (by decide) hb1).2⟩
  rw [htree, hxtag] at hredex
  simp [AbstractExpression.comparatorRedex, hroot, hleaves.1, hleaves.2] at hredex

/-- What the pattern `AND(Equal(a1, a2), Equal(a3, a4))` of leaves binds in a group
that represents a tree: the tree is a conjunction of two equalities of leaves,
and the binding holds the two equalities in one of the two orders, each with
its leaves in the order of the pattern. -/
theorem bind_andOfEquals {blueprint : List GroupExpression} {memo : Memo}
    (hdec : memo.decorates blueprint) {g : GroupID} {tree : AbstractExpression}
    (hrep : Represents blueprint g tree) {x : GroupExpression}
    (hx : x ∈ (memo.GetGroupByID g).logical_expressions) (a1 a2 a3 a4 : ExpressionType)
    (ha1 : a1 ∉ equivalentTags) (hm1 : a1 ≠ ExpressionType.GROUP_MARKER)
    (ha2 : a2 ∉ equivalentTags) (hm2 : a2 ≠ ExpressionType.GROUP_MARKER)
    (ha3 : a3 ∉ equivalentTags) (hm3 : a3 ≠ ExpressionType.GROUP_MARKER)
    (ha4 : a4 ∉ equivalentTags) (hm4 : a4 ≠ ExpressionType.GROUP_MARKER)
    {b : AbsExpr_Expression}
    (hb : b ∈ bindGroupExpression memo (andOfEqualsPattern a1 a2 a3 a4) x) :
    ∃ (op1 op2 : AbsExpr_Container) (cls cls1 cls2 : ExprClass)
      (left right u1 u2 p1 q1 p2 q2 w1 w2 w3 w4 : AbstractExpression),
      b = andOfEquals x.op op1 op2 w1 w2 w3 w4 ∧
      x.op.GetType = ExpressionType.CONJUNCTION_AND ∧
      op1.GetType = ExpressionType.COMPARE_EQUAL ∧ op2.GetType = ExpressionType.COMPARE_EQUAL ∧
      tree = AbstractExpression.mk ExpressionType.CONJUNCTION_AND cls [left, right] ∧
      ((u1 = left ∧ u2 = right) ∨ (u1 = right ∧ u2 = left)) ∧
      u1 = AbstractExpression.mk ExpressionType.COMPARE_EQUAL cls1 [p1, q1] ∧
      ((w1 = p1 ∧ w2 = q1) ∨ (w1 = q1 ∧ w2 = p1)) ∧
      u2 = AbstractExpression.mk ExpressionType.COMPARE_EQUAL cls2 [p2, q2] ∧
      ((w3 = p2 ∧ w4 = q2) ∨ (w3 = q2 ∧ w4 = p2)) ∧
      w1.isLeafOfTag a1 = true ∧ w2.isLeafOfTag a2 = true ∧
      w3.isLeafOfTag a3 = true ∧ w4.isLeafOfTag a4 = true := by
  unfold andOfEqualsPattern at hb
  obtain ⟨hxtag, c1, c2, b1, b2, hkids, hbeq, hb1, hb2⟩ :=
    bindGroupExpression_pair memo _ _ _ x b hb
  obtain ⟨cls, left, right, htree, horient⟩ := decorates_binary hdec hrep hx hkids
  rw [hxtag] at htree
  rcases horient with ⟨h1, h2⟩ | ⟨h1, h2⟩
  · obtain ⟨op1, cls1, p1, q1, w1, w2, e1, t1, hu1, o1, l1, l2⟩ :=
      childBindings_equality hdec h1 a1 a2 ha1 hm1 ha2 hm2 hb1
    obtain ⟨op2, cls2, p2, q2, w3, w4, e2, t2, hu2, o2, l3, l4⟩ :=
      childBindings_equality hdec h2 a3 a4 ha3 hm3 ha4 hm4 hb2
    refine ⟨op1, op2, cls, cls1, cls2, left, right, left, right, p1, q1, p2, q2, w1, w2, w3,
      w4, ?_, hxtag, t1, t2, htree, Or.inl ⟨rfl, rfl⟩, hu1, o1, hu2, o2, l1, l2, l3, l4⟩
    rw [hbeq, e1, e2]
    rfl
  · obtain ⟨op1, cls1, p1, q1, w1, w2, e1, t1, hu1, o1, l1, l2⟩ :=
      childBindings_equality hdec h1 a1 a2 ha1 hm1 ha2 hm2 hb1
    obtain ⟨op2, cls2, p2, q2, w3, w4, e2, t2, hu2, o2, l3, l4⟩ :=
      childBindings_equality hdec h2 a3 a4 ha3 hm3 ha4 hm4 hb2
    refine ⟨op1, op2, cls, cls1, cls2, left, right, right, left, p1, q1, p2, q2, w1, w2, w3,
      w4, ?_, hxtag, t1, t2, htree, Or.inr ⟨rfl, rfl⟩, hu1, o1, hu2, o2, l1, l2, l3, l4⟩
    rw [hbeq, e1, e2]
    rfl

/-- Neither order of the operands of a conjunction at which no transitive rule
applies is a redex. -/
theorem transitiveRedexOf_false {cls : ExprClass} {left right u1 u2 : AbstractExpression}
    (hredex : (AbstractExpression.mk ExpressionType.CONJUNCTION_AND cls
      [left, right]).transitiveRedex = false)
    (horient : (u1 = left ∧ u2 = right) ∨ (u1 = right ∧ u2 = left)) :
    AbstractExpression.transitiveRedexOf u1 u2 = false := by
  simp only [AbstractExpression.transitiveRedex, Bool.or_eq_false_iff,
    decide_True, Bool.true_and] at hredex
  rcases horient with ⟨h1, h2⟩ | ⟨h1, h2⟩
  · rw [h1, h2]; exact hredex.1
  · rw [h1, h2]; exact hredex.2

theorem plainTree_oriented {cls : ExprClass} {type : ExpressionType}
    {p q w1 w2 : AbstractExpression}
    (h : PlainTree (AbstractExpression.mk type cls [p, q]))
    (horient : (w1 = p ∧ w2 = q) ∨ (w1 = q ∧ w2 = p)) : PlainTree w1 ∧ PlainTree w2 := by
  obtain ⟨hp, hq⟩ := plainTree_children h
  rcases horient with ⟨h1, h2⟩ | ⟨h1, h2⟩
  · rw [h1, h2]; exact ⟨hp, hq⟩
  · rw [h1, h2]; exact ⟨hq, hp⟩

theorem exactlyEquals_false_symm {a b : AbstractExpression} (ha : PlainTree a)
    (h : a.ExactlyEquals b = false) : b.ExactlyEquals a = false := by
  cases hb : b.ExactlyEquals a with
  | false => rfl
  | true =>
    have heq := exactlyEquals_eq b a hb
    rw [heq, plainTree_exactlyEquals ha] at h
    exact Bool.noConfusion h

/-- In a group that represents a tree at whose root no transitive rule applies,
`TVEqualityWithTwoCVTransform` produces nothing at any binding. -/
theorem tvEquality_no_output {blueprint : List GroupExpression} {memo : Memo}
    (hdec : memo.decorates blueprint) {g : GroupID} {tree : AbstractExpression}
    (hrep : Represents blueprint g tree) (hplain : PlainTree tree)
    (hredex : tree.transitiveRedex = false) {x : GroupExpression}
    (hx : x ∈ (memo.GetGroupByID g).logical_expressions) (cc : Comparability)
    {b : AbsExpr_Expression}
    (hb : b ∈ bindGroupExpression memo TVEqualityWithTwoCVTransform.match_pattern x) :
    TVEqualityWithTwoCVTransform.Transform cc b [] = some [] := by
  obtain ⟨op1, op2, cls, cls1, cls2, left, right, u1, u2, p1, q1, p2, q2, w1, w2, w3, w4, hbeq,
    hxtag, t1, t2, htree, horient, hu1, o1, hu2, o2, l1, l2, l3, l4⟩ :=
    bind_andOfEquals hdec hrep hx _ _ _ _ (by decide) (by decide) (by decide) (by decide)
      (by decide) (by decide) (by decide) (by decide) hb
  rw [htree] at hredex hplain
  have hof := transitiveRedexOf_false hredex horient
  obtain ⟨hpu1, hpu2⟩ := plainTree_oriented hplain horient
  rw [hu1] at hpu1
  rw [hu2] at hpu2
  obtain ⟨_, hpw2⟩ := plainTree_oriented hpu1 o1
  obtain ⟨_, hpw4⟩ := plainTree_oriented hpu2 o2
  obtain ⟨v2, hv2⟩ := plainTree_constant hpw2 (isLeafOfTag_type l2)
  obtain ⟨v4, hv4⟩ := plainTree_constant hpw4 (isLeafOfTag_type l4)
  have hne : w1.ExactlyEquals w3 = false := by
    unfold AbstractExpression.transitiveRedexOf at hof
    rw [hu1, hu2, equatedColumn_of cls1 p1 q1 w1 w2 o1 l1 l2,
      equatedColumn_of cls2 p2 q2 w3 w4 o2 l3 l4] at hof
    simp only [Bool.or_eq_false_iff] at hof
    exact hof.1
  rw [hbeq, hv2, hv4, tvEquality_unfold cc x.op op1 op2 w1 w3 v2 v4 [] hxtag t1 t2
    (isLeafOfTag_type l1) (isLeafOfTag_type l3)]
  simp [hne]

/-- In a group that represents a tree at whose root no transitive rule applies,
`TransitiveClosureConstantTransform` produces nothing at any binding. -/
theorem transitiveClosure_no_output {blueprint : List GroupExpression} {memo : Memo}
    (hdec : memo.decorates blueprint) {g : GroupID} {tree : AbstractExpression}
    (hrep : Represents blueprint g tree) (hplain : PlainTree tree)
    (hredex : tree.transitiveRedex = false) {x : GroupExpression}
    (hx : x ∈ (memo.GetGroupByID g).logical_expressions)
    {b : AbsExpr_Expression}
    (hb : b ∈ bindGroupExpression memo TransitiveClosureConstantTransform.match_pattern x) :
    TransitiveClosureConstantTransform.Transform b [] = some [] := by
  obtain ⟨op1, op2, cls, cls1, cls2, left, right, u1, u2, p1, q1, p2, q2, w1, w2, w3, w4, hbeq,
    hxtag, t1, t2, htree, horient, hu1, o1, hu2, o2, l1, l2, l3, l4⟩ :=
    bind_andOfEquals hdec hrep hx _ _ _ _ (by decide) (by decide) (by decide) (by decide)
      (by decide) (by decide) (by decide) (by decide) hb
  rw [htree] at hredex hplain
  have hof := transitiveRedexOf_false hredex horient
  obtain ⟨hpu1, hpu2⟩ := plainTree_oriented hplain horient
  rw [hu1] at hpu1
  rw [hu2] at hpu2
  obtain ⟨hpw1, _⟩ := plainTree_oriented hpu1 o1
  obtain ⟨hpp2, hpq2⟩ := plainTree_children hpu2
  have hp2 : p2.isLeafOfTag ExpressionType.VALUE_TUPLE = true := by
    rcases o2 with ⟨h1, h2⟩ | ⟨h1, h2⟩
    · rw [← h1]; exact l3
    · rw [← h2]; exact l4
  have hq2 : q2.isLeafOfTag ExpressionType.VALUE_TUPLE = true := by
    rcases o2 with ⟨h1, h2⟩ | ⟨h1, h2⟩
    · rw [← h2]; exact l4
    · rw [← h1]; exact l3
  unfold AbstractExpression.transitiveRedexOf at hof
  rw [hu1, hu2, equatedColumn_of cls1 p1 q1 w1 w2 o1 l1 l2,
    equatedColumns_of cls2 p2 q2 hp2 hq2] at hof
  simp only [Bool.or_eq_false_iff] at hof
  obtain ⟨_, ⟨hpq, hkp⟩, hkq⟩ := hof
  have hfacts : w3.ExactlyEquals w4 = false ∧ w1.ExactlyEquals w3 = false ∧
      w1.ExactlyEquals w4 = false := by
    rcases o2 with ⟨h1, h2⟩ | ⟨h1, h2⟩
    · rw [h1, h2]; exact ⟨hpq, hkp, hkq⟩
    · rw [h1, h2]; exact ⟨exactlyEquals_false_symm hpp2 hpq, hkq, hkp⟩
  rw [hbeq, transitiveClosure_unfold x.op op1 op2 w1 w2 w3 w4 [] hxtag t1 t2
    (isLeafOfTag_type l1) (isLeafOfTag_type l2) (isLeafOfTag_type l3) (isLeafOfTag_type l4)]
  simp [hfacts.1, hfacts.2.1, hfacts.2.2]

/-- What the pattern of a short-circuit rule binds in a group that represents a
tree at whose root no short-circuit rule applies: a constant that is neither
TRUE nor FALSE, and a group marker. -/
theorem bind_shortCircuit {blueprint : List GroupExpression} {memo : Memo}
    (hdec : memo.decorates blueprint) {g : GroupID} {tree : AbstractExpression}
    (hrep : Represents blueprint g tree) (hplain : PlainTree tree)
    (hredex : tree.shortCircuitRedex = false) {x : GroupExpression}
    (hx : x ∈ (memo.GetGroupByID g).logical_expressions) (root : ExpressionType)
    (hroot : root = ExpressionType.CONJUNCTION_AND ∨ root = ExpressionType.CONJUNCTION_OR)
    {b : AbsExpr_Expression}
    (hb : b ∈ bindGroupExpression memo (Pattern.mk root
      [Pattern.leaf ExpressionType.VALUE_CONSTANT, Pattern.leaf ExpressionType.GROUP_MARKER])
      x) :
    ∃ (value : Value) (marker : AbsExpr_Expression),
      b = AbsExpr_Expression.mk x.op
        [AbsExpr_Expression.mk ⟨some (expression.ConstantValueExpression value)⟩ [], marker] ∧
      value ≠ ValueFactory.GetBooleanValueOfBool true ∧
      value ≠ ValueFactory.GetBooleanValueOfBool false := by
  obtain ⟨hxtag, c1, c2, b1, b2, hkids, hbeq, hb1, _⟩ :=
    bindGroupExpression_pair memo _ _ _ x b hb
  obtain ⟨cls, left, right, htree, horient⟩ := decorates_binary hdec hrep hx hkids
  rw [hxtag] at htree
  rw [htree] at hredex hplain
  have htruth : left.isTruthConstant = false ∧ right.isTruthConstant = false := by
    rcases hroot with h | h <;>
    · rw [h] at hredex
      simp only [AbstractExpression.shortCircuitRedex,
        Bool.or_eq_false_iff, decide_True, Bool.true_and, Bool.or_true, Bool.true_or] at hredex
      exact hredex
  obtain ⟨hpl, hpr⟩ := plainTree_children hplain
  have key : ∀ w : AbstractExpression, PlainTree w → w.isTruthConstant = false →
      Represents blueprint c1 w →
      ∃ (value : Value) (marker : AbsExpr_Expression),
        b = AbsExpr_Expression.mk x.op
          [AbsExpr_Expression.mk ⟨some (expression.ConstantValueExpression value)⟩ [],
            marker] ∧
        value ≠ ValueFactory.GetBooleanValueOfBool true ∧
        value ≠ ValueFactory.GetBooleanValueOfBool false := by
    intro w hpw htw hrw
    obtain ⟨e1, l1⟩ := childBindings_leaf hdec hrw _ (by decide) (by decide) hb1
    obtain ⟨v, hv⟩ := plainTree_constant hpw (isLeafOfTag_type l1)
    refine ⟨v, b2, ?_, ?_, ?_⟩
    · rw [hbeq, e1, hv]
    · intro hvt
      rw [hv, hvt] at htw
      revert htw
      decide
    · intro hvf
      rw [hv, hvf] at htw
      revert htw
      decide
  rcases horient with ⟨h1, _⟩ | ⟨h1, _⟩
  · exact key left hpl htruth.1 h1
  · exact key right hpr htruth.2 h1

theorem andShortCircuit_no_output {blueprint : List GroupExpression} {memo : Memo}
    (hdec : memo.decorates blueprint) {g : GroupID} {tree : AbstractExpression}
    (hrep : Represents blueprint g tree) (hplain : PlainTree tree)
    (hredex : tree.shortCircuitRedex = false) {x : GroupExpression}
    (hx : x ∈ (memo.GetGroupByID g).logical_expressions) {b : AbsExpr_Expression}
    (hb : b ∈ bindGroupExpression memo AndShortCircuit.match_pattern x) :
    AndShortCircuit.Transform b [] = some [] := by
  obtain ⟨value, marker, hbeq, ht, hf⟩ :=
    bind_shortCircuit hdec hrep hplain hredex hx _ (Or.inl rfl) hb
  rw [hbeq]
  simp [AndShortCircuit.Transform, AbsExpr_Expression.Children, AbsExpr_Expression.Op,
    AbsExpr_Container.GetExpr, expression.asConstantValue, expression.ConstantValueExpression,
    ht, hf]

theorem orShortCircuit_no_output {blueprint : List GroupExpression} {memo : Memo}
    (hdec : memo.decorates blueprint) {g : GroupID} {tree : AbstractExpression}
    (hrep : Represents blueprint g tree) (hplain : PlainTree tree)
    (hredex : tree.shortCircuitRedex = false) {x : GroupExpression}
    (hx : x ∈ (memo.GetGroupByID g).logical_expressions) {b : AbsExpr_Expression}
    (hb : b ∈ bindGroupExpression memo OrShortCircuit.match_pattern x) :
    OrShortCircuit.Transform b [] = some [] := by
  obtain ⟨value, marker, hbeq, ht, hf⟩ :=
    bind_shortCircuit hdec hrep hplain hredex hx _ (Or.inr rfl) hb
  rw [hbeq]
  simp [OrShortCircuit.Transform, AbsExpr_Expression.Children, AbsExpr_Expression.Op,
    AbsExpr_Container.GetExpr, expression.asConstantValue, expression.ConstantValueExpression,
    ht, hf]

/-! ## The tasks on a decorated memo -/

/-- A rule that produces nothing at any binding leaves the memo as it is. -/
theorem applyRuleToGroup_noop (cc : Comparability) (replace_on_match : Bool) (g : GroupID)
    (memo : Memo) (rule : Rule)
    (h : ∀ x, x ∈ (memo.GetGroupByID g).logical_expressions →
      ∀ b, b ∈ bindGroupExpression memo rule.GetMatchPattern x →
        rule.Transform cc b [] = some []) :
    applyRuleToGroup cc replace_on_match g memo rule = some memo := by
  unfold applyRuleToGroup
  rw [foldlAbort_noop _ (memo, false)]
  intro x hx
  apply foldlAbort_noop
  intro b hb
  unfold applyRuleToBinding
  simp only [Bool.false_eq_true, if_false, Rule.Check, if_true]
  rw [h x hx b hb]
  simp [recordTransformed]

/-- A rule set whose rules leave the memo as it is leaves the metadata as it is. -/
theorem optimizeCurrentGroup_noop (cc : Comparability) (memo : Memo) (g : GroupID)
    (name : RewriteRuleSetName) (replace_on_match : Bool)
    (h : ∀ r, r ∈ ConstructValidRules (RuleSet.forExpressions.GetRewriteRulesByName name) →
      applyRuleToGroup cc replace_on_match g memo r.rule = some memo) :
    OptimizeCurrentGroup cc ⟨memo, RuleSet.forExpressions⟩ g name replace_on_match =
      some ⟨memo, RuleSet.forExpressions⟩ := by
  unfold OptimizeCurrentGroup
  simp only
  rw [foldlAbort_noop _ memo _ h]

theorem optimizeCurrentGroup_comparator (cc : Comparability) {blueprint : List GroupExpression}
    {memo : Memo} (hdec : memo.decorates blueprint) {g : GroupID} {tree : AbstractExpression}
    (hrep : Represents blueprint g tree) (hredex : tree.comparatorRedex = false)
    (replace_on_match : Bool) :
    OptimizeCurrentGroup cc ⟨memo, RuleSet.forExpressions⟩ g
        RewriteRuleSetName.COMPARATOR_ELIMINATION replace_on_match =
      some ⟨memo, RuleSet.forExpressions⟩ := by
  apply optimizeCurrentGroup_noop
  intro r hr
  rw [validRules_comparator] at hr
  simp only [List.mem_cons, List.mem_singleton, List.not_mem_nil, or_false] at hr
  apply applyRuleToGroup_noop
  intro x hx b hb
  rcases hr with h | h | h | h | h | h <;>
  · rw [h] at hb
    exact absurd hb (comparator_no_binding hdec hrep hredex hx _ (by decide) b)

theorem applyRuleToGroup_tvEquality (cc : Comparability) {blueprint : List GroupExpression}
    {memo : Memo} (hdec : memo.decorates blueprint) {g : GroupID} {tree : AbstractExpression}
    (hrep : Represents blueprint g tree) (hplain : PlainTree tree)
    (hredex : tree.transitiveRedex = false) (replace_on_match : Bool) :
    applyRuleToGroup cc replace_on_match g memo Rule.TVEqualityWithTwoCVTransform =
      some memo := by
  apply applyRuleToGroup_noop
  intro x hx b hb
  exact tvEquality_no_output hdec hrep hplain hredex hx cc hb

theorem applyRuleToGroup_transitiveClosure (cc : Comparability)
    {blueprint : List GroupExpression}
    {memo : Memo} (hdec : memo.decorates blueprint) {g : GroupID} {tree : AbstractExpression}
    (hrep : Represents blueprint g tree) (hplain : PlainTree tree)
    (hredex : tree.transitiveRedex = false) (replace_on_match : Bool) :
    applyRuleToGroup cc replace_on_match g memo Rule.TransitiveClosureConstantTransform =
      some memo := by
  apply applyRuleToGroup_noop
  intro x hx b hb
  exact transitiveClosure_no_output hdec hrep hplain hredex hx hb

theorem applyRuleToGroup_orShortCircuit (cc : Comparability)
    {blueprint : List GroupExpression}
    {memo : Memo} (hdec : memo.decorates blueprint) {g : GroupID} {tree : AbstractExpression}
    (hrep : Represents blueprint g tree) (hplain : PlainTree tree)
    (hredex : tree.shortCircuitRedex = false) (replace_on_match : Bool) :
    applyRuleToGroup cc replace_on_match g memo Rule.OrShortCircuit = some memo := by
  apply applyRuleToGroup_noop
  intro x hx b hb
  exact orShortCircuit_no_output hdec hrep hplain hredex hx hb

theorem optimizeCurrentGroup_transitive (cc : Comparability) {blueprint : List GroupExpression}
    {memo : Memo} (hdec : memo.decorates blueprint) {g : GroupID} {tree : AbstractExpression}
    (hrep : Represents blueprint g tree) (hplain : PlainTree tree)
    (hredex : tree.transitiveRedex = false) (replace_on_match : Bool) :
    OptimizeCurrentGroup cc ⟨memo, RuleSet.forExpressions⟩ g
        RewriteRuleSetName.TRANSITIVE_TRANSFORM replace_on_match =
      some ⟨memo, RuleSet.forExpressions⟩ := by
  apply optimizeCurrentGroup_noop
  intro r hr
  rw [validRules_transitive] at hr
  simp only [List.mem_cons, List.mem_singleton, List.not_mem_nil, or_false] at hr
  rcases hr with h | h
  · rw [h]
    exact applyRuleToGroup_tvEquality cc hdec hrep hplain hredex _
  · rw [h]
    exact applyRuleToGroup_transitiveClosure cc hdec hrep hplain hredex _

theorem optimizeCurrentGroup_shortCircuit (cc : Comparability)
    {blueprint : List GroupExpression} {memo : Memo} (hdec : memo.decorates blueprint)
    {g : GroupID} {tree : AbstractExpression}
    (hrep : Represents blueprint g tree) (hplain : PlainTree tree)
    (hredex : tree.shortCircuitRedex = false) (replace_on_match : Bool) :
    OptimizeCurrentGroup cc ⟨memo, RuleSet.forExpressions⟩ g
        RewriteRuleSetName.BOOLEAN_SHORT_CIRCUIT replace_on_match =
      some ⟨memo, RuleSet.forExpressions⟩ := by
  apply optimizeCurrentGroup_noop
  intro r hr
  rw [validRules_short_circuit] at hr
  simp only [List.mem_cons, List.mem_singleton, List.not_mem_nil, or_false] at hr
  rcases hr with h | h
  · rw [h]
    apply applyRuleToGroup_noop
    intro x hx b hb
    exact andShortCircuit_no_output hdec hrep hplain hredex hx hb
  · rw [h]
    exact applyRuleToGroup_orShortCircuit cc hdec hrep hplain hredex _

theorem optimizeCurrentGroup_nullLookup (cc : Comparability) (memo : Memo) (g : GroupID)
    (replace_on_match : Bool) :
    OptimizeCurrentGroup cc ⟨memo, RuleSet.forExpressions⟩ g
        RewriteRuleSetName.NULL_LOOKUP replace_on_match =
      some ⟨memo, RuleSet.forExpressions⟩ := by
  apply optimizeCurrentGroup_noop
  intro r hr
  rw [validRules_null_lookup] at hr
  exact absurd hr (List.not_mem_nil _)

theorem childBindings_marker (memo : Memo) (c : GroupID) :
    childBindings memo (Pattern.leaf ExpressionType.GROUP_MARKER) c = [groupMarkerLeaf c] :=
  if_pos rfl

theorem foldl_push (f : GroupID → OptimizerTask) (ids : List GroupID) :
    ∀ stack : OptimizerTaskStack,
      ids.foldl (fun s c => OptimizerTaskStack.Push s (f c)) stack =
        (ids.map f).reverse ++ stack := by
  induction ids with
  | nil => intro stack; rfl
  | cons id rest ih =>
    intro stack
    rw [List.foldl_cons, ih]
    simp [OptimizerTaskStack.Push]

/-- The child groups that a task pushes tasks for represent the children of the
tree that its group represents. -/
theorem uniqueChildGroupIDs_represents {blueprint : List GroupExpression} {memo : Memo}
    (hdec : memo.decorates blueprint) {g : GroupID} {tree : AbstractExpression}
    (hrep : Represents blueprint g tree) {c : GroupID}
    (hc : c ∈ GetUniqueChildGroupIDs memo g) :
    ∃ type cls left right, tree = AbstractExpression.mk type cls [left, right] ∧
      (Represents blueprint c left ∨ Represents blueprint c right) := by
  obtain ⟨original, hlookup, _, _⟩ := represents_lookup hrep
  obtain ⟨extras, hgroup, _⟩ := hdec.2 g original hlookup
  unfold GetUniqueChildGroupIDs Memo.GetGroupByID at hc
  rw [hgroup] at hc
  simp only [Option.getD_some] at hc
  rcases (insertGroupIDs_spec original.child_groups []).1 c hc with h | h
  · cases hrep with
    | leaf _ type cls hleaf =>
      rw [hleaf] at hlookup
      simp only [Option.some.injEq] at hlookup
      rw [← hlookup] at h
      exact absurd h (List.not_mem_nil _)
    | binary _ left_id right_id op type cls left right hbin _ _ hl hr =>
      rw [hbin] at hlookup
      simp only [Option.some.injEq] at hlookup
      rw [← hlookup] at h
      simp only [List.mem_cons, List.mem_singleton, List.not_mem_nil, or_false] at h
      rcases h with h | h
      · rw [h]; exact ⟨type, cls, left, right, rfl, Or.inl hl⟩
      · rw [h]; exact ⟨type, cls, left, right, rfl, Or.inr hr⟩
  · exact absurd h (List.not_mem_nil _)

/-- The tasks for the child groups of a settled task are settled. -/
theorem pushed_settled {blueprint : List GroupExpression} {memo : Memo}
    (hdec : memo.decorates blueprint) {task : OptimizerTask}
    (htask : task.settledIn blueprint) (f : GroupID → OptimizerTask)
    (hf : ∀ c, (f c).isReplacing = true ∧ (f c).group = c ∧
      (f c).rule_set_name = task.rule_set_name) :
    ∀ t, t ∈ ((GetUniqueChildGroupIDs memo task.group).map f).reverse →
      t.settledIn blueprint := by
  intro t ht
  rw [List.mem_reverse, List.mem_map] at ht
  obtain ⟨c, hc, htc⟩ := ht
  obtain ⟨_, tree, hrep, hplain, hnone⟩ := htask
  obtain ⟨type, cls, left, right, htree, hside⟩ := uniqueChildGroupIDs_represents hdec hrep hc
  rw [htree] at hplain hnone
  obtain ⟨hpl, hpr⟩ := plainTree_children hplain
  obtain ⟨_, hnl, hnr⟩ := anyNode_pair hnone
  rw [← htc]
  refine ⟨(hf c).1, ?_⟩
  rw [(hf c).2.1, (hf c).2.2]
  rcases hside with h | h
  · exact ⟨left, h, hpl, hnl⟩
  · exact ⟨right, h, hpr, hnr⟩

/-- A settled task, executed on a decorated memo, leaves the memo as it is and
pushes settled tasks. -/
theorem execute_settled (cc : Comparability) {blueprint : List GroupExpression}
    {memo : Memo} (hdec : memo.decorates blueprint) (task : OptimizerTask)
    (htask : task.settledIn blueprint) (stack : OptimizerTaskStack) :
    ∃ pushed : OptimizerTaskStack,
      task.execute cc ⟨memo, RuleSet.forExpressions⟩ stack =
        some (⟨memo, RuleSet.forExpressions⟩, pushed ++ stack) ∧
      ∀ t, t ∈ pushed → t.settledIn blueprint := by
  have hsettled := htask
  obtain ⟨hkind, tree, hrep, hplain, hnone⟩ := htask
  have hroot := anyNode_test hnone
  cases task with
  | TopDownRewrite g name replace =>
    simp only [OptimizerTask.group] at hrep
    simp only [OptimizerTask.rule_set_name] at hroot
    cases name <;> cases replace <;> simp only [OptimizerTask.isReplacing] at hkind <;>
      try exact absurd hkind (by decide)
    have hopt := optimizeCurrentGroup_shortCircuit cc hdec hrep hplain hroot true
    refine ⟨((GetUniqueChildGroupIDs memo g).map (fun c =>
      OptimizerTask.TopDownRewrite c RewriteRuleSetName.BOOLEAN_SHORT_CIRCUIT true)).reverse,
      ?_, ?_⟩
    · rw [OptimizerTask.execute, hopt]
      simp only
      rw [foldl_push (fun c =>
        OptimizerTask.TopDownRewrite c RewriteRuleSetName.BOOLEAN_SHORT_CIRCUIT true)]
    · exact pushed_settled hdec hsettled
        (fun c => OptimizerTask.TopDownRewrite c RewriteRuleSetName.BOOLEAN_SHORT_CIRCUIT true)
        (fun c => ⟨rfl, rfl, rfl⟩)
  | BottomUpRewrite g name flag =>
    simp only [OptimizerTask.group] at hrep
    simp only [OptimizerTask.rule_set_name] at hroot
    cases flag with
    | false =>
      refine ⟨((GetUniqueChildGroupIDs memo g).map
        (fun c => OptimizerTask.BottomUpRewrite c name false)).reverse ++
        [OptimizerTask.BottomUpRewrite g name true], ?_, ?_⟩
      · rw [OptimizerTask.execute]
        simp only
        rw [foldl_push (fun c => OptimizerTask.BottomUpRewrite c name false)]
        simp [OptimizerTaskStack.Push]
      · intro t ht
        rcases List.mem_append.1 ht with h | h
        · refine pushed_settled hdec hsettled
            (fun c => OptimizerTask.BottomUpRewrite c name false) (fun c => ⟨?_, rfl, rfl⟩) t h
          cases name <;> simp only [OptimizerTask.isReplacing] at hkind ⊢ <;>
            exact absurd hkind (by decide)
        · rw [List.mem_singleton] at h
          rw [h]
          refine ⟨?_, tree, hrep, hplain, hnone⟩
          cases name <;> simp only [OptimizerTask.isReplacing] at hkind ⊢ <;>
            exact absurd hkind (by decide)
    | true =>
      cases name <;> simp only [OptimizerTask.isReplacing] at hkind <;>
        try exact absurd hkind (by decide)
      · have hopt := optimizeCurrentGroup_comparator cc hdec hrep hroot true
        exact ⟨[], by rw [OptimizerTask.execute, hopt]; rfl,
          fun t ht => absurd ht (List.not_mem_nil _)⟩
      · have hopt := optimizeCurrentGroup_transitive cc hdec hrep hplain hroot true
        exact ⟨[], by rw [OptimizerTask.execute, hopt]; rfl,
          fun t ht => absurd ht (List.not_mem_nil _)⟩
      · have hopt := optimizeCurrentGroup_nullLookup cc memo g true
        exact ⟨[], by rw [OptimizerTask.execute, hopt]; rfl,
          fun t ht => absurd ht (List.not_mem_nil _)⟩

/-! ## Stretches of the task loop -/

theorem leads_refl (cc : Comparability) (memo : Memo) (stack : OptimizerTaskStack) :
    Leads cc memo stack memo stack :=
  fun _ => Or.inr ⟨0, rfl⟩

theorem leads_trans {cc : Comparability} {m1 m2 m3 : Memo} {s1 s2 s3 : OptimizerTaskStack}
    (h12 : Leads cc m1 s1 m2 s2) (h23 : Leads cc m2 s2 m3 s3) : Leads cc m1 s1 m3 s3 := by
  intro fuel
  rcases h12 fuel with h | ⟨k, hk⟩
  · exact Or.inl h
  · rcases h23 (fuel - k) with h | ⟨k2, hk2⟩
    · exact Or.inl (hk.trans h)
    · exact Or.inr ⟨k + k2, by rw [hk, hk2, Nat.sub_sub]⟩

theorem leads_step {cc : Comparability} {memo after : Memo} {task : OptimizerTask}
    {stack rest : OptimizerTaskStack}
    (h : task.execute cc ⟨memo, RuleSet.forExpressions⟩ stack =
      some (⟨after, RuleSet.forExpressions⟩, rest)) :
    Leads cc memo (task :: stack) after rest := by
  intro fuel
  cases fuel with
  | zero => exact Or.inl rfl
  | succ n =>
    refine Or.inr ⟨1, ?_⟩
    rw [drainTaskStack.eq_3, h]
    simp

theorem leads_done {cc : Comparability} {memo after : Memo} {stack : OptimizerTaskStack}
    (h : Leads cc memo stack after []) (fuel : Nat) :
    drainTaskStack cc fuel ⟨memo, RuleSet.forExpressions⟩ stack = Outcome.outOfFuel ∨
    drainTaskStack cc fuel ⟨memo, RuleSet.forExpressions⟩ stack =
      Outcome.done ⟨after, RuleSet.forExpressions⟩ := by
  rcases h fuel with h1 | ⟨k, hk⟩
  · exact Or.inl h1
  · exact Or.inr (by rw [hk, drain_nil])

/-- Settled tasks on top of the stack are worked off without a change of the
memo. -/
theorem leads_settled (cc : Comparability) {blueprint : List GroupExpression} {memo : Memo}
    (hdec : memo.decorates blueprint) (rest : OptimizerTaskStack) :
    ∀ (settled : OptimizerTaskStack), (∀ t, t ∈ settled → t.settledIn blueprint) →
      Leads cc memo (settled ++ rest) memo rest := by
  have key : ∀ (fuel : Nat) (settled : OptimizerTaskStack),
      (∀ t, t ∈ settled → t.settledIn blueprint) →
      drainTaskStack cc fuel ⟨memo, RuleSet.forExpressions⟩ (settled ++ rest) =
        Outcome.outOfFuel ∨
      ∃ k : Nat, drainTaskStack cc fuel ⟨memo, RuleSet.forExpressions⟩ (settled ++ rest) =
        drainTaskStack cc (fuel - k) ⟨memo, RuleSet.forExpressions⟩ rest := by
    intro fuel
    induction fuel with
    | zero =>
      intro settled _
      cases settled with
      | nil => exact Or.inr ⟨0, rfl⟩
      | cons t tail => exact Or.inl rfl
    | succ n ih =>
      intro settled hsettled
      cases settled with
      | nil => exact Or.inr ⟨0, rfl⟩
      | cons t tail =>
        obtain ⟨pushed, hexec, hpushed⟩ :=
          execute_settled cc hdec t (hsettled t (List.mem_cons_self _ _)) (tail ++ rest)
        rw [List.cons_append, drainTaskStack.eq_3, hexec]
        simp only
        rw [← List.append_assoc]
        rcases ih (pushed ++ tail) (by
          intro u hu
          rcases List.mem_append.1 hu with h | h
          · exact hpushed u h
          · exact hsettled u (List.mem_cons_of_mem _ h)) with h | ⟨k, hk⟩
        · exact Or.inl h
        · refine Or.inr ⟨k + 1, ?_⟩
          rw [hk, Nat.add_sub_add_right]
  intro settled hsettled fuel
  exact key fuel settled hsettled

/-! ## The groups of a recorded expression -/

theorem layout_leaf (offset : Nat) (op : AbsExpr_Container) :
    layout offset (AbsExpr_Expression.mk op []) = [⟨op, []⟩] := by
  simp [layout, layoutList]

theorem layout_binary (offset : Nat) (op : AbsExpr_Container) (left right : AbsExpr_Expression) :
    layout offset (AbsExpr_Expression.mk op [left, right]) =
      layout offset left ++ layout (offset + (layout offset left).length) right ++
        [⟨op, [offset + (layout offset left).length - 1,
          offset + (layout offset left).length +
            (layout (offset + (layout offset left).length) right).length - 1]⟩] := by
  simp [layout, layoutList]

theorem layout_pos (offset : Nat) (e : AbsExpr_Expression) : 0 < (layout offset e).length := by
  obtain ⟨op, children⟩ := e
  simp [layout]

theorem singleGroups_append (xs ys : List GroupExpression) :
    singleGroups (xs ++ ys) = singleGroups xs ++ singleGroups ys := by
  simp [singleGroups]

theorem flippedGroups_append (xs ys : List GroupExpression) :
    flippedGroups (xs ++ ys) = flippedGroups xs ++ flippedGroups ys := by
  simp [flippedGroups]

theorem singleGroups_length (xs : List GroupExpression) :
    (singleGroups xs).length = xs.length := by
  simp [singleGroups]

theorem flippedGroups_length (xs : List GroupExpression) :
    (flippedGroups xs).length = xs.length := by
  simp [flippedGroups]

theorem denotes_marked {e : AbsExpr_Expression} {tree : AbstractExpression}
    (h : Denotes e tree) : Memo.markedGroup e = none := by
  cases h with
  | leaf type cls hmarker => exact hmarker
  | binary op left right type cls l r _ hmarker _ _ _ _ =>
    rw [markedGroup_mk]
    exact hmarker

/-- Recording an expression that denotes a tree appends the groups of its
layout; the group of the root is the last of them. -/
theorem denotes_record {e : AbsExpr_Expression} {tree : AbstractExpression}
    (h : Denotes e tree) :
    ∀ memo : Memo, memo.RecordExpression e none =
      (⟨memo.groups ++ singleGroups (layout memo.groups.length e)⟩,
        memo.groups.length + (layout memo.groups.length e).length - 1) := by
  induction h with
  | leaf type cls hmarker =>
    intro memo
    rw [recordExpression_defined memo ⟨some (AbstractExpression.mk type cls [])⟩ [] rfl,
      Memo.RecordChildren.eq_1, layout_leaf]
    rfl
  | binary op left right type cls l r hdefined hmarker htype hcopy hl hr ihl ihr =>
    intro memo
    rw [recordExpression_defined memo op _ hdefined,
      recordChildren_pair memo left right (denotes_marked hl) (denotes_marked hr), ihl memo]
    simp only
    rw [ihr]
    simp only [List.length_append, singleGroups_length]
    rw [layout_binary]
    simp only [singleGroups_append, List.append_assoc, List.length_append,
      List.length_singleton]
    have hpos1 := layout_pos memo.groups.length left
    have hpos2 := layout_pos (memo.groups.length + (layout memo.groups.length left).length) right
    refine Prod.ext ?_ ?_
    · simp only [singleGroups, List.map_cons, List.map_nil]
    · simp only
      omega

theorem lookup_last {α : Type} (before mid after : List α) (x : α) (i : Nat)
    (hi : i = before.length + mid.length) :
    (before ++ (mid ++ [x]) ++ after)[i]? = some x := by
  have hlen : i = (before ++ mid).length := by rw [hi, List.length_append]
  rw [hlen]
  have hshape : before ++ (mid ++ [x]) ++ after = (before ++ mid) ++ (x :: after) := by
    simp only [List.append_assoc, List.singleton_append]
  rw [hshape, List.getElem?_append_right (Nat.le_refl _), Nat.sub_self]
  simp

/-- The last group of the layout of an expression represents the tree that the
expression denotes, whatever stands before and after the layout. -/
theorem denotes_represents {e : AbsExpr_Expression} {tree : AbstractExpression}
    (h : Denotes e tree) :
    ∀ (before after : List GroupExpression),
      Represents (before ++ layout before.length e ++ after)
        (before.length + (layout before.length e).length - 1) tree := by
  induction h with
  | leaf type cls hmarker =>
    intro before after
    rw [layout_leaf]
    refine Represents.leaf _ type cls ?_
    exact lookup_last before [] after _ _ (by simp)
  | binary op left right type cls l r hdefined hmarker htype hcopy hl hr ihl ihr =>
    intro before after
    rw [layout_binary]
    have hpos1 := layout_pos before.length left
    have hpos2 := layout_pos (before.length + (layout before.length left).length) right
    refine Represents.binary _ (before.length + (layout before.length left).length - 1)
      (before.length + (layout before.length left).length +
        (layout (before.length + (layout before.length left).length) right).length - 1)
      op type cls l r ?_ htype hcopy ?_ ?_
    · refine lookup_last before _ after _ _ ?_
      simp only [List.length_append, List.length_singleton]
      omega
    · have := ihl before (layout (before.length + (layout before.length left).length) right ++
        [⟨op, [before.length + (layout before.length left).length - 1,
          before.length + (layout before.length left).length +
            (layout (before.length + (layout before.length left).length) right).length - 1]⟩] ++
        after)
      simpa only [List.append_assoc] using this
    · have := ihr (before ++ layout before.length left)
        ([⟨op, [before.length + (layout before.length left).length - 1,
          before.length + (layout before.length left).length +
            (layout (before.length + (layout before.length left).length) right).length - 1]⟩] ++
        after)
      simpa only [List.append_assoc, List.length_append] using this

theorem plainTree_copy {type : ExpressionType} {cls : ExprClass}
    {left right : AbstractExpression}
    (h : PlainTree (AbstractExpression.mk type cls [left, right])) :
    AbsExpr_Container.CopyWithChildren ⟨some (AbstractExpression.mk type cls [])⟩
      [left, right] = some (AbstractExpression.mk type cls [left, right]) := by
  cases h with
  | comparison type left right htype _ _ =>
    simp only [comparisonTags, List.mem_cons, List.mem_singleton, List.not_mem_nil,
      or_false] at htype
    rcases htype with h | h | h | h | h | h | h | h | h | h <;> rw [h] <;> rfl
  | conjunction type left right htype _ _ =>
    simp only [conjunctionTags, List.mem_cons, List.mem_singleton, List.not_mem_nil,
      or_false] at htype
    rcases htype with h | h <;> rw [h] <;> rfl
  | operator type ret left right htype _ _ =>
    simp only [operatorTags, List.mem_cons, List.mem_singleton, List.not_mem_nil,
      or_false] at htype
    rcases htype with h | h | h | h | h | h | h | h | h | h <;> rw [h] <;> rfl

theorem plainTree_class {type : ExpressionType} {cls : ExprClass}
    {left right : AbstractExpression}
    (h : PlainTree (AbstractExpression.mk type cls [left, right])) :
    cls.isGroupMarker = false := by
  cases h <;> rfl

/-- The converted form of a plain tree denotes the tree. -/
theorem plainTree_denotes {tree : AbstractExpression} (h : PlainTree tree) :
    Denotes (Rewriter.ConvertToAbsExpr tree) tree := by
  induction h with
  | constant value => exact Denotes.leaf _ _ rfl
  | column table_name col_name bound_oid => exact Denotes.leaf _ _ rfl
  | comparison type left right htype hl hr ihl ihr =>
    have hplain := PlainTree.comparison type left right htype hl hr
    exact Denotes.binary _ _ _ type _ left right rfl rfl rfl (plainTree_copy hplain) ihl ihr
  | conjunction type left right htype hl hr ihl ihr =>
    have hplain := PlainTree.conjunction type left right htype hl hr
    exact Denotes.binary _ _ _ type _ left right rfl rfl rfl (plainTree_copy hplain) ihl ihr
  | operator type ret left right htype hl hr ihl ihr =>
    have hplain := PlainTree.operator type ret left right htype hl hr
    exact Denotes.binary _ _ _ type _ left right rfl rfl rfl (plainTree_copy hplain) ihl ihr

/-- A tree that an expression denotes is denoted by no other tree. -/
theorem denotes_unique {e : AbsExpr_Expression} {tree : AbstractExpression}
    (h : Denotes e tree) : ∀ other : AbstractExpression, Denotes e other → other = tree := by
  induction h with
  | leaf type cls hmarker =>
    intro other hother
    cases hother
    rfl
  | binary op left right type cls l r hdefined hmarker htype hcopy hl hr ihl ihr =>
    intro other hother
    cases hother with
    | binary _ _ _ type2 cls2 l2 r2 _ _ _ hcopy2 hl2 hr2 =>
      have e1 := ihl l2 hl2
      have e2 := ihr r2 hr2
      subst e1
      subst e2
      rw [hcopy2] at hcopy
      simp only [Option.some.injEq] at hcopy
      exact hcopy

theorem decorates_single (blueprint : List GroupExpression) :
    Memo.decorates blueprint ⟨singleGroups blueprint⟩ := by
  refine ⟨singleGroups_length blueprint, ?_⟩
  intro g original hg
  refine ⟨[], ?_, fun x hx => absurd hx (List.not_mem_nil x)⟩
  simp [singleGroups, List.getElem?_map, hg]

theorem decorates_flipped (blueprint : List GroupExpression) :
    Memo.decorates blueprint ⟨flippedGroups blueprint⟩ := by
  refine ⟨flippedGroups_length blueprint, ?_⟩
  intro g original hg
  refine ⟨original.flips, ?_, fun x hx => hx⟩
  simp [flippedGroups, List.getElem?_map, hg]

/-! ## The pass of the equivalent rules -/

theorem modify_of_lookup {α : Type} (f : α → α) (l : List α) (g : Nat) (a : α)
    (h : l[g]? = some a) : List.modify f g l = l.set g (f a) := by
  rw [List.modify_eq_set_get?, List.get?_eq_getElem?, h]
  rfl

theorem set_of_lookup {α : Type} (l : List α) (g : Nat) (a : α) (h : l[g]? = some a) :
    l.set g a = l := by
  apply List.ext_getElem?
  intro j
  rw [List.getElem?_set]
  by_cases hj : g = j
  · subst hj
    rw [if_pos rfl, if_pos (List.getElem?_eq_some_iff.1 h).1, h]
  · rw [if_neg hj]

theorem addEquivalent_markers (memo : Memo) (g : GroupID) (op : AbsExpr_Container)
    (c1 c2 : GroupID) (hop : op.IsDefined = true) :
    memo.AddEquivalentGroupExpression g
        (AbsExpr_Expression.mk op [groupMarkerLeaf c2, groupMarkerLeaf c1]) =
      ⟨List.modify (fun G => ⟨G.logical_expressions ++ [⟨op, [c2, c1]⟩]⟩) g memo.groups⟩ := by
  unfold Memo.AddEquivalentGroupExpression
  rw [Memo.RecordExpression.eq_1, Memo.RecordChildren.eq_2, Memo.RecordChildren.eq_2,
    Memo.RecordChildren.eq_1]
  have h1 : Memo.markedGroup (groupMarkerLeaf c1) = some c1 := rfl
  have h2 : Memo.markedGroup (groupMarkerLeaf c2) = some c2 := rfl
  simp only [h1, h2, Memo.InsertExpression]
  rw [findDuplicate_defined memo ⟨op, [c2, c1]⟩ hop]

/-- An equivalent rule leaves a group as it is that holds no expression of its
tag over two children. -/
theorem equivalent_skip (cc : Comparability) (memo : Memo) (g : GroupID) (rule_type : RuleType)
    (root : ExpressionType)
    (h : ∀ y, y ∈ (memo.GetGroupByID g).logical_expressions →
      y.op.GetType ≠ root ∨ y.child_groups.length ≠ 2) :
    applyRuleToGroup cc false g memo (Rule.EquivalentTransform rule_type root) = some memo := by
  apply applyRuleToGroup_noop
  intro x hx b hb
  exfalso
  have hnone : bindGroupExpression memo
      (Rule.EquivalentTransform rule_type root).GetMatchPattern x = [] := by
    rcases h x hx with h1 | h1
    · exact bindGroupExpression_other memo root _ x h1
    · exact bindGroupExpression_arity memo root _ x (fun h2 => h1 h2.symm)
  rw [hnone] at hb
  exact absurd hb (List.not_mem_nil _)

/-- An equivalent rule adds the flip to a group that holds one expression of its
tag over two children. -/
theorem equivalent_hit (cc : Comparability) (memo : Memo) (g : GroupID) (rule_type : RuleType)
    (root : ExpressionType) (op : AbsExpr_Container) (c1 c2 : GroupID)
    (hgroup : memo.groups[g]? = some ⟨[⟨op, [c1, c2]⟩]⟩) (htag : op.GetType = root) :
    applyRuleToGroup cc false g memo (Rule.EquivalentTransform rule_type root) =
      some ⟨memo.groups.set g
        ⟨[⟨op, [c1, c2]⟩, ⟨⟨some (expression.ConjunctionExpressionOfType root)⟩, [c2, c1]⟩]⟩⟩ := by
  unfold applyRuleToGroup
  have hlist : (memo.GetGroupByID g).logical_expressions = [⟨op, [c1, c2]⟩] := by
    unfold Memo.GetGroupByID
    rw [hgroup]
    rfl
  rw [hlist, foldlAbort_cons]
  simp only [foldlAbort_nil]
  have hbind : bindGroupExpression memo
      (Rule.EquivalentTransform rule_type root).GetMatchPattern ⟨op, [c1, c2]⟩ =
      [AbsExpr_Expression.mk op [groupMarkerLeaf c1, groupMarkerLeaf c2]] := by
    show bindGroupExpression memo (Pattern.mk root
      [Pattern.leaf ExpressionType.GROUP_MARKER, Pattern.leaf ExpressionType.GROUP_MARKER])
      ⟨op, [c1, c2]⟩ = _
    rw [bindGroupExpression_two memo root _ _ op c1 c2 htag, childBindings_marker,
      childBindings_marker]
    rfl
  rw [hbind, foldlAbort_cons, applyRuleToBinding_mk, if_neg (by simp)]
  simp only [foldlAbort_nil]
  have htransform : (Rule.EquivalentTransform rule_type root).Transform cc
      (AbsExpr_Expression.mk op [groupMarkerLeaf c1, groupMarkerLeaf c2]) [] =
      some [AbsExpr_Expression.mk
        ⟨some (expression.ConjunctionExpressionOfType root)⟩
        [groupMarkerLeaf c2, groupMarkerLeaf c1]] :=
    equivalentTransform_unfold root
      (AbsExpr_Expression.mk op [groupMarkerLeaf c1, groupMarkerLeaf c2])
      (groupMarkerLeaf c1) (groupMarkerLeaf c2) [] rfl
  rw [htransform]
  simp only [recordTransformed_cons, recordTransformed_nil, Bool.false_eq_true, if_false,
    Bool.false_and, Option.bind]
  rw [addEquivalent_markers memo g ⟨some (expression.ConjunctionExpressionOfType root)⟩ c1 c2 rfl,
    modify_of_lookup _ _ _ _ hgroup]
  rfl

theorem getGroupByID_set (groups : List Group) (g : GroupID) (G : Group)
    (hg : g < groups.length) : (⟨groups.set g G⟩ : Memo).GetGroupByID g = G := by
  unfold Memo.GetGroupByID
  simp only
  rw [List.getElem?_set_self hg]
  rfl

theorem flips_pair (op : AbsExpr_Container) (c1 c2 : GroupID)
    (htag : op.GetType ∈ equivalentTags) :
    GroupExpression.flips ⟨op, [c1, c2]⟩ =
      [⟨⟨some (expression.ConjunctionExpressionOfType op.GetType)⟩, [c2, c1]⟩] := by
  simp [GroupExpression.flips, htag]

theorem flips_other (op : AbsExpr_Container) (kids : List GroupID)
    (h : op.GetType ∉ equivalentTags ∨ kids.length ≠ 2) :
    GroupExpression.flips ⟨op, kids⟩ = [] := by
  unfold GroupExpression.flips
  rcases kids with _ | ⟨c1, _ | ⟨c2, _ | ⟨c3, rest⟩⟩⟩
  · rfl
  · rfl
  · rcases h with h | h
    · simp [h]
    · simp at h
  · rfl

/-- The pass of the equivalent rules at a group that holds one expression: the
group holds the expression and its flips afterwards. -/
theorem optimizeCurrentGroup_equivalent (cc : Comparability) (memo : Memo) (g : GroupID)
    (x : GroupExpression) (hgroup : memo.groups[g]? = some ⟨[x]⟩) :
    OptimizeCurrentGroup cc ⟨memo, RuleSet.forExpressions⟩ g
        RewriteRuleSetName.EQUIVALENT_TRANSFORM false =
      some ⟨⟨memo.groups.set g ⟨x :: x.flips⟩⟩, RuleSet.forExpressions⟩ := by
  obtain ⟨op, kids⟩ := x
  have hg : g < memo.groups.length := (List.getElem?_eq_some_iff.1 hgroup).1
  have hlist : (memo.GetGroupByID g).logical_expressions = [⟨op, kids⟩] := by
    unfold Memo.GetGroupByID
    rw [hgroup]
    rfl
  have hskip : ∀ (rule_type : RuleType) (root : ExpressionType),
      (op.GetType ≠ root ∨ kids.length ≠ 2) →
      applyRuleToGroup cc false g memo (Rule.EquivalentTransform rule_type root) =
        some memo := by
    intro rule_type root h
    apply equivalent_skip
    intro y hy
    rw [hlist, List.mem_singleton] at hy
    rw [hy]
    exact h
  have hafter : ∀ (rule_type : RuleType) (root : ExpressionType) (c1 c2 : GroupID),
      op.GetType ≠ root →
      applyRuleToGroup cc false g
          ⟨memo.groups.set g ⟨[⟨op, [c1, c2]⟩,
            ⟨⟨some (expression.ConjunctionExpressionOfType op.GetType)⟩, [c2, c1]⟩]⟩⟩
          (Rule.EquivalentTransform rule_type root) =
        some ⟨memo.groups.set g ⟨[⟨op, [c1, c2]⟩,
          ⟨⟨some (expression.ConjunctionExpressionOfType op.GetType)⟩, [c2, c1]⟩]⟩⟩ := by
    intro rule_type root c1 c2 hne
    apply equivalent_skip
    intro y hy
    rw [getGroupByID_set _ _ _ hg] at hy
    simp only [List.mem_cons, List.mem_singleton, List.not_mem_nil, or_false] at hy
    rcases hy with h | h
    · rw [h]; exact Or.inl hne
    · rw [h]; exact Or.inl hne
  unfold OptimizeCurrentGroup
  simp only
  rw [validRules_equivalent, foldlAbort_cons]
  simp only [foldlAbort_cons, foldlAbort_nil]
  by_cases hpair : kids.length = 2
  · obtain ⟨c1, c2, hkids⟩ : ∃ c1 c2, kids = [c1, c2] := by
      rcases kids with _ | ⟨c1, _ | ⟨c2, _ | ⟨c3, rest⟩⟩⟩
      · simp at hpair
      · simp at hpair
      · exact ⟨c1, c2, rfl⟩
      · simp at hpair
    subst hkids
    by_cases h1 : op.GetType = ExpressionType.CONJUNCTION_AND
    · rw [equivalent_hit cc memo g _ _ op c1 c2 hgroup h1]
      simp only [Option.bind]
      rw [← h1, hafter _ _ c1 c2 (by rw [h1]; decide)]
      simp only
      rw [hafter _ _ c1 c2 (by rw [h1]; decide), flips_pair op c1 c2 (by rw [h1]; decide)]
    · rw [hskip _ _ (Or.inl h1)]
      simp only [Option.bind]
      by_cases h2 : op.GetType = ExpressionType.CONJUNCTION_OR
      · rw [equivalent_hit cc memo g _ _ op c1 c2 hgroup h2]
        simp only
        rw [← h2, hafter _ _ c1 c2 (by rw [h2]; decide),
          flips_pair op c1 c2 (by rw [h2]; decide)]
      · rw [hskip _ _ (Or.inl h2)]
        simp only
        by_cases h3 : op.GetType = ExpressionType.COMPARE_EQUAL
        · rw [equivalent_hit cc memo g _ _ op c1 c2 hgroup h3, ← h3,
            flips_pair op c1 c2 (by rw [h3]; decide)]
        · rw [hskip _ _ (Or.inl h3), flips_other op [c1, c2] (Or.inl (by
            simp only [equivalentTags, List.mem_cons, List.mem_singleton, List.not_mem_nil,
              or_false, not_or]
            exact ⟨h1, h2, h3⟩)), set_of_lookup _ _ _ hgroup]
  · rw [hskip _ _ (Or.inr hpair)]
    simp only [Option.bind]
    rw [hskip _ _ (Or.inr hpair)]
    simp only
    rw [hskip _ _ (Or.inr hpair), flips_other op kids (Or.inr hpair),
      set_of_lookup _ _ _ hgroup]

theorem set_last {α : Type} (before mid after : List α) (y z : α) (i : Nat)
    (hi : i = before.length + mid.length) :
    (before ++ (mid ++ [y]) ++ after).set i z = before ++ (mid ++ [z]) ++ after := by
  have hlen : i = (before ++ mid).length := by rw [hi, List.length_append]
  have hshape : ∀ w : α, before ++ (mid ++ [w]) ++ after = (before ++ mid) ++ (w :: after) := by
    intro w
    simp only [List.append_assoc, List.singleton_append]
  rw [hshape y, hshape z, hlen, List.set_append_right _ _ (Nat.le_refl _), Nat.sub_self]
  rfl

/-- The top-down task of the equivalent rules at a group that holds one
expression: the flips are added, and the tasks of the child groups are pushed. -/
theorem execute_equivalent (cc : Comparability) (memo : Memo) (g : GroupID)
    (x : GroupExpression) (hgroup : memo.groups[g]? = some ⟨[x]⟩)
    (stack : OptimizerTaskStack) :
    (OptimizerTask.TopDownRewrite g RewriteRuleSetName.EQUIVALENT_TRANSFORM false).execute cc
        ⟨memo, RuleSet.forExpressions⟩ stack =
      some (⟨⟨memo.groups.set g ⟨x :: x.flips⟩⟩, RuleSet.forExpressions⟩,
        ((x.child_groups.foldl (fun set id => insertGroupID id set) []).map (fun c =>
          OptimizerTask.TopDownRewrite c RewriteRuleSetName.EQUIVALENT_TRANSFORM
            false)).reverse ++ stack) := by
  have hg : g < memo.groups.length := (List.getElem?_eq_some_iff.1 hgroup).1
  rw [OptimizerTask.execute, optimizeCurrentGroup_equivalent cc memo g x hgroup]
  simp only
  rw [foldl_push (fun c =>
    OptimizerTask.TopDownRewrite c RewriteRuleSetName.EQUIVALENT_TRANSFORM false)]
  unfold GetUniqueChildGroupIDs
  rw [getGroupByID_set _ _ _ hg]

/-- The pass of the equivalent rules over the groups of a recorded expression:
every group holds its expression and the flips of it afterwards. -/
theorem leads_equivalent (cc : Comparability) {e : AbsExpr_Expression}
    {tree : AbstractExpression} (h : Denotes e tree) :
    ∀ (before after : List Group) (rest : OptimizerTaskStack),
      Leads cc ⟨before ++ singleGroups (layout before.length e) ++ after⟩
        (OptimizerTask.TopDownRewrite (before.length + (layout before.length e).length - 1)
          RewriteRuleSetName.EQUIVALENT_TRANSFORM false :: rest)
        ⟨before ++ flippedGroups (layout before.length e) ++ after⟩ rest := by
  induction h with
  | leaf type cls hmarker =>
    intro before after rest
    rw [layout_leaf]
    have hgroup : (before ++ singleGroups
        [(⟨⟨some (AbstractExpression.mk type cls [])⟩, []⟩ : GroupExpression)] ++ after)[
          before.length + [(⟨⟨some (AbstractExpression.mk type cls [])⟩, []⟩ :
            GroupExpression)].length - 1]? =
        some ⟨[⟨⟨some (AbstractExpression.mk type cls [])⟩, []⟩]⟩ :=
      lookup_last before [] after _ _ (by simp)
    have hexec := execute_equivalent cc ⟨_⟩ _ _ hgroup rest
    have hflips : GroupExpression.flips
        ⟨⟨some (AbstractExpression.mk type cls [])⟩, []⟩ = [] := rfl
    have hsame : flippedGroups
        [(⟨⟨some (AbstractExpression.mk type cls [])⟩, []⟩ : GroupExpression)] =
        singleGroups [(⟨⟨some (AbstractExpression.mk type cls [])⟩, []⟩ : GroupExpression)] := by
      simp [flippedGroups, singleGroups, hflips]
    simp only [hflips] at hexec
    rw [set_of_lookup _ _ _ hgroup] at hexec
    rw [hsame]
    exact leads_step hexec
  | binary op left right type cls l r hdefined hmarker htype hcopy hl hr ihl ihr =>
    intro before after rest
    rw [layout_binary]
    have hpos1 := layout_pos before.length left
    have hpos2 := layout_pos (before.length + (layout before.length left).length) right
    generalize hll : layout before.length left = ll at *
    generalize hlr : layout (before.length + ll.length) right = lr at *
    generalize hx : (⟨op, [before.length + ll.length - 1,
      before.length + ll.length + lr.length - 1]⟩ : GroupExpression) = x
    have hkids : x.child_groups = [before.length + ll.length - 1,
        before.length + ll.length + lr.length - 1] := by rw [← hx]
    have hshape : before ++ singleGroups (ll ++ lr ++ [x]) ++ after =
        before ++ (singleGroups (ll ++ lr) ++ [⟨[x]⟩]) ++ after := by
      simp [singleGroups]
    have hidx : before.length + (ll ++ lr ++ [x]).length - 1 =
        before.length + (singleGroups (ll ++ lr)).length := by
      simp only [List.length_append, List.length_singleton, singleGroups_length]
      omega
    have hgroup : (before ++ (singleGroups (ll ++ lr) ++ [⟨[x]⟩]) ++ after)[
        before.length + (ll ++ lr ++ [x]).length - 1]? = some ⟨[x]⟩ :=
      lookup_last before _ after _ _ hidx
    have hexec := execute_equivalent cc ⟨_⟩ _ x hgroup rest
    simp only at hexec
    rw [set_last before _ after _ _ _ hidx, hkids] at hexec
    have hids : List.foldl (fun set id => insertGroupID id set) []
        [before.length + ll.length - 1, before.length + ll.length + lr.length - 1] =
        [before.length + ll.length - 1, before.length + ll.length + lr.length - 1] := by
      have h1 : ¬ (before.length + ll.length + lr.length - 1 < before.length + ll.length - 1) := by
        omega
      have h2 : before.length + ll.length + lr.length - 1 ≠ before.length + ll.length - 1 := by
        omega
      simp [insertGroupID, h1, h2]
    rw [hids] at hexec
    simp only [List.map_cons, List.map_nil, List.reverse_cons, List.reverse_nil,
      List.nil_append, List.cons_append] at hexec
    have step1 := leads_step hexec
    have step2 := ihr (before ++ singleGroups ll)
      ([⟨x :: x.flips⟩] ++ after)
      (OptimizerTask.TopDownRewrite (before.length + ll.length - 1)
        RewriteRuleSetName.EQUIVALENT_TRANSFORM false :: rest)
    simp only [List.length_append, singleGroups_length, hlr] at step2
    have step3 := ihl before (flippedGroups lr ++ [⟨x :: x.flips⟩] ++ after) rest
    rw [hll] at step3
    rw [hshape]
    have e1 : before ++ (singleGroups (ll ++ lr) ++ [⟨x :: x.flips⟩]) ++ after =
        before ++ singleGroups ll ++ singleGroups lr ++ ([⟨x :: x.flips⟩] ++ after) := by
      simp [singleGroups]
    have e2 : before ++ singleGroups ll ++ flippedGroups lr ++ ([⟨x :: x.flips⟩] ++ after) =
        before ++ singleGroups ll ++ (flippedGroups lr ++ [⟨x :: x.flips⟩] ++ after) := by
      simp
    have e3 : before ++ flippedGroups ll ++ (flippedGroups lr ++ [⟨x :: x.flips⟩] ++ after) =
        before ++ flippedGroups (ll ++ lr ++ [x]) ++ after := by
      simp [flippedGroups]
    rw [e1] at step1
    rw [e2] at step2
    rw [e3] at step3
    exact leads_trans step1 (leads_trans step2 step3)

/-! ## Rebuilding, and the whole of a rewrite -/

mutual
theorem anyNode_mono (p q : AbstractExpression → Bool)
    (hpq : ∀ e, p e = true → q e = true) :
    ∀ e : AbstractExpression, e.anyNode q = false → e.anyNode p = false
  | AbstractExpression.mk type cls children, h => by
    rw [AbstractExpression.anyNode.eq_1, Bool.or_eq_false_iff] at h ⊢
    refine ⟨?_, anyNodeList_mono p q hpq children h.2⟩
    cases hp : p (AbstractExpression.mk type cls children) with
    | false => rfl
    | true => rw [hpq _ hp] at h; exact Bool.noConfusion h.1
theorem anyNodeList_mono (p q : AbstractExpression → Bool)
    (hpq : ∀ e, p e = true → q e = true) :
    ∀ es : List AbstractExpression, AbstractExpression.anyNodeList q es = false →
      AbstractExpression.anyNodeList p es = false
  | [], _ => rfl
  | e :: es, h => by
    rw [AbstractExpression.anyNodeList.eq_2, Bool.or_eq_false_iff] at h ⊢
    exact ⟨anyNode_mono p q hpq e h.1, anyNodeList_mono p q hpq es h.2⟩
end

/-- A tree without a redex has no redex of the rules of any one rule set. -/
theorem hasRedex_redexOf {tree : AbstractExpression} (h : tree.hasRedex = false)
    (name : RewriteRuleSetName) : tree.anyNode (redexOf name) = false := by
  apply anyNode_mono (redexOf name) AbstractExpression.isRedex _ tree h
  intro e he
  cases name <;> simp only [redexOf] at he <;>
    first
    | exact Bool.noConfusion he
    | simp [AbstractExpression.isRedex, he]

theorem rebuildsFrom_leaf (type : ExpressionType) (cls : ExprClass)
    (hcopy : AbsExpr_Container.CopyWithChildren ⟨some (AbstractExpression.mk type cls [])⟩ [] =
      some (AbstractExpression.mk type cls [])) :
    RebuildsFrom (AbstractExpression.mk type cls []) := by
  intro blueprint rewriter g hrep hdec
  cases hrep with
  | leaf _ _ _ hgroup =>
    obtain ⟨extras, hmemo, _⟩ := hdec.2 g _ hgroup
    refine ⟨1, fun fuel hfuel => ?_⟩
    obtain ⟨k, rfl⟩ := Nat.exists_eq_add_of_le' hfuel
    exact rebuild_leaf hmemo rfl rfl hcopy

theorem rebuildsFrom_binary (type : ExpressionType) (cls : ExprClass)
    (left right : AbstractExpression)
    (hleft : RebuildsFrom left) (hright : RebuildsFrom right) :
    RebuildsFrom (AbstractExpression.mk type cls [left, right]) := by
  intro blueprint rewriter g hrep hdec
  cases hrep with
  | binary _ left_id right_id op _ _ _ _ hgroup htype hcopy hl hr =>
    obtain ⟨extras, hmemo, _⟩ := hdec.2 g _ hgroup
    obtain ⟨nl, hnl⟩ := hleft blueprint rewriter left_id hl hdec
    obtain ⟨nr, hnr⟩ := hright blueprint rewriter right_id hr hdec
    refine ⟨max nl nr + 1, fun fuel hfuel => ?_⟩
    obtain ⟨k, rfl⟩ := Nat.exists_eq_add_of_le' hfuel
    have hl2 := hnl (max nl nr + k) (Nat.le_trans (Nat.le_max_left nl nr) (Nat.le_add_right _ _))
    have hr2 := hnr (max nl nr + k) (Nat.le_trans (Nat.le_max_right nl nr) (Nat.le_add_right _ _))
    have hfuel2 : k + (max nl nr + 1) = (max nl nr + k) + 1 := by omega
    rw [hfuel2, Rewriter.RebuildExpression.eq_2]
    simp only [hmemo, Outcome.mapList, hl2, hr2, hcopy]

/-- Every plain tree is rebuilt from a group that represents it. -/
theorem plainTree_rebuildsFrom {e : AbstractExpression} (h : PlainTree e) : RebuildsFrom e := by
  induction h with
  | constant value => exact rebuildsFrom_leaf _ _ rfl
  | column table_name col_name bound_oid => exact rebuildsFrom_leaf _ _ rfl
  | comparison type left right htype _ _ ihl ihr =>
    exact rebuildsFrom_binary _ _ left right ihl ihr
  | conjunction type left right htype _ _ ihl ihr =>
    exact rebuildsFrom_binary _ _ left right ihl ihr
  | operator type ret left right htype _ _ ihl ihr =>
    exact rebuildsFrom_binary _ _ left right ihl ihr

/-- A plain tree holds no group marker. -/
theorem plainTree_noMarker {e : AbstractExpression} (h : PlainTree e) :
    e.hasGroupMarker = false := by
  induction h with
  | constant value =>
    simp [expression.ConstantValueExpression, AbstractExpression.hasGroupMarker.eq_1,
      AbstractExpression.hasGroupMarkerList.eq_1, ExprClass.isGroupMarker]
  | column table_name col_name bound_oid =>
    simp [columnRef, AbstractExpression.hasGroupMarker.eq_1,
      AbstractExpression.hasGroupMarkerList.eq_1, ExprClass.isGroupMarker]
  | comparison type left right htype _ _ ihl ihr =>
    simp [expression.ComparisonExpression, AbstractExpression.hasGroupMarker.eq_1,
      AbstractExpression.hasGroupMarkerList.eq_1, AbstractExpression.hasGroupMarkerList.eq_2,
      ExprClass.isGroupMarker, ihl, ihr]
  | conjunction type left right htype _ _ ihl ihr =>
    simp [expression.ConjunctionExpression, AbstractExpression.hasGroupMarker.eq_1,
      AbstractExpression.hasGroupMarkerList.eq_1, AbstractExpression.hasGroupMarkerList.eq_2,
      ExprClass.isGroupMarker, ihl, ihr]
  | operator type ret left right htype _ _ ihl ihr =>
    simp [expression.OperatorExpression, AbstractExpression.hasGroupMarker.eq_1,
      AbstractExpression.hasGroupMarkerList.eq_1, AbstractExpression.hasGroupMarkerList.eq_2,
      ExprClass.isGroupMarker, ihl, ihr]

theorem seedTaskStack_eq (root : GroupID) :
    Rewriter.seedTaskStack root =
      OptimizerTask.TopDownRewrite root RewriteRuleSetName.EQUIVALENT_TRANSFORM false ::
        [OptimizerTask.BottomUpRewrite root RewriteRuleSetName.NULL_LOOKUP false,
         OptimizerTask.BottomUpRewrite root RewriteRuleSetName.COMPARATOR_ELIMINATION false,
         OptimizerTask.BottomUpRewrite root RewriteRuleSetName.TRANSITIVE_TRANSFORM false,
         OptimizerTask.TopDownRewrite root RewriteRuleSetName.BOOLEAN_SHORT_CIRCUIT true] := rfl

/-- What `RecordTreeGroups` of a new rewriter makes of a plain tree: the groups of
the layout of the converted tree, the last of which is the root. -/
theorem recordTreeGroups_plain {tree : AbstractExpression} (h : PlainTree tree) :
    Rewriter.new.RecordTreeGroups tree =
      (⟨⟨⟨singleGroups (layout 0 (Rewriter.ConvertToAbsExpr tree))⟩, RuleSet.forExpressions⟩⟩,
        (layout 0 (Rewriter.ConvertToAbsExpr tree)).length - 1) := by
  have hrec := denotes_record (plainTree_denotes h) Memo.empty
  unfold Rewriter.RecordTreeGroups
  have hempty : Rewriter.new.metadata_.memo = Memo.empty := rfl
  simp only [hempty, hrec]
  simp [Memo.empty, Rewriter.new, OptimizerMetadata.fresh]

/-- A rewrite whose task loop leads to a memo with an empty stack, from which
the root is rebuilt to a tree, returns that tree with every fuel that is
enough. -/
theorem rewrite_of_leads (cc : Comparability) {expr result : AbstractExpression}
    {memo final : Memo} {root : GroupID} (hmarker : expr.hasGroupMarker = false)
    (hrecord : Rewriter.new.RecordTreeGroups expr =
      (⟨⟨memo, RuleSet.forExpressions⟩⟩, root))
    (hleads : Leads cc memo (Rewriter.seedTaskStack root) final [])
    (hrebuild : ∃ n, ∀ fuel, n ≤ fuel →
      Rewriter.RebuildExpression ⟨⟨final, RuleSet.forExpressions⟩⟩ fuel root =
        Outcome.done result) :
    ∃ n, ∀ fuel, n ≤ fuel →
      Rewriter.RewriteExpression cc fuel Rewriter.new (some expr) =
        Outcome.done (some result, Rewriter.new) := by
  obtain ⟨arity, ranks, harity, hranked, hroot⟩ := recordTreeGroups_ranked expr hmarker
  rw [hrecord] at hranked hroot
  have hseed : ∀ t, t ∈ Rewriter.seedTaskStack root → t.group < ranks.length := by
    intro t ht
    rw [seedTaskStack_eq] at ht
    simp only [List.mem_cons, List.mem_singleton, List.not_mem_nil, or_false] at ht
    rcases ht with ht | ht | ht | ht | ht <;> (rw [ht]; exact hroot)
  have hends := drainTaskStack_terminates cc arity harity
    (stackWeight arity ranks (Rewriter.seedTaskStack root)) ranks
    ⟨memo, RuleSet.forExpressions⟩ (Rewriter.seedTaskStack root) hranked hseed (Nat.le_refl _)
  have hdone : drainTaskStack cc (stackWeight arity ranks (Rewriter.seedTaskStack root))
      ⟨memo, RuleSet.forExpressions⟩ (Rewriter.seedTaskStack root) =
      Outcome.done ⟨final, RuleSet.forExpressions⟩ := by
    rcases leads_done hleads (stackWeight arity ranks (Rewriter.seedTaskStack root)) with h | h
    · rcases hends with h2 | ⟨r, later, h2, _, _⟩
      · rw [h] at h2; exact Outcome.noConfusion h2
      · rw [h] at h2; exact Outcome.noConfusion h2
    · exact h
  obtain ⟨n, hn⟩ := hrebuild
  refine ⟨max (stackWeight arity ranks (Rewriter.seedTaskStack root)) n, ?_⟩
  intro fuel hfuel
  obtain ⟨k, hk⟩ := Nat.exists_eq_add_of_le (Nat.le_trans (Nat.le_max_left _ _) hfuel)
  have hloop := drainTaskStack_mono cc k _ _ _ _ hdone
  rw [← hk] at hloop
  exact rewrite_stages hrecord hloop (hn fuel (Nat.le_trans (Nat.le_max_right _ _) hfuel))

/-- A plain tree no node of which a rule applies to is rewritten to itself. -/
theorem rewrite_stable (cc : Comparability) {tree : AbstractExpression}
    (hplain : PlainTree tree) (hredex : tree.hasRedex = false) :
    ∃ n, ∀ fuel, n ≤ fuel →
      Rewriter.RewriteExpression cc fuel Rewriter.new (some tree) =
        Outcome.done (some tree, Rewriter.new) := by
  have hden := plainTree_denotes hplain
  have hrep := denotes_represents hden [] []
  simp only [List.nil_append, List.append_nil, List.length_nil, Nat.zero_add] at hrep
  have hdec := decorates_flipped (layout 0 (Rewriter.ConvertToAbsExpr tree))
  refine rewrite_of_leads cc (plainTree_noMarker hplain) (recordTreeGroups_plain hplain) ?_
    (plainTree_rebuildsFrom hplain _ ⟨⟨_, RuleSet.forExpressions⟩⟩ _ hrep hdec)
  rw [seedTaskStack_eq]
  have step1 := leads_equivalent cc hden [] []
    [OptimizerTask.BottomUpRewrite ((layout 0 (Rewriter.ConvertToAbsExpr tree)).length - 1)
      RewriteRuleSetName.NULL_LOOKUP false,
     OptimizerTask.BottomUpRewrite ((layout 0 (Rewriter.ConvertToAbsExpr tree)).length - 1)
      RewriteRuleSetName.COMPARATOR_ELIMINATION false,
     OptimizerTask.BottomUpRewrite ((layout 0 (Rewriter.ConvertToAbsExpr tree)).length - 1)
      RewriteRuleSetName.TRANSITIVE_TRANSFORM false,
     OptimizerTask.TopDownRewrite ((layout 0 (Rewriter.ConvertToAbsExpr tree)).length - 1)
      RewriteRuleSetName.BOOLEAN_SHORT_CIRCUIT true]
  simp only [List.nil_append, List.append_nil, List.length_nil, Nat.zero_add] at step1
  refine leads_trans step1 ?_
  have step2 := leads_settled cc hdec []
    [OptimizerTask.BottomUpRewrite ((layout 0 (Rewriter.ConvertToAbsExpr tree)).length - 1)
      RewriteRuleSetName.NULL_LOOKUP false,
     OptimizerTask.BottomUpRewrite ((layout 0 (Rewriter.ConvertToAbsExpr tree)).length - 1)
      RewriteRuleSetName.COMPARATOR_ELIMINATION false,
     OptimizerTask.BottomUpRewrite ((layout 0 (Rewriter.ConvertToAbsExpr tree)).length - 1)
      RewriteRuleSetName.TRANSITIVE_TRANSFORM false,
     OptimizerTask.TopDownRewrite ((layout 0 (Rewriter.ConvertToAbsExpr tree)).length - 1)
      RewriteRuleSetName.BOOLEAN_SHORT_CIRCUIT true] (by
      intro t ht
      simp only [List.mem_cons, List.mem_singleton, List.not_mem_nil, or_false] at ht
      rcases ht with ht | ht | ht | ht <;>
      · rw [ht]
        exact ⟨rfl, tree, hrep, hplain, hasRedex_redexOf hredex _⟩)
  simpa only [List.append_nil] using step2

/-- C20, amended: when `RewriteExpression(e)` is a tree of constants, column
references and two-child comparisons, conjunctions and operators, no node of
which is one that a rule of the comparator, transitive or short-circuit rule
sets applies to, then `RewriteExpression(RewriteExpression(e))` returns the same
expression, and leaves the same rewriter, as `RewriteExpression(e)`: with any
fuel that is enough, the second call is done with the result of the first, and
so is the first call. -/
theorem rewriteExpression_idempotent_on_stable (cc : Comparability) (first_fuel : Nat)
    (rewriter after : Rewriter) (expr result : AbstractExpression)
    (hfirst : Rewriter.RewriteExpression cc first_fuel rewriter (some expr) =
      Outcome.done (some result, after))
    (hplain : PlainTree result) (hstable : result.hasRedex = false) :
    ∃ n, ∀ fuel, n ≤ fuel →
      Rewriter.RewriteExpression cc fuel after (some result) =
        Outcome.done (some result, after) ∧
      Rewriter.RewriteExpression cc fuel after (some result) =
        Rewriter.RewriteExpression cc fuel rewriter (some expr) := by
  have hafter := rewriteExpression_resets cc first_fuel rewriter after expr _ hfirst
  obtain ⟨n, hn⟩ := rewrite_stable cc hplain hstable
  refine ⟨max n first_fuel, ?_⟩
  intro fuel hfuel
  obtain ⟨k, hk⟩ := Nat.exists_eq_add_of_le (Nat.le_trans (Nat.le_max_right _ _) hfuel)
  have hlater := rewriteExpression_mono cc first_fuel k rewriter _ _ hfirst
  rw [← hk] at hlater
  have hsecond := hn fuel (Nat.le_trans (Nat.le_max_left _ _) hfuel)
  rw [hlater, hafter]
  exact ⟨hsecond, hsecond⟩

/-- Witness of C20, amended, at `(A.B = 5) AND (A.B = C.D)`, which is rewritten to
`(A.B = 5) AND (5 = C.D)`, a tree that no rule applies to. -/
theorem rewriteExpression_idempotent_on_stable_witness :
    Rewriter.RewriteExpression sameTypeComparable 70 Rewriter.new
        (some (CreateTransitiveExpression (columnRef "A" "B" none) (GetConstantExpression 5)
          (columnRef "A" "B" none) (columnRef "C" "D" none))) =
      Outcome.done (some (CreateTransitiveExpression (columnRef "A" "B" none)
        (GetConstantExpression 5) (GetConstantExpression 5) (columnRef "C" "D" none)),
        Rewriter.new) ∧
    PlainTree (CreateTransitiveExpression (columnRef "A" "B" none)
      (GetConstantExpression 5) (GetConstantExpression 5) (columnRef "C" "D" none)) ∧
    (CreateTransitiveExpression (columnRef "A" "B" none)
      (GetConstantExpression 5) (GetConstantExpression 5) (columnRef "C" "D" none)).hasRedex =
        false ∧
    ∃ n, ∀ fuel, n ≤ fuel →
      Rewriter.RewriteExpression sameTypeComparable fuel Rewriter.new
          (some (CreateTransitiveExpression (columnRef "A" "B" none)
            (GetConstantExpression 5) (GetConstantExpression 5) (columnRef "C" "D" none))) =
        Outcome.done (some (CreateTransitiveExpression (columnRef "A" "B" none)
          (GetConstantExpression 5) (GetConstantExpression 5) (columnRef "C" "D" none)),
          Rewriter.new) ∧
      Rewriter.RewriteExpression sameTypeComparable fuel Rewriter.new
          (some (CreateTransitiveExpression (columnRef "A" "B" none)
            (GetConstantExpression 5) (GetConstantExpression 5) (columnRef "C" "D" none))) =
        Rewriter.RewriteExpression sameTypeComparable fuel Rewriter.new
          (some (CreateTransitiveExpression (columnRef "A" "B" none) (GetConstantExpression 5)
            (columnRef "A" "B" none) (columnRef "C" "D" none))) :=
  have hfirst : Rewriter.RewriteExpression sameTypeComparable 70 Rewriter.new
        (some (CreateTransitiveExpression (columnRef "A" "B" none) (GetConstantExpression 5)
          (columnRef "A" "B" none) (columnRef "C" "D" none))) =
      Outcome.done (some (CreateTransitiveExpression (columnRef "A" "B" none)
        (GetConstantExpression 5) (GetConstantExpression 5) (columnRef "C" "D" none)),
        Rewriter.new) :=
    rewriteExpression_of_returnsTree sameTypeComparable 70 Rewriter.new _ _ (by decide!)
  have hplain : PlainTree (CreateTransitiveExpression (columnRef "A" "B" none)
      (GetConstantExpression 5) (GetConstantExpression 5) (columnRef "C" "D" none)) :=
    PlainTree.conjunction ExpressionType.CONJUNCTION_AND _ _ (by decide)
      (PlainTree.comparison ExpressionType.COMPARE_EQUAL _ _ (by decide)
        (PlainTree.column "A" "B" none) (PlainTree.constant _))
      (PlainTree.comparison ExpressionType.COMPARE_EQUAL _ _ (by decide)
        (PlainTree.constant _) (PlainTree.column "C" "D" none))
  ⟨hfirst, hplain, by decide,
    rewriteExpression_idempotent_on_stable sameTypeComparable 70 Rewriter.new Rewriter.new _ _
      hfirst hplain (by decide)⟩

/-! ## A rule that replaces, at a group where it applies -/

theorem fold_flagged (cc : Comparability) (rule : Rule) (g : GroupID) (memo : Memo)
    (bindings : List AbsExpr_Expression) :
    foldlAbort (applyRuleToBinding cc rule true g) (memo, true) bindings =
      some (memo, true) := by
  apply foldlAbort_noop
  intro b _
  unfold applyRuleToBinding
  simp

theorem firstOutput_append_some (cc : Comparability) (rule : Rule)
    (first second : List AbsExpr_Expression) (out : AbsExpr_Expression)
    (h : firstOutput cc rule first = some out) :
    firstOutput cc rule (first ++ second) = some out := by
  induction first with
  | nil => simp [firstOutput] at h
  | cons b rest ih =>
    rw [List.cons_append, firstOutput.eq_2]
    rw [firstOutput.eq_2] at h
    rcases hT : rule.Transform cc b [] with _ | ⟨_ | ⟨o, os⟩⟩
    · rw [hT] at h
      simp only at h ⊢
      exact ih h
    · rw [hT] at h
      simp only at h ⊢
      exact ih h
    · rw [hT] at h
      simp only at h ⊢
      exact h

theorem firstOutput_append_none (cc : Comparability) (rule : Rule)
    (first second : List AbsExpr_Expression)
    (h : firstOutput cc rule first = none) :
    firstOutput cc rule (first ++ second) = firstOutput cc rule second := by
  induction first with
  | nil => rfl
  | cons b rest ih =>
    rw [List.cons_append, firstOutput.eq_2]
    rw [firstOutput.eq_2] at h
    rcases hT : rule.Transform cc b [] with _ | ⟨_ | ⟨o, os⟩⟩
    · rw [hT] at h
      simp only at h ⊢
      exact ih h
    · rw [hT] at h
      simp only at h ⊢
      exact ih h
    · rw [hT] at h
      simp only at h
      exact Option.noConfusion h

/-- The bindings of one logical expression, at each of which the rule produces
nothing or one expression: the first expression produced replaces the contents
of the group, and what follows is dropped. -/
theorem fold_firstOutput (cc : Comparability) (rule : Rule) (g : GroupID) (memo : Memo) :
    ∀ bindings : List AbsExpr_Expression,
      (∀ b, b ∈ bindings → rule.Transform cc b [] = some [] ∨
        ∃ out, rule.Transform cc b [] = some [out]) →
      foldlAbort (applyRuleToBinding cc rule true g) (memo, false) bindings =
        some (match firstOutput cc rule bindings with
          | some out => (memo.ReplaceGroupExpression g out, true)
          | none => (memo, false)) := by
  intro bindings
  induction bindings with
  | nil => intro _; rfl
  | cons b rest ih =>
    intro hsafe
    rw [foldlAbort_cons, firstOutput.eq_2]
    rcases hsafe b (List.mem_cons_self _ _) with h | ⟨out, h⟩
    · have hstep : applyRuleToBinding cc rule true g (memo, false) b = some (memo, false) := by
        unfold applyRuleToBinding
        simp [Rule.Check, h, recordTransformed]
      rw [hstep, h]
      simp only [Option.bind]
      exact ih (fun b2 hb2 => hsafe b2 (List.mem_cons_of_mem _ hb2))
    · have hstep : applyRuleToBinding cc rule true g (memo, false) b =
          some (memo.ReplaceGroupExpression g out, true) := by
        unfold applyRuleToBinding
        simp [Rule.Check, h, recordTransformed]
      rw [hstep, h]
      simp only [Option.bind]
      exact fold_flagged cc rule g _ rest

/-- A rule that replaces, applied to a group: when it produces nothing or one
expression at every binding, the first expression produced replaces the
contents of the group. -/
theorem applyRuleToGroup_firstOutput (cc : Comparability) (rule : Rule) (g : GroupID)
    (memo : Memo)
    (hsafe : ∀ x, x ∈ (memo.GetGroupByID g).logical_expressions →
      ∀ b, b ∈ bindGroupExpression memo rule.GetMatchPattern x →
        rule.Transform cc b [] = some [] ∨ ∃ out, rule.Transform cc b [] = some [out]) :
    applyRuleToGroup cc true g memo rule =
      some (match firstOutput cc rule ((memo.GetGroupByID g).logical_expressions.flatMap
          (bindGroupExpression memo rule.GetMatchPattern)) with
        | some out => memo.ReplaceGroupExpression g out
        | none => memo) := by
  have hflagged : ∀ (xs : List GroupExpression) (after : Memo),
      foldlAbort (fun state gexpr =>
        foldlAbort (applyRuleToBinding cc rule true g) state
          (bindGroupExpression state.1 rule.GetMatchPattern gexpr)) (after, true) xs =
        some (after, true) := by
    intro xs after
    apply foldlAbort_noop
    intro x _
    exact fold_flagged cc rule g after _
  have key : ∀ xs : List GroupExpression,
      (∀ x, x ∈ xs → ∀ b, b ∈ bindGroupExpression memo rule.GetMatchPattern x →
        rule.Transform cc b [] = some [] ∨ ∃ out, rule.Transform cc b [] = some [out]) →
      foldlAbort (fun state gexpr =>
        foldlAbort (applyRuleToBinding cc rule true g) state
          (bindGroupExpression state.1 rule.GetMatchPattern gexpr)) (memo, false) xs =
        some (match firstOutput cc rule
            (xs.flatMap (bindGroupExpression memo rule.GetMatchPattern)) with
          | some out => (memo.ReplaceGroupExpression g out, true)
          | none => (memo, false)) := by
    intro xs
    induction xs with
    | nil => intro _; rfl
    | cons x rest ih =>
      intro hs
      rw [foldlAbort_cons, List.flatMap_cons]
      simp only
      rw [fold_firstOutput cc rule g memo _ (hs x (List.mem_cons_self _ _))]
      cases hfirst : firstOutput cc rule (bindGroupExpression memo rule.GetMatchPattern x) with
      | some out =>
        simp only [Option.bind]
        rw [hflagged, firstOutput_append_some cc rule _ _ out hfirst]
      | none =>
        simp only [Option.bind]
        rw [ih (fun y hy => hs y (List.mem_cons_of_mem _ hy)),
          firstOutput_append_none cc rule _ _ hfirst]
  unfold applyRuleToGroup
  rw [key _ hsafe]
  cases firstOutput cc rule ((memo.GetGroupByID g).logical_expressions.flatMap
    (bindGroupExpression memo rule.GetMatchPattern)) <;> rfl

/-! ## The bindings at a conjunction after the pass of the equivalent rules -/

theorem convert_leaf (type : ExpressionType) (cls : ExprClass) :
    Rewriter.ConvertToAbsExpr (AbstractExpression.mk type cls []) =
      AbsExpr_Expression.mk ⟨some (AbstractExpression.mk type cls [])⟩ [] := by
  rw [Rewriter.ConvertToAbsExpr.eq_1, Rewriter.ConvertChildren.eq_1]

theorem convert_binary (type : ExpressionType) (cls : ExprClass) (p q : AbstractExpression) :
    Rewriter.ConvertToAbsExpr (AbstractExpression.mk type cls [p, q]) =
      AbsExpr_Expression.mk ⟨some (AbstractExpression.mk type cls [])⟩
        [Rewriter.ConvertToAbsExpr p, Rewriter.ConvertToAbsExpr q] := by
  rw [Rewriter.ConvertToAbsExpr.eq_1, Rewriter.ConvertChildren.eq_2,
    Rewriter.ConvertChildren.eq_2, Rewriter.ConvertChildren.eq_1]

theorem flatMap_nil_of {α β : Type} (l : List α) (f : α → List β)
    (h : ∀ x, x ∈ l → f x = []) : l.flatMap f = [] := by
  induction l with
  | nil => rfl
  | cons a t ih =>
    rw [List.flatMap_cons, h a (List.mem_cons_self _ _),
      ih (fun x hx => h x (List.mem_cons_of_mem _ hx))]
    rfl

/-- What a leaf pattern binds in the group that represents a tree, as a list. -/
theorem childBindings_leaf_exact {blueprint : List GroupExpression} {memo : Memo}
    (hdec : memo.decorates blueprint) {c : GroupID} {tree : AbstractExpression}
    (hrep : Represents blueprint c tree) (tag : ExpressionType)
    (hmarker : tag ≠ ExpressionType.GROUP_MARKER) :
    childBindings memo (Pattern.leaf tag) c =
      if tree.isLeafOfTag tag then [AbsExpr_Expression.mk ⟨some tree⟩ []] else [] := by
  unfold childBindings
  rw [if_neg (by exact hmarker)]
  cases hrep with
  | leaf _ type cls hgroup =>
    obtain ⟨extras, hmemo, hextras⟩ := hdec.2 c _ hgroup
    have hnil : extras = [] := by
      rcases extras with _ | ⟨y, ys⟩
      · rfl
      · exact absurd (hextras y (List.mem_cons_self _ _)) (List.not_mem_nil _)
    unfold Memo.GetGroupByID
    rw [hmemo, hnil]
    simp only [Option.getD_some, List.flatMap_cons, List.flatMap_nil, List.append_nil]
    unfold Pattern.leaf
    rw [bindGroupExpression.eq_1]
    by_cases htag : type = tag
    · rw [if_pos ⟨htag, rfl⟩, bindChildren.eq_1]
      simp [AbstractExpression.isLeafOfTag, htag]
    · rw [if_neg (fun h => htag h.1)]
      simp [AbstractExpression.isLeafOfTag, htag]
  | binary _ left_id right_id op type cls left right hgroup _ _ _ _ =>
    obtain ⟨extras, hmemo, hextras⟩ := hdec.2 c _ hgroup
    unfold Memo.GetGroupByID
    rw [hmemo]
    simp only [Option.getD_some]
    rw [flatMap_nil_of]
    · simp [AbstractExpression.isLeafOfTag]
    · intro y hy
      apply bindGroupExpression_arity
      rcases List.mem_cons.1 hy with h | h
      · rw [h]; simp
      · obtain ⟨_, _, c1, c2, _, hkids⟩ := mem_flips (hextras y h)
        rw [hkids]; simp

theorem lookup_single {α : Type} (before after : List α) (x : α) (i : Nat)
    (hi : i = before.length) : (before ++ [x] ++ after)[i]? = some x :=
  lookup_last before [] after x i (by simp [hi])

theorem lookup_flipped (blueprint : List GroupExpression) (g : GroupID) (x : GroupExpression)
    (h : blueprint[g]? = some x) :
    (⟨flippedGroups blueprint⟩ : Memo).GetGroupByID g = ⟨x :: x.flips⟩ := by
  unfold Memo.GetGroupByID
  simp [flippedGroups, List.getElem?_map, h]

/-- What the pattern of an equality of two leaves binds in the group of a plain
tree after the pass of the equivalent rules. -/
theorem childBindings_equalityBindings {tree : AbstractExpression} (hplain : PlainTree tree)
    (t1 t2 : ExpressionType)
    (hm1 : t1 ≠ ExpressionType.GROUP_MARKER) (hm2 : t2 ≠ ExpressionType.GROUP_MARKER)
    (before after : List GroupExpression) :
    childBindings
        ⟨flippedGroups (before ++ layout before.length (Rewriter.ConvertToAbsExpr tree) ++ after)⟩
        (Pattern.mk ExpressionType.COMPARE_EQUAL [Pattern.leaf t1, Pattern.leaf t2])
        (before.length + (layout before.length (Rewriter.ConvertToAbsExpr tree)).length - 1) =
      equalityBindings t1 t2 tree := by
  have hdec := decorates_flipped
    (before ++ layout before.length (Rewriter.ConvertToAbsExpr tree) ++ after)
  unfold childBindings
  rw [if_neg (by simp [Pattern.type])]
  rcases plainTree_cases hplain with ⟨v, he⟩ | ⟨tn, cn, oid, he⟩ | ⟨type, cls, p, q, he, hp, hq, _⟩
  · subst he
    rw [convert_leaf, layout_leaf,
      lookup_flipped _ _ _ (lookup_single before after _ _ (by simp))]
    exact flatMap_nil_of _ _ (fun y hy => by
      apply bindGroupExpression_arity
      simp only [GroupExpression.flips, List.mem_cons, List.not_mem_nil, or_false] at hy
      rw [hy]
      simp)
  · subst he
    rw [convert_leaf, layout_leaf,
      lookup_flipped _ _ _ (lookup_single before after _ _ (by simp))]
    exact flatMap_nil_of _ _ (fun y hy => by
      apply bindGroupExpression_arity
      simp only [GroupExpression.flips, List.mem_cons, List.not_mem_nil, or_false] at hy
      rw [hy]
      simp)
  · subst he
    have hrp := denotes_represents (plainTree_denotes hp) before
      (layout (before.length + (layout before.length (Rewriter.ConvertToAbsExpr p)).length)
        (Rewriter.ConvertToAbsExpr q) ++
        [⟨⟨some (AbstractExpression.mk type cls [])⟩,
          [before.length + (layout before.length (Rewriter.ConvertToAbsExpr p)).length - 1,
           before.length + (layout before.length (Rewriter.ConvertToAbsExpr p)).length +
            (layout (before.length + (layout before.length (Rewriter.ConvertToAbsExpr p)).length)
              (Rewriter.ConvertToAbsExpr q)).length - 1]⟩] ++ after)
    have hrq := denotes_represents (plainTree_denotes hq)
      (before ++ layout before.length (Rewriter.ConvertToAbsExpr p))
      ([⟨⟨some (AbstractExpression.mk type cls [])⟩,
          [before.length + (layout before.length (Rewriter.ConvertToAbsExpr p)).length - 1,
           before.length + (layout before.length (Rewriter.ConvertToAbsExpr p)).length +
            (layout (before.length + (layout before.length (Rewriter.ConvertToAbsExpr p)).length)
              (Rewriter.ConvertToAbsExpr q)).length - 1]⟩] ++ after)
    rw [convert_binary, layout_binary] at hdec ⊢
    generalize hlp : layout before.length (Rewriter.ConvertToAbsExpr p) = lp at *
    simp only [List.length_append] at hrq
    generalize hlq : layout (before.length + lp.length) (Rewriter.ConvertToAbsExpr q) = lq at *
    have hshape1 : before ++ lp ++ (lq ++ [(⟨⟨some (AbstractExpression.mk type cls [])⟩,
        [before.length + lp.length - 1, before.length + lp.length + lq.length - 1]⟩ :
          GroupExpression)] ++ after) =
        before ++ (lp ++ lq ++ [⟨⟨some (AbstractExpression.mk type cls [])⟩,
          [before.length + lp.length - 1, before.length + lp.length + lq.length - 1]⟩]) ++
          after := by
      simp only [List.append_assoc]
    have hshape2 : before ++ lp ++ lq ++ ([(⟨⟨some (AbstractExpression.mk type cls [])⟩,
        [before.length + lp.length - 1, before.length + lp.length + lq.length - 1]⟩ :
          GroupExpression)] ++ after) =
        before ++ (lp ++ lq ++ [⟨⟨some (AbstractExpression.mk type cls [])⟩,
          [before.length + lp.length - 1, before.length + lp.length + lq.length - 1]⟩]) ++
          after := by
      simp only [List.append_assoc]
    rw [hshape1] at hrp
    rw [hshape2] at hrq
    have hroot := lookup_last before (lp ++ lq) after
      (⟨⟨some (AbstractExpression.mk type cls [])⟩,
        [before.length + lp.length - 1, before.length + lp.length + lq.length - 1]⟩ :
          GroupExpression)
      (before.length + (lp ++ lq ++ [(⟨⟨some (AbstractExpression.mk type cls [])⟩,
        [before.length + lp.length - 1, before.length + lp.length + lq.length - 1]⟩ :
          GroupExpression)]).length - 1)
      (by simp only [List.length_append, List.length_singleton]; omega)
    rw [lookup_flipped _ _ _ hroot]
    simp only
    by_cases htype : type = ExpressionType.COMPARE_EQUAL
    · subst htype
      rw [flips_pair ⟨some (AbstractExpression.mk ExpressionType.COMPARE_EQUAL cls [])⟩ _ _
        (by show ExpressionType.COMPARE_EQUAL ∈ equivalentTags; decide)]
      simp only [List.flatMap_cons, List.flatMap_nil, List.append_nil]
      rw [bindGroupExpression_two _ ExpressionType.COMPARE_EQUAL _ _
          ⟨some (AbstractExpression.mk ExpressionType.COMPARE_EQUAL cls [])⟩ _ _ rfl,
        bindGroupExpression_two _ ExpressionType.COMPARE_EQUAL _ _
          ⟨some (expression.ConjunctionExpressionOfType
            (⟨some (AbstractExpression.mk ExpressionType.COMPARE_EQUAL cls [])⟩ :
              AbsExpr_Container).GetType)⟩ _ _ rfl,
        childBindings_leaf_exact hdec hrp t1 hm1, childBindings_leaf_exact hdec hrq t2 hm2,
        childBindings_leaf_exact hdec hrq t1 hm1, childBindings_leaf_exact hdec hrp t2 hm2]
      unfold equalityBindings
      simp only [if_true]
      congr 1
      · cases p.isLeafOfTag t1 <;> cases q.isLeafOfTag t2 <;> rfl
      · cases q.isLeafOfTag t1 <;> cases p.isLeafOfTag t2 <;> rfl
    · rw [flatMap_nil_of]
      · simp [equalityBindings, htype]
      · intro y hy
        apply bindGroupExpression_other
        rcases List.mem_cons.1 hy with h | h
        · rw [h]
          exact htype
        · rw [(flips_type h).1]
          exact htype

/-! ## What the transitive rules produce at a conjunction -/

theorem copy_comparison (cls : ExprClass) (l r : AbstractExpression) :
    AbsExpr_Container.CopyWithChildren
        ⟨some (AbstractExpression.mk ExpressionType.COMPARE_EQUAL cls [])⟩ [l, r] =
      some (AbstractExpression.mk ExpressionType.COMPARE_EQUAL ExprClass.ComparisonExpression
        [l, r]) := rfl

theorem copy_conjunction (cls : ExprClass) (l r : AbstractExpression) :
    AbsExpr_Container.CopyWithChildren
        ⟨some (AbstractExpression.mk ExpressionType.CONJUNCTION_AND cls [])⟩ [l, r] =
      some (AbstractExpression.mk ExpressionType.CONJUNCTION_AND
        ExprClass.ConjunctionExpression [l, r]) := rfl

/-- The bindings of an equality of two leaves in the group of a plain tree: an
operator of the tag `=` that `CopyWithChildren` copies to a comparison, over
two leaves of the tags of the pattern. -/
theorem mem_equalityBindings {t1 t2 : ExpressionType} {e : AbstractExpression}
    (hplain : PlainTree e) {x : AbsExpr_Expression} (hx : x ∈ equalityBindings t1 t2 e) :
    ∃ (op : AbsExpr_Container) (w1 w2 : AbstractExpression),
      x = AbsExpr_Expression.mk op
        [AbsExpr_Expression.mk ⟨some w1⟩ [], AbsExpr_Expression.mk ⟨some w2⟩ []] ∧
      op.GetType = ExpressionType.COMPARE_EQUAL ∧ op.IsDefined = true ∧ markerOf op = none ∧
      (∀ l r, op.CopyWithChildren [l, r] =
        some (AbstractExpression.mk ExpressionType.COMPARE_EQUAL ExprClass.ComparisonExpression
          [l, r])) ∧
      w1.isLeafOfTag t1 = true ∧ w2.isLeafOfTag t2 = true ∧ PlainTree w1 ∧ PlainTree w2 := by
  rcases plainTree_cases hplain with ⟨v, he⟩ | ⟨tn, cn, oid, he⟩ | ⟨type, cls, p, q, he, hp, hq, _⟩
  · subst he
    simp [equalityBindings] at hx
  · subst he
    simp [equalityBindings] at hx
  · subst he
    have hcls := plainTree_class hplain
    by_cases htype : type = ExpressionType.COMPARE_EQUAL
    · subst htype
      simp only [equalityBindings, if_true, List.mem_append] at hx
      rcases hx with h | h
      · by_cases hc : (p.isLeafOfTag t1 && q.isLeafOfTag t2) = true
        · rw [if_pos hc, List.mem_singleton] at h
          rw [Bool.and_eq_true] at hc
          exact ⟨_, p, q, h, rfl, rfl, markerOf_plain _ _ _ hcls, copy_comparison cls,
            hc.1, hc.2, hp, hq⟩
        · rw [if_neg hc] at h
          exact absurd h (List.not_mem_nil _)
      · by_cases hc : (q.isLeafOfTag t1 && p.isLeafOfTag t2) = true
        · rw [if_pos hc, List.mem_singleton] at h
          rw [Bool.and_eq_true] at hc
          exact ⟨_, q, p, h, rfl, rfl, rfl, copy_comparison _, hc.1, hc.2, hq, hp⟩
        · rw [if_neg hc] at h
          exact absurd h (List.not_mem_nil _)
    · simp only [equalityBindings, if_neg htype] at hx
      exact absurd hx (List.not_mem_nil _)

theorem mem_conjunctionBindings {t1 t2 t3 t4 : ExpressionType} {u v : AbstractExpression}
    {x : AbsExpr_Expression} (hx : x ∈ conjunctionBindings t1 t2 t3 t4 u v) :
    ∃ l r, l ∈ equalityBindings t1 t2 u ∧ r ∈ equalityBindings t3 t4 v ∧
      x = AbsExpr_Expression.mk andOp [l, r] := by
  unfold conjunctionBindings at hx
  rw [List.mem_flatMap] at hx
  obtain ⟨l, hl, hx2⟩ := hx
  rw [List.mem_map] at hx2
  obtain ⟨r, hr, hxeq⟩ := hx2
  exact ⟨l, r, hl, hr, hxeq.symm⟩

theorem denotes_column (table_name col_name : String) (bound_oid : Option Nat) :
    Denotes (AbsExpr_Expression.mk ⟨some (columnRef table_name col_name bound_oid)⟩ [])
      (columnRef table_name col_name bound_oid) :=
  Denotes.leaf _ _ rfl

theorem denotes_constant (value : Value) :
    Denotes (AbsExpr_Expression.mk ⟨some (expression.ConstantValueExpression value)⟩ [])
      (expression.ConstantValueExpression value) :=
  Denotes.leaf _ _ rfl

/-- An operator of the tag `=` over a column and a constant denotes the
comparison of the two, a plain tree to which no short-circuit and no transitive
rule applies. -/
theorem denotes_equality (op : AbsExpr_Container) (l r : AbstractExpression)
    (hdefined : op.IsDefined = true) (hmarker : markerOf op = none)
    (htype : op.GetType = ExpressionType.COMPARE_EQUAL)
    (hcopy : ∀ l r, op.CopyWithChildren [l, r] =
      some (AbstractExpression.mk ExpressionType.COMPARE_EQUAL ExprClass.ComparisonExpression
        [l, r]))
    (hl : PlainTree l) (hr : PlainTree r)
    (hleafl : l.GetChildren = []) (hleafr : r.GetChildren = [])
    (hdl : Denotes (AbsExpr_Expression.mk ⟨some l⟩ []) l)
    (hdr : Denotes (AbsExpr_Expression.mk ⟨some r⟩ []) r) :
    Denotes (AbsExpr_Expression.mk op
        [AbsExpr_Expression.mk ⟨some l⟩ [], AbsExpr_Expression.mk ⟨some r⟩ []])
      (AbstractExpression.mk ExpressionType.COMPARE_EQUAL ExprClass.ComparisonExpression [l, r]) ∧
    PlainTree (AbstractExpression.mk ExpressionType.COMPARE_EQUAL
      ExprClass.ComparisonExpression [l, r]) ∧
    (AbstractExpression.mk ExpressionType.COMPARE_EQUAL ExprClass.ComparisonExpression
      [l, r]).anyNode AbstractExpression.shortCircuitRedex = false ∧
    (AbstractExpression.mk ExpressionType.COMPARE_EQUAL ExprClass.ComparisonExpression
      [l, r]).transitiveRedex = false := by
  refine ⟨Denotes.binary op _ _ _ _ l r hdefined hmarker htype (hcopy l r) hdl hdr,
    PlainTree.comparison ExpressionType.COMPARE_EQUAL l r (by decide) hl hr, ?_, ?_⟩
  · obtain ⟨tl, cl, csl⟩ := l
    obtain ⟨tr, cr, csr⟩ := r
    simp only [AbstractExpression.GetChildren] at hleafl hleafr
    subst hleafl
    subst hleafr
    simp [AbstractExpression.anyNode, AbstractExpression.anyNodeList,
      AbstractExpression.shortCircuitRedex]
  · simp [AbstractExpression.transitiveRedex]

theorem isLeafOfTag_children {tag : ExpressionType} {e : AbstractExpression}
    (h : e.isLeafOfTag tag = true) : e.GetChildren = [] := by
  obtain ⟨type, cls, children⟩ := e
  simp only [AbstractExpression.isLeafOfTag, Bool.and_eq_true, List.isEmpty_iff] at h
  exact h.2

/-- A plain leaf denotes itself. -/
theorem denotes_plainLeaf {tag : ExpressionType} {e : AbstractExpression}
    (hplain : PlainTree e) (h : e.isLeafOfTag tag = true) :
    Denotes (AbsExpr_Expression.mk ⟨some e⟩ []) e := by
  have hkids := isLeafOfTag_children h
  rcases plainTree_cases hplain with ⟨v, he⟩ | ⟨tn, cn, oid, he⟩ | ⟨type, cls, p, q, he, _, _, _⟩
  · subst he; exact Denotes.leaf _ _ rfl
  · subst he; exact Denotes.leaf _ _ rfl
  · subst he
    simp [AbstractExpression.GetChildren] at hkids

/-- What `TVEqualityWithTwoCVTransform` produces at a binding of a conjunction of
two plain trees: nothing, or one expression that denotes a plain tree to which
no short-circuit and no transitive rule applies. -/
theorem tvEquality_output (cc : Comparability) {a b : AbstractExpression}
    (ha : PlainTree a) (hb : PlainTree b) {x : AbsExpr_Expression}
    (hx : x ∈ conjunctionBindings ExpressionType.VALUE_TUPLE ExpressionType.VALUE_CONSTANT
      ExpressionType.VALUE_TUPLE ExpressionType.VALUE_CONSTANT a b) :
    Rule.TVEqualityWithTwoCVTransform.Transform cc x [] = some [] ∨
    ∃ (out : AbsExpr_Expression) (tree : AbstractExpression),
      Rule.TVEqualityWithTwoCVTransform.Transform cc x [] = some [out] ∧ Denotes out tree ∧
        PlainTree tree ∧ tree.anyNode AbstractExpression.shortCircuitRedex = false ∧
        tree.transitiveRedex = false := by
  obtain ⟨l, r, hl, hr, hxeq⟩ := mem_conjunctionBindings hx
  obtain ⟨op1, w1, w2, e1, ht1, hd1, hm1, hc1, l1, l2, p1, p2⟩ := mem_equalityBindings ha hl
  obtain ⟨op2, w3, w4, e2, ht2, hd2, hm2, hc2, l3, l4, p3, p4⟩ := mem_equalityBindings hb hr
  obtain ⟨v2, hv2⟩ := plainTree_constant p2 (isLeafOfTag_type l2)
  obtain ⟨v4, hv4⟩ := plainTree_constant p4 (isLeafOfTag_type l4)
  have hshape : x = andOfEquals andOp op1 op2 w1 (expression.ConstantValueExpression v2) w3
      (expression.ConstantValueExpression v4) := by
    rw [hxeq, e1, e2, hv2, hv4]
    rfl
  have hrule : Rule.TVEqualityWithTwoCVTransform.Transform cc x [] =
      TVEqualityWithTwoCVTransform.Transform cc x [] := rfl
  rw [hrule, hshape, tvEquality_unfold cc andOp op1 op2 w1 w3 v2 v4 [] rfl ht1 ht2
    (isLeafOfTag_type l1) (isLeafOfTag_type l3)]
  by_cases hcond : w1.ExactlyEquals w3 = true ∧ cc v2 v4 = true
  · rw [if_pos hcond]
    by_cases heq : v2.CompareEquals v4 = CmpBool.CmpTrue
    · rw [if_pos heq]
      refine Or.inr ⟨_, AbstractExpression.mk ExpressionType.COMPARE_EQUAL
        ExprClass.ComparisonExpression [w1, expression.ConstantValueExpression v2], rfl, ?_⟩
      exact denotes_equality _ w1 _ rfl rfl rfl (copy_comparison _) p1
        (PlainTree.constant v2) (isLeafOfTag_children l1) rfl (denotes_plainLeaf p1 l1)
        (denotes_constant v2)
    · rw [if_neg heq]
      refine Or.inr ⟨_, expression.ConstantValueExpression
        (ValueFactory.GetBooleanValueOfBool false), rfl, denotes_constant _,
        PlainTree.constant _, ?_, ?_⟩
      · simp [expression.ConstantValueExpression, AbstractExpression.anyNode,
          AbstractExpression.anyNodeList, AbstractExpression.shortCircuitRedex]
      · simp [expression.ConstantValueExpression, AbstractExpression.transitiveRedex]
  · rw [if_neg hcond]
    exact Or.inl rfl

/-- What `TransitiveClosureConstantTransform` produces at a binding of a
conjunction of two plain trees: nothing, or one expression that denotes a plain
tree to which no short-circuit rule applies. -/
theorem transitiveClosure_output (cc : Comparability) {a b : AbstractExpression}
    (ha : PlainTree a) (hb : PlainTree b) {x : AbsExpr_Expression}
    (hx : x ∈ conjunctionBindings ExpressionType.VALUE_TUPLE ExpressionType.VALUE_CONSTANT
      ExpressionType.VALUE_TUPLE ExpressionType.VALUE_TUPLE a b) :
    SettledOutput (Rule.TransitiveClosureConstantTransform.Transform cc x []) := by
  obtain ⟨l, r, hl, hr, hxeq⟩ := mem_conjunctionBindings hx
  obtain ⟨op1, w1, w2, e1, ht1, hd1, hm1, hc1, l1, l2, p1, p2⟩ := mem_equalityBindings ha hl
  obtain ⟨op2, w3, w4, e2, ht2, hd2, hm2, hc2, l3, l4, p3, p4⟩ := mem_equalityBindings hb hr
  have hshape : x = andOfEquals andOp op1 op2 w1 w2 w3 w4 := by
    rw [hxeq, e1, e2]
    rfl
  have hrule : Rule.TransitiveClosureConstantTransform.Transform cc x [] =
      TransitiveClosureConstantTransform.Transform x [] := rfl
  rw [hrule, hshape, transitiveClosure_unfold andOp op1 op2 w1 w2 w3 w4 [] rfl ht1 ht2
    (isLeafOfTag_type l1) (isLeafOfTag_type l2) (isLeafOfTag_type l3) (isLeafOfTag_type l4)]
  have hleft := denotes_equality op1 w1 w2 hd1 hm1 ht1 hc1 p1 p2 (isLeafOfTag_children l1)
    (isLeafOfTag_children l2) (denotes_plainLeaf p1 l1) (denotes_plainLeaf p2 l2)
  have hconj : ∀ (u v : AbstractExpression),
      Denotes (AbsExpr_Expression.mk op2
        [AbsExpr_Expression.mk ⟨some u⟩ [], AbsExpr_Expression.mk ⟨some v⟩ []])
        (AbstractExpression.mk ExpressionType.COMPARE_EQUAL ExprClass.ComparisonExpression
          [u, v]) →
      PlainTree (AbstractExpression.mk ExpressionType.COMPARE_EQUAL
        ExprClass.ComparisonExpression [u, v]) →
      (AbstractExpression.mk ExpressionType.COMPARE_EQUAL ExprClass.ComparisonExpression
        [u, v]).anyNode AbstractExpression.shortCircuitRedex = false →
      SettledOutput (some ([] ++ [AbsExpr_Expression.mk andOp
        [AbsExpr_Expression.mk op1
          [AbsExpr_Expression.mk ⟨some w1⟩ [], AbsExpr_Expression.mk ⟨some w2⟩ []],
         AbsExpr_Expression.mk op2
          [AbsExpr_Expression.mk ⟨some u⟩ [], AbsExpr_Expression.mk ⟨some v⟩ []]]])) := by
    intro u v hden hpl hsc
    refine Or.inr ⟨_, AbstractExpression.mk ExpressionType.CONJUNCTION_AND
      ExprClass.ConjunctionExpression
      [AbstractExpression.mk ExpressionType.COMPARE_EQUAL ExprClass.ComparisonExpression
        [w1, w2],
       AbstractExpression.mk ExpressionType.COMPARE_EQUAL ExprClass.ComparisonExpression
        [u, v]], rfl, ?_, ?_, ?_⟩
    · exact Denotes.binary andOp _ _ _ _ _ _ rfl rfl rfl (copy_conjunction _ _ _) hleft.1 hden
    · exact PlainTree.conjunction ExpressionType.CONJUNCTION_AND _ _ (by decide) hleft.2.1 hpl
    · rw [AbstractExpression.anyNode.eq_1, AbstractExpression.anyNodeList.eq_2,
        AbstractExpression.anyNodeList.eq_2, AbstractExpression.anyNodeList.eq_1,
        hleft.2.2.1, hsc]
      simp [AbstractExpression.shortCircuitRedex, AbstractExpression.isTruthConstant,
        AbstractExpression.isLeafOfTag]
  by_cases h1 : w3.ExactlyEquals w4 = true
  · rw [if_pos h1]
    exact Or.inr ⟨_, _, rfl, hleft.1, hleft.2.1, hleft.2.2.1⟩
  · rw [if_neg h1]
    by_cases h2 : (!(w1.ExactlyEquals w3) && !(w1.ExactlyEquals w4)) = true
    · rw [if_pos h2]
      exact Or.inl rfl
    · rw [if_neg h2]
      by_cases h3 : w1.ExactlyEquals w3 = true
      · rw [if_pos h3]
        have hright := denotes_equality op2 w2 w4 hd2 hm2 ht2 hc2 p2 p4
          (isLeafOfTag_children l2) (isLeafOfTag_children l4) (denotes_plainLeaf p2 l2)
          (denotes_plainLeaf p4 l4)
        exact hconj w2 w4 hright.1 hright.2.1 hright.2.2.1
      · rw [if_neg h3]
        have hright := denotes_equality op2 w3 w2 hd2 hm2 ht2 hc2 p3 p2
          (isLeafOfTag_children l3) (isLeafOfTag_children l2) (denotes_plainLeaf p3 l3)
          (denotes_plainLeaf p2 l2)
        exact hconj w3 w2 hright.1 hright.2.1 hright.2.2.1

/-! ## Replacement of a group -/

theorem layoutList_pair (offset : Nat) (left right : AbsExpr_Expression) :
    layoutList offset [left, right] =
      (layout offset left ++ layout (offset + (layout offset left).length) right,
        [offset + (layout offset left).length - 1,
          offset + (layout offset left).length +
            (layout (offset + (layout offset left).length) right).length - 1]) := by
  simp [layoutList]

/-- Recording two children that denote trees appends the groups of their
layouts. -/
theorem recordChildren_denoted {left right : AbsExpr_Expression} {l r : AbstractExpression}
    (hl : Denotes left l) (hr : Denotes right r) (memo : Memo) :
    memo.RecordChildren [left, right] =
      (⟨memo.groups ++ singleGroups (layoutList memo.groups.length [left, right]).1⟩,
        (layoutList memo.groups.length [left, right]).2) := by
  rw [recordChildren_pair memo left right (denotes_marked hl) (denotes_marked hr),
    denotes_record hl memo]
  simp only
  rw [denotes_record hr, layoutList_pair]
  simp only [List.length_append, singleGroups_length, singleGroups_append, List.append_assoc]

theorem set_set_of_lt {α : Type} (l : List α) (g : Nat) (a b : α) :
    (l.set g a).set g b = l.set g b := by
  simp

theorem modify_append_of_lt {α : Type} (f : α → α) (l ext : List α) (g : Nat) (a : α)
    (h : l[g]? = some a) : List.modify f g (l ++ ext) = l.set g (f a) ++ ext := by
  have hlt := (List.getElem?_eq_some_iff.1 h).1
  rw [modify_of_lookup f (l ++ ext) g a (by rw [List.getElem?_append_left hlt]; exact h),
    List.set_append_left _ _ hlt]

/-- Replacing a group by an expression that denotes a tree clears the group,
appends the groups of the children of the expression, and puts the operator of
the expression over them into the group. -/
theorem replace_denoted {out : AbsExpr_Expression} {tree : AbstractExpression}
    (hden : Denotes out tree) (memo : Memo) (root : GroupID)
    (hroot : root < memo.groups.length) :
    memo.ReplaceGroupExpression root out = ⟨replacedGroups memo.groups root out⟩ := by
  have hmark := denotes_marked hden
  have hlook : memo.groups[root]? = some (memo.groups[root]) := List.getElem?_eq_getElem hroot
  have hcleared : memo.setGroup root [] = ⟨memo.groups.set root ⟨[]⟩⟩ := by
    unfold Memo.setGroup
    rw [modify_of_lookup _ _ _ _ hlook]
  unfold Memo.ReplaceGroupExpression
  rw [hmark, hcleared]
  simp only
  cases hden with
  | leaf type cls hmarker =>
    rw [Memo.RecordExpression.eq_1, Memo.RecordChildren.eq_1]
    simp only [Memo.InsertExpression]
    rw [findDuplicate_defined _ _ (by rfl)]
    simp only
    rw [modify_of_lookup _ _ root (⟨[]⟩ : Group) (List.getElem?_set_self hroot)]
    simp [replacedGroups, layoutList, singleGroups]
  | binary op left right type cls l r hdefined hmarker htype hcopy hl hr =>
    rw [Memo.RecordExpression.eq_1, recordChildren_denoted hl hr]
    simp only [Memo.InsertExpression]
    rw [findDuplicate_defined _ _ hdefined]
    simp only
    rw [modify_append_of_lt _ _ _ root (⟨[]⟩ : Group) (List.getElem?_set_self hroot)]
    simp [replacedGroups]

/-- A memo stays decorated when a group is set to one group-expression and single
groups are appended. -/
theorem decorates_set {blueprint : List GroupExpression} {memo : Memo}
    (hdec : memo.decorates blueprint) (root : GroupID)
    (last : GroupExpression) (init : List GroupExpression) :
    Memo.decorates (blueprint.set root last ++ init)
      ⟨memo.groups.set root ⟨[last]⟩ ++ singleGroups init⟩ := by
  have hlen := hdec.1
  refine ⟨by simp [hlen, singleGroups_length], ?_⟩
  intro g original hg
  by_cases hlt : g < blueprint.length
  · rw [List.getElem?_append_left (by simpa using hlt)] at hg
    rw [List.getElem?_append_left (by simpa [hlen] using hlt)]
    by_cases hgr : root = g
    · subst hgr
      rw [List.getElem?_set_self hlt] at hg
      rw [List.getElem?_set_self (by rw [hlen]; exact hlt)]
      simp only [Option.some.injEq] at hg
      subst hg
      exact ⟨[], rfl, fun x hx => absurd hx (List.not_mem_nil x)⟩
    · rw [List.getElem?_set_ne hgr] at hg
      rw [List.getElem?_set_ne hgr]
      exact hdec.2 g original hg
  · have hge : blueprint.length ≤ g := Nat.le_of_not_lt hlt
    rw [List.getElem?_append_right (by simpa using hge)] at hg
    rw [List.getElem?_append_right (by simpa [hlen] using hge)]
    simp only [List.length_set] at hg ⊢
    rw [hlen]
    refine ⟨[], ?_, fun x hx => absurd hx (List.not_mem_nil x)⟩
    simp [singleGroups, List.getElem?_map, hg]

theorem decorates_replaced {blueprint : List GroupExpression} {memo : Memo}
    (hdec : memo.decorates blueprint) (root : GroupID) (out : AbsExpr_Expression) :
    Memo.decorates (replacedBlueprint blueprint root out)
      ⟨replacedGroups memo.groups root out⟩ := by
  obtain ⟨op, children⟩ := out
  have h := decorates_set hdec root ⟨op, (layoutList blueprint.length children).2⟩
    (layoutList blueprint.length children).1
  simpa only [replacedBlueprint, replacedGroups, hdec.1] using h

/-- After the replacement by an expression that denotes a tree, the group
represents the tree. -/
theorem represents_replaced {out : AbsExpr_Expression} {tree : AbstractExpression}
    (hden : Denotes out tree) (blueprint : List GroupExpression) (root : GroupID)
    (hroot : root < blueprint.length) :
    Represents (replacedBlueprint blueprint root out) root tree := by
  cases hden with
  | leaf type cls hmarker =>
    refine Represents.leaf root type cls ?_
    simp only [replacedBlueprint, layoutList, List.append_nil]
    exact List.getElem?_set_self hroot
  | binary op left right type cls l r hdefined hmarker htype hcopy hl hr =>
    simp only [replacedBlueprint, layoutList_pair]
    have hlen : (blueprint.set root ⟨op, [blueprint.length + (layout blueprint.length left).length - 1,
          blueprint.length + (layout blueprint.length left).length +
            (layout (blueprint.length + (layout blueprint.length left).length) right).length -
              1]⟩).length = blueprint.length := List.length_set _ _ _
    refine Represents.binary root (blueprint.length + (layout blueprint.length left).length - 1)
      (blueprint.length + (layout blueprint.length left).length +
        (layout (blueprint.length + (layout blueprint.length left).length) right).length - 1)
      op type cls l r ?_ htype hcopy ?_ ?_
    · rw [List.getElem?_append_left (by rw [hlen]; exact hroot)]
      exact List.getElem?_set_self hroot
    · have h := denotes_represents hl (blueprint.set root ⟨op,
        [blueprint.length + (layout blueprint.length left).length - 1,
          blueprint.length + (layout blueprint.length left).length +
            (layout (blueprint.length + (layout blueprint.length left).length) right).length -
              1]⟩) (layout (blueprint.length + (layout blueprint.length left).length) right)
      rw [hlen] at h
      simpa only [List.append_assoc] using h
    · have h := denotes_represents hr (blueprint.set root ⟨op,
        [blueprint.length + (layout blueprint.length left).length - 1,
          blueprint.length + (layout blueprint.length left).length +
            (layout (blueprint.length + (layout blueprint.length left).length) right).length -
              1]⟩ ++ layout blueprint.length left) []
      simp only [List.length_append, hlen, List.append_nil] at h
      simpa only [List.append_assoc] using h

/-- A group that holds the group-expression of another group represents the tree
of that group. -/
theorem represents_copy {blueprint : List GroupExpression} {g root : GroupID}
    {tree : AbstractExpression} (h : Represents blueprint g tree)
    (hsame : blueprint[root]? = blueprint[g]?) : Represents blueprint root tree := by
  cases h with
  | leaf _ type cls hgroup => exact Represents.leaf root type cls (hsame.trans hgroup)
  | binary _ left_id right_id op type cls left right hgroup htype hcopy hl hr =>
    exact Represents.binary root left_id right_id op type cls left right (hsame.trans hgroup)
      htype hcopy hl hr

/-- Replacing a group by the marker of another group puts the first
group-expression of that group into the group. -/
theorem replace_marker {blueprint : List GroupExpression} {memo : Memo}
    (hdec : memo.decorates blueprint) (root marked : GroupID) (original : GroupExpression)
    (hroot : root < blueprint.length) (hmarked : blueprint[marked]? = some original) :
    memo.ReplaceGroupExpression root (groupMarkerLeaf marked) =
      ⟨memo.groups.set root ⟨[original]⟩⟩ := by
  obtain ⟨extras, hgroup, _⟩ := hdec.2 marked original hmarked
  have hlt : root < memo.groups.length := by rw [hdec.1]; exact hroot
  have hlook : memo.groups[root]? = some memo.groups[root] := List.getElem?_eq_getElem hlt
  have hmark : Memo.markedGroup (groupMarkerLeaf marked) = some marked := rfl
  unfold Memo.ReplaceGroupExpression
  rw [hmark]
  simp only
  unfold Memo.setGroup Memo.GetGroupByID
  rw [hgroup, modify_of_lookup _ _ _ _ hlook]
  rfl

/-- The tasks pushed for the child groups of a group that represents a tree over
two plain trees, no node of which a rule of the rule set applies to, are
settled. -/
theorem children_settled {blueprint : List GroupExpression} {memo : Memo}
    (hdec : memo.decorates blueprint) {g : GroupID} {type : ExpressionType} {cls : ExprClass}
    {a b : AbstractExpression}
    (hrep : Represents blueprint g (AbstractExpression.mk type cls [a, b]))
    (ha : PlainTree a) (hb : PlainTree b) (name : RewriteRuleSetName)
    (hna : a.anyNode (redexOf name) = false) (hnb : b.anyNode (redexOf name) = false)
    (f : GroupID → OptimizerTask)
    (hf : ∀ c, (f c).isReplacing = true ∧ (f c).group = c ∧ (f c).rule_set_name = name) :
    ∀ t, t ∈ ((GetUniqueChildGroupIDs memo g).map f).reverse → t.settledIn blueprint := by
  intro t ht
  rw [List.mem_reverse, List.mem_map] at ht
  obtain ⟨c, hc, htc⟩ := ht
  obtain ⟨type2, cls2, left, right, htree, hside⟩ := uniqueChildGroupIDs_represents hdec hrep hc
  cases htree
  rw [← htc]
  refine ⟨(hf c).1, ?_⟩
  rw [(hf c).2.1, (hf c).2.2]
  rcases hside with h | h
  · exact ⟨a, h, ha, hna⟩
  · exact ⟨b, h, hb, hnb⟩

/-! ## The groups of a conjunction -/

theorem conjunctionGroups_eq (a b : AbstractExpression) :
    conjunctionGroups a b =
      layout 0 (Rewriter.ConvertToAbsExpr a) ++
        layout (layout 0 (Rewriter.ConvertToAbsExpr a)).length (Rewriter.ConvertToAbsExpr b) ++
        [⟨andOp, [leftGroup a, rightGroup a b]⟩] := by
  unfold conjunctionGroups leftGroup rightGroup
  have hshape : expression.ConjunctionExpression ExpressionType.CONJUNCTION_AND (some a)
      (some b) = AbstractExpression.mk ExpressionType.CONJUNCTION_AND
        ExprClass.ConjunctionExpression [a, b] := rfl
  rw [hshape, convert_binary, layout_binary]
  simp only [Nat.zero_add]
  rfl

theorem conjunctionGroups_length (a b : AbstractExpression) :
    (conjunctionGroups a b).length = rootGroup a b + 1 := by
  rw [conjunctionGroups_eq]
  simp only [rootGroup, List.length_append, List.length_singleton]

theorem conjunctionGroups_root (a b : AbstractExpression) :
    (conjunctionGroups a b)[rootGroup a b]? = some ⟨andOp, [leftGroup a, rightGroup a b]⟩ := by
  rw [conjunctionGroups_eq]
  have h := lookup_single (layout 0 (Rewriter.ConvertToAbsExpr a) ++
    layout (layout 0 (Rewriter.ConvertToAbsExpr a)).length (Rewriter.ConvertToAbsExpr b)) []
    (⟨andOp, [leftGroup a, rightGroup a b]⟩ : GroupExpression) (rootGroup a b)
    (by simp [rootGroup])
  simpa only [List.append_nil] using h

theorem represents_left {a : AbstractExpression} (ha : PlainTree a) (b : AbstractExpression)
    (last : GroupExpression) :
    Represents (layout 0 (Rewriter.ConvertToAbsExpr a) ++
        layout (layout 0 (Rewriter.ConvertToAbsExpr a)).length (Rewriter.ConvertToAbsExpr b) ++
        [last]) (leftGroup a) a := by
  have h := denotes_represents (plainTree_denotes ha) []
    (layout (layout 0 (Rewriter.ConvertToAbsExpr a)).length (Rewriter.ConvertToAbsExpr b) ++
      [last])
  simp only [List.nil_append, List.length_nil, Nat.zero_add] at h
  simpa only [List.append_assoc, leftGroup] using h

theorem represents_right (a : AbstractExpression) {b : AbstractExpression} (hb : PlainTree b)
    (last : GroupExpression) :
    Represents (layout 0 (Rewriter.ConvertToAbsExpr a) ++
        layout (layout 0 (Rewriter.ConvertToAbsExpr a)).length (Rewriter.ConvertToAbsExpr b) ++
        [last]) (rightGroup a b) b :=
  denotes_represents (plainTree_denotes hb) (layout 0 (Rewriter.ConvertToAbsExpr a)) [last]

/-- The group of the conjunction represents `AND(a, b)`. -/
theorem represents_root {a b : AbstractExpression} (ha : PlainTree a) (hb : PlainTree b) :
    Represents (conjunctionGroups a b) (rootGroup a b)
      (expression.ConjunctionExpression ExpressionType.CONJUNCTION_AND (some a) (some b)) := by
  refine Represents.binary _ (leftGroup a) (rightGroup a b) andOp
    ExpressionType.CONJUNCTION_AND ExprClass.ConjunctionExpression a b
    (conjunctionGroups_root a b) rfl rfl ?_ ?_
  · rw [conjunctionGroups_eq]
    exact represents_left ha b _
  · rw [conjunctionGroups_eq]
    exact represents_right a hb _

/-- The group of the conjunction after the pass of the equivalent rules: the
conjunction over the groups of `a` and `b`, and its flip. -/
theorem rootGroup_flipped (a b : AbstractExpression) :
    ((⟨flippedGroups (conjunctionGroups a b)⟩ : Memo).GetGroupByID
        (rootGroup a b)).logical_expressions =
      [⟨andOp, [leftGroup a, rightGroup a b]⟩, ⟨andOp, [rightGroup a b, leftGroup a]⟩] := by
  rw [lookup_flipped _ _ _ (conjunctionGroups_root a b),
    flips_pair andOp _ _ (by show ExpressionType.CONJUNCTION_AND ∈ equivalentTags; decide)]
  rfl

/-- What the pattern of an equality binds in the groups of `a` and of `b`. -/
theorem childBindings_left {a : AbstractExpression} (ha : PlainTree a) (b : AbstractExpression)
    (t1 t2 : ExpressionType)
    (hm1 : t1 ≠ ExpressionType.GROUP_MARKER) (hm2 : t2 ≠ ExpressionType.GROUP_MARKER) :
    childBindings ⟨flippedGroups (conjunctionGroups a b)⟩
        (Pattern.mk ExpressionType.COMPARE_EQUAL [Pattern.leaf t1, Pattern.leaf t2])
        (leftGroup a) = equalityBindings t1 t2 a := by
  have h := childBindings_equalityBindings ha t1 t2 hm1 hm2 []
    (layout (layout 0 (Rewriter.ConvertToAbsExpr a)).length (Rewriter.ConvertToAbsExpr b) ++
      [⟨andOp, [leftGroup a, rightGroup a b]⟩])
  simp only [List.nil_append, List.length_nil, Nat.zero_add] at h
  rw [conjunctionGroups_eq]
  simpa only [List.append_assoc, leftGroup] using h

theorem childBindings_right (a : AbstractExpression) {b : AbstractExpression} (hb : PlainTree b)
    (t1 t2 : ExpressionType)
    (hm1 : t1 ≠ ExpressionType.GROUP_MARKER) (hm2 : t2 ≠ ExpressionType.GROUP_MARKER) :
    childBindings ⟨flippedGroups (conjunctionGroups a b)⟩
        (Pattern.mk ExpressionType.COMPARE_EQUAL [Pattern.leaf t1, Pattern.leaf t2])
        (rightGroup a b) = equalityBindings t1 t2 b := by
  have h := childBindings_equalityBindings hb t1 t2 hm1 hm2
    (layout 0 (Rewriter.ConvertToAbsExpr a)) [⟨andOp, [leftGroup a, rightGroup a b]⟩]
  rw [conjunctionGroups_eq]
  exact h

/-- The bindings of the pattern `AND(Equal(t1, t2), Equal(t3, t4))` at the group
of `AND(a, b)` after the pass of the equivalent rules: those of the conjunction
as it is written, then those of its flip. -/
theorem rootBindings_conjunction {a b : AbstractExpression} (ha : PlainTree a)
    (hb : PlainTree b) (t1 t2 t3 t4 : ExpressionType)
    (hm1 : t1 ≠ ExpressionType.GROUP_MARKER) (hm2 : t2 ≠ ExpressionType.GROUP_MARKER)
    (hm3 : t3 ≠ ExpressionType.GROUP_MARKER) (hm4 : t4 ≠ ExpressionType.GROUP_MARKER) :
    ((⟨flippedGroups (conjunctionGroups a b)⟩ : Memo).GetGroupByID
        (rootGroup a b)).logical_expressions.flatMap
      (bindGroupExpression ⟨flippedGroups (conjunctionGroups a b)⟩
        (andOfEqualsPattern t1 t2 t3 t4)) =
      conjunctionBindings t1 t2 t3 t4 a b ++ conjunctionBindings t1 t2 t3 t4 b a := by
  rw [rootGroup_flipped]
  simp only [List.flatMap_cons, List.flatMap_nil, List.append_nil, andOfEqualsPattern]
  rw [bindGroupExpression_two _ ExpressionType.CONJUNCTION_AND _ _ andOp _ _ rfl,
    bindGroupExpression_two _ ExpressionType.CONJUNCTION_AND _ _ andOp _ _ rfl,
    childBindings_left ha b t1 t2 hm1 hm2, childBindings_left ha b t3 t4 hm3 hm4,
    childBindings_right a hb t1 t2 hm1 hm2, childBindings_right a hb t3 t4 hm3 hm4]
  rfl

/-- The bindings of the pattern of `AndShortCircuit` at the group of `AND(a, b)`
after the pass of the equivalent rules. -/
theorem rootBindings_shortCircuit {a b : AbstractExpression} (ha : PlainTree a)
    (hb : PlainTree b) :
    ((⟨flippedGroups (conjunctionGroups a b)⟩ : Memo).GetGroupByID
        (rootGroup a b)).logical_expressions.flatMap
      (bindGroupExpression ⟨flippedGroups (conjunctionGroups a b)⟩
        AndShortCircuit.match_pattern) = shortCircuitBindings a b := by
  have hdec := decorates_flipped (conjunctionGroups a b)
  have hra : Represents (conjunctionGroups a b) (leftGroup a) a := by
    rw [conjunctionGroups_eq]; exact represents_left ha b _
  have hrb : Represents (conjunctionGroups a b) (rightGroup a b) b := by
    rw [conjunctionGroups_eq]; exact represents_right a hb _
  rw [rootGroup_flipped]
  simp only [List.flatMap_cons, List.flatMap_nil, List.append_nil,
    AndShortCircuit.match_pattern]
  rw [bindGroupExpression_two _ ExpressionType.CONJUNCTION_AND _ _ andOp _ _ rfl,
    bindGroupExpression_two _ ExpressionType.CONJUNCTION_AND _ _ andOp _ _ rfl,
    childBindings_marker, childBindings_marker,
    childBindings_leaf_exact hdec hra _ (by decide),
    childBindings_leaf_exact hdec hrb _ (by decide)]
  unfold shortCircuitBindings
  by_cases h1 : a.isLeafOfTag ExpressionType.VALUE_CONSTANT = true <;>
  by_cases h2 : b.isLeafOfTag ExpressionType.VALUE_CONSTANT = true <;>
  simp [h1, h2]

/-! ## The pass of the transitive rules at a conjunction -/

theorem firstOutput_some (cc : Comparability) (rule : Rule) :
    ∀ (bindings : List AbsExpr_Expression) (out : AbsExpr_Expression),
      firstOutput cc rule bindings = some out →
      ∃ x rest, x ∈ bindings ∧ rule.Transform cc x [] = some (out :: rest) := by
  intro bindings
  induction bindings with
  | nil =>
    intro out h
    simp [firstOutput] at h
  | cons b others ih =>
    intro out h
    rw [firstOutput.eq_2] at h
    rcases hT : rule.Transform cc b [] with _ | ⟨_ | ⟨o, os⟩⟩
    · rw [hT] at h
      simp only at h
      obtain ⟨x, rest, hx, hxT⟩ := ih out h
      exact ⟨x, rest, List.mem_cons_of_mem _ hx, hxT⟩
    · rw [hT] at h
      simp only at h
      obtain ⟨x, rest, hx, hxT⟩ := ih out h
      exact ⟨x, rest, List.mem_cons_of_mem _ hx, hxT⟩
    · rw [hT] at h
      simp only [Option.some.injEq] at h
      subst h
      exact ⟨b, os, List.mem_cons_self _ _, hT⟩

theorem tvBindings_output (cc : Comparability) {a b : AbstractExpression}
    (ha : PlainTree a) (hb : PlainTree b) {x : AbsExpr_Expression} (hx : x ∈ tvBindings a b) :
    Rule.TVEqualityWithTwoCVTransform.Transform cc x [] = some [] ∨
    ∃ (out : AbsExpr_Expression) (tree : AbstractExpression),
      Rule.TVEqualityWithTwoCVTransform.Transform cc x [] = some [out] ∧ Denotes out tree ∧
        PlainTree tree ∧ tree.anyNode AbstractExpression.shortCircuitRedex = false ∧
        tree.transitiveRedex = false := by
  unfold tvBindings at hx
  rcases List.mem_append.1 hx with h | h
  · exact tvEquality_output cc ha hb h
  · exact tvEquality_output cc hb ha h

theorem tcBindings_output (cc : Comparability) {a b : AbstractExpression}
    (ha : PlainTree a) (hb : PlainTree b) {x : AbsExpr_Expression} (hx : x ∈ tcBindings a b) :
    SettledOutput (Rule.TransitiveClosureConstantTransform.Transform cc x []) := by
  unfold tcBindings at hx
  rcases List.mem_append.1 hx with h | h
  · exact transitiveClosure_output cc ha hb h
  · exact transitiveClosure_output cc hb ha h

/-- The first output of `TVEqualityWithTwoCVTransform` at a conjunction of two
plain trees denotes a plain tree to which no short-circuit and no transitive
rule applies. -/
theorem tvOutput_denotes (cc : Comparability) {a b : AbstractExpression}
    (ha : PlainTree a) (hb : PlainTree b) {out : AbsExpr_Expression}
    (h : firstOutput cc Rule.TVEqualityWithTwoCVTransform (tvBindings a b) = some out) :
    ∃ tree, Denotes out tree ∧ PlainTree tree ∧
      tree.anyNode AbstractExpression.shortCircuitRedex = false ∧
      tree.transitiveRedex = false := by
  obtain ⟨x, rest, hx, hT⟩ := firstOutput_some cc _ _ out h
  rcases tvBindings_output cc ha hb hx with h0 | ⟨o, tree, h1, hden, hp, hsc, htr⟩
  · rw [h0] at hT
    simp at hT
  · rw [h1] at hT
    simp only [Option.some.injEq, List.cons.injEq] at hT
    rw [← hT.1]
    exact ⟨tree, hden, hp, hsc, htr⟩

theorem tcOutput_denotes (cc : Comparability) {a b : AbstractExpression}
    (ha : PlainTree a) (hb : PlainTree b) {out : AbsExpr_Expression}
    (h : firstOutput cc Rule.TransitiveClosureConstantTransform (tcBindings a b) = some out) :
    ∃ tree, Denotes out tree ∧ PlainTree tree ∧
      tree.anyNode AbstractExpression.shortCircuitRedex = false := by
  obtain ⟨x, rest, hx, hT⟩ := firstOutput_some cc _ _ out h
  rcases tcBindings_output cc ha hb hx with h0 | ⟨o, tree, h1, hden, hp, hsc⟩
  · rw [h0] at hT
    simp at hT
  · rw [h1] at hT
    simp only [Option.some.injEq, List.cons.injEq] at hT
    rw [← hT.1]
    exact ⟨tree, hden, hp, hsc⟩

/-- The output of the pass of the transitive rules at a conjunction of two plain
trees denotes a plain tree to which no short-circuit rule applies. -/
theorem transitiveOutput_denotes (cc : Comparability) {a b : AbstractExpression}
    (ha : PlainTree a) (hb : PlainTree b) {out : AbsExpr_Expression}
    (h : transitiveOutput cc a b = some out) :
    ∃ tree, Denotes out tree ∧ PlainTree tree ∧
      tree.anyNode AbstractExpression.shortCircuitRedex = false := by
  unfold transitiveOutput at h
  cases htv : firstOutput cc Rule.TVEqualityWithTwoCVTransform (tvBindings a b) with
  | some o =>
    rw [htv] at h
    simp only [Option.some.injEq] at h
    subst h
    obtain ⟨tree, hden, hp, hsc, _⟩ := tvOutput_denotes cc ha hb htv
    exact ⟨tree, hden, hp, hsc⟩
  | none =>
    rw [htv] at h
    exact tcOutput_denotes cc ha hb h

theorem rootGroup_lt (a b : AbstractExpression) :
    rootGroup a b < (conjunctionGroups a b).length := by
  rw [conjunctionGroups_length]
  exact Nat.lt_succ_self _

/-- The pass of the transitive rules at the group of `AND(a, b)`: the first
output of the two rules replaces the contents of the group. -/
theorem optimizeCurrentGroup_conjunction (cc : Comparability) {a b : AbstractExpression}
    (ha : PlainTree a) (hb : PlainTree b) :
    OptimizeCurrentGroup cc ⟨⟨flippedGroups (conjunctionGroups a b)⟩, RuleSet.forExpressions⟩
        (rootGroup a b) RewriteRuleSetName.TRANSITIVE_TRANSFORM true =
      some ⟨transitiveMemo cc a b, RuleSet.forExpressions⟩ := by
  have hdec := decorates_flipped (conjunctionGroups a b)
  have hlt := rootGroup_lt a b
  have hlt2 : rootGroup a b < (flippedGroups (conjunctionGroups a b)).length := by
    rw [flippedGroups_length]; exact hlt
  have hpat1 : Rule.TVEqualityWithTwoCVTransform.GetMatchPattern =
      andOfEqualsPattern ExpressionType.VALUE_TUPLE ExpressionType.VALUE_CONSTANT
        ExpressionType.VALUE_TUPLE ExpressionType.VALUE_CONSTANT := rfl
  have hpat2 : Rule.TransitiveClosureConstantTransform.GetMatchPattern =
      andOfEqualsPattern ExpressionType.VALUE_TUPLE ExpressionType.VALUE_CONSTANT
        ExpressionType.VALUE_TUPLE ExpressionType.VALUE_TUPLE := rfl
  have hb1 := rootBindings_conjunction ha hb ExpressionType.VALUE_TUPLE
    ExpressionType.VALUE_CONSTANT ExpressionType.VALUE_TUPLE ExpressionType.VALUE_CONSTANT
    (by decide) (by decide) (by decide) (by decide)
  have hb2 := rootBindings_conjunction ha hb ExpressionType.VALUE_TUPLE
    ExpressionType.VALUE_CONSTANT ExpressionType.VALUE_TUPLE ExpressionType.VALUE_TUPLE
    (by decide) (by decide) (by decide) (by decide)
  have hstep1 := applyRuleToGroup_firstOutput cc Rule.TVEqualityWithTwoCVTransform
    (rootGroup a b) ⟨flippedGroups (conjunctionGroups a b)⟩ (by
      intro x hx y hy
      have hmem : y ∈ tvBindings a b := by
        unfold tvBindings
        rw [← hb1, ← hpat1]
        exact List.mem_flatMap.2 ⟨x, hx, hy⟩
      rcases tvBindings_output cc ha hb hmem with h | ⟨o, _, h, _⟩
      · exact Or.inl h
      · exact Or.inr ⟨o, h⟩)
  have hstep2 := applyRuleToGroup_firstOutput cc Rule.TransitiveClosureConstantTransform
    (rootGroup a b) ⟨flippedGroups (conjunctionGroups a b)⟩ (by
      intro x hx y hy
      have hmem : y ∈ tcBindings a b := by
        unfold tcBindings
        rw [← hb2, ← hpat2]
        exact List.mem_flatMap.2 ⟨x, hx, hy⟩
      rcases tcBindings_output cc ha hb hmem with h | ⟨o, _, h, _⟩
      · exact Or.inl h
      · exact Or.inr ⟨o, h⟩)
  rw [hpat1, hb1] at hstep1
  rw [hpat2, hb2] at hstep2
  unfold OptimizeCurrentGroup
  simp only
  rw [validRules_transitive]
  simp only [foldlAbort_cons, foldlAbort_nil]
  have htv_eq : firstOutput cc Rule.TVEqualityWithTwoCVTransform
      (conjunctionBindings ExpressionType.VALUE_TUPLE ExpressionType.VALUE_CONSTANT
        ExpressionType.VALUE_TUPLE ExpressionType.VALUE_CONSTANT a b ++
      conjunctionBindings ExpressionType.VALUE_TUPLE ExpressionType.VALUE_CONSTANT
        ExpressionType.VALUE_TUPLE ExpressionType.VALUE_CONSTANT b a) =
      firstOutput cc Rule.TVEqualityWithTwoCVTransform (tvBindings a b) := rfl
  have htc_eq : firstOutput cc Rule.TransitiveClosureConstantTransform
      (conjunctionBindings ExpressionType.VALUE_TUPLE ExpressionType.VALUE_CONSTANT
        ExpressionType.VALUE_TUPLE ExpressionType.VALUE_TUPLE a b ++
      conjunctionBindings ExpressionType.VALUE_TUPLE ExpressionType.VALUE_CONSTANT
        ExpressionType.VALUE_TUPLE ExpressionType.VALUE_TUPLE b a) =
      firstOutput cc Rule.TransitiveClosureConstantTransform (tcBindings a b) := rfl
  rw [htv_eq] at hstep1
  rw [htc_eq] at hstep2
  rw [hstep1]
  unfold transitiveMemo transitiveOutput
  cases htv : firstOutput cc Rule.TVEqualityWithTwoCVTransform (tvBindings a b) with
  | some out =>
    obtain ⟨tree, hden, hp, hsc, htr⟩ := tvOutput_denotes cc ha hb htv
    simp only [Option.bind]
    rw [replace_denoted hden ⟨flippedGroups (conjunctionGroups a b)⟩ (rootGroup a b) hlt2]
    have hdec2 := decorates_replaced hdec (rootGroup a b) out
    have hrep2 := represents_replaced hden (conjunctionGroups a b) (rootGroup a b) hlt
    rw [applyRuleToGroup_transitiveClosure cc hdec2 hrep2 hp htr true]
  | none =>
    simp only [Option.bind]
    rw [hstep2]
    cases htc : firstOutput cc Rule.TransitiveClosureConstantTransform (tcBindings a b) with
    | some out =>
      obtain ⟨tree, hden, hp, hsc⟩ := tcOutput_denotes cc ha hb htc
      simp only
      rw [replace_denoted hden ⟨flippedGroups (conjunctionGroups a b)⟩ (rootGroup a b) hlt2]
    | none => rfl

/-- The bottom-up pass of the transitive rules over `AND(a, b)`, for operands
inside which no transitive rule applies: the groups of the operands stay, and
the group of the conjunction is replaced by the output of the rules. -/
theorem leads_transitive (cc : Comparability) {a b : AbstractExpression}
    (ha : PlainTree a) (hb : PlainTree b)
    (hna : a.anyNode AbstractExpression.transitiveRedex = false)
    (hnb : b.anyNode AbstractExpression.transitiveRedex = false) (rest : OptimizerTaskStack) :
    Leads cc ⟨flippedGroups (conjunctionGroups a b)⟩
      (OptimizerTask.BottomUpRewrite (rootGroup a b) RewriteRuleSetName.TRANSITIVE_TRANSFORM
        false :: rest)
      (transitiveMemo cc a b) rest := by
  have hdec := decorates_flipped (conjunctionGroups a b)
  have hrep := represents_root ha hb
  have hexec : (OptimizerTask.BottomUpRewrite (rootGroup a b)
      RewriteRuleSetName.TRANSITIVE_TRANSFORM false).execute cc
        ⟨⟨flippedGroups (conjunctionGroups a b)⟩, RuleSet.forExpressions⟩ rest =
      some (⟨⟨flippedGroups (conjunctionGroups a b)⟩, RuleSet.forExpressions⟩,
        ((GetUniqueChildGroupIDs ⟨flippedGroups (conjunctionGroups a b)⟩ (rootGroup a b)).map
          (fun c => OptimizerTask.BottomUpRewrite c RewriteRuleSetName.TRANSITIVE_TRANSFORM
            false)).reverse ++
          (OptimizerTask.BottomUpRewrite (rootGroup a b)
            RewriteRuleSetName.TRANSITIVE_TRANSFORM true :: rest)) := by
    rw [OptimizerTask.execute]
    simp only
    rw [foldl_push (fun c =>
      OptimizerTask.BottomUpRewrite c RewriteRuleSetName.TRANSITIVE_TRANSFORM false)]
    simp [OptimizerTaskStack.Push]
  refine leads_trans (leads_step hexec) ?_
  refine leads_trans (leads_settled cc hdec _ _ (children_settled hdec hrep ha hb
    RewriteRuleSetName.TRANSITIVE_TRANSFORM hna hnb _ (fun c => ⟨rfl, rfl, rfl⟩))) ?_
  apply leads_step
  rw [OptimizerTask.execute, optimizeCurrentGroup_conjunction cc ha hb]

/-! ## The pass of the short-circuit rules at a conjunction -/

theorem truthValue_constant (value : Value) :
    (expression.ConstantValueExpression value).truthValue =
      if value = ValueFactory.GetBooleanValueOfBool true then some true
      else if value = ValueFactory.GetBooleanValueOfBool false then some false
      else none := by
  simp [AbstractExpression.truthValue, AbstractExpression.isLeafOfTag,
    expression.ConstantValueExpression, expression.asConstantValue]

theorem truthValue_other {e : AbstractExpression}
    (h : e.isLeafOfTag ExpressionType.VALUE_CONSTANT = false) : e.truthValue = none := by
  simp [AbstractExpression.truthValue, h]

theorem isTruthConstant_of_none {e : AbstractExpression} (h : e.truthValue = none) :
    e.isTruthConstant = false := by
  unfold AbstractExpression.truthValue at h
  unfold AbstractExpression.isTruthConstant
  by_cases hleaf : e.isLeafOfTag ExpressionType.VALUE_CONSTANT = true
  · rw [if_pos hleaf] at h
    rw [hleaf, Bool.true_and]
    cases hv : expression.asConstantValue (some e) with
    | none => simp
    | some v =>
      rw [hv] at h
      simp only at h
      by_cases h1 : v = ValueFactory.GetBooleanValueOfBool true
      · rw [if_pos h1] at h
        exact Option.noConfusion h
      · rw [if_neg h1] at h
        by_cases h2 : v = ValueFactory.GetBooleanValueOfBool false
        · rw [if_pos h2] at h
          exact Option.noConfusion h
        · simp [h1, h2]
  · simp [hleaf]

theorem andShortCircuit_constant (cc : Comparability) (op : AbsExpr_Container) (value : Value)
    (marker : AbsExpr_Expression) :
    Rule.AndShortCircuit.Transform cc (AbsExpr_Expression.mk op
        [AbsExpr_Expression.mk ⟨some (expression.ConstantValueExpression value)⟩ [], marker])
        [] =
      if value = ValueFactory.GetBooleanValueOfBool true then some [marker]
      else if value = ValueFactory.GetBooleanValueOfBool false then
        some [constantExpr (ValueFactory.GetBooleanValueOfBool false)]
      else some [] := rfl

/-- What `AndShortCircuit` produces first over the bindings of one constant
operand, followed by other bindings. -/
theorem firstOutput_constant (cc : Comparability) {e : AbstractExpression} (he : PlainTree e)
    (marker : AbsExpr_Expression) (rest : List AbsExpr_Expression) :
    firstOutput cc Rule.AndShortCircuit
        ((if e.isLeafOfTag ExpressionType.VALUE_CONSTANT then
          [AbsExpr_Expression.mk andOp [AbsExpr_Expression.mk ⟨some e⟩ [], marker]]
        else []) ++ rest) =
      match e.truthValue with
      | some true => some marker
      | some false => some (constantExpr (ValueFactory.GetBooleanValueOfBool false))
      | none => firstOutput cc Rule.AndShortCircuit rest := by
  by_cases hleaf : e.isLeafOfTag ExpressionType.VALUE_CONSTANT = true
  · obtain ⟨v, hv⟩ := plainTree_constant he (isLeafOfTag_type hleaf)
    subst hv
    rw [if_pos hleaf, List.singleton_append, firstOutput.eq_2, andShortCircuit_constant,
      truthValue_constant]
    by_cases h1 : v = ValueFactory.GetBooleanValueOfBool true
    · simp only [if_pos h1]
    · by_cases h2 : v = ValueFactory.GetBooleanValueOfBool false
      · simp only [if_neg h1, if_pos h2]
      · simp only [if_neg h1, if_neg h2]
  · rw [if_neg hleaf, List.nil_append, truthValue_other (by simpa using hleaf)]

theorem firstOutput_shortCircuit (cc : Comparability) {a b : AbstractExpression}
    (ha : PlainTree a) (hb : PlainTree b) :
    firstOutput cc Rule.AndShortCircuit (shortCircuitBindings a b) = shortCircuitOutput a b := by
  unfold shortCircuitBindings shortCircuitOutput
  rw [firstOutput_constant cc ha]
  have hsecond := firstOutput_constant cc hb (groupMarkerLeaf (leftGroup a)) []
  rw [List.append_nil] at hsecond
  rw [hsecond]
  rfl

theorem shortCircuitBindings_output (cc : Comparability) {a b : AbstractExpression}
    (ha : PlainTree a) (hb : PlainTree b) {x : AbsExpr_Expression}
    (hx : x ∈ shortCircuitBindings a b) :
    Rule.AndShortCircuit.Transform cc x [] = some [] ∨
      ∃ out, Rule.AndShortCircuit.Transform cc x [] = some [out] := by
  have key : ∀ (e : AbstractExpression) (marker : AbsExpr_Expression), PlainTree e →
      x ∈ (if e.isLeafOfTag ExpressionType.VALUE_CONSTANT then
          [AbsExpr_Expression.mk andOp [AbsExpr_Expression.mk ⟨some e⟩ [], marker]]
        else []) →
      Rule.AndShortCircuit.Transform cc x [] = some [] ∨
        ∃ out, Rule.AndShortCircuit.Transform cc x [] = some [out] := by
    intro e marker he hmem
    by_cases hleaf : e.isLeafOfTag ExpressionType.VALUE_CONSTANT = true
    · rw [if_pos hleaf, List.mem_singleton] at hmem
      obtain ⟨v, hv⟩ := plainTree_constant he (isLeafOfTag_type hleaf)
      subst hv
      subst hmem
      rw [andShortCircuit_constant]
      by_cases h1 : v = ValueFactory.GetBooleanValueOfBool true
      · rw [if_pos h1]; exact Or.inr ⟨_, rfl⟩
      · rw [if_neg h1]
        by_cases h2 : v = ValueFactory.GetBooleanValueOfBool false
        · rw [if_pos h2]; exact Or.inr ⟨_, rfl⟩
        · rw [if_neg h2]; exact Or.inl rfl
    · rw [if_neg hleaf] at hmem
      exact absurd hmem (List.not_mem_nil _)
  unfold shortCircuitBindings at hx
  rcases List.mem_append.1 hx with h | h
  · exact key a _ ha h
  · exact key b _ hb h

/-- The output of `AndShortCircuit` at `AND(a, b)` and the tree that the pass
leaves. -/
theorem shortCircuitOutput_cases (a b : AbstractExpression) :
    (shortCircuitOutput a b = some (groupMarkerLeaf (rightGroup a b)) ∧
      shortCircuitResult a b = some b) ∨
    (shortCircuitOutput a b = some (groupMarkerLeaf (leftGroup a)) ∧
      shortCircuitResult a b = some a) ∨
    (shortCircuitOutput a b = some (constantExpr (ValueFactory.GetBooleanValueOfBool false)) ∧
      shortCircuitResult a b =
        some (expression.ConstantValueExpression (ValueFactory.GetBooleanValueOfBool false))) ∨
    (shortCircuitOutput a b = none ∧ shortCircuitResult a b = none ∧
      a.truthValue = none ∧ b.truthValue = none) := by
  unfold shortCircuitOutput shortCircuitResult
  rcases ha : a.truthValue with _ | ⟨_ | _⟩ <;> rcases hb : b.truthValue with _ | ⟨_ | _⟩ <;>
    simp

/-- The short-circuit rules at a group that `AndShortCircuit` has replaced by a
plain tree at whose root no short-circuit rule applies. -/
theorem optimizeCurrentGroup_replaced (cc : Comparability) {memo after : Memo}
    {root : GroupID} {blueprint : List GroupExpression} {tree : AbstractExpression}
    (hand : applyRuleToGroup cc true root memo Rule.AndShortCircuit = some after)
    (hdec : after.decorates blueprint) (hrep : Represents blueprint root tree)
    (hplain : PlainTree tree) (hredex : tree.shortCircuitRedex = false) :
    OptimizeCurrentGroup cc ⟨memo, RuleSet.forExpressions⟩ root
        RewriteRuleSetName.BOOLEAN_SHORT_CIRCUIT true =
      some ⟨after, RuleSet.forExpressions⟩ := by
  unfold OptimizeCurrentGroup
  simp only
  rw [validRules_short_circuit]
  simp only [foldlAbort_cons, foldlAbort_nil]
  rw [hand]
  simp only [Option.bind]
  rw [applyRuleToGroup_orShortCircuit cc hdec hrep hplain hredex true]

/-- The top-down pass of the short-circuit rules from a group that the rules
replace by a plain tree no node of which a short-circuit rule applies to. -/
theorem leads_replaced (cc : Comparability) {memo after : Memo}
    {root : GroupID} {blueprint : List GroupExpression} {tree : AbstractExpression}
    (hand : applyRuleToGroup cc true root memo Rule.AndShortCircuit = some after)
    (hdec : after.decorates blueprint) (hrep : Represents blueprint root tree)
    (hplain : PlainTree tree)
    (hnone : tree.anyNode AbstractExpression.shortCircuitRedex = false)
    (rest : OptimizerTaskStack) :
    Leads cc memo
      (OptimizerTask.TopDownRewrite root RewriteRuleSetName.BOOLEAN_SHORT_CIRCUIT true :: rest)
      after rest := by
  have hopt := optimizeCurrentGroup_replaced cc hand hdec hrep hplain (anyNode_test hnone)
  have hexec : (OptimizerTask.TopDownRewrite root RewriteRuleSetName.BOOLEAN_SHORT_CIRCUIT
      true).execute cc ⟨memo, RuleSet.forExpressions⟩ rest =
      some (⟨after, RuleSet.forExpressions⟩,
        ((GetUniqueChildGroupIDs after root).map (fun c =>
          OptimizerTask.TopDownRewrite c RewriteRuleSetName.BOOLEAN_SHORT_CIRCUIT
            true)).reverse ++ rest) := by
    rw [OptimizerTask.execute, hopt]
    simp only
    rw [foldl_push (fun c =>
      OptimizerTask.TopDownRewrite c RewriteRuleSetName.BOOLEAN_SHORT_CIRCUIT true)]
  refine leads_trans (leads_step hexec) ?_
  have hsettled : (OptimizerTask.TopDownRewrite root RewriteRuleSetName.BOOLEAN_SHORT_CIRCUIT
      true).settledIn blueprint := ⟨rfl, tree, hrep, hplain, hnone⟩
  exact leads_settled cc hdec rest _ (pushed_settled hdec hsettled
    (fun c => OptimizerTask.TopDownRewrite c RewriteRuleSetName.BOOLEAN_SHORT_CIRCUIT true)
    (fun c => ⟨rfl, rfl, rfl⟩))

/-! ## The rewrite of a conjunction of two stable operands -/

theorem conjunctionGroups_set (a b : AbstractExpression) (y : GroupExpression) :
    (conjunctionGroups a b).set (rootGroup a b) y =
      layout 0 (Rewriter.ConvertToAbsExpr a) ++
        layout (layout 0 (Rewriter.ConvertToAbsExpr a)).length (Rewriter.ConvertToAbsExpr b) ++
        [y] := by
  rw [conjunctionGroups_eq, List.set_append_right _ _ (by simp [rootGroup])]
  simp [rootGroup]

/-- `AndShortCircuit` at the group of `AND(a, b)` after the pass of the equivalent
rules: its first output replaces the contents of the group. -/
theorem andShortCircuit_root (cc : Comparability) {a b : AbstractExpression}
    (ha : PlainTree a) (hb : PlainTree b) :
    applyRuleToGroup cc true (rootGroup a b) ⟨flippedGroups (conjunctionGroups a b)⟩
        Rule.AndShortCircuit =
      some (match shortCircuitOutput a b with
        | some out =>
          (⟨flippedGroups (conjunctionGroups a b)⟩ : Memo).ReplaceGroupExpression
            (rootGroup a b) out
        | none => ⟨flippedGroups (conjunctionGroups a b)⟩) := by
  have hpat : Rule.AndShortCircuit.GetMatchPattern = AndShortCircuit.match_pattern := rfl
  have hbind := rootBindings_shortCircuit ha hb
  have hstep := applyRuleToGroup_firstOutput cc Rule.AndShortCircuit (rootGroup a b)
    ⟨flippedGroups (conjunctionGroups a b)⟩ (by
      intro x hx y hy
      have hmem : y ∈ shortCircuitBindings a b := by
        rw [← hbind, ← hpat]
        exact List.mem_flatMap.2 ⟨x, hx, hy⟩
      exact shortCircuitBindings_output cc ha hb hmem)
  rw [hpat, hbind, firstOutput_shortCircuit cc ha hb] at hstep
  exact hstep

/-- The group of the conjunction, set to the group-expression of the group of an
operand, represents the operand. -/
theorem represents_marked (a b : AbstractExpression) (g : GroupID) (tree : AbstractExpression)
    (y : GroupExpression)
    (hlt : g < (layout 0 (Rewriter.ConvertToAbsExpr a) ++
      layout (layout 0 (Rewriter.ConvertToAbsExpr a)).length
        (Rewriter.ConvertToAbsExpr b)).length)
    (hy : (conjunctionGroups a b)[g]? = some y)
    (hrep : ∀ last, Represents (layout 0 (Rewriter.ConvertToAbsExpr a) ++
        layout (layout 0 (Rewriter.ConvertToAbsExpr a)).length (Rewriter.ConvertToAbsExpr b) ++
        [last]) g tree) :
    Represents ((conjunctionGroups a b).set (rootGroup a b) y) (rootGroup a b) tree := by
  rw [conjunctionGroups_set]
  refine represents_copy (hrep y) ?_
  rw [conjunctionGroups_eq, List.getElem?_append_left hlt] at hy
  rw [List.getElem?_append_left hlt, hy]
  have h := lookup_single (layout 0 (Rewriter.ConvertToAbsExpr a) ++
    layout (layout 0 (Rewriter.ConvertToAbsExpr a)).length (Rewriter.ConvertToAbsExpr b)) [] y
    (rootGroup a b) (by simp [rootGroup])
  simpa only [List.append_nil] using h

/-- The top-down pass of the short-circuit rules over `AND(a, b)` when
`AndShortCircuit` rewrites the conjunction to one of its operands. -/
theorem leads_marker (cc : Comparability) {a b : AbstractExpression}
    (ha : PlainTree a) (hb : PlainTree b) (g : GroupID) (tree : AbstractExpression)
    (hout : shortCircuitOutput a b = some (groupMarkerLeaf g))
    (hlt : g < (layout 0 (Rewriter.ConvertToAbsExpr a) ++
      layout (layout 0 (Rewriter.ConvertToAbsExpr a)).length
        (Rewriter.ConvertToAbsExpr b)).length)
    (hrep : ∀ last, Represents (layout 0 (Rewriter.ConvertToAbsExpr a) ++
        layout (layout 0 (Rewriter.ConvertToAbsExpr a)).length (Rewriter.ConvertToAbsExpr b) ++
        [last]) g tree)
    (hplain : PlainTree tree)
    (hnone : tree.anyNode AbstractExpression.shortCircuitRedex = false)
    (rest : OptimizerTaskStack) :
    ∃ (final : Memo) (blueprint : List GroupExpression),
      Leads cc ⟨flippedGroups (conjunctionGroups a b)⟩
        (OptimizerTask.TopDownRewrite (rootGroup a b) RewriteRuleSetName.BOOLEAN_SHORT_CIRCUIT
          true :: rest) final rest ∧
      final.decorates blueprint ∧ Represents blueprint (rootGroup a b) tree := by
  have hdec := decorates_flipped (conjunctionGroups a b)
  have hroot := rootGroup_lt a b
  have hrepB : Represents (conjunctionGroups a b) g tree := by
    rw [conjunctionGroups_eq]; exact hrep _
  obtain ⟨y, hy, _, _⟩ := represents_lookup hrepB
  have hand := andShortCircuit_root cc ha hb
  rw [hout] at hand
  simp only at hand
  rw [replace_marker hdec (rootGroup a b) g y hroot hy] at hand
  have hdec2 := decorates_set hdec (rootGroup a b) y []
  have hnil : singleGroups [] = [] := rfl
  simp only [hnil, List.append_nil] at hdec2
  have hrep2 := represents_marked a b g tree y hlt hy hrep
  exact ⟨_, _, leads_replaced cc hand hdec2 hrep2 hplain hnone rest, hdec2, hrep2⟩

theorem anyNode_binary (test : AbstractExpression → Bool) (type : ExpressionType)
    (cls : ExprClass) (a b : AbstractExpression) :
    (AbstractExpression.mk type cls [a, b]).anyNode test =
      (test (AbstractExpression.mk type cls [a, b]) || (a.anyNode test || b.anyNode test)) := by
  rw [AbstractExpression.anyNode.eq_1, AbstractExpression.anyNodeList.eq_2,
    AbstractExpression.anyNodeList.eq_2, AbstractExpression.anyNodeList.eq_1, Bool.or_false]

/-- The top-down pass of the short-circuit rules over `AND(a, b)`, for operands
inside which no short-circuit rule applies: the group of the conjunction comes
to represent the tree that the rules leave. -/
theorem leads_shortCircuit (cc : Comparability) {a b : AbstractExpression}
    (ha : PlainTree a) (hb : PlainTree b)
    (hsa : a.anyNode AbstractExpression.shortCircuitRedex = false)
    (hsb : b.anyNode AbstractExpression.shortCircuitRedex = false)
    (rest : OptimizerTaskStack) :
    ∃ (final : Memo) (blueprint : List GroupExpression),
      Leads cc ⟨flippedGroups (conjunctionGroups a b)⟩
        (OptimizerTask.TopDownRewrite (rootGroup a b) RewriteRuleSetName.BOOLEAN_SHORT_CIRCUIT
          true :: rest) final rest ∧
      final.decorates blueprint ∧
      Represents blueprint (rootGroup a b) ((shortCircuitResult a b).getD
        (expression.ConjunctionExpression ExpressionType.CONJUNCTION_AND (some a) (some b))) ∧
      PlainTree ((shortCircuitResult a b).getD
        (expression.ConjunctionExpression ExpressionType.CONJUNCTION_AND (some a) (some b))) := by
  have hdec := decorates_flipped (conjunctionGroups a b)
  have hroot := rootGroup_lt a b
  have hposa := layout_pos 0 (Rewriter.ConvertToAbsExpr a)
  have hposb := layout_pos (layout 0 (Rewriter.ConvertToAbsExpr a)).length
    (Rewriter.ConvertToAbsExpr b)
  have hlta : leftGroup a < (layout 0 (Rewriter.ConvertToAbsExpr a) ++
      layout (layout 0 (Rewriter.ConvertToAbsExpr a)).length
        (Rewriter.ConvertToAbsExpr b)).length := by
    rw [List.length_append]
    exact Nat.lt_of_lt_of_le (Nat.sub_lt hposa Nat.one_pos) (Nat.le_add_right _ _)
  have hltb : rightGroup a b < (layout 0 (Rewriter.ConvertToAbsExpr a) ++
      layout (layout 0 (Rewriter.ConvertToAbsExpr a)).length
        (Rewriter.ConvertToAbsExpr b)).length := by
    rw [List.length_append]
    exact Nat.sub_lt (Nat.add_pos_left hposa _) Nat.one_pos
  rcases shortCircuitOutput_cases a b with ⟨hout, hres⟩ | ⟨hout, hres⟩ | ⟨hout, hres⟩ |
    ⟨hout, hres, hta, htb⟩
  · obtain ⟨final, blueprint, hleads, hd, hr⟩ := leads_marker cc ha hb (rightGroup a b) b hout
      hltb
      (fun last => represents_right a hb last) hb hsb rest
    rw [hres]
    exact ⟨final, blueprint, hleads, hd, hr, hb⟩
  · obtain ⟨final, blueprint, hleads, hd, hr⟩ := leads_marker cc ha hb (leftGroup a) a hout
      hlta
      (fun last => represents_left ha b last) ha hsa rest
    rw [hres]
    exact ⟨final, blueprint, hleads, hd, hr, ha⟩
  · have hden := denotes_constant (ValueFactory.GetBooleanValueOfBool false)
    have hand := andShortCircuit_root cc ha hb
    rw [hout] at hand
    simp only at hand
    have hlt2 : rootGroup a b < (flippedGroups (conjunctionGroups a b)).length := by
      rw [flippedGroups_length]; exact hroot
    have hrepl := replace_denoted hden ⟨flippedGroups (conjunctionGroups a b)⟩ (rootGroup a b)
      hlt2
    have hconst : constantExpr (ValueFactory.GetBooleanValueOfBool false) =
        AbsExpr_Expression.mk
          ⟨some (expression.ConstantValueExpression (ValueFactory.GetBooleanValueOfBool false))⟩
          [] := rfl
    rw [hconst, hrepl] at hand
    have hdec2 := decorates_replaced hdec (rootGroup a b) (AbsExpr_Expression.mk
      ⟨some (expression.ConstantValueExpression (ValueFactory.GetBooleanValueOfBool false))⟩ [])
    have hrep2 := represents_replaced hden (conjunctionGroups a b) (rootGroup a b) hroot
    have hplain := PlainTree.constant (ValueFactory.GetBooleanValueOfBool false)
    rw [hres]
    exact ⟨_, _, leads_replaced cc hand hdec2 hrep2 hplain (by decide) rest, hdec2, hrep2,
      hplain⟩
  · have hand := andShortCircuit_root cc ha hb
    rw [hout] at hand
    simp only at hand
    have hplain : PlainTree (expression.ConjunctionExpression ExpressionType.CONJUNCTION_AND
        (some a) (some b)) :=
      PlainTree.conjunction ExpressionType.CONJUNCTION_AND a b (by decide) ha hb
    have hrep := represents_root ha hb
    have hnone : (expression.ConjunctionExpression ExpressionType.CONJUNCTION_AND
        (some a) (some b)).anyNode AbstractExpression.shortCircuitRedex = false := by
      have hshape : expression.ConjunctionExpression ExpressionType.CONJUNCTION_AND (some a)
          (some b) = AbstractExpression.mk ExpressionType.CONJUNCTION_AND
            ExprClass.ConjunctionExpression [a, b] := rfl
      rw [hshape, anyNode_binary, hsa, hsb]
      simp [AbstractExpression.shortCircuitRedex, isTruthConstant_of_none hta,
        isTruthConstant_of_none htb]
    rw [hres]
    exact ⟨_, _, leads_replaced cc hand hdec hrep hplain hnone rest, hdec, hrep, hplain⟩

theorem recordTreeGroups_conjunction {a b : AbstractExpression} (ha : PlainTree a)
    (hb : PlainTree b) :
    Rewriter.new.RecordTreeGroups
        (expression.ConjunctionExpression ExpressionType.CONJUNCTION_AND (some a) (some b)) =
      (⟨⟨⟨singleGroups (conjunctionGroups a b)⟩, RuleSet.forExpressions⟩⟩, rootGroup a b) := by
  have hplain : PlainTree (expression.ConjunctionExpression ExpressionType.CONJUNCTION_AND
      (some a) (some b)) :=
    PlainTree.conjunction ExpressionType.CONJUNCTION_AND a b (by decide) ha hb
  have hlen := conjunctionGroups_length a b
  have hroot : (conjunctionGroups a b).length - 1 = rootGroup a b := by
    rw [hlen]; exact Nat.add_sub_cancel _ _
  rw [recordTreeGroups_plain hplain]
  exact Prod.ext rfl hroot

theorem leads_equivalent_conjunction (cc : Comparability) {a b : AbstractExpression}
    (ha : PlainTree a) (hb : PlainTree b) (rest : OptimizerTaskStack) :
    Leads cc ⟨singleGroups (conjunctionGroups a b)⟩
      (OptimizerTask.TopDownRewrite (rootGroup a b) RewriteRuleSetName.EQUIVALENT_TRANSFORM
        false :: rest)
      ⟨flippedGroups (conjunctionGroups a b)⟩ rest := by
  have hplain : PlainTree (expression.ConjunctionExpression ExpressionType.CONJUNCTION_AND
      (some a) (some b)) :=
    PlainTree.conjunction ExpressionType.CONJUNCTION_AND a b (by decide) ha hb
  have hlen := conjunctionGroups_length a b
  have hroot : (conjunctionGroups a b).length - 1 = rootGroup a b := by
    rw [hlen]; exact Nat.add_sub_cancel _ _
  have step := leads_equivalent cc (plainTree_denotes hplain) [] [] rest
  simp only [List.nil_append, List.append_nil, List.length_nil, Nat.zero_add] at step
  rw [← hroot]
  exact step

/-- What `RewriteExpression` makes of `AND(a, b)` when no rule applies inside `a`
and `b`: with any fuel that is enough it returns the tree of the output of the
transitive rules at the conjunction, or else the tree that the short-circuit
rules leave, or else the conjunction as it is. -/
theorem rewrite_conjunction (cc : Comparability) {a b : AbstractExpression}
    (ha : PlainTree a) (hb : PlainTree b) (hsa : a.hasRedex = false)
    (hsb : b.hasRedex = false) :
    ∃ r, ConjunctionResult cc a b r ∧ ∃ n, ∀ fuel, n ≤ fuel →
      Rewriter.RewriteExpression cc fuel Rewriter.new
          (some (expression.ConjunctionExpression ExpressionType.CONJUNCTION_AND
            (some a) (some b))) =
        Outcome.done (some r, Rewriter.new) := by
  have hplain : PlainTree (expression.ConjunctionExpression ExpressionType.CONJUNCTION_AND
      (some a) (some b)) :=
    PlainTree.conjunction ExpressionType.CONJUNCTION_AND a b (by decide) ha hb
  have hshape : expression.ConjunctionExpression ExpressionType.CONJUNCTION_AND (some a)
      (some b) = AbstractExpression.mk ExpressionType.CONJUNCTION_AND
        ExprClass.ConjunctionExpression [a, b] := rfl
  have hdec := decorates_flipped (conjunctionGroups a b)
  have hrep := represents_root ha hb
  have hroot := rootGroup_lt a b
  have hmarker := plainTree_noMarker hplain
  have hrecord := recordTreeGroups_conjunction ha hb
  have hnone : ∀ name, name = RewriteRuleSetName.NULL_LOOKUP ∨
      name = RewriteRuleSetName.COMPARATOR_ELIMINATION →
      (expression.ConjunctionExpression ExpressionType.CONJUNCTION_AND (some a)
        (some b)).anyNode (redexOf name) = false := by
    intro name hname
    rw [hshape, anyNode_binary, hasRedex_redexOf hsa name, hasRedex_redexOf hsb name]
    rcases hname with h | h <;> subst h <;>
      simp [redexOf, AbstractExpression.comparatorRedex, comparatorTags]
  have step1 := leads_equivalent_conjunction cc ha hb
    [OptimizerTask.BottomUpRewrite (rootGroup a b) RewriteRuleSetName.NULL_LOOKUP false,
     OptimizerTask.BottomUpRewrite (rootGroup a b) RewriteRuleSetName.COMPARATOR_ELIMINATION
      false,
     OptimizerTask.BottomUpRewrite (rootGroup a b) RewriteRuleSetName.TRANSITIVE_TRANSFORM false,
     OptimizerTask.TopDownRewrite (rootGroup a b) RewriteRuleSetName.BOOLEAN_SHORT_CIRCUIT true]
  have step2 := leads_settled cc hdec
    [OptimizerTask.BottomUpRewrite (rootGroup a b) RewriteRuleSetName.TRANSITIVE_TRANSFORM false,
     OptimizerTask.TopDownRewrite (rootGroup a b) RewriteRuleSetName.BOOLEAN_SHORT_CIRCUIT true]
    [OptimizerTask.BottomUpRewrite (rootGroup a b) RewriteRuleSetName.NULL_LOOKUP false,
     OptimizerTask.BottomUpRewrite (rootGroup a b) RewriteRuleSetName.COMPARATOR_ELIMINATION
      false] (by
      intro t ht
      simp only [List.mem_cons, List.mem_singleton, List.not_mem_nil, or_false] at ht
      rcases ht with ht | ht
      · rw [ht]
        exact ⟨rfl, _, hrep, hplain, hnone _ (Or.inl rfl)⟩
      · rw [ht]
        exact ⟨rfl, _, hrep, hplain, hnone _ (Or.inr rfl)⟩)
  have step3 := leads_transitive cc ha hb
    (hasRedex_redexOf hsa RewriteRuleSetName.TRANSITIVE_TRANSFORM)
    (hasRedex_redexOf hsb RewriteRuleSetName.TRANSITIVE_TRANSFORM)
    [OptimizerTask.TopDownRewrite (rootGroup a b) RewriteRuleSetName.BOOLEAN_SHORT_CIRCUIT true]
  have step123 := leads_trans step1 (leads_trans step2 step3)
  cases htr : transitiveOutput cc a b with
  | some out =>
    obtain ⟨tree, hden, hp, hsc⟩ := transitiveOutput_denotes cc ha hb htr
    have hmemo : transitiveMemo cc a b =
        ⟨replacedGroups (flippedGroups (conjunctionGroups a b)) (rootGroup a b) out⟩ := by
      unfold transitiveMemo
      rw [htr]
    rw [hmemo] at step123
    have hdec2 := decorates_replaced hdec (rootGroup a b) out
    have hrep2 := represents_replaced hden (conjunctionGroups a b) (rootGroup a b) hroot
    have step4 := leads_settled cc hdec2 []
      [OptimizerTask.TopDownRewrite (rootGroup a b) RewriteRuleSetName.BOOLEAN_SHORT_CIRCUIT
        true] (by
        intro t ht
        rw [List.mem_singleton] at ht
        rw [ht]
        exact ⟨rfl, tree, hrep2, hp, hsc⟩)
    rw [List.append_nil] at step4
    refine ⟨tree, Or.inl ⟨out, htr, hden⟩, ?_⟩
    refine rewrite_of_leads cc hmarker hrecord ?_
      (plainTree_rebuildsFrom hp _ ⟨⟨_, RuleSet.forExpressions⟩⟩ _ hrep2 hdec2)
    rw [seedTaskStack_eq]
    exact leads_trans step123 step4
  | none =>
    have hmemo : transitiveMemo cc a b = ⟨flippedGroups (conjunctionGroups a b)⟩ := by
      unfold transitiveMemo
      rw [htr]
    rw [hmemo] at step123
    obtain ⟨final, blueprint, step4, hd, hr, hp⟩ := leads_shortCircuit cc ha hb
      (hasRedex_redexOf hsa RewriteRuleSetName.BOOLEAN_SHORT_CIRCUIT)
      (hasRedex_redexOf hsb RewriteRuleSetName.BOOLEAN_SHORT_CIRCUIT) []
    refine ⟨_, Or.inr ⟨htr, rfl⟩, ?_⟩
    refine rewrite_of_leads cc hmarker hrecord ?_
      (plainTree_rebuildsFrom hp _ ⟨⟨_, RuleSet.forExpressions⟩⟩ _ hr hd)
    rw [seedTaskStack_eq]
    exact leads_trans step123 step4

/-! ## The two orders of a conjunction -/

theorem compareEquals_comm (l r : Value) : l.CompareEquals r = r.CompareEquals l := by
  unfold Value.CompareEquals Value.compareWith
  cases l.data <;> cases r.data <;> simp [eq_comm]

theorem exactlyEquals_comm {a : AbstractExpression} (ha : PlainTree a)
    (b : AbstractExpression) : a.ExactlyEquals b = b.ExactlyEquals a := by
  cases h : a.ExactlyEquals b with
  | false => exact (exactlyEquals_false_symm ha h).symm
  | true =>
    have heq := exactlyEquals_eq a b h
    rw [← heq, plainTree_exactlyEquals ha]

/-- The bindings of an equality of a column and a constant in the group of a
plain tree: none, or one binding of a column and a constant, in which case the
pattern of an equality of two columns binds nothing. -/
theorem equalityBindings_constant {e : AbstractExpression} (hplain : PlainTree e) :
    equalityBindings ExpressionType.VALUE_TUPLE ExpressionType.VALUE_CONSTANT e = [] ∨
    ∃ (op : AbsExpr_Container) (K : AbstractExpression) (v : Value),
      equalityBindings ExpressionType.VALUE_TUPLE ExpressionType.VALUE_CONSTANT e =
        [AbsExpr_Expression.mk op [AbsExpr_Expression.mk ⟨some K⟩ [],
          AbsExpr_Expression.mk ⟨some (expression.ConstantValueExpression v)⟩ []]] ∧
      op.GetType = ExpressionType.COMPARE_EQUAL ∧
      K.isLeafOfTag ExpressionType.VALUE_TUPLE = true ∧ PlainTree K ∧
      equalityBindings ExpressionType.VALUE_TUPLE ExpressionType.VALUE_TUPLE e = [] := by
  have hne : ExpressionType.VALUE_CONSTANT ≠ ExpressionType.VALUE_TUPLE := by decide
  rcases plainTree_cases hplain with ⟨v, he⟩ | ⟨tn, cn, oid, he⟩ | ⟨type, cls, p, q, he, hp, hq, _⟩
  · subst he
    exact Or.inl (by simp [equalityBindings])
  · subst he
    exact Or.inl (by simp [equalityBindings])
  · subst he
    by_cases htype : type = ExpressionType.COMPARE_EQUAL
    · subst htype
      by_cases h1 : (p.isLeafOfTag ExpressionType.VALUE_TUPLE &&
          q.isLeafOfTag ExpressionType.VALUE_CONSTANT) = true
      · have h1b := h1
        rw [Bool.and_eq_true] at h1b
        obtain ⟨v, hv⟩ := plainTree_constant hq (isLeafOfTag_type h1b.2)
        have hq2 := isLeafOfTag_unique h1b.2 hne
        refine Or.inr ⟨⟨some (AbstractExpression.mk ExpressionType.COMPARE_EQUAL cls [])⟩, p, v,
          ?_, rfl, h1b.1, hp, ?_⟩
        · subst hv
          simp [equalityBindings, h1b.1, h1b.2, hq2]
        · simp [equalityBindings, hq2]
      · by_cases h2 : (q.isLeafOfTag ExpressionType.VALUE_TUPLE &&
            p.isLeafOfTag ExpressionType.VALUE_CONSTANT) = true
        · have h2b := h2
          rw [Bool.and_eq_true] at h2b
          obtain ⟨v, hv⟩ := plainTree_constant hp (isLeafOfTag_type h2b.2)
          have hp2 := isLeafOfTag_unique h2b.2 hne
          refine Or.inr ⟨⟨some (expression.ConjunctionExpressionOfType
            ExpressionType.COMPARE_EQUAL)⟩, q, v, ?_, rfl, h2b.1, hq, ?_⟩
          · subst hv
            simp only [equalityBindings, if_true, h1, h2, List.nil_append]
            simp
          · simp [equalityBindings, hp2]
        · refine Or.inl ?_
          simp only [equalityBindings, if_true, h1, h2, List.append_nil]
          simp
    · exact Or.inl (by simp [equalityBindings, htype])

theorem conjunctionBindings_nil_left (t1 t2 t3 t4 : ExpressionType)
    (u v : AbstractExpression) (h : equalityBindings t1 t2 u = []) :
    conjunctionBindings t1 t2 t3 t4 u v = [] := by
  unfold conjunctionBindings
  rw [h]
  rfl

theorem conjunctionBindings_nil_right (t1 t2 t3 t4 : ExpressionType)
    (u v : AbstractExpression) (h : equalityBindings t3 t4 v = []) :
    conjunctionBindings t1 t2 t3 t4 u v = [] := by
  unfold conjunctionBindings
  rw [h]
  exact flatMap_nil_of _ _ (fun _ _ => rfl)

theorem conjunctionBindings_single (t1 t2 t3 t4 : ExpressionType)
    (u v : AbstractExpression) (l r : AbsExpr_Expression)
    (hl : equalityBindings t1 t2 u = [l]) (hr : equalityBindings t3 t4 v = [r]) :
    conjunctionBindings t1 t2 t3 t4 u v = [AbsExpr_Expression.mk andOp [l, r]] := by
  unfold conjunctionBindings
  rw [hl, hr]
  rfl

/-- The bindings of `TransitiveClosureConstantTransform` at `AND(a, b)` and at
`AND(b, a)` are the same: only one of the two orders binds. -/
theorem tcBindings_comm {a : AbstractExpression} (ha : PlainTree a) (b : AbstractExpression) :
    tcBindings a b = tcBindings b a := by
  unfold tcBindings
  rcases equalityBindings_constant ha with h | ⟨op, K, v, _, _, _, _, htt⟩
  · rw [conjunctionBindings_nil_left _ _ _ _ a b h, List.nil_append, List.append_nil]
  · rw [conjunctionBindings_nil_right _ _ _ _ b a htt, List.nil_append, List.append_nil]

/-- `TVEqualityWithTwoCVTransform` produces the same at the two orders of a
conjunction of two equalities of a column and a constant, for a comparability
test that is symmetric and under which values that compare equal are the
same. -/
theorem tvEquality_comm (cc : Comparability) (hsymm : ∀ u v, cc u v = cc v u)
    (hsame : ∀ u v, cc u v = true → u.CompareEquals v = CmpBool.CmpTrue → u = v)
    (op1 op2 : AbsExpr_Container) (K1 K2 : AbstractExpression) (v1 v2 : Value)
    (h1 : op1.GetType = ExpressionType.COMPARE_EQUAL)
    (h2 : op2.GetType = ExpressionType.COMPARE_EQUAL)
    (hK1 : K1.isLeafOfTag ExpressionType.VALUE_TUPLE = true)
    (hK2 : K2.isLeafOfTag ExpressionType.VALUE_TUPLE = true)
    (hp2 : PlainTree K2) :
    Rule.TVEqualityWithTwoCVTransform.Transform cc
        (andOfEquals andOp op1 op2 K1 (expression.ConstantValueExpression v1) K2
          (expression.ConstantValueExpression v2)) [] =
      Rule.TVEqualityWithTwoCVTransform.Transform cc
        (andOfEquals andOp op2 op1 K2 (expression.ConstantValueExpression v2) K1
          (expression.ConstantValueExpression v1)) [] := by
  have hrule : ∀ x, Rule.TVEqualityWithTwoCVTransform.Transform cc x [] =
      TVEqualityWithTwoCVTransform.Transform cc x [] := fun _ => rfl
  rw [hrule, hrule, tvEquality_unfold cc andOp op1 op2 K1 K2 v1 v2 [] rfl h1 h2
      (isLeafOfTag_type hK1) (isLeafOfTag_type hK2),
    tvEquality_unfold cc andOp op2 op1 K2 K1 v2 v1 [] rfl h2 h1
      (isLeafOfTag_type hK2) (isLeafOfTag_type hK1),
    exactlyEquals_comm hp2 K1, hsymm v2 v1, compareEquals_comm v2 v1]
  by_cases hc : K1.ExactlyEquals K2 = true ∧ cc v1 v2 = true
  · rw [if_pos hc, if_pos hc]
    by_cases he : v1.CompareEquals v2 = CmpBool.CmpTrue
    · rw [if_pos he, if_pos he, exactlyEquals_eq K1 K2 hc.1, hsame v1 v2 hc.2 he]
    · rw [if_neg he, if_neg he]
  · rw [if_neg hc, if_neg hc]

theorem firstOutput_pair (cc : Comparability) (rule : Rule) (x y : AbsExpr_Expression)
    (h : rule.Transform cc x [] = rule.Transform cc y []) :
    firstOutput cc rule [x, y] = firstOutput cc rule [y, x] := by
  simp only [firstOutput, h]

/-- The first output of `TVEqualityWithTwoCVTransform` is the same at `AND(a, b)`
and at `AND(b, a)`. -/
theorem tvOutput_comm (cc : Comparability) (hsymm : ∀ u v, cc u v = cc v u)
    (hsame : ∀ u v, cc u v = true → u.CompareEquals v = CmpBool.CmpTrue → u = v)
    {a b : AbstractExpression} (ha : PlainTree a) (hb : PlainTree b) :
    firstOutput cc Rule.TVEqualityWithTwoCVTransform (tvBindings a b) =
      firstOutput cc Rule.TVEqualityWithTwoCVTransform (tvBindings b a) := by
  unfold tvBindings
  rcases equalityBindings_constant ha with h | ⟨op1, K1, v1, hl, ht1, hK1, hp1, _⟩
  · rw [conjunctionBindings_nil_left _ _ _ _ a b h, conjunctionBindings_nil_right _ _ _ _ b a h]
  · rcases equalityBindings_constant hb with h | ⟨op2, K2, v2, hr, ht2, hK2, hp2, _⟩
    · rw [conjunctionBindings_nil_left _ _ _ _ b a h,
        conjunctionBindings_nil_right _ _ _ _ a b h]
    · rw [conjunctionBindings_single _ _ _ _ a b _ _ hl hr,
        conjunctionBindings_single _ _ _ _ b a _ _ hr hl]
      exact firstOutput_pair cc _ _ _
        (tvEquality_comm cc hsymm hsame op1 op2 K1 K2 v1 v2 ht1 ht2 hK1 hK2 hp2)

/-- The output of the pass of the transitive rules is the same at `AND(a, b)` and
at `AND(b, a)`. -/
theorem transitiveOutput_comm (cc : Comparability) (hsymm : ∀ u v, cc u v = cc v u)
    (hsame : ∀ u v, cc u v = true → u.CompareEquals v = CmpBool.CmpTrue → u = v)
    {a b : AbstractExpression} (ha : PlainTree a) (hb : PlainTree b) :
    transitiveOutput cc a b = transitiveOutput cc b a := by
  unfold transitiveOutput
  rw [tvOutput_comm cc hsymm hsame ha hb, tcBindings_comm ha b]

theorem truthValue_some {e : AbstractExpression} (he : PlainTree e) {value : Bool}
    (h : e.truthValue = some value) :
    e = expression.ConstantValueExpression (ValueFactory.GetBooleanValueOfBool value) := by
  by_cases hleaf : e.isLeafOfTag ExpressionType.VALUE_CONSTANT = true
  · obtain ⟨v, hv⟩ := plainTree_constant he (isLeafOfTag_type hleaf)
    subst hv
    rw [truthValue_constant] at h
    by_cases h1 : v = ValueFactory.GetBooleanValueOfBool true
    · rw [if_pos h1] at h
      simp only [Option.some.injEq] at h
      rw [h1, ← h]
    · rw [if_neg h1] at h
      by_cases h2 : v = ValueFactory.GetBooleanValueOfBool false
      · rw [if_pos h2] at h
        simp only [Option.some.injEq] at h
        rw [h2, ← h]
      · rw [if_neg h2] at h
        exact Option.noConfusion h
  · rw [truthValue_other (by simpa using hleaf)] at h
    exact Option.noConfusion h

/-- The tree that the short-circuit rules leave is the same at `AND(a, b)` and at
`AND(b, a)`. -/
theorem shortCircuitResult_comm {a b : AbstractExpression} (ha : PlainTree a)
    (hb : PlainTree b) : shortCircuitResult a b = shortCircuitResult b a := by
  unfold shortCircuitResult
  rcases hta : a.truthValue with _ | va
  · rcases htb : b.truthValue with _ | vb
    · rfl
    · cases vb <;> rfl
  · have ea := truthValue_some ha hta
    rcases htb : b.truthValue with _ | vb
    · cases va <;> rfl
    · have eb := truthValue_some hb htb
      cases va <;> cases vb <;> simp only [ea, eb]

/-- The results of the two orders of a conjunction: the same tree, or each
conjunction as it is. -/
theorem conjunctionResult_comm (cc : Comparability) (hsymm : ∀ u v, cc u v = cc v u)
    (hsame : ∀ u v, cc u v = true → u.CompareEquals v = CmpBool.CmpTrue → u = v)
    {a b : AbstractExpression} (ha : PlainTree a) (hb : PlainTree b)
    {r1 r2 : AbstractExpression} (h1 : ConjunctionResult cc a b r1)
    (h2 : ConjunctionResult cc b a r2) :
    r1 = r2 ∨
      (r1 = expression.ConjunctionExpression ExpressionType.CONJUNCTION_AND (some a) (some b) ∧
        r2 = expression.ConjunctionExpression ExpressionType.CONJUNCTION_AND (some b)
          (some a)) := by
  have hcomm := transitiveOutput_comm cc hsymm hsame ha hb
  have hsc := shortCircuitResult_comm ha hb
  rcases h1 with ⟨out1, ho1, hd1⟩ | ⟨hn1, hr1⟩
  · rcases h2 with ⟨out2, ho2, hd2⟩ | ⟨hn2, _⟩
    · rw [hcomm, ho2] at ho1
      simp only [Option.some.injEq] at ho1
      subst ho1
      exact Or.inl (denotes_unique hd2 r1 hd1)
    · rw [hcomm, hn2] at ho1
      exact Option.noConfusion ho1
  · rcases h2 with ⟨out2, ho2, _⟩ | ⟨_, hr2⟩
    · rw [hcomm, ho2] at hn1
      exact Option.noConfusion hn1
    · rw [← hsc] at hr2
      cases hres : shortCircuitResult a b with
      | some r =>
        rw [hres] at hr1 hr2
        exact Or.inl (hr1.trans hr2.symm)
      | none =>
        rw [hres] at hr1 hr2
        exact Or.inr ⟨hr1, hr2⟩

/-! ## The two ways to write an equality of a column and a constant -/

/-- Either way to write the equality of a column reference and a constant is a
plain tree inside which no rule applies and that is no constant; the pattern of
an equality of a column and a constant binds it once, to the column and the
constant, and the pattern of an equality of two columns does not bind it. -/
theorem equalityForms_facts (table_name col_name : String) (bound_oid : Option Nat)
    (value : Value) {e : AbstractExpression}
    (he : e ∈ equalityForms (columnRef table_name col_name bound_oid) value) :
    PlainTree e ∧ e.hasRedex = false ∧ e.truthValue = none ∧
    equalityBindings ExpressionType.VALUE_TUPLE ExpressionType.VALUE_TUPLE e = [] ∧
    ∃ op : AbsExpr_Container, op.GetType = ExpressionType.COMPARE_EQUAL ∧
      equalityBindings ExpressionType.VALUE_TUPLE ExpressionType.VALUE_CONSTANT e =
        [AbsExpr_Expression.mk op
          [AbsExpr_Expression.mk ⟨some (columnRef table_name col_name bound_oid)⟩ [],
           AbsExpr_Expression.mk ⟨some (expression.ConstantValueExpression value)⟩ []]] := by
  unfold equalityForms at he
  simp only [List.mem_cons, List.mem_singleton, List.not_mem_nil, or_false] at he
  rcases he with h | h
  · subst h
    refine ⟨PlainTree.comparison ExpressionType.COMPARE_EQUAL _ _ (by decide)
      (PlainTree.column _ _ _) (PlainTree.constant _), ?_, ?_, ?_,
      ⟨⟨some (AbstractExpression.mk ExpressionType.COMPARE_EQUAL
        ExprClass.ComparisonExpression [])⟩, rfl, ?_⟩⟩
    · simp [AbstractExpression.hasRedex, AbstractExpression.anyNode,
        AbstractExpression.anyNodeList, AbstractExpression.isRedex,
        AbstractExpression.comparatorRedex, AbstractExpression.transitiveRedex,
        AbstractExpression.shortCircuitRedex, AbstractExpression.isLeafOfTag,
        expression.ComparisonExpression, expression.ConstantValueExpression, columnRef,
        comparatorTags]
    · simp [AbstractExpression.truthValue, AbstractExpression.isLeafOfTag,
        expression.ComparisonExpression]
    · simp [equalityBindings, expression.ComparisonExpression, AbstractExpression.isLeafOfTag,
        expression.ConstantValueExpression, columnRef]
    · simp [equalityBindings, expression.ComparisonExpression, AbstractExpression.isLeafOfTag,
        expression.ConstantValueExpression, columnRef]
  · subst h
    refine ⟨PlainTree.comparison ExpressionType.COMPARE_EQUAL _ _ (by decide)
      (PlainTree.constant _) (PlainTree.column _ _ _), ?_, ?_, ?_,
      ⟨⟨some (expression.ConjunctionExpressionOfType ExpressionType.COMPARE_EQUAL)⟩, rfl, ?_⟩⟩
    · simp [AbstractExpression.hasRedex, AbstractExpression.anyNode,
        AbstractExpression.anyNodeList, AbstractExpression.isRedex,
        AbstractExpression.comparatorRedex, AbstractExpression.transitiveRedex,
        AbstractExpression.shortCircuitRedex, AbstractExpression.isLeafOfTag,
        expression.ComparisonExpression, expression.ConstantValueExpression, columnRef,
        comparatorTags]
    · simp [AbstractExpression.truthValue, AbstractExpression.isLeafOfTag,
        expression.ComparisonExpression]
    · simp [equalityBindings, expression.ComparisonExpression, AbstractExpression.isLeafOfTag,
        expression.ConstantValueExpression, columnRef]
    · simp [equalityBindings, expression.ComparisonExpression, AbstractExpression.isLeafOfTag,
        expression.ConstantValueExpression, columnRef]

/-- What `TVEqualityWithTwoCVTransform` produces at a binding does not depend on
the operators of the two equalities. -/
theorem tvEquality_operators (cc : Comparability) (op1 op2 op3 op4 : AbsExpr_Container)
    (K1 K2 : AbstractExpression) (v1 v2 : Value)
    (h1 : op1.GetType = ExpressionType.COMPARE_EQUAL)
    (h2 : op2.GetType = ExpressionType.COMPARE_EQUAL)
    (h3 : op3.GetType = ExpressionType.COMPARE_EQUAL)
    (h4 : op4.GetType = ExpressionType.COMPARE_EQUAL)
    (hK1 : K1.GetExpressionType = ExpressionType.VALUE_TUPLE)
    (hK2 : K2.GetExpressionType = ExpressionType.VALUE_TUPLE) :
    Rule.TVEqualityWithTwoCVTransform.Transform cc
        (andOfEquals andOp op1 op2 K1 (expression.ConstantValueExpression v1) K2
          (expression.ConstantValueExpression v2)) [] =
      Rule.TVEqualityWithTwoCVTransform.Transform cc
        (andOfEquals andOp op3 op4 K1 (expression.ConstantValueExpression v1) K2
          (expression.ConstantValueExpression v2)) [] := by
  have hrule : ∀ x, Rule.TVEqualityWithTwoCVTransform.Transform cc x [] =
      TVEqualityWithTwoCVTransform.Transform cc x [] := fun _ => rfl
  rw [hrule, hrule, tvEquality_unfold cc andOp op1 op2 K1 K2 v1 v2 [] rfl h1 h2 hK1 hK2,
    tvEquality_unfold cc andOp op3 op4 K1 K2 v1 v2 [] rfl h3 h4 hK1 hK2]

/-- The output of the pass of the transitive rules at a conjunction of two
equalities of a column and a constant does not depend on the way the
equalities are written. -/
theorem transitiveOutput_forms (cc : Comparability) (t1 c1 : String) (o1 : Option Nat)
    (t2 c2 : String) (o2 : Option Nat) (v1 v2 : Value) {a a2 b b2 : AbstractExpression}
    (ha : a ∈ equalityForms (columnRef t1 c1 o1) v1)
    (ha2 : a2 ∈ equalityForms (columnRef t1 c1 o1) v1)
    (hb : b ∈ equalityForms (columnRef t2 c2 o2) v2)
    (hb2 : b2 ∈ equalityForms (columnRef t2 c2 o2) v2) :
    transitiveOutput cc a b = transitiveOutput cc a2 b2 := by
  obtain ⟨_, _, _, htta, opa, hopa, hba⟩ := equalityForms_facts t1 c1 o1 v1 ha
  obtain ⟨_, _, _, htta2, opa2, hopa2, hba2⟩ := equalityForms_facts t1 c1 o1 v1 ha2
  obtain ⟨_, _, _, httb, opb, hopb, hbb⟩ := equalityForms_facts t2 c2 o2 v2 hb
  obtain ⟨_, _, _, httb2, opb2, hopb2, hbb2⟩ := equalityForms_facts t2 c2 o2 v2 hb2
  have hx := tvEquality_operators cc opa opb opa2 opb2 (columnRef t1 c1 o1) (columnRef t2 c2 o2)
    v1 v2 hopa hopb hopa2 hopb2 rfl rfl
  have hy := tvEquality_operators cc opb opa opb2 opa2 (columnRef t2 c2 o2) (columnRef t1 c1 o1)
    v2 v1 hopb hopa hopb2 hopa2 rfl rfl
  unfold transitiveOutput tvBindings tcBindings
  rw [conjunctionBindings_single _ _ _ _ a b _ _ hba hbb,
    conjunctionBindings_single _ _ _ _ b a _ _ hbb hba,
    conjunctionBindings_single _ _ _ _ a2 b2 _ _ hba2 hbb2,
    conjunctionBindings_single _ _ _ _ b2 a2 _ _ hbb2 hba2,
    conjunctionBindings_nil_right _ _ _ _ a b httb,
    conjunctionBindings_nil_right _ _ _ _ b a htta,
    conjunctionBindings_nil_right _ _ _ _ a2 b2 httb2,
    conjunctionBindings_nil_right _ _ _ _ b2 a2 htta2]
  have hfirst : ∀ (x y x2 y2 : AbsExpr_Expression),
      Rule.TVEqualityWithTwoCVTransform.Transform cc x [] =
        Rule.TVEqualityWithTwoCVTransform.Transform cc x2 [] →
      Rule.TVEqualityWithTwoCVTransform.Transform cc y [] =
        Rule.TVEqualityWithTwoCVTransform.Transform cc y2 [] →
      firstOutput cc Rule.TVEqualityWithTwoCVTransform ([x] ++ [y]) =
        firstOutput cc Rule.TVEqualityWithTwoCVTransform ([x2] ++ [y2]) := by
    intro x y x2 y2 h1 h2
    simp only [List.singleton_append, firstOutput, h1, h2]
  have hf := hfirst _ _ _ _ hx hy
  simp only [andOfEquals] at hf
  rw [hf]

/-- The results of a conjunction of two equalities of a column and a constant,
written in two ways: the same tree, or each conjunction as it is. -/
theorem conjunctionResult_forms (cc : Comparability) (t1 c1 : String) (o1 : Option Nat)
    (t2 c2 : String) (o2 : Option Nat) (v1 v2 : Value) {a a2 b b2 : AbstractExpression}
    (ha : a ∈ equalityForms (columnRef t1 c1 o1) v1)
    (ha2 : a2 ∈ equalityForms (columnRef t1 c1 o1) v1)
    (hb : b ∈ equalityForms (columnRef t2 c2 o2) v2)
    (hb2 : b2 ∈ equalityForms (columnRef t2 c2 o2) v2)
    {r1 r2 : AbstractExpression} (h1 : ConjunctionResult cc a b r1)
    (h2 : ConjunctionResult cc a2 b2 r2) :
    r1 = r2 ∨
      (r1 = expression.ConjunctionExpression ExpressionType.CONJUNCTION_AND (some a) (some b) ∧
        r2 = expression.ConjunctionExpression ExpressionType.CONJUNCTION_AND (some a2)
          (some b2)) := by
  have hsame := transitiveOutput_forms cc t1 c1 o1 t2 c2 o2 v1 v2 ha ha2 hb hb2
  obtain ⟨_, _, hta, _⟩ := equalityForms_facts t1 c1 o1 v1 ha
  obtain ⟨_, _, hta2, _⟩ := equalityForms_facts t1 c1 o1 v1 ha2
  obtain ⟨_, _, htb, _⟩ := equalityForms_facts t2 c2 o2 v2 hb
  obtain ⟨_, _, htb2, _⟩ := equalityForms_facts t2 c2 o2 v2 hb2
  have hsc1 : shortCircuitResult a b = none := by
    unfold shortCircuitResult; rw [hta, htb]
  have hsc2 : shortCircuitResult a2 b2 = none := by
    unfold shortCircuitResult; rw [hta2, htb2]
  rcases h1 with ⟨out1, ho1, hd1⟩ | ⟨hn1, hr1⟩
  · rcases h2 with ⟨out2, ho2, hd2⟩ | ⟨hn2, _⟩
    · rw [hsame, ho2] at ho1
      simp only [Option.some.injEq] at ho1
      subst ho1
      exact Or.inl (denotes_unique hd2 r1 hd1)
    · rw [hsame, hn2] at ho1
      exact Option.noConfusion ho1
  · rcases h2 with ⟨out2, ho2, _⟩ | ⟨_, hr2⟩
    · rw [hsame, ho2] at hn1
      exact Option.noConfusion hn1
    · rw [hsc1] at hr1
      rw [hsc2] at hr2
      exact Or.inr ⟨hr1, hr2⟩

theorem sameTypeComparable_comm (u v : Value) :
    sameTypeComparable u v = sameTypeComparable v u := by
  unfold sameTypeComparable
  by_cases h : u.type_id = v.type_id
  · simp [h]
  · have h2 : ¬ v.type_id = u.type_id := fun e => h e.symm
    simp [h, h2]

theorem sameTypeComparable_same (u v : Value) (hcc : sameTypeComparable u v = true)
    (heq : u.CompareEquals v = CmpBool.CmpTrue) : u = v := by
  obtain ⟨tu, du⟩ := u
  obtain ⟨tv, dv⟩ := v
  simp only [sameTypeComparable, decide_eq_true_eq] at hcc
  subst hcc
  cases du <;> cases dv <;>
    simp [Value.CompareEquals, Value.compareWith] at heq
  rw [heq]

set_option maxRecDepth 1000000 in
/-- Refutation of C21 as stated: an equality written with its operands flipped
does not always rewrite to the same result.  `(A.B = 5) AND (A.B = C.D)` is
rewritten to `(A.B = 5) AND (5 = C.D)`, and `(A.B = 5) AND (C.D = A.B)`, which
differs only in the order of the operands of the second equality, to
`(A.B = 5) AND (C.D = 5)`: `TransitiveClosureConstantTransform` puts the
constant on the side on which it found the column `A.B`.  The two results are
different trees. -/
theorem rewrite_flipped_equality_differs :
    (∀ fuel : Nat, 56 ≤ fuel →
      Rewriter.RewriteExpression sameTypeComparable fuel Rewriter.new
          (some (CreateTransitiveExpression (columnRef "A" "B" none) (GetConstantExpression 5)
            (columnRef "A" "B" none) (columnRef "C" "D" none))) =
        Outcome.done (some (CreateTransitiveExpression (columnRef "A" "B" none)
          (GetConstantExpression 5) (GetConstantExpression 5) (columnRef "C" "D" none)),
          Rewriter.new)) ∧
    (∀ fuel : Nat, 56 ≤ fuel →
      Rewriter.RewriteExpression sameTypeComparable fuel Rewriter.new
          (some (CreateTransitiveExpression (columnRef "A" "B" none) (GetConstantExpression 5)
            (columnRef "C" "D" none) (columnRef "A" "B" none))) =
        Outcome.done (some (CreateTransitiveExpression (columnRef "A" "B" none)
          (GetConstantExpression 5) (columnRef "C" "D" none) (GetConstantExpression 5)),
          Rewriter.new)) ∧
    CreateTransitiveExpression (columnRef "A" "B" none) (GetConstantExpression 5)
        (GetConstantExpression 5) (columnRef "C" "D" none) ≠
      CreateTransitiveExpression (columnRef "A" "B" none) (GetConstantExpression 5)
        (columnRef "C" "D" none) (GetConstantExpression 5) ∧
    (CreateTransitiveExpression (columnRef "A" "B" none) (GetConstantExpression 5)
        (GetConstantExpression 5) (columnRef "C" "D" none)).ExactlyEquals
      (CreateTransitiveExpression (columnRef "A" "B" none) (GetConstantExpression 5)
        (columnRef "C" "D" none) (GetConstantExpression 5)) = false := by
  refine ⟨?_, ?_, ?_, by decide⟩
  · intro fuel hfuel
    obtain ⟨k, rfl⟩ := Nat.exists_eq_add_of_le hfuel
    exact rewriteExpression_mono sameTypeComparable 56 k Rewriter.new _ _
      (rewriteExpression_of_returnsTree sameTypeComparable 56 Rewriter.new _ _ (by decide!))
  · intro fuel hfuel
    obtain ⟨k, rfl⟩ := Nat.exists_eq_add_of_le hfuel
    exact rewriteExpression_mono sameTypeComparable 56 k Rewriter.new _ _
      (rewriteExpression_of_returnsTree sameTypeComparable 56 Rewriter.new _ _ (by decide!))
  · intro h
    have hsame := congrArg (fun e : AbstractExpression =>
      e.ExactlyEquals (CreateTransitiveExpression (columnRef "A" "B" none)
        (GetConstantExpression 5) (columnRef "C" "D" none) (GetConstantExpression 5))) h
    revert hsame
    decide

/-! ## Shapes held by a memo -/

theorem holds_root {memo : Memo} {g : Nat} {s : Shape} {S : List Nat} (h : Holds memo g s S) :
    g ∈ S := by
  cases h with
  | leaf => exact List.mem_singleton.2 rfl
  | node => exact List.mem_cons_self _ _

theorem holds_lt {memo : Memo} {g : Nat} {s : Shape} {S : List Nat} (h : Holds memo g s S) :
    ∀ i, i ∈ S → i < memo.groups.length := by
  induction h with
  | leaf g op hmemo =>
    intro i hi
    rw [List.mem_singleton] at hi
    rw [hi]
    exact (List.getElem?_eq_some_iff.1 hmemo).1
  | node g c1 c2 flipped op l r S1 S2 hmemo hl hr hapart hg1 hg2 ihl ihr =>
    intro i hi
    rw [List.mem_cons, List.mem_append] at hi
    rcases hi with h | h | h
    · rw [h]
      exact (List.getElem?_eq_some_iff.1 hmemo).1
    · exact ihl i h
    · exact ihr i h

/-- A shape stays held in a memo that agrees on the groups of the shape. -/
theorem holds_frame {memo after : Memo} {g : Nat} {s : Shape} {S : List Nat}
    (h : Holds memo g s S)
    (hsame : ∀ i, i ∈ S → after.groups[i]? = memo.groups[i]?) : Holds after g s S := by
  induction h with
  | leaf g op hmemo =>
    exact Holds.leaf g op ((hsame g (List.mem_singleton.2 rfl)).trans hmemo)
  | node g c1 c2 flipped op l r S1 S2 hmemo hl hr hapart hg1 hg2 ihl ihr =>
    refine Holds.node g c1 c2 flipped op l r S1 S2 ?_
      (ihl (fun i hi => hsame i (List.mem_cons_of_mem _ (List.mem_append_left _ hi))))
      (ihr (fun i hi => hsame i (List.mem_cons_of_mem _ (List.mem_append_right _ hi))))
      hapart hg1 hg2
    rw [hsame g (List.mem_cons_self _ _)]
    exact hmemo

/-- The groups of the two children of a node are different groups. -/
theorem holds_children_ne {memo : Memo} {c1 c2 : Nat} {l r : Shape} {S1 S2 : List Nat}
    (hl : Holds memo c1 l S1) (hr : Holds memo c2 r S2) (hapart : ∀ i, i ∈ S1 → i ∉ S2) :
    c1 ≠ c2 := by
  intro h
  exact hapart c1 (holds_root hl) (h ▸ holds_root hr)

theorem frame_refl (memo : Memo) (S : List Nat) : Frame memo memo S S :=
  ⟨Nat.le_refl _, fun _ _ _ => rfl, fun _ h => Or.inl h⟩

theorem frame_trans {m0 m1 m2 : Memo} {S0 S1 S2 : List Nat} (h1 : Frame m0 m1 S0 S1)
    (h2 : Frame m1 m2 S1 S2) : Frame m0 m2 S0 S2 := by
  obtain ⟨hlen1, hkeep1, hnew1⟩ := h1
  obtain ⟨hlen2, hkeep2, hnew2⟩ := h2
  refine ⟨Nat.le_trans hlen1 hlen2, ?_, ?_⟩
  · intro i hi hS
    have hS1 : i ∉ S1 := by
      intro hmem
      rcases hnew1 i hmem with h | h
      · exact hS h
      · omega
    rw [hkeep2 i (by omega) hS1, hkeep1 i hi hS]
  · intro i hi
    rcases hnew2 i hi with h | h
    · exact hnew1 i h
    · exact Or.inr (by omega)

/-- A frame for a set of groups is a frame for every larger set. -/
theorem frame_mono {memo after : Memo} {S T S2 : List Nat} (h : Frame memo after S S2)
    (hsub : ∀ i, i ∈ S → i ∈ T) : Frame memo after T S2 :=
  ⟨h.1, fun i hi hT => h.2.1 i hi (fun hS => hT (hsub i hS)),
    fun i hi => (h.2.2 i hi).imp (hsub i) id⟩

/-- A shape outside the groups that a stretch works on stays held. -/
theorem holds_apart {memo after : Memo} {g : Nat} {s : Shape} {S T T2 : List Nat}
    (h : Holds memo g s S) (hframe : Frame memo after T T2) (hapart : ∀ i, i ∈ S → i ∉ T) :
    Holds after g s S :=
  holds_frame h (fun i hi => hframe.2.1 i (holds_lt h i hi) (hapart i hi))

/-- The groups that a shape occupies after a stretch stay apart from the groups
of a shape that the stretch did not work on. -/
theorem apart_after {memo after : Memo} {g : Nat} {s : Shape} {S T T2 : List Nat}
    (h : Holds memo g s S) (hframe : Frame memo after T T2) (hapart : ∀ i, i ∈ S → i ∉ T) :
    ∀ i, i ∈ S → i ∉ T2 := by
  intro i hi hmem
  rcases hframe.2.2 i hmem with h2 | h2
  · exact hapart i hi h2
  · have := holds_lt h i hi
    omega

/-! ## The shape of a recorded expression -/

theorem shapeOf_leaf (flipped : Bool) (op : AbsExpr_Container) :
    shapeOf flipped (AbsExpr_Expression.mk op []) = Shape.leaf op := by
  simp [shapeOf, shapesOf]

theorem shapeOf_binary (flipped : Bool) (op : AbsExpr_Container)
    (left right : AbsExpr_Expression) :
    shapeOf flipped (AbsExpr_Expression.mk op [left, right]) =
      Shape.node flipped op (shapeOf flipped left) (shapeOf flipped right) := by
  simp [shapeOf, shapesOf]

theorem statusGroups_append (flipped : Bool) (xs ys : List GroupExpression) :
    statusGroups flipped (xs ++ ys) = statusGroups flipped xs ++ statusGroups flipped ys := by
  simp [statusGroups]

theorem statusGroups_length (flipped : Bool) (xs : List GroupExpression) :
    (statusGroups flipped xs).length = xs.length := by
  simp [statusGroups]

theorem statusGroups_single (xs : List GroupExpression) :
    statusGroups false xs = singleGroups xs := by
  simp [statusGroups, singleGroups]

theorem statusGroups_flipped (xs : List GroupExpression) :
    statusGroups true xs = flippedGroups xs := by
  simp [statusGroups, flippedGroups]

theorem span_apart {lo mid hi i : Nat} (h1 : lo ≤ i ∧ i < mid) (h2 : mid ≤ i ∧ i < hi) :
    False := by
  omega

theorem span_above {lo hi i : Nat} (h : hi ≤ i) (h1 : lo ≤ i ∧ i < hi) : False := by
  omega

theorem span_top {b x y i : Nat} (h : i = b + x + y) : b ≤ i ∧ i < b + (x + (y + 1)) := by
  omega

theorem span_left {b x y i : Nat} (h : b ≤ i ∧ i < b + x) :
    b ≤ i ∧ i < b + (x + (y + 1)) := by
  omega

theorem span_right {b x y i : Nat} (h : b + x ≤ i ∧ i < b + x + y) :
    b ≤ i ∧ i < b + (x + (y + 1)) := by
  omega

/-- The groups of the layout of an expression hold the shape of the expression,
whatever stands before and after them; they occupy the positions of the
layout. -/
theorem holds_layout (flipped : Bool) {e : AbsExpr_Expression} {tree : AbstractExpression}
    (h : Denotes e tree) :
    ∀ (pre post : List Group),
      ∃ S : List Nat,
        Holds ⟨pre ++ statusGroups flipped (layout pre.length e) ++ post⟩
          (pre.length + (layout pre.length e).length - 1) (shapeOf flipped e) S ∧
        ∀ i, i ∈ S → pre.length ≤ i ∧ i < pre.length + (layout pre.length e).length := by
  induction h with
  | leaf type cls hmarker =>
    intro pre post
    rw [layout_leaf, shapeOf_leaf]
    refine ⟨[pre.length], Holds.leaf _ _ ?_, ?_⟩
    · have hlook := lookup_single pre post
        (⟨[⟨⟨some (AbstractExpression.mk type cls [])⟩, []⟩]⟩ : Group) pre.length rfl
      have hflips : GroupExpression.flips ⟨⟨some (AbstractExpression.mk type cls [])⟩, []⟩ = [] :=
        flips_other _ _ (Or.inr (by decide))
      simp only [statusGroups, List.map_cons, List.map_nil, hflips, ite_self,
        List.length_singleton, Nat.add_sub_cancel]
      exact hlook
    · intro i hi
      rw [List.mem_singleton] at hi
      subst hi
      simp
  | binary op left right type cls l r hdefined hmarker htype hcopy hl hr ihl ihr =>
    intro pre post
    rw [layout_binary, shapeOf_binary]
    have hpos1 := layout_pos pre.length left
    have hpos2 := layout_pos (pre.length + (layout pre.length left).length) right
    generalize hla : layout pre.length left = la at *
    generalize hlb : layout (pre.length + la.length) right = lb at *
    obtain ⟨x, hx⟩ : ∃ x : GroupExpression, x = ⟨op,
        [pre.length + la.length - 1, pre.length + la.length + lb.length - 1]⟩ := ⟨_, rfl⟩
    rw [← hx]
    obtain ⟨S1, ht1, hs1⟩ := ihl pre
      (statusGroups flipped lb ++ statusGroups flipped [x] ++ post)
    obtain ⟨S2, ht2, hs2⟩ := ihr (pre ++ statusGroups flipped la)
      (statusGroups flipped [x] ++ post)
    rw [hla] at ht1 hs1
    simp only [List.length_append, statusGroups_length] at ht2 hs2
    rw [hlb] at ht2 hs2
    have hidx : pre.length + (la ++ lb ++ [x]).length - 1 =
        pre.length + la.length + lb.length := by
      simp only [List.length_append, List.length_singleton]
      omega
    rw [hidx]
    simp only [statusGroups_append, List.append_assoc] at ht1 ht2 ⊢
    refine ⟨(pre.length + la.length + lb.length) :: (S1 ++ S2),
      Holds.node _ (pre.length + la.length - 1) (pre.length + la.length + lb.length - 1)
        flipped op _ _ S1 S2 ?_ ht1 ht2 ?_ ?_ ?_, ?_⟩
    · have h := lookup_last pre (statusGroups flipped la ++ statusGroups flipped lb) post
        (⟨x :: (if flipped then x.flips else [])⟩ : Group)
        (pre.length + la.length + lb.length)
        (by simp only [List.length_append, statusGroups_length]; omega)
      have hone : statusGroups flipped [x] = [⟨x :: (if flipped then x.flips else [])⟩] := rfl
      rw [hone]
      simp only [List.append_assoc] at h
      rw [h, hx]
      rfl
    · intro i h1 h2
      exact span_apart (hs1 i h1) (hs2 i h2)
    · intro h1
      exact span_above (Nat.le_add_right _ _) (hs1 _ h1)
    · intro h2
      exact span_above (Nat.le_refl _) (hs2 _ h2)
    · intro i hi
      simp only [List.length_append, List.length_singleton]
      rw [List.mem_cons, List.mem_append] at hi
      rcases hi with h | h | h
      · exact span_top h
      · exact span_left (hs1 i h)
      · exact span_right (hs2 i h)

/-! ## The traversal of a pass over a shape -/

theorem holds_node_inv {memo : Memo} {g : Nat} {flipped : Bool} {op : AbsExpr_Container}
    {l r : Shape} {S : List Nat} (h : Holds memo g (Shape.node flipped op l r) S) :
    ∃ (c1 c2 : Nat) (S1 S2 : List Nat), S = g :: (S1 ++ S2) ∧
      memo.groups[g]? = some ⟨Shape.entries flipped op c1 c2⟩ ∧
      Holds memo c1 l S1 ∧ Holds memo c2 r S2 ∧
      (∀ i, i ∈ S1 → i ∉ S2) ∧ g ∉ S1 ∧ g ∉ S2 := by
  cases h with
  | node _ c1 c2 _ _ _ _ S1 S2 hmemo hl hr hapart hg1 hg2 =>
    exact ⟨c1, c2, S1, S2, rfl, hmemo, hl, hr, hapart, hg1, hg2⟩

theorem holds_leaf_inv {memo : Memo} {g : Nat} {op : AbsExpr_Container} {S : List Nat}
    (h : Holds memo g (Shape.leaf op) S) :
    S = [g] ∧ memo.groups[g]? = some ⟨[⟨op, []⟩]⟩ := by
  cases h with
  | leaf _ _ hmemo => exact ⟨rfl, hmemo⟩

theorem uniqueChildren_leaf {memo : Memo} {g : Nat} {op : AbsExpr_Container}
    (hmemo : memo.groups[g]? = some ⟨[⟨op, []⟩]⟩) : GetUniqueChildGroupIDs memo g = [] := by
  unfold GetUniqueChildGroupIDs Memo.GetGroupByID
  rw [hmemo]
  rfl

theorem uniqueChildren_node {memo : Memo} {g c1 c2 : Nat} {flipped : Bool}
    {op : AbsExpr_Container} (hmemo : memo.groups[g]? = some ⟨Shape.entries flipped op c1 c2⟩)
    (hne : c1 ≠ c2) :
    GetUniqueChildGroupIDs memo g = if c1 < c2 then [c1, c2] else [c2, c1] := by
  unfold GetUniqueChildGroupIDs Memo.GetGroupByID
  rw [hmemo]
  simp only [Option.getD_some, Shape.entries, List.foldl_cons, List.foldl_nil, insertGroupID]
  by_cases h : c1 < c2
  · have h2 : ¬ c2 < c1 := by omega
    have h3 : ¬ c2 = c1 := by omega
    simp [h, h2, h3]
  · have h2 : c2 < c1 := by omega
    simp [h, h2]

/-- Two shapes on disjoint groups, worked on one after the other. -/
theorem processes_two (cc : Comparability) (task : GroupID → OptimizerTask)
    {sa sa2 sb sb2 : Shape} (ha : Processes cc task sa sa2) (hb : Processes cc task sb sb2)
    (memo : Memo) (a b : Nat) (Sa Sb : List Nat) (rest : OptimizerTaskStack)
    (hha : Holds memo a sa Sa) (hhb : Holds memo b sb Sb) (hapart : ∀ i, i ∈ Sa → i ∉ Sb) :
    ∃ (after : Memo) (Sa2 Sb2 : List Nat),
      Leads cc memo (task a :: task b :: rest) after rest ∧
      Holds after a sa2 Sa2 ∧ Holds after b sb2 Sb2 ∧ (∀ i, i ∈ Sa2 → i ∉ Sb2) ∧
      memo.groups.length ≤ after.groups.length ∧
      (∀ i : Nat, i < memo.groups.length → i ∉ Sa → i ∉ Sb →
        after.groups[i]? = memo.groups[i]?) ∧
      (∀ i : Nat, i ∈ Sa2 → i ∈ Sa ∨ memo.groups.length ≤ i) ∧
      (∀ i : Nat, i ∈ Sb2 → i ∈ Sb ∨ memo.groups.length ≤ i) := by
  obtain ⟨m1, Sa2, L1, Ha1, F1⟩ := ha memo a Sa (task b :: rest) hha
  have hflip : ∀ i, i ∈ Sb → i ∉ Sa := fun i hi hmem => hapart i hmem hi
  have Hb1 : Holds m1 b sb Sb := holds_apart hhb F1 hflip
  obtain ⟨m2, Sb2, L2, Hb2, F2⟩ := hb m1 b Sb rest Hb1
  have hapart2 : ∀ i, i ∈ Sa2 → i ∉ Sb := by
    intro i hi hmem
    exact apart_after hhb F1 hflip i hmem hi
  have Ha2 : Holds m2 a sa2 Sa2 := holds_apart Ha1 F2 hapart2
  refine ⟨m2, Sa2, Sb2, leads_trans L1 L2, Ha2, Hb2, apart_after Ha1 F2 hapart2,
    Nat.le_trans F1.1 F2.1, ?_, F1.2.2, ?_⟩
  · intro i hi h1 h2
    rw [F2.2.1 i (Nat.lt_of_lt_of_le hi F1.1) h2, F1.2.1 i hi h1]
  · intro i hi
    rcases F2.2.2 i hi with h | h
    · exact Or.inl h
    · exact Or.inr (Nat.le_trans F1.1 h)

/-- The node over two children that were worked on. -/
theorem holds_children {memo after : Memo} {g c1 c2 : Nat} {flipped : Bool}
    {op : AbsExpr_Container} {l2 r2 : Shape} {S1 S2 T1 T2 : List Nat}
    (hmemo : memo.groups[g]? = some ⟨Shape.entries flipped op c1 c2⟩)
    (hg1 : g ∉ S1) (hg2 : g ∉ S2)
    (hl : Holds after c1 l2 T1) (hr : Holds after c2 r2 T2) (hapart : ∀ i, i ∈ T1 → i ∉ T2)
    (hlen : memo.groups.length ≤ after.groups.length)
    (hkeep : ∀ i : Nat, i < memo.groups.length → i ∉ S1 → i ∉ S2 →
      after.groups[i]? = memo.groups[i]?)
    (h1 : ∀ i : Nat, i ∈ T1 → i ∈ S1 ∨ memo.groups.length ≤ i)
    (h2 : ∀ i : Nat, i ∈ T2 → i ∈ S2 ∨ memo.groups.length ≤ i) :
    Holds after g (Shape.node flipped op l2 r2) (g :: (T1 ++ T2)) ∧
      Frame memo after (g :: (S1 ++ S2)) (g :: (T1 ++ T2)) := by
  have hg : g < memo.groups.length := (List.getElem?_eq_some_iff.1 hmemo).1
  refine ⟨Holds.node g c1 c2 flipped op l2 r2 T1 T2 ?_ hl hr hapart ?_ ?_, hlen, ?_, ?_⟩
  · rw [hkeep g hg hg1 hg2]
    exact hmemo
  · intro hmem
    rcases h1 g hmem with h | h
    · exact hg1 h
    · omega
  · intro hmem
    rcases h2 g hmem with h | h
    · exact hg2 h
    · omega
  · intro i hi hS
    rw [List.mem_cons, List.mem_append] at hS
    exact hkeep i hi (fun h => hS (Or.inr (Or.inl h))) (fun h => hS (Or.inr (Or.inr h)))
  · intro i hi
    rw [List.mem_cons, List.mem_append] at hi
    rcases hi with h | h | h
    · exact Or.inl (by rw [h]; exact List.mem_cons_self _ _)
    · rcases h1 i h with h3 | h3
      · exact Or.inl (List.mem_cons_of_mem _ (List.mem_append_left _ h3))
      · exact Or.inr h3
    · rcases h2 i h with h3 | h3
      · exact Or.inl (List.mem_cons_of_mem _ (List.mem_append_right _ h3))
      · exact Or.inr h3

/-- The tasks that a task pushes for the child groups of a node turn the children
into what the tasks make of them, whichever child comes first. -/
theorem processes_children (cc : Comparability) (task : GroupID → OptimizerTask)
    {l l2 r r2 : Shape} (hl : Processes cc task l l2) (hr : Processes cc task r r2)
    (memo : Memo) (g : Nat) (flipped : Bool) (op : AbsExpr_Container) (S : List Nat)
    (rest : OptimizerTaskStack) (h : Holds memo g (Shape.node flipped op l r) S) :
    ∃ (after : Memo) (S2 : List Nat),
      Leads cc memo ((GetUniqueChildGroupIDs memo g).foldl
        (fun s c => OptimizerTaskStack.Push s (task c)) rest) after rest ∧
      Holds after g (Shape.node flipped op l2 r2) S2 ∧ Frame memo after S S2 := by
  obtain ⟨c1, c2, S1, S2, hS, hmemo, hhl, hhr, hapart, hg1, hg2⟩ := holds_node_inv h
  subst hS
  have hne := holds_children_ne hhl hhr hapart
  rw [uniqueChildren_node hmemo hne, foldl_push]
  by_cases hlt : c1 < c2
  · rw [if_pos hlt]
    obtain ⟨after, T2, T1, L, H2, H1, hap, hlen, hkeep, ho2, ho1⟩ :=
      processes_two cc task hr hl memo c2 c1 S2 S1 rest hhr hhl
        (fun i hi hmem => hapart i hmem hi)
    obtain ⟨hh, hf⟩ := holds_children hmemo hg1 hg2 H1 H2 (fun i hi hmem => hap i hmem hi)
      hlen (fun i hi h1 h2 => hkeep i hi h2 h1) ho1 ho2
    exact ⟨after, _, L, hh, hf⟩
  · rw [if_neg hlt]
    obtain ⟨after, T1, T2, L, H1, H2, hap, hlen, hkeep, ho1, ho2⟩ :=
      processes_two cc task hl hr memo c1 c2 S1 S2 rest hhl hhr hapart
    obtain ⟨hh, hf⟩ := holds_children hmemo hg1 hg2 H1 H2 hap hlen hkeep ho1 ho2
    exact ⟨after, _, L, hh, hf⟩

theorem plain_bottomUp (step : Shape → Shape) (hplain : ∀ s, s.plain → (step s).plain) :
    ∀ s : Shape, s.plain → (s.bottomUp step).plain := by
  intro s
  induction s with
  | leaf op => intro h; exact hplain _ h
  | node flipped op l r ihl ihr =>
    intro h
    rw [Shape.bottomUp]
    apply hplain
    exact ⟨h.1, h.2.1, h.2.2.1, ihl h.2.2.2.1, ihr h.2.2.2.2⟩

/-- A bottom-up pass over a group: the children first, then the rules at the
group. -/
theorem processes_bottomUp (cc : Comparability) (name : RewriteRuleSetName)
    (step : Shape → Shape) (hstep : ∀ s, s.plain → Optimizes cc name s (step s))
    (hplain : ∀ s, s.plain → (step s).plain) :
    ∀ s : Shape, s.plain →
      Processes cc (fun g => OptimizerTask.BottomUpRewrite g name false) s
        (s.bottomUp step) := by
  have hlast : ∀ (s : Shape) (memo : Memo) (g : Nat) (S : List Nat)
      (rest : OptimizerTaskStack), s.plain → Holds memo g s S →
      ∃ (after : Memo) (S2 : List Nat),
        Leads cc memo (OptimizerTask.BottomUpRewrite g name true :: rest) after rest ∧
        Holds after g (step s) S2 ∧ Frame memo after S S2 := by
    intro s memo g S rest hp h
    obtain ⟨after, S2, hopt, hh, hf⟩ := hstep s hp memo g S h
    refine ⟨after, S2, leads_step ?_, hh, hf⟩
    rw [OptimizerTask.execute, hopt]
  intro s
  induction s with
  | leaf op =>
    intro hp memo g S rest h
    obtain ⟨_, hmemo⟩ := holds_leaf_inv h
    have hexec : (OptimizerTask.BottomUpRewrite g name false).execute cc
        ⟨memo, RuleSet.forExpressions⟩ rest =
        some (⟨memo, RuleSet.forExpressions⟩,
          OptimizerTask.BottomUpRewrite g name true :: rest) := by
      rw [OptimizerTask.execute, uniqueChildren_leaf hmemo]
      rfl
    obtain ⟨after, S2, L, hh, hf⟩ := hlast _ memo g S rest hp h
    exact ⟨after, S2, leads_trans (leads_step hexec) L, hh, hf⟩
  | node flipped op l r ihl ihr =>
    intro hp memo g S rest h
    have hexec : (OptimizerTask.BottomUpRewrite g name false).execute cc
        ⟨memo, RuleSet.forExpressions⟩ rest =
        some (⟨memo, RuleSet.forExpressions⟩,
          (GetUniqueChildGroupIDs memo g).foldl
            (fun s c => OptimizerTaskStack.Push s (OptimizerTask.BottomUpRewrite c name false))
            (OptimizerTask.BottomUpRewrite g name true :: rest)) := by
      rw [OptimizerTask.execute]
      rfl
    obtain ⟨m1, S1, L1, H1, F1⟩ := processes_children cc
      (fun g => OptimizerTask.BottomUpRewrite g name false) (ihl hp.2.2.2.1) (ihr hp.2.2.2.2)
      memo g flipped op S (OptimizerTask.BottomUpRewrite g name true :: rest) h
    have hp1 : (Shape.node flipped op (l.bottomUp step) (r.bottomUp step)).plain :=
      ⟨hp.1, hp.2.1, hp.2.2.1, plain_bottomUp step hplain l hp.2.2.2.1,
        plain_bottomUp step hplain r hp.2.2.2.2⟩
    obtain ⟨m2, S2, L2, H2, F2⟩ := hlast _ m1 g S1 rest hp1 H1
    exact ⟨m2, S2, leads_trans (leads_step hexec) (leads_trans L1 L2), H2, frame_trans F1 F2⟩

/-! ## The bindings at a group that holds a shape -/

theorem bindGroupExpression_leaf_eq (memo : Memo) (tag : ExpressionType)
    (op : AbsExpr_Container) :
    bindGroupExpression memo (Pattern.leaf tag) ⟨op, []⟩ =
      if op.GetType = tag then [AbsExpr_Expression.mk op []] else [] := by
  unfold Pattern.leaf
  rw [bindGroupExpression.eq_1]
  by_cases h : op.GetType = tag
  · rw [if_pos ⟨h, rfl⟩, if_pos h, bindChildren.eq_1]
    rfl
  · rw [if_neg (fun hc => h hc.1), if_neg h]

theorem entries_cases (flipped : Bool) (op : AbsExpr_Container) (c1 c2 : Nat) :
    (flipped = true ∧ op.GetType ∈ equivalentTags ∧
      Shape.entries flipped op c1 c2 =
        [⟨op, [c1, c2]⟩,
          ⟨⟨some (expression.ConjunctionExpressionOfType op.GetType)⟩, [c2, c1]⟩]) ∨
    (¬ (flipped = true ∧ op.GetType ∈ equivalentTags) ∧
      Shape.entries flipped op c1 c2 = [⟨op, [c1, c2]⟩]) := by
  unfold Shape.entries
  by_cases hf : flipped = true
  · by_cases ht : op.GetType ∈ equivalentTags
    · refine Or.inl ⟨hf, ht, ?_⟩
      rw [if_pos hf, flips_pair op c1 c2 ht]
    · refine Or.inr ⟨fun h => ht h.2, ?_⟩
      rw [if_pos hf, flips_other op _ (Or.inl ht)]
  · refine Or.inr ⟨fun h => hf h.1, ?_⟩
    rw [if_neg hf]

/-- The bindings of a pattern of two children at the group of a node: those of
the operator over the two child groups and, when the node is flipped, those of
the flip. -/
theorem nodeBindings {memo : Memo} {g c1 c2 : Nat} {flipped : Bool} {op : AbsExpr_Container}
    (hmemo : memo.groups[g]? = some ⟨Shape.entries flipped op c1 c2⟩)
    (tag : ExpressionType) (p1 p2 : Pattern) (htag : tag ≠ ExpressionType.GROUP_MARKER) :
    childBindings memo (Pattern.mk tag [p1, p2]) g =
      (if op.GetType = tag then
        (childBindings memo p1 c1).flatMap fun l =>
          (childBindings memo p2 c2).map fun r => AbsExpr_Expression.mk op [l, r]
      else []) ++
      (if flipped = true ∧ op.GetType ∈ equivalentTags ∧ op.GetType = tag then
        (childBindings memo p1 c2).flatMap fun l =>
          (childBindings memo p2 c1).map fun r =>
            AbsExpr_Expression.mk
              ⟨some (expression.ConjunctionExpressionOfType op.GetType)⟩ [l, r]
      else []) := by
  have htype : (Pattern.mk tag [p1, p2]).type = tag := rfl
  have hg : childBindings memo (Pattern.mk tag [p1, p2]) g =
      (Shape.entries flipped op c1 c2).flatMap
        (bindGroupExpression memo (Pattern.mk tag [p1, p2])) := by
    rw [childBindings, htype, if_neg htag]
    unfold Memo.GetGroupByID
    rw [hmemo]
    rfl
  rw [hg]
  rcases entries_cases flipped op c1 c2 with ⟨hf, ht, he⟩ | ⟨hno, he⟩
  · rw [he]
    simp only [List.flatMap_cons, List.flatMap_nil, List.append_nil]
    by_cases h : op.GetType = tag
    · rw [if_pos h, if_pos ⟨hf, ht, h⟩, bindGroupExpression_two memo tag p1 p2 op c1 c2 h,
        bindGroupExpression_two memo tag p1 p2 _ c2 c1
          ((getType_conjunctionOfType op.GetType).trans h)]
    · rw [if_neg h, if_neg (fun hc : flipped = true ∧ op.GetType ∈ equivalentTags ∧
          op.GetType = tag => h hc.2.2),
        bindGroupExpression_other memo tag _ _ (by exact h),
        bindGroupExpression_other memo tag _ _
          (by rw [getType_conjunctionOfType]; exact h)]
  · rw [he, if_neg (fun hc : flipped = true ∧ op.GetType ∈ equivalentTags ∧
        op.GetType = tag => hno ⟨hc.1, hc.2.1⟩)]
    simp only [List.flatMap_cons, List.flatMap_nil, List.append_nil]
    by_cases h : op.GetType = tag
    · rw [if_pos h, bindGroupExpression_two memo tag p1 p2 op c1 c2 h]
    · rw [if_neg h, bindGroupExpression_other memo tag _ _ (by exact h)]

/-- A pattern of two children binds nothing at the group of a leaf. -/
theorem leafGroup_bindings {memo : Memo} {g : Nat} {op : AbsExpr_Container}
    (hmemo : memo.groups[g]? = some ⟨[⟨op, []⟩]⟩)
    (tag : ExpressionType) (p1 p2 : Pattern) (htag : tag ≠ ExpressionType.GROUP_MARKER) :
    childBindings memo (Pattern.mk tag [p1, p2]) g = [] := by
  have htype : (Pattern.mk tag [p1, p2]).type = tag := rfl
  rw [childBindings, htype, if_neg htag]
  unfold Memo.GetGroupByID
  rw [hmemo]
  simp only [Option.getD_some, List.flatMap_cons, List.flatMap_nil, List.append_nil]
  exact bindGroupExpression_arity memo tag _ _ (by simp)

/-- What a pattern leaf binds at a group that holds a shape. -/
theorem childBindings_leafBindings {memo : Memo} {g : Nat} {s : Shape} {S : List Nat}
    (h : Holds memo g s S) (tag : ExpressionType) (htag : tag ≠ ExpressionType.GROUP_MARKER) :
    childBindings memo (Pattern.leaf tag) g = s.leafBindings tag := by
  have htype : (Pattern.leaf tag).type = tag := rfl
  cases h with
  | leaf _ op hmemo =>
    rw [childBindings, htype, if_neg htag]
    unfold Memo.GetGroupByID
    rw [hmemo]
    simp only [Option.getD_some, List.flatMap_cons, List.flatMap_nil, List.append_nil]
    rw [bindGroupExpression_leaf_eq]
    rfl
  | node _ c1 c2 flipped op l r S1 S2 hmemo hl hr hapart hg1 hg2 =>
    rw [childBindings, htype, if_neg htag]
    unfold Memo.GetGroupByID
    rw [hmemo]
    simp only [Option.getD_some]
    have hnil : ∀ x : GroupExpression, x ∈ Shape.entries flipped op c1 c2 →
        bindGroupExpression memo (Pattern.leaf tag) x = [] := by
      intro x hx
      apply bindGroupExpression_arity
      rcases entries_cases flipped op c1 c2 with ⟨_, _, he⟩ | ⟨_, he⟩
      · rw [he] at hx
        simp only [List.mem_cons, List.mem_singleton, List.not_mem_nil, or_false] at hx
        rcases hx with hx | hx <;> (rw [hx]; simp)
      · rw [he] at hx
        simp only [List.mem_singleton] at hx
        rw [hx]; simp
    rw [flatMap_nil_of _ _ hnil]
    rfl

theorem alternatives_node (flipped : Bool) (op : AbsExpr_Container) (l r : Shape) :
    (Shape.node flipped op l r).alternatives =
      (op, l, r) ::
        (if flipped = true ∧ op.GetType ∈ equivalentTags then
          [(⟨some (expression.ConjunctionExpressionOfType op.GetType)⟩, r, l)]
        else []) := rfl

theorem pairBindings_leaf (tag first second : ExpressionType) (op : AbsExpr_Container) :
    (Shape.leaf op).pairBindings tag first second = [] := rfl

theorem pairBindings_node (tag first second : ExpressionType) (flipped : Bool)
    (op : AbsExpr_Container) (l r : Shape) :
    (Shape.node flipped op l r).pairBindings tag first second =
      (if op.GetType = tag then
        (l.leafBindings first).flatMap fun p =>
          (r.leafBindings second).map fun q => AbsExpr_Expression.mk op [p, q]
      else []) ++
      (if flipped = true ∧ op.GetType ∈ equivalentTags ∧ op.GetType = tag then
        (r.leafBindings first).flatMap fun p =>
          (l.leafBindings second).map fun q =>
            AbsExpr_Expression.mk
              ⟨some (expression.ConjunctionExpressionOfType op.GetType)⟩ [p, q]
      else []) := by
  unfold Shape.pairBindings
  rw [alternatives_node]
  by_cases hc : flipped = true ∧ op.GetType ∈ equivalentTags
  · rw [if_pos hc]
    simp only [List.flatMap_cons, List.flatMap_nil, List.append_nil,
      getType_conjunctionOfType]
    by_cases h : op.GetType = tag
    · rw [if_pos h, if_pos h, if_pos ⟨hc.1, hc.2, h⟩]
    · rw [if_neg h, if_neg h, if_neg (fun hx : flipped = true ∧ op.GetType ∈ equivalentTags ∧
          op.GetType = tag => h hx.2.2)]
  · rw [if_neg hc, if_neg (fun hx : flipped = true ∧ op.GetType ∈ equivalentTags ∧
        op.GetType = tag => hc ⟨hx.1, hx.2.1⟩)]
    simp only [List.flatMap_cons, List.flatMap_nil, List.append_nil]

theorem andBindings_leaf (t1 t2 t3 t4 : ExpressionType) (op : AbsExpr_Container) :
    (Shape.leaf op).andBindings t1 t2 t3 t4 = [] := rfl

theorem andBindings_node (t1 t2 t3 t4 : ExpressionType) (flipped : Bool)
    (op : AbsExpr_Container) (l r : Shape) :
    (Shape.node flipped op l r).andBindings t1 t2 t3 t4 =
      (if op.GetType = ExpressionType.CONJUNCTION_AND then
        (l.pairBindings ExpressionType.COMPARE_EQUAL t1 t2).flatMap fun p =>
          (r.pairBindings ExpressionType.COMPARE_EQUAL t3 t4).map fun q =>
            AbsExpr_Expression.mk op [p, q]
      else []) ++
      (if flipped = true ∧ op.GetType ∈ equivalentTags ∧
          op.GetType = ExpressionType.CONJUNCTION_AND then
        (r.pairBindings ExpressionType.COMPARE_EQUAL t1 t2).flatMap fun p =>
          (l.pairBindings ExpressionType.COMPARE_EQUAL t3 t4).map fun q =>
            AbsExpr_Expression.mk
              ⟨some (expression.ConjunctionExpressionOfType op.GetType)⟩ [p, q]
      else []) := by
  unfold Shape.andBindings
  rw [alternatives_node]
  by_cases hc : flipped = true ∧ op.GetType ∈ equivalentTags
  · rw [if_pos hc]
    simp only [List.flatMap_cons, List.flatMap_nil, List.append_nil,
      getType_conjunctionOfType]
    by_cases h : op.GetType = ExpressionType.CONJUNCTION_AND
    · rw [if_pos h, if_pos h, if_pos ⟨hc.1, hc.2, h⟩]
    · rw [if_neg h, if_neg h, if_neg (fun hx : flipped = true ∧ op.GetType ∈ equivalentTags ∧
          op.GetType = ExpressionType.CONJUNCTION_AND => h hx.2.2)]
  · rw [if_neg hc, if_neg (fun hx : flipped = true ∧ op.GetType ∈ equivalentTags ∧
        op.GetType = ExpressionType.CONJUNCTION_AND => hc ⟨hx.1, hx.2.1⟩)]
    simp only [List.flatMap_cons, List.flatMap_nil, List.append_nil]

/-- What the pattern of an operator over two leaves binds at a group that holds a
shape. -/
theorem childBindings_pairBindings {memo : Memo} {g : Nat} {s : Shape} {S : List Nat}
    (h : Holds memo g s S) (tag first second : ExpressionType)
    (htag : tag ≠ ExpressionType.GROUP_MARKER) (h1 : first ≠ ExpressionType.GROUP_MARKER)
    (h2 : second ≠ ExpressionType.GROUP_MARKER) :
    childBindings memo (Pattern.mk tag [Pattern.leaf first, Pattern.leaf second]) g =
      s.pairBindings tag first second := by
  cases h with
  | leaf _ op hmemo => rw [leafGroup_bindings hmemo tag _ _ htag, pairBindings_leaf]
  | node _ c1 c2 flipped op l r S1 S2 hmemo hl hr hapart hg1 hg2 =>
    rw [nodeBindings hmemo tag _ _ htag, pairBindings_node,
      childBindings_leafBindings hl first h1, childBindings_leafBindings hr second h2,
      childBindings_leafBindings hr first h1, childBindings_leafBindings hl second h2]

/-- What the pattern `AND(Equal(t1, t2), Equal(t3, t4))` binds at a group that
holds a shape. -/
theorem childBindings_andBindings {memo : Memo} {g : Nat} {s : Shape} {S : List Nat}
    (h : Holds memo g s S) (t1 t2 t3 t4 : ExpressionType)
    (h1 : t1 ≠ ExpressionType.GROUP_MARKER) (h2 : t2 ≠ ExpressionType.GROUP_MARKER)
    (h3 : t3 ≠ ExpressionType.GROUP_MARKER) (h4 : t4 ≠ ExpressionType.GROUP_MARKER) :
    childBindings memo (andOfEqualsPattern t1 t2 t3 t4) g = s.andBindings t1 t2 t3 t4 := by
  have hne : ExpressionType.COMPARE_EQUAL ≠ ExpressionType.GROUP_MARKER := by decide
  have hand : ExpressionType.CONJUNCTION_AND ≠ ExpressionType.GROUP_MARKER := by decide
  unfold andOfEqualsPattern
  cases h with
  | leaf _ op hmemo => rw [leafGroup_bindings hmemo _ _ _ hand, andBindings_leaf]
  | node _ c1 c2 flipped op l r S1 S2 hmemo hl hr hapart hg1 hg2 =>
    rw [nodeBindings hmemo _ _ _ hand, andBindings_node,
      childBindings_pairBindings hl _ t1 t2 hne h1 h2,
      childBindings_pairBindings hr _ t3 t4 hne h3 h4,
      childBindings_pairBindings hr _ t1 t2 hne h1 h2,
      childBindings_pairBindings hl _ t3 t4 hne h3 h4]

/-- The bindings of a pattern at the group-expressions of a group are what
`bindChildren` takes at the group. -/
theorem groupBindings_eq (memo : Memo) (pattern : Pattern) (g : Nat)
    (h : pattern.type ≠ ExpressionType.GROUP_MARKER) :
    (memo.GetGroupByID g).logical_expressions.flatMap (bindGroupExpression memo pattern) =
      childBindings memo pattern g := by
  rw [childBindings, if_neg h]

/-! ## One rule that replaces, at a group that holds a shape -/

theorem entries_single (op : AbsExpr_Container) (c1 c2 : Nat) :
    Shape.entries false op c1 c2 = [⟨op, [c1, c2]⟩] := rfl

theorem span_new {len x i : Nat} (h : len ≤ i ∧ i < len + x) : len ≤ i := h.1

theorem span_next {len x y i : Nat} (h : len + x ≤ i ∧ i < len + x + y) : len ≤ i := by
  omega

/-- The group that was replaced by an expression holds the shape of the
expression, on the group itself and on new groups; the other groups stay as
they are. -/
theorem holds_replaced {out : AbsExpr_Expression} {tree : AbstractExpression}
    (hden : Denotes out tree) (groups : List Group) (g : Nat) (hg : g < groups.length) :
    ∃ S2 : List Nat,
      Holds ⟨replacedGroups groups g out⟩ g (shapeOf false out) S2 ∧
      (∀ i : Nat, i ∈ S2 → i = g ∨ groups.length ≤ i) ∧
      (∀ i : Nat, i < groups.length → i ≠ g → (replacedGroups groups g out)[i]? = groups[i]?) ∧
      groups.length ≤ (replacedGroups groups g out).length := by
  cases hden with
  | leaf type cls hmarker =>
    have hshape : replacedGroups groups g
        (AbsExpr_Expression.mk ⟨some (AbstractExpression.mk type cls [])⟩ []) =
        groups.set g ⟨[⟨⟨some (AbstractExpression.mk type cls [])⟩, []⟩]⟩ := by
      simp [replacedGroups, layoutList, singleGroups]
    rw [hshape, shapeOf_leaf]
    refine ⟨[g], Holds.leaf g _ ?_, ?_, ?_, ?_⟩
    · exact List.getElem?_set_self hg
    · intro i hi
      exact Or.inl (List.mem_singleton.1 hi)
    · intro i _ hne
      exact List.getElem?_set_ne (fun h => hne h.symm)
    · rw [List.length_set]
  | binary op left right type cls l r hdefined hmarker htype hcopy hl hr =>
    obtain ⟨la, hla⟩ : ∃ la, la = layout groups.length left := ⟨_, rfl⟩
    obtain ⟨lb, hlb⟩ : ∃ lb, lb = layout (groups.length + la.length) right := ⟨_, rfl⟩
    obtain ⟨G, hG⟩ : ∃ G : Group, G = ⟨[⟨op,
        [groups.length + la.length - 1, groups.length + la.length + lb.length - 1]⟩]⟩ :=
      ⟨_, rfl⟩
    have hshape : replacedGroups groups g (AbsExpr_Expression.mk op [left, right]) =
        groups.set g G ++ singleGroups la ++ singleGroups lb := by
      rw [hG, hlb, hla, replacedGroups, layoutList_pair]
      simp only [singleGroups_append, List.append_assoc]
    rw [hshape, shapeOf_binary]
    have hlen : (groups.set g G).length = groups.length := List.length_set _ _ _
    obtain ⟨S1, ht1, hs1⟩ := holds_layout false hl (groups.set g G) (singleGroups lb)
    obtain ⟨S2, ht2, hs2⟩ := holds_layout false hr (groups.set g G ++ singleGroups la) []
    simp only [hlen, ← hla, statusGroups_single] at ht1 hs1
    simp only [List.length_append, hlen, singleGroups_length, ← hla, ← hlb,
      statusGroups_single, List.append_nil] at ht2 hs2
    refine ⟨g :: (S1 ++ S2), Holds.node g (groups.length + la.length - 1)
      (groups.length + la.length + lb.length - 1) false op _ _ S1 S2 ?_ ht1 ht2 ?_ ?_ ?_,
      ?_, ?_, ?_⟩
    · rw [entries_single, ← hG, List.append_assoc,
        List.getElem?_append_left (by rw [hlen]; exact hg)]
      exact List.getElem?_set_self hg
    · intro i h1 h2
      exact span_apart (hs1 i h1) (hs2 i h2)
    · intro h1
      have := span_new (hs1 g h1)
      omega
    · intro h2
      have := span_next (hs2 g h2)
      omega
    · intro i hi
      rw [List.mem_cons, List.mem_append] at hi
      rcases hi with h | h | h
      · exact Or.inl h
      · exact Or.inr (span_new (hs1 i h))
      · exact Or.inr (span_next (hs2 i h))
    · intro i hi hne
      rw [List.append_assoc, List.getElem?_append_left (by rw [hlen]; exact hi)]
      exact List.getElem?_set_ne (fun h => hne h.symm)
    · simp only [List.length_append, hlen]
      omega

/-- A rule whose outputs hold no group marker, applied with replacement to a
group that holds a shape: the first expression that it produces over the
bindings replaces the group. -/
theorem applies_replaced (cc : Comparability) (rule : Rule) (s : Shape)
    (bindings : List AbsExpr_Expression)
    (hpattern : rule.GetMatchPattern.type ≠ ExpressionType.GROUP_MARKER)
    (hbind : ∀ (memo : Memo) (g : Nat) (S : List Nat), Holds memo g s S →
      childBindings memo rule.GetMatchPattern g = bindings)
    (hsafe : ∀ b, b ∈ bindings →
      rule.Transform cc b [] = some [] ∨ ∃ out, rule.Transform cc b [] = some [out])
    (hden : ∀ out, firstOutput cc rule bindings = some out → ∃ tree, Denotes out tree) :
    Applies cc rule s (s.replacedBy (firstOutput cc rule bindings)) := by
  intro memo g S h
  have hB := hbind memo g S h
  have hstep := applyRuleToGroup_firstOutput cc rule g memo (by
    intro x hx b hb
    apply hsafe
    rw [← hB, ← groupBindings_eq memo _ g hpattern]
    exact List.mem_flatMap.2 ⟨x, hx, hb⟩)
  rw [groupBindings_eq memo _ g hpattern, hB] at hstep
  cases hout : firstOutput cc rule bindings with
  | none =>
    rw [hout] at hstep
    exact ⟨memo, S, hstep, h, frame_refl memo S⟩
  | some out =>
    rw [hout] at hstep
    simp only at hstep
    obtain ⟨tree, hd⟩ := hden out hout
    have hg : g < memo.groups.length := holds_lt h g (holds_root h)
    rw [replace_denoted hd memo g hg] at hstep
    obtain ⟨S2, hh, hnew, hkeep, hlen⟩ := holds_replaced hd memo.groups g hg
    refine ⟨_, S2, hstep, hh, hlen, ?_, ?_⟩
    · intro i hi hS
      exact hkeep i hi (fun he => hS (he ▸ holds_root h))
    · intro i hi
      rcases hnew i hi with h1 | h1
      · exact Or.inl (h1 ▸ holds_root h)
      · exact Or.inr h1

theorem applies_trans {cc : Comparability} {rule : Rule} {s s2 : Shape}
    (h : Applies cc rule s s2) {s3 : Shape} (heq : s2 = s3) : Applies cc rule s s3 :=
  heq ▸ h

/-! ## The bindings of a plain shape -/

theorem mem_leafBindings {s : Shape} {tag : ExpressionType} {p : AbsExpr_Expression}
    (h : p ∈ s.leafBindings tag) :
    ∃ op, s = Shape.leaf op ∧ op.GetType = tag ∧ p = AbsExpr_Expression.mk op [] := by
  cases s with
  | leaf op =>
    have hdef : (Shape.leaf op).leafBindings tag =
        if op.GetType = tag then [AbsExpr_Expression.mk op []] else [] := rfl
    rw [hdef] at h
    by_cases ht : op.GetType = tag
    · rw [if_pos ht, List.mem_singleton] at h
      exact ⟨op, rfl, ht, h⟩
    · rw [if_neg ht] at h
      exact absurd h (List.not_mem_nil _)
  | node flipped op l r => exact absurd h (List.not_mem_nil _)

/-- A leaf of a plain shape holds a plain tree without children. -/
theorem plain_leaf {op : AbsExpr_Container} (h : (Shape.leaf op).plain) :
    ∃ w : AbstractExpression, op = ⟨some w⟩ ∧ PlainTree w ∧ w.GetChildren = [] ∧
      Denotes (AbsExpr_Expression.mk ⟨some w⟩ []) w := by
  rcases h with ⟨v, hv⟩ | ⟨t, c, o, hc⟩
  · exact ⟨_, hv, PlainTree.constant v, rfl, denotes_constant v⟩
  · exact ⟨_, hc, PlainTree.column t c o, rfl, denotes_column t c o⟩

theorem plain_leaf_of {w : AbstractExpression} (hw : PlainTree w) (hkids : w.GetChildren = []) :
    (Shape.leaf ⟨some w⟩).plain := by
  rcases plainTree_cases hw with ⟨v, he⟩ | ⟨tn, cn, oid, he⟩ | ⟨type, cls, p, q, he, _, _, _⟩
  · exact Or.inl ⟨v, by rw [he]; rfl⟩
  · exact Or.inr ⟨tn, cn, oid, by rw [he]; rfl⟩
  · subst he
    simp [AbstractExpression.GetChildren] at hkids

theorem isLeafOfTag_of {w : AbstractExpression} {tag : ExpressionType}
    (hkids : w.GetChildren = []) (htag : w.GetExpressionType = tag) :
    w.isLeafOfTag tag = true := by
  obtain ⟨type, cls, children⟩ := w
  simp only [AbstractExpression.GetChildren] at hkids
  simp only [AbstractExpression.GetExpressionType] at htag
  simp [AbstractExpression.isLeafOfTag, hkids, htag]

/-- The operator of the flip of a node of a plain shape is an operator of a plain
shape. -/
theorem plain_flip (type : ExpressionType) :
    (⟨some (expression.ConjunctionExpressionOfType type)⟩ : AbsExpr_Container).IsDefined =
        true ∧
      markerOf ⟨some (expression.ConjunctionExpressionOfType type)⟩ = none :=
  ⟨rfl, rfl⟩

/-- What the pattern of an operator over two leaves binds at a plain shape: the
operator of the node or of its flip over two plain leaves of the tags of the
pattern. -/
theorem mem_pairBindings {s : Shape} (hs : s.plain) {tag t1 t2 : ExpressionType}
    {x : AbsExpr_Expression} (hx : x ∈ s.pairBindings tag t1 t2) :
    ∃ (op : AbsExpr_Container) (w1 w2 : AbstractExpression),
      x = AbsExpr_Expression.mk op
        [AbsExpr_Expression.mk ⟨some w1⟩ [], AbsExpr_Expression.mk ⟨some w2⟩ []] ∧
      op.GetType = tag ∧ op.IsDefined = true ∧ markerOf op = none ∧
      op.GetType ∈ comparisonTags ++ conjunctionTags ++ operatorTags ∧
      w1.isLeafOfTag t1 = true ∧ w2.isLeafOfTag t2 = true ∧ PlainTree w1 ∧ PlainTree w2 := by
  cases s with
  | leaf op => exact absurd hx (List.not_mem_nil _)
  | node flipped op l r =>
    obtain ⟨hdef, hmark, htags, hl, hr⟩ := hs
    have hpair : ∀ (op2 : AbsExpr_Container) (a b : Shape), a.plain → b.plain →
        op2.GetType = tag → op2.IsDefined = true → markerOf op2 = none →
        op2.GetType ∈ comparisonTags ++ conjunctionTags ++ operatorTags →
        (x ∈ (a.leafBindings t1).flatMap fun p =>
          (b.leafBindings t2).map fun q => AbsExpr_Expression.mk op2 [p, q]) →
        ∃ (op : AbsExpr_Container) (w1 w2 : AbstractExpression),
          x = AbsExpr_Expression.mk op
            [AbsExpr_Expression.mk ⟨some w1⟩ [], AbsExpr_Expression.mk ⟨some w2⟩ []] ∧
          op.GetType = tag ∧ op.IsDefined = true ∧ markerOf op = none ∧
          op.GetType ∈ comparisonTags ++ conjunctionTags ++ operatorTags ∧
          w1.isLeafOfTag t1 = true ∧ w2.isLeafOfTag t2 = true ∧ PlainTree w1 ∧
          PlainTree w2 := by
      intro op2 a b ha hb htag hd hm hmem hin
      rw [List.mem_flatMap] at hin
      obtain ⟨p, hp, hin2⟩ := hin
      rw [List.mem_map] at hin2
      obtain ⟨q, hq, hxeq⟩ := hin2
      obtain ⟨opa, hsa, hta, hpa⟩ := mem_leafBindings hp
      obtain ⟨opb, hsb, htb, hqb⟩ := mem_leafBindings hq
      subst hsa
      subst hsb
      obtain ⟨w1, hw1, hp1, hk1, _⟩ := plain_leaf ha
      obtain ⟨w2, hw2, hp2, hk2, _⟩ := plain_leaf hb
      subst hw1
      subst hw2
      refine ⟨op2, w1, w2, ?_, htag, hd, hm, hmem, isLeafOfTag_of hk1 hta,
        isLeafOfTag_of hk2 htb, hp1, hp2⟩
      rw [← hxeq, hpa, hqb]
    rw [pairBindings_node, List.mem_append] at hx
    rcases hx with h | h
    · by_cases ht : op.GetType = tag
      · rw [if_pos ht] at h
        exact hpair op l r hl hr ht hdef hmark htags h
      · rw [if_neg ht] at h
        exact absurd h (List.not_mem_nil _)
    · by_cases ht : flipped = true ∧ op.GetType ∈ equivalentTags ∧ op.GetType = tag
      · rw [if_pos ht] at h
        exact hpair _ r l hr hl ((getType_conjunctionOfType _).trans ht.2.2) rfl rfl
          (by rw [getType_conjunctionOfType]; exact htags) h
      · rw [if_neg ht] at h
        exact absurd h (List.not_mem_nil _)

/-- What the pattern `AND(Equal(t1, t2), Equal(t3, t4))` binds at a plain shape:
the operator of the node or of its flip over a binding of each of the two
children, which are plain. -/
theorem mem_andBindings {s : Shape} (hs : s.plain) {t1 t2 t3 t4 : ExpressionType}
    {x : AbsExpr_Expression} (hx : x ∈ s.andBindings t1 t2 t3 t4) :
    ∃ (op : AbsExpr_Container) (a b : Shape) (p q : AbsExpr_Expression),
      x = AbsExpr_Expression.mk op [p, q] ∧
      op.GetType = ExpressionType.CONJUNCTION_AND ∧ op.IsDefined = true ∧
      markerOf op = none ∧ a.plain ∧ b.plain ∧
      p ∈ a.pairBindings ExpressionType.COMPARE_EQUAL t1 t2 ∧
      q ∈ b.pairBindings ExpressionType.COMPARE_EQUAL t3 t4 := by
  cases s with
  | leaf op => exact absurd hx (List.not_mem_nil _)
  | node flipped op l r =>
    obtain ⟨hdef, hmark, htags, hl, hr⟩ := hs
    rw [andBindings_node, List.mem_append] at hx
    rcases hx with h | h
    · by_cases ht : op.GetType = ExpressionType.CONJUNCTION_AND
      · rw [if_pos ht, List.mem_flatMap] at h
        obtain ⟨p, hp, h2⟩ := h
        rw [List.mem_map] at h2
        obtain ⟨q, hq, hxeq⟩ := h2
        exact ⟨op, l, r, p, q, hxeq.symm, ht, hdef, hmark, hl, hr, hp, hq⟩
      · rw [if_neg ht] at h
        exact absurd h (List.not_mem_nil _)
    · by_cases ht : flipped = true ∧ op.GetType ∈ equivalentTags ∧
          op.GetType = ExpressionType.CONJUNCTION_AND
      · rw [if_pos ht, List.mem_flatMap] at h
        obtain ⟨p, hp, h2⟩ := h
        rw [List.mem_map] at h2
        obtain ⟨q, hq, hxeq⟩ := h2
        exact ⟨_, r, l, p, q, hxeq.symm, (getType_conjunctionOfType _).trans ht.2.2, rfl, rfl,
          hr, hl, hp, hq⟩
      · rw [if_neg ht] at h
        exact absurd h (List.not_mem_nil _)

/-! ## The shapes of the expressions that the rules produce -/

theorem plain_constant (value : Value) :
    (shapeOf false (constantExpr value)).plain := by
  have h : constantExpr value =
      AbsExpr_Expression.mk ⟨some (expression.ConstantValueExpression value)⟩ [] := rfl
  rw [h, shapeOf_leaf]
  exact Or.inl ⟨value, rfl⟩

theorem plain_pair (flipped : Bool) (op : AbsExpr_Container) (w1 w2 : AbstractExpression)
    (hdef : op.IsDefined = true) (hmark : markerOf op = none)
    (htags : op.GetType ∈ comparisonTags ++ conjunctionTags ++ operatorTags)
    (h1 : PlainTree w1) (h2 : PlainTree w2) (k1 : w1.GetChildren = [])
    (k2 : w2.GetChildren = []) :
    (shapeOf flipped (AbsExpr_Expression.mk op
      [AbsExpr_Expression.mk ⟨some w1⟩ [], AbsExpr_Expression.mk ⟨some w2⟩ []])).plain := by
  rw [shapeOf_binary, shapeOf_leaf, shapeOf_leaf]
  exact ⟨hdef, hmark, htags, plain_leaf_of h1 k1, plain_leaf_of h2 k2⟩

/-- The copy of an operator of tag `=` over two children. -/
theorem copy_equal (op : AbsExpr_Container) (h : op.GetType = ExpressionType.COMPARE_EQUAL)
    (l r : AbstractExpression) :
    op.CopyWithChildren [l, r] =
      some (AbstractExpression.mk ExpressionType.COMPARE_EQUAL ExprClass.ComparisonExpression
        [l, r]) := by
  unfold AbsExpr_Container.CopyWithChildren
  rw [h]
  rfl

/-- The copy of an operator of tag `AND` over two children. -/
theorem copy_and (op : AbsExpr_Container) (h : op.GetType = ExpressionType.CONJUNCTION_AND)
    (l r : AbstractExpression) :
    op.CopyWithChildren [l, r] =
      some (AbstractExpression.mk ExpressionType.CONJUNCTION_AND
        ExprClass.ConjunctionExpression [l, r]) := by
  unfold AbsExpr_Container.CopyWithChildren
  rw [h]
  rfl

theorem denotes_pair (op : AbsExpr_Container) (w1 w2 : AbstractExpression)
    (hdef : op.IsDefined = true) (hmark : markerOf op = none)
    (htype : op.GetType = ExpressionType.COMPARE_EQUAL)
    (h1 : PlainTree w1) (h2 : PlainTree w2) {t1 t2 : ExpressionType}
    (l1 : w1.isLeafOfTag t1 = true) (l2 : w2.isLeafOfTag t2 = true) :
    Denotes (AbsExpr_Expression.mk op
        [AbsExpr_Expression.mk ⟨some w1⟩ [], AbsExpr_Expression.mk ⟨some w2⟩ []])
      (AbstractExpression.mk ExpressionType.COMPARE_EQUAL ExprClass.ComparisonExpression
        [w1, w2]) :=
  Denotes.binary op _ _ _ _ w1 w2 hdef hmark htype (copy_equal op htype w1 w2)
    (denotes_plainLeaf h1 l1) (denotes_plainLeaf h2 l2)

/-! ## The rules of a rule set at a group that holds a shape -/

/-- The rules of a rule set, applied one after the other to a group that holds a
plain shape. -/
theorem optimizes_fold (cc : Comparability) (name : RewriteRuleSetName)
    (f : Shape → Rule → Shape)
    (hstep : ∀ r, r ∈ ConstructValidRules
        (RuleSet.forExpressions.GetRewriteRulesByName name) →
      ∀ s : Shape, s.plain → Applies cc r.rule s (f s r.rule) ∧ (f s r.rule).plain) :
    ∀ s : Shape, s.plain →
      Optimizes cc name s ((ConstructValidRules
        (RuleSet.forExpressions.GetRewriteRulesByName name)).foldl
          (fun s r => f s r.rule) s) ∧
      ((ConstructValidRules (RuleSet.forExpressions.GetRewriteRulesByName name)).foldl
        (fun s r => f s r.rule) s).plain := by
  have key : ∀ (rs : List RuleWithPromise),
      (∀ r, r ∈ rs → ∀ s : Shape, s.plain →
        Applies cc r.rule s (f s r.rule) ∧ (f s r.rule).plain) →
      ∀ (s : Shape) (memo : Memo) (g : Nat) (S : List Nat), s.plain → Holds memo g s S →
        (rs.foldl (fun s r => f s r.rule) s).plain ∧
        ∃ (after : Memo) (S2 : List Nat),
          foldlAbort (fun memo r => applyRuleToGroup cc true g memo r.rule) memo rs =
            some after ∧
          Holds after g (rs.foldl (fun s r => f s r.rule) s) S2 ∧ Frame memo after S S2 := by
    intro rs
    induction rs with
    | nil =>
      intro _ s memo g S hp h
      exact ⟨hp, memo, S, rfl, h, frame_refl memo S⟩
    | cons r rest ih =>
      intro hrs s memo g S hp h
      obtain ⟨happ, hp1⟩ := hrs r (List.mem_cons_self _ _) s hp
      obtain ⟨m1, S1, h1, hh1, hf1⟩ := happ memo g S h
      obtain ⟨hp2, m2, S2, h2, hh2, hf2⟩ :=
        ih (fun x hx => hrs x (List.mem_cons_of_mem _ hx)) (f s r.rule) m1 g S1 hp1 hh1
      refine ⟨hp2, m2, S2, ?_, hh2, frame_trans hf1 hf2⟩
      rw [foldlAbort_cons, h1]
      exact h2
  have keyPlain : ∀ (rs : List RuleWithPromise),
      (∀ r, r ∈ rs → ∀ s : Shape, s.plain →
        Applies cc r.rule s (f s r.rule) ∧ (f s r.rule).plain) →
      ∀ s : Shape, s.plain → (rs.foldl (fun s r => f s r.rule) s).plain := by
    intro rs
    induction rs with
    | nil => intro _ s hp; exact hp
    | cons r rest ih =>
      intro hrs s hp
      exact ih (fun x hx => hrs x (List.mem_cons_of_mem _ hx)) _
        (hrs r (List.mem_cons_self _ _) s hp).2
  intro s hp
  refine ⟨?_, keyPlain _ hstep s hp⟩
  intro memo g S h
  obtain ⟨_, after, S2, hfold, hh, hf⟩ := key _ hstep s memo g S hp h
  refine ⟨after, S2, ?_, hh, hf⟩
  unfold OptimizeCurrentGroup
  simp only
  rw [hfold]

/-! ## The comparison elimination rules -/

theorem transform_incomparable (cc : Comparability) (rule : RuleType)
    (input l r : AbsExpr_Expression) (lv rv : Value) (transformed : List AbsExpr_Expression)
    (hchildren : input.Children = [l, r])
    (hl : expression.asConstantValue l.Op.GetExpr = some lv)
    (hr : expression.asConstantValue r.Op.GetExpr = some rv)
    (hcc : cc lv rv = false) :
    ComparatorElimination.Transform cc rule input transformed = some transformed := by
  unfold ComparatorElimination.Transform
  rw [hchildren]
  simp only [hl, hr, hcc]
  rfl

/-- What a comparison elimination rule produces at a binding of its pattern at a
plain shape: nothing, or one constant. -/
theorem comparator_output (cc : Comparability) (rule : RuleType) (root : ExpressionType)
    (hcmp : ∀ l r : Value, ∃ c, ComparatorElimination.compare rule l r = some c)
    {s : Shape} (hs : s.plain) {b : AbsExpr_Expression}
    (hb : b ∈ s.pairBindings root ExpressionType.VALUE_CONSTANT
      ExpressionType.VALUE_CONSTANT) :
    (Rule.ComparatorElimination rule root).Transform cc b [] = some [] ∨
    ∃ value, (Rule.ComparatorElimination rule root).Transform cc b [] =
      some [constantExpr value] := by
  obtain ⟨op, w1, w2, hx, _, _, _, _, l1, l2, p1, p2⟩ := mem_pairBindings hs hb
  obtain ⟨v1, hv1⟩ := plainTree_constant p1 (isLeafOfTag_type l1)
  obtain ⟨v2, hv2⟩ := plainTree_constant p2 (isLeafOfTag_type l2)
  subst hv1
  subst hv2
  have hrule : (Rule.ComparatorElimination rule root).Transform cc b [] =
      ComparatorElimination.Transform cc rule b [] := rfl
  rw [hrule, hx]
  cases hcc : cc v1 v2 with
  | false =>
    left
    exact transform_incomparable cc rule
      (AbsExpr_Expression.mk op
        [AbsExpr_Expression.mk ⟨some (expression.ConstantValueExpression v1)⟩ [],
          AbsExpr_Expression.mk ⟨some (expression.ConstantValueExpression v2)⟩ []])
      (AbsExpr_Expression.mk ⟨some (expression.ConstantValueExpression v1)⟩ [])
      (AbsExpr_Expression.mk ⟨some (expression.ConstantValueExpression v2)⟩ [])
      v1 v2 [] rfl rfl rfl hcc
  | true =>
    right
    obtain ⟨c, hc⟩ := hcmp v1 v2
    refine ⟨ValueFactory.GetBooleanValue c, ?_⟩
    rw [transform_comparable cc rule
      (AbsExpr_Expression.mk op
        [AbsExpr_Expression.mk ⟨some (expression.ConstantValueExpression v1)⟩ [],
          AbsExpr_Expression.mk ⟨some (expression.ConstantValueExpression v2)⟩ []])
      (AbsExpr_Expression.mk ⟨some (expression.ConstantValueExpression v1)⟩ [])
      (AbsExpr_Expression.mk ⟨some (expression.ConstantValueExpression v2)⟩ [])
      v1 v2 [] rfl rfl rfl hcc, hc]
    rfl

/-- A comparison elimination rule at a group that holds a plain shape. -/
theorem comparator_applies (cc : Comparability) (rule : RuleType) (root : ExpressionType)
    (hcmp : ∀ l r : Value, ∃ c, ComparatorElimination.compare rule l r = some c)
    (hroot : root ≠ ExpressionType.GROUP_MARKER) (s : Shape) (hs : s.plain) :
    Applies cc (Rule.ComparatorElimination rule root) s
      (s.replacedBy (firstOutput cc (Rule.ComparatorElimination rule root)
        (s.pairBindings (Rule.ComparatorElimination rule root).GetMatchPattern.type
          ExpressionType.VALUE_CONSTANT ExpressionType.VALUE_CONSTANT))) ∧
    (s.replacedBy (firstOutput cc (Rule.ComparatorElimination rule root)
        (s.pairBindings (Rule.ComparatorElimination rule root).GetMatchPattern.type
          ExpressionType.VALUE_CONSTANT ExpressionType.VALUE_CONSTANT))).plain := by
  have hpat : (Rule.ComparatorElimination rule root).GetMatchPattern =
      Pattern.mk root [Pattern.leaf ExpressionType.VALUE_CONSTANT,
        Pattern.leaf ExpressionType.VALUE_CONSTANT] := rfl
  have htype : (Rule.ComparatorElimination rule root).GetMatchPattern.type = root := rfl
  rw [htype]
  have hout : ∀ out, firstOutput cc (Rule.ComparatorElimination rule root)
      (s.pairBindings root ExpressionType.VALUE_CONSTANT ExpressionType.VALUE_CONSTANT) =
        some out → ∃ value, out = constantExpr value := by
    intro out ho
    obtain ⟨x, rest, hx, hT⟩ := firstOutput_some cc _ _ out ho
    rcases comparator_output cc rule root hcmp hs hx with h | ⟨value, h⟩
    · rw [h] at hT
      simp at hT
    · rw [h] at hT
      simp only [Option.some.injEq, List.cons.injEq] at hT
      exact ⟨value, hT.1.symm⟩
  refine ⟨applies_replaced cc _ s _ (by rw [htype]; exact hroot) ?_ ?_ ?_, ?_⟩
  · intro memo g S h
    rw [hpat]
    exact childBindings_pairBindings h root _ _ hroot (by decide) (by decide)
  · intro b hb
    rcases comparator_output cc rule root hcmp hs hb with h | ⟨value, h⟩
    · exact Or.inl h
    · exact Or.inr ⟨_, h⟩
  · intro out ho
    obtain ⟨value, hv⟩ := hout out ho
    rw [hv]
    exact ⟨_, denotes_constant value⟩
  · cases ho : firstOutput cc (Rule.ComparatorElimination rule root)
        (s.pairBindings root ExpressionType.VALUE_CONSTANT ExpressionType.VALUE_CONSTANT) with
    | none => exact hs
    | some out =>
      obtain ⟨value, hv⟩ := hout out ho
      rw [hv]
      exact plain_constant value

theorem compare_lessEqual (l r : Value) :
    ∃ c, ComparatorElimination.compare RuleType.CONSTANT_COMPARE_LESSTHANOREQUALTO l r =
      some c := by
  unfold ComparatorElimination.compare
  simp only
  by_cases h : l.CompareGreaterThan r ≠ CmpBool.NULL_
  · rw [if_pos h]
    exact ⟨_, rfl⟩
  · rw [if_neg h]
    exact ⟨_, rfl⟩

/-- The comparison elimination rules at a group that holds a plain shape. -/
theorem optimizes_comparator (cc : Comparability) (s : Shape) (hs : s.plain) :
    Optimizes cc RewriteRuleSetName.COMPARATOR_ELIMINATION s (s.comparatorStep cc) ∧
      (s.comparatorStep cc).plain := by
  unfold Shape.comparatorStep
  refine optimizes_fold cc RewriteRuleSetName.COMPARATOR_ELIMINATION
    (fun s rule => s.replacedBy (firstOutput cc rule
      (s.pairBindings rule.GetMatchPattern.type ExpressionType.VALUE_CONSTANT
        ExpressionType.VALUE_CONSTANT))) ?_ s hs
  intro r hr
  rw [validRules_comparator] at hr
  simp only [List.mem_cons, List.mem_singleton, List.not_mem_nil, or_false] at hr
  rcases hr with h | h | h | h | h | h <;> rw [h] <;>
    first
    | exact comparator_applies cc _ _ (fun l r => ⟨_, rfl⟩) (by decide)
    | exact comparator_applies cc _ _ compare_lessEqual (by decide)

/-! ## The transitive rules at a group that holds a shape -/

/-- The form of a binding of `AND(Equal(t1, t2), Equal(t3, t4))` at a plain
shape. -/
theorem andBindings_form {s : Shape} (hs : s.plain) {t1 t2 t3 t4 : ExpressionType}
    {x : AbsExpr_Expression} (hx : x ∈ s.andBindings t1 t2 t3 t4) :
    ∃ (op op1 op2 : AbsExpr_Container) (w1 w2 w3 w4 : AbstractExpression),
      x = andOfEquals op op1 op2 w1 w2 w3 w4 ∧
      (op.GetType = ExpressionType.CONJUNCTION_AND ∧ op.IsDefined = true ∧
        markerOf op = none) ∧
      (op1.GetType = ExpressionType.COMPARE_EQUAL ∧ op1.IsDefined = true ∧
        markerOf op1 = none) ∧
      (op2.GetType = ExpressionType.COMPARE_EQUAL ∧ op2.IsDefined = true ∧
        markerOf op2 = none) ∧
      (w1.isLeafOfTag t1 = true ∧ PlainTree w1) ∧ (w2.isLeafOfTag t2 = true ∧ PlainTree w2) ∧
      (w3.isLeafOfTag t3 = true ∧ PlainTree w3) ∧ (w4.isLeafOfTag t4 = true ∧ PlainTree w4) := by
  obtain ⟨op, a, b, p, q, hxeq, hand, hdef, hmark, ha, hb, hp, hq⟩ := mem_andBindings hs hx
  obtain ⟨op1, w1, w2, e1, ht1, hd1, hm1, _, l1, l2, p1, p2⟩ := mem_pairBindings ha hp
  obtain ⟨op2, w3, w4, e2, ht2, hd2, hm2, _, l3, l4, p3, p4⟩ := mem_pairBindings hb hq
  refine ⟨op, op1, op2, w1, w2, w3, w4, ?_, ⟨hand, hdef, hmark⟩, ⟨ht1, hd1, hm1⟩,
    ⟨ht2, hd2, hm2⟩, ⟨l1, p1⟩, ⟨l2, p2⟩, ⟨l3, p3⟩, ⟨l4, p4⟩⟩
  rw [hxeq, e1, e2]
  rfl

theorem equal_mem_tags (op : AbsExpr_Container)
    (h : op.GetType = ExpressionType.COMPARE_EQUAL) :
    op.GetType ∈ comparisonTags ++ conjunctionTags ++ operatorTags := by
  rw [h]; decide

theorem and_mem_tags (op : AbsExpr_Container)
    (h : op.GetType = ExpressionType.CONJUNCTION_AND) :
    op.GetType ∈ comparisonTags ++ conjunctionTags ++ operatorTags := by
  rw [h]; decide

/-- An equality of two plain leaves that a rule produces: it denotes a tree, and
its shape is plain. -/
theorem output_pair (op : AbsExpr_Container) (w1 w2 : AbstractExpression)
    (hop : op.GetType = ExpressionType.COMPARE_EQUAL ∧ op.IsDefined = true ∧
      markerOf op = none) {t1 t2 : ExpressionType}
    (h1 : w1.isLeafOfTag t1 = true ∧ PlainTree w1)
    (h2 : w2.isLeafOfTag t2 = true ∧ PlainTree w2) :
    Denotes (AbsExpr_Expression.mk op
        [AbsExpr_Expression.mk ⟨some w1⟩ [], AbsExpr_Expression.mk ⟨some w2⟩ []])
      (AbstractExpression.mk ExpressionType.COMPARE_EQUAL ExprClass.ComparisonExpression
        [w1, w2]) ∧
    (shapeOf false (AbsExpr_Expression.mk op
        [AbsExpr_Expression.mk ⟨some w1⟩ [], AbsExpr_Expression.mk ⟨some w2⟩ []])).plain :=
  ⟨denotes_pair op w1 w2 hop.2.1 hop.2.2 hop.1 h1.2 h2.2 h1.1 h2.1,
    plain_pair false op w1 w2 hop.2.1 hop.2.2 (equal_mem_tags op hop.1) h1.2 h2.2
      (isLeafOfTag_children h1.1) (isLeafOfTag_children h2.1)⟩

/-- What `TVEqualityWithTwoCVTransform` produces at a binding of its pattern at a
plain shape: nothing, or one expression that denotes a tree and has a plain
shape. -/
theorem tv_output (cc : Comparability) {s : Shape} (hs : s.plain) {x : AbsExpr_Expression}
    (hx : x ∈ s.andBindings ExpressionType.VALUE_TUPLE ExpressionType.VALUE_CONSTANT
      ExpressionType.VALUE_TUPLE ExpressionType.VALUE_CONSTANT) :
    Rule.TVEqualityWithTwoCVTransform.Transform cc x [] = some [] ∨
    ∃ out, Rule.TVEqualityWithTwoCVTransform.Transform cc x [] = some [out] ∧
      (∃ tree, Denotes out tree) ∧ (shapeOf false out).plain := by
  obtain ⟨op, op1, op2, w1, w2, w3, w4, hshape, hop, hop1, hop2, h1, h2, h3, h4⟩ :=
    andBindings_form hs hx
  obtain ⟨v2, hv2⟩ := plainTree_constant h2.2 (isLeafOfTag_type h2.1)
  obtain ⟨v4, hv4⟩ := plainTree_constant h4.2 (isLeafOfTag_type h4.1)
  subst hv2
  subst hv4
  have hrule : Rule.TVEqualityWithTwoCVTransform.Transform cc x [] =
      TVEqualityWithTwoCVTransform.Transform cc x [] := rfl
  rw [hrule, hshape, tvEquality_unfold cc op op1 op2 w1 w3 v2 v4 [] hop.1 hop1.1 hop2.1
    (isLeafOfTag_type h1.1) (isLeafOfTag_type h3.1)]
  by_cases hcond : w1.ExactlyEquals w3 = true ∧ cc v2 v4 = true
  · rw [if_pos hcond]
    by_cases heq : v2.CompareEquals v4 = CmpBool.CmpTrue
    · rw [if_pos heq]
      have hout := output_pair
        ⟨some (expression.ComparisonExpression ExpressionType.COMPARE_EQUAL none none)⟩ w1
        (expression.ConstantValueExpression v2) ⟨rfl, rfl, rfl⟩ h1 h2
      exact Or.inr ⟨_, rfl, ⟨_, hout.1⟩, hout.2⟩
    · rw [if_neg heq]
      exact Or.inr ⟨_, rfl, ⟨_, denotes_constant _⟩, plain_constant _⟩
  · rw [if_neg hcond]
    exact Or.inl rfl

/-- What `TransitiveClosureConstantTransform` produces at a binding of its
pattern at a plain shape: nothing, or one expression that denotes a tree and
has a plain shape. -/
theorem tc_output (cc : Comparability) {s : Shape} (hs : s.plain) {x : AbsExpr_Expression}
    (hx : x ∈ s.andBindings ExpressionType.VALUE_TUPLE ExpressionType.VALUE_CONSTANT
      ExpressionType.VALUE_TUPLE ExpressionType.VALUE_TUPLE) :
    Rule.TransitiveClosureConstantTransform.Transform cc x [] = some [] ∨
    ∃ out, Rule.TransitiveClosureConstantTransform.Transform cc x [] = some [out] ∧
      (∃ tree, Denotes out tree) ∧ (shapeOf false out).plain := by
  obtain ⟨op, op1, op2, w1, w2, w3, w4, hshape, hop, hop1, hop2, h1, h2, h3, h4⟩ :=
    andBindings_form hs hx
  have hrule : Rule.TransitiveClosureConstantTransform.Transform cc x [] =
      TransitiveClosureConstantTransform.Transform x [] := rfl
  rw [hrule, hshape, transitiveClosure_unfold op op1 op2 w1 w2 w3 w4 [] hop.1 hop1.1 hop2.1
    (isLeafOfTag_type h1.1) (isLeafOfTag_type h2.1) (isLeafOfTag_type h3.1)
    (isLeafOfTag_type h4.1)]
  have hleft := output_pair op1 w1 w2 hop1 h1 h2
  have hconj : ∀ (u v : AbstractExpression) (tu tv : ExpressionType),
      (u.isLeafOfTag tu = true ∧ PlainTree u) → (v.isLeafOfTag tv = true ∧ PlainTree v) →
      (∃ tree, Denotes (AbsExpr_Expression.mk op
        [AbsExpr_Expression.mk op1
          [AbsExpr_Expression.mk ⟨some w1⟩ [], AbsExpr_Expression.mk ⟨some w2⟩ []],
         AbsExpr_Expression.mk op2
          [AbsExpr_Expression.mk ⟨some u⟩ [], AbsExpr_Expression.mk ⟨some v⟩ []]]) tree) ∧
      (shapeOf false (AbsExpr_Expression.mk op
        [AbsExpr_Expression.mk op1
          [AbsExpr_Expression.mk ⟨some w1⟩ [], AbsExpr_Expression.mk ⟨some w2⟩ []],
         AbsExpr_Expression.mk op2
          [AbsExpr_Expression.mk ⟨some u⟩ [], AbsExpr_Expression.mk ⟨some v⟩ []]])).plain := by
    intro u v tu tv hu hv
    have hright := output_pair op2 u v hop2 hu hv
    refine ⟨⟨_, Denotes.binary op _ _ _ _ _ _ hop.2.1 hop.2.2 hop.1 (copy_and op hop.1 _ _)
      hleft.1 hright.1⟩, ?_⟩
    rw [shapeOf_binary]
    exact ⟨hop.2.1, hop.2.2, and_mem_tags op hop.1, hleft.2, hright.2⟩
  by_cases c1 : w3.ExactlyEquals w4 = true
  · rw [if_pos c1]
    exact Or.inr ⟨_, rfl, ⟨_, hleft.1⟩, hleft.2⟩
  · rw [if_neg c1]
    by_cases c2 : (!(w1.ExactlyEquals w3) && !(w1.ExactlyEquals w4)) = true
    · rw [if_pos c2]
      exact Or.inl rfl
    · rw [if_neg c2]
      by_cases c3 : w1.ExactlyEquals w3 = true
      · rw [if_pos c3]
        exact Or.inr ⟨_, rfl, hconj w2 w4 _ _ h2 h4⟩
      · rw [if_neg c3]
        exact Or.inr ⟨_, rfl, hconj w3 w2 _ _ h3 h2⟩

/-- A rule with the pattern `AND(Equal(t1, t2), Equal(t3, t4))` whose outputs
denote trees of plain shape, at a group that holds a plain shape. -/
theorem and_rule_applies (cc : Comparability) (rule : Rule) (t1 t2 t3 t4 : ExpressionType)
    (hpat : rule.GetMatchPattern = andOfEqualsPattern t1 t2 t3 t4)
    (h1 : t1 ≠ ExpressionType.GROUP_MARKER) (h2 : t2 ≠ ExpressionType.GROUP_MARKER)
    (h3 : t3 ≠ ExpressionType.GROUP_MARKER) (h4 : t4 ≠ ExpressionType.GROUP_MARKER)
    (s : Shape)
    (hout : ∀ x, x ∈ s.andBindings t1 t2 t3 t4 →
      rule.Transform cc x [] = some [] ∨
      ∃ out, rule.Transform cc x [] = some [out] ∧
        (∃ tree, Denotes out tree) ∧ (shapeOf false out).plain)
    (hs : s.plain) :
    Applies cc rule s (s.replacedBy (firstOutput cc rule (s.andBindings t1 t2 t3 t4))) ∧
      (s.replacedBy (firstOutput cc rule (s.andBindings t1 t2 t3 t4))).plain := by
  have hfirst : ∀ out, firstOutput cc rule (s.andBindings t1 t2 t3 t4) = some out →
      (∃ tree, Denotes out tree) ∧ (shapeOf false out).plain := by
    intro out ho
    obtain ⟨x, rest, hx, hT⟩ := firstOutput_some cc _ _ out ho
    rcases hout x hx with h | ⟨o, h, hd, hp⟩
    · rw [h] at hT
      simp at hT
    · rw [h] at hT
      simp only [Option.some.injEq, List.cons.injEq] at hT
      rw [← hT.1]
      exact ⟨hd, hp⟩
  have htype : (andOfEqualsPattern t1 t2 t3 t4).type = ExpressionType.CONJUNCTION_AND := rfl
  refine ⟨applies_replaced cc rule s _ (by rw [hpat, htype]; decide) ?_ ?_ ?_, ?_⟩
  · intro memo g S h
    rw [hpat]
    exact childBindings_andBindings h t1 t2 t3 t4 h1 h2 h3 h4
  · intro b hb
    rcases hout b hb with h | ⟨o, h, _, _⟩
    · exact Or.inl h
    · exact Or.inr ⟨o, h⟩
  · intro out ho
    exact (hfirst out ho).1
  · cases ho : firstOutput cc rule (s.andBindings t1 t2 t3 t4) with
    | none => exact hs
    | some out => exact (hfirst out ho).2

/-- Two rules of a rule set, applied one after the other to a group. -/
theorem optimizes_two (cc : Comparability) (name : RewriteRuleSetName) (r1 r2 : Rule)
    (p1 p2 : Int)
    (hvalid : ConstructValidRules (RuleSet.forExpressions.GetRewriteRulesByName name) =
      [⟨r1, p1⟩, ⟨r2, p2⟩])
    {s s1 s2 : Shape} (h1 : Applies cc r1 s s1) (h2 : Applies cc r2 s1 s2) :
    Optimizes cc name s s2 := by
  intro memo g S h
  obtain ⟨m1, S1, e1, hh1, hf1⟩ := h1 memo g S h
  obtain ⟨m2, S2, e2, hh2, hf2⟩ := h2 m1 g S1 hh1
  refine ⟨m2, S2, ?_, hh2, frame_trans hf1 hf2⟩
  unfold OptimizeCurrentGroup
  simp only
  rw [hvalid]
  simp only [foldlAbort_cons, foldlAbort_nil]
  rw [e1]
  simp only [Option.bind]
  rw [e2]

/-- The transitive rules at a group that holds a plain shape. -/
theorem optimizes_transitive (cc : Comparability) (s : Shape) (hs : s.plain) :
    Optimizes cc RewriteRuleSetName.TRANSITIVE_TRANSFORM s (s.transitiveStep cc) ∧
      (s.transitiveStep cc).plain := by
  have hne1 : ExpressionType.VALUE_TUPLE ≠ ExpressionType.GROUP_MARKER := by decide
  have hne2 : ExpressionType.VALUE_CONSTANT ≠ ExpressionType.GROUP_MARKER := by decide
  obtain ⟨a1, p1⟩ := and_rule_applies cc Rule.TVEqualityWithTwoCVTransform _ _ _ _ rfl
    hne1 hne2 hne1 hne2 s (fun x hx => tv_output cc hs hx) hs
  obtain ⟨a2, p2⟩ := and_rule_applies cc Rule.TransitiveClosureConstantTransform _ _ _ _ rfl
    hne1 hne2 hne1 hne1 _ (fun x hx => tc_output cc p1 hx) p1
  exact ⟨optimizes_two cc _ _ _ _ _ validRules_transitive a1 a2, p2⟩

/-! ## The short-circuit rules at a group that holds a shape -/

theorem replace_by_marker (memo : Memo) (g c : Nat) (hg : g < memo.groups.length) :
    memo.ReplaceGroupExpression g (groupMarkerLeaf c) =
      ⟨memo.groups.set g ⟨(memo.GetGroupByID c).logical_expressions.take 1⟩⟩ := by
  have hlook : memo.groups[g]? = some memo.groups[g] := List.getElem?_eq_getElem hg
  have hmark : Memo.markedGroup (groupMarkerLeaf c) = some c := rfl
  unfold Memo.ReplaceGroupExpression
  rw [hmark]
  simp only
  unfold Memo.setGroup
  rw [modify_of_lookup _ _ _ _ hlook]

/-- The group that was replaced by the marker of a group that holds a shape holds
the copy of the shape, on the group itself and the groups of the children. -/
theorem holds_marker {memo : Memo} {g c : Nat} {y : Shape} {Sy : List Nat}
    (hy : Holds memo c y Sy) (hg : g < memo.groups.length) (hgy : g ∉ Sy) :
    ∃ S2 : List Nat,
      Holds (memo.ReplaceGroupExpression g (groupMarkerLeaf c)) g y.copied S2 ∧
      (∀ i : Nat, i ∈ S2 → i = g ∨ i ∈ Sy) ∧
      (∀ i : Nat, i ≠ g →
        (memo.ReplaceGroupExpression g (groupMarkerLeaf c)).groups[i]? = memo.groups[i]?) ∧
      (memo.ReplaceGroupExpression g (groupMarkerLeaf c)).groups.length =
        memo.groups.length := by
  rw [replace_by_marker memo g c hg]
  have hkeep : ∀ (G : Group) (i : Nat), i ≠ g → (memo.groups.set g G)[i]? = memo.groups[i]? :=
    fun G i hne => List.getElem?_set_ne (fun h => hne h.symm)
  cases hy with
  | leaf _ op hmemo =>
    have hgroup : memo.GetGroupByID c = ⟨[⟨op, []⟩]⟩ := by
      unfold Memo.GetGroupByID
      rw [hmemo]
      rfl
    rw [hgroup]
    refine ⟨[g], Holds.leaf g op (List.getElem?_set_self hg), ?_, hkeep _, List.length_set _ _ _⟩
    intro i hi
    exact Or.inl (List.mem_singleton.1 hi)
  | node _ d1 d2 flipped op l r S1 S2 hmemo hl hr hapart hg1 hg2 =>
    have hgroup : memo.GetGroupByID c = ⟨Shape.entries flipped op d1 d2⟩ := by
      unfold Memo.GetGroupByID
      rw [hmemo]
      rfl
    have htake : (Shape.entries flipped op d1 d2).take 1 = Shape.entries false op d1 d2 := rfl
    rw [hgroup]
    simp only [htake]
    have hin1 : g ∉ S1 := fun h => hgy (List.mem_cons_of_mem _ (List.mem_append_left _ h))
    have hin2 : g ∉ S2 := fun h => hgy (List.mem_cons_of_mem _ (List.mem_append_right _ h))
    refine ⟨g :: (S1 ++ S2), Holds.node g d1 d2 false op l r S1 S2
      (List.getElem?_set_self hg) ?_ ?_ hapart hin1 hin2, ?_, hkeep _, List.length_set _ _ _⟩
    · exact holds_frame hl (fun i hi => hkeep _ i (fun h => hin1 (h ▸ hi)))
    · exact holds_frame hr (fun i hi => hkeep _ i (fun h => hin2 (h ▸ hi)))
    · intro i hi
      rw [List.mem_cons, List.mem_append] at hi
      rcases hi with h | h | h
      · exact Or.inl h
      · exact Or.inr (List.mem_cons_of_mem _ (List.mem_append_left _ h))
      · exact Or.inr (List.mem_cons_of_mem _ (List.mem_append_right _ h))

theorem plain_copied {y : Shape} (h : y.plain) : y.copied.plain := by
  cases y with
  | leaf op => exact h
  | node flipped op l r => exact h

/-- The bindings of a constant operand next to the marker of the group of the
other operand. -/
theorem sc_bindings {x : Shape} (hx : x.plain) (op : AbsExpr_Container) (cy : Nat) :
    (x.constant = none ∧ x.markerBindings op cy = []) ∨
    ∃ v : Value, x.constant = some v ∧
      x.markerBindings op cy =
      [AbsExpr_Expression.mk op
        [AbsExpr_Expression.mk ⟨some (expression.ConstantValueExpression v)⟩ [],
          groupMarkerLeaf cy]] := by
  cases x with
  | leaf opx =>
    rcases hx with ⟨v, hv⟩ | ⟨t, c, o, hc⟩
    · subst hv
      exact Or.inr ⟨v, rfl, rfl⟩
    · subst hc
      exact Or.inl ⟨rfl, rfl⟩
  | node flipped opx l r => exact Or.inl ⟨rfl, rfl⟩

theorem shortCircuit_leaf (tag : ExpressionType) (neutral : Bool) (op : AbsExpr_Container) :
    (Shape.leaf op).shortCircuit tag neutral = none := rfl

theorem shortCircuit_node (tag : ExpressionType) (neutral : Bool) (flipped : Bool)
    (op : AbsExpr_Container) (l r : Shape) :
    (Shape.node flipped op l r).shortCircuit tag neutral =
      match (if op.GetType = tag then Shape.shortCircuitAt neutral l r else none) with
      | some x => some x
      | none =>
        if flipped = true ∧ op.GetType ∈ equivalentTags ∧ op.GetType = tag then
          Shape.shortCircuitAt neutral r l
        else none := by
  unfold Shape.shortCircuit
  rw [alternatives_node]
  by_cases hc : flipped = true ∧ op.GetType ∈ equivalentTags
  · rw [if_pos hc]
    by_cases h : op.GetType = tag
    · rw [if_pos h, if_pos ⟨hc.1, hc.2, h⟩]
      simp only [List.filterMap_cons, List.filterMap_nil, getType_conjunctionOfType, if_pos h]
      cases Shape.shortCircuitAt neutral l r with
      | none =>
        cases Shape.shortCircuitAt neutral r l <;> rfl
      | some x => rfl
    · rw [if_neg h, if_neg (fun hx : flipped = true ∧ op.GetType ∈ equivalentTags ∧
          op.GetType = tag => h hx.2.2)]
      simp only [List.filterMap_cons, List.filterMap_nil, getType_conjunctionOfType, if_neg h]
      rfl
  · rw [if_neg hc, if_neg (fun hx : flipped = true ∧ op.GetType ∈ equivalentTags ∧
        op.GetType = tag => hc ⟨hx.1, hx.2.1⟩)]
    by_cases h : op.GetType = tag
    · rw [if_pos h]
      simp only [List.filterMap_cons, List.filterMap_nil, if_pos h]
      cases Shape.shortCircuitAt neutral l r <;> rfl
    · rw [if_neg h]
      simp only [List.filterMap_cons, List.filterMap_nil, if_neg h]
      rfl

/-- A rule that replaces, applied to a group whose bindings are known. -/
theorem apply_bindings (cc : Comparability) (rule : Rule) (g : Nat) (memo : Memo)
    (bindings : List AbsExpr_Expression)
    (hpattern : rule.GetMatchPattern.type ≠ ExpressionType.GROUP_MARKER)
    (hB : childBindings memo rule.GetMatchPattern g = bindings)
    (hsafe : ∀ b, b ∈ bindings →
      rule.Transform cc b [] = some [] ∨ ∃ out, rule.Transform cc b [] = some [out]) :
    applyRuleToGroup cc true g memo rule =
      some (match firstOutput cc rule bindings with
        | some out => memo.ReplaceGroupExpression g out
        | none => memo) := by
  have hstep := applyRuleToGroup_firstOutput cc rule g memo (by
    intro x hx b hb
    apply hsafe
    rw [← hB, ← groupBindings_eq memo _ g hpattern]
    exact List.mem_flatMap.2 ⟨x, hx, hb⟩)
  rw [groupBindings_eq memo _ g hpattern, hB] at hstep
  exact hstep

/-- One group-expression of a group under a short-circuit rule: the rule produces
nothing at it, or the marker of the group of the other operand, or the constant
that absorbs. -/
theorem sc_alternative (cc : Comparability) (rule : Rule) (neutral : Bool)
    (htrans : ∀ (op : AbsExpr_Container) (value : Value) (marker : AbsExpr_Expression),
      rule.Transform cc (AbsExpr_Expression.mk op
        [AbsExpr_Expression.mk ⟨some (expression.ConstantValueExpression value)⟩ [], marker])
        [] =
      if value = ValueFactory.GetBooleanValueOfBool neutral then some [marker]
      else if value = ValueFactory.GetBooleanValueOfBool (!neutral) then
        some [constantExpr (ValueFactory.GetBooleanValueOfBool (!neutral))]
      else some [])
    (cond : Prop) [Decidable cond] (op : AbsExpr_Container) {x : Shape} (hx : x.plain)
    (y : Shape) (cy : Nat) :
    (∀ b, b ∈ (if cond then x.markerBindings op cy else []) →
      rule.Transform cc b [] = some [] ∨ ∃ out, rule.Transform cc b [] = some [out]) ∧
    (((∀ rest, firstOutput cc rule ((if cond then x.markerBindings op cy else []) ++ rest) =
          firstOutput cc rule rest) ∧
        (if cond then Shape.shortCircuitAt neutral x y else none) = none) ∨
      ((∀ rest, firstOutput cc rule ((if cond then x.markerBindings op cy else []) ++ rest) =
          some (groupMarkerLeaf cy)) ∧
        (if cond then Shape.shortCircuitAt neutral x y else none) = some y.copied) ∨
      ((∀ rest, firstOutput cc rule ((if cond then x.markerBindings op cy else []) ++ rest) =
          some (constantExpr (ValueFactory.GetBooleanValueOfBool (!neutral)))) ∧
        (if cond then Shape.shortCircuitAt neutral x y else none) =
          some (Shape.leaf ⟨some (expression.ConstantValueExpression
            (ValueFactory.GetBooleanValueOfBool (!neutral)))⟩))) := by
  by_cases hc : cond
  · simp only [if_pos hc]
    rcases sc_bindings hx op cy with ⟨hconst, hB⟩ | ⟨v, hconst, hB⟩
    · rw [hB]
      refine ⟨fun b hb => absurd hb (List.not_mem_nil _), Or.inl ⟨fun rest => rfl, ?_⟩⟩
      unfold Shape.shortCircuitAt
      rw [hconst]
    · rw [hB]
      have hT := htrans op v (groupMarkerLeaf cy)
      by_cases h1 : v = ValueFactory.GetBooleanValueOfBool neutral
      · rw [if_pos h1] at hT
        refine ⟨?_, Or.inr (Or.inl ⟨?_, ?_⟩)⟩
        · intro b hb
          rw [List.mem_singleton] at hb
          rw [hb, hT]
          exact Or.inr ⟨_, rfl⟩
        · intro rest
          rw [List.singleton_append, firstOutput.eq_2, hT]
        · unfold Shape.shortCircuitAt
          rw [hconst]
          simp only [if_pos h1]
      · rw [if_neg h1] at hT
        by_cases h2 : v = ValueFactory.GetBooleanValueOfBool (!neutral)
        · rw [if_pos h2] at hT
          refine ⟨?_, Or.inr (Or.inr ⟨?_, ?_⟩)⟩
          · intro b hb
            rw [List.mem_singleton] at hb
            rw [hb, hT]
            exact Or.inr ⟨_, rfl⟩
          · intro rest
            rw [List.singleton_append, firstOutput.eq_2, hT]
          · unfold Shape.shortCircuitAt
            rw [hconst]
            simp only [if_neg h1, if_pos h2]
        · rw [if_neg h2] at hT
          refine ⟨?_, Or.inl ⟨?_, ?_⟩⟩
          · intro b hb
            rw [List.mem_singleton] at hb
            rw [hb, hT]
            exact Or.inl rfl
          · intro rest
            rw [List.singleton_append, firstOutput.eq_2, hT]
          · unfold Shape.shortCircuitAt
            rw [hconst]
            simp only [if_neg h1, if_neg h2]
  · simp only [if_neg hc]
    exact ⟨fun b hb => absurd hb (List.not_mem_nil _), Or.inl ⟨fun rest => rfl, trivial⟩⟩

theorem plain_shortCircuitAt {neutral : Bool} {x y z : Shape} (hy : y.plain)
    (h : Shape.shortCircuitAt neutral x y = some z) : z.plain := by
  unfold Shape.shortCircuitAt at h
  cases hc : x.constant with
  | none =>
    rw [hc] at h
    exact Option.noConfusion h
  | some v =>
    rw [hc] at h
    simp only at h
    by_cases h1 : v = ValueFactory.GetBooleanValueOfBool neutral
    · rw [if_pos h1] at h
      simp only [Option.some.injEq] at h
      rw [← h]
      exact plain_copied hy
    · rw [if_neg h1] at h
      by_cases h2 : v = ValueFactory.GetBooleanValueOfBool (!neutral)
      · rw [if_pos h2] at h
        simp only [Option.some.injEq] at h
        rw [← h]
        exact Or.inl ⟨_, rfl⟩
      · rw [if_neg h2] at h
        exact Option.noConfusion h

theorem plain_shortCircuit {tag : ExpressionType} {neutral : Bool} {s : Shape}
    (hs : s.plain) : ((s.shortCircuit tag neutral).getD s).plain := by
  cases s with
  | leaf op => exact hs
  | node flipped op l r =>
    rw [shortCircuit_node]
    by_cases h : op.GetType = tag
    · rw [if_pos h]
      cases h1 : Shape.shortCircuitAt neutral l r with
      | some z => exact plain_shortCircuitAt hs.2.2.2.2 h1
      | none =>
        simp only
        by_cases hf : flipped = true ∧ op.GetType ∈ equivalentTags ∧ op.GetType = tag
        · rw [if_pos hf]
          cases h2 : Shape.shortCircuitAt neutral r l with
          | some z => exact plain_shortCircuitAt hs.2.2.2.1 h2
          | none => exact hs
        · rw [if_neg hf]
          exact hs
    · rw [if_neg h]
      simp only
      rw [if_neg (fun hx : flipped = true ∧ op.GetType ∈ equivalentTags ∧
        op.GetType = tag => h hx.2.2)]
      exact hs

/-- The bindings of the pattern of a short-circuit rule at the group of a node. -/
theorem node_markerBindings {memo : Memo} {g c1 c2 : Nat} {flipped : Bool}
    {op : AbsExpr_Container} {l r : Shape} {S1 S2 : List Nat}
    (hmemo : memo.groups[g]? = some ⟨Shape.entries flipped op c1 c2⟩)
    (hl : Holds memo c1 l S1) (hr : Holds memo c2 r S2) (tag : ExpressionType)
    (htag : tag ≠ ExpressionType.GROUP_MARKER) :
    childBindings memo (Pattern.mk tag [Pattern.leaf ExpressionType.VALUE_CONSTANT,
        Pattern.leaf ExpressionType.GROUP_MARKER]) g =
      (if op.GetType = tag then l.markerBindings op c2 else []) ++
      (if flipped = true ∧ op.GetType ∈ equivalentTags ∧ op.GetType = tag then
        r.markerBindings ⟨some (expression.ConjunctionExpressionOfType op.GetType)⟩ c1
      else []) := by
  rw [nodeBindings hmemo tag _ _ htag, childBindings_marker, childBindings_marker,
    childBindings_leafBindings hl ExpressionType.VALUE_CONSTANT (by decide),
    childBindings_leafBindings hr ExpressionType.VALUE_CONSTANT (by decide)]
  rfl

/-- A short-circuit rule at a group that holds a plain shape. -/
theorem sc_applies (cc : Comparability) (rule : Rule) (tag : ExpressionType) (neutral : Bool)
    (hpat : rule.GetMatchPattern = Pattern.mk tag [Pattern.leaf ExpressionType.VALUE_CONSTANT,
      Pattern.leaf ExpressionType.GROUP_MARKER])
    (htag : tag ≠ ExpressionType.GROUP_MARKER)
    (htrans : ∀ (op : AbsExpr_Container) (value : Value) (marker : AbsExpr_Expression),
      rule.Transform cc (AbsExpr_Expression.mk op
        [AbsExpr_Expression.mk ⟨some (expression.ConstantValueExpression value)⟩ [], marker])
        [] =
      if value = ValueFactory.GetBooleanValueOfBool neutral then some [marker]
      else if value = ValueFactory.GetBooleanValueOfBool (!neutral) then
        some [constantExpr (ValueFactory.GetBooleanValueOfBool (!neutral))]
      else some [])
    (s : Shape) (hs : s.plain) :
    Applies cc rule s ((s.shortCircuit tag neutral).getD s) := by
  have hptype : rule.GetMatchPattern.type ≠ ExpressionType.GROUP_MARKER := by
    rw [hpat]; exact htag
  intro memo g S h
  cases s with
  | leaf op =>
    obtain ⟨_, hmemo⟩ := holds_leaf_inv h
    have hB : childBindings memo rule.GetMatchPattern g = [] := by
      rw [hpat]; exact leafGroup_bindings hmemo tag _ _ htag
    have hstep := apply_bindings cc rule g memo [] hptype hB
      (fun b hb => absurd hb (List.not_mem_nil _))
    exact ⟨memo, S, hstep, h, frame_refl memo S⟩
  | node flipped op l r =>
    obtain ⟨c1, c2, S1, S2, hS, hmemo, hl, hr, hapart, hg1, hg2⟩ := holds_node_inv h
    subst hS
    have hg : g < memo.groups.length := (List.getElem?_eq_some_iff.1 hmemo).1
    have hB : childBindings memo rule.GetMatchPattern g =
        (if op.GetType = tag then l.markerBindings op c2 else []) ++
        (if flipped = true ∧ op.GetType ∈ equivalentTags ∧ op.GetType = tag then
          r.markerBindings ⟨some (expression.ConjunctionExpressionOfType op.GetType)⟩ c1
        else []) := by
      rw [hpat]; exact node_markerBindings hmemo hl hr tag htag
    obtain ⟨safe1, alt1⟩ := sc_alternative cc rule neutral htrans (op.GetType = tag) op
      hs.2.2.2.1 r c2
    obtain ⟨safe2, alt2⟩ := sc_alternative cc rule neutral htrans
      (flipped = true ∧ op.GetType ∈ equivalentTags ∧ op.GetType = tag)
      ⟨some (expression.ConjunctionExpressionOfType op.GetType)⟩ hs.2.2.2.2 l c1
    have hstep := apply_bindings cc rule g memo _ hptype hB (by
      intro b hb
      rw [List.mem_append] at hb
      rcases hb with hb | hb
      · exact safe1 b hb
      · exact safe2 b hb)
    rw [shortCircuit_node]
    have hmarker : ∀ (c : Nat) (y : Shape) (Sy : List Nat), Holds memo c y Sy → g ∉ Sy →
        (∀ i, i ∈ Sy → i ∈ g :: (S1 ++ S2)) →
        ∃ (S3 : List Nat),
          Holds (memo.ReplaceGroupExpression g (groupMarkerLeaf c)) g y.copied S3 ∧
          Frame memo (memo.ReplaceGroupExpression g (groupMarkerLeaf c)) (g :: (S1 ++ S2))
            S3 := by
      intro c y Sy hy hgy hsub
      obtain ⟨S3, hh, hin, hkeep, hlen⟩ := holds_marker hy hg hgy
      refine ⟨S3, hh, Nat.le_of_eq hlen.symm, ?_, ?_⟩
      · intro i _ hS
        exact hkeep i (fun he => hS (he ▸ List.mem_cons_self _ _))
      · intro i hi
        rcases hin i hi with h1 | h1
        · exact Or.inl (h1 ▸ List.mem_cons_self _ _)
        · exact Or.inl (hsub i h1)
    have hconst : ∃ (S3 : List Nat),
        Holds (memo.ReplaceGroupExpression g
            (constantExpr (ValueFactory.GetBooleanValueOfBool (!neutral)))) g
          (Shape.leaf ⟨some (expression.ConstantValueExpression
            (ValueFactory.GetBooleanValueOfBool (!neutral)))⟩) S3 ∧
        Frame memo (memo.ReplaceGroupExpression g
            (constantExpr (ValueFactory.GetBooleanValueOfBool (!neutral))))
          (g :: (S1 ++ S2)) S3 := by
      have hd := denotes_constant (ValueFactory.GetBooleanValueOfBool (!neutral))
      have hc : constantExpr (ValueFactory.GetBooleanValueOfBool (!neutral)) =
          AbsExpr_Expression.mk ⟨some (expression.ConstantValueExpression
            (ValueFactory.GetBooleanValueOfBool (!neutral)))⟩ [] := rfl
      rw [hc, replace_denoted hd memo g hg]
      obtain ⟨S3, hh, hnew, hkeep, hlen⟩ := holds_replaced hd memo.groups g hg
      rw [shapeOf_leaf] at hh
      refine ⟨S3, hh, hlen, ?_, ?_⟩
      · intro i hi hS
        exact hkeep i hi (fun he => hS (he ▸ List.mem_cons_self _ _))
      · intro i hi
        rcases hnew i hi with h1 | h1
        · exact Or.inl (h1 ▸ List.mem_cons_self _ _)
        · exact Or.inr h1
    rcases alt1 with ⟨hnone1, hs1⟩ | ⟨hmark1, hs1⟩ | ⟨hconst1, hs1⟩
    · rw [hnone1] at hstep
      rw [hs1]
      simp only
      rcases alt2 with ⟨hnone2, hs2⟩ | ⟨hmark2, hs2⟩ | ⟨hconst2, hs2⟩
      · have h0 := hnone2 []
        rw [List.append_nil] at h0
        rw [h0] at hstep
        rw [hs2]
        exact ⟨memo, _, hstep, h, frame_refl memo _⟩
      · have h0 := hmark2 []
        rw [List.append_nil] at h0
        rw [h0] at hstep
        rw [hs2]
        obtain ⟨S3, hh, hf⟩ := hmarker c1 l S1 hl hg1
          (fun i hi => List.mem_cons_of_mem _ (List.mem_append_left _ hi))
        exact ⟨_, S3, hstep, hh, hf⟩
      · have h0 := hconst2 []
        rw [List.append_nil] at h0
        rw [h0] at hstep
        rw [hs2]
        obtain ⟨S3, hh, hf⟩ := hconst
        exact ⟨_, S3, hstep, hh, hf⟩
    · rw [hmark1] at hstep
      rw [hs1]
      obtain ⟨S3, hh, hf⟩ := hmarker c2 r S2 hr hg2
        (fun i hi => List.mem_cons_of_mem _ (List.mem_append_right _ hi))
      exact ⟨_, S3, hstep, hh, hf⟩
    · rw [hconst1] at hstep
      rw [hs1]
      obtain ⟨S3, hh, hf⟩ := hconst
      exact ⟨_, S3, hstep, hh, hf⟩

theorem orShortCircuit_constant (cc : Comparability) (op : AbsExpr_Container) (value : Value)
    (marker : AbsExpr_Expression) :
    Rule.OrShortCircuit.Transform cc (AbsExpr_Expression.mk op
        [AbsExpr_Expression.mk ⟨some (expression.ConstantValueExpression value)⟩ [], marker])
        [] =
      if value = ValueFactory.GetBooleanValueOfBool false then some [marker]
      else if value = ValueFactory.GetBooleanValueOfBool (!false) then
        some [constantExpr (ValueFactory.GetBooleanValueOfBool (!false))]
      else some [] := by
  have hdef : Rule.OrShortCircuit.Transform cc (AbsExpr_Expression.mk op
        [AbsExpr_Expression.mk ⟨some (expression.ConstantValueExpression value)⟩ [], marker])
        [] =
      if value = ValueFactory.GetBooleanValueOfBool true then
        some [constantExpr (ValueFactory.GetBooleanValueOfBool true)]
      else if value = ValueFactory.GetBooleanValueOfBool false then some [marker]
      else some [] := rfl
  rw [hdef]
  have hne : ValueFactory.GetBooleanValueOfBool true ≠ ValueFactory.GetBooleanValueOfBool false := by
    decide
  by_cases h1 : value = ValueFactory.GetBooleanValueOfBool false
  · rw [if_pos h1, if_neg (fun h : value = ValueFactory.GetBooleanValueOfBool true =>
      hne (h.symm.trans h1))]
    rw [if_pos h1]
  · rw [if_neg h1, if_neg h1]
    rfl

/-- The short-circuit rules at a group that holds a plain shape. -/
theorem optimizes_shortCircuit (cc : Comparability) (s : Shape) (hs : s.plain) :
    Optimizes cc RewriteRuleSetName.BOOLEAN_SHORT_CIRCUIT s s.shortCircuited ∧
      s.shortCircuited.plain := by
  have a1 := sc_applies cc Rule.AndShortCircuit ExpressionType.CONJUNCTION_AND true rfl
    (by decide) (andShortCircuit_constant cc) s hs
  have p1 : ((s.shortCircuit ExpressionType.CONJUNCTION_AND true).getD s).plain :=
    plain_shortCircuit hs
  have a2 := sc_applies cc Rule.OrShortCircuit ExpressionType.CONJUNCTION_OR false rfl
    (by decide) (orShortCircuit_constant cc) _ p1
  exact ⟨optimizes_two cc _ _ _ _ _ validRules_short_circuit a1 a2, plain_shortCircuit p1⟩

/-! ## The top-down pass of the short-circuit rules -/

theorem height_pos (s : Shape) : 0 < s.height := by
  cases s <;> simp [Shape.height]

theorem height_copied (y : Shape) : y.copied.height = y.height := by
  cases y <;> rfl

theorem height_node (flipped : Bool) (op : AbsExpr_Container) (l r : Shape) :
    (Shape.node flipped op l r).height = max l.height r.height + 1 := rfl

theorem height_shortCircuitAt {neutral : Bool} {x y z : Shape}
    (h : Shape.shortCircuitAt neutral x y = some z) : z.height ≤ y.height := by
  unfold Shape.shortCircuitAt at h
  cases hc : x.constant with
  | none =>
    rw [hc] at h
    exact Option.noConfusion h
  | some v =>
    rw [hc] at h
    simp only at h
    by_cases h1 : v = ValueFactory.GetBooleanValueOfBool neutral
    · rw [if_pos h1] at h
      simp only [Option.some.injEq] at h
      rw [← h, height_copied]
    · rw [if_neg h1] at h
      by_cases h2 : v = ValueFactory.GetBooleanValueOfBool (!neutral)
      · rw [if_pos h2] at h
        simp only [Option.some.injEq] at h
        rw [← h]
        exact height_pos y
      · rw [if_neg h2] at h
        exact Option.noConfusion h

theorem height_shortCircuit (tag : ExpressionType) (neutral : Bool) (s : Shape) :
    ((s.shortCircuit tag neutral).getD s).height ≤ s.height := by
  cases s with
  | leaf op => exact Nat.le_refl _
  | node flipped op l r =>
    rw [shortCircuit_node]
    have hl : l.height ≤ (Shape.node flipped op l r).height := by
      rw [height_node]; omega
    have hr : r.height ≤ (Shape.node flipped op l r).height := by
      rw [height_node]; omega
    by_cases h : op.GetType = tag
    · rw [if_pos h]
      cases h1 : Shape.shortCircuitAt neutral l r with
      | some z => exact Nat.le_trans (height_shortCircuitAt h1) hr
      | none =>
        simp only
        by_cases hf : flipped = true ∧ op.GetType ∈ equivalentTags ∧ op.GetType = tag
        · rw [if_pos hf]
          cases h2 : Shape.shortCircuitAt neutral r l with
          | some z => exact Nat.le_trans (height_shortCircuitAt h2) hl
          | none => exact Nat.le_refl _
        · rw [if_neg hf]
          exact Nat.le_refl _
    · rw [if_neg h]
      simp only
      rw [if_neg (fun hx : flipped = true ∧ op.GetType ∈ equivalentTags ∧
        op.GetType = tag => h hx.2.2)]
      exact Nat.le_refl _

theorem height_shortCircuited (s : Shape) : s.shortCircuited.height ≤ s.height :=
  Nat.le_trans (height_shortCircuit _ _ _) (height_shortCircuit _ _ _)

theorem topDown_leaf (n : Nat) (s : Shape) (op : AbsExpr_Container)
    (h : s.shortCircuited = Shape.leaf op) : s.topDown (n + 1) = Shape.leaf op := by
  rw [Shape.topDown, h]

theorem topDown_node (n : Nat) (s : Shape) (flipped : Bool) (op : AbsExpr_Container)
    (l r : Shape) (h : s.shortCircuited = Shape.node flipped op l r) :
    s.topDown (n + 1) = Shape.node flipped op (l.topDown n) (r.topDown n) := by
  rw [Shape.topDown, h]

/-- The top-down pass of the short-circuit rules over a group that holds a plain
shape: the rules at the group first, then the pass over the children that the
group has then. -/
theorem processes_topDown (cc : Comparability) :
    ∀ (n : Nat) (s : Shape), s.plain → s.height ≤ n →
      Processes cc (fun g => OptimizerTask.TopDownRewrite g
        RewriteRuleSetName.BOOLEAN_SHORT_CIRCUIT true) s (s.topDown n) ∧
      (s.topDown n).plain := by
  intro n
  induction n with
  | zero =>
    intro s _ hh
    have := height_pos s
    omega
  | succ n ih =>
    intro s hp hh
    obtain ⟨hopt, hp1⟩ := optimizes_shortCircuit cc s hp
    have hle := height_shortCircuited s
    have hexec : ∀ (memo after : Memo) (g : Nat) (rest : OptimizerTaskStack),
        OptimizeCurrentGroup cc ⟨memo, RuleSet.forExpressions⟩ g
          RewriteRuleSetName.BOOLEAN_SHORT_CIRCUIT true =
            some ⟨after, RuleSet.forExpressions⟩ →
        (OptimizerTask.TopDownRewrite g RewriteRuleSetName.BOOLEAN_SHORT_CIRCUIT true).execute
            cc ⟨memo, RuleSet.forExpressions⟩ rest =
          some (⟨after, RuleSet.forExpressions⟩,
            (GetUniqueChildGroupIDs after g).foldl
              (fun s c => OptimizerTaskStack.Push s (OptimizerTask.TopDownRewrite c
                RewriteRuleSetName.BOOLEAN_SHORT_CIRCUIT true)) rest) := by
      intro memo after g rest e
      rw [OptimizerTask.execute, e]
    cases hsc : s.shortCircuited with
    | leaf op =>
      rw [topDown_leaf n s op hsc]
      rw [hsc] at hp1
      refine ⟨?_, hp1⟩
      intro memo g S rest h
      obtain ⟨after, S2, e, hh2, hf⟩ := hopt memo g S h
      rw [hsc] at hh2
      have hx := hexec memo after g rest e
      rw [uniqueChildren_leaf (holds_leaf_inv hh2).2] at hx
      exact ⟨after, S2, leads_step hx, hh2, hf⟩
    | node flipped op l r =>
      rw [topDown_node n s flipped op l r hsc]
      rw [hsc] at hp1 hle
      rw [height_node] at hle
      obtain ⟨pl, ppl⟩ := ih l hp1.2.2.2.1 (by omega)
      obtain ⟨pr, ppr⟩ := ih r hp1.2.2.2.2 (by omega)
      refine ⟨?_, hp1.1, hp1.2.1, hp1.2.2.1, ppl, ppr⟩
      intro memo g S rest h
      obtain ⟨after, S2, e, hh2, hf⟩ := hopt memo g S h
      rw [hsc] at hh2
      have hx := hexec memo after g rest e
      obtain ⟨m2, S3, L, hh3, hf3⟩ := processes_children cc
        (fun g => OptimizerTask.TopDownRewrite g RewriteRuleSetName.BOOLEAN_SHORT_CIRCUIT true)
        pl pr after g flipped op S2 rest hh2
      exact ⟨m2, S3, leads_trans (leads_step hx) L, hh3, frame_trans hf hf3⟩

/-! ## The rewrite of a plain tree, by shapes -/

/-- The group that holds a shape is rebuilt to the tree of the shape. -/
theorem rebuild_holds {memo : Memo} {g : Nat} {s : Shape} {S : List Nat}
    (h : Holds memo g s S) :
    ∀ t, s.tree = some t →
      ∃ n, ∀ fuel, n ≤ fuel →
        Rewriter.RebuildExpression ⟨⟨memo, RuleSet.forExpressions⟩⟩ fuel g =
          Outcome.done t := by
  induction h with
  | leaf g op hmemo =>
    intro t ht
    refine ⟨1, fun fuel hfuel => ?_⟩
    obtain ⟨k, rfl⟩ := Nat.exists_eq_add_of_le' hfuel
    have hgroup : (Rewriter.mk ⟨memo, RuleSet.forExpressions⟩).metadata_.memo.groups[g]? =
        some ⟨[⟨op, []⟩]⟩ := hmemo
    exact rebuild_leaf hgroup rfl rfl ht
  | node g c1 c2 flipped op l r S1 S2 hmemo hl hr hapart hg1 hg2 ihl ihr =>
    intro t ht
    rw [Shape.tree] at ht
    cases hx : l.tree with
    | none =>
      rw [hx] at ht
      exact Option.noConfusion ht
    | some x =>
      cases hy : r.tree with
      | none =>
        rw [hx, hy] at ht
        exact Option.noConfusion ht
      | some y =>
        rw [hx, hy] at ht
        simp only at ht
        obtain ⟨nl, hnl⟩ := ihl x hx
        obtain ⟨nr, hnr⟩ := ihr y hy
        refine ⟨max nl nr + 1, fun fuel hfuel => ?_⟩
        obtain ⟨k, rfl⟩ := Nat.exists_eq_add_of_le' hfuel
        have hl2 := hnl (max nl nr + k)
          (Nat.le_trans (Nat.le_max_left nl nr) (Nat.le_add_right _ _))
        have hr2 := hnr (max nl nr + k)
          (Nat.le_trans (Nat.le_max_right nl nr) (Nat.le_add_right _ _))
        have hfuel2 : k + (max nl nr + 1) = (max nl nr + k) + 1 := by omega
        have hm : (⟨⟨memo, RuleSet.forExpressions⟩⟩ : Rewriter).metadata_.memo.groups[g]? =
            some ⟨Shape.entries flipped op c1 c2⟩ := hmemo
        rw [hfuel2, Rewriter.RebuildExpression.eq_2]
        simp only [hm, Shape.entries, Outcome.mapList, hl2, hr2, ht]

theorem bottomUp_id (s : Shape) : s.bottomUp id = s := by
  induction s with
  | leaf op => rfl
  | node flipped op l r ihl ihr => rw [Shape.bottomUp, ihl, ihr]; rfl

/-- The shape of the groups of a converted plain tree is plain. -/
theorem plain_shapeOf (flipped : Bool) {t : AbstractExpression} (h : PlainTree t) :
    (shapeOf flipped (Rewriter.ConvertToAbsExpr t)).plain := by
  induction h with
  | constant value => exact Or.inl ⟨value, rfl⟩
  | column table_name col_name bound_oid => exact Or.inr ⟨table_name, col_name, bound_oid, rfl⟩
  | comparison type left right htype _ _ ihl ihr =>
    have hc : Rewriter.ConvertToAbsExpr
        (expression.ComparisonExpression type (some left) (some right)) =
        AbsExpr_Expression.mk ⟨some (AbstractExpression.mk type ExprClass.ComparisonExpression [])⟩
          [Rewriter.ConvertToAbsExpr left, Rewriter.ConvertToAbsExpr right] :=
      convert_binary _ _ _ _
    rw [hc, shapeOf_binary]
    exact ⟨rfl, rfl, List.mem_append_left _ (List.mem_append_left _ htype), ihl, ihr⟩
  | conjunction type left right htype _ _ ihl ihr =>
    have hc : Rewriter.ConvertToAbsExpr
        (expression.ConjunctionExpression type (some left) (some right)) =
        AbsExpr_Expression.mk ⟨some (AbstractExpression.mk type ExprClass.ConjunctionExpression [])⟩
          [Rewriter.ConvertToAbsExpr left, Rewriter.ConvertToAbsExpr right] :=
      convert_binary _ _ _ _
    rw [hc, shapeOf_binary]
    exact ⟨rfl, rfl, List.mem_append_left _ (List.mem_append_right _ htype), ihl, ihr⟩
  | operator type ret left right htype _ _ ihl ihr =>
    have hc : Rewriter.ConvertToAbsExpr
        (expression.OperatorExpression type ret (some left) (some right)) =
        AbsExpr_Expression.mk
          ⟨some (AbstractExpression.mk type (ExprClass.OperatorExpression ret) [])⟩
          [Rewriter.ConvertToAbsExpr left, Rewriter.ConvertToAbsExpr right] :=
      convert_binary _ _ _ _
    rw [hc, shapeOf_binary]
    exact ⟨rfl, rfl, List.mem_append_right _ htype, ihl, ihr⟩

/-- The task loop over the groups of a recorded plain tree leads to a memo in
which the group of the root holds the rewritten shape. -/
theorem leads_rewritten (cc : Comparability) {t : AbstractExpression} (ht : PlainTree t) :
    ∃ (final : Memo) (S : List Nat),
      Leads cc ⟨singleGroups (layout 0 (Rewriter.ConvertToAbsExpr t))⟩
        (Rewriter.seedTaskStack ((layout 0 (Rewriter.ConvertToAbsExpr t)).length - 1))
        final [] ∧
      Holds final ((layout 0 (Rewriter.ConvertToAbsExpr t)).length - 1)
        (Shape.rewritten cc (Rewriter.ConvertToAbsExpr t)) S ∧
      (Shape.rewritten cc (Rewriter.ConvertToAbsExpr t)).plain := by
  have hden := plainTree_denotes ht
  obtain ⟨e, he⟩ : ∃ e, e = Rewriter.ConvertToAbsExpr t := ⟨_, rfl⟩
  rw [← he] at hden ⊢
  obtain ⟨root, hroot⟩ : ∃ root, root = (layout 0 e).length - 1 := ⟨_, rfl⟩
  rw [← hroot, seedTaskStack_eq]
  have hp0 : (shapeOf true e).plain := by rw [he]; exact plain_shapeOf true ht
  have L1 := leads_equivalent cc hden [] []
    [OptimizerTask.BottomUpRewrite root RewriteRuleSetName.NULL_LOOKUP false,
     OptimizerTask.BottomUpRewrite root RewriteRuleSetName.COMPARATOR_ELIMINATION false,
     OptimizerTask.BottomUpRewrite root RewriteRuleSetName.TRANSITIVE_TRANSFORM false,
     OptimizerTask.TopDownRewrite root RewriteRuleSetName.BOOLEAN_SHORT_CIRCUIT true]
  obtain ⟨S0, H0, _⟩ := holds_layout true hden [] []
  simp only [List.length_nil, Nat.zero_add, List.nil_append, List.append_nil, ← hroot,
    statusGroups_flipped] at L1 H0
  have P2 := processes_bottomUp cc RewriteRuleSetName.NULL_LOOKUP id
    (fun s _ memo g S h => ⟨memo, S, optimizeCurrentGroup_nullLookup cc memo g true, h,
      frame_refl memo S⟩)
    (fun s hs => hs) (shapeOf true e) hp0
  rw [bottomUp_id] at P2
  obtain ⟨m2, S2, L2, H2, _⟩ := P2 _ root S0
    [OptimizerTask.BottomUpRewrite root RewriteRuleSetName.COMPARATOR_ELIMINATION false,
     OptimizerTask.BottomUpRewrite root RewriteRuleSetName.TRANSITIVE_TRANSFORM false,
     OptimizerTask.TopDownRewrite root RewriteRuleSetName.BOOLEAN_SHORT_CIRCUIT true] H0
  have ho3 : ∀ s : Shape, s.plain →
      Optimizes cc RewriteRuleSetName.COMPARATOR_ELIMINATION s (Shape.comparatorStep cc s) :=
    fun s hs => (optimizes_comparator cc s hs).1
  have hq3 : ∀ s : Shape, s.plain → (Shape.comparatorStep cc s).plain :=
    fun s hs => (optimizes_comparator cc s hs).2
  have P3 := processes_bottomUp cc RewriteRuleSetName.COMPARATOR_ELIMINATION
    (Shape.comparatorStep cc) ho3 hq3 (shapeOf true e) hp0
  have hp3 := plain_bottomUp (Shape.comparatorStep cc) hq3 (shapeOf true e) hp0
  obtain ⟨m3, S3, L3, H3, _⟩ := P3 m2 root S2
    [OptimizerTask.BottomUpRewrite root RewriteRuleSetName.TRANSITIVE_TRANSFORM false,
     OptimizerTask.TopDownRewrite root RewriteRuleSetName.BOOLEAN_SHORT_CIRCUIT true] H2
  have ho4 : ∀ s : Shape, s.plain →
      Optimizes cc RewriteRuleSetName.TRANSITIVE_TRANSFORM s (Shape.transitiveStep cc s) :=
    fun s hs => (optimizes_transitive cc s hs).1
  have hq4 : ∀ s : Shape, s.plain → (Shape.transitiveStep cc s).plain :=
    fun s hs => (optimizes_transitive cc s hs).2
  have P4 := processes_bottomUp cc RewriteRuleSetName.TRANSITIVE_TRANSFORM
    (Shape.transitiveStep cc) ho4 hq4 _ hp3
  have hp4 := plain_bottomUp (Shape.transitiveStep cc) hq4 _ hp3
  obtain ⟨m4, S4, L4, H4, _⟩ := P4 m3 root S3
    [OptimizerTask.TopDownRewrite root RewriteRuleSetName.BOOLEAN_SHORT_CIRCUIT true] H3
  obtain ⟨P5, hp5⟩ := processes_topDown cc _ _ hp4 (Nat.le_refl _)
  obtain ⟨m5, S5, L5, H5, _⟩ := P5 m4 root S4 [] H4
  exact ⟨m5, S5, leads_trans L1 (leads_trans L2 (leads_trans L3 (leads_trans L4 L5))), H5, hp5⟩

/-- A plain tree is rewritten to the tree of its rewritten shape. -/
theorem rewrite_shape (cc : Comparability) {t r : AbstractExpression} (ht : PlainTree t)
    (hr : (Shape.rewritten cc (Rewriter.ConvertToAbsExpr t)).tree = some r) :
    ∃ n, ∀ fuel, n ≤ fuel →
      Rewriter.RewriteExpression cc fuel Rewriter.new (some t) =
        Outcome.done (some r, Rewriter.new) := by
  obtain ⟨final, S, hleads, hholds, _⟩ := leads_rewritten cc ht
  exact rewrite_of_leads cc (plainTree_noMarker ht) (recordTreeGroups_plain ht) hleads
    (rebuild_holds hholds r hr)

/-! ## The tree of a plain shape -/

/-- The copy of the defined operator of a comparison, a conjunction or an
operator over two children exists. -/
theorem copy_total (op : AbsExpr_Container) (hdef : op.IsDefined = true)
    (htags : op.GetType ∈ comparisonTags ++ conjunctionTags ++ operatorTags)
    (x y : AbstractExpression) : ∃ t, op.CopyWithChildren [x, y] = some t := by
  obtain ⟨node⟩ := op
  cases node with
  | none => exact absurd hdef (by decide)
  | some n =>
    simp only [comparisonTags, conjunctionTags, operatorTags, List.cons_append,
      List.nil_append, List.mem_cons, List.mem_singleton, List.not_mem_nil, or_false] at htags
    rcases htags with h | h | h | h | h | h | h | h | h | h | h | h | h | h | h | h | h | h |
      h | h | h | h <;>
      exact ⟨_, by unfold AbsExpr_Container.CopyWithChildren; rw [h]; first | rfl | done⟩

/-- A plain shape has a tree. -/
theorem tree_plain {s : Shape} (h : s.plain) : ∃ t, s.tree = some t := by
  induction s with
  | leaf op =>
    rcases h with ⟨v, hv⟩ | ⟨t, c, o, hc⟩
    · exact ⟨_, by rw [hv]; rfl⟩
    · exact ⟨_, by rw [hc]; rfl⟩
  | node flipped op l r ihl ihr =>
    obtain ⟨x, hx⟩ := ihl h.2.2.2.1
    obtain ⟨y, hy⟩ := ihr h.2.2.2.2
    obtain ⟨t, ht⟩ := copy_total op h.1 h.2.2.1 x y
    exact ⟨t, by rw [Shape.tree, hx, hy]; exact ht⟩

theorem bottomUp_node (step : Shape → Shape) (flipped : Bool) (op : AbsExpr_Container)
    (l r : Shape) :
    (Shape.node flipped op l r).bottomUp step =
      step (Shape.node flipped op (l.bottomUp step) (r.bottomUp step)) := rfl

/-- The comparison elimination rules leave a conjunction as it is. -/
theorem comparatorStep_and (cc : Comparability) (flipped : Bool) (op : AbsExpr_Container)
    (l r : Shape) (h : op.GetType = ExpressionType.CONJUNCTION_AND) :
    (Shape.node flipped op l r).comparatorStep cc = Shape.node flipped op l r := by
  unfold Shape.comparatorStep
  rw [validRules_comparator]
  simp [pairBindings_node, h, Rule.GetMatchPattern, ComparatorElimination.match_pattern,
    Pattern.type, firstOutput, Shape.replacedBy]

/-- The shape of a group after the two bottom-up passes. -/
theorem rewritten_eq (cc : Comparability) (e : AbsExpr_Expression) :
    Shape.rewritten cc e =
      (((shapeOf true e).bottomUp (Shape.comparatorStep cc)).bottomUp
        (Shape.transitiveStep cc)).topDown
        (((shapeOf true e).bottomUp (Shape.comparatorStep cc)).bottomUp
          (Shape.transitiveStep cc)).height := rfl

theorem convert_and (a b : AbstractExpression) :
    Rewriter.ConvertToAbsExpr
        (expression.ConjunctionExpression ExpressionType.CONJUNCTION_AND (some a) (some b)) =
      AbsExpr_Expression.mk andOp [Rewriter.ConvertToAbsExpr a, Rewriter.ConvertToAbsExpr b] :=
  convert_binary _ _ _ _

/-- The shape of the conjunction of two trees after the two bottom-up passes: the
transitive rules at the conjunction of what the two passes make of the
operands. -/
theorem rewritten_and (cc : Comparability) (a b : AbstractExpression) :
    Shape.rewritten cc (Rewriter.ConvertToAbsExpr
        (expression.ConjunctionExpression ExpressionType.CONJUNCTION_AND (some a) (some b))) =
      (Shape.transitiveStep cc (Shape.node true andOp
        (((shapeOf true (Rewriter.ConvertToAbsExpr a)).bottomUp
          (Shape.comparatorStep cc)).bottomUp (Shape.transitiveStep cc))
        (((shapeOf true (Rewriter.ConvertToAbsExpr b)).bottomUp
          (Shape.comparatorStep cc)).bottomUp (Shape.transitiveStep cc)))).topDown
        (Shape.transitiveStep cc (Shape.node true andOp
          (((shapeOf true (Rewriter.ConvertToAbsExpr a)).bottomUp
            (Shape.comparatorStep cc)).bottomUp (Shape.transitiveStep cc))
          (((shapeOf true (Rewriter.ConvertToAbsExpr b)).bottomUp
            (Shape.comparatorStep cc)).bottomUp (Shape.transitiveStep cc)))).height := by
  rw [rewritten_eq, convert_and, shapeOf_binary, bottomUp_node,
    comparatorStep_and cc true andOp _ _ rfl, bottomUp_node]

/-! ## The two orders of a conjunction, by shapes -/

/-- What the leaf patterns of a column reference and of a constant bind at a plain
shape: nothing, or the column reference, or the constant. -/
theorem leaf_kinds {z : Shape} (hz : z.plain) :
    (z.leafBindings ExpressionType.VALUE_TUPLE = [] ∧
      z.leafBindings ExpressionType.VALUE_CONSTANT = []) ∨
    (∃ K : AbstractExpression, K.isLeafOfTag ExpressionType.VALUE_TUPLE = true ∧ PlainTree K ∧
      z.leafBindings ExpressionType.VALUE_TUPLE = [AbsExpr_Expression.mk ⟨some K⟩ []] ∧
      z.leafBindings ExpressionType.VALUE_CONSTANT = []) ∨
    (∃ v : Value, z.leafBindings ExpressionType.VALUE_TUPLE = [] ∧
      z.leafBindings ExpressionType.VALUE_CONSTANT =
        [AbsExpr_Expression.mk ⟨some (expression.ConstantValueExpression v)⟩ []]) := by
  cases z with
  | leaf op =>
    rcases hz with ⟨v, hv⟩ | ⟨t, c, o, hc⟩
    · subst hv
      exact Or.inr (Or.inr ⟨v, rfl, rfl⟩)
    · subst hc
      exact Or.inr (Or.inl ⟨columnRef t c o, rfl, PlainTree.column t c o, rfl, rfl⟩)
  | node flipped op l r => exact Or.inl ⟨rfl, rfl⟩

/-- The bindings of an equality of a column and a constant at a plain shape: none,
or one binding of a column and a constant, in which case the pattern of an
equality of two columns binds nothing. -/
theorem pairBindings_constant {X : Shape} (hX : X.plain) :
    X.pairBindings ExpressionType.COMPARE_EQUAL ExpressionType.VALUE_TUPLE
        ExpressionType.VALUE_CONSTANT = [] ∨
    ∃ (op : AbsExpr_Container) (K : AbstractExpression) (v : Value),
      X.pairBindings ExpressionType.COMPARE_EQUAL ExpressionType.VALUE_TUPLE
          ExpressionType.VALUE_CONSTANT =
        [AbsExpr_Expression.mk op [AbsExpr_Expression.mk ⟨some K⟩ [],
          AbsExpr_Expression.mk ⟨some (expression.ConstantValueExpression v)⟩ []]] ∧
      op.GetType = ExpressionType.COMPARE_EQUAL ∧
      K.isLeafOfTag ExpressionType.VALUE_TUPLE = true ∧ PlainTree K ∧
      X.pairBindings ExpressionType.COMPARE_EQUAL ExpressionType.VALUE_TUPLE
        ExpressionType.VALUE_TUPLE = [] := by
  cases X with
  | leaf op => exact Or.inl rfl
  | node flipped op l r =>
    obtain ⟨_, _, _, hl, hr⟩ := hX
    rw [pairBindings_node, pairBindings_node]
    by_cases h1 : op.GetType = ExpressionType.COMPARE_EQUAL
    · by_cases h2 : flipped = true ∧ op.GetType ∈ equivalentTags ∧
          op.GetType = ExpressionType.COMPARE_EQUAL
      · rw [if_pos h1, if_pos h2, if_pos h1, if_pos h2]
        rcases leaf_kinds hl with ⟨a1, a2⟩ | ⟨K, k1, k2, a1, a2⟩ | ⟨v, a1, a2⟩ <;>
          rcases leaf_kinds hr with ⟨b1, b2⟩ | ⟨K2, k3, k4, b1, b2⟩ | ⟨v2, b1, b2⟩ <;>
          rw [a1, a2, b1, b2] <;>
          first
          | exact Or.inl rfl
          | exact Or.inr ⟨_, _, _, rfl, h1, k1, k2, rfl⟩
          | exact Or.inr ⟨_, _, _, rfl, getType_conjunctionOfType _ ▸ h1, k3, k4, rfl⟩
      · rw [if_pos h1, if_neg h2, if_pos h1, if_neg h2]
        rcases leaf_kinds hl with ⟨a1, a2⟩ | ⟨K, k1, k2, a1, a2⟩ | ⟨v, a1, a2⟩ <;>
          rcases leaf_kinds hr with ⟨b1, b2⟩ | ⟨K2, k3, k4, b1, b2⟩ | ⟨v2, b1, b2⟩ <;>
          rw [a1, b1, b2] <;>
          first
          | exact Or.inl rfl
          | exact Or.inr ⟨_, _, _, rfl, h1, k1, k2, rfl⟩
    · rw [if_neg h1, if_neg (fun hx : flipped = true ∧ op.GetType ∈ equivalentTags ∧
          op.GetType = ExpressionType.COMPARE_EQUAL => h1 hx.2.2)]
      exact Or.inl rfl

/-- The bindings of `AND(Equal(t1, t2), Equal(t3, t4))` at a flipped conjunction:
those of the conjunction as it is written, then those of its flip. -/
theorem andBindings_root (t1 t2 t3 t4 : ExpressionType) (X Y : Shape) :
    (Shape.node true andOp X Y).andBindings t1 t2 t3 t4 =
      ((X.pairBindings ExpressionType.COMPARE_EQUAL t1 t2).flatMap fun p =>
        (Y.pairBindings ExpressionType.COMPARE_EQUAL t3 t4).map fun q =>
          AbsExpr_Expression.mk andOp [p, q]) ++
      ((Y.pairBindings ExpressionType.COMPARE_EQUAL t1 t2).flatMap fun p =>
        (X.pairBindings ExpressionType.COMPARE_EQUAL t3 t4).map fun q =>
          AbsExpr_Expression.mk andOp [p, q]) := by
  have h1 : andOp.GetType = ExpressionType.CONJUNCTION_AND := rfl
  have h2 : (true = true ∧ andOp.GetType ∈ equivalentTags ∧
      andOp.GetType = ExpressionType.CONJUNCTION_AND) := ⟨rfl, by decide, rfl⟩
  rw [andBindings_node, if_pos h1, if_pos h2]
  rfl

theorem product_nil_left {α β γ : Type} (ys : List β) (f : α → β → γ) :
    (([] : List α).flatMap fun p => ys.map fun q => f p q) = [] := rfl

theorem product_nil_right {α β γ : Type} (xs : List α) (f : α → β → γ) :
    (xs.flatMap fun p => ([] : List β).map fun q => f p q) = [] :=
  flatMap_nil_of _ _ (fun _ _ => rfl)

/-- The first output of `TVEqualityWithTwoCVTransform` is the same at the two
orders of a flipped conjunction of two plain shapes. -/
theorem tv_root_comm (cc : Comparability) (hsymm : ∀ u v, cc u v = cc v u)
    (hsame : ∀ u v, cc u v = true → u.CompareEquals v = CmpBool.CmpTrue → u = v)
    {X Y : Shape} (hX : X.plain) (hY : Y.plain) :
    firstOutput cc Rule.TVEqualityWithTwoCVTransform
        ((Shape.node true andOp X Y).andBindings ExpressionType.VALUE_TUPLE
          ExpressionType.VALUE_CONSTANT ExpressionType.VALUE_TUPLE
          ExpressionType.VALUE_CONSTANT) =
      firstOutput cc Rule.TVEqualityWithTwoCVTransform
        ((Shape.node true andOp Y X).andBindings ExpressionType.VALUE_TUPLE
          ExpressionType.VALUE_CONSTANT ExpressionType.VALUE_TUPLE
          ExpressionType.VALUE_CONSTANT) := by
  rw [andBindings_root, andBindings_root]
  rcases pairBindings_constant hX with h | ⟨op1, K1, v1, hl, ht1, hK1, hp1, _⟩
  · rw [h, product_nil_left, product_nil_right]
  · rcases pairBindings_constant hY with h | ⟨op2, K2, v2, hr, ht2, hK2, hp2, _⟩
    · rw [h, product_nil_left, product_nil_right]
    · rw [hl, hr]
      exact firstOutput_pair cc _ _ _
        (tvEquality_comm cc hsymm hsame op1 op2 K1 K2 v1 v2 ht1 ht2 hK1 hK2 hp2)

/-- The bindings of `TransitiveClosureConstantTransform` are the same at the two
orders of a flipped conjunction of two plain shapes: only one of the two orders
binds. -/
theorem tc_root_comm {X Y : Shape} (hX : X.plain) :
    (Shape.node true andOp X Y).andBindings ExpressionType.VALUE_TUPLE
        ExpressionType.VALUE_CONSTANT ExpressionType.VALUE_TUPLE ExpressionType.VALUE_TUPLE =
      (Shape.node true andOp Y X).andBindings ExpressionType.VALUE_TUPLE
        ExpressionType.VALUE_CONSTANT ExpressionType.VALUE_TUPLE
        ExpressionType.VALUE_TUPLE := by
  rw [andBindings_root, andBindings_root]
  rcases pairBindings_constant hX with h | ⟨op, K, v, _, _, _, _, htt⟩
  · rw [h, product_nil_left, List.nil_append, List.append_nil]
  · rw [htt, product_nil_right, List.nil_append, List.append_nil]

theorem replacedBy_none (s : Shape) : s.replacedBy none = s := rfl

theorem replacedBy_some (s : Shape) (out : AbsExpr_Expression) :
    s.replacedBy (some out) = shapeOf false out := rfl

theorem transitiveStep_eq (cc : Comparability) (s : Shape) :
    s.transitiveStep cc =
      (s.replacedBy (firstOutput cc Rule.TVEqualityWithTwoCVTransform
        (s.andBindings ExpressionType.VALUE_TUPLE ExpressionType.VALUE_CONSTANT
          ExpressionType.VALUE_TUPLE ExpressionType.VALUE_CONSTANT))).replacedBy
        (firstOutput cc Rule.TransitiveClosureConstantTransform
          ((s.replacedBy (firstOutput cc Rule.TVEqualityWithTwoCVTransform
            (s.andBindings ExpressionType.VALUE_TUPLE ExpressionType.VALUE_CONSTANT
              ExpressionType.VALUE_TUPLE ExpressionType.VALUE_CONSTANT))).andBindings
            ExpressionType.VALUE_TUPLE ExpressionType.VALUE_CONSTANT
            ExpressionType.VALUE_TUPLE ExpressionType.VALUE_TUPLE)) := rfl

/-- The transitive rules at the two orders of a flipped conjunction of two plain
shapes: they make the same of both, or leave both as they are. -/
theorem transitiveStep_comm (cc : Comparability) (hsymm : ∀ u v, cc u v = cc v u)
    (hsame : ∀ u v, cc u v = true → u.CompareEquals v = CmpBool.CmpTrue → u = v)
    {X Y : Shape} (hX : X.plain) (hY : Y.plain) :
    (Shape.node true andOp X Y).transitiveStep cc =
        (Shape.node true andOp Y X).transitiveStep cc ∨
    ((Shape.node true andOp X Y).transitiveStep cc = Shape.node true andOp X Y ∧
      (Shape.node true andOp Y X).transitiveStep cc = Shape.node true andOp Y X) := by
  rw [transitiveStep_eq, transitiveStep_eq, tv_root_comm cc hsymm hsame hX hY]
  cases firstOutput cc Rule.TVEqualityWithTwoCVTransform
      ((Shape.node true andOp Y X).andBindings ExpressionType.VALUE_TUPLE
        ExpressionType.VALUE_CONSTANT ExpressionType.VALUE_TUPLE
        ExpressionType.VALUE_CONSTANT) with
  | some out => exact Or.inl rfl
  | none =>
    rw [replacedBy_none, replacedBy_none, tc_root_comm hX]
    cases firstOutput cc Rule.TransitiveClosureConstantTransform
        ((Shape.node true andOp Y X).andBindings ExpressionType.VALUE_TUPLE
          ExpressionType.VALUE_CONSTANT ExpressionType.VALUE_TUPLE
          ExpressionType.VALUE_TUPLE) with
    | some out => exact Or.inl rfl
    | none => exact Or.inr ⟨rfl, rfl⟩

/-- A plain shape with a constant value is the leaf of that constant. -/
theorem constant_plain {X : Shape} (hX : X.plain) {v : Value} (h : X.constant = some v) :
    X = Shape.leaf ⟨some (expression.ConstantValueExpression v)⟩ := by
  cases X with
  | leaf op =>
    rcases hX with ⟨w, hw⟩ | ⟨t, c, o, hc⟩
    · subst hw
      have hv : (Shape.leaf ⟨some (expression.ConstantValueExpression w)⟩).constant = some w :=
        rfl
      rw [hv] at h
      simp only [Option.some.injEq] at h
      rw [h]
    · subst hc
      exact Option.noConfusion h
  | node flipped op l r => exact Option.noConfusion h

theorem constant_leaf (v : Value) :
    (Shape.leaf ⟨some (expression.ConstantValueExpression v)⟩).constant = some v := rfl

theorem shortCircuitAt_none {neutral : Bool} {x : Shape} (y : Shape) (h : x.constant = none) :
    Shape.shortCircuitAt neutral x y = none := by
  unfold Shape.shortCircuitAt
  rw [h]

theorem shortCircuitAt_some (neutral : Bool) (x y : Shape) (v : Value)
    (h : x.constant = some v) :
    Shape.shortCircuitAt neutral x y =
      if v = ValueFactory.GetBooleanValueOfBool neutral then some y.copied
      else if v = ValueFactory.GetBooleanValueOfBool (!neutral) then
        some (Shape.leaf ⟨some (expression.ConstantValueExpression
          (ValueFactory.GetBooleanValueOfBool (!neutral)))⟩)
      else none := by
  unfold Shape.shortCircuitAt
  rw [h]

theorem shortCircuit_root (X Y : Shape) :
    (Shape.node true andOp X Y).shortCircuit ExpressionType.CONJUNCTION_AND true =
      match Shape.shortCircuitAt true X Y with
      | some z => some z
      | none => Shape.shortCircuitAt true Y X := by
  have h1 : andOp.GetType = ExpressionType.CONJUNCTION_AND := rfl
  have h2 : (true = true ∧ andOp.GetType ∈ equivalentTags ∧
      andOp.GetType = ExpressionType.CONJUNCTION_AND) := ⟨rfl, by decide, rfl⟩
  rw [shortCircuit_node, if_pos h1, if_pos h2]

/-- `AndShortCircuit` makes the same of the two orders of a flipped conjunction of
two plain shapes. -/
theorem shortCircuit_and_comm {X Y : Shape} (hX : X.plain) (hY : Y.plain) :
    (Shape.node true andOp X Y).shortCircuit ExpressionType.CONJUNCTION_AND true =
      (Shape.node true andOp Y X).shortCircuit ExpressionType.CONJUNCTION_AND true := by
  rw [shortCircuit_root, shortCircuit_root]
  have hne : ValueFactory.GetBooleanValueOfBool true ≠
      ValueFactory.GetBooleanValueOfBool false := by decide
  cases hx : X.constant with
  | none =>
    rw [shortCircuitAt_none Y hx]
    cases Shape.shortCircuitAt true Y X <;> rfl
  | some vx =>
    cases hy : Y.constant with
    | none =>
      rw [shortCircuitAt_none X hy]
      cases Shape.shortCircuitAt true X Y <;> rfl
    | some vy =>
      have eX := constant_plain hX hx
      have eY := constant_plain hY hy
      subst eX
      subst eY
      rw [shortCircuitAt_some true _ _ vx (constant_leaf vx),
        shortCircuitAt_some true _ _ vy (constant_leaf vy)]
      have hnot : (!true) = false := rfl
      rw [hnot]
      by_cases x1 : vx = ValueFactory.GetBooleanValueOfBool true
      · by_cases y1 : vy = ValueFactory.GetBooleanValueOfBool true
        · rw [x1, y1]
        · by_cases y2 : vy = ValueFactory.GetBooleanValueOfBool false
          · rw [x1, y2]
            simp [hne, hne.symm, Shape.copied]
          · simp [x1, y1, y2, hne, hne.symm, Shape.copied]
      · by_cases x2 : vx = ValueFactory.GetBooleanValueOfBool false
        · by_cases y1 : vy = ValueFactory.GetBooleanValueOfBool true
          · rw [x2, y1]
            simp [hne, hne.symm, Shape.copied]
          · by_cases y2 : vy = ValueFactory.GetBooleanValueOfBool false
            · rw [x2, y2]
            · simp [x2, y1, y2, hne, hne.symm, Shape.copied]
        · by_cases y1 : vy = ValueFactory.GetBooleanValueOfBool true
          · simp [x1, x2, y1, hne, hne.symm, Shape.copied]
          · by_cases y2 : vy = ValueFactory.GetBooleanValueOfBool false
            · simp [x1, x2, y1, y2, hne, hne.symm, Shape.copied]
            · simp [x1, x2, y1, y2]

/-- `OrShortCircuit` leaves a conjunction as it is. -/
theorem shortCircuit_or_and (flipped : Bool) (X Y : Shape) :
    (Shape.node flipped andOp X Y).shortCircuit ExpressionType.CONJUNCTION_OR false =
      none := by
  have h1 : ¬ andOp.GetType = ExpressionType.CONJUNCTION_OR := by decide
  rw [shortCircuit_node, if_neg h1]
  simp only
  rw [if_neg (fun hx : flipped = true ∧ andOp.GetType ∈ equivalentTags ∧
    andOp.GetType = ExpressionType.CONJUNCTION_OR => h1 hx.2.2)]

theorem shortCircuited_eq (s : Shape) :
    s.shortCircuited =
      (((s.shortCircuit ExpressionType.CONJUNCTION_AND true).getD s).shortCircuit
        ExpressionType.CONJUNCTION_OR false).getD
        ((s.shortCircuit ExpressionType.CONJUNCTION_AND true).getD s) := rfl

/-- The short-circuit rules at the two orders of a flipped conjunction of two
plain shapes: they make the same of both, or leave both as they are. -/
theorem shortCircuited_comm {X Y : Shape} (hX : X.plain) (hY : Y.plain) :
    (Shape.node true andOp X Y).shortCircuited = (Shape.node true andOp Y X).shortCircuited ∨
    ((Shape.node true andOp X Y).shortCircuited = Shape.node true andOp X Y ∧
      (Shape.node true andOp Y X).shortCircuited = Shape.node true andOp Y X) := by
  rw [shortCircuited_eq, shortCircuited_eq, shortCircuit_and_comm hX hY]
  cases (Shape.node true andOp Y X).shortCircuit ExpressionType.CONJUNCTION_AND true with
  | some z => exact Or.inl rfl
  | none =>
    simp only [Option.getD_none]
    rw [shortCircuit_or_and, shortCircuit_or_and]
    exact Or.inr ⟨rfl, rfl⟩

/-- The top-down pass makes the same of a shape with every fuel that reaches the
height of the shape. -/
theorem topDown_stable :
    ∀ (n m : Nat) (s : Shape), s.height ≤ n → s.height ≤ m → s.topDown n = s.topDown m := by
  intro n
  induction n with
  | zero =>
    intro m s hn _
    have := height_pos s
    omega
  | succ n ih =>
    intro m s hn hm
    cases m with
    | zero =>
      have := height_pos s
      omega
    | succ m =>
      have hle := height_shortCircuited s
      cases hsc : s.shortCircuited with
      | leaf op => rw [topDown_leaf n s op hsc, topDown_leaf m s op hsc]
      | node flipped op l r =>
        rw [hsc, height_node] at hle
        rw [topDown_node n s flipped op l r hsc, topDown_node m s flipped op l r hsc,
          ih m l (by omega) (by omega), ih m r (by omega) (by omega)]

theorem topDown_same (n : Nat) {s t : Shape} (h : s.shortCircuited = t.shortCircuited) :
    s.topDown (n + 1) = t.topDown (n + 1) := by
  rw [Shape.topDown, Shape.topDown, h]

/-- The rewritten shapes of the two orders of a conjunction of two plain trees:
the same shape, or the conjunctions of the rewritten shapes of the operands. -/
theorem rewritten_comm (cc : Comparability) (hsymm : ∀ u v, cc u v = cc v u)
    (hsame : ∀ u v, cc u v = true → u.CompareEquals v = CmpBool.CmpTrue → u = v)
    {a b : AbstractExpression} (ha : PlainTree a) (hb : PlainTree b) :
    Shape.rewritten cc (Rewriter.ConvertToAbsExpr
        (expression.ConjunctionExpression ExpressionType.CONJUNCTION_AND (some a) (some b))) =
      Shape.rewritten cc (Rewriter.ConvertToAbsExpr
        (expression.ConjunctionExpression ExpressionType.CONJUNCTION_AND (some b) (some a))) ∨
    (Shape.rewritten cc (Rewriter.ConvertToAbsExpr
        (expression.ConjunctionExpression ExpressionType.CONJUNCTION_AND (some a) (some b))) =
      Shape.node true andOp (Shape.rewritten cc (Rewriter.ConvertToAbsExpr a))
        (Shape.rewritten cc (Rewriter.ConvertToAbsExpr b)) ∧
    Shape.rewritten cc (Rewriter.ConvertToAbsExpr
        (expression.ConjunctionExpression ExpressionType.CONJUNCTION_AND (some b) (some a))) =
      Shape.node true andOp (Shape.rewritten cc (Rewriter.ConvertToAbsExpr b))
        (Shape.rewritten cc (Rewriter.ConvertToAbsExpr a))) := by
  have hq3 : ∀ s : Shape, s.plain → (Shape.comparatorStep cc s).plain :=
    fun s hs => (optimizes_comparator cc s hs).2
  have hq4 : ∀ s : Shape, s.plain → (Shape.transitiveStep cc s).plain :=
    fun s hs => (optimizes_transitive cc s hs).2
  have hplain : ∀ t : AbstractExpression, PlainTree t →
      (((shapeOf true (Rewriter.ConvertToAbsExpr t)).bottomUp
        (Shape.comparatorStep cc)).bottomUp (Shape.transitiveStep cc)).plain :=
    fun t ht => plain_bottomUp _ hq4 _ (plain_bottomUp _ hq3 _ (plain_shapeOf true ht))
  rw [rewritten_and, rewritten_and, rewritten_eq cc (Rewriter.ConvertToAbsExpr a),
    rewritten_eq cc (Rewriter.ConvertToAbsExpr b)]
  obtain ⟨X, hX⟩ : ∃ X, X = ((shapeOf true (Rewriter.ConvertToAbsExpr a)).bottomUp
    (Shape.comparatorStep cc)).bottomUp (Shape.transitiveStep cc) := ⟨_, rfl⟩
  obtain ⟨Y, hY⟩ : ∃ Y, Y = ((shapeOf true (Rewriter.ConvertToAbsExpr b)).bottomUp
    (Shape.comparatorStep cc)).bottomUp (Shape.transitiveStep cc) := ⟨_, rfl⟩
  have pX : X.plain := hX ▸ hplain a ha
  have pY : Y.plain := hY ▸ hplain b hb
  rw [← hX, ← hY]
  rcases transitiveStep_comm cc hsymm hsame pX pY with h | ⟨h1, h2⟩
  · rw [h]
    exact Or.inl rfl
  · rw [h1, h2, height_node, height_node, Nat.max_comm Y.height X.height]
    rcases shortCircuited_comm pX pY with h | ⟨h3, h4⟩
    · exact Or.inl (topDown_same _ h)
    · right
      rw [topDown_node _ _ true andOp X Y h3, topDown_node _ _ true andOp Y X h4,
        topDown_stable (max X.height Y.height) X.height X (Nat.le_max_left _ _)
          (Nat.le_refl _),
        topDown_stable (max X.height Y.height) Y.height Y (Nat.le_max_right _ _)
          (Nat.le_refl _)]
      exact ⟨rfl, rfl⟩

theorem tree_and {X Y : Shape} {x y : AbstractExpression} (hx : X.tree = some x)
    (hy : Y.tree = some y) :
    (Shape.node true andOp X Y).tree =
      some (expression.ConjunctionExpression ExpressionType.CONJUNCTION_AND
        (some x) (some y)) := by
  rw [Shape.tree, hx, hy]
  rfl

/-- The two orders of a conjunction of two plain trees: `RewriteExpression`
returns the same tree for both, or the conjunction, in the order of the input,
of the trees that it returns for the two operands. -/
theorem rewrite_two_orders (cc : Comparability) (hsymm : ∀ u v, cc u v = cc v u)
    (hsame : ∀ u v, cc u v = true → u.CompareEquals v = CmpBool.CmpTrue → u = v)
    {a b : AbstractExpression} (ha : PlainTree a) (hb : PlainTree b) :
    ∃ x y r1 r2 : AbstractExpression,
      (r1 = r2 ∨
        (r1 = expression.ConjunctionExpression ExpressionType.CONJUNCTION_AND
            (some x) (some y) ∧
          r2 = expression.ConjunctionExpression ExpressionType.CONJUNCTION_AND
            (some y) (some x))) ∧
      ∃ n, ∀ fuel, n ≤ fuel →
        Rewriter.RewriteExpression cc fuel Rewriter.new (some a) =
          Outcome.done (some x, Rewriter.new) ∧
        Rewriter.RewriteExpression cc fuel Rewriter.new (some b) =
          Outcome.done (some y, Rewriter.new) ∧
        Rewriter.RewriteExpression cc fuel Rewriter.new
            (some (expression.ConjunctionExpression ExpressionType.CONJUNCTION_AND
              (some a) (some b))) = Outcome.done (some r1, Rewriter.new) ∧
        Rewriter.RewriteExpression cc fuel Rewriter.new
            (some (expression.ConjunctionExpression ExpressionType.CONJUNCTION_AND
              (some b) (some a))) = Outcome.done (some r2, Rewriter.new) := by
  have hab : PlainTree (expression.ConjunctionExpression ExpressionType.CONJUNCTION_AND
      (some a) (some b)) :=
    PlainTree.conjunction ExpressionType.CONJUNCTION_AND a b (by decide) ha hb
  have hba : PlainTree (expression.ConjunctionExpression ExpressionType.CONJUNCTION_AND
      (some b) (some a)) :=
    PlainTree.conjunction ExpressionType.CONJUNCTION_AND b a (by decide) hb ha
  obtain ⟨_, _, _, _, pa⟩ := leads_rewritten cc ha
  obtain ⟨_, _, _, _, pb⟩ := leads_rewritten cc hb
  obtain ⟨_, _, _, _, pab⟩ := leads_rewritten cc hab
  obtain ⟨_, _, _, _, pba⟩ := leads_rewritten cc hba
  obtain ⟨x, hx⟩ := tree_plain pa
  obtain ⟨y, hy⟩ := tree_plain pb
  obtain ⟨r1, h1⟩ := tree_plain pab
  obtain ⟨r2, h2⟩ := tree_plain pba
  obtain ⟨na, hna⟩ := rewrite_shape cc ha hx
  obtain ⟨nb, hnb⟩ := rewrite_shape cc hb hy
  obtain ⟨n1, hn1⟩ := rewrite_shape cc hab h1
  obtain ⟨n2, hn2⟩ := rewrite_shape cc hba h2
  refine ⟨x, y, r1, r2, ?_, max (max na nb) (max n1 n2), ?_⟩
  · rcases rewritten_comm cc hsymm hsame ha hb with h | ⟨e1, e2⟩
    · rw [h, h2] at h1
      simp only [Option.some.injEq] at h1
      exact Or.inl h1.symm
    · rw [e1, tree_and hx hy] at h1
      rw [e2, tree_and hy hx] at h2
      simp only [Option.some.injEq] at h1 h2
      exact Or.inr ⟨h1.symm, h2.symm⟩
  · intro fuel hfuel
    have f1 : max na nb ≤ fuel := le_trans (le_max_left _ _) hfuel
    have f2 : max n1 n2 ≤ fuel := le_trans (le_max_right _ _) hfuel
    exact ⟨hna fuel (le_trans (le_max_left _ _) f1), hnb fuel (le_trans (le_max_right _ _) f1),
      hn1 fuel (le_trans (le_max_left _ _) f2), hn2 fuel (le_trans (le_max_right _ _) f2)⟩

/-- C21, amended: let the comparability test be symmetric and such that
comparable values that compare equal are the same value.  (1) For all trees
`a` and `b` of constants, column references and two-child comparisons,
conjunctions and operators, `RewriteExpression` on a new rewriter returns, with
any fuel that is enough, the same tree for `AND(a, b)` and for `AND(b, a)`, or
it returns `AND(x, y)` for the one and `AND(y, x)` for the other, where `x` and
`y` are the trees that it returns for `a` and for `b`.  (2) For two equalities
of a column reference and a constant, each written as `column = constant` or as
`constant = column`, `RewriteExpression` returns the same tree for the
conjunction of the two whichever way each is written, unless it returns each
conjunction as it is. -/
theorem rewrite_conjunction_orders (cc : Comparability)
    (hsymm : ∀ u v : Value, cc u v = cc v u)
    (hsame : ∀ u v : Value, cc u v = true → u.CompareEquals v = CmpBool.CmpTrue → u = v) :
    (∀ a b : AbstractExpression, PlainTree a → PlainTree b →
      ∃ x y r1 r2 : AbstractExpression,
        (r1 = r2 ∨
          (r1 = expression.ConjunctionExpression ExpressionType.CONJUNCTION_AND
              (some x) (some y) ∧
            r2 = expression.ConjunctionExpression ExpressionType.CONJUNCTION_AND
              (some y) (some x))) ∧
        ∃ n, ∀ fuel, n ≤ fuel →
          Rewriter.RewriteExpression cc fuel Rewriter.new (some a) =
            Outcome.done (some x, Rewriter.new) ∧
          Rewriter.RewriteExpression cc fuel Rewriter.new (some b) =
            Outcome.done (some y, Rewriter.new) ∧
          Rewriter.RewriteExpression cc fuel Rewriter.new
              (some (expression.ConjunctionExpression ExpressionType.CONJUNCTION_AND
                (some a) (some b))) = Outcome.done (some r1, Rewriter.new) ∧
          Rewriter.RewriteExpression cc fuel Rewriter.new
              (some (expression.ConjunctionExpression ExpressionType.CONJUNCTION_AND
                (some b) (some a))) = Outcome.done (some r2, Rewriter.new)) ∧
    (∀ (t1 c1 : String) (o1 : Option Nat) (t2 c2 : String) (o2 : Option Nat) (v1 v2 : Value)
        (a a2 b b2 : AbstractExpression),
      a ∈ equalityForms (columnRef t1 c1 o1) v1 → a2 ∈ equalityForms (columnRef t1 c1 o1) v1 →
      b ∈ equalityForms (columnRef t2 c2 o2) v2 → b2 ∈ equalityForms (columnRef t2 c2 o2) v2 →
      ∃ r1 r2 : AbstractExpression,
        (r1 = r2 ∨
          (r1 = expression.ConjunctionExpression ExpressionType.CONJUNCTION_AND
              (some a) (some b) ∧
            r2 = expression.ConjunctionExpression ExpressionType.CONJUNCTION_AND
              (some a2) (some b2))) ∧
        ∃ n, ∀ fuel, n ≤ fuel →
          Rewriter.RewriteExpression cc fuel Rewriter.new
              (some (expression.ConjunctionExpression ExpressionType.CONJUNCTION_AND
                (some a) (some b))) = Outcome.done (some r1, Rewriter.new) ∧
          Rewriter.RewriteExpression cc fuel Rewriter.new
              (some (expression.ConjunctionExpression ExpressionType.CONJUNCTION_AND
                (some a2) (some b2))) = Outcome.done (some r2, Rewriter.new)) := by
  constructor
  · intro a b ha hb
    exact rewrite_two_orders cc hsymm hsame ha hb
  · intro t1 c1 o1 t2 c2 o2 v1 v2 a a2 b b2 ha ha2 hb hb2
    obtain ⟨hpa, hsa, _, _⟩ := equalityForms_facts t1 c1 o1 v1 ha
    obtain ⟨hpa2, hsa2, _, _⟩ := equalityForms_facts t1 c1 o1 v1 ha2
    obtain ⟨hpb, hsb, _, _⟩ := equalityForms_facts t2 c2 o2 v2 hb
    obtain ⟨hpb2, hsb2, _, _⟩ := equalityForms_facts t2 c2 o2 v2 hb2
    obtain ⟨r1, hres1, n1, hn1⟩ := rewrite_conjunction cc hpa hpb hsa hsb
    obtain ⟨r2, hres2, n2, hn2⟩ := rewrite_conjunction cc hpa2 hpb2 hsa2 hsb2
    refine ⟨r1, r2, conjunctionResult_forms cc t1 c1 o1 t2 c2 o2 v1 v2 ha ha2 hb hb2 hres1 hres2,
      max n1 n2, ?_⟩
    intro fuel hfuel
    exact ⟨hn1 fuel (le_trans (le_max_left _ _) hfuel),
      hn2 fuel (le_trans (le_max_right _ _) hfuel)⟩

/-- Witness for the amended C21: with the comparability of values of one type,
`(1 = 1) AND (A.B = 5)` and `(A.B = 5) AND (1 = 1)`, the first operand of which
is rewritten itself, are covered by part (1), and `(A.B = 1) AND (A.B = 2)` and
`(1 = A.B) AND (2 = A.B)` by part (2). -/
theorem rewrite_conjunction_orders_witness :
    (∀ u v : Value, sameTypeComparable u v = sameTypeComparable v u) ∧
    (∀ u v : Value, sameTypeComparable u v = true → u.CompareEquals v = CmpBool.CmpTrue →
      u = v) ∧
    PlainTree (expression.ComparisonExpression ExpressionType.COMPARE_EQUAL
      (some (GetConstantExpression 1)) (some (GetConstantExpression 1))) ∧
    PlainTree (expression.ComparisonExpression ExpressionType.COMPARE_EQUAL
      (some (columnRef "A" "B" none)) (some (GetConstantExpression 5))) ∧
    (∃ x y r1 r2 : AbstractExpression,
      (r1 = r2 ∨
        (r1 = expression.ConjunctionExpression ExpressionType.CONJUNCTION_AND
            (some x) (some y) ∧
          r2 = expression.ConjunctionExpression ExpressionType.CONJUNCTION_AND
            (some y) (some x))) ∧
      ∃ n, ∀ fuel, n ≤ fuel →
        Rewriter.RewriteExpression sameTypeComparable fuel Rewriter.new
            (some (expression.ComparisonExpression ExpressionType.COMPARE_EQUAL
              (some (GetConstantExpression 1)) (some (GetConstantExpression 1)))) =
          Outcome.done (some x, Rewriter.new) ∧
        Rewriter.RewriteExpression sameTypeComparable fuel Rewriter.new
            (some (expression.ComparisonExpression ExpressionType.COMPARE_EQUAL
              (some (columnRef "A" "B" none)) (some (GetConstantExpression 5)))) =
          Outcome.done (some y, Rewriter.new) ∧
        Rewriter.RewriteExpression sameTypeComparable fuel Rewriter.new
            (some (expression.ConjunctionExpression ExpressionType.CONJUNCTION_AND
              (some (expression.ComparisonExpression ExpressionType.COMPARE_EQUAL
                (some (GetConstantExpression 1)) (some (GetConstantExpression 1))))
              (some (expression.ComparisonExpression ExpressionType.COMPARE_EQUAL
                (some (columnRef "A" "B" none)) (some (GetConstantExpression 5)))))) =
          Outcome.done (some r1, Rewriter.new) ∧
        Rewriter.RewriteExpression sameTypeComparable fuel Rewriter.new
            (some (expression.ConjunctionExpression ExpressionType.CONJUNCTION_AND
              (some (expression.ComparisonExpression ExpressionType.COMPARE_EQUAL
                (some (columnRef "A" "B" none)) (some (GetConstantExpression 5))))
              (some (expression.ComparisonExpression ExpressionType.COMPARE_EQUAL
                (some (GetConstantExpression 1)) (some (GetConstantExpression 1)))))) =
          Outcome.done (some r2, Rewriter.new)) ∧
    (∃ r1 r2 : AbstractExpression,
      (r1 = r2 ∨
        (r1 = CreateTransitiveExpression (columnRef "A" "B" none) (GetConstantExpression 1)
            (columnRef "A" "B" none) (GetConstantExpression 2) ∧
          r2 = CreateTransitiveExpression (GetConstantExpression 1) (columnRef "A" "B" none)
            (GetConstantExpression 2) (columnRef "A" "B" none))) ∧
      ∃ n, ∀ fuel, n ≤ fuel →
        Rewriter.RewriteExpression sameTypeComparable fuel Rewriter.new
            (some (CreateTransitiveExpression (columnRef "A" "B" none) (GetConstantExpression 1)
              (columnRef "A" "B" none) (GetConstantExpression 2))) =
          Outcome.done (some r1, Rewriter.new) ∧
        Rewriter.RewriteExpression sameTypeComparable fuel Rewriter.new
            (some (CreateTransitiveExpression (GetConstantExpression 1) (columnRef "A" "B" none)
              (GetConstantExpression 2) (columnRef "A" "B" none))) =
          Outcome.done (some r2, Rewriter.new)) :=
  have hpa : PlainTree (expression.ComparisonExpression ExpressionType.COMPARE_EQUAL
      (some (GetConstantExpression 1)) (some (GetConstantExpression 1))) :=
    PlainTree.comparison ExpressionType.COMPARE_EQUAL _ _ (by decide)
      (PlainTree.constant _) (PlainTree.constant _)
  have hpb : PlainTree (expression.ComparisonExpression ExpressionType.COMPARE_EQUAL
      (some (columnRef "A" "B" none)) (some (GetConstantExpression 5))) :=
    PlainTree.comparison ExpressionType.COMPARE_EQUAL _ _ (by decide)
      (PlainTree.column "A" "B" none) (PlainTree.constant _)
  ⟨sameTypeComparable_comm, sameTypeComparable_same, hpa, hpb,
    (rewrite_conjunction_orders sameTypeComparable sameTypeComparable_comm
      sameTypeComparable_same).1 _ _ hpa hpb,
    (rewrite_conjunction_orders sameTypeComparable sameTypeComparable_comm
      sameTypeComparable_same).2 "A" "B" none "A" "B" none (ValueFactory.GetIntegerValue 1)
      (ValueFactory.GetIntegerValue 2) _ _ _ _ (List.Mem.head _) (List.Mem.tail _ (List.Mem.head _))
      (List.Mem.head _) (List.Mem.tail _ (List.Mem.head _))⟩

end peloton
